import Mathlib

/-!
# ucore process manager: a shallow embedding of `kern/process/proc.c`

Descriptors live in a heap indexed by their address, `NULL` is `none`.  The two intrusive
lists (`proc_list`, the buckets of `hash_list`) are Lean lists of descriptor addresses, the
entry right after the list head first.  Calls that leave `proc.c` are recorded, newest
first, in the field `log`; the values they hand back are arguments of the embedded function.
-/

namespace Ucore

/-! ## Constants -/

def PROC_NAME_LEN : Nat := 15
def MAX_PROCESS : Int := 4096
def MAX_PID : Int := MAX_PROCESS * 2

def PF_EXITING : Nat := 0x00000001
def WT_INTERRUPTED : Nat := 0x80000000
def WT_CHILD : Nat := 0x00000001 ||| WT_INTERRUPTED

def HASH_SHIFT : Nat := 10
def HASH_LIST_SIZE : Nat := 1 <<< HASH_SHIFT

/-- Modelled from the spec: error.h is not among the sources; the error taxonomy of the spec,
with the numbers of the ucore header. -/
def E_BAD_PROC : Int := 2
/-- Modelled from the spec: error.h is not among the sources (argument validation). -/
def E_INVAL : Int := 3
/-- Modelled from the spec: error.h is not among the sources (allocation failure). -/
def E_NO_MEM : Int := 4
/-- Modelled from the spec: error.h is not among the sources (task table full). -/
def E_NO_FREE_PROC : Int := 5
/-- Modelled from the spec: error.h is not among the sources (malformed ELF). -/
def E_INVAL_ELF : Int := 8
/-- Modelled from the spec: error.h is not among the sources (target already exiting). -/
def E_KILLED : Int := 9

/-- Modelled from the spec: mmu.h is not among the sources; the page size of the 32-bit x86
target. -/
def PGSIZE : Nat := 4096
/-- Modelled from the spec: memlayout.h is not among the sources; pages of a kernel stack. -/
def KSTACKPAGE : Nat := 2
/-- Modelled from the spec: memlayout.h is not among the sources; the fixed size of a kernel
stack. -/
def KSTACKSIZE : Nat := KSTACKPAGE * PGSIZE
/-- Modelled from the spec: memlayout.h is not among the sources; base of the kernel's linear
map, `PADDR` subtracts it. -/
def KERNBASE : Nat := 0xC0000000
/-- Modelled from the spec: memlayout.h is not among the sources; lower end of the user
address space. -/
def USERBASE : Nat := 0x00200000
/-- Modelled from the spec: memlayout.h is not among the sources; upper end of the user
address space. -/
def USERTOP : Nat := 0xB0000000
/-- Modelled from the spec: memlayout.h is not among the sources; the user stack sits right
below the top of the user address space. -/
def USTACKTOP : Nat := USERTOP
/-- Modelled from the spec: memlayout.h is not among the sources; size of the reserved user
stack region. -/
def USTACKSIZE : Nat := 256 * PGSIZE
/-- Modelled from the spec: memlayout.h is not among the sources; user code segment selector. -/
def USER_CS : Nat := 0x1B
/-- Modelled from the spec: memlayout.h is not among the sources; user data segment selector. -/
def USER_DS : Nat := 0x23
/-- Modelled from the spec: memlayout.h is not among the sources; kernel code segment
selector. -/
def KERNEL_CS : Nat := 0x08
/-- Modelled from the spec: memlayout.h is not among the sources; kernel data segment
selector. -/
def KERNEL_DS : Nat := 0x10
/-- Modelled from the spec: mmu.h is not among the sources; the interrupt-enable flag. -/
def FL_IF : Nat := 0x00000200
/-- Modelled from the spec: sched.h/unistd.h are not among the sources; the share-the-address
space clone flag. -/
def CLONE_VM : Nat := 0x00000100
/-- Modelled from the spec: trap.h is not among the sources; bytes of a trap frame. -/
def SIZEOF_TRAPFRAME : Nat := 76

/-- Arithmetic of `uintptr_t` and `uint32_t` wraps at 2^32. -/
def wrap32 (n : Nat) : Nat := n % 2 ^ 32

/-- Subtraction of `uint32_t` values. -/
def sub32 (a b : Nat) : Nat := (a + 2 ^ 32 - b % 2 ^ 32) % 2 ^ 32

/-- The macro `PADDR`: physical address of a kernel virtual address. -/
def PADDR (kva : Nat) : Nat := sub32 kva KERNBASE

/-! ## Data model -/

/-- Address of a `struct proc_struct`. -/
abbrev Ptr := Nat

inductive proc_state where
  | PROC_UNINIT
  | PROC_SLEEPING
  | PROC_RUNNABLE
  | PROC_ZOMBIE
  deriving DecidableEq, Repr, Inhabited

structure context where
  eip : Nat
  esp : Nat
  ebx : Nat
  ecx : Nat
  edx : Nat
  esi : Nat
  edi : Nat
  ebp : Nat
  deriving DecidableEq, Repr, Inhabited

/-- Modelled from the spec: trap.h is not among the sources; the general registers saved by
`pushal`. -/
structure pushregs where
  reg_edi : Nat
  reg_esi : Nat
  reg_ebp : Nat
  reg_oesp : Nat
  reg_ebx : Nat
  reg_edx : Nat
  reg_ecx : Nat
  reg_eax : Nat
  deriving DecidableEq, Repr, Inhabited

/-- Modelled from the spec: trap.h is not among the sources; the register file saved on
entry to the kernel (padding left out). -/
structure trapframe where
  tf_regs : pushregs
  tf_gs : Nat
  tf_fs : Nat
  tf_es : Nat
  tf_ds : Nat
  tf_trapno : Nat
  tf_err : Nat
  tf_eip : Nat
  tf_cs : Nat
  tf_eflags : Nat
  tf_esp : Nat
  tf_ss : Nat
  deriving DecidableEq, Repr, Inhabited

/-- The result of `memset(&tf, 0, sizeof(struct trapframe))`. -/
def trapframe.zero : trapframe :=
  { tf_regs := ⟨0, 0, 0, 0, 0, 0, 0, 0⟩, tf_gs := 0, tf_fs := 0, tf_es := 0, tf_ds := 0,
    tf_trapno := 0, tf_err := 0, tf_eip := 0, tf_cs := 0, tf_eflags := 0, tf_esp := 0,
    tf_ss := 0 }

/-- The descriptor `struct proc_struct`; `list_link` and `hash_link` are represented by the
position of the descriptor's address in `proc_list` and in its bucket. -/
structure proc_struct where
  state : proc_state
  pid : Int
  runs : Int
  kstack : Nat
  need_resched : Nat
  parent : Option Ptr
  mm : Option Nat
  context : context
  tf : Option Nat
  cr3 : Nat
  flags : Nat
  name : List Nat
  exit_code : Int
  wait_state : Nat
  cptr : Option Ptr
  yptr : Option Ptr
  optr : Option Ptr
  rq : Option Nat
  time_slice : Int
  lab6_stride : Nat
  lab6_priority : Nat
  deriving DecidableEq, Repr, Inhabited

/-- Modelled from the spec: vmm.h is not among the sources; a reserved virtual range with its
permission flags. -/
structure vma_struct where
  vm_start : Nat
  vm_end : Nat
  vm_flags : Nat
  deriving DecidableEq, Repr, Inhabited

/-- Modelled from the spec: vmm.h is not among the sources; an address-space descriptor: the
list of reserved regions, the page directory and the share count. -/
structure mm_struct where
  mmap_list : List vma_struct
  pgdir : Option Nat
  mm_count : Int
  deriving DecidableEq, Repr, Inhabited

/-- A mapped physical page: the permission bits of its page-table entry and its bytes. -/
structure page where
  perm : Nat
  data : Nat → Nat

/-- Calls that leave `proc.c`, as recorded in `State.log`. -/
inductive Call where
  | kmalloc (r : Option Ptr)
  | kfree (p : Ptr)
  | alloc_pages (n : Nat) (kva : Option Nat)
  | free_pages (kva : Option Nat) (n : Nat)
  | wakeup_proc (p : Ptr)
  | schedule
  | mm_create (m : Option Nat)
  | mm_destroy (m : Nat)
  | exit_mmap (m : Nat)
  | dup_mmap (dst src : Nat) (ret : Int)
  | lock_mm (m : Nat)
  | unlock_mm (m : Nat)
  | lcr3 (v : Nat)
  | load_esp0 (v : Nat)
  | switch_to (src dst : Ptr)
  | mm_map (m addr len flags : Nat) (ret : Int)
  | pgdir_alloc_page (pgdir la perm : Nat) (ok : Bool)
  | user_mem_check (addr len : Nat) (write ok : Bool)
  deriving DecidableEq, Repr

/-- Ways in which a run of the embedded code stops without returning. -/
inductive Err where
  | panic_idleproc_exit
  | panic_initproc_exit
  | panic_load_icode_mm
  | panic_wait_idle_or_init
  | panic_create_init_failed
  | panic_alloc_idleproc
  | assert_failed
  | fault
  | out_of_fuel
  deriving DecidableEq, Repr

/-- The global variables of `proc.c`, the kernel memory it reads and writes, and the record of
its outgoing calls. -/
structure State where
  procs : Ptr → Option proc_struct
  proc_list : List Ptr
  hash_list : Nat → List Ptr
  idleproc : Option Ptr
  initproc : Option Ptr
  current : Option Ptr
  nr_process : Int
  next_safe : Int
  last_pid : Int
  mms : Nat → mm_struct
  pgtab : Nat → Nat → Option page
  tfmem : Nat → trapframe
  intmem : Nat → Int
  boot_cr3 : Nat
  bootstack : Nat
  forkret : Nat
  kernel_thread_entry : Nat
  log : List Call

/-- Reading `*p`; a descriptor that is not allocated cannot be read. -/
def State.deref (s : State) (p : Ptr) : Except Err proc_struct :=
  match s.procs p with
  | some d => .ok d
  | none => .error .fault

/-- Reading through a pointer that may be `NULL`. -/
def State.derefp (s : State) (p : Option Ptr) : Except Err proc_struct :=
  match p with
  | some q => s.deref q
  | none => .error .fault

/-- Overwriting `*p`. -/
def State.store (s : State) (p : Ptr) (d : proc_struct) : State :=
  { s with procs := Function.update s.procs p (some d) }

/-- An assignment to fields of `*p`. -/
def State.modify (s : State) (p : Ptr) (f : proc_struct → proc_struct) : Except Err State :=
  match s.procs p with
  | some d => .ok (s.store p (f d))
  | none => .error .fault

/-- Record an outgoing call. -/
def State.call (s : State) (c : Call) : State :=
  { s with log := c :: s.log }

/-- Overwriting `*m` for an address-space descriptor; the memory manager's descriptors are
plain kernel memory, readable at every address. -/
def State.storemm (s : State) (m : Nat) (d : mm_struct) : State :=
  { s with mms := Function.update s.mms m d }

/-- The list primitive `list_add(head, elm)`: insert right after the head. -/
def list_add (l : List Ptr) (elm : Ptr) : List Ptr := elm :: l

/-- The list primitive `list_del(elm)`: unlink the entry. -/
def list_del (l : List Ptr) (elm : Ptr) : List Ptr := l.erase elm

/-! ## Collaborators outside `proc.c` -/

/-- Modelled from the spec: wakeup_proc (kern/schedule/sched.c is not among the sources)
takes a task from SLEEPING or UNINIT to RUNNABLE and adds it to the run set; the reason for
the sleep, `wait_state`, is cleared with it.  A task in another state is left as it is. -/
def wakeup_proc (s : State) (p : Ptr) : Except Err State :=
  match s.procs p with
  | none => .error .fault
  | some d =>
    if d.state = .PROC_SLEEPING ∨ d.state = .PROC_UNINIT then
      .ok ((s.store p { d with state := .PROC_RUNNABLE, wait_state := 0 }).call (.wakeup_proc p))
    else
      .ok (s.call (.wakeup_proc p))

/-- Modelled from the spec: kmalloc (kern/mm/kmalloc.c is not among the sources) hands back
either `NULL` or the address of a block, whose bytes `raw` are whatever the heap held. -/
def kmalloc (s : State) (r : Option (Ptr × proc_struct)) : Option Ptr × State :=
  match r with
  | none => (none, s.call (.kmalloc none))
  | some (p, raw) => (some p, (s.store p raw).call (.kmalloc (some p)))

/-- Modelled from the spec: kfree (kern/mm/kmalloc.c is not among the sources) gives the
descriptor back to the kernel heap. -/
def kfree (s : State) (p : Ptr) : State :=
  { s with procs := Function.update s.procs p none, log := .kfree p :: s.log }

/-- Modelled from the spec: hash32 (libs/hash.c is not among the sources), a 32-bit
multiplicative hash truncated to `bits` bits. -/
def hash32 (val bits : Nat) : Nat := ((val * 0x9e370001) % 2 ^ 32) >>> (32 - bits)

/-- Modelled from the spec: mm_create (kern/mm/vmm.c is not among the sources) hands back
`NULL` or a fresh address-space descriptor: no region, no page directory, share count 0. -/
def mm_create (s : State) (r : Option Nat) : Option Nat × State :=
  match r with
  | none => (none, s.call (.mm_create none))
  | some m =>
    (some m, (s.storemm m { mmap_list := [], pgdir := none, mm_count := 0 }).call
      (.mm_create (some m)))

/-- Modelled from the spec: mm_destroy (kern/mm/vmm.c is not among the sources) frees the
region list and the descriptor. -/
def mm_destroy (s : State) (m : Nat) : State :=
  s.call (.mm_destroy m)

/-- Modelled from the spec: exit_mmap (kern/mm/vmm.c is not among the sources) tears down all
mappings of the address space. -/
def exit_mmap (s : State) (m : Nat) : State :=
  match (s.mms m).pgdir with
  | none => s.call (.exit_mmap m)
  | some pg =>
    { s with pgtab := Function.update s.pgtab pg (fun _ => none), log := .exit_mmap m :: s.log }

/-- Modelled from the spec: mm_count_inc (kern/mm/vmm.h is not among the sources) increments
the share count. -/
def mm_count_inc (s : State) (m : Nat) : State :=
  s.storemm m { s.mms m with mm_count := (s.mms m).mm_count + 1 }

/-- Modelled from the spec: mm_count_dec (kern/mm/vmm.h is not among the sources) decrements
the share count and returns the new count. -/
def mm_count_dec (s : State) (m : Nat) : Int × State :=
  ((s.mms m).mm_count - 1, s.storemm m { s.mms m with mm_count := (s.mms m).mm_count - 1 })

/-- Modelled from the spec: dup_mmap (kern/mm/vmm.c is not among the sources) duplicates the
region list and the mappings, with their permissions and contents, and returns 0; when it
fails it returns the non-zero code `ret` and what it left behind is torn down by the caller. -/
def dup_mmap (s : State) (dst src : Nat) (ret : Int) : State :=
  if ret = 0 then
    match (s.mms dst).pgdir, (s.mms src).pgdir with
    | some dpg, some opg =>
      ({ s with pgtab := Function.update s.pgtab dpg (s.pgtab opg) }.storemm dst
        { s.mms dst with mmap_list := (s.mms src).mmap_list }).call (.dup_mmap dst src ret)
    | _, _ => s.call (.dup_mmap dst src ret)
  else
    s.call (.dup_mmap dst src ret)

/-! ## `proc.c` -/

/-- The C function `alloc_proc`: take a block from the kernel heap and initialise the fields
the source initialises; `exit_code` and the last byte of `name` keep what the block held. -/
def alloc_proc (s : State) (r : Option (Ptr × proc_struct)) : Option Ptr × State :=
  match kmalloc s r with
  | (none, s1) => (none, s1)
  | (some proc, s1) =>
    match s1.procs proc with
    | none => (some proc, s1)
    | some raw =>
      (some proc, s1.store proc
        { raw with
          state := .PROC_UNINIT, pid := -1, runs := 0, kstack := 0, need_resched := 0,
          parent := none, mm := none, context := ⟨0, 0, 0, 0, 0, 0, 0, 0⟩, tf := none,
          cr3 := s1.boot_cr3, flags := 0,
          name := List.replicate PROC_NAME_LEN 0 ++ raw.name.drop PROC_NAME_LEN,
          wait_state := 0, cptr := none, optr := none, yptr := none, rq := none,
          time_slice := 0, lab6_stride := 0, lab6_priority := 0 })

/-- The C function `set_proc_name`; `name` holds the bytes at the source address. -/
def set_proc_name (s : State) (proc : Ptr) (name : List Nat) : Except Err State :=
  s.modify proc (fun d =>
    { d with name := (name ++ List.replicate PROC_NAME_LEN 0).take PROC_NAME_LEN ++ [0] })

/-- The C function `set_links`. -/
def set_links (s : State) (proc : Ptr) : Except Err State := do
  let s := { s with proc_list := list_add s.proc_list proc }
  let s ← s.modify proc (fun d => { d with yptr := none })
  let d ← s.deref proc
  let par ← s.derefp d.parent
  let s ← s.modify proc (fun d => { d with optr := par.cptr })
  let d ← s.deref proc
  let s ← match d.optr with
    | some o => s.modify o (fun e => { e with yptr := some proc })
    | none => .ok s
  let d ← s.deref proc
  let s ← match d.parent with
    | some q => s.modify q (fun e => { e with cptr := some proc })
    | none => .error .fault
  .ok { s with nr_process := s.nr_process + 1 }

/-- The C function `remove_links`. -/
def remove_links (s : State) (proc : Ptr) : Except Err State := do
  let s := { s with proc_list := list_del s.proc_list proc }
  let d ← s.deref proc
  let s ← match d.optr with
    | some o => s.modify o (fun e => { e with yptr := d.yptr })
    | none => .ok s
  let d ← s.deref proc
  let s ← match d.yptr with
    | some y => s.modify y (fun e => { e with optr := d.optr })
    | none =>
      match d.parent with
      | some q => s.modify q (fun e => { e with cptr := d.optr })
      | none => .error .fault
  .ok { s with nr_process := s.nr_process - 1 }

/-- Outcome of one pass of the `while` loop of `get_pid` over the task list. -/
inductive ScanResult where
  | done (last_pid next_safe : Int)
  | again (last_pid : Int)
  | fault
  deriving DecidableEq, Repr

/-- The `while ((le = list_next(le)) != list)` loop of `get_pid`, from the entry `le` on;
`again` is the `goto repeat`. -/
def get_pid_scan (procs : Ptr → Option proc_struct) :
    List Ptr → Int → Int → ScanResult
  | [], last_pid, next_safe => .done last_pid next_safe
  | le :: rest, last_pid, next_safe =>
    match procs le with
    | none => .fault
    | some proc =>
      if proc.pid = last_pid then
        if last_pid + 1 ≥ next_safe then
          .again (if last_pid + 1 ≥ MAX_PID then 1 else last_pid + 1)
        else
          get_pid_scan procs rest (last_pid + 1) next_safe
      else if proc.pid > last_pid ∧ next_safe > proc.pid then
        get_pid_scan procs rest last_pid proc.pid
      else
        get_pid_scan procs rest last_pid next_safe

/-- The label `repeat` of `get_pid`: scan the list, at most `fuel` times. -/
def get_pid_repeat (procs : Ptr → Option proc_struct) (list : List Ptr) :
    Nat → Int → Except Err (Int × Int)
  | 0, _ => .error .out_of_fuel
  | fuel + 1, last_pid =>
    match get_pid_scan procs list last_pid MAX_PID with
    | .done l n => .ok (l, n)
    | .again l => get_pid_repeat procs list fuel l
    | .fault => .error .fault

/-- The C function `get_pid`, with its two static cursors kept in the state. -/
def get_pid (fuel : Nat) (s : State) : Except Err (Int × State) :=
  let last_pid := s.last_pid + 1
  if last_pid ≥ MAX_PID then
    match get_pid_repeat s.procs s.proc_list fuel 1 with
    | .ok (l, n) => .ok (l, { s with last_pid := l, next_safe := n })
    | .error e => .error e
  else if last_pid ≥ s.next_safe then
    match get_pid_repeat s.procs s.proc_list fuel last_pid with
    | .ok (l, n) => .ok (l, { s with last_pid := l, next_safe := n })
    | .error e => .error e
  else
    .ok (last_pid, { s with last_pid := last_pid })

/-- The macro `pid_hashfn`; the `int` argument is converted to `uint32_t`. -/
def pid_hashfn (x : Int) : Nat := hash32 (x % 2 ^ 32).toNat HASH_SHIFT

/-- The C function `hash_proc`. -/
def hash_proc (s : State) (proc : Ptr) : Except Err State := do
  let d ← s.deref proc
  .ok { s with hash_list := Function.update s.hash_list (pid_hashfn d.pid)
                  (list_add (s.hash_list (pid_hashfn d.pid)) proc) }

/-- The C function `unhash_proc`: the entry leaves the bucket it is linked in. -/
def unhash_proc (s : State) (proc : Ptr) : State :=
  { s with hash_list := fun i => list_del (s.hash_list i) proc }

/-- The `while` loop of `find_proc` over one bucket. -/
def find_proc_scan (procs : Ptr → Option proc_struct) (pid : Int) :
    List Ptr → Except Err (Option Ptr)
  | [] => .ok none
  | le :: rest =>
    match procs le with
    | none => .error .fault
    | some proc => if proc.pid = pid then .ok (some le) else find_proc_scan procs pid rest

/-- The C function `find_proc`. -/
def find_proc (s : State) (pid : Int) : Except Err (Option Ptr) :=
  if 0 < pid ∧ pid < MAX_PID then
    find_proc_scan s.procs pid (s.hash_list (pid_hashfn pid))
  else
    .ok none

/-- The C function `proc_run`; the register switch itself is the recorded call
`switch_to`. -/
def proc_run (s : State) (proc : Ptr) : Except Err State :=
  if some proc ≠ s.current then do
    let prev ← match s.current with
      | some c => .ok c
      | none => .error .fault
    let next ← s.deref proc
    let s := { s with current := some proc }
    let s := s.call (.load_esp0 (wrap32 (next.kstack + KSTACKSIZE)))
    let s := s.call (.lcr3 next.cr3)
    .ok (s.call (.switch_to prev proc))
  else
    .ok s

/-- The C function `setup_kstack`; `r` is the kernel address of the pages `alloc_pages`
hands back, or `none`. -/
def setup_kstack (s : State) (r : Option Nat) (proc : Ptr) : Except Err (Int × State) :=
  match r with
  | some kva => do
    let s ← (s.call (.alloc_pages KSTACKPAGE (some kva))).modify proc
      (fun d => { d with kstack := kva })
    .ok (0, s)
  | none => .ok (-E_NO_MEM, s.call (.alloc_pages KSTACKPAGE none))

/-- The C function `put_kstack`. -/
def put_kstack (s : State) (proc : Ptr) : Except Err State := do
  let d ← s.deref proc
  .ok (s.call (.free_pages (some d.kstack) KSTACKPAGE))

/-- The C function `setup_pgdir`: a fresh page directory carries the kernel half and its
self-map only, no user mapping. -/
def setup_pgdir (s : State) (r : Option Nat) (mm : Nat) : Int × State :=
  match r with
  | none => (-E_NO_MEM, s.call (.alloc_pages 1 none))
  | some pgdir =>
    let s := s.call (.alloc_pages 1 (some pgdir))
    let s := { s with pgtab := Function.update s.pgtab pgdir (fun _ => none) }
    (0, s.storemm mm { s.mms mm with pgdir := some pgdir })

/-- The C function `put_pgdir`. -/
def put_pgdir (s : State) (mm : Nat) : State :=
  s.call (.free_pages (s.mms mm).pgdir 1)

/-- Results handed back by the memory manager to `copy_mm`. -/
structure MmEnv where
  mm_create : Option Nat
  alloc_page : Option Nat
  dup_mmap : Int

/-- The label `good_mm` of `copy_mm`. -/
def copy_mm_good (s : State) (mm : Nat) (proc : Ptr) : Except Err (Int × State) := do
  let s := mm_count_inc s mm
  let s ← s.modify proc (fun d => { d with mm := some mm })
  let pg := (s.mms mm).pgdir
  let s ← s.modify proc (fun d => { d with cr3 := PADDR (pg.getD 0) })
  .ok (0, s)

/-- The C function `copy_mm`. -/
def copy_mm (s : State) (env : MmEnv) (clone_flags : Nat) (proc : Ptr) :
    Except Err (Int × State) := do
  let cur ← s.derefp s.current
  match cur.mm with
  | none => .ok (0, s)
  | some oldmm =>
    if clone_flags &&& CLONE_VM ≠ 0 then
      copy_mm_good s oldmm proc
    else
      match mm_create s env.mm_create with
      | (none, s) => .ok (-E_NO_MEM, s)
      | (some mm, s) =>
        match setup_pgdir s env.alloc_page mm with
        | (r, s) =>
          if r ≠ 0 then
            .ok (-E_NO_MEM, mm_destroy s mm)
          else
            let s := s.call (.lock_mm oldmm)
            let s := dup_mmap s mm oldmm env.dup_mmap
            let s := s.call (.unlock_mm oldmm)
            if env.dup_mmap ≠ 0 then
              let s := exit_mmap s mm
              let s := put_pgdir s mm
              .ok (env.dup_mmap, mm_destroy s mm)
            else
              copy_mm_good s mm proc

/-- The C function `copy_thread`. -/
def copy_thread (s : State) (proc : Ptr) (esp : Nat) (tf : trapframe) : Except Err State := do
  let d ← s.deref proc
  let a := sub32 (wrap32 (d.kstack + KSTACKSIZE)) SIZEOF_TRAPFRAME
  let s ← s.modify proc (fun d => { d with tf := some a })
  let s := { s with tfmem := Function.update s.tfmem a tf }
  let t := s.tfmem a
  let r := t.tf_regs
  let s := { s with tfmem := Function.update s.tfmem a { t with tf_regs := { r with reg_eax := 0 } } }
  let t := s.tfmem a
  let s := { s with tfmem := Function.update s.tfmem a { t with tf_esp := esp } }
  let t := s.tfmem a
  let s := { s with tfmem := Function.update s.tfmem a { t with tf_eflags := t.tf_eflags ||| FL_IF } }
  let fr := s.forkret
  let s ← s.modify proc (fun d => { d with context := { d.context with eip := fr } })
  s.modify proc (fun d => { d with context := { d.context with esp := a } })

/-- Results handed back to `do_fork` by the allocators. -/
structure ForkEnv where
  kmalloc : Option (Ptr × proc_struct)
  kstack : Option Nat
  mm : MmEnv

/-- The part of `do_fork` that follows the allocations: `copy_thread`, the critical section
that gives the child its pid and links it into the tables, `wakeup_proc`, and the return of
the child's pid. -/
def do_fork_link (fuel : Nat) (s : State) (proc : Ptr) (stack : Nat) (tf : trapframe) :
    Except Err (Int × State) := do
  let s ← copy_thread s proc stack tf
  let (pid, s) ← get_pid fuel s
  let s ← s.modify proc (fun d => { d with pid := pid })
  let s ← hash_proc s proc
  let s ← set_links s proc
  let s ← wakeup_proc s proc
  let d ← s.deref proc
  .ok (d.pid, s)

/-- The C function `do_fork`; `tf` is the trap frame the argument points to. -/
def do_fork (fuel : Nat) (s : State) (env : ForkEnv) (clone_flags stack : Nat)
    (tf : trapframe) : Except Err (Int × State) :=
  if s.nr_process ≥ MAX_PROCESS then
    .ok (-E_NO_FREE_PROC, s)
  else
    match alloc_proc s env.kmalloc with
    | (none, s) => .ok (-E_NO_MEM, s)
    | (some proc, s) => do
      let s ← s.modify proc (fun d => { d with parent := s.current })
      let cur ← s.derefp s.current
      if cur.wait_state ≠ 0 then .error .assert_failed
      else
        match ← setup_kstack s env.kstack proc with
        | (r, s) =>
          if r ≠ 0 then
            .ok (-E_NO_MEM, kfree s proc)
          else
            match ← copy_mm s env.mm clone_flags proc with
            | (r, s) =>
              if r ≠ 0 then do
                let s ← put_kstack s proc
                .ok (-E_NO_MEM, kfree s proc)
              else
                do_fork_link fuel s proc stack tf

/-- The C function `do_kill`. -/
def do_kill (s : State) (pid : Int) : Except Err (Int × State) := do
  match ← find_proc s pid with
  | some proc =>
    let d ← s.deref proc
    if d.flags &&& PF_EXITING = 0 then
      let s ← s.modify proc (fun d => { d with flags := d.flags ||| PF_EXITING })
      let d ← s.deref proc
      if d.wait_state &&& WT_INTERRUPTED ≠ 0 then
        let s ← wakeup_proc s proc
        .ok (0, s)
      else
        .ok (0, s)
    else
      .ok (-E_KILLED, s)
  | none => .ok (-E_INVAL, s)

/-- First half of the body of the `while (current->cptr != NULL)` loop of `do_exit`: the
first child `proc` of the exiting task `cur` is unlinked and put at the head of the child
list of `initproc`. -/
def do_exit_relink (s : State) (cur proc : Ptr) : Except Err State := do
  let pd ← s.deref proc
  let s ← s.modify cur (fun d => { d with cptr := pd.optr })
  let s ← s.modify proc (fun d => { d with yptr := none })
  let ini ← s.derefp s.initproc
  let s ← s.modify proc (fun d => { d with optr := ini.cptr })
  let pd ← s.deref proc
  let s ← match pd.optr with
    | some _ => do
      let ini ← s.derefp s.initproc
      match ini.cptr with
      | some o => s.modify o (fun d => { d with yptr := some proc })
      | none => .error .fault
    | none => .ok s
  let ip := s.initproc
  let s ← s.modify proc (fun d => { d with parent := ip })
  match s.initproc with
  | some i => s.modify i (fun d => { d with cptr := some proc })
  | none => .error .fault

/-- Second half of the body of the loop: `initproc` is woken if the child handed over is a
zombie and `initproc` waits for a child. -/
def do_exit_wake_init (s : State) (proc : Ptr) : Except Err State := do
  let pd ← s.deref proc
  if pd.state = .PROC_ZOMBIE then do
    let ini ← s.derefp s.initproc
    if ini.wait_state = WT_CHILD then
      match s.initproc with
      | some i => wakeup_proc s i
      | none => .error .fault
    else .ok s
  else .ok s

/-- The body of the `while (current->cptr != NULL)` loop of `do_exit`. -/
def do_exit_reparent_child (s : State) (cur proc : Ptr) : Except Err State := do
  let s ← do_exit_relink s cur proc
  do_exit_wake_init s proc

/-- The `while (current->cptr != NULL)` loop of `do_exit`, run at most `fuel` times: each
child of the exiting task is handed to `initproc`. -/
def do_exit_reparent : Nat → State → Ptr → Except Err State
  | 0, _, _ => .error .out_of_fuel
  | fuel + 1, s, cur => do
    let c ← s.deref cur
    match c.cptr with
    | none => .ok s
    | some proc =>
      let s ← do_exit_reparent_child s cur proc
      do_exit_reparent fuel s cur

/-- The part shared by `do_exit` and `do_execve`: drop the reference to the address space
`mm`, tearing it down on the last release. -/
def release_mm (s : State) (mm : Nat) : State :=
  let s := s.call (.lcr3 s.boot_cr3)
  match mm_count_dec s mm with
  | (n, s) =>
    if n = 0 then
      let s := exit_mmap s mm
      let s := put_pgdir s mm
      mm_destroy s mm
    else s

/-- The part of `do_exit` before its loop: the two checks, the release of the address
space, the marking of the caller as a zombie with its exit code, and the waking of a parent
that waits for a child.  The result is the caller and the state. -/
def do_exit_zombie (s : State) (error_code : Int) : Except Err (Ptr × State) :=
  if s.current = s.idleproc then .error .panic_idleproc_exit
  else if s.current = s.initproc then .error .panic_initproc_exit
  else do
    let cur ← match s.current with
      | some c => .ok c
      | none => .error .fault
    let d ← s.deref cur
    let s ← match d.mm with
      | some mm => (release_mm s mm).modify cur (fun d => { d with mm := none })
      | none => .ok s
    let s ← s.modify cur (fun d => { d with state := .PROC_ZOMBIE })
    let s ← s.modify cur (fun d => { d with exit_code := error_code })
    let d ← s.deref cur
    let par ← s.derefp d.parent
    let s ← if par.wait_state = WT_CHILD then
        match d.parent with
        | some q => wakeup_proc s q
        | none => .error .fault
      else .ok s
    .ok (cur, s)

/-- The C function `do_exit`, up to and including its call of `schedule`, which does not
return to the caller. -/
def do_exit (fuel : Nat) (s : State) (error_code : Int) : Except Err State := do
  let (cur, s) ← do_exit_zombie s error_code
  let s ← do_exit_reparent fuel s cur
  .ok (s.call .schedule)

/-- The C function `do_yield`. -/
def do_yield (s : State) : Except Err (Int × State) := do
  let cur ← match s.current with
    | some c => .ok c
    | none => .error .fault
  let s ← s.modify cur (fun d => { d with need_resched := 1 })
  .ok (0, s)

/-- How a call of `do_wait` leaves the caller: returned with a value, or asleep inside
`schedule`. -/
inductive WaitResult where
  | returned (r : Int)
  | sleeping
  deriving DecidableEq, Repr

/-- The `for (; proc != NULL; proc = proc->optr)` loop of `do_wait`, at most `fuel` rounds.
The result is the zombie found, if any, and the flag `haskid`. -/
def do_wait_scan (procs : Ptr → Option proc_struct) :
    Nat → Option Ptr → Bool → Except Err (Option Ptr × Bool)
  | _, none, haskid => .ok (none, haskid)
  | 0, some _, _ => .error .out_of_fuel
  | fuel + 1, some proc, _ =>
    match procs proc with
    | none => .error .fault
    | some d =>
      if d.state = .PROC_ZOMBIE then .ok (some proc, true)
      else do_wait_scan procs fuel d.optr true

/-- The label `found` of `do_wait`: reap the zombie `proc`. -/
def do_wait_found (s : State) (proc : Ptr) (code_store : Option Nat) :
    Except Err (WaitResult × State) :=
  if some proc = s.idleproc ∨ some proc = s.initproc then .error .panic_wait_idle_or_init
  else do
    let d ← s.deref proc
    let s := match code_store with
      | some a => { s with intmem := Function.update s.intmem a d.exit_code }
      | none => s
    let s := unhash_proc s proc
    let s ← remove_links s proc
    let s ← put_kstack s proc
    .ok (.returned 0, kfree s proc)

/-- The C function `do_wait`, from entry to its return or to its call of `schedule`;
`umc` is the answer of `user_mem_check` for `code_store`. -/
def do_wait (fuel : Nat) (s : State) (umc : Bool) (pid : Int) (code_store : Option Nat) :
    Except Err (WaitResult × State) :=
  if code_store ≠ none ∧ umc = false then .ok (.returned (-E_INVAL), s)
  else do
    let curp ← match s.current with
      | some c => .ok c
      | none => .error .fault
    let (found, haskid) ←
      if pid ≠ 0 then do
        match ← find_proc s pid with
        | some proc =>
          let d ← s.deref proc
          if d.parent = s.current then
            if d.state = .PROC_ZOMBIE then .ok (some proc, true) else .ok (none, true)
          else .ok (none, false)
        | none => .ok (none, false)
      else do
        let cur ← s.deref curp
        do_wait_scan s.procs fuel cur.cptr false
    match found with
    | some proc => do_wait_found s proc code_store
    | none =>
      if haskid then do
        let s ← s.modify curp (fun d => { d with state := .PROC_SLEEPING })
        let s ← s.modify curp (fun d => { d with wait_state := WT_CHILD })
        .ok (.sleeping, s.call .schedule)
      else
        .ok (.returned (-E_BAD_PROC), s)

/-- The C function `kernel_thread`; `fn` and `arg` are the addresses passed. -/
def kernel_thread (fuel : Nat) (s : State) (env : ForkEnv) (fn arg clone_flags : Nat) :
    Except Err (Int × State) :=
  let tf := trapframe.zero
  let tf := { tf with tf_cs := KERNEL_CS }
  let tf := { tf with tf_ds := KERNEL_DS, tf_es := KERNEL_DS, tf_ss := KERNEL_DS }
  let r := tf.tf_regs
  let tf := { tf with tf_regs := { r with reg_ebx := fn } }
  let r := tf.tf_regs
  let tf := { tf with tf_regs := { r with reg_edx := arg } }
  let tf := { tf with tf_eip := s.kernel_thread_entry }
  do_fork fuel s env (clone_flags ||| CLONE_VM) 0 tf

/-- Results handed back to `proc_init`, and the addresses it passes on. -/
structure InitEnv where
  idle : Option (Ptr × proc_struct)
  fork : ForkEnv
  init_main : Nat
  idle_tail : List Nat
  init_tail : List Nat

/-- The first part of `proc_init`: both lists are emptied and `idleproc` is set up and made
the current task. -/
def proc_init_idle (s : State) (env : InitEnv) : Except Err State :=
  let s := { s with proc_list := [] }
  let s := { s with hash_list := fun _ => [] }
  match alloc_proc s env.idle with
  | (none, _) => .error .panic_alloc_idleproc
  | (some idle, s) => do
    let s := { s with idleproc := some idle }
    let s ← s.modify idle (fun d => { d with pid := 0 })
    let s ← s.modify idle (fun d => { d with state := .PROC_RUNNABLE })
    let bs := s.bootstack
    let s ← s.modify idle (fun d => { d with kstack := bs })
    let s ← s.modify idle (fun d => { d with need_resched := 1 })
    let s ← set_proc_name s idle ([105, 100, 108, 101, 0] ++ env.idle_tail)
    let s := { s with nr_process := s.nr_process + 1 }
    .ok { s with current := s.idleproc }

/-- The last part of `proc_init`, after `kernel_thread` has returned `pid`: `initproc` is
looked up and named, and the two assertions are checked. -/
def proc_init_finish (s : State) (env : InitEnv) (pid : Int) : Except Err State := do
  let ip ← find_proc s pid
  let s := { s with initproc := ip }
  let s ← match s.initproc with
    | some i => set_proc_name s i ([105, 110, 105, 116, 0] ++ env.init_tail)
    | none => .error .fault
  let i ← s.derefp s.idleproc
  let n ← s.derefp s.initproc
  if i.pid = (0 : Int) ∧ n.pid = (1 : Int) then .ok s else .error .assert_failed

/-- The C function `proc_init`. -/
def proc_init (fuel : Nat) (s : State) (env : InitEnv) : Except Err State := do
  let s ← proc_init_idle s env
  let (pid, s) ← kernel_thread fuel s env.fork env.init_main 0 0
  if pid ≤ 0 then .error .panic_create_init_failed
  else proc_init_finish s env pid

/-! ## The ELF loader -/

/-- Modelled from the spec: elf.h is not among the sources; magic of an ELF image. -/
def ELF_MAGIC : Nat := 0x464C457F
/-- Modelled from the spec: elf.h is not among the sources; type of a loadable segment. -/
def ELF_PT_LOAD : Nat := 1
/-- Modelled from the spec: elf.h is not among the sources; executable segment flag. -/
def ELF_PF_X : Nat := 1
/-- Modelled from the spec: elf.h is not among the sources; writable segment flag. -/
def ELF_PF_W : Nat := 2
/-- Modelled from the spec: elf.h is not among the sources; readable segment flag. -/
def ELF_PF_R : Nat := 4
/-- Modelled from the spec: vmm.h is not among the sources; region permission bits. -/
def VM_READ : Nat := 0x00000001
/-- Modelled from the spec: vmm.h is not among the sources; region permission bits. -/
def VM_WRITE : Nat := 0x00000002
/-- Modelled from the spec: vmm.h is not among the sources; region permission bits. -/
def VM_EXEC : Nat := 0x00000004
/-- Modelled from the spec: vmm.h is not among the sources; marks the user stack region. -/
def VM_STACK : Nat := 0x00000008
/-- Modelled from the spec: mmu.h is not among the sources; page-table entry bits. -/
def PTE_P : Nat := 0x001
/-- Modelled from the spec: mmu.h is not among the sources; page-table entry bits. -/
def PTE_W : Nat := 0x002
/-- Modelled from the spec: mmu.h is not among the sources; the user-mode bit. -/
def PTE_U : Nat := 0x004
/-- Modelled from the spec: mmu.h is not among the sources; user page, present and writable. -/
def PTE_USER : Nat := PTE_U ||| PTE_W ||| PTE_P

/-- The macro `ROUNDDOWN`. -/
def ROUNDDOWN (a n : Nat) : Nat := a - a % n

/-- The macro `ROUNDUP`, on 32-bit values. -/
def ROUNDUP (a n : Nat) : Nat := ROUNDDOWN (wrap32 (a + n - 1)) n

/-- Modelled from the spec: elf.h is not among the sources; a program header. -/
structure proghdr where
  p_type : Nat
  p_offset : Nat
  p_va : Nat
  p_pa : Nat
  p_filesz : Nat
  p_memsz : Nat
  p_flags : Nat
  p_align : Nat
  deriving DecidableEq, Repr, Inhabited

/-- The image `binary` points to: the fields of its ELF header that `load_icode` reads, the
`e_phnum` program headers found at `binary + e_phoff`, and its bytes by offset. -/
structure binary where
  e_magic : Nat
  e_entry : Nat
  ph : List proghdr
  bytes : Nat → Nat

/-- Results handed back to `load_icode` by the memory manager: `vma_create addr` tells
whether `mm_map` can allocate the region record for the range at `addr`, `page_alloc la`
is what `pgdir_alloc_page` finds for the page at `la`: no page, or a page with these bytes. -/
structure ExecEnv where
  mm_create : Option Nat
  alloc_page : Option Nat
  vma_create : Nat → Bool
  page_alloc : Nat → Option (Nat → Nat)

/-- The macro `USER_ACCESS`. -/
def USER_ACCESS (start end_ : Nat) : Prop := USERBASE ≤ start ∧ start < end_ ∧ end_ ≤ USERTOP

instance (a b : Nat) : Decidable (USER_ACCESS a b) := by
  unfold USER_ACCESS
  infer_instance

/-- Modelled from the spec: mm_map (kern/mm/vmm.c is not among the sources) reserves the
virtual range `[addr, addr + len)`, rounded to pages, in the user address space.  A range
outside the user address space, or one that meets a range reserved before, is refused with
"invalid argument"; failing to allocate the region record gives "out of memory". -/
def mm_map (s : State) (mm addr len vm_flags : Nat) (vma_ok : Bool) : Int × State :=
  let start := ROUNDDOWN addr PGSIZE
  let end_ := ROUNDUP (wrap32 (addr + len)) PGSIZE
  if ¬ USER_ACCESS start end_ then
    (-E_INVAL, s.call (.mm_map mm addr len vm_flags (-E_INVAL)))
  else if (s.mms mm).mmap_list.any (fun v => decide (start < v.vm_end ∧ v.vm_start < end_)) then
    (-E_INVAL, s.call (.mm_map mm addr len vm_flags (-E_INVAL)))
  else if vma_ok = false then
    (-E_NO_MEM, s.call (.mm_map mm addr len vm_flags (-E_NO_MEM)))
  else
    (0, (s.storemm mm { s.mms mm with
          mmap_list := ⟨start, end_, vm_flags⟩ :: (s.mms mm).mmap_list }).call
        (.mm_map mm addr len vm_flags 0))

/-- Modelled from the spec: pgdir_alloc_page (kern/mm/pmm.c is not among the sources)
allocates a page and maps it at `la` with permission `perm`; the result is the page, named
here by the address it is mapped at, or `NULL`. -/
def pgdir_alloc_page (s : State) (pgdir : Option Nat) (la perm : Nat)
    (r : Option (Nat → Nat)) : Option Nat × State :=
  match r with
  | none => (none, s.call (.pgdir_alloc_page (pgdir.getD 0) la perm false))
  | some data =>
    (some la,
      { s with
        pgtab := Function.update s.pgtab (pgdir.getD 0)
          (Function.update (s.pgtab (pgdir.getD 0)) la (some ⟨perm, data⟩)),
        log := .pgdir_alloc_page (pgdir.getD 0) la perm true :: s.log })

/-- The call `memcpy(page2kva(page) + off, src, size)` for the page mapped at `la`. -/
def page_memcpy (s : State) (pgdir : Option Nat) (la off size : Nat) (src : Nat → Nat) :
    State :=
  match s.pgtab (pgdir.getD 0) la with
  | none => s
  | some pg =>
    { s with
      pgtab := Function.update s.pgtab (pgdir.getD 0)
        (Function.update (s.pgtab (pgdir.getD 0)) la
          (some { pg with
            data := fun i => if off ≤ i ∧ i < off + size then src (i - off) else pg.data i })) }

/-- The call `memset(page2kva(page) + off, 0, size)` for the page mapped at `la`. -/
def page_memset (s : State) (pgdir : Option Nat) (la off size : Nat) : State :=
  page_memcpy s pgdir la off size (fun _ => 0)

/-- The byte an address space holds at the user address `va`, if a page is mapped there. -/
def user_byte (s : State) (pgdir : Nat) (va : Nat) : Option Nat :=
  (s.pgtab pgdir (ROUNDDOWN va PGSIZE)).map (fun pg => pg.data (va % PGSIZE))

/-- Where a loop of `load_icode` over the pages of a segment leaves off. -/
inductive LoadStep where
  | bad (s : State)
  | next (s : State) (start la : Nat) (page : Option Nat)

/-- The loop `while (start < end)` of step (3.6.1): copy the file bytes page by page. -/
def load_copy (env : ExecEnv) (img : binary) (pgdir : Option Nat) (perm end_ : Nat) :
    Nat → State → Nat → Nat → Nat → Option Nat → Except Err LoadStep
  | 0, _, _, _, _, _ => .error .out_of_fuel
  | fuel + 1, s, start, la, src, page =>
    if start < end_ then
      match pgdir_alloc_page s pgdir la perm (env.page_alloc la) with
      | (none, s) => .ok (.bad s)
      | (some pg, s) =>
        let off := sub32 start la
        let size := sub32 PGSIZE off
        let la := wrap32 (la + PGSIZE)
        let size := if end_ < la then sub32 size (sub32 la end_) else size
        let s := page_memcpy s pgdir pg off size (fun i => img.bytes (src + i))
        load_copy env img pgdir perm end_ fuel s (wrap32 (start + size)) la (src + size)
          (some pg)
    else .ok (.next s start la page)

/-- The second loop `while (start < end)` of step (3.6.2): further zeroed pages. -/
def load_bss (env : ExecEnv) (pgdir : Option Nat) (perm end_ : Nat) :
    Nat → State → Nat → Nat → Option Nat → Except Err LoadStep
  | 0, _, _, _, _ => .error .out_of_fuel
  | fuel + 1, s, start, la, page =>
    if start < end_ then
      match pgdir_alloc_page s pgdir la perm (env.page_alloc la) with
      | (none, s) => .ok (.bad s)
      | (some pg, s) =>
        let off := sub32 start la
        let size := sub32 PGSIZE off
        let la := wrap32 (la + PGSIZE)
        let size := if end_ < la then sub32 size (sub32 la end_) else size
        let s := page_memset s pgdir pg off size
        load_bss env pgdir perm end_ fuel s (wrap32 (start + size)) la (some pg)
    else .ok (.next s start la page)

/-- The permission bits `vm_flags` of step (3.5). -/
def seg_vm_flags (ph : proghdr) : Nat :=
  let vm_flags := 0
  let vm_flags := if ph.p_flags &&& ELF_PF_X ≠ 0 then vm_flags ||| VM_EXEC else vm_flags
  let vm_flags := if ph.p_flags &&& ELF_PF_W ≠ 0 then vm_flags ||| VM_WRITE else vm_flags
  if ph.p_flags &&& ELF_PF_R ≠ 0 then vm_flags ||| VM_READ else vm_flags

/-- The page permission `perm` of step (3.5). -/
def seg_perm (ph : proghdr) : Nat :=
  if seg_vm_flags ph &&& VM_WRITE ≠ 0 then PTE_U ||| PTE_W else PTE_U

/-- The `if (start < la)` block of step (3.6.2): the rest of the last page of the file part
is zeroed, up to the end of the segment.  The result is `none` for the `continue` taken when
`p_memsz == p_filesz`, and the new value of `start` otherwise. -/
def load_tail (s : State) (pgdir : Option Nat) (end_ start la : Nat) (page : Option Nat) :
    Except Err (Option Nat × State) :=
  if start < la then
    if start = end_ then .ok (none, s)
    else
      let off := sub32 (wrap32 (start + PGSIZE)) la
      let size := sub32 PGSIZE off
      let size := if end_ < la then sub32 size (sub32 la end_) else size
      match page with
      | none => .error .fault
      | some pg =>
        let s := page_memset s pgdir pg off size
        let start := wrap32 (start + size)
        if (end_ < la ∧ start = end_) ∨ (end_ ≥ la ∧ start = la) then
          .ok (some start, s)
        else .error .assert_failed
  else .ok (some start, s)

/-- Steps (3.6.1) and (3.6.2) for one `PT_LOAD` header, after `mm_map` has reserved the
range: the file bytes are copied and the rest of the segment is zeroed. -/
def load_pages (fuel : Nat) (s : State) (env : ExecEnv) (img : binary) (pgdir : Option Nat)
    (ph : proghdr) : Except Err (Int × State) := do
  let perm := seg_perm ph
  let start := ph.p_va
  let la := ROUNDDOWN start PGSIZE
  let end_ := wrap32 (ph.p_va + ph.p_filesz)
  match ← load_copy env img pgdir perm end_ fuel s start la ph.p_offset none with
  | .bad s => .ok (-E_NO_MEM, s)
  | .next s start la page =>
    let end_ := wrap32 (ph.p_va + ph.p_memsz)
    match ← load_tail s pgdir end_ start la page with
    | (none, s) => .ok (0, s)
    | (some start, s) =>
      match ← load_bss env pgdir perm end_ fuel s start la page with
      | .bad s => .ok (-E_NO_MEM, s)
      | .next s _ _ _ => .ok (0, s)

/-- Steps (3.5) to (3.6.2) for one `PT_LOAD` header with `0 < p_filesz <= p_memsz`.  The
result is the value of `ret` and the state; a non-zero `ret` is the jump to
`bad_cleanup_mmap`. -/
def load_segment (fuel : Nat) (s : State) (env : ExecEnv) (img : binary) (mm : Nat)
    (ph : proghdr) : Except Err (Int × State) :=
  match mm_map s mm ph.p_va ph.p_memsz (seg_vm_flags ph) (env.vma_create ph.p_va) with
  | (r, s) =>
    if r ≠ 0 then .ok (r, s)
    else load_pages fuel s env img (s.mms mm).pgdir ph

/-- The loop `for (; ph < ph_end; ph ++)` of `load_icode`. -/
def load_segments (fuel : Nat) (env : ExecEnv) (img : binary) (mm : Nat) :
    State → List proghdr → Except Err (Int × State)
  | s, [] => .ok (0, s)
  | s, ph :: rest =>
    if ph.p_type ≠ ELF_PT_LOAD then load_segments fuel env img mm s rest
    else if ph.p_filesz > ph.p_memsz then .ok (-E_INVAL_ELF, s)
    else if ph.p_filesz = 0 then load_segments fuel env img mm s rest
    else
      match load_segment fuel s env img mm ph with
      | .error e => .error e
      | .ok (r, s) => if r ≠ 0 then .ok (r, s) else load_segments fuel env img mm s rest

/-- The labels `bad_cleanup_mmap`, `bad_elf_cleanup_pgdir`, `bad_pgdir_cleanup_mm`. -/
def load_bad_cleanup_mmap (s : State) (mm : Nat) : State :=
  mm_destroy (put_pgdir (exit_mmap s mm) mm) mm

/-- One of the four `assert(pgdir_alloc_page(...) != NULL)` of step (4). -/
def load_stack_page (s : State) (env : ExecEnv) (mm : Nat) (la : Nat) : Except Err State :=
  match pgdir_alloc_page s (s.mms mm).pgdir la PTE_USER (env.page_alloc la) with
  | (none, _) => .error .assert_failed
  | (some _, s) => .ok s

/-- Steps (5) and (6) of `load_icode`: bind the address space to the current task and
rewrite its trap frame. -/
def load_finish (s : State) (mm : Nat) (cur : Ptr) (e_entry : Nat) : Except Err (Int × State) := do
  let s := mm_count_inc s mm
  let s ← s.modify cur (fun d => { d with mm := some mm })
  let pa := PADDR ((s.mms mm).pgdir.getD 0)
  let s ← s.modify cur (fun d => { d with cr3 := pa })
  let s := s.call (.lcr3 pa)
  let d ← s.deref cur
  match d.tf with
  | none => .error .fault
  | some tf =>
    let s := { s with tfmem := Function.update s.tfmem tf trapframe.zero }
    let t := s.tfmem tf
    let s := { s with tfmem := Function.update s.tfmem tf { t with tf_cs := USER_CS } }
    let t := s.tfmem tf
    let t := { t with tf_ds := USER_DS, tf_es := USER_DS, tf_ss := USER_DS }
    let s := { s with tfmem := Function.update s.tfmem tf t }
    let t := s.tfmem tf
    let s := { s with tfmem := Function.update s.tfmem tf { t with tf_esp := USTACKTOP } }
    let t := s.tfmem tf
    let s := { s with tfmem := Function.update s.tfmem tf { t with tf_eip := e_entry } }
    let t := s.tfmem tf
    let s := { s with tfmem := Function.update s.tfmem tf { t with tf_eflags := FL_IF } }
    .ok (0, s)

/-- The C function `load_icode`. -/
def load_icode (fuel : Nat) (s : State) (env : ExecEnv) (img : binary) :
    Except Err (Int × State) := do
  let curp ← match s.current with
    | some c => .ok c
    | none => .error .fault
  let cur ← s.deref curp
  if cur.mm ≠ none then .error .panic_load_icode_mm
  else
    match mm_create s env.mm_create with
    | (none, s) => .ok (-E_NO_MEM, s)
    | (some mm, s) =>
      match setup_pgdir s env.alloc_page mm with
      | (r, s) =>
        if r ≠ 0 then .ok (-E_NO_MEM, mm_destroy s mm)
        else if img.e_magic ≠ ELF_MAGIC then
          .ok (-E_INVAL_ELF, mm_destroy (put_pgdir s mm) mm)
        else
          match ← load_segments fuel env img mm s img.ph with
          | (r, s) =>
            if r ≠ 0 then .ok (r, load_bad_cleanup_mmap s mm)
            else
              match mm_map s mm (USTACKTOP - USTACKSIZE) USTACKSIZE
                  (VM_READ ||| VM_WRITE ||| VM_STACK) (env.vma_create (USTACKTOP - USTACKSIZE)) with
              | (r, s) =>
                if r ≠ 0 then .ok (r, load_bad_cleanup_mmap s mm)
                else do
                  let s ← load_stack_page s env mm (USTACKTOP - PGSIZE)
                  let s ← load_stack_page s env mm (USTACKTOP - 2 * PGSIZE)
                  let s ← load_stack_page s env mm (USTACKTOP - 3 * PGSIZE)
                  let s ← load_stack_page s env mm (USTACKTOP - 4 * PGSIZE)
                  load_finish s mm curp img.e_entry

/-- How a call of `do_execve` leaves the caller: returned with a value, or inside the
`schedule` of `do_exit`. -/
inductive ExecResult where
  | returned (r : Int)
  | exited
  deriving DecidableEq, Repr

/-- The C function `do_execve`; `umc` is the answer of `user_mem_check` for the name, and
`name` the bytes found there. -/
def do_execve (fuel : Nat) (s : State) (env : ExecEnv) (umc : Bool) (name : List Nat)
    (len : Nat) (img : binary) : Except Err (ExecResult × State) := do
  let curp ← match s.current with
    | some c => .ok c
    | none => .error .fault
  let cur ← s.deref curp
  if umc = false then .ok (.returned (-E_INVAL), s)
  else
    let len := if len > PROC_NAME_LEN then PROC_NAME_LEN else len
    let local_name := name.take len
    let s ← match cur.mm with
      | some mm => (release_mm s mm).modify curp (fun d => { d with mm := none })
      | none => .ok s
    match ← load_icode fuel s env img with
    | (ret, s) =>
      if ret ≠ 0 then do
        let s ← do_exit fuel s ret
        .ok (.exited, s)
      else do
        let s ← set_proc_name s curp local_name
        .ok (.returned 0, s)

/-- Modelled from the spec: schedule (kern/schedule/sched.c is not among the sources) picks
a task `next` and `proc_run`s it; the caller's `need_resched` is cleared and the chosen
task's `runs` counted. -/
def schedule (s : State) (next : Ptr) : Except Err State := do
  let curp ← match s.current with
    | some c => .ok c
    | none => .error .fault
  let s ← s.modify curp (fun d => { d with need_resched := 0 })
  let s ← s.modify next (fun d => { d with runs := d.runs + 1 })
  proc_run s next

/-! ## Reachable states of the task manager -/

/-- The statics of `proc.c` as their initialisers leave them, before `proc_init` runs, with
no descriptor allocated yet. -/
def Boot (s : State) : Prop :=
  s.procs = (fun _ => none) ∧ s.idleproc = none ∧ s.initproc = none ∧ s.current = none ∧
    s.nr_process = 0 ∧ s.next_safe = MAX_PID ∧ s.last_pid = MAX_PID

/-- Contract of the kernel heap: the block `kmalloc` hands back is not a live descriptor. -/
def FreshProc (s : State) (r : Option (Ptr × proc_struct)) : Prop :=
  ∀ p raw, r = some (p, raw) → s.procs p = none

/-- Contract of the memory manager: the descriptor `mm_create` hands back is not in use by
a task other than `except`. -/
def FreshMm (s : State) (r : Option Nat) (except : Option Ptr) : Prop :=
  ∀ m, r = some m → ∀ q d, s.procs q = some d → some q ≠ except → d.mm ≠ some m

/-- The task `p` is allocated and RUNNABLE. -/
def Runnable (s : State) (p : Ptr) : Prop :=
  ∃ d, s.procs p = some d ∧ d.state = .PROC_RUNNABLE

/-- States the kernel can be in between two operations of the running task: after
`proc_init`, any sequence of `do_fork`, `do_execve`, `do_exit`, `do_wait`, `do_kill`,
`do_yield` by the current task and of scheduler switches to a RUNNABLE task.  `do_exit` and
a sleeping `do_wait` end in `schedule`, which hands the CPU to the next task. -/
inductive Reachable : State → Prop
  | init (fuel : Nat) (s0 s : State) (env : InitEnv) :
      Boot s0 →
      (∀ p raw q raw', env.idle = some (p, raw) → env.fork.kmalloc = some (q, raw') → q ≠ p) →
      proc_init fuel s0 env = .ok s → Reachable s
  | fork (fuel : Nat) (s s' : State) (env : ForkEnv) (clone_flags stack : Nat)
      (tf : trapframe) (r : Int) :
      Reachable s → FreshProc s env.kmalloc → FreshMm s env.mm.mm_create none →
      do_fork fuel s env clone_flags stack tf = .ok (r, s') → Reachable s'
  | exit (fuel : Nat) (s s1 s' : State) (error_code : Int) (next : Ptr) :
      Reachable s → do_exit fuel s error_code = .ok s1 → Runnable s1 next →
      schedule s1 next = .ok s' → Reachable s'
  | wait_return (fuel : Nat) (s s' : State) (umc : Bool) (pid : Int)
      (code_store : Option Nat) (r : Int) :
      Reachable s → do_wait fuel s umc pid code_store = .ok (.returned r, s') → Reachable s'
  | wait_sleep (fuel : Nat) (s s1 s' : State) (umc : Bool) (pid : Int)
      (code_store : Option Nat) (next : Ptr) :
      Reachable s → do_wait fuel s umc pid code_store = .ok (.sleeping, s1) →
      Runnable s1 next → schedule s1 next = .ok s' → Reachable s'
  | kill (s s' : State) (pid : Int) (r : Int) :
      Reachable s → do_kill s pid = .ok (r, s') → Reachable s'
  | yield (s s' : State) (r : Int) :
      Reachable s → do_yield s = .ok (r, s') → Reachable s'
  | resched (s s' : State) (next : Ptr) :
      Reachable s → Runnable s next → schedule s next = .ok s' → Reachable s'
  | execve_return (fuel : Nat) (s s' : State) (env : ExecEnv) (umc : Bool) (name : List Nat)
      (len : Nat) (img : binary) (r : Int) :
      Reachable s → FreshMm s env.mm_create s.current →
      do_execve fuel s env umc name len img = .ok (.returned r, s') → Reachable s'
  | execve_exit (fuel : Nat) (s s1 s' : State) (env : ExecEnv) (umc : Bool) (name : List Nat)
      (len : Nat) (img : binary) (next : Ptr) :
      Reachable s → FreshMm s env.mm_create s.current →
      do_execve fuel s env umc name len img = .ok (.exited, s1) →
      Runnable s1 next → schedule s1 next = .ok s' → Reachable s'

/-! ## Well-formedness of the task tables -/

/-- The child list of `par`: starting at `first` and following `optr`, the descriptors met
are exactly those of `l`, each has parent `par`, and each has the one before it as `yptr`
(`y` for the first). -/
def Chain (procs : Ptr → Option proc_struct) (par : Ptr) :
    Option Ptr → Option Ptr → List Ptr → Prop
  | first, _, [] => first = none
  | first, y, x :: l =>
    first = some x ∧
      ∃ d, procs x = some d ∧ d.parent = some par ∧ d.yptr = y ∧ Chain procs par d.optr (some x) l

/-- The descriptor `r` has a well-formed child list, whose first entry has `yptr == y`, and
every descriptor whose parent is `r` is on it. -/
def FamAt (s : State) (r : Ptr) (y : Option Ptr) : Prop :=
  ∃ dr l, s.procs r = some dr ∧ Chain s.procs r dr.cptr y l ∧ l.Nodup ∧
    (∀ x ∈ l, x ∈ s.proc_list) ∧
    (∀ x dx, s.procs x = some dx → dx.parent = some r → x ∈ l)

/-- The pid `v` is held by a descriptor of the list. -/
def InUse (procs : Ptr → Option proc_struct) (list : List Ptr) (v : Int) : Prop :=
  ∃ p ∈ list, ∃ d, procs p = some d ∧ d.pid = v

/-- The pid of the descriptor at `p`, if allocated. -/
def pid_of (s : State) (p : Ptr) : Option Int := (s.procs p).map (fun d => d.pid)

/-- The task `x` descends from the idle task: following `parent` from `x` ends at `idle`. -/
inductive Up (procs : Ptr → Option proc_struct) (idle : Option Ptr) : Ptr → Prop
  | top (i : Ptr) : idle = some i → Up procs idle i
  | step (x r : Ptr) (d : proc_struct) :
      procs x = some d → d.parent = some r → Up procs idle r → Up procs idle x

/-- Structural well-formedness of the tables.  With `exc = some t` the first child of `t`
may carry a stale `yptr`, as it does inside the loop of `do_exit`. -/
structure Struct (exc : Option Ptr) (s : State) : Prop where
  nodup : s.proc_list.Nodup
  valid : ∀ p, (s.procs p).isSome ↔ (p ∈ s.proc_list ∨ s.idleproc = some p)
  idle : ∃ i d, s.idleproc = some i ∧ i ∉ s.proc_list ∧ s.procs i = some d ∧ d.pid = 0 ∧
    d.parent = none
  pid_range : ∀ p ∈ s.proc_list, ∀ d, s.procs p = some d → 1 ≤ d.pid ∧ d.pid < MAX_PID
  pid_inj : ∀ p ∈ s.proc_list, ∀ q ∈ s.proc_list, pid_of s p = pid_of s q → p = q
  window : ∀ p ∈ s.proc_list, ∀ d, s.procs p = some d →
    d.pid ≤ s.last_pid ∨ s.next_safe ≤ d.pid
  cursors : 0 ≤ s.last_pid ∧ s.next_safe ≤ MAX_PID
  count : s.nr_process = s.proc_list.length + 1 ∧ s.nr_process ≤ MAX_PROCESS
  hash : ∀ i p, p ∈ s.hash_list i ↔
    (p ∈ s.proc_list ∧ ∃ d, s.procs p = some d ∧ pid_hashfn d.pid = i)
  hash_nodup : ∀ i, (s.hash_list i).Nodup
  parent : ∀ p ∈ s.proc_list, ∀ d, s.procs p = some d →
    ∃ r, d.parent = some r ∧ (s.procs r).isSome
  noself : ∀ p d, s.procs p = some d → d.parent ≠ some p
  fam : ∀ r, (s.procs r).isSome → ∃ y, (some r ≠ exc → y = none) ∧ FamAt s r y
  idle_links : ∀ i d, s.idleproc = some i → s.procs i = some d → d.optr = none ∧ d.yptr = none
  up : ∀ x, (s.procs x).isSome → Up s.procs s.idleproc x

/-- Scheduling well-formedness: what the states of the tasks promise.  With `exc = some t`
the task `t` is the one inside `do_exit`, a zombie that still hands over its children. -/
structure Sched (exc : Option Ptr) (s : State) : Prop where
  ws : ∀ p d, s.procs p = some d → d.state = .PROC_RUNNABLE → d.wait_state = 0
  zombie : ∀ p d, s.procs p = some d → d.state = .PROC_ZOMBIE → some p ≠ exc → d.cptr = none
  init : ∃ n d, s.initproc = some n ∧ n ∈ s.proc_list ∧ s.procs n = some d ∧
    d.state ≠ .PROC_ZOMBIE ∧ d.parent = s.idleproc
  idle : ∀ i d, s.idleproc = some i → s.procs i = some d → d.state ≠ .PROC_ZOMBIE

/-- The current task is allocated and RUNNABLE. -/
def CurOk (s : State) : Prop :=
  ∃ c d, s.current = some c ∧ s.procs c = some d ∧ d.state = .PROC_RUNNABLE

/-- The invariant of the task manager. -/
structure Inv (s : State) : Prop where
  struct : Struct none s
  sched : Sched none s
  cur : CurOk s

/-- The two descriptors, or their absence, agree on pid and family pointers. -/
def CoreEq (a b : Option proc_struct) : Prop :=
  match a, b with
  | none, none => True
  | some d, some d' =>
    d'.pid = d.pid ∧ d'.parent = d.parent ∧ d'.cptr = d.cptr ∧ d'.yptr = d.yptr ∧
      d'.optr = d.optr
  | _, _ => False

/-- The step from `s` to `s'` leaves the tables, the cursors, the distinguished tasks and
the pid and family pointers of every descriptor alone. -/
structure SameCore (s s' : State) : Prop where
  proc_list : s'.proc_list = s.proc_list
  hash_list : s'.hash_list = s.hash_list
  nr_process : s'.nr_process = s.nr_process
  last_pid : s'.last_pid = s.last_pid
  next_safe : s'.next_safe = s.next_safe
  idleproc : s'.idleproc = s.idleproc
  initproc : s'.initproc = s.initproc
  procs : ∀ x, CoreEq (s.procs x) (s'.procs x)

/-- The step from `s` to `s'` changes nothing but the memory manager's data (address-space
descriptors, page tables) and the record of calls. -/
def MmOnly (s s' : State) : Prop :=
  s' = { s with mms := s'.mms, pgtab := s'.pgtab, log := s'.log }

/-- The step from `s` to `s'` leaves every descriptor, both tables, the counter, the pid
cursors and the distinguished tasks as they were. -/
structure SameTasks (s s' : State) : Prop where
  procs : s'.procs = s.procs
  proc_list : s'.proc_list = s.proc_list
  hash_list : s'.hash_list = s.hash_list
  nr_process : s'.nr_process = s.nr_process
  last_pid : s'.last_pid = s.last_pid
  next_safe : s'.next_safe = s.next_safe
  idleproc : s'.idleproc = s.idleproc
  initproc : s'.initproc = s.initproc
  current : s'.current = s.current

/-- The case in which `copy_mm` gives up: the parent has an address space (`cur_mm`), it is
not to be shared, and one of `mm_create`, `setup_pgdir`, `dup_mmap` fails. -/
def copy_mm_fails (cur_mm : Option Nat) (env : MmEnv) (clone_flags : Nat) : Prop :=
  cur_mm ≠ none ∧ clone_flags &&& CLONE_VM = 0 ∧
    (env.mm_create = none ∨ env.alloc_page = none ∨ env.dup_mmap ≠ 0)

/-! ## The pages of a program segment -/

/-- First address of the pages the segment of the program header `ph` occupies. -/
def seg_lo (ph : proghdr) : Nat := ROUNDDOWN ph.p_va PGSIZE

/-- End of the pages the segment of the program header `ph` occupies. -/
def seg_hi (ph : proghdr) : Nat := ROUNDUP (wrap32 (ph.p_va + ph.p_memsz)) PGSIZE

/-- The segments of `a` and `b` occupy disjoint pages. -/
def SegDisjoint (a b : proghdr) : Prop := seg_hi a ≤ seg_lo b ∨ seg_hi b ≤ seg_lo a

instance (a b : proghdr) : Decidable (SegDisjoint a b) := by
  unfold SegDisjoint
  infer_instance

/-- The page-directory base of every descriptor agrees with its address space: a task
without address space that is not a zombie runs on the kernel's page directory, and a task
with an address space runs on the page directory of that address space. -/
def MmOk (s : State) : Prop :=
  ∀ x d, s.procs x = some d →
    (d.mm = none → d.state ≠ .PROC_ZOMBIE → d.cr3 = s.boot_cr3) ∧
    (∀ m, d.mm = some m → d.cr3 = PADDR ((s.mms m).pgdir.getD 0))

/-- The descriptor `d` agrees with its address space in the state `s`, and that address
space is not `xm`. -/
def EntryOk (s : State) (xm : Option Nat) (d : proc_struct) : Prop :=
  (d.mm = none → d.state ≠ .PROC_ZOMBIE → d.cr3 = s.boot_cr3) ∧
  (∀ m, d.mm = some m → d.cr3 = PADDR ((s.mms m).pgdir.getD 0) ∧ some m ≠ xm)

/-- Every descriptor but that of `xp` agrees with its address space, and none of them uses
the address space `xm`. -/
def MmOkX (xp : Option Ptr) (xm : Option Nat) (s : State) : Prop :=
  ∀ x d, s.procs x = some d → some x ≠ xp → EntryOk s xm d

/-- The step from `s` to `s'` leaves the kernel's page directory alone, the page directory
of every address space but `xm`, and in every descriptor the field `cr3`; in every
descriptor but that of `xp` it leaves `mm` alone and does not revive a zombie.  No
descriptor appears. -/
structure MmKeep (xp : Option Ptr) (xm : Option Nat) (s s' : State) : Prop where
  boot : s'.boot_cr3 = s.boot_cr3
  pgdir : ∀ m, some m ≠ xm → (s'.mms m).pgdir = (s.mms m).pgdir
  procs : ∀ x d', s'.procs x = some d' → ∃ d, s.procs x = some d ∧ d'.cr3 = d.cr3 ∧
    (some x ≠ xp → d'.mm = d.mm ∧ (d.state = .PROC_ZOMBIE → d'.state = .PROC_ZOMBIE))

/-- The step from `s` to `s'` leaves the page directory of every address space alone. -/
def PgSame (s s' : State) : Prop := ∀ m, (s'.mms m).pgdir = (s.mms m).pgdir

/-! ## Scenarios -/

/-- The scenario of `n` calls of `get_pid`, where each id returned is given to a new task:
the task of the `k`-th call has its descriptor at address `k` and is put on the task list. -/
def get_pid_fill (fuel : Nat) : Nat → State → Except Err State
  | 0, s => .ok s
  | n + 1, s => do
    let s ← get_pid_fill fuel n s
    let (pid, s) ← get_pid fuel s
    .ok { s with
      procs := Function.update s.procs (n + 1) (some { (default : proc_struct) with pid := pid }),
      proc_list := list_add s.proc_list (n + 1) }

/-- The scenario step in which the task at `z` is removed again: it leaves the task list and
its descriptor is freed. -/
def drop_task (s : State) (z : Ptr) : State :=
  { s with procs := Function.update s.procs z none, proc_list := list_del s.proc_list z }

/-- The scenario of `n` successive calls `do_wait(0, &c)` by the current task, with `c` at
the address `a`, each of which returns 0: the result lists the values found in `c` after
each call, first call first.  A call that does not return 0 ends the scenario with
`assert_failed`. -/
def wait_n (fuel : Nat) (a : Nat) : Nat → State → Except Err (List Int × State)
  | 0, s => .ok ([], s)
  | n + 1, s => do
    let (r, s1) ← do_wait fuel s true 0 (some a)
    if r = .returned 0 then do
      let (cs, s2) ← wait_n fuel a n s1
      .ok (s1.intmem a :: cs, s2)
    else .error .assert_failed

/-! ## A small machine, used to instantiate the theorems -/

/-- A block of the kernel heap as `kmalloc` hands it out, before it is initialised: the 16
bytes of `name` hold what the heap held, here 0xCC. -/
def raw_block : proc_struct :=
  { (default : proc_struct) with name := List.replicate (PROC_NAME_LEN + 1) 0xCC }

/-- The machine before `proc_init`: no descriptor, the statics as initialised. -/
def boot0 : State :=
  { procs := fun _ => none, proc_list := [], hash_list := fun _ => [], idleproc := none,
    initproc := none, current := none, nr_process := 0, next_safe := MAX_PID,
    last_pid := MAX_PID, mms := fun _ => default, pgtab := fun _ _ => none,
    tfmem := fun _ => trapframe.zero, intmem := fun _ => 0, boot_cr3 := 0x100000,
    bootstack := 0xC0110000, forkret := 0xC0100100, kernel_thread_entry := 0xC0100200,
    log := [] }

/-- What the allocators hand back during `proc_init`: the idle descriptor at 100, the init
descriptor at 200 with its kernel stack. -/
def boot_env : InitEnv :=
  { idle := some (100, raw_block),
    fork := { kmalloc := some (200, raw_block), kstack := some 0xC0200000,
              mm := { mm_create := none, alloc_page := none, dup_mmap := 0 } },
    init_main := 0xC0100300, idle_tail := [], init_tail := [] }

/-- The machine right after `proc_init`. -/
def booted : State :=
  match proc_init 20000 boot0 boot_env with
  | .ok s => s
  | .error _ => boot0

/-- What the allocators hand back to a `do_fork`: a descriptor at 300 with its kernel
stack. -/
def fork_env : ForkEnv :=
  { kmalloc := some (300, raw_block), kstack := some 0xC0300000,
    mm := { mm_create := none, alloc_page := none, dup_mmap := 0 } }

/-- Allocator answers for a `do_fork` that finds no memory for the descriptor. -/
def fork_env_no_mem : ForkEnv :=
  { kmalloc := none, kstack := none,
    mm := { mm_create := none, alloc_page := none, dup_mmap := 0 } }

/-- The machine after the idle task has forked a kernel thread. -/
def forked : State :=
  match do_fork 20000 booted fork_env CLONE_VM 0 trapframe.zero with
  | .ok (_, s) => s
  | .error _ => booted

/-- The machine after the scheduler has switched to the new thread. -/
def child_running : State :=
  match schedule forked 300 with
  | .ok s => s
  | .error _ => forked

/-- The machine after the new thread has called `do_exit(42)` and the scheduler has switched
back to the idle task. -/
def child_exited : State :=
  match do_exit 20000 child_running 42 with
  | .ok s =>
    match schedule s 100 with
    | .ok t => t
    | .error _ => s
  | .error _ => child_running

/-- A machine with a single task, pid 5 at address 7, asleep in an interruptible wait. -/
def kill_demo : State :=
  { boot0 with
    procs := fun p =>
      if p = 7 then
        some { raw_block with pid := 5, state := .PROC_SLEEPING, wait_state := WT_CHILD }
      else none,
    proc_list := [7],
    hash_list := fun i => if i = pid_hashfn 5 then [7] else [],
    nr_process := 1 }

/-- Allocator answers for a `do_fork` that gets its descriptor but no kernel stack. -/
def fork_env_no_stack : ForkEnv :=
  { kmalloc := some (300, raw_block), kstack := none,
    mm := { mm_create := none, alloc_page := none, dup_mmap := 0 } }

/-- What the allocators hand back to a second `do_fork`: a descriptor at 400 with its kernel
stack. -/
def fork_env_grand : ForkEnv :=
  { kmalloc := some (400, raw_block), kstack := some 0xC0400000,
    mm := { mm_create := none, alloc_page := none, dup_mmap := 0 } }

/-- The machine after the new thread has itself forked a thread. -/
def grand_forked : State :=
  match do_fork 20000 child_running fork_env_grand CLONE_VM 0 trapframe.zero with
  | .ok (_, s) => s
  | .error _ => child_running

/-- The machine after the scheduler has switched to the thread at 400. -/
def grand_running : State :=
  match schedule grand_forked 400 with
  | .ok s => s
  | .error _ => grand_forked

/-- The machine after the thread at 400 has called `do_exit(7)` and the scheduler has
switched back to its parent, the thread at 300. -/
def grand_exited : State :=
  match do_exit 20000 grand_running 7 with
  | .ok s =>
    match schedule s 300 with
    | .ok t => t
    | .error _ => s
  | .error _ => grand_running

/-- The machine after the idle task has reaped its zombie child with `do_wait(0, &c)`, `c`
at address 7. -/
def child_reaped : State :=
  match do_wait 20000 child_exited true 0 (some 7) with
  | .ok (_, s) => s
  | .error _ => child_exited

/-- A machine whose current task, pid 5 at address 7, has no address space and its trap
frame at address 0, as `do_execve` leaves it for `load_icode`. -/
def exec_demo : State :=
  { boot0 with
    procs := fun p =>
      if p = 7 then some { raw_block with pid := 5, state := .PROC_RUNNABLE, tf := some 0 }
      else none,
    proc_list := [7],
    hash_list := fun i => if i = pid_hashfn 5 then [7] else [],
    nr_process := 1,
    current := some 7 }

/-- Answers of the memory manager to a `load_icode` that finds all the memory it asks for;
the pages it gets are filled with the byte 0xCC. -/
def exec_env : ExecEnv :=
  { mm_create := some 1, alloc_page := some 0xC0400000, vma_create := fun _ => true,
    page_alloc := fun _ => some (fun _ => 0xCC) }

/-- Answers of the memory manager to a `load_icode` whose `mm_create` finds no memory. -/
def exec_env_no_mm : ExecEnv :=
  { mm_create := none, alloc_page := none, vma_create := fun _ => true,
    page_alloc := fun _ => some (fun _ => 0xCC) }

/-- An image with one loadable segment: 0x1800 bytes of file data at offset 0x1000, loaded
at 0x800020, followed by zeroes up to 0x3000 bytes. -/
def demo_image : binary :=
  { e_magic := ELF_MAGIC, e_entry := 0x800020,
    ph := [{ p_type := ELF_PT_LOAD, p_offset := 0x1000, p_va := 0x800020, p_pa := 0x800020,
             p_filesz := 0x1800, p_memsz := 0x3000, p_flags := 5, p_align := 0x1000 }],
    bytes := fun i => i % 251 }

/-- The same image with a wrong magic number. -/
def bad_magic_image : binary := { demo_image with e_magic := 0 }

/-- An image with valid magic whose loadable segment has more file bytes than memory. -/
def bad_size_image : binary :=
  { demo_image with
    ph := [{ p_type := ELF_PT_LOAD, p_offset := 0x1000, p_va := 0x800020, p_pa := 0x800020,
             p_filesz := 0x1800, p_memsz := 0x1000, p_flags := 5, p_align := 0x1000 }] }

/-- The machine after the thread at 300 has replaced its image by `demo_image`. -/
def child_execed : State :=
  match do_execve 2000000 child_running exec_env true [115, 104] 2 demo_image with
  | .ok (_, s) => s
  | .error _ => child_running

/-- The machine after the task at 300, now with an address space of its own, has called
`do_exit(0)` and the scheduler has switched back to the idle task. -/
def exec_exited : State :=
  match do_exit 20000 child_execed 0 with
  | .ok s =>
    match schedule s 100 with
    | .ok t => t
    | .error _ => s
  | .error _ => child_execed

end Ucore

namespace Ucore

/-! ## The boot-sector signer, `tools/sign.c` -/

/-- What the C library answers to the calls of `main` in `sign.c`: the number of arguments,
the size `stat` reports for the input file (`none` when `stat` fails), the bytes of the input
file, the number of bytes `fread` hands over and the number of bytes `fwrite` writes. -/
structure SignEnv where
  argc : Nat
  st_size : Option Int
  input : List Nat
  fread : Nat
  fwrite : Nat

/-- The buffer `buf` of `sign.c` after `memset`, `fread` of `n` bytes and the two stores of
the signature. -/
def sign_buf (input : List Nat) (n : Nat) : List Nat :=
  let buf := List.replicate 512 0
  let buf := input.take n ++ buf.drop (input.take n).length
  let buf := buf.set 510 0x55
  buf.set 511 0xAA

/-- The C function `main` of `sign.c`.  The result is the value returned and the bytes of the
output file, `none` when the output file was not opened. -/
def sign_main (env : SignEnv) : Int × Option (List Nat) :=
  if env.argc ≠ 3 then (-1, none)
  else
    match env.st_size with
    | none => (-1, none)
    | some size =>
      if size > 510 then (-1, none)
      else
        let got := min env.fread (min size.toNat env.input.length)
        if (got : Int) ≠ size then (-1, none)
        else
          let buf := sign_buf env.input got
          let written := min env.fwrite 512
          if written ≠ 512 then (-1, some (buf.take written))
          else (0, some buf)

/-- The run of `sign.c` on the input file `input` in which `stat`, `fread` and `fwrite` do
their work in full. -/
def sign_env (input : List Nat) : SignEnv :=
  { argc := 3, st_size := some input.length, input := input, fread := input.length,
    fwrite := 512 }

/-! ## Relations between the states before and after a call -/

/-- No descriptor has become a zombie from `s` to `s'`: a descriptor that is `PROC_ZOMBIE` in
`s'` was one in `s`. -/
def NoNewZombie (s s' : State) : Prop :=
  ∀ x d', s'.procs x = some d' → d'.state = .PROC_ZOMBIE →
    ∃ d, s.procs x = some d ∧ d.state = .PROC_ZOMBIE

/-- The step from `s` to `s'` leaves the share count of every address space alone. -/
def CntSame (s s' : State) : Prop := ∀ m, (s'.mms m).mm_count = (s.mms m).mm_count

/-- The calls that neither take memory from an allocator nor give memory back: those to the
scheduler and to the processor. -/
def Call.quiet : Call → Bool
  | .wakeup_proc _ => true
  | .schedule => true
  | .lcr3 _ => true
  | .load_esp0 _ => true
  | .switch_to _ _ => true
  | _ => false

/-- From `s` to `s'` only quiet calls were made, no descriptor was allocated or freed, and
every descriptor kept its kernel stack and its address space. -/
def Quiet (s s' : State) : Prop :=
  (∃ l, s'.log = l ++ s.log ∧ ∀ c ∈ l, c.quiet = true) ∧
  ∀ x, (s'.procs x).map (fun d => (d.kstack, d.mm)) =
    (s.procs x).map (fun d => (d.kstack, d.mm))

/-- Modelled from the spec: the page allocator (kern/mm/pmm.c) is not among the sources.
The pages that the calls of a log, oldest last, have taken from it and not given back: a
successful `alloc_pages(n)` takes `n` pages, `free_pages(_, n)` gives `n` back. -/
def pages_taken : List Call → Int
  | [] => 0
  | .alloc_pages n (some _) :: l => pages_taken l + n
  | .free_pages _ n :: l => pages_taken l - n
  | _ :: l => pages_taken l

/-- Modelled from the spec: the kernel heap (kern/mm/kmalloc.c) is not among the sources.
The blocks that the calls of a log, oldest last, have taken from it and not given back: a
successful `kmalloc` takes one, `kfree` gives one back. -/
def blocks_taken : List Call → Int
  | [] => 0
  | .kmalloc (some _) :: l => blocks_taken l + 1
  | .kfree _ :: l => blocks_taken l - 1
  | _ :: l => blocks_taken l

/-- Modelled from the spec: nr_free_pages (kern/mm/pmm.c is not among the sources) is the
count of free physical pages; `free0` is its value when the log of calls was empty.  Only the
calls `alloc_pages` and `free_pages` that `proc.c` makes itself are accounted for. -/
def nr_free_pages (free0 : Int) (s : State) : Int := free0 - pages_taken s.log

/-- Modelled from the spec: kallocated (kern/mm/kmalloc.c is not among the sources) is the
count of kernel-heap bytes in use; `used0` is its value when the log of calls was empty, and
`size` is `sizeof(struct proc_struct)`, the size of every block `proc.c` asks for. -/
def kallocated (used0 : Int) (size : Nat) (s : State) : Int :=
  used0 + size * blocks_taken s.log

/-- The state in which `do_execve` calls `load_icode`: the caller `c`, whose descriptor was
`dc`, has given up its address space. -/
def execve_released (s : State) (c : Ptr) (dc : proc_struct) : State :=
  match dc.mm with
  | some m => (release_mm s m).store c { dc with mm := none }
  | none => s

/-- The machine after `proc_init` and a switch of the scheduler to `initproc`. -/
def init_running : State :=
  match schedule booted 200 with
  | .ok s => s
  | .error _ => booted

/-- The image `demo_image` with the magic number 0xDEADBEEF. -/
def deadbeef_image : binary := { demo_image with e_magic := 0xDEADBEEF }

/-- How the code of `do_wait` after its `schedule` leaves the caller: inside `do_exit`, or
back in the loop of `do_wait` with the result of that. -/
inductive ResumeResult where
  | exited
  | again (r : WaitResult)
  deriving DecidableEq, Repr

/-- The code of `do_wait` from the return of its call of `schedule` on: a caller with
`PF_EXITING` set calls `do_exit(-E_KILLED)`, another one takes the `goto repeat`.  The label
`repeat` lies behind the check of `code_store`, which the caller has passed when it gets
here, so the loop is `do_wait` with the answer `true` of `user_mem_check`. -/
def do_wait_resume (fuel : Nat) (s : State) (pid : Int) (code_store : Option Nat) :
    Except Err (ResumeResult × State) := do
  let curp ← match s.current with
    | some c => .ok c
    | none => .error .fault
  let cur ← s.deref curp
  if cur.flags &&& PF_EXITING ≠ 0 then do
    let s ← do_exit fuel s (-E_KILLED)
    .ok (.exited, s)
  else do
    let (r, s) ← do_wait fuel s true pid code_store
    .ok (.again r, s)

/-- The machine after `initproc` has forked a thread, at 300. -/
def init_forked : State :=
  match do_fork 20000 init_running fork_env CLONE_VM 0 trapframe.zero with
  | .ok (_, s) => s
  | .error _ => init_running

/-- The machine after `initproc` has called `do_wait(0, NULL)` and gone to sleep. -/
def init_asleep : State :=
  match do_wait 20000 init_forked true 0 none with
  | .ok (_, s) => s
  | .error _ => init_forked

/-- The machine in which `initproc` sleeps in `do_wait` and its child, at 300, runs. -/
def init_waiting : State :=
  match schedule init_asleep 300 with
  | .ok s => s
  | .error _ => init_asleep

/-- The machine after the idle task has called `do_wait(0, NULL)` and gone to sleep. -/
def idle_asleep : State :=
  match do_wait 20000 booted true 0 none with
  | .ok (_, s) => s
  | .error _ => booted

/-- The machine in which the idle task sleeps in `do_wait` and `initproc` runs. -/
def idle_waiting : State :=
  match schedule idle_asleep 200 with
  | .ok s => s
  | .error _ => idle_asleep

/-- The machine after the thread at 300, parent of the thread at 400, has called `do_kill`
with its own pid, 2. -/
def self_killed : State :=
  match do_kill grand_forked 2 with
  | .ok (_, s) => s
  | .error _ => grand_forked

/-- The machine after that thread has then called `do_wait(0, NULL)` and gone to sleep. -/
def flagged_asleep : State :=
  match do_wait 20000 self_killed true 0 none with
  | .ok (_, s) => s
  | .error _ => self_killed

/-- The machine in which the thread at 300 sleeps in `do_wait` with `PF_EXITING` set and its
child, at 400, runs. -/
def flagged_waiting : State :=
  match schedule flagged_asleep 400 with
  | .ok s => s
  | .error _ => flagged_asleep

/-- The machine after the thread at 300, parent of the thread at 400, has called
`do_wait(0, NULL)` and gone to sleep. -/
def child_asleep : State :=
  match do_wait 20000 grand_forked true 0 none with
  | .ok (_, s) => s
  | .error _ => grand_forked

/-- The machine in which the thread at 300 sleeps in `do_wait` and its child, at 400, runs. -/
def child_waiting : State :=
  match schedule child_asleep 400 with
  | .ok s => s
  | .error _ => child_asleep

/-! ## The boot loader, `boot/bootmain.c` -/

/-- The disk: byte `i` of sector `secno`. -/
abbrev Disk := Nat → Nat → Nat

/-- Physical memory: the byte at each address. -/
abbrev Mem := Nat → Nat

def SECTSIZE : Nat := 512

/-- The scratch space `ELFHDR`. -/
def ELFHDR : Nat := 0x10000

/-- The C function `readsect`.  The port I/O of x86.h is not among the sources: the
controller is taken to be ready and to hand over the sector whose 28-bit number was written
to the ports 0x1F3 to 0x1F6, and `insl` stores its 512 bytes from `dst` upwards. -/
def readsect (disk : Disk) (m : Mem) (dst secno : Nat) : Mem :=
  fun a => if sub32 a dst < SECTSIZE then disk (secno % 2 ^ 28) (sub32 a dst) else m a

/-- The `for` loop of `readseg`, at most `fuel` rounds. -/
def readseg_loop (disk : Disk) (end_va : Nat) : Nat → Mem → Nat → Nat → Except Err Mem
  | 0, _, _, _ => .error .out_of_fuel
  | fuel + 1, m, va, secno =>
    if va < end_va then
      readseg_loop disk end_va fuel (readsect disk m va secno) (wrap32 (va + SECTSIZE))
        (wrap32 (secno + 1))
    else .ok m

/-- The C function `readseg`. -/
def readseg (fuel : Nat) (disk : Disk) (m : Mem) (va count offset : Nat) : Except Err Mem :=
  let end_va := wrap32 (va + count)
  let va := sub32 va (offset % SECTSIZE)
  let secno := wrap32 (offset / SECTSIZE + 1)
  readseg_loop disk end_va fuel m va secno

/-- Byte `k` of the kernel image, which starts at sector 1 of the disk. -/
def image (disk : Disk) (k : Nat) : Nat := disk (k / SECTSIZE + 1) (k % SECTSIZE)

/-- A little-endian `uint32_t` read at address `a`. -/
def rd32 (m : Mem) (a : Nat) : Nat :=
  m a % 256 + 256 * (m (wrap32 (a + 1)) % 256) + 65536 * (m (wrap32 (a + 2)) % 256) +
    16777216 * (m (wrap32 (a + 3)) % 256)

/-- A little-endian `uint16_t` read at address `a`. -/
def rd16 (m : Mem) (a : Nat) : Nat :=
  m a % 256 + 256 * (m (wrap32 (a + 1)) % 256)

/-- Modelled from the spec: elf.h is not among the sources; the place of the field `e_entry`
in `struct elfhdr`, as in the ELF32 format. -/
def OFF_E_ENTRY : Nat := 24

/-- Modelled from the spec: elf.h is not among the sources; the place of `e_phoff`. -/
def OFF_E_PHOFF : Nat := 28

/-- Modelled from the spec: elf.h is not among the sources; the place of `e_phnum`, a
`uint16_t`. -/
def OFF_E_PHNUM : Nat := 44

/-- Modelled from the spec: elf.h is not among the sources; the size of `struct proghdr`. -/
def SIZEOF_PROGHDR : Nat := 32

/-- Modelled from the spec: elf.h is not among the sources; the place of `p_offset` in
`struct proghdr`. -/
def OFF_P_OFFSET : Nat := 4

/-- Modelled from the spec: elf.h is not among the sources; the place of `p_va`. -/
def OFF_P_VA : Nat := 8

/-- Modelled from the spec: elf.h is not among the sources; the place of `p_memsz`. -/
def OFF_P_MEMSZ : Nat := 20

/-- A call `readseg(va, count, offset)`. -/
structure SegCall where
  va : Nat
  count : Nat
  offset : Nat
  deriving DecidableEq, Repr

/-- The call of `readseg` that `bootmain` makes for the program header at address `ph`. -/
def seg_call (m : Mem) (ph : Nat) : SegCall :=
  { va := rd32 m (wrap32 (ph + OFF_P_VA)) &&& 0xFFFFFF,
    count := rd32 m (wrap32 (ph + OFF_P_MEMSZ)),
    offset := rd32 m (wrap32 (ph + OFF_P_OFFSET)) }

/-- The loop `for (; ph < eph; ph ++)` of `bootmain`, at most `n` rounds; the calls of
`readseg` are recorded in the order they are made. -/
def bootmain_segments (fuel : Nat) (disk : Disk) (eph : Nat) :
    Nat → Mem → Nat → List SegCall → Except Err (Mem × List SegCall)
  | 0, _, _, _ => .error .out_of_fuel
  | n + 1, m, ph, calls =>
    if ph < eph then
      let c := seg_call m ph
      match readseg fuel disk m c.va c.count c.offset with
      | .error e => .error e
      | .ok m1 =>
        bootmain_segments fuel disk eph n m1 (wrap32 (ph + SIZEOF_PROGHDR)) (calls ++ [c])
    else .ok (m, calls)

/-- How `bootmain` ends: at the label `bad`, or with the jump to the entry point. -/
inductive BootEnd where
  | bad
  | entered (entry : Nat)
  deriving DecidableEq, Repr

/-- The C function `bootmain`.  The result is how it ends, the memory then, and the calls of
`readseg` it has made. -/
def bootmain (fuel : Nat) (disk : Disk) (m : Mem) : Except Err (BootEnd × Mem × List SegCall) :=
  match readseg fuel disk m ELFHDR (SECTSIZE * 8) 0 with
  | .error e => .error e
  | .ok m =>
    let first : SegCall := ⟨ELFHDR, SECTSIZE * 8, 0⟩
    if rd32 m ELFHDR ≠ ELF_MAGIC then .ok (.bad, m, [first])
    else
      let ph := wrap32 (ELFHDR + rd32 m (ELFHDR + OFF_E_PHOFF))
      let eph := wrap32 (ph + SIZEOF_PROGHDR * rd16 m (ELFHDR + OFF_E_PHNUM))
      match bootmain_segments fuel disk eph fuel m ph [first] with
      | .error e => .error e
      | .ok (m, calls) => .ok (.entered (rd32 m (ELFHDR + OFF_E_ENTRY) &&& 0xFFFFFF), m, calls)

/-- The memory that holds the kernel image from `ELFHDR` on. -/
def image_at_hdr (disk : Disk) : Mem := fun a => image disk (a - ELFHDR)

/-- A small kernel image: an ELF header with one program header at offset 52, which asks for
8 bytes from offset 0x1000 of the image at the address 0xC0100000; entry point 0x100000. -/
def demo_kernel (k : Nat) : Nat :=
  match k with
  | 0 => 0x7F | 1 => 0x45 | 2 => 0x4C | 3 => 0x46
  | 26 => 0x10
  | 28 => 52
  | 44 => 1
  | 57 => 0x10
  | 62 => 0x10 | 63 => 0xC0
  | 72 => 8
  | _ => if 4096 ≤ k then k % 251 + 1 else 0

/-- A disk with `demo_kernel` from sector 1 on. -/
def demo_disk : Disk := fun sec i => if sec = 0 then 0xEB else demo_kernel ((sec - 1) * 512 + i)

/-- A disk of zeroes: no ELF magic. -/
def blank_disk : Disk := fun _ _ => 0

/-- Memory of zeroes. -/
def mem0 : Mem := fun _ => 0

/-- A kernel image with valid magic whose program header table is not in the first eight
sectors: `e_phoff` is 0x1000, `e_phnum` is 1, and the program header at offset 0x1000 asks
for 8 bytes from offset 0x2000 of the image at the address 0xC0100000; entry point
0x100000. -/
def far_kernel (k : Nat) : Nat :=
  if k = 0 then 0x7F else if k = 1 then 0x45 else if k = 2 then 0x4C else if k = 3 then 0x46
  else if k = 26 then 0x10
  else if k = 29 then 0x10
  else if k = 44 then 1
  else if k = 0x1005 then 0x20
  else if k = 0x100A then 0x10 else if k = 0x100B then 0xC0
  else if k = 0x1014 then 8
  else 0

/-- A disk with `far_kernel` from sector 1 on. -/
def far_disk : Disk := fun sec i => if sec = 0 then 0xEB else far_kernel ((sec - 1) * 512 + i)

/-- A kernel image with valid magic and two program headers, at offsets 52 and 84, whose
first segment is linked at `ELFHDR` itself: the first header asks for 512 bytes from offset
0x1000 of the image at the address 0x10000, the second for 8 bytes from offset 0x2000 at
the address 0x200000; entry point 0x100000.  The image is zero from offset 0x1000 on. -/
def low_kernel (k : Nat) : Nat :=
  if k = 0 then 0x7F else if k = 1 then 0x45 else if k = 2 then 0x4C else if k = 3 then 0x46
  else if k = 26 then 0x10
  else if k = 28 then 52
  else if k = 44 then 2
  else if k = 57 then 0x10
  else if k = 62 then 0x01
  else if k = 73 then 0x02
  else if k = 89 then 0x20
  else if k = 94 then 0x20
  else if k = 104 then 8
  else 0

/-- A disk with `low_kernel` from sector 1 on. -/
def low_disk : Disk := fun sec i => if sec = 0 then 0xEB else low_kernel ((sec - 1) * 512 + i)

/-! ## Machines for `copy_mm` -/

/-- The machine `child_execed`, whose current task has an address space, after the
`alloc_proc` of a fork by that task has handed out the descriptor at 400. -/
def fork_begun : State := (alloc_proc child_execed (some (400, raw_block))).2

/-- The machine `child_running`, whose current task is a kernel thread, after the
`alloc_proc` of a fork by that task has handed out the descriptor at 400. -/
def kfork_begun : State := (alloc_proc child_running (some (400, raw_block))).2

/-- Answers of the memory manager to a `copy_mm` whose `dup_mmap` fails with `-E_INVAL`. -/
def dup_fail_env : MmEnv :=
  { mm_create := some 2, alloc_page := some 0xC0500000, dup_mmap := -E_INVAL }

/-! ## Sleeping and waking -/

/-- From `s` to `s'` no call was recorded, `initproc` is the same, and every descriptor kept
its `state` and its `wait_state`. -/
def WaitSame (s s' : State) : Prop :=
  s'.log = s.log ∧ s'.initproc = s.initproc ∧
  ∀ x, (s'.procs x).map (fun d => (d.state, d.wait_state)) =
    (s.procs x).map (fun d => (d.state, d.wait_state))

/-- From `s` to `s'` the only calls recorded are calls `wakeup_proc(i)`, every descriptor
other than `i` kept its `state` and its `wait_state`, and so did `i`, with no call at all,
if its `wait_state` was not `WT_CHILD`. -/
def WakeOnly (i : Ptr) (s s' : State) : Prop :=
  s'.initproc = s.initproc ∧
  ∃ l, s'.log = l ++ s.log ∧ (∀ e ∈ l, e = Call.wakeup_proc i) ∧
    (∀ x, x ≠ i → (s'.procs x).map (fun d => (d.state, d.wait_state)) =
      (s.procs x).map (fun d => (d.state, d.wait_state))) ∧
    (∀ di, s.procs i = some di → di.wait_state ≠ WT_CHILD →
      l = [] ∧ (s'.procs i).map (fun d => (d.state, d.wait_state)) =
        some (di.state, di.wait_state))

/-! ## The arguments of `memcpy` and `memset` in `load_icode` -/

/-- The call `memcpy(page2kva(page) + off, src, size)` as `page_memcpy` makes it, with the
pair `(off, size)` of its arguments appended to the record `tr`. -/
def page_memcpy_rec (s : State) (tr : List (Nat × Nat)) (pgdir : Option Nat)
    (la off size : Nat) (src : Nat → Nat) : State × List (Nat × Nat) :=
  (page_memcpy s pgdir la off size src, tr ++ [(off, size)])

/-- The call `memset(page2kva(page) + off, 0, size)` as `page_memset` makes it, with the
pair `(off, size)` of its arguments appended to the record `tr`. -/
def page_memset_rec (s : State) (tr : List (Nat × Nat)) (pgdir : Option Nat)
    (la off size : Nat) : State × List (Nat × Nat) :=
  (page_memset s pgdir la off size, tr ++ [(off, size)])

/-- The loop `while (start < end)` of step (3.6.1), as `load_copy`, with the record of the
calls of `memcpy` carried along. -/
def load_copy_rec (env : ExecEnv) (img : binary) (pgdir : Option Nat) (perm end_ : Nat) :
    Nat → State → List (Nat × Nat) → Nat → Nat → Nat → Option Nat →
      Except Err (LoadStep × List (Nat × Nat))
  | 0, _, _, _, _, _, _ => .error .out_of_fuel
  | fuel + 1, s, tr, start, la, src, page =>
    if start < end_ then
      match pgdir_alloc_page s pgdir la perm (env.page_alloc la) with
      | (none, s) => .ok (.bad s, tr)
      | (some pg, s) =>
        let off := sub32 start la
        let size := sub32 PGSIZE off
        let la := wrap32 (la + PGSIZE)
        let size := if end_ < la then sub32 size (sub32 la end_) else size
        match page_memcpy_rec s tr pgdir pg off size (fun i => img.bytes (src + i)) with
        | (s, tr) =>
          load_copy_rec env img pgdir perm end_ fuel s tr (wrap32 (start + size)) la
            (src + size) (some pg)
    else .ok (.next s start la page, tr)

/-- The second loop `while (start < end)` of step (3.6.2), as `load_bss`, with the record of
the calls of `memset` carried along. -/
def load_bss_rec (env : ExecEnv) (pgdir : Option Nat) (perm end_ : Nat) :
    Nat → State → List (Nat × Nat) → Nat → Nat → Option Nat →
      Except Err (LoadStep × List (Nat × Nat))
  | 0, _, _, _, _, _ => .error .out_of_fuel
  | fuel + 1, s, tr, start, la, page =>
    if start < end_ then
      match pgdir_alloc_page s pgdir la perm (env.page_alloc la) with
      | (none, s) => .ok (.bad s, tr)
      | (some pg, s) =>
        let off := sub32 start la
        let size := sub32 PGSIZE off
        let la := wrap32 (la + PGSIZE)
        let size := if end_ < la then sub32 size (sub32 la end_) else size
        match page_memset_rec s tr pgdir pg off size with
        | (s, tr) =>
          load_bss_rec env pgdir perm end_ fuel s tr (wrap32 (start + size)) la (some pg)
    else .ok (.next s start la page, tr)

/-- The `if (start < la)` block of step (3.6.2), as `load_tail`, with the record of the call
of `memset` carried along. -/
def load_tail_rec (s : State) (tr : List (Nat × Nat)) (pgdir : Option Nat)
    (end_ start la : Nat) (page : Option Nat) :
    Except Err ((Option Nat × State) × List (Nat × Nat)) :=
  if start < la then
    if start = end_ then .ok ((none, s), tr)
    else
      let off := sub32 (wrap32 (start + PGSIZE)) la
      let size := sub32 PGSIZE off
      let size := if end_ < la then sub32 size (sub32 la end_) else size
      match page with
      | none => .error .fault
      | some pg =>
        match page_memset_rec s tr pgdir pg off size with
        | (s, tr) =>
          let start := wrap32 (start + size)
          if (end_ < la ∧ start = end_) ∨ (end_ ≥ la ∧ start = la) then
            .ok ((some start, s), tr)
          else .error .assert_failed
  else .ok ((some start, s), tr)

/-- Steps (3.6.1) and (3.6.2) for one `PT_LOAD` header, as `load_pages`, with the record of
every call of `memcpy` and `memset`, in the order they are made. -/
def load_pages_rec (fuel : Nat) (s : State) (env : ExecEnv) (img : binary)
    (pgdir : Option Nat) (ph : proghdr) : Except Err ((Int × State) × List (Nat × Nat)) := do
  let perm := seg_perm ph
  let start := ph.p_va
  let la := ROUNDDOWN start PGSIZE
  let end_ := wrap32 (ph.p_va + ph.p_filesz)
  match ← load_copy_rec env img pgdir perm end_ fuel s [] start la ph.p_offset none with
  | (.bad s, tr) => .ok ((-E_NO_MEM, s), tr)
  | (.next s start la page, tr) =>
    let end_ := wrap32 (ph.p_va + ph.p_memsz)
    match ← load_tail_rec s tr pgdir end_ start la page with
    | ((none, s), tr) => .ok ((0, s), tr)
    | ((some start, s), tr) =>
      match ← load_bss_rec env pgdir perm end_ fuel s tr start la page with
      | (.bad s, tr) => .ok ((-E_NO_MEM, s), tr)
      | (.next s _ _ _, tr) => .ok ((0, s), tr)

/-- The program header of `demo_image`. -/
def demo_header : proghdr :=
  { p_type := ELF_PT_LOAD, p_offset := 0x1000, p_va := 0x800020, p_pa := 0x800020,
    p_filesz := 0x1800, p_memsz := 0x3000, p_flags := 5, p_align := 0x1000 }

/-! ## A task with two zombie children -/

/-- What the allocators hand back to a third `do_fork`: a descriptor at 500 with its kernel
stack. -/
def fork_env_twin : ForkEnv :=
  { kmalloc := some (500, raw_block), kstack := some 0xC0500000,
    mm := { mm_create := none, alloc_page := none, dup_mmap := 0 } }

/-- The machine after the thread at 300, parent of the thread at 400, has forked a second
thread, at 500. -/
def twin_forked : State :=
  match do_fork 20000 grand_forked fork_env_twin CLONE_VM 0 trapframe.zero with
  | .ok (_, s) => s
  | .error _ => grand_forked

/-- The machine `twin_forked` after the scheduler has switched to the thread at 400. -/
def twin_running : State :=
  match schedule twin_forked 400 with
  | .ok s => s
  | .error _ => twin_forked

/-- The machine after the thread at 400 has called `do_exit(7)` and the scheduler has
switched to the thread at 500. -/
def twin_one_exited : State :=
  match do_exit 20000 twin_running 7 with
  | .ok s =>
    match schedule s 500 with
    | .ok t => t
    | .error _ => s
  | .error _ => twin_running

/-- The machine after the thread at 500 has called `do_exit(9)` and the scheduler has
switched back to the thread at 300, both of whose children are zombies now. -/
def twin_exited : State :=
  match do_exit 20000 twin_one_exited 9 with
  | .ok s =>
    match schedule s 300 with
    | .ok t => t
    | .error _ => s
  | .error _ => twin_one_exited

end Ucore

namespace Ucore

/-! ## Basic facts about the heap and the error monad -/

@[simp] theorem ok_bind {α β : Type} (a : α) (f : α → Except Err β) :
    (Except.ok a >>= f) = f a := rfl

@[simp] theorem error_bind {α β : Type} (e : Err) (f : α → Except Err β) :
    ((Except.error e : Except Err α) >>= f) = Except.error e := rfl

@[simp] theorem pure_eq_ok {α : Type} (a : α) : (pure a : Except Err α) = Except.ok a := rfl

theorem deref_of {s : State} {p : Ptr} {d : proc_struct} (h : s.procs p = some d) :
    s.deref p = .ok d := by
  simp [State.deref, h]

theorem modify_of {s : State} {p : Ptr} {d : proc_struct} (h : s.procs p = some d)
    (f : proc_struct → proc_struct) : s.modify p f = .ok (s.store p (f d)) := by
  simp [State.modify, h]

@[simp] theorem store_procs_same (s : State) (p : Ptr) (d : proc_struct) :
    (s.store p d).procs p = some d := by
  simp [State.store]

theorem store_procs_ne (s : State) {p q : Ptr} (d : proc_struct) (h : q ≠ p) :
    (s.store p d).procs q = s.procs q := by
  simp [State.store, Function.update_noteq h]

@[simp] theorem deref_store_same (s : State) (p : Ptr) (d : proc_struct) :
    (s.store p d).deref p = .ok d := by
  simp [State.deref]

@[simp] theorem store_store (s : State) (p : Ptr) (d e : proc_struct) :
    (s.store p d).store p e = s.store p e := by
  simp [State.store]

@[simp] theorem modify_store_same (s : State) (p : Ptr) (d : proc_struct)
    (f : proc_struct → proc_struct) : (s.store p d).modify p f = .ok (s.store p (f d)) := by
  simp [State.modify]

theorem wakeup_proc_of {s : State} {p : Ptr} {d : proc_struct} (h : s.procs p = some d) :
    wakeup_proc s p = .ok
      (if d.state = .PROC_SLEEPING ∨ d.state = .PROC_UNINIT then
        (s.store p { d with state := .PROC_RUNNABLE, wait_state := 0 }).call (.wakeup_proc p)
      else s.call (.wakeup_proc p)) := by
  unfold wakeup_proc
  simp only [h]
  split_ifs <;> rfl

theorem lor_one_land_one (n : Nat) : (n ||| 1) &&& 1 = 1 := by
  apply Nat.eq_of_testBit_eq
  intro i
  simp [Nat.testBit_and, Nat.testBit_or]
  rcases i with _ | i <;> simp [Nat.testBit_succ]

/-- A pointer returned by the bucket scan is allocated and carries the pid asked for. -/
theorem find_proc_scan_some {procs : Ptr → Option proc_struct} {pid : Int} :
    ∀ {l : List Ptr} {p : Ptr}, find_proc_scan procs pid l = .ok (some p) →
      p ∈ l ∧ ∃ d, procs p = some d ∧ d.pid = pid := by
  intro l
  induction l with
  | nil => intro p h; simp [find_proc_scan] at h
  | cons le rest ih =>
    intro p h
    unfold find_proc_scan at h
    cases hle : procs le with
    | none => simp [hle] at h
    | some d =>
      simp only [hle] at h
      by_cases hp : d.pid = pid
      · simp [hp] at h
        subst h
        exact ⟨List.mem_cons_self _ _, d, hle, hp⟩
      · simp [hp] at h
        obtain ⟨hm, hd⟩ := ih h
        exact ⟨List.mem_cons_of_mem _ hm, hd⟩

theorem find_proc_some {s : State} {pid : Int} {p : Ptr} (h : find_proc s pid = .ok (some p)) :
    0 < pid ∧ pid < MAX_PID ∧ p ∈ s.hash_list (pid_hashfn pid) ∧
      ∃ d, s.procs p = some d ∧ d.pid = pid := by
  unfold find_proc at h
  by_cases hr : 0 < pid ∧ pid < MAX_PID
  · simp only [hr, and_self, if_true] at h
    obtain ⟨hm, hd⟩ := find_proc_scan_some h
    exact ⟨hr.1, hr.2, hm, hd⟩
  · simp [hr] at h

theorem do_kill_effect_aux (s : State) (pid : Int) :
    (∀ p, find_proc s pid = .ok (some p) →
      ∃ d, s.procs p = some d ∧ d.pid = pid ∧
        (d.flags &&& PF_EXITING ≠ 0 → do_kill s pid = .ok (-E_KILLED, s)) ∧
        (d.flags &&& PF_EXITING = 0 →
          (d.flags ||| PF_EXITING) &&& PF_EXITING ≠ 0 ∧
          (d.wait_state &&& WT_INTERRUPTED = 0 →
            do_kill s pid = .ok (0, s.store p { d with flags := d.flags ||| PF_EXITING })) ∧
          (d.wait_state &&& WT_INTERRUPTED ≠ 0 →
            ∃ s2, wakeup_proc (s.store p { d with flags := d.flags ||| PF_EXITING }) p = .ok s2 ∧
              do_kill s pid = .ok (0, s2) ∧
              s2.log = Call.wakeup_proc p :: s.log ∧
              s2.proc_list = s.proc_list ∧ s2.hash_list = s.hash_list ∧
              s2.nr_process = s.nr_process ∧
              (∀ q, q ≠ p → s2.procs q = s.procs q) ∧
              ∃ d2, s2.procs p = some d2 ∧
                { d2 with state := d.state, wait_state := d.wait_state } =
                  { d with flags := d.flags ||| PF_EXITING } ∧
                (d2.state = .PROC_ZOMBIE ↔ d.state = .PROC_ZOMBIE)))) ∧
    (find_proc s pid = .ok none → do_kill s pid = .ok (-E_INVAL, s)) := by
  refine ⟨?_, ?_⟩
  · intro p hf
    obtain ⟨_, _, _, d, hd, hpid⟩ := find_proc_some hf
    refine ⟨d, hd, hpid, ?_, ?_⟩
    · intro hfl
      simp [do_kill, hf, deref_of hd, hfl]
    · intro hfl
      refine ⟨?_, ?_, ?_⟩
      · simp [PF_EXITING, lor_one_land_one]
      · intro hw
        simp [do_kill, hf, deref_of hd, hfl, modify_of hd, hw]
      · intro hw
        refine ⟨_, wakeup_proc_of (store_procs_same _ _ _), ?_, ?_⟩
        · simp [do_kill, hf, deref_of hd, hfl, modify_of hd, hw, wakeup_proc_of]
        · by_cases hst : d.state = .PROC_SLEEPING ∨ d.state = .PROC_UNINIT
          · simp only [hst, if_true]
            refine ⟨rfl, rfl, rfl, rfl, ?_, ?_⟩
            · intro q hq
              simp [State.call, State.store, Function.update_noteq hq]
            · refine ⟨{ d with flags := d.flags ||| PF_EXITING, state := .PROC_RUNNABLE,
                                 wait_state := 0 },
                by simp [State.call, State.store], rfl, ?_⟩
              rcases hst with h | h <;> simp [h]
          · simp only [hst, if_false]
            refine ⟨rfl, rfl, rfl, rfl, ?_, ?_⟩
            · intro q hq
              simp [State.call, State.store, Function.update_noteq hq]
            · exact ⟨{ d with flags := d.flags ||| PF_EXITING },
                by simp [State.call, State.store], rfl, Iff.rfl⟩
  · intro hf
    simp [do_kill, hf]

/-! ## Steps inside the memory manager -/

theorem MmOnly.refl (s : State) : MmOnly s s := rfl

theorem MmOnly.trans {a b c : State} (h1 : MmOnly a b) (h2 : MmOnly b c) : MmOnly a c := by
  unfold MmOnly at *
  rw [h2, h1]

theorem MmOnly.procs {s s' : State} (h : MmOnly s s') : s'.procs = s.procs := by
  rw [h]
theorem MmOnly.proc_list {s s' : State} (h : MmOnly s s') : s'.proc_list = s.proc_list := by
  rw [h]
theorem MmOnly.hash_list {s s' : State} (h : MmOnly s s') : s'.hash_list = s.hash_list := by
  rw [h]
theorem MmOnly.nr_process {s s' : State} (h : MmOnly s s') : s'.nr_process = s.nr_process := by
  rw [h]
theorem MmOnly.last_pid {s s' : State} (h : MmOnly s s') : s'.last_pid = s.last_pid := by
  rw [h]
theorem MmOnly.next_safe {s s' : State} (h : MmOnly s s') : s'.next_safe = s.next_safe := by
  rw [h]
theorem MmOnly.idleproc {s s' : State} (h : MmOnly s s') : s'.idleproc = s.idleproc := by
  rw [h]
theorem MmOnly.initproc {s s' : State} (h : MmOnly s s') : s'.initproc = s.initproc := by
  rw [h]
theorem MmOnly.current {s s' : State} (h : MmOnly s s') : s'.current = s.current := by
  rw [h]
theorem MmOnly.tfmem {s s' : State} (h : MmOnly s s') : s'.tfmem = s.tfmem := by
  rw [h]
theorem MmOnly.intmem {s s' : State} (h : MmOnly s s') : s'.intmem = s.intmem := by
  rw [h]
theorem MmOnly.boot_cr3 {s s' : State} (h : MmOnly s s') : s'.boot_cr3 = s.boot_cr3 := by
  rw [h]

theorem mmOnly_call (s : State) (c : Call) : MmOnly s (s.call c) := rfl

theorem mmOnly_storemm (s : State) (m : Nat) (d : mm_struct) : MmOnly s (s.storemm m d) := rfl

theorem mmOnly_mm_create (s : State) (r : Option Nat) : MmOnly s (mm_create s r).2 := by
  cases r <;> rfl

theorem mmOnly_mm_destroy (s : State) (m : Nat) : MmOnly s (mm_destroy s m) := rfl

theorem mmOnly_exit_mmap (s : State) (m : Nat) : MmOnly s (exit_mmap s m) := by
  unfold exit_mmap
  split <;> rfl

theorem mmOnly_mm_count_inc (s : State) (m : Nat) : MmOnly s (mm_count_inc s m) := rfl

theorem mmOnly_mm_count_dec (s : State) (m : Nat) : MmOnly s (mm_count_dec s m).2 := rfl

theorem mmOnly_dup_mmap (s : State) (a b : Nat) (r : Int) : MmOnly s (dup_mmap s a b r) := by
  unfold dup_mmap
  split
  · split <;> rfl
  · rfl

theorem mmOnly_setup_pgdir (s : State) (r : Option Nat) (m : Nat) :
    MmOnly s (setup_pgdir s r m).2 := by
  cases r <;> rfl

theorem mmOnly_put_pgdir (s : State) (m : Nat) : MmOnly s (put_pgdir s m) := rfl

theorem mmOnly_release_mm (s : State) (m : Nat) : MmOnly s (release_mm s m) := by
  unfold release_mm
  simp only
  split
  · exact ((mmOnly_call s _).trans (mmOnly_mm_count_dec _ m)).trans
      (((mmOnly_exit_mmap _ m).trans (mmOnly_put_pgdir _ m)).trans (mmOnly_mm_destroy _ m))
  · exact (mmOnly_call s _).trans (mmOnly_mm_count_dec _ m)

theorem mmOnly_mm_map (s : State) (mm addr len fl : Nat) (ok : Bool) :
    MmOnly s (mm_map s mm addr len fl ok).2 := by
  unfold mm_map
  simp only
  split_ifs <;> rfl

theorem mmOnly_pgdir_alloc_page (s : State) (pgdir : Option Nat) (la perm : Nat)
    (r : Option (Nat → Nat)) : MmOnly s (pgdir_alloc_page s pgdir la perm r).2 := by
  cases r <;> rfl

theorem mmOnly_page_memcpy (s : State) (pgdir : Option Nat) (la off size : Nat)
    (src : Nat → Nat) : MmOnly s (page_memcpy s pgdir la off size src) := by
  unfold page_memcpy
  split <;> rfl

theorem mmOnly_page_memset (s : State) (pgdir : Option Nat) (la off size : Nat) :
    MmOnly s (page_memset s pgdir la off size) :=
  mmOnly_page_memcpy s pgdir la off size _

end Ucore

namespace Ucore

/-! ## The pid allocator -/

theorem get_pid_scan_spec (procs : Ptr → Option proc_struct) (last0 : Int) :
    ∀ (rest pre : List Ptr) (last safe : Int),
      (∀ p ∈ rest, (procs p).isSome) →
      last < safe → safe ≤ MAX_PID → last0 ≤ last →
      (∀ p ∈ pre, ∀ d, procs p = some d → d.pid < last ∨ safe ≤ d.pid) →
      (∀ v, last0 ≤ v → v < last → InUse procs (pre ++ rest) v) →
      match get_pid_scan procs rest last safe with
      | .done l n => last ≤ l ∧ l < n ∧ n ≤ MAX_PID ∧
          (∀ p ∈ pre ++ rest, ∀ d, procs p = some d → d.pid < l ∨ n ≤ d.pid) ∧
          (∀ v, last0 ≤ v → v < l → InUse procs (pre ++ rest) v)
      | .again l =>
          (l < MAX_PID ∧ last0 < l ∧ ∀ v, last0 ≤ v → v < l → InUse procs (pre ++ rest) v) ∨
          (l = 1 ∧ ∀ v, last0 ≤ v → v < MAX_PID → InUse procs (pre ++ rest) v)
      | .fault => False := by
  intro rest
  induction rest with
  | nil =>
    intro pre last safe _ hls hsm h0 hpre huse
    simp only [get_pid_scan]
    refine ⟨le_refl _, hls, hsm, ?_, huse⟩
    simpa using hpre
  | cons le rest ih =>
    intro pre last safe hval hls hsm h0 hpre huse
    obtain ⟨d, hd⟩ := Option.isSome_iff_exists.mp (hval le (List.mem_cons_self _ _))
    have hval' : ∀ p ∈ rest, (procs p).isSome := fun p hp => hval p (List.mem_cons_of_mem _ hp)
    have happ : pre ++ le :: rest = (pre ++ [le]) ++ rest := by simp
    have hmem : le ∈ pre ++ le :: rest := by simp
    unfold get_pid_scan
    simp only [hd]
    by_cases h1 : d.pid = last
    · simp only [h1, if_true]
      have huse' : ∀ v, last0 ≤ v → v < last + 1 → InUse procs (pre ++ le :: rest) v := by
        intro v hv0 hv
        by_cases hvl : v < last
        · exact huse v hv0 hvl
        · have : v = last := by omega
          exact ⟨le, hmem, d, hd, by omega⟩
      by_cases h2 : last + 1 ≥ safe
      · simp only [h2, if_true]
        by_cases h3 : last + 1 ≥ MAX_PID
        · simp only [h3, if_true]
          right
          refine ⟨trivial, ?_⟩
          intro v hv0 hv
          exact huse' v hv0 (by omega)
        · simp only [h3, if_false]
          left
          exact ⟨by omega, by omega, huse'⟩
      · simp only [h2, if_false]
        have := ih (pre ++ [le]) (last + 1) safe hval' (by omega) hsm (by omega)
          (by
            intro p hp e he
            rcases List.mem_append.mp hp with hp | hp
            · rcases hpre p hp e he with h | h
              · left; omega
              · right; exact h
            · simp at hp
              subst hp
              rw [hd] at he
              cases he
              left; omega)
          (by rw [← happ]; exact huse')
        rw [← happ] at this
        revert this
        cases get_pid_scan procs rest (last + 1) safe with
        | done l n =>
          simp only
          rintro ⟨a, b, c, e, f⟩
          exact ⟨by omega, b, c, e, f⟩
        | again l => simp only; exact id
        | fault => simp only; exact id
    · simp only [h1, if_false]
      by_cases h2 : d.pid > last ∧ safe > d.pid
      · simp only [h2, and_self, if_true]
        have := ih (pre ++ [le]) last d.pid hval' h2.1 (by omega) h0
          (by
            intro p hp e he
            rcases List.mem_append.mp hp with hp | hp
            · rcases hpre p hp e he with h | h
              · left; omega
              · right; omega
            · simp at hp
              subst hp
              rw [hd] at he
              cases he
              right; omega)
          (by rw [← happ]; exact huse)
        rw [← happ] at this
        revert this
        cases get_pid_scan procs rest last d.pid with
        | done l n =>
          simp only
          rintro ⟨a, b, c, e, f⟩
          exact ⟨a, b, by omega, e, f⟩
        | again l => simp only; exact id
        | fault => simp only; exact id
      · simp only [h2, if_false]
        have := ih (pre ++ [le]) last safe hval' hls hsm h0
          (by
            intro p hp e he
            rcases List.mem_append.mp hp with hp | hp
            · exact hpre p hp e he
            · simp at hp
              subst hp
              rw [hd] at he
              cases he
              by_cases h4 : d.pid < last
              · left; exact h4
              · right
                by_contra h5
                exact h2 ⟨by omega, by omega⟩)
          (by rw [← happ]; exact huse)
        rw [← happ] at this
        exact this

/-- What a finished `get_pid` scan promises of the cursors `l` (the pid) and `n`. -/
theorem get_pid_repeat_wrapped (procs : Ptr → Option proc_struct) (list : List Ptr)
    (hval : ∀ p ∈ list, (procs p).isSome)
    (hfree : ∃ v, 1 ≤ v ∧ v < MAX_PID ∧ ¬ InUse procs list v) :
    ∀ (fuel : Nat) (last : Int), 1 ≤ last → last < MAX_PID → MAX_PID - last < fuel →
      (∀ v, 1 ≤ v → v < last → InUse procs list v) →
      ∃ l n, get_pid_repeat procs list fuel last = .ok (l, n) ∧ 1 ≤ l ∧ l < n ∧ n ≤ MAX_PID ∧
        ∀ p ∈ list, ∀ d, procs p = some d → d.pid < l ∨ n ≤ d.pid := by
  intro fuel
  induction fuel with
  | zero => intro last _ h2 h3; omega
  | succ fuel ih =>
    intro last h1 h2 h3 huse
    have hs := get_pid_scan_spec procs last list [] last MAX_PID hval h2 (le_refl _) (le_refl _)
      (by simp) (by intro v a b; omega)
    simp only [List.nil_append] at hs
    unfold get_pid_repeat
    revert hs
    cases get_pid_scan procs list last MAX_PID with
    | done l n =>
      simp only
      rintro ⟨a, b, c, e, _⟩
      exact ⟨l, n, rfl, by omega, b, c, e⟩
    | again l =>
      simp only
      rintro (⟨a, b, c⟩ | ⟨_, c⟩)
      · apply ih l (by omega) a (by omega)
        intro v hv1 hv2
        by_cases hv : v < last
        · exact huse v hv1 hv
        · exact c v (by omega) hv2
      · exfalso
        obtain ⟨v, hv1, hv2, hv3⟩ := hfree
        apply hv3
        by_cases hv : v < last
        · exact huse v hv1 hv
        · exact c v (by omega) hv2
    | fault => simp

theorem get_pid_repeat_spec (procs : Ptr → Option proc_struct) (list : List Ptr)
    (hval : ∀ p ∈ list, (procs p).isSome)
    (hfree : ∃ v, 1 ≤ v ∧ v < MAX_PID ∧ ¬ InUse procs list v) :
    ∀ (fuel : Nat) (last : Int), 1 ≤ last → last < MAX_PID →
      MAX_PID - last + MAX_PID < fuel →
      ∃ l n, get_pid_repeat procs list fuel last = .ok (l, n) ∧ 1 ≤ l ∧ l < n ∧ n ≤ MAX_PID ∧
        ∀ p ∈ list, ∀ d, procs p = some d → d.pid < l ∨ n ≤ d.pid := by
  intro fuel
  induction fuel with
  | zero => intro last _ h2 h3; omega
  | succ fuel ih =>
    intro last h1 h2 h3
    have hs := get_pid_scan_spec procs last list [] last MAX_PID hval h2 (le_refl _) (le_refl _)
      (by simp) (by intro v a b; omega)
    simp only [List.nil_append] at hs
    unfold get_pid_repeat
    revert hs
    cases get_pid_scan procs list last MAX_PID with
    | done l n =>
      simp only
      rintro ⟨a, b, c, e, _⟩
      exact ⟨l, n, rfl, by omega, b, c, e⟩
    | again l =>
      simp only
      rintro (⟨a, b, _⟩ | ⟨rfl, _⟩)
      · exact ih l (by omega) a (by omega)
      · exact get_pid_repeat_wrapped procs list hval hfree fuel 1 (le_refl _)
          (by omega) (by omega) (by intro v a b; omega)
    | fault => simp

/-- A list with fewer than `MAX_PID - 1` entries leaves a pid of `[1, MAX_PID)` unused. -/
theorem exists_free_pid (procs : Ptr → Option proc_struct) (list : List Ptr)
    (hlen : (list.length : Int) < MAX_PID - 1) :
    ∃ v, 1 ≤ v ∧ v < MAX_PID ∧ ¬ InUse procs list v := by
  by_contra hcon
  push_neg at hcon
  let f : Ptr → Int := fun p => match procs p with
    | some d => d.pid
    | none => 0
  have hsub : Finset.Ico (1 : Int) MAX_PID ⊆ (list.map f).toFinset := by
    intro v hv
    rw [Finset.mem_Ico] at hv
    obtain ⟨p, hp, d, hd, hpid⟩ := hcon v hv.1 hv.2
    rw [List.mem_toFinset, List.mem_map]
    exact ⟨p, hp, by simp [f, hd, hpid]⟩
  have h1 := Finset.card_le_card hsub
  have h2 := List.toFinset_card_le (list.map f)
  rw [Int.card_Ico] at h1
  simp only [List.length_map] at h2
  have h3 : (MAX_PID - 1).toNat ≤ list.length := le_trans h1 h2
  have h4 : MAX_PID - 1 = 8191 := by simp [MAX_PID, MAX_PROCESS]
  rw [h4] at h3 hlen
  omega

/-- Specification of `get_pid`: with the cursors in their window and a pid left, enough
fuel gives a pid of `[1, MAX_PID)` that no listed descriptor holds, and the new window. -/
theorem get_pid_spec (s : State) (fuel : Nat)
    (hval : ∀ p ∈ s.proc_list, (s.procs p).isSome)
    (hwin : ∀ p ∈ s.proc_list, ∀ d, s.procs p = some d →
      d.pid ≤ s.last_pid ∨ s.next_safe ≤ d.pid)
    (hcur : 0 ≤ s.last_pid ∧ s.next_safe ≤ MAX_PID)
    (hlen : (s.proc_list.length : Int) < MAX_PID - 1)
    (hfuel : 2 * MAX_PID < fuel) :
    ∃ v n, get_pid fuel s = .ok (v, { s with last_pid := v, next_safe := n }) ∧
      1 ≤ v ∧ v < n ∧ n ≤ MAX_PID ∧
      ∀ p ∈ s.proc_list, ∀ d, s.procs p = some d → d.pid < v ∨ n ≤ d.pid := by
  have hfree := exists_free_pid s.procs s.proc_list hlen
  have hM : MAX_PID = 8192 := by simp [MAX_PID, MAX_PROCESS]
  unfold get_pid
  simp only
  by_cases h1 : s.last_pid + 1 ≥ MAX_PID
  · simp only [h1, if_true]
    obtain ⟨l, n, he, a, b, c, e⟩ := get_pid_repeat_spec s.procs s.proc_list hval hfree fuel 1
      (le_refl _) (by omega) (by omega)
    rw [he]
    exact ⟨l, n, rfl, a, b, c, e⟩
  · simp only [h1, if_false]
    by_cases h2 : s.last_pid + 1 ≥ s.next_safe
    · simp only [h2, if_true]
      obtain ⟨l, n, he, a, b, c, e⟩ := get_pid_repeat_spec s.procs s.proc_list hval hfree fuel
        (s.last_pid + 1) (by omega) (by omega) (by omega)
      rw [he]
      exact ⟨l, n, rfl, a, b, c, e⟩
    · simp only [h2, if_false]
      refine ⟨s.last_pid + 1, s.next_safe, rfl, by omega, by omega, hcur.2, ?_⟩
      intro p hp d hd
      rcases hwin p hp d hd with h | h
      · left; omega
      · right; exact h

end Ucore

namespace Ucore

/-! ## Child lists -/

theorem chain_nil {procs : Ptr → Option proc_struct} {par : Ptr} {f y : Option Ptr} :
    Chain procs par f y [] ↔ f = none := by
  simp [Chain]

theorem chain_cons {procs : Ptr → Option proc_struct} {par : Ptr} {f y : Option Ptr} {x : Ptr}
    {l : List Ptr} :
    Chain procs par f y (x :: l) ↔
      f = some x ∧ ∃ d, procs x = some d ∧ d.parent = some par ∧ d.yptr = y ∧
        Chain procs par d.optr (some x) l := by
  simp [Chain]

/-- Members of a child list are allocated and name the owner as parent. -/
theorem chain_mem {procs : Ptr → Option proc_struct} {par : Ptr} :
    ∀ {l : List Ptr} {f y : Option Ptr}, Chain procs par f y l → ∀ x ∈ l,
      ∃ d, procs x = some d ∧ d.parent = some par := by
  intro l
  induction l with
  | nil => intro f y _ x hx; simp at hx
  | cons a l ih =>
    intro f y h x hx
    obtain ⟨_, d, hd, hp, _, hc⟩ := chain_cons.mp h
    rcases List.mem_cons.mp hx with rfl | hx
    · exact ⟨d, hd, hp⟩
    · exact ih hc x hx

/-- The older sibling of a member of a child list is a member too. -/
theorem chain_optr_mem {procs : Ptr → Option proc_struct} {par : Ptr} :
    ∀ {l : List Ptr} {f y : Option Ptr}, Chain procs par f y l → ∀ x ∈ l, ∀ d,
      procs x = some d → ∀ o, d.optr = some o → o ∈ l := by
  intro l
  induction l with
  | nil => intro f y _ x hx; simp at hx
  | cons a l ih =>
    intro f y h x hx d hd o ho
    obtain ⟨_, da, hda, _, _, hc⟩ := chain_cons.mp h
    rcases List.mem_cons.mp hx with rfl | hx
    · rw [hda] at hd
      cases hd
      cases l with
      | nil => rw [chain_nil.mp hc] at ho; cases ho
      | cons b l =>
        obtain ⟨hb, _⟩ := chain_cons.mp hc
        rw [hb] at ho
        cases ho
        simp
    · exact List.mem_cons_of_mem _ (ih hc x hx d hd o ho)

/-- A child list only depends on the family pointers of its members. -/
theorem chain_congr {procs procs' : Ptr → Option proc_struct} {par : Ptr} :
    ∀ {l : List Ptr} {f y : Option Ptr},
      (∀ x ∈ l, ∀ d, procs x = some d → ∃ d', procs' x = some d' ∧ d'.parent = d.parent ∧
        d'.yptr = d.yptr ∧ d'.optr = d.optr) →
      Chain procs par f y l → Chain procs' par f y l := by
  intro l
  induction l with
  | nil => intro f y _ h; exact h
  | cons a l ih =>
    intro f y hsame h
    obtain ⟨hf, d, hd, hp, hy, hc⟩ := chain_cons.mp h
    obtain ⟨d', hd', e1, e2, e3⟩ := hsame a (List.mem_cons_self _ _) d hd
    refine chain_cons.mpr ⟨hf, d', hd', by rw [e1, hp], by rw [e2, hy], ?_⟩
    rw [e3]
    exact ih (fun x hx => hsame x (List.mem_cons_of_mem _ hx)) hc

/-- Giving the first member of a child list a new `yptr`. -/
theorem chain_rehead {procs procs' : Ptr → Option proc_struct} {par : Ptr} {l : List Ptr}
    {f y y' : Option Ptr} (hnd : l.Nodup)
    (hsame : ∀ x ∈ l, ∀ d, procs x = some d → ∃ d', procs' x = some d' ∧
      d'.parent = d.parent ∧ d'.optr = d.optr ∧
      d'.yptr = if f = some x then y' else d.yptr)
    (h : Chain procs par f y l) : Chain procs' par f y' l := by
  cases l with
  | nil => exact h
  | cons a l =>
    obtain ⟨hf, d, hd, hp, hy, hc⟩ := chain_cons.mp h
    obtain ⟨d', hd', e1, e2, e3⟩ := hsame a (List.mem_cons_self _ _) d hd
    rw [if_pos hf] at e3
    refine chain_cons.mpr ⟨hf, d', hd', by rw [e1, hp], e3, ?_⟩
    rw [e2]
    refine chain_congr ?_ hc
    intro x hx dx hdx
    obtain ⟨dx', hdx', g1, g2, g3⟩ := hsame x (List.mem_cons_of_mem _ hx) dx hdx
    have hxa : x ≠ a := by
      rintro rfl
      exact (List.nodup_cons.mp hnd).1 hx
    rw [hf, if_neg (by simpa using hxa.symm)] at g3
    exact ⟨dx', hdx', g1, g3, g2⟩

/-- Unlinking the member `z` of a child list, as `remove_links` does: the older sibling of
`z` takes over its `yptr`, the younger sibling its `optr`. -/
theorem chain_remove {procs procs' : Ptr → Option proc_struct} {par z : Ptr} {dz : proc_struct}
    (hz : procs z = some dz) :
    ∀ {l : List Ptr} {f y : Option Ptr}, l.Nodup → z ∈ l →
      (∀ w, y = some w → w ∉ l) →
      (∀ x ∈ l, x ≠ z → ∀ d, procs x = some d → ∃ d', procs' x = some d' ∧
        d'.parent = d.parent ∧
        d'.optr = (if dz.yptr = some x then dz.optr else d.optr) ∧
        d'.yptr = (if dz.optr = some x then dz.yptr else d.yptr)) →
      Chain procs par f y l →
      Chain procs' par (if f = some z then dz.optr else f) y (l.erase z) := by
  intro l
  induction l with
  | nil => intro f y _ hzl; simp at hzl
  | cons a l ih =>
    intro f y hnd hzl hy hsame h
    obtain ⟨hf, d, hd, hp, hdy, hc⟩ := chain_cons.mp h
    obtain ⟨hal, hndl⟩ := List.nodup_cons.mp hnd
    by_cases haz : a = z
    · subst haz
      rw [hz] at hd
      cases hd
      simp only [hf, if_true, List.erase_cons_head]
      cases l with
      | nil => exact hc
      | cons b l =>
        obtain ⟨hb, db, hdb, hpb, hyb, hcb⟩ := chain_cons.mp hc
        have hba : b ≠ a := by
          rintro rfl
          exact hal (List.mem_cons_self _ _)
        obtain ⟨db', hdb', e1, e2, e3⟩ := hsame b (by simp) hba db hdb
        rw [if_pos hb] at e3
        have hyb' : dz.yptr ≠ some b := by
          intro hh
          exact hy b (by rw [← hdy, hh]) (by simp)
        rw [if_neg hyb'] at e2
        refine chain_cons.mpr ⟨hb, db', hdb', by rw [e1, hpb], by rw [e3, hdy], ?_⟩
        rw [e2]
        refine chain_congr ?_ hcb
        intro x hx dx hdx
        have hxl : x ∈ a :: b :: l := by simp [hx]
        have hxa : x ≠ a := by
          rintro rfl
          exact hal (List.mem_cons_of_mem _ hx)
        have hxb : x ≠ b := by
          rintro rfl
          exact (List.nodup_cons.mp hndl).1 hx
        obtain ⟨dx', hdx', g1, g2, g3⟩ := hsame x hxl hxa dx hdx
        have c1 : dz.yptr ≠ some x := by
          intro hh
          exact hy x (by rw [← hdy, hh]) hxl
        have c2 : dz.optr ≠ some x := by
          rw [hb]
          simpa using hxb.symm
        rw [if_neg c1] at g2
        rw [if_neg c2] at g3
        exact ⟨dx', hdx', g1, g3, g2⟩
    · have hzl' : z ∈ l := by
        rcases List.mem_cons.mp hzl with h1 | h1
        · exact absurd h1.symm haz
        · exact h1
      have hfz : f ≠ some z := by
        rw [hf]
        simpa using haz
      simp only [hfz, if_false]
      rw [List.erase_cons_tail (by simpa using haz)]
      obtain ⟨d', hd', e1, e2, e3⟩ := hsame a (List.mem_cons_self _ _) haz d hd
      have c2 : dz.optr ≠ some a := by
        intro hh
        exact hal (chain_optr_mem hc z hzl' dz hz a hh)
      rw [if_neg c2] at e3
      refine chain_cons.mpr ⟨hf, d', hd', by rw [e1, hp], by rw [e3, hdy], ?_⟩
      have hy' : ∀ w, some a = some w → w ∉ l := by
        intro w hw
        cases hw
        exact hal
      have hsame' : ∀ x ∈ l, x ≠ z → ∀ d, procs x = some d → ∃ d', procs' x = some d' ∧
          d'.parent = d.parent ∧
          d'.optr = (if dz.yptr = some x then dz.optr else d.optr) ∧
          d'.yptr = (if dz.optr = some x then dz.yptr else d.yptr) :=
        fun x hx => hsame x (List.mem_cons_of_mem _ hx)
      have hrec := ih hndl hzl' hy' hsame' hc
      rw [e2]
      by_cases hhead : d.optr = some z
      · -- `z` is the successor of `a`
        have hzy : dz.yptr = some a := by
          cases l with
          | nil => simp at hzl'
          | cons b l =>
            obtain ⟨hb, db, hdb, _, hyb, _⟩ := chain_cons.mp hc
            rw [hb] at hhead
            cases hhead
            rw [hz] at hdb
            cases hdb
            exact hyb
        rw [if_pos hzy]
        rw [if_pos hhead] at hrec
        exact hrec
      · have hzy : dz.yptr ≠ some a := by
          intro hh
          -- the younger sibling of `z` is a member before it, hence not `a`
          have hym : ∀ {l : List Ptr} {f y : Option Ptr}, Chain procs par f y l → z ∈ l →
              dz.yptr = y ∨ ∃ w ∈ l, dz.yptr = some w := by
            intro l
            induction l with
            | nil => intro f y _ hm; simp at hm
            | cons b l ih2 =>
              intro f y hcc hm
              obtain ⟨_, db, hdb, _, hyb, hcb⟩ := chain_cons.mp hcc
              by_cases hbz : b = z
              · subst hbz
                rw [hz] at hdb
                cases hdb
                exact Or.inl hyb
              · have hm' : z ∈ l := by
                  rcases List.mem_cons.mp hm with h1 | h1
                  · exact absurd h1.symm hbz
                  · exact h1
                rcases ih2 hcb hm' with h1 | ⟨w, hw, h1⟩
                · exact Or.inr ⟨b, by simp, h1⟩
                · exact Or.inr ⟨w, by simp [hw], h1⟩
          cases l with
          | nil => simp at hzl'
          | cons b l =>
            obtain ⟨hb, db, hdb, _, hyb, hcb⟩ := chain_cons.mp hc
            have hbz : b ≠ z := by
              rintro rfl
              exact hhead hb
            have hm' : z ∈ l := by
              rcases List.mem_cons.mp hzl' with h1 | h1
              · exact absurd h1.symm hbz
              · exact h1
            rcases hym hcb hm' with h1 | ⟨w, hw, h1⟩
            · rw [hh] at h1
              cases h1
              exact hal (by simp)
            · rw [hh] at h1
              cases h1
              exact hal (by simp [hw])
        rw [if_neg hzy]
        rw [if_neg hhead] at hrec
        exact hrec

end Ucore

namespace Ucore

/-! ## Steps that leave pids and family pointers alone -/

theorem coreEq_refl (a : Option proc_struct) : CoreEq a a := by
  cases a <;> simp [CoreEq]

theorem coreEq_some_left {d : proc_struct} {b : Option proc_struct} (h : CoreEq (some d) b) :
    ∃ d', b = some d' ∧ d'.pid = d.pid ∧ d'.parent = d.parent ∧ d'.cptr = d.cptr ∧
      d'.yptr = d.yptr ∧ d'.optr = d.optr := by
  cases b with
  | none => simp [CoreEq] at h
  | some d' => exact ⟨d', rfl, h⟩

theorem coreEq_some_right {a : Option proc_struct} {d' : proc_struct} (h : CoreEq a (some d')) :
    ∃ d, a = some d ∧ d'.pid = d.pid ∧ d'.parent = d.parent ∧ d'.cptr = d.cptr ∧
      d'.yptr = d.yptr ∧ d'.optr = d.optr := by
  cases a with
  | none => simp [CoreEq] at h
  | some d => exact ⟨d, rfl, h⟩

theorem coreEq_isSome {a b : Option proc_struct} (h : CoreEq a b) : b.isSome = a.isSome := by
  cases a <;> cases b <;> simp [CoreEq] at h ⊢

theorem coreEq_trans {a b c : Option proc_struct} (h1 : CoreEq a b) (h2 : CoreEq b c) :
    CoreEq a c := by
  cases a <;> cases b <;> cases c <;> simp [CoreEq] at h1 h2 ⊢
  obtain ⟨a1, a2, a3, a4, a5⟩ := h1
  obtain ⟨b1, b2, b3, b4, b5⟩ := h2
  exact ⟨by rw [b1, a1], by rw [b2, a2], by rw [b3, a3], by rw [b4, a4], by rw [b5, a5]⟩

theorem sameCore_refl (s : State) : SameCore s s :=
  ⟨rfl, rfl, rfl, rfl, rfl, rfl, rfl, fun _ => coreEq_refl _⟩

theorem sameCore_trans {s1 s2 s3 : State} (h1 : SameCore s1 s2) (h2 : SameCore s2 s3) :
    SameCore s1 s3 :=
  ⟨h2.proc_list.trans h1.proc_list, h2.hash_list.trans h1.hash_list,
    h2.nr_process.trans h1.nr_process, h2.last_pid.trans h1.last_pid,
    h2.next_safe.trans h1.next_safe, h2.idleproc.trans h1.idleproc,
    h2.initproc.trans h1.initproc, fun x => coreEq_trans (h1.procs x) (h2.procs x)⟩

/-- Overwriting a descriptor by one with the same pid and family pointers. -/
theorem SameCore.store {s : State} {p : Ptr} {d d' : proc_struct} (h : s.procs p = some d)
    (e1 : d'.pid = d.pid) (e2 : d'.parent = d.parent) (e3 : d'.cptr = d.cptr)
    (e4 : d'.yptr = d.yptr) (e5 : d'.optr = d.optr) : SameCore s (s.store p d') := by
  refine ⟨rfl, rfl, rfl, rfl, rfl, rfl, rfl, ?_⟩
  intro x
  by_cases hx : x = p
  · subst hx
    simp [State.store, h, CoreEq, e1, e2, e3, e4, e5]
  · simp [State.store, Function.update_noteq hx, coreEq_refl]

/-- A step that does not touch the descriptors or the tables. -/
theorem SameCore.of_eq {s s' : State} (h1 : s'.procs = s.procs)
    (h2 : s'.proc_list = s.proc_list) (h3 : s'.hash_list = s.hash_list)
    (h4 : s'.nr_process = s.nr_process) (h5 : s'.last_pid = s.last_pid)
    (h6 : s'.next_safe = s.next_safe) (h7 : s'.idleproc = s.idleproc)
    (h8 : s'.initproc = s.initproc) : SameCore s s' :=
  ⟨h2, h3, h4, h5, h6, h7, h8, fun x => by rw [h1]; exact coreEq_refl _⟩

theorem famAt_same_core {s s' : State} (h : SameCore s s') {r : Ptr} {y : Option Ptr}
    (hf : FamAt s r y) : FamAt s' r y := by
  obtain ⟨dr, l, hdr, hc, hnd, hsub, hcomp⟩ := hf
  obtain ⟨dr', hdr', _, _, e3, _, _⟩ := coreEq_some_left (hdr ▸ h.procs r)
  refine ⟨dr', l, hdr', ?_, hnd, ?_, ?_⟩
  · rw [e3]
    refine chain_congr ?_ hc
    intro x _ d hd
    obtain ⟨d', hd', _, g2, _, g4, g5⟩ := coreEq_some_left (hd ▸ h.procs x)
    exact ⟨d', hd', g2, g4, g5⟩
  · intro x hx
    rw [h.proc_list]
    exact hsub x hx
  · intro x dx' hdx' hpar
    obtain ⟨dx, hdx, _, g2, _, _, _⟩ := coreEq_some_right (hdx' ▸ h.procs x)
    exact hcomp x dx hdx (by rw [← g2, hpar])

/-- Descent from the idle task carries over to a new table, as long as along the way each
descriptor keeps its parent or is known to descend from the idle task in the new table. -/
theorem up_transfer {procs procs' : Ptr → Option proc_struct} {idle : Option Ptr}
    (Q : Ptr → Prop)
    (h : ∀ x d r, procs x = some d → d.parent = some r → Q x →
      (Q r ∧ ∃ d', procs' x = some d' ∧ d'.parent = some r) ∨ Up procs' idle x)
    {x : Ptr} (hu : Up procs idle x) : Q x → Up procs' idle x := by
  induction hu with
  | top i hi => exact fun _ => Up.top i hi
  | step x r d hd hp _ ih =>
    intro hq
    rcases h x d r hd hp hq with ⟨hqr, d', hd', hp'⟩ | hup
    · exact Up.step x r d' hd' hp' (ih hqr)
    · exact hup

theorem struct_same_core {exc : Option Ptr} {s s' : State} (h : SameCore s s')
    (hs : Struct exc s) : Struct exc s' := by
  have hsome : ∀ x, (s'.procs x).isSome = (s.procs x).isSome := fun x => coreEq_isSome (h.procs x)
  have back : ∀ x d', s'.procs x = some d' → ∃ d, s.procs x = some d ∧ d'.pid = d.pid ∧
      d'.parent = d.parent ∧ d'.cptr = d.cptr ∧ d'.yptr = d.yptr ∧ d'.optr = d.optr :=
    fun x d' hd' => coreEq_some_right (hd' ▸ h.procs x)
  refine
    { nodup := by rw [h.proc_list]; exact hs.nodup
      valid := ?_
      idle := ?_
      pid_range := ?_
      pid_inj := ?_
      window := ?_
      cursors := by rw [h.last_pid, h.next_safe]; exact hs.cursors
      count := by rw [h.nr_process, h.proc_list]; exact hs.count
      hash := ?_
      hash_nodup := by rw [h.hash_list]; exact hs.hash_nodup
      parent := ?_
      noself := ?_
      fam := ?_
      idle_links := ?_
      up := ?_ }
  · intro p
    rw [hsome, h.proc_list, h.idleproc]
    exact hs.valid p
  · obtain ⟨i, d, h1, h2, h3, h4, h5⟩ := hs.idle
    obtain ⟨d', hd', e1, e2, _⟩ := coreEq_some_left (h3 ▸ h.procs i)
    exact ⟨i, d', by rw [h.idleproc, h1], by rw [h.proc_list]; exact h2, hd',
      by rw [e1, h4], by rw [e2, h5]⟩
  · intro p hp d' hd'
    obtain ⟨d, hd, e1, _⟩ := back p d' hd'
    rw [e1]
    exact hs.pid_range p (h.proc_list ▸ hp) d hd
  · intro p hp q hq hpq
    rw [h.proc_list] at hp hq
    apply hs.pid_inj p hp q hq
    have key : ∀ x, pid_of s' x = pid_of s x := by
      intro x
      unfold pid_of
      have := h.procs x
      cases h1 : s.procs x <;> cases h2 : s'.procs x <;> simp [h1, h2, CoreEq] at this ⊢
      exact this.1
    rw [← key p, ← key q, hpq]
  · intro p hp d' hd'
    obtain ⟨d, hd, e1, _⟩ := back p d' hd'
    rw [e1, h.last_pid, h.next_safe]
    exact hs.window p (h.proc_list ▸ hp) d hd
  · intro i p
    rw [h.hash_list, h.proc_list, hs.hash i p]
    constructor
    · rintro ⟨hp, d, hd, hh⟩
      obtain ⟨d', hd', e1, _⟩ := coreEq_some_left (hd ▸ h.procs p)
      exact ⟨hp, d', hd', by rw [e1, hh]⟩
    · rintro ⟨hp, d', hd', hh⟩
      obtain ⟨d, hd, e1, _⟩ := back p d' hd'
      exact ⟨hp, d, hd, by rw [← e1, hh]⟩
  · intro p hp d' hd'
    obtain ⟨d, hd, _, e2, _⟩ := back p d' hd'
    obtain ⟨r, hr, hv⟩ := hs.parent p (h.proc_list ▸ hp) d hd
    exact ⟨r, by rw [e2, hr], by rw [hsome]; exact hv⟩
  · intro p d' hd'
    obtain ⟨d, hd, _, e2, _⟩ := back p d' hd'
    rw [e2]
    exact hs.noself p d hd
  · intro r hr
    rw [hsome] at hr
    obtain ⟨y, hy, hf⟩ := hs.fam r hr
    exact ⟨y, hy, famAt_same_core h hf⟩
  · intro i d' hi hd'
    obtain ⟨d, hd, _, _, _, e4, e5⟩ := back i d' hd'
    rw [e4, e5]
    exact hs.idle_links i d (h.idleproc ▸ hi) hd
  · intro x hx
    rw [h.idleproc]
    rw [hsome] at hx
    refine up_transfer (fun _ => True) ?_ (hs.up x hx) trivial
    intro y d r hd hp _
    obtain ⟨d', hd', _, e2, _⟩ := coreEq_some_left (hd ▸ h.procs y)
    exact Or.inl ⟨trivial, d', hd', by rw [e2, hp]⟩

end Ucore

namespace Ucore

/-! ## Linking a new child -/

theorem chain_first_mem {procs : Ptr → Option proc_struct} {par h : Ptr} {y : Option Ptr}
    {l : List Ptr} (hc : Chain procs par (some h) y l) : h ∈ l := by
  cases l with
  | nil => simp [Chain] at hc
  | cons a l =>
    obtain ⟨hf, _⟩ := chain_cons.mp hc
    cases hf
    simp

/-- The first child of an allocated descriptor names it as parent. -/
theorem first_child_parent {exc : Option Ptr} {s : State} (hs : Struct exc s) {c h : Ptr}
    {dc : proc_struct} (hc : s.procs c = some dc) (hh : dc.cptr = some h) :
    h ∈ s.proc_list ∧ ∃ dh, s.procs h = some dh ∧ dh.parent = some c := by
  obtain ⟨y, _, dr, l, hdr, hch, _, hsub, _⟩ := hs.fam c (by simp [hc])
  rw [hc] at hdr
  cases hdr
  rw [hh] at hch
  have hm := chain_first_mem hch
  exact ⟨hsub h hm, chain_mem hch h hm⟩

/-- Effect of the table updates of a successful `do_fork` on the structural invariant: a
fresh descriptor `p` with a fresh pid `v` becomes the first child of `c`. -/
theorem struct_fork {s s' : State} {c p : Ptr} {dc ch : proc_struct} {v n : Int}
    (hs : Struct none s) (hc : s.procs c = some dc) (hfresh : s.procs p = none)
    (hroom : s.nr_process < MAX_PROCESS)
    (hv1 : 1 ≤ v) (hvn : v < n) (hn : n ≤ MAX_PID)
    (hvfree : ∀ q ∈ s.proc_list, ∀ d, s.procs q = some d → d.pid < v ∨ n ≤ d.pid)
    (hl : s'.proc_list = p :: s.proc_list)
    (hh : s'.hash_list =
      Function.update s.hash_list (pid_hashfn v) (p :: s.hash_list (pid_hashfn v)))
    (hnr : s'.nr_process = s.nr_process + 1)
    (hlast : s'.last_pid = v) (hnext : s'.next_safe = n)
    (hidle : s'.idleproc = s.idleproc)
    (hp : s'.procs p = some ch)
    (hch : ch.pid = v ∧ ch.parent = some c ∧ ch.cptr = none ∧ ch.yptr = none ∧
      ch.optr = dc.cptr)
    (hx : ∀ x, x ≠ p → ∀ d, s.procs x = some d → ∃ d', s'.procs x = some d' ∧
      d'.pid = d.pid ∧ d'.parent = d.parent ∧ d'.optr = d.optr ∧
      d'.cptr = (if x = c then some p else d.cptr) ∧
      d'.yptr = (if dc.cptr = some x then some p else d.yptr))
    (hx0 : ∀ x, x ≠ p → s.procs x = none → s'.procs x = none) :
    Struct none s' := by
  obtain ⟨hpid, hpar, hcp, hyp, hop⟩ := hch
  have hpl : p ∉ s.proc_list := by
    intro hm
    have := (hs.valid p).mpr (Or.inl hm)
    simp [hfresh] at this
  have hpi : s.idleproc ≠ some p := by
    intro hm
    have := (hs.valid p).mpr (Or.inr hm)
    simp [hfresh] at this
  have hcp' : c ≠ p := by
    rintro rfl
    rw [hfresh] at hc
    cases hc
  have back : ∀ x, x ≠ p → ∀ d', s'.procs x = some d' → ∃ d, s.procs x = some d ∧
      d'.pid = d.pid ∧ d'.parent = d.parent ∧ d'.optr = d.optr ∧
      d'.cptr = (if x = c then some p else d.cptr) ∧
      d'.yptr = (if dc.cptr = some x then some p else d.yptr) := by
    intro x hxp d' hd'
    cases hd : s.procs x with
    | none => rw [hx0 x hxp hd] at hd'; cases hd'
    | some d =>
      obtain ⟨d2, hd2, r⟩ := hx x hxp d hd
      rw [hd2] at hd'
      cases hd'
      exact ⟨d, rfl, r⟩
  have hsome : ∀ x, x ≠ p → (s'.procs x).isSome = (s.procs x).isSome := by
    intro x hxp
    cases hd : s.procs x with
    | none => rw [hx0 x hxp hd]
    | some d =>
      obtain ⟨d2, hd2, _⟩ := hx x hxp d hd
      rw [hd2]
      rfl
  have hne_of_mem : ∀ x ∈ s.proc_list, x ≠ p := by
    rintro x hxm rfl
    exact hpl hxm
  refine
    { nodup := by rw [hl]; exact List.nodup_cons.mpr ⟨hpl, hs.nodup⟩
      valid := ?_
      idle := ?_
      pid_range := ?_
      pid_inj := ?_
      window := ?_
      cursors := by rw [hlast, hnext]; exact ⟨by omega, hn⟩
      count := ?_
      hash := ?_
      hash_nodup := ?_
      parent := ?_
      noself := ?_
      fam := ?_
      idle_links := ?_
      up := ?_ }
  · intro x
    rw [hl, hidle]
    by_cases hxp : x = p
    · subst hxp
      simp [hp]
    · rw [hsome x hxp, hs.valid x]
      simp [hxp]
  · obtain ⟨i, d, h1, h2, h3, h4, h5⟩ := hs.idle
    have hip : i ≠ p := by
      rintro rfl
      exact hpi h1
    obtain ⟨d', hd', e1, e2, _⟩ := hx i hip d h3
    refine ⟨i, d', by rw [hidle, h1], ?_, hd', by rw [e1, h4], by rw [e2, h5]⟩
    rw [hl]
    simp [hip, h2]
  · intro x hxm d' hd'
    rw [hl] at hxm
    rcases List.mem_cons.mp hxm with rfl | hxm
    · rw [hp] at hd'
      cases hd'
      rw [hpid]
      exact ⟨hv1, by omega⟩
    · obtain ⟨d, hd, e1, _⟩ := back x (hne_of_mem x hxm) d' hd'
      rw [e1]
      exact hs.pid_range x hxm d hd
  · have key : ∀ x ∈ s.proc_list, pid_of s' x = pid_of s x ∧ pid_of s x ≠ some v := by
      intro x hxm
      obtain ⟨d, hd⟩ := Option.isSome_iff_exists.mp ((hs.valid x).mpr (Or.inl hxm))
      obtain ⟨d', hd', e1, _⟩ := hx x (hne_of_mem x hxm) d hd
      refine ⟨by simp [pid_of, hd, hd', e1], ?_⟩
      simp only [pid_of, hd, Option.map_some', ne_eq, Option.some.injEq]
      rcases hvfree x hxm d hd with h | h <;> omega
    have keyp : pid_of s' p = some v := by simp [pid_of, hp, hpid]
    intro x hxm q hqm hpq
    rw [hl] at hxm hqm
    rcases List.mem_cons.mp hxm with hx1 | hx1 <;> rcases List.mem_cons.mp hqm with hq1 | hq1
    · rw [hx1, hq1]
    · rw [hx1, keyp, (key q hq1).1] at hpq
      exact absurd hpq.symm (key q hq1).2
    · rw [hq1, keyp, (key x hx1).1] at hpq
      exact absurd hpq (key x hx1).2
    · rw [(key x hx1).1, (key q hq1).1] at hpq
      exact hs.pid_inj x hx1 q hq1 hpq
  · intro x hxm d' hd'
    rw [hl] at hxm
    rw [hlast, hnext]
    rcases List.mem_cons.mp hxm with rfl | hxm
    · rw [hp] at hd'
      cases hd'
      left
      omega
    · obtain ⟨d, hd, e1, _⟩ := back x (hne_of_mem x hxm) d' hd'
      rw [e1]
      rcases hvfree x hxm d hd with h | h
      · left; omega
      · right; exact h
  · rw [hnr, hl]
    have := hs.count
    simp only [List.length_cons, Nat.cast_add, Nat.cast_one]
    omega
  · intro i x
    rw [hh, hl]
    by_cases hi : i = pid_hashfn v
    · subst hi
      simp only [Function.update_same, List.mem_cons]
      constructor
      · rintro (rfl | hm)
        · exact ⟨Or.inl rfl, ch, hp, by rw [hpid]⟩
        · obtain ⟨hm1, d, hd, hh1⟩ := (hs.hash _ x).mp hm
          obtain ⟨d', hd', e1, _⟩ := hx x (hne_of_mem x hm1) d hd
          exact ⟨Or.inr hm1, d', hd', by rw [e1, hh1]⟩
      · rintro ⟨hm | hm, d', hd', hh1⟩
        · exact Or.inl hm
        · right
          obtain ⟨d, hd, e1, _⟩ := back x (hne_of_mem x hm) d' hd'
          exact (hs.hash _ x).mpr ⟨hm, d, hd, by rw [← e1, hh1]⟩
    · rw [Function.update_noteq hi, hs.hash i x]
      constructor
      · rintro ⟨hm, d, hd, hh1⟩
        obtain ⟨d', hd', e1, _⟩ := hx x (hne_of_mem x hm) d hd
        exact ⟨List.mem_cons_of_mem _ hm, d', hd', by rw [e1, hh1]⟩
      · rintro ⟨hm, d', hd', hh1⟩
        rcases List.mem_cons.mp hm with rfl | hm
        · rw [hp] at hd'
          cases hd'
          rw [hpid] at hh1
          exact absurd hh1.symm hi
        · obtain ⟨d, hd, e1, _⟩ := back x (hne_of_mem x hm) d' hd'
          exact ⟨hm, d, hd, by rw [← e1, hh1]⟩
  · intro i
    rw [hh]
    by_cases hi : i = pid_hashfn v
    · subst hi
      rw [Function.update_same]
      refine List.nodup_cons.mpr ⟨?_, hs.hash_nodup _⟩
      intro hm
      exact hpl ((hs.hash _ p).mp hm).1
    · rw [Function.update_noteq hi]
      exact hs.hash_nodup i
  · intro x hxm d' hd'
    rw [hl] at hxm
    rcases List.mem_cons.mp hxm with rfl | hxm
    · rw [hp] at hd'
      cases hd'
      refine ⟨c, hpar, ?_⟩
      rw [hsome c hcp', hc]
      rfl
    · obtain ⟨d, hd, _, e2, _⟩ := back x (hne_of_mem x hxm) d' hd'
      obtain ⟨r, hr, hv⟩ := hs.parent x hxm d hd
      refine ⟨r, by rw [e2, hr], ?_⟩
      have hrp : r ≠ p := by
        rintro rfl
        simp [hfresh] at hv
      rw [hsome r hrp]
      exact hv
  · intro x d' hd'
    by_cases hxp : x = p
    · subst hxp
      rw [hp] at hd'
      cases hd'
      rw [hpar]
      simpa using hcp'
    · obtain ⟨d, hd, _, e2, _⟩ := back x hxp d' hd'
      rw [e2]
      exact hs.noself x d hd
  · intro r hr
    refine ⟨none, fun _ => rfl, ?_⟩
    have noparent_p : ∀ x dx, s.procs x = some dx → dx.parent ≠ some p := by
      intro x dx hdx hcon
      rcases (hs.valid x).mp (by simp [hdx]) with hm | hm
      · obtain ⟨r, hr, hv⟩ := hs.parent x hm dx hdx
        rw [hcon] at hr
        cases hr
        simp [hfresh] at hv
      · obtain ⟨i, d, h1, _, h3, _, h5⟩ := hs.idle
        rw [h1] at hm
        cases hm
        rw [h3] at hdx
        cases hdx
        rw [h5] at hcon
        cases hcon
    by_cases hrp : r = p
    · subst hrp
      refine ⟨ch, [], hp, by rw [hcp]; exact chain_nil.mpr rfl, List.nodup_nil, by simp, ?_⟩
      intro x dx' hdx' hparx
      exfalso
      by_cases hxp : x = r
      · subst hxp
        rw [hp] at hdx'
        cases hdx'
        rw [hpar] at hparx
        cases hparx
        exact hcp' rfl
      · obtain ⟨dx, hdx, _, e2, _⟩ := back x hxp dx' hdx'
        exact noparent_p x dx hdx (by rw [← e2, hparx])
    · rw [hsome r hrp] at hr
      obtain ⟨y, hy, dr, l, hdr, hchain, hnd, hsub, hcomp⟩ := hs.fam r hr
      have hy0 : y = none := hy (by simp)
      subst hy0
      obtain ⟨dr', hdr', _, _, _, ecp, _⟩ := hx r hrp dr hdr
      have hlp : ∀ x ∈ l, x ≠ p := fun x hxl => hne_of_mem x (hsub x hxl)
      by_cases hrc : r = c
      · subst hrc
        rw [hc] at hdr
        cases hdr
        rw [if_pos rfl] at ecp
        refine ⟨dr', p :: l, hdr', ?_, ?_, ?_, ?_⟩
        · rw [ecp]
          refine chain_cons.mpr ⟨rfl, ch, hp, hpar, hyp, ?_⟩
          rw [hop]
          refine chain_rehead hnd ?_ hchain
          intro x hxl d hd
          obtain ⟨d', hd', _, e2, e3, _, e5⟩ := hx x (hlp x hxl) d hd
          exact ⟨d', hd', e2, e3, e5⟩
        · exact List.nodup_cons.mpr ⟨fun hm => hpl (hsub p hm), hnd⟩
        · intro x hxl
          rw [hl]
          rcases List.mem_cons.mp hxl with rfl | hxl
          · simp
          · exact List.mem_cons_of_mem _ (hsub x hxl)
        · intro x dx' hdx' hparx
          by_cases hxp : x = p
          · simp [hxp]
          · obtain ⟨dx, hdx, _, e2, _⟩ := back x hxp dx' hdx'
            exact List.mem_cons_of_mem _ (hcomp x dx hdx (by rw [← e2, hparx]))
      · rw [if_neg hrc] at ecp
        refine ⟨dr', l, hdr', ?_, hnd, ?_, ?_⟩
        · rw [ecp]
          refine chain_congr ?_ hchain
          intro x hxl d hd
          obtain ⟨d', hd', _, e2, e3, _, e5⟩ := hx x (hlp x hxl) d hd
          refine ⟨d', hd', e2, ?_, e3⟩
          rw [e5, if_neg]
          intro hcx
          obtain ⟨_, dh, hdh, hparh⟩ := first_child_parent hs hc hcx
          obtain ⟨dx, hdx, hparx⟩ := chain_mem hchain x hxl
          rw [hdh] at hdx
          cases hdx
          rw [hparh] at hparx
          cases hparx
          exact hrc rfl
        · intro x hxl
          rw [hl]
          exact List.mem_cons_of_mem _ (hsub x hxl)
        · intro x dx' hdx' hparx
          by_cases hxp : x = p
          · subst hxp
            rw [hp] at hdx'
            cases hdx'
            rw [hpar] at hparx
            cases hparx
            exact absurd rfl hrc
          · obtain ⟨dx, hdx, _, e2, _⟩ := back x hxp dx' hdx'
            exact hcomp x dx hdx (by rw [← e2, hparx])
  · intro i d' hi hd'
    rw [hidle] at hi
    have hip : i ≠ p := by
      rintro rfl
      exact hpi hi
    obtain ⟨d, hd, _, _, e3, _, e5⟩ := back i hip d' hd'
    obtain ⟨a, b⟩ := hs.idle_links i d hi hd
    refine ⟨by rw [e3, a], ?_⟩
    rw [e5, if_neg, b]
    intro hci
    obtain ⟨_, dh, hdh, hparh⟩ := first_child_parent hs hc hci
    obtain ⟨j, dj, h1, _, h3, _, h5⟩ := hs.idle
    rw [hi] at h1
    cases h1
    rw [hd] at hdh h3
    cases hdh
    cases h3
    rw [h5] at hparh
    cases hparh
  · have old : ∀ x, (s.procs x).isSome → Up s'.procs s'.idleproc x := by
      intro x hxs
      rw [hidle]
      refine up_transfer (fun _ => True) ?_ (hs.up x hxs) trivial
      intro y d r hd hpr _
      have hyp' : y ≠ p := by
        rintro rfl
        rw [hfresh] at hd
        cases hd
      obtain ⟨d', hd', _, e2, _⟩ := hx y hyp' d hd
      exact Or.inl ⟨trivial, d', hd', by rw [e2, hpr]⟩
    intro x hx
    by_cases hxp : x = p
    · subst hxp
      exact Up.step x c ch hp hpar (old c (by rw [hc]; rfl))
    · rw [hsome x hxp] at hx
      exact old x hx

end Ucore

namespace Ucore

/-! ## Unlinking a reaped child -/

/-- The younger sibling of a member of a child list: the list's `y` for the first member,
another member otherwise. -/
theorem chain_yptr {procs : Ptr → Option proc_struct} {par z : Ptr} {dz : proc_struct}
    (hz : procs z = some dz) :
    ∀ {l : List Ptr} {f y : Option Ptr}, Chain procs par f y l → z ∈ l →
      (f = some z ∧ dz.yptr = y) ∨ ∃ w ∈ l, dz.yptr = some w := by
  intro l
  induction l with
  | nil => intro f y _ hm; simp at hm
  | cons b l ih =>
    intro f y hcc hm
    obtain ⟨hf, db, hdb, _, hyb, hcb⟩ := chain_cons.mp hcc
    by_cases hbz : b = z
    · subst hbz
      rw [hz] at hdb
      cases hdb
      exact Or.inl ⟨hf, hyb⟩
    · have hm' : z ∈ l := by
        rcases List.mem_cons.mp hm with h1 | h1
        · exact absurd h1.symm hbz
        · exact h1
      rcases ih hcb hm' with ⟨_, h1⟩ | ⟨w, hw, h1⟩
      · exact Or.inr ⟨b, by simp, h1⟩
      · exact Or.inr ⟨w, by simp [hw], h1⟩

/-- Effect of the table updates of the label `found` of `do_wait` on the structural
invariant: the childless descriptor `z` leaves both tables and its parent's child list. -/
theorem struct_reap {s s' : State} {z r : Ptr} {dz : proc_struct}
    (hs : Struct none s) (hzl : z ∈ s.proc_list) (hz : s.procs z = some dz)
    (hzc : dz.cptr = none) (hzp : dz.parent = some r)
    (hl : s'.proc_list = s.proc_list.erase z)
    (hh : s'.hash_list = fun i => (s.hash_list i).erase z)
    (hnr : s'.nr_process = s.nr_process - 1)
    (hlast : s'.last_pid = s.last_pid) (hnext : s'.next_safe = s.next_safe)
    (hidle : s'.idleproc = s.idleproc)
    (hz' : s'.procs z = none)
    (hx : ∀ x, x ≠ z → ∀ d, s.procs x = some d → ∃ d', s'.procs x = some d' ∧
      d'.pid = d.pid ∧ d'.parent = d.parent ∧
      d'.optr = (if dz.yptr = some x then dz.optr else d.optr) ∧
      d'.yptr = (if dz.optr = some x then dz.yptr else d.yptr) ∧
      d'.cptr = (if dz.yptr = none ∧ x = r then dz.optr else d.cptr))
    (hx0 : ∀ x, x ≠ z → s.procs x = none → s'.procs x = none) :
    Struct none s' := by
  have back : ∀ x, x ≠ z → ∀ d', s'.procs x = some d' → ∃ d, s.procs x = some d ∧
      d'.pid = d.pid ∧ d'.parent = d.parent ∧
      d'.optr = (if dz.yptr = some x then dz.optr else d.optr) ∧
      d'.yptr = (if dz.optr = some x then dz.yptr else d.yptr) ∧
      d'.cptr = (if dz.yptr = none ∧ x = r then dz.optr else d.cptr) := by
    intro x hxz d' hd'
    cases hd : s.procs x with
    | none => rw [hx0 x hxz hd] at hd'; cases hd'
    | some d =>
      obtain ⟨d2, hd2, r⟩ := hx x hxz d hd
      rw [hd2] at hd'
      cases hd'
      exact ⟨d, rfl, r⟩
  have hsome : ∀ x, x ≠ z → (s'.procs x).isSome = (s.procs x).isSome := by
    intro x hxz
    cases hd : s.procs x with
    | none => rw [hx0 x hxz hd]
    | some d =>
      obtain ⟨d2, hd2, _⟩ := hx x hxz d hd
      rw [hd2]
      rfl
  have hmem : ∀ x, x ∈ s.proc_list.erase z ↔ x ≠ z ∧ x ∈ s.proc_list :=
    fun x => hs.nodup.mem_erase_iff
  have hzi : s.idleproc ≠ some z := by
    obtain ⟨i, _, h1, h2, _⟩ := hs.idle
    rw [h1]
    rintro h
    cases h
    exact h2 hzl
  -- the reaped descriptor has no child
  have nochild : ∀ x dx, s.procs x = some dx → dx.parent ≠ some z := by
    intro x dx hdx hcon
    obtain ⟨y, _, dr, l, hdr, hch, _, _, hcomp⟩ := hs.fam z (by simp [hz])
    rw [hz] at hdr
    cases hdr
    rw [hzc] at hch
    cases l with
    | nil => exact absurd (hcomp x dx hdx hcon) (by simp)
    | cons a l => simp [Chain] at hch
  -- the child list of the parent
  obtain ⟨rv, hrv, hrvalid⟩ := hs.parent z hzl dz hz
  rw [hzp] at hrv
  cases hrv
  obtain ⟨y0, hy0, dr, lr, hdr, hchr, hndr, hsubr, hcompr⟩ := hs.fam r hrvalid
  have : y0 = none := hy0 (by simp)
  subst this
  have hzlr : z ∈ lr := hcompr z dz hz hzp
  have hrz : r ≠ z := by
    rintro rfl
    exact hs.noself r dz hz hzp
  have sib_y : ∀ x, dz.yptr = some x → x ∈ lr := by
    intro x hyx
    rcases chain_yptr hz hchr hzlr with ⟨_, h1⟩ | ⟨w, hw, h1⟩
    · rw [hyx] at h1
      cases h1
    · rw [hyx] at h1
      cases h1
      exact hw
  have sib_o : ∀ x, dz.optr = some x → x ∈ lr :=
    fun x hox => chain_optr_mem hchr z hzlr dz hz x hox
  refine
    { nodup := by rw [hl]; exact hs.nodup.erase z
      valid := ?_
      idle := ?_
      pid_range := ?_
      pid_inj := ?_
      window := ?_
      cursors := by rw [hlast, hnext]; exact hs.cursors
      count := ?_
      hash := ?_
      hash_nodup := by intro i; rw [hh]; exact (hs.hash_nodup i).erase z
      parent := ?_
      noself := ?_
      fam := ?_
      idle_links := ?_
      up := ?_ }
  · intro x
    rw [hl, hidle, hmem]
    by_cases hxz : x = z
    · subst hxz
      simp [hz', hzi]
    · rw [hsome x hxz, hs.valid x]
      simp [hxz]
  · obtain ⟨i, d, h1, h2, h3, h4, h5⟩ := hs.idle
    have hiz : i ≠ z := by
      rintro rfl
      exact hzi h1
    obtain ⟨d', hd', e1, e2, _⟩ := hx i hiz d h3
    refine ⟨i, d', by rw [hidle, h1], ?_, hd', by rw [e1, h4], by rw [e2, h5]⟩
    rw [hl, hmem]
    exact fun h => h2 h.2
  · intro x hxm d' hd'
    rw [hl, hmem] at hxm
    obtain ⟨d, hd, e1, _⟩ := back x hxm.1 d' hd'
    rw [e1]
    exact hs.pid_range x hxm.2 d hd
  · have key : ∀ x, x ≠ z → pid_of s' x = pid_of s x := by
      intro x hxz
      cases hd : s.procs x with
      | none => simp [pid_of, hd, hx0 x hxz hd]
      | some d =>
        obtain ⟨d', hd', e1, _⟩ := hx x hxz d hd
        simp [pid_of, hd, hd', e1]
    intro x hxm q hqm hpq
    rw [hl, hmem] at hxm hqm
    rw [key x hxm.1, key q hqm.1] at hpq
    exact hs.pid_inj x hxm.2 q hqm.2 hpq
  · intro x hxm d' hd'
    rw [hl, hmem] at hxm
    obtain ⟨d, hd, e1, _⟩ := back x hxm.1 d' hd'
    rw [e1, hlast, hnext]
    exact hs.window x hxm.2 d hd
  · rw [hnr, hl, List.length_erase_of_mem hzl]
    have := hs.count
    have hpos : 0 < s.proc_list.length := List.length_pos_of_mem hzl
    constructor
    · have : ((s.proc_list.length - 1 : Nat) : Int) = (s.proc_list.length : Int) - 1 := by
        omega
      omega
    · omega
  · intro i x
    rw [hh, hl, hmem]
    simp only
    rw [(hs.hash_nodup i).mem_erase_iff, hs.hash i x]
    constructor
    · rintro ⟨hxz, hm, d, hd, hh1⟩
      obtain ⟨d', hd', e1, _⟩ := hx x hxz d hd
      exact ⟨⟨hxz, hm⟩, d', hd', by rw [e1, hh1]⟩
    · rintro ⟨⟨hxz, hm⟩, d', hd', hh1⟩
      obtain ⟨d, hd, e1, _⟩ := back x hxz d' hd'
      exact ⟨hxz, hm, d, hd, by rw [← e1, hh1]⟩
  · intro x hxm d' hd'
    rw [hl, hmem] at hxm
    obtain ⟨d, hd, _, e2, _⟩ := back x hxm.1 d' hd'
    obtain ⟨q, hq, hv⟩ := hs.parent x hxm.2 d hd
    refine ⟨q, by rw [e2, hq], ?_⟩
    have hqz : q ≠ z := by
      rintro rfl
      exact nochild x d hd hq
    rw [hsome q hqz]
    exact hv
  · intro x d' hd'
    have hxz : x ≠ z := by
      rintro rfl
      rw [hz'] at hd'
      cases hd'
    obtain ⟨d, hd, _, e2, _⟩ := back x hxz d' hd'
    rw [e2]
    exact hs.noself x d hd
  · intro q hq
    refine ⟨none, fun _ => rfl, ?_⟩
    have hqz : q ≠ z := by
      rintro rfl
      simp [hz'] at hq
    rw [hsome q hqz] at hq
    by_cases hqr : q = r
    · subst hqr
      obtain ⟨dq', hdq', _, _, _, _, ecp⟩ := hx q hqz dr hdr
      refine ⟨dq', lr.erase z, hdq', ?_, hndr.erase z, ?_, ?_⟩
      · have hrem := @chain_remove _ s'.procs _ _ _ hz _ _ _ hndr hzlr (by intro w hw; cases hw)
          (by
            intro x hxl hxz d hd
            obtain ⟨d', hd', _, e2, e3, e4, _⟩ := hx x hxz d hd
            exact ⟨d', hd', e2, e3, e4⟩) hchr
        have hiff : (dz.yptr = none ∧ q = q) ↔ dr.cptr = some z := by
          constructor
          · rintro ⟨hy, _⟩
            rcases chain_yptr hz hchr hzlr with ⟨h1, _⟩ | ⟨w, _, h1⟩
            · exact h1
            · rw [hy] at h1
              cases h1
          · intro hcz
            refine ⟨?_, rfl⟩
            rw [hcz] at hchr
            cases lr with
            | nil => simp [Chain] at hchr
            | cons a l =>
              obtain ⟨ha, da, hda, _, hya, _⟩ := chain_cons.mp hchr
              cases ha
              rw [hz] at hda
              cases hda
              exact hya
        rw [ecp]
        by_cases hcz : dr.cptr = some z
        · rw [if_pos (hiff.mpr hcz)]
          rw [if_pos hcz] at hrem
          exact hrem
        · rw [if_neg (fun h => hcz (hiff.mp h))]
          rw [if_neg hcz] at hrem
          exact hrem
      · intro x hxl
        rw [hl, hmem]
        rw [hndr.mem_erase_iff] at hxl
        exact ⟨hxl.1, hsubr x hxl.2⟩
      · intro x dx' hdx' hparx
        have hxz : x ≠ z := by
          rintro rfl
          rw [hz'] at hdx'
          cases hdx'
        obtain ⟨dx, hdx, _, e2, _⟩ := back x hxz dx' hdx'
        rw [hndr.mem_erase_iff]
        exact ⟨hxz, hcompr x dx hdx (by rw [← e2, hparx])⟩
    · obtain ⟨y, hy, dq, l, hdq, hchain, hnd, hsub, hcomp⟩ := hs.fam q hq
      have : y = none := hy (by simp)
      subst this
      obtain ⟨dq', hdq', _, _, _, _, ecp⟩ := hx q hqz dq hdq
      rw [if_neg (fun h => hqr h.2)] at ecp
      -- no member of this list is a sibling of `z`
      have notsib : ∀ x ∈ l, x ∉ lr := by
        intro x hxl hxr
        obtain ⟨d1, hd1, hp1⟩ := chain_mem hchain x hxl
        obtain ⟨d2, hd2, hp2⟩ := chain_mem hchr x hxr
        rw [hd1] at hd2
        cases hd2
        rw [hp1] at hp2
        cases hp2
        exact hqr rfl
      have hlz : ∀ x ∈ l, x ≠ z := by
        rintro x hxl rfl
        exact notsib x hxl hzlr
      refine ⟨dq', l, hdq', ?_, hnd, ?_, ?_⟩
      · rw [ecp]
        refine chain_congr ?_ hchain
        intro x hxl d hd
        obtain ⟨d', hd', _, e2, e3, e4, _⟩ := hx x (hlz x hxl) d hd
        rw [if_neg (fun h => notsib x hxl (sib_y x h))] at e3
        rw [if_neg (fun h => notsib x hxl (sib_o x h))] at e4
        exact ⟨d', hd', e2, e4, e3⟩
      · intro x hxl
        rw [hl, hmem]
        exact ⟨hlz x hxl, hsub x hxl⟩
      · intro x dx' hdx' hparx
        have hxz : x ≠ z := by
          rintro rfl
          rw [hz'] at hdx'
          cases hdx'
        obtain ⟨dx, hdx, _, e2, _⟩ := back x hxz dx' hdx'
        exact hcomp x dx hdx (by rw [← e2, hparx])
  · intro i d' hi hd'
    rw [hidle] at hi
    have hiz : i ≠ z := by
      rintro rfl
      exact hzi hi
    obtain ⟨d, hd, _, _, e3, e4, _⟩ := back i hiz d' hd'
    obtain ⟨a, b⟩ := hs.idle_links i d hi hd
    have hnl : i ∉ lr := by
      intro hil
      obtain ⟨di, hdi, hpi⟩ := chain_mem hchr i hil
      obtain ⟨j, dj, h1, _, h3, _, h5⟩ := hs.idle
      rw [hi] at h1
      cases h1
      rw [hdi] at h3
      cases h3
      rw [h5] at hpi
      cases hpi
    refine ⟨?_, ?_⟩
    · rw [e3, if_neg (fun h => hnl (sib_y i h)), a]
    · rw [e4, if_neg (fun h => hnl (sib_o i h)), b]
  · intro x hxs
    have hxz : x ≠ z := by
      rintro rfl
      rw [hz'] at hxs
      cases hxs
    rw [hsome x hxz] at hxs
    rw [hidle]
    refine up_transfer (fun y => y ≠ z) ?_ (hs.up x hxs) hxz
    intro y d r0 hd hpr hyz
    obtain ⟨d', hd', _, e2, _⟩ := hx y hyz d hd
    refine Or.inl ⟨?_, d', hd', by rw [e2, hpr]⟩
    rintro rfl
    obtain ⟨y0, _, dzz, lz, hdzz, hchz, _, _, hcompz⟩ := hs.fam r0 (by rw [hz]; rfl)
    rw [hz] at hdzz
    cases hdzz
    have hyl := hcompz y d hd hpr
    cases lz with
    | nil => simp at hyl
    | cons a l => simp [Chain, hzc] at hchz

end Ucore

namespace Ucore

/-! ## Handing a child over to `initproc` -/

/-- Effect of one round of the loop of `do_exit` on the structural invariant: the first
child `p` of the exiting task `cur` becomes the first child of `i`, the init task. -/
theorem struct_reparent {s s' : State} {cur p i : Ptr} {dcur dp di : proc_struct}
    (hs : Struct (some cur) s)
    (hcur : s.procs cur = some dcur) (hcp : dcur.cptr = some p) (hp : s.procs p = some dp)
    (hi : s.procs i = some di) (hci : cur ≠ i) (hpi : p ≠ i) (hipar : di.parent = s.idleproc)
    (hl : s'.proc_list = s.proc_list) (hh : s'.hash_list = s.hash_list)
    (hnr : s'.nr_process = s.nr_process)
    (hlast : s'.last_pid = s.last_pid) (hnext : s'.next_safe = s.next_safe)
    (hidle : s'.idleproc = s.idleproc)
    (hx : ∀ x d, s.procs x = some d → ∃ d', s'.procs x = some d' ∧
      d'.pid = d.pid ∧
      d'.parent = (if x = p then some i else d.parent) ∧
      d'.optr = (if x = p then di.cptr else d.optr) ∧
      d'.yptr = (if x = p then none else if di.cptr = some x then some p else d.yptr) ∧
      d'.cptr = (if x = cur then dp.optr else if x = i then some p else d.cptr))
    (hx0 : ∀ x, s.procs x = none → s'.procs x = none) :
    Struct (some cur) s' := by
  have back : ∀ x d', s'.procs x = some d' → ∃ d, s.procs x = some d ∧
      d'.pid = d.pid ∧
      d'.parent = (if x = p then some i else d.parent) ∧
      d'.optr = (if x = p then di.cptr else d.optr) ∧
      d'.yptr = (if x = p then none else if di.cptr = some x then some p else d.yptr) ∧
      d'.cptr = (if x = cur then dp.optr else if x = i then some p else d.cptr) := by
    intro x d' hd'
    cases hd : s.procs x with
    | none => rw [hx0 x hd] at hd'; cases hd'
    | some d =>
      obtain ⟨d2, hd2, r⟩ := hx x d hd
      rw [hd2] at hd'
      cases hd'
      exact ⟨d, rfl, r⟩
  have hsome : ∀ x, (s'.procs x).isSome = (s.procs x).isSome := by
    intro x
    cases hd : s.procs x with
    | none => rw [hx0 x hd]
    | some d =>
      obtain ⟨d2, hd2, _⟩ := hx x d hd
      rw [hd2]
      rfl
  obtain ⟨hpl, _, hdp', hpp⟩ := first_child_parent hs hcur hcp
  rw [hp] at hdp'
  cases hdp'
  have hpc : p ≠ cur := by
    rintro rfl
    exact hs.noself p dp hp hpp
  -- the first child of `i`, if any, is a child of `i`
  have hfirst : ∀ x, di.cptr = some x → ∃ dx, s.procs x = some dx ∧ dx.parent = some i :=
    fun x hx1 => (first_child_parent hs hi hx1).2
  have key : ∀ x, pid_of s' x = pid_of s x := by
    intro x
    cases hd : s.procs x with
    | none => simp [pid_of, hd, hx0 x hd]
    | some d =>
      obtain ⟨d', hd', e1, _⟩ := hx x d hd
      simp [pid_of, hd, hd', e1]
  refine
    { nodup := by rw [hl]; exact hs.nodup
      valid := ?_
      idle := ?_
      pid_range := ?_
      pid_inj := ?_
      window := ?_
      cursors := by rw [hlast, hnext]; exact hs.cursors
      count := by rw [hnr, hl]; exact hs.count
      hash := ?_
      hash_nodup := by rw [hh]; exact hs.hash_nodup
      parent := ?_
      noself := ?_
      fam := ?_
      idle_links := ?_
      up := ?_ }
  · intro x
    rw [hsome, hl, hidle]
    exact hs.valid x
  · obtain ⟨j, d, h1, h2, h3, h4, h5⟩ := hs.idle
    have hjp : j ≠ p := by
      rintro rfl
      exact h2 hpl
    obtain ⟨d', hd', e1, e2, _⟩ := hx j d h3
    rw [if_neg hjp] at e2
    exact ⟨j, d', by rw [hidle, h1], by rw [hl]; exact h2, hd', by rw [e1, h4], by rw [e2, h5]⟩
  · intro x hxm d' hd'
    obtain ⟨d, hd, e1, _⟩ := back x d' hd'
    rw [e1]
    exact hs.pid_range x (hl ▸ hxm) d hd
  · intro x hxm q hqm hpq
    rw [hl] at hxm hqm
    rw [key x, key q] at hpq
    exact hs.pid_inj x hxm q hqm hpq
  · intro x hxm d' hd'
    obtain ⟨d, hd, e1, _⟩ := back x d' hd'
    rw [e1, hlast, hnext]
    exact hs.window x (hl ▸ hxm) d hd
  · intro j x
    rw [hh, hl, hs.hash j x]
    constructor
    · rintro ⟨hm, d, hd, hh1⟩
      obtain ⟨d', hd', e1, _⟩ := hx x d hd
      exact ⟨hm, d', hd', by rw [e1, hh1]⟩
    · rintro ⟨hm, d', hd', hh1⟩
      obtain ⟨d, hd, e1, _⟩ := back x d' hd'
      exact ⟨hm, d, hd, by rw [← e1, hh1]⟩
  · intro x hxm d' hd'
    obtain ⟨d, hd, _, e2, _⟩ := back x d' hd'
    by_cases hxp : x = p
    · rw [if_pos hxp] at e2
      exact ⟨i, e2, by rw [hsome, hi]; rfl⟩
    · rw [if_neg hxp] at e2
      obtain ⟨q, hq, hv⟩ := hs.parent x (hl ▸ hxm) d hd
      exact ⟨q, by rw [e2, hq], by rw [hsome]; exact hv⟩
  · intro x d' hd'
    obtain ⟨d, hd, _, e2, _⟩ := back x d' hd'
    by_cases hxp : x = p
    · rw [if_pos hxp] at e2
      rw [e2, hxp]
      simpa using hpi.symm
    · rw [if_neg hxp] at e2
      rw [e2]
      exact hs.noself x d hd
  · intro r hr
    rw [hsome] at hr
    obtain ⟨y, hy, dr, l, hdr, hchain, hnd, hsub, hcomp⟩ := hs.fam r hr
    obtain ⟨dr', hdr', _, _, _, _, ecp⟩ := hx r dr hdr
    by_cases hrc : r = cur
    · subst hrc
      rw [hcur] at hdr
      cases hdr
      rw [if_pos rfl] at ecp
      rw [hcp] at hchain
      cases l with
      | nil => simp [Chain] at hchain
      | cons a rest =>
        obtain ⟨ha, da, hda, _, _, hrest⟩ := chain_cons.mp hchain
        cases ha
        rw [hp] at hda
        cases hda
        obtain ⟨hprest, hndrest⟩ := List.nodup_cons.mp hnd
        refine ⟨some p, fun h => absurd rfl h, dr', rest, hdr', ?_, hndrest, ?_, ?_⟩
        · rw [ecp]
          refine chain_congr ?_ hrest
          intro x hxl d hd
          have hxp : x ≠ p := by
            rintro rfl
            exact hprest hxl
          obtain ⟨d', hd', _, e2, e3, e4, _⟩ := hx x d hd
          rw [if_neg hxp] at e2 e3 e4
          refine ⟨d', hd', e2, ?_, e3⟩
          rw [e4, if_neg]
          intro hcx
          obtain ⟨dx, hdx, hparx⟩ := hfirst x hcx
          obtain ⟨dx2, hdx2, hparx2⟩ := chain_mem hrest x hxl
          rw [hdx] at hdx2
          cases hdx2
          rw [hparx] at hparx2
          cases hparx2
          exact hci rfl
        · intro x hxl
          rw [hl]
          exact hsub x (List.mem_cons_of_mem _ hxl)
        · intro x dx' hdx' hparx
          obtain ⟨dx, hdx, _, e2, _⟩ := back x dx' hdx'
          by_cases hxp : x = p
          · rw [if_pos hxp, hparx] at e2
            cases e2
            exact absurd rfl hci
          · rw [if_neg hxp] at e2
            have := hcomp x dx hdx (by rw [← e2, hparx])
            rcases List.mem_cons.mp this with h1 | h1
            · exact absurd h1 hxp
            · exact h1
    · have hy0 : y = none := hy (by simpa using hrc)
      subst hy0
      rw [if_neg hrc] at ecp
      have hpl' : p ∉ l := by
        intro hm
        obtain ⟨d1, hd1, hp1⟩ := chain_mem hchain p hm
        rw [hp] at hd1
        cases hd1
        rw [hpp] at hp1
        cases hp1
        exact hrc rfl
      by_cases hri : r = i
      · subst hri
        rw [hi] at hdr
        cases hdr
        rw [if_pos rfl] at ecp
        obtain ⟨dp', hdp', _, f2, f3, f4, _⟩ := hx p dp hp
        rw [if_pos rfl] at f2 f3 f4
        refine ⟨none, fun _ => rfl, dr', p :: l, hdr', ?_, List.nodup_cons.mpr ⟨hpl', hnd⟩, ?_, ?_⟩
        · rw [ecp]
          refine chain_cons.mpr ⟨rfl, dp', hdp', f2, f4, ?_⟩
          rw [f3]
          refine chain_rehead hnd ?_ hchain
          intro x hxl d hd
          have hxp : x ≠ p := by
            rintro rfl
            exact hpl' hxl
          obtain ⟨d', hd', _, e2, e3, e4, _⟩ := hx x d hd
          rw [if_neg hxp] at e2 e3 e4
          exact ⟨d', hd', e2, e3, e4⟩
        · intro x hxl
          rw [hl]
          rcases List.mem_cons.mp hxl with h1 | h1
          · rw [h1]
            exact hpl
          · exact hsub x h1
        · intro x dx' hdx' hparx
          obtain ⟨dx, hdx, _, e2, _⟩ := back x dx' hdx'
          by_cases hxp : x = p
          · simp [hxp]
          · rw [if_neg hxp] at e2
            exact List.mem_cons_of_mem _ (hcomp x dx hdx (by rw [← e2, hparx]))
      · rw [if_neg hri] at ecp
        refine ⟨none, fun _ => rfl, dr', l, hdr', ?_, hnd, ?_, ?_⟩
        · rw [ecp]
          refine chain_congr ?_ hchain
          intro x hxl d hd
          have hxp : x ≠ p := by
            rintro rfl
            exact hpl' hxl
          obtain ⟨d', hd', _, e2, e3, e4, _⟩ := hx x d hd
          rw [if_neg hxp] at e2 e3 e4
          refine ⟨d', hd', e2, ?_, e3⟩
          rw [e4, if_neg]
          intro hcx
          obtain ⟨dx, hdx, hparx⟩ := hfirst x hcx
          obtain ⟨dx2, hdx2, hparx2⟩ := chain_mem hchain x hxl
          rw [hdx] at hdx2
          cases hdx2
          rw [hparx] at hparx2
          cases hparx2
          exact hri rfl
        · intro x hxl
          rw [hl]
          exact hsub x hxl
        · intro x dx' hdx' hparx
          obtain ⟨dx, hdx, _, e2, _⟩ := back x dx' hdx'
          by_cases hxp : x = p
          · rw [if_pos hxp, hparx] at e2
            cases e2
            exact absurd rfl hri
          · rw [if_neg hxp] at e2
            exact hcomp x dx hdx (by rw [← e2, hparx])
  · intro j d' hj hd'
    rw [hidle] at hj
    obtain ⟨d, hd, _, _, e3, e4, _⟩ := back j d' hd'
    obtain ⟨a, b⟩ := hs.idle_links j d hj hd
    obtain ⟨j2, dj, h1, h2, h3, _, h5⟩ := hs.idle
    rw [hj] at h1
    cases h1
    rw [hd] at h3
    cases h3
    have hjp : j ≠ p := by
      rintro rfl
      exact h2 hpl
    refine ⟨by rw [e3, if_neg hjp, a], ?_⟩
    rw [e4, if_neg hjp, if_neg, b]
    intro hcj
    obtain ⟨_, dh, hdh, hparh⟩ := first_child_parent hs hi hcj
    rw [hd] at hdh
    cases hdh
    rw [h5] at hparh
    cases hparh
  · obtain ⟨j, dj, h1, _, _, _, _⟩ := hs.idle
    obtain ⟨di', hdi', _, ei, _⟩ := hx i di hi
    rw [if_neg (Ne.symm hpi), hipar, h1] at ei
    have hupi : Up s'.procs s'.idleproc i :=
      Up.step i j di' hdi' ei (Up.top j (by rw [hidle, h1]))
    intro x hxs
    rw [hsome] at hxs
    refine up_transfer (fun _ => True) ?_ (hidle ▸ hs.up x hxs) trivial
    intro y d r hd hpr _
    obtain ⟨d', hd', _, e2, _⟩ := hx y d hd
    by_cases hyp : y = p
    · rw [if_pos hyp] at e2
      exact Or.inr (Up.step y i d' hd' e2 hupi)
    · rw [if_neg hyp, hpr] at e2
      exact Or.inl ⟨trivial, d', hd', e2⟩

end Ucore

namespace Ucore

/-! ## The code of `do_fork` -/

/-- With an empty task list and the cursors as the initialisers leave them, `get_pid` hands
out pid 1. -/
theorem get_pid_boot {s : State} {fuel : Nat} (hl : s.proc_list = []) (hlast : s.last_pid = MAX_PID)
    (hfuel : 0 < fuel) :
    get_pid fuel s = .ok (1, { s with last_pid := 1, next_safe := MAX_PID }) := by
  obtain ⟨k, rfl⟩ : ∃ k, fuel = k + 1 := ⟨fuel - 1, by omega⟩
  unfold get_pid
  simp [hl, hlast, get_pid_repeat, get_pid_scan]

theorem copy_thread_of {s : State} {p : Ptr} {d : proc_struct} (h : s.procs p = some d)
    (esp : Nat) (tf : trapframe) :
    ∃ s', copy_thread s p esp tf = .ok s' ∧
      (∃ d', s'.procs p = some d' ∧
        d'.pid = d.pid ∧ d'.parent = d.parent ∧ d'.cptr = d.cptr ∧ d'.yptr = d.yptr ∧
        d'.optr = d.optr ∧ d'.state = d.state ∧ d'.wait_state = d.wait_state ∧
        d'.kstack = d.kstack ∧ d'.mm = d.mm ∧ d'.cr3 = d.cr3 ∧ d'.flags = d.flags) ∧
      (∀ x, x ≠ p → s'.procs x = s.procs x) ∧
      s'.proc_list = s.proc_list ∧ s'.hash_list = s.hash_list ∧
      s'.nr_process = s.nr_process ∧ s'.last_pid = s.last_pid ∧ s'.next_safe = s.next_safe ∧
      s'.idleproc = s.idleproc ∧ s'.initproc = s.initproc ∧ s'.current = s.current ∧
      s'.mms = s.mms ∧ s'.pgtab = s.pgtab ∧ s'.log = s.log := by
  unfold copy_thread
  simp [State.modify, State.store, State.deref, h]
  intro x hx
  exact Function.update_noteq hx _ _

/-- The critical section of `do_fork` and what follows it, from a state in which the new
descriptor `p` is allocated (not yet listed) with parent `c`. -/
theorem do_fork_link_of {s : State} {p c : Ptr} {d4 dc : proc_struct} (fuel : Nat)
    (stack : Nat) (tf : trapframe)
    (hp : s.procs p = some d4) (hpar : d4.parent = some c) (hc : s.procs c = some dc)
    (hcp : c ≠ p) (hpl : p ∉ s.proc_list)
    (hhead : ∀ h, dc.cptr = some h → h ≠ p ∧ h ≠ c ∧ (s.procs h).isSome)
    (hval : ∀ q ∈ s.proc_list, (s.procs q).isSome)
    (hwin : ∀ q ∈ s.proc_list, ∀ d, s.procs q = some d →
      d.pid ≤ s.last_pid ∨ s.next_safe ≤ d.pid)
    (hcur : 0 ≤ s.last_pid ∧ s.next_safe ≤ MAX_PID)
    (hlen : (s.proc_list.length : Int) < MAX_PID - 1)
    (hfuel : 2 * MAX_PID < fuel) :
    ∃ v n s', do_fork_link fuel s p stack tf = .ok (v, s') ∧
      1 ≤ v ∧ v < n ∧ n ≤ MAX_PID ∧
      (∀ q ∈ s.proc_list, ∀ d, s.procs q = some d → d.pid < v ∨ n ≤ d.pid) ∧
      s'.proc_list = p :: s.proc_list ∧
      s'.hash_list =
        Function.update s.hash_list (pid_hashfn v) (p :: s.hash_list (pid_hashfn v)) ∧
      s'.nr_process = s.nr_process + 1 ∧ s'.last_pid = v ∧ s'.next_safe = n ∧
      s'.idleproc = s.idleproc ∧ s'.initproc = s.initproc ∧ s'.current = s.current ∧
      s'.mms = s.mms ∧ s'.pgtab = s.pgtab ∧ s'.log = Call.wakeup_proc p :: s.log ∧
      (∃ ch, s'.procs p = some ch ∧ ch.pid = v ∧ ch.parent = some c ∧ ch.cptr = d4.cptr ∧
        ch.yptr = none ∧ ch.optr = dc.cptr ∧
        ch.state = (if d4.state = .PROC_SLEEPING ∨ d4.state = .PROC_UNINIT
          then .PROC_RUNNABLE else d4.state) ∧
        ch.wait_state = (if d4.state = .PROC_SLEEPING ∨ d4.state = .PROC_UNINIT
          then 0 else d4.wait_state) ∧
        ch.kstack = d4.kstack ∧ ch.mm = d4.mm ∧ ch.cr3 = d4.cr3 ∧ ch.flags = d4.flags) ∧
      (∀ x, x ≠ p → ∀ d, s.procs x = some d → s'.procs x = some
        { d with cptr := if x = c then some p else d.cptr,
                 yptr := if dc.cptr = some x then some p else d.yptr }) ∧
      (∀ x, x ≠ p → s.procs x = none → s'.procs x = none) ∧
      (s.proc_list = [] → s.last_pid = MAX_PID → v = 1) := by
  obtain ⟨s5, h5, ⟨d5, hd5, e1, e2, e3, e4, e5, e6, e7, e8, e9, e10, e11⟩, hoth, f1, f2, f3,
    f4, f5, f6, f7, f8, f9, f9', f10⟩ := copy_thread_of hp stack tf
  have hmem5 : ∀ q ∈ s.proc_list, s5.procs q = s.procs q := by
    intro q hq
    apply hoth
    rintro rfl
    exact hpl hq
  obtain ⟨v, n, hg, hv1, hvn, hn, hfree⟩ := get_pid_spec s5 fuel
    (by intro q hq; rw [f1] at hq; rw [hmem5 q hq]; exact hval q hq)
    (by
      intro q hq d hd
      rw [f1] at hq
      rw [hmem5 q hq] at hd
      rw [f4, f5]
      exact hwin q hq d hd)
    (by rw [f4, f5]; exact hcur) (by rw [f1]; exact hlen) hfuel
  have hc5 : s5.procs c = some dc := by rw [hoth c hcp, hc]
  have hv : s.proc_list = [] → s.last_pid = MAX_PID → v = 1 := by
    intro hnil hmax
    have hb := @get_pid_boot s5 fuel (by rw [f1, hnil]) (by rw [f4, hmax])
      (by
        have : (0 : Int) < fuel := lt_trans (by simp [MAX_PID, MAX_PROCESS]) hfuel
        exact_mod_cast this)
    rw [hg] at hb
    simp only [Except.ok.injEq, Prod.mk.injEq] at hb
    exact hb.1
  refine ⟨v, n, ?_⟩
  unfold do_fork_link
  rw [h5]
  simp only [ok_bind, hg]
  have hfree' : ∀ q ∈ s.proc_list, ∀ d, s.procs q = some d → d.pid < v ∨ n ≤ d.pid := by
    intro q hq d hd
    rw [← hmem5 q hq] at hd
    exact hfree q (by rw [f1]; exact hq) d hd
  cases hh : dc.cptr with
  | none =>
    simp [State.modify, State.store, State.deref, State.derefp, hd5, hash_proc, set_links,
      list_add, e2, hpar, hc5, hh, Function.update_noteq hcp, Function.update_noteq hcp.symm,
      wakeup_proc, State.call, e6, e7]
    split_ifs with hst
    · simp [Function.update_noteq hcp.symm, f1, f2, f3, f6, f7, f8, f9, f9', f10, hv1, hvn, hn,
        e3, e6, e8, e9, e10, e11, hst]
      refine ⟨hfree', ?_, ?_, hv⟩
      · intro x hxp d hd
        by_cases hxc : x = c
        · subst hxc
          rw [hc] at hd
          cases hd
          simp [Function.update_apply, hxp, hh]
        · simp [Function.update_apply, hxp, hxc, hoth x hxp, hd, hh]
      · intro x hxp hd
        have hxc : x ≠ c := by
          rintro rfl
          rw [hc] at hd
          cases hd
        simp [Function.update_apply, hxp, hxc, hoth x hxp, hd]
    · simp [Function.update_noteq hcp.symm, f1, f2, f3, f6, f7, f8, f9, f9', f10, hv1, hvn, hn,
        e3, e6, e7, e8, e9, e10, e11, hst]
      refine ⟨hfree', ?_, ?_, hv⟩
      · intro x hxp d hd
        by_cases hxc : x = c
        · subst hxc
          rw [hc] at hd
          cases hd
          simp [Function.update_apply, hxp, hh]
        · simp [Function.update_apply, hxp, hxc, hoth x hxp, hd, hh]
      · intro x hxp hd
        have hxc : x ≠ c := by
          rintro rfl
          rw [hc] at hd
          cases hd
        simp [Function.update_apply, hxp, hxc, hoth x hxp, hd]
  | some h =>
    obtain ⟨hhp, hhc, hhv⟩ := hhead h hh
    obtain ⟨dh, hdh⟩ := Option.isSome_iff_exists.mp hhv
    have hh5 : s5.procs h = some dh := by rw [hoth h hhp, hdh]
    simp [State.modify, State.store, State.deref, State.derefp, hd5, hash_proc, set_links,
      list_add, e2, hpar, hc5, hh, hh5, Function.update_noteq hcp,
      Function.update_noteq hcp.symm, Function.update_noteq hhp, Function.update_noteq hhp.symm,
      Function.update_noteq hhc, Function.update_noteq hhc.symm, wakeup_proc, State.call, e6, e7]
    split_ifs with hst
    · simp [Function.update_noteq hcp.symm, Function.update_noteq hhp.symm, f1, f2, f3, f6, f7,
        f8, f9, f9', f10, hv1, hvn, hn, e3, e6, e8, e9, e10, e11, hst]
      refine ⟨hfree', ?_, ?_, hv⟩
      · intro x hxp d hd
        by_cases hxc : x = c
        · subst hxc
          rw [hc] at hd
          cases hd
          simp [Function.update_apply, hxp, hh, hhc.symm, hhc]
        · by_cases hxh : x = h
          · subst hxh
            rw [hdh] at hd
            cases hd
            simp [Function.update_apply, hxp, hxc, hh]
          · simp [Function.update_apply, hxp, hxc, hxh, hoth x hxp, hd, hh, Ne.symm hxh]
      · intro x hxp hd
        have hxc : x ≠ c := by
          rintro rfl
          rw [hc] at hd
          cases hd
        have hxh : x ≠ h := by
          rintro rfl
          rw [hdh] at hd
          cases hd
        simp [Function.update_apply, hxp, hxc, hxh, hoth x hxp, hd]
    · simp [Function.update_noteq hcp.symm, Function.update_noteq hhp.symm, f1, f2, f3, f6, f7,
        f8, f9, f9', f10, hv1, hvn, hn, e3, e6, e7, e8, e9, e10, e11, hst]
      refine ⟨hfree', ?_, ?_, hv⟩
      · intro x hxp d hd
        by_cases hxc : x = c
        · subst hxc
          rw [hc] at hd
          cases hd
          simp [Function.update_apply, hxp, hh, hhc.symm, hhc]
        · by_cases hxh : x = h
          · subst hxh
            rw [hdh] at hd
            cases hd
            simp [Function.update_apply, hxp, hxc, hh]
          · simp [Function.update_apply, hxp, hxc, hxh, hoth x hxp, hd, hh, Ne.symm hxh]
      · intro x hxp hd
        have hxc : x ≠ c := by
          rintro rfl
          rw [hc] at hd
          cases hd
        have hxh : x ≠ h := by
          rintro rfl
          rw [hdh] at hd
          cases hd
        simp [Function.update_apply, hxp, hxc, hxh, hoth x hxp, hd]

/-- The code of `do_fork` up to its call of `copy_mm`, when the descriptor and the kernel
stack are obtained. -/
theorem do_fork_unfold {s : State} {env : ForkEnv} {p c : Ptr} {raw dc : proc_struct}
    (fuel clone_flags stack : Nat) (tf : trapframe) {k : Nat}
    (hroom : s.nr_process < MAX_PROCESS) (hk : env.kmalloc = some (p, raw))
    (hcur : s.current = some c) (hc : s.procs c = some dc) (hws : dc.wait_state = 0)
    (hcp : c ≠ p) (hks : env.kstack = some k) :
    ∃ s3 d3, do_fork fuel s env clone_flags stack tf =
        (copy_mm s3 env.mm clone_flags p >>= fun x =>
          if x.1 ≠ 0 then (put_kstack x.2 p >>= fun s => Except.ok (-E_NO_MEM, kfree s p))
          else do_fork_link fuel x.2 p stack tf) ∧
      s3.procs = Function.update s.procs p (some d3) ∧
      d3.state = .PROC_UNINIT ∧ d3.pid = -1 ∧ d3.parent = some c ∧ d3.cptr = none ∧
      d3.yptr = none ∧ d3.optr = none ∧ d3.wait_state = 0 ∧ d3.kstack = k ∧ d3.mm = none ∧
      d3.cr3 = s.boot_cr3 ∧ d3.flags = 0 ∧
      s3.proc_list = s.proc_list ∧ s3.hash_list = s.hash_list ∧
      s3.nr_process = s.nr_process ∧ s3.last_pid = s.last_pid ∧ s3.next_safe = s.next_safe ∧
      s3.idleproc = s.idleproc ∧ s3.initproc = s.initproc ∧ s3.current = s.current ∧
      s3.mms = s.mms ∧ s3.pgtab = s.pgtab ∧ s3.tfmem = s.tfmem ∧ s3.intmem = s.intmem ∧
      s3.log = Call.alloc_pages KSTACKPAGE (some k) :: Call.kmalloc (some p) :: s.log := by
  unfold do_fork
  simp [not_le.mpr hroom, hk, alloc_proc, kmalloc, State.call, State.store, State.modify,
    State.derefp, State.deref, hcur, hc, hws, Function.update_noteq hcp, hks, setup_kstack]
  refine ⟨_, rfl, _, rfl, ?_⟩
  simp

/-- What `copy_mm` may change: the fields `mm` and `cr3` of the new descriptor, and only on
success, besides the memory manager's own data. -/
theorem copy_mm_frame {s s' : State} {env : MmEnv} {clone_flags : Nat} {p : Ptr} {r : Int}
    (h : copy_mm s env clone_flags p = .ok (r, s')) :
    ∃ t, MmOnly s t ∧ (r ≠ 0 → s' = t) ∧
      (s' = t ∨ (r = 0 ∧ ∃ d m, t.procs p = some d ∧
        s' = t.store p { d with mm := some m, cr3 := PADDR ((t.mms m).pgdir.getD 0) })) := by
  unfold copy_mm at h
  cases hcur : s.derefp s.current with
  | error e => simp [hcur] at h
  | ok cur =>
    simp only [hcur, ok_bind] at h
    have good : ∀ (t0 : State) (m : Nat) (t' : State) (r : Int), MmOnly s t0 →
        copy_mm_good t0 m p = .ok (r, t') →
        ∃ t, MmOnly s t ∧ (r ≠ 0 → t' = t) ∧
          (t' = t ∨ (r = 0 ∧ ∃ d m, t.procs p = some d ∧
            t' = t.store p { d with mm := some m, cr3 := PADDR ((t.mms m).pgdir.getD 0) })) := by
      intro t0 m t' r hm hg
      unfold copy_mm_good at hg
      cases hp : (mm_count_inc t0 m).procs p with
      | none => simp [State.modify, hp] at hg
      | some d =>
        simp [State.modify, hp] at hg
        obtain ⟨rfl, rfl⟩ := hg
        refine ⟨mm_count_inc t0 m, hm.trans (mmOnly_mm_count_inc _ _), by simp, Or.inr ⟨rfl, d, m,
          hp, ?_⟩⟩
        simp [State.store]
    cases hmm : cur.mm with
    | none =>
      simp [hmm] at h
      obtain ⟨rfl, rfl⟩ := h
      exact ⟨s, MmOnly.refl s, fun _ => rfl, Or.inl rfl⟩
    | some oldmm =>
      simp only [hmm] at h
      by_cases hcl : clone_flags &&& CLONE_VM ≠ 0
      · rw [if_pos hcl] at h
        exact good _ _ _ _ (MmOnly.refl s) h
      · rw [if_neg hcl] at h
        have h1 := mmOnly_mm_create s env.mm_create
        revert h h1
        cases mm_create s env.mm_create with
        | mk om s1 =>
          cases om with
          | none =>
            intro h h1
            simp at h
            obtain ⟨rfl, rfl⟩ := h
            exact ⟨_, h1, fun _ => rfl, Or.inl rfl⟩
          | some m =>
            intro h h1
            simp only at h h1
            have h2 := mmOnly_setup_pgdir s1 env.alloc_page m
            revert h h2
            cases setup_pgdir s1 env.alloc_page m with
            | mk r2 s2 =>
              intro h h2
              simp only at h h2
              by_cases hr2 : r2 ≠ 0
              · rw [if_pos hr2] at h
                cases h
                exact ⟨_, (h1.trans h2).trans (mmOnly_mm_destroy _ _), fun _ => rfl, Or.inl rfl⟩
              · rw [if_neg hr2] at h
                have h3 : MmOnly s (((dup_mmap (s2.call (.lock_mm oldmm)) m oldmm
                    env.dup_mmap)).call (.unlock_mm oldmm)) :=
                  (((h1.trans h2).trans (mmOnly_call _ _)).trans (mmOnly_dup_mmap _ _ _ _)).trans
                    (mmOnly_call _ _)
                by_cases hdup : env.dup_mmap ≠ 0
                · rw [if_pos hdup] at h
                  cases h
                  exact ⟨_, ((h3.trans (mmOnly_exit_mmap _ _)).trans (mmOnly_put_pgdir _ _)).trans
                    (mmOnly_mm_destroy _ _), fun _ => rfl, Or.inl rfl⟩
                · rw [if_neg hdup] at h
                  exact good _ _ _ _ h3 h

end Ucore

namespace Ucore

/-! ## `do_fork` keeps the invariant -/

theorem sameTasks_refl (s : State) : SameTasks s s := ⟨rfl, rfl, rfl, rfl, rfl, rfl, rfl, rfl, rfl⟩

theorem sameTasks_trans {a b c : State} (h1 : SameTasks a b) (h2 : SameTasks b c) :
    SameTasks a c :=
  ⟨h2.procs.trans h1.procs, h2.proc_list.trans h1.proc_list, h2.hash_list.trans h1.hash_list,
    h2.nr_process.trans h1.nr_process, h2.last_pid.trans h1.last_pid,
    h2.next_safe.trans h1.next_safe, h2.idleproc.trans h1.idleproc,
    h2.initproc.trans h1.initproc, h2.current.trans h1.current⟩

theorem MmOnly.sameTasks {s s' : State} (h : MmOnly s s') : SameTasks s s' :=
  ⟨h.procs, h.proc_list, h.hash_list, h.nr_process, h.last_pid, h.next_safe, h.idleproc,
    h.initproc, h.current⟩

theorem SameTasks.sameCore {s s' : State} (h : SameTasks s s') : SameCore s s' :=
  SameCore.of_eq h.procs h.proc_list h.hash_list h.nr_process h.last_pid h.next_safe
    h.idleproc h.initproc

theorem sched_same_tasks {exc : Option Ptr} {s s' : State} (h : SameTasks s s')
    (hs : Sched exc s) : Sched exc s' := by
  refine ⟨?_, ?_, ?_, ?_⟩
  · intro p d hd
    rw [h.procs] at hd
    exact hs.ws p d hd
  · intro p d hd
    rw [h.procs] at hd
    exact hs.zombie p d hd
  · obtain ⟨n, d, a, b, c, e, f⟩ := hs.init
    exact ⟨n, d, by rw [h.initproc, a], by rw [h.proc_list]; exact b, by rw [h.procs, c], e,
      by rw [h.idleproc]; exact f⟩
  · intro i d hi hd
    rw [h.idleproc] at hi
    rw [h.procs] at hd
    exact hs.idle i d hi hd

theorem inv_same_tasks {s s' : State} (h : SameTasks s s') (hi : Inv s) : Inv s' := by
  refine ⟨struct_same_core h.sameCore hi.struct, sched_same_tasks h hi.sched, ?_⟩
  obtain ⟨c, d, a, b, e⟩ := hi.cur
  exact ⟨c, d, by rw [h.current, a], by rw [h.procs, b], e⟩

theorem get_pid_repeat_mono (procs : Ptr → Option proc_struct) (list : List Ptr) :
    ∀ (fuel fuel' : Nat) (last : Int) (x : Int × Int),
      get_pid_repeat procs list fuel last = .ok x → fuel ≤ fuel' →
      get_pid_repeat procs list fuel' last = .ok x := by
  intro fuel
  induction fuel with
  | zero => intro fuel' last x h; simp [get_pid_repeat] at h
  | succ fuel ih =>
    intro fuel' last x h hle
    obtain ⟨k, rfl⟩ : ∃ k, fuel' = k + 1 := ⟨fuel' - 1, by omega⟩
    unfold get_pid_repeat at h ⊢
    revert h
    cases get_pid_scan procs list last MAX_PID with
    | done l n => exact id
    | again l => exact fun h => ih k l x h (by omega)
    | fault => exact id

theorem get_pid_mono {s : State} {fuel fuel' : Nat} {x : Int × State}
    (h : get_pid fuel s = .ok x) (hle : fuel ≤ fuel') : get_pid fuel' s = .ok x := by
  unfold get_pid at h ⊢
  simp only at h ⊢
  split_ifs at h ⊢ with h1 h2
  · revert h
    cases hr : get_pid_repeat s.procs s.proc_list fuel 1 with
    | error e => simp
    | ok y =>
      rw [get_pid_repeat_mono _ _ _ _ _ _ hr hle]
      exact id
  · revert h
    cases hr : get_pid_repeat s.procs s.proc_list fuel (s.last_pid + 1) with
    | error e => simp
    | ok y =>
      rw [get_pid_repeat_mono _ _ _ _ _ _ hr hle]
      exact id
  · exact h

theorem do_fork_link_mono {s : State} {fuel fuel' : Nat} {p : Ptr} {stack : Nat}
    {tf : trapframe} {x : Int × State}
    (h : do_fork_link fuel s p stack tf = .ok x) (hle : fuel ≤ fuel') :
    do_fork_link fuel' s p stack tf = .ok x := by
  unfold do_fork_link at h ⊢
  cases hc : copy_thread s p stack tf with
  | error e => simp [hc] at h
  | ok s5 =>
    simp only [hc, ok_bind] at h ⊢
    cases hg : get_pid fuel s5 with
    | error e => simp [hg] at h
    | ok y =>
      rw [get_pid_mono hg hle]
      rw [hg] at h
      exact h

/-- The result of `copy_mm` when the current task and the new descriptor are allocated: it
returns, and fails exactly in the case `copy_mm_fails`. -/
theorem copy_mm_total {s : State} {env : MmEnv} {clone_flags : Nat} {p c : Ptr}
    {d dc : proc_struct} (hcur : s.current = some c) (hc : s.procs c = some dc)
    (hp : s.procs p = some d) :
    ∃ r s', copy_mm s env clone_flags p = .ok (r, s') ∧
      (r ≠ 0 ↔ copy_mm_fails dc.mm env clone_flags) ∧
      (r ≠ 0 → r = -E_NO_MEM ∨ r = env.dup_mmap) := by
  have good : ∀ (t : State) (m : Nat), MmOnly s t →
      ∃ s', copy_mm_good t m p = .ok (0, s') := by
    intro t m ht
    unfold copy_mm_good
    have : (mm_count_inc t m).procs p = some d := by
      rw [(ht.trans (mmOnly_mm_count_inc t m)).procs, hp]
    simp [State.modify, this]
  unfold copy_mm copy_mm_fails
  simp only [State.derefp, hcur, State.deref, hc, ok_bind]
  cases hmm : dc.mm with
  | none => exact ⟨0, s, rfl, by simp, by simp⟩
  | some oldmm =>
    simp only
    by_cases hcl : clone_flags &&& CLONE_VM ≠ 0
    · rw [if_pos hcl]
      obtain ⟨s', hs'⟩ := good s oldmm (MmOnly.refl s)
      exact ⟨0, s', hs', by simp [hcl], by simp⟩
    · rw [if_neg hcl]
      have hcl' : clone_flags &&& CLONE_VM = 0 := by simpa using hcl
      cases hmc : env.mm_create with
      | none =>
        simp only [mm_create]
        refine ⟨_, _, rfl, ?_, fun _ => Or.inl rfl⟩
        simp [E_NO_MEM, hcl']
      | some m =>
        cases hap : env.alloc_page with
        | none =>
          simp only [mm_create, setup_pgdir, ne_eq]
          rw [if_pos (by simp [E_NO_MEM])]
          refine ⟨_, _, rfl, ?_, fun _ => Or.inl rfl⟩
          simp [E_NO_MEM, hcl']
        | some pg =>
          by_cases hdup : env.dup_mmap ≠ 0
          · simp only [mm_create, setup_pgdir, ne_eq, not_true_eq_false, if_false]
            rw [if_pos hdup]
            refine ⟨_, _, rfl, ?_, fun _ => Or.inr rfl⟩
            simp [hcl', hdup]
          · have hdup' : env.dup_mmap = 0 := by simpa using hdup
            have h3 : MmOnly s (((dup_mmap (((setup_pgdir (mm_create s (some m)).2 (some pg)
                m).2).call (.lock_mm oldmm)) m oldmm env.dup_mmap)).call (.unlock_mm oldmm)) :=
              ((((mmOnly_mm_create s _).trans (mmOnly_setup_pgdir _ _ _)).trans
                (mmOnly_call _ _)).trans (mmOnly_dup_mmap _ _ _ _)).trans (mmOnly_call _ _)
            obtain ⟨s', hs'⟩ := good _ m h3
            refine ⟨0, s', ?_, by simp [hcl', hdup'], by simp⟩
            simp only [mm_create, setup_pgdir, ne_eq, not_true_eq_false, if_false]
            rw [if_neg hdup]
            exact hs'

end Ucore

namespace Ucore

/-! ## The outcomes of `do_fork` -/

theorem do_fork_full {s : State} (env : ForkEnv) (fuel clone_flags stack : Nat) (tf : trapframe)
    (h : MAX_PROCESS ≤ s.nr_process) :
    do_fork fuel s env clone_flags stack tf = .ok (-E_NO_FREE_PROC, s) := by
  unfold do_fork
  simp [h]

theorem do_fork_no_desc {s : State} {env : ForkEnv} (fuel clone_flags stack : Nat)
    (tf : trapframe) (hroom : s.nr_process < MAX_PROCESS) (hk : env.kmalloc = none) :
    do_fork fuel s env clone_flags stack tf = .ok (-E_NO_MEM, s.call (.kmalloc none)) := by
  unfold do_fork
  simp [not_le.mpr hroom, hk, alloc_proc, kmalloc]

theorem do_fork_no_kstack {s : State} {env : ForkEnv} {p c : Ptr} {raw dc : proc_struct}
    (fuel clone_flags stack : Nat) (tf : trapframe)
    (hroom : s.nr_process < MAX_PROCESS) (hk : env.kmalloc = some (p, raw))
    (hcur : s.current = some c) (hc : s.procs c = some dc) (hws : dc.wait_state = 0)
    (hcp : c ≠ p) (hks : env.kstack = none) :
    ∃ s', do_fork fuel s env clone_flags stack tf = .ok (-E_NO_MEM, s') ∧
      s'.procs = Function.update s.procs p none ∧
      s'.proc_list = s.proc_list ∧ s'.hash_list = s.hash_list ∧
      s'.nr_process = s.nr_process ∧ s'.last_pid = s.last_pid ∧ s'.next_safe = s.next_safe ∧
      s'.idleproc = s.idleproc ∧ s'.initproc = s.initproc ∧ s'.current = s.current ∧
      s'.log = Call.kfree p :: Call.alloc_pages KSTACKPAGE none :: Call.kmalloc (some p) ::
        s.log := by
  unfold do_fork
  simp [not_le.mpr hroom, hk, alloc_proc, kmalloc, State.call, State.store, State.modify,
    State.derefp, State.deref, hcur, hc, hws, Function.update_noteq hcp, hks, setup_kstack,
    kfree, E_NO_MEM]

theorem do_fork_no_mm {s : State} {env : ForkEnv} {p c : Ptr} {raw dc : proc_struct} {k : Nat}
    (fuel clone_flags stack : Nat) (tf : trapframe)
    (hroom : s.nr_process < MAX_PROCESS) (hk : env.kmalloc = some (p, raw))
    (hcur : s.current = some c) (hc : s.procs c = some dc) (hws : dc.wait_state = 0)
    (hcp : c ≠ p) (hks : env.kstack = some k)
    (hmm : copy_mm_fails dc.mm env.mm clone_flags) :
    ∃ s' rest, do_fork fuel s env clone_flags stack tf = .ok (-E_NO_MEM, s') ∧
      s'.procs = Function.update s.procs p none ∧
      s'.proc_list = s.proc_list ∧ s'.hash_list = s.hash_list ∧
      s'.nr_process = s.nr_process ∧ s'.last_pid = s.last_pid ∧ s'.next_safe = s.next_safe ∧
      s'.idleproc = s.idleproc ∧ s'.initproc = s.initproc ∧ s'.current = s.current ∧
      s'.log = Call.kfree p :: Call.free_pages (some k) KSTACKPAGE :: rest := by
  obtain ⟨s3, d3, hdf, hprocs, -, -, -, -, -, -, -, hkst, -, -, -, hl, hh, hnr, hlast, hnext,
    hidle, hinit, hcur3, -, -, -, -, -⟩ :=
    do_fork_unfold fuel clone_flags stack tf hroom hk hcur hc hws hcp hks
  have hp3 : s3.procs p = some d3 := by rw [hprocs]; simp
  have hc3 : s3.procs c = some dc := by rw [hprocs, Function.update_noteq hcp]; exact hc
  obtain ⟨r, s4, h4, hr, -⟩ :=
    @copy_mm_total _ env.mm clone_flags _ _ _ _ (hcur3.trans hcur) hc3 hp3
  have hr0 : r ≠ 0 := hr.mpr hmm
  obtain ⟨t, ht, hs4, -⟩ := copy_mm_frame h4
  have hs4t := hs4 hr0
  subst hs4t
  have hp4 : s4.procs p = some d3 := by rw [ht.procs]; exact hp3
  refine ⟨kfree (s4.call (.free_pages (some k) KSTACKPAGE)) p, s4.log, ?_, ?_, ?_, ?_, ?_, ?_,
    ?_, ?_, ?_, ?_, ?_⟩
  · rw [hdf, h4]
    simp [hr0, put_kstack, State.deref, hp4, hkst]
  · simp [kfree, State.call, ht.procs, hprocs]
  · simp [kfree, State.call, ht.proc_list, hl]
  · simp [kfree, State.call, ht.hash_list, hh]
  · simp [kfree, State.call, ht.nr_process, hnr]
  · simp [kfree, State.call, ht.last_pid, hlast]
  · simp [kfree, State.call, ht.next_safe, hnext]
  · simp [kfree, State.call, ht.idleproc, hidle]
  · simp [kfree, State.call, ht.initproc, hinit]
  · simp [kfree, State.call, ht.current, hcur3]
  · simp [kfree, State.call]

/-- The successful run of `do_fork` from a well-formed state, in closed form. -/
theorem do_fork_ok {s : State} {env : ForkEnv} {p c : Ptr} {raw dc : proc_struct} {k : Nat}
    (fuel clone_flags stack : Nat) (tf : trapframe) (hs : Struct none s)
    (hroom : s.nr_process < MAX_PROCESS) (hk : env.kmalloc = some (p, raw))
    (hfresh : s.procs p = none)
    (hcur : s.current = some c) (hc : s.procs c = some dc) (hws : dc.wait_state = 0)
    (hks : env.kstack = some k)
    (hmm : ¬ copy_mm_fails dc.mm env.mm clone_flags)
    (hfuel : 2 * MAX_PID < fuel) :
    ∃ v n s', do_fork fuel s env clone_flags stack tf = .ok (v, s') ∧
      1 ≤ v ∧ v < n ∧ n ≤ MAX_PID ∧
      (∀ q ∈ s.proc_list, ∀ d, s.procs q = some d → d.pid < v ∨ n ≤ d.pid) ∧
      s'.proc_list = p :: s.proc_list ∧
      s'.hash_list =
        Function.update s.hash_list (pid_hashfn v) (p :: s.hash_list (pid_hashfn v)) ∧
      s'.nr_process = s.nr_process + 1 ∧ s'.last_pid = v ∧ s'.next_safe = n ∧
      s'.idleproc = s.idleproc ∧ s'.initproc = s.initproc ∧ s'.current = s.current ∧
      (∃ rest, s'.log = Call.wakeup_proc p :: rest) ∧
      (∃ ch, s'.procs p = some ch ∧ ch.pid = v ∧ ch.parent = some c ∧ ch.cptr = none ∧
        ch.yptr = none ∧ ch.optr = dc.cptr ∧ ch.state = .PROC_RUNNABLE ∧ ch.wait_state = 0 ∧
        ch.kstack = k ∧ ch.flags = 0) ∧
      (∀ x, x ≠ p → ∀ d, s.procs x = some d → s'.procs x = some
        { d with cptr := if x = c then some p else d.cptr,
                 yptr := if dc.cptr = some x then some p else d.yptr }) ∧
      (∀ x, x ≠ p → s.procs x = none → s'.procs x = none) ∧
      (s.proc_list = [] → s.last_pid = MAX_PID → v = 1) := by
  have hcp : c ≠ p := by
    rintro rfl
    rw [hfresh] at hc
    cases hc
  obtain ⟨s3, d3, hdf, hprocs, hst3, -, hpar3, hcp3, -, -, hws3, hkst, -, -, hfl3, hl, hh, hnr,
    hlast, hnext, hidle, hinit, hcur3, -, -, -, -, -⟩ :=
    do_fork_unfold fuel clone_flags stack tf hroom hk hcur hc hws hcp hks
  have hp3 : s3.procs p = some d3 := by rw [hprocs]; simp
  have hc3 : s3.procs c = some dc := by rw [hprocs, Function.update_noteq hcp]; exact hc
  obtain ⟨r, s4, h4, hr, -⟩ :=
    @copy_mm_total _ env.mm clone_flags _ _ _ _ (hcur3.trans hcur) hc3 hp3
  have hr0 : r = 0 := by
    by_contra hne
    exact hmm (hr.mp hne)
  subst hr0
  obtain ⟨t, ht, -, hs4⟩ := copy_mm_frame h4
  have hpt : t.procs p = some d3 := by rw [ht.procs]; exact hp3
  -- the descriptor of the child and the rest of the heap after `copy_mm`
  have hs4p : ∃ d4, s4.procs p = some d4 ∧ d4.parent = some c ∧ d4.cptr = none ∧
      d4.state = .PROC_UNINIT ∧ d4.wait_state = 0 ∧ d4.kstack = k ∧ d4.flags = 0 := by
    rcases hs4 with rfl | ⟨-, d, m, hd, rfl⟩
    · exact ⟨d3, hpt, hpar3, hcp3, hst3, hws3, hkst, hfl3⟩
    · rw [hpt] at hd
      cases hd
      exact ⟨_, store_procs_same _ _ _, hpar3, hcp3, hst3, hws3, hkst, hfl3⟩
  have hs4x : ∀ x, x ≠ p → s4.procs x = s.procs x := by
    intro x hx
    rcases hs4 with rfl | ⟨-, d, m, hd, rfl⟩
    · rw [ht.procs, hprocs, Function.update_noteq hx]
    · simp [State.store, Function.update_noteq hx, ht.procs, hprocs]
  have hs4f : s4.proc_list = s.proc_list ∧ s4.hash_list = s.hash_list ∧
      s4.nr_process = s.nr_process ∧ s4.last_pid = s.last_pid ∧ s4.next_safe = s.next_safe ∧
      s4.idleproc = s.idleproc ∧ s4.initproc = s.initproc ∧ s4.current = s.current := by
    rcases hs4 with rfl | ⟨-, d, m, hd, rfl⟩
    · exact ⟨ht.proc_list.trans hl, ht.hash_list.trans hh, ht.nr_process.trans hnr,
        ht.last_pid.trans hlast, ht.next_safe.trans hnext, ht.idleproc.trans hidle,
        ht.initproc.trans hinit, ht.current.trans (hcur3.trans rfl)⟩
    · exact ⟨ht.proc_list.trans hl, ht.hash_list.trans hh, ht.nr_process.trans hnr,
        ht.last_pid.trans hlast, ht.next_safe.trans hnext, ht.idleproc.trans hidle,
        ht.initproc.trans hinit, ht.current.trans (hcur3.trans rfl)⟩
  obtain ⟨e1, e2, e3, e4, e5, e6, e7, e8⟩ := hs4f
  obtain ⟨d4, hd4, hpar4, hcp4, hst4, hws4, hkst4, hfl4⟩ := hs4p
  have hpl : p ∉ s.proc_list := by
    intro hin
    have := (hs.valid p).mpr (Or.inl hin)
    rw [hfresh] at this
    cases this
  have hc4 : s4.procs c = some dc := by rw [hs4x c hcp]; exact hc
  have hhead : ∀ h, dc.cptr = some h → h ≠ p ∧ h ≠ c ∧ (s4.procs h).isSome := by
    intro h hh'
    obtain ⟨hin, dh, hdh, hpar⟩ := first_child_parent hs hc hh'
    have hhp : h ≠ p := by
      rintro rfl
      exact hpl hin
    refine ⟨hhp, ?_, ?_⟩
    · rintro rfl
      exact hs.noself _ _ hdh hpar
    · rw [hs4x h hhp, hdh]; rfl
  have hval : ∀ q ∈ s4.proc_list, (s4.procs q).isSome := by
    intro q hq
    rw [e1] at hq
    have hqp : q ≠ p := by
      rintro rfl
      exact hpl hq
    rw [hs4x q hqp]
    exact (hs.valid q).mpr (Or.inl hq)
  have hwin : ∀ q ∈ s4.proc_list, ∀ d, s4.procs q = some d →
      d.pid ≤ s4.last_pid ∨ s4.next_safe ≤ d.pid := by
    intro q hq d hd
    rw [e1] at hq
    have hqp : q ≠ p := by
      rintro rfl
      exact hpl hq
    rw [hs4x q hqp] at hd
    rw [e4, e5]
    exact hs.window q hq d hd
  have hlen : (s4.proc_list.length : Int) < MAX_PID - 1 := by
    rw [e1]
    have := hs.count
    simp only [MAX_PID, MAX_PROCESS] at this ⊢
    omega
  obtain ⟨v, n, s', hlink, hv1, hvn, hn, hfree, hl', hh', hnr', hlast', hnext', hidle', hinit',
    hcur', -, -, hlog', ⟨ch, hch, c1, c2, c3, c4, c5, c6, c7, c8, -, -, c11⟩, hx, hx0, hv⟩ :=
    do_fork_link_of fuel stack tf hd4 hpar4 hc4 hcp (by rw [e1]; exact hpl) hhead hval hwin
      (by rw [e4, e5]; exact hs.cursors) hlen hfuel
  refine ⟨v, n, s', ?_, hv1, hvn, hn, ?_, by rw [hl', e1], by rw [hh', e2], by rw [hnr', e3],
    hlast', hnext', hidle'.trans e6, hinit'.trans e7, hcur'.trans e8, ⟨_, hlog'⟩,
    ⟨ch, hch, c1, c2, c3.trans hcp4, c4, c5, ?_, ?_, c8.trans hkst4, c11.trans hfl4⟩, ?_, ?_, ?_⟩
  · rw [hdf, h4]
    simp [hlink]
  · intro q hq d hd
    have hqp : q ≠ p := by
      rintro rfl
      exact hpl hq
    exact hfree q (by rw [e1]; exact hq) d (by rw [hs4x q hqp]; exact hd)
  · rw [c6, hst4]; simp
  · rw [c7, hst4]; simp
  · intro x hxp d hd
    exact hx x hxp d (by rw [hs4x x hxp]; exact hd)
  · intro x hxp hd
    exact hx0 x hxp (by rw [hs4x x hxp]; exact hd)
  · intro hnil hmax
    exact hv (by rw [e1]; exact hnil) (by rw [e4]; exact hmax)

end Ucore

namespace Ucore

/-! ## `find_proc` on well-formed tables -/

theorem find_proc_scan_found {procs : Ptr → Option proc_struct} {pid : Int} {p : Ptr}
    {d : proc_struct} (hd : procs p = some d) (hpid : d.pid = pid) :
    ∀ l : List Ptr, p ∈ l → (∀ q ∈ l, (procs q).isSome) →
      (∀ q ∈ l, ∀ e, procs q = some e → e.pid = pid → q = p) →
      find_proc_scan procs pid l = .ok (some p) := by
  intro l
  induction l with
  | nil => intro h; simp at h
  | cons a l ih =>
    intro hin hval huniq
    unfold find_proc_scan
    have ha := hval a (List.mem_cons_self _ _)
    cases hpa : procs a with
    | none => rw [hpa] at ha; cases ha
    | some e =>
      simp only
      by_cases he : e.pid = pid
      · have := huniq a (List.mem_cons_self _ _) e hpa he
        subst this
        simp [he]
      · rw [if_neg he]
        have hne : p ≠ a := by
          rintro rfl
          rw [hd] at hpa
          cases hpa
          exact he hpid
        have hin' : p ∈ l := by
          rcases List.mem_cons.mp hin with h | h
          · exact absurd h hne
          · exact h
        exact ih hin' (fun q hq => hval q (List.mem_cons_of_mem _ hq))
          (fun q hq => huniq q (List.mem_cons_of_mem _ hq))

theorem find_proc_scan_none {procs : Ptr → Option proc_struct} {pid : Int} :
    ∀ l : List Ptr, (∀ q ∈ l, (procs q).isSome) →
      (∀ q ∈ l, ∀ e, procs q = some e → e.pid ≠ pid) →
      find_proc_scan procs pid l = .ok none := by
  intro l
  induction l with
  | nil => intro _ _; rfl
  | cons a l ih =>
    intro hval hne
    unfold find_proc_scan
    have ha := hval a (List.mem_cons_self _ _)
    cases hpa : procs a with
    | none => rw [hpa] at ha; cases ha
    | some e =>
      simp only
      rw [if_neg (hne a (List.mem_cons_self _ _) e hpa)]
      exact ih (fun q hq => hval q (List.mem_cons_of_mem _ hq))
        (fun q hq => hne q (List.mem_cons_of_mem _ hq))

/-- On well-formed tables `find_proc` returns the descriptor of the task list that holds the
pid asked for. -/
theorem find_proc_struct {exc : Option Ptr} {s : State} (hs : Struct exc s) {p : Ptr}
    {d : proc_struct} (hp : p ∈ s.proc_list) (hd : s.procs p = some d) :
    find_proc s d.pid = .ok (some p) := by
  have hr := hs.pid_range p hp d hd
  unfold find_proc
  rw [if_pos ⟨by omega, hr.2⟩]
  apply find_proc_scan_found hd rfl
  · exact (hs.hash _ p).mpr ⟨hp, d, hd, rfl⟩
  · intro q hq
    exact (hs.valid q).mpr (Or.inl ((hs.hash _ q).mp hq).1)
  · intro q hq e he hpid
    have hql := ((hs.hash _ q).mp hq).1
    apply hs.pid_inj q hql p hp
    simp [pid_of, he, hd, hpid]

/-- On well-formed tables `find_proc` returns `NULL` for a pid that no task of the list holds. -/
theorem find_proc_none {exc : Option Ptr} {s : State} (hs : Struct exc s) (pid : Int)
    (h : ∀ p ∈ s.proc_list, ∀ d, s.procs p = some d → d.pid ≠ pid) :
    find_proc s pid = .ok none := by
  unfold find_proc
  split_ifs with hr
  · apply find_proc_scan_none
    · intro q hq
      exact (hs.valid q).mpr (Or.inl ((hs.hash _ q).mp hq).1)
    · intro q hq e he
      exact h q ((hs.hash _ q).mp hq).1 e he
  · rfl

/-- On well-formed tables `find_proc` returns, and what it returns is in the task list. -/
theorem find_proc_total {exc : Option Ptr} {s : State} (hs : Struct exc s) (pid : Int) :
    ∃ r, find_proc s pid = .ok r ∧
      ∀ p, r = some p → p ∈ s.proc_list ∧ ∃ d, s.procs p = some d ∧ d.pid = pid := by
  by_cases h : ∃ p ∈ s.proc_list, ∃ d, s.procs p = some d ∧ d.pid = pid
  · obtain ⟨p, hp, d, hd, rfl⟩ := h
    refine ⟨some p, find_proc_struct hs hp hd, ?_⟩
    intro q hq
    cases hq
    exact ⟨hp, d, hd, rfl⟩
  · refine ⟨none, find_proc_none hs pid ?_, by simp⟩
    intro p hp d hd hpid
    exact h ⟨p, hp, d, hd, hpid⟩

end Ucore

namespace Ucore

theorem do_fork_unfold_all {s : State} {env : ForkEnv} {p c : Ptr} {raw dc : proc_struct}
    (clone_flags stack : Nat) (tf : trapframe) {k : Nat}
    (hroom : s.nr_process < MAX_PROCESS) (hk : env.kmalloc = some (p, raw))
    (hcur : s.current = some c) (hc : s.procs c = some dc) (hws : dc.wait_state = 0)
    (hcp : c ≠ p) (hks : env.kstack = some k) :
    ∃ s3, ∀ fuel : Nat, do_fork fuel s env clone_flags stack tf =
        (copy_mm s3 env.mm clone_flags p >>= fun x =>
          if x.1 ≠ 0 then (put_kstack x.2 p >>= fun s => Except.ok (-E_NO_MEM, kfree s p))
          else do_fork_link fuel x.2 p stack tf) := by
  unfold do_fork
  simp [not_le.mpr hroom, hk, alloc_proc, kmalloc, State.call, State.store, State.modify,
    State.derefp, State.deref, hcur, hc, hws, Function.update_noteq hcp, hks, setup_kstack]
  exact ⟨_, fun _ => rfl⟩

/-- More fuel does not change the result of `do_fork`. -/
theorem do_fork_mono_case {s : State} {env : ForkEnv} {p c : Ptr} {raw dc : proc_struct}
    {clone_flags stack : Nat} {tf : trapframe} {k : Nat} {fuel fuel' : Nat} {x : Int × State}
    (hroom : s.nr_process < MAX_PROCESS) (hk : env.kmalloc = some (p, raw))
    (hcur : s.current = some c) (hc : s.procs c = some dc) (hws : dc.wait_state = 0)
    (hcp : c ≠ p) (hks : env.kstack = some k)
    (h : do_fork fuel s env clone_flags stack tf = .ok x) (hle : fuel ≤ fuel') :
    do_fork fuel' s env clone_flags stack tf = .ok x := by
  obtain ⟨s3, hall⟩ := do_fork_unfold_all clone_flags stack tf hroom hk hcur hc hws hcp hks
  rw [hall] at h ⊢
  revert h
  cases copy_mm s3 env.mm clone_flags p with
  | error e => simp
  | ok y =>
    simp only [ok_bind]
    split_ifs with hy
    · exact id
    · exact fun h => do_fork_link_mono h hle

/-- The effect of a successful `do_fork` keeps the invariant. -/
theorem inv_fork {s s' : State} {c p : Ptr} {dc ch : proc_struct} {v n : Int}
    (hi : Inv s) (hcur : s.current = some c) (hc : s.procs c = some dc)
    (hfresh : s.procs p = none)
    (hroom : s.nr_process < MAX_PROCESS)
    (hv1 : 1 ≤ v) (hvn : v < n) (hn : n ≤ MAX_PID)
    (hvfree : ∀ q ∈ s.proc_list, ∀ d, s.procs q = some d → d.pid < v ∨ n ≤ d.pid)
    (hl : s'.proc_list = p :: s.proc_list)
    (hh : s'.hash_list =
      Function.update s.hash_list (pid_hashfn v) (p :: s.hash_list (pid_hashfn v)))
    (hnr : s'.nr_process = s.nr_process + 1)
    (hlast : s'.last_pid = v) (hnext : s'.next_safe = n)
    (hidle : s'.idleproc = s.idleproc) (hinit : s'.initproc = s.initproc)
    (hcur' : s'.current = s.current)
    (hp : s'.procs p = some ch)
    (hch : ch.pid = v ∧ ch.parent = some c ∧ ch.cptr = none ∧ ch.yptr = none ∧
      ch.optr = dc.cptr ∧ ch.state = .PROC_RUNNABLE ∧ ch.wait_state = 0)
    (hx : ∀ x, x ≠ p → ∀ d, s.procs x = some d → s'.procs x = some
        { d with cptr := if x = c then some p else d.cptr,
                 yptr := if dc.cptr = some x then some p else d.yptr })
    (hx0 : ∀ x, x ≠ p → s.procs x = none → s'.procs x = none) : Inv s' := by
  obtain ⟨c1, c2, c3, c4, c5, c6, c7⟩ := hch
  have hcp : c ≠ p := by
    rintro rfl
    rw [hfresh] at hc
    cases hc
  -- every old descriptor, seen from the new state
  have hback : ∀ x d', s'.procs x = some d' → x ≠ p → ∃ d, s.procs x = some d ∧
      d' = { d with cptr := if x = c then some p else d.cptr,
                    yptr := if dc.cptr = some x then some p else d.yptr } := by
    intro x d' hd' hxp
    cases hsx : s.procs x with
    | none => rw [hx0 x hxp hsx] at hd'; cases hd'
    | some d =>
      rw [hx x hxp d hsx] at hd'
      cases hd'
      exact ⟨d, rfl, rfl⟩
  refine ⟨?_, ?_, ?_⟩
  · apply struct_fork hi.struct hc hfresh hroom hv1 hvn hn hvfree hl hh hnr hlast hnext hidle hp
      ⟨c1, c2, c3, c4, c5⟩ _ hx0
    intro x hxp d hd
    exact ⟨_, hx x hxp d hd, rfl, rfl, rfl, rfl, rfl⟩
  · refine ⟨?_, ?_, ?_, ?_⟩
    · intro x d' hd' hst
      by_cases hxp : x = p
      · subst hxp
        rw [hp] at hd'
        cases hd'
        exact c7
      · obtain ⟨d, hd, rfl⟩ := hback x d' hd' hxp
        exact hi.sched.ws x d hd hst
    · intro x d' hd' hst _
      by_cases hxp : x = p
      · subst hxp
        rw [hp] at hd'
        cases hd'
        exact c3
      · obtain ⟨d, hd, rfl⟩ := hback x d' hd' hxp
        have hz : d.state = .PROC_ZOMBIE := hst
        have hxc : x ≠ c := by
          rintro rfl
          obtain ⟨c', d', a, b, e⟩ := hi.cur
          rw [hcur] at a
          cases a
          rw [hd] at b
          cases b
          rw [e] at hz
          cases hz
        simp only [if_neg hxc]
        exact hi.sched.zombie x d hd hz (by simp)
    · obtain ⟨i, d, a, b, e, f, g⟩ := hi.sched.init
      have hip : i ≠ p := by
        rintro rfl
        rw [hfresh] at e
        cases e
      exact ⟨i, _, hinit.trans a, by rw [hl]; exact List.mem_cons_of_mem _ b, hx i hip d e, f,
        by rw [hidle]; exact g⟩
    · intro i d' hi' hd'
      rw [hidle] at hi'
      have hip : i ≠ p := by
        rintro rfl
        obtain ⟨j, dj, a, _, e, _⟩ := hi.struct.idle
        rw [hi'] at a
        cases a
        rw [hfresh] at e
        cases e
      obtain ⟨d, hd, rfl⟩ := hback i d' hd' hip
      exact hi.sched.idle i d hi' hd
  · obtain ⟨c', d, a, b, e⟩ := hi.cur
    rw [hcur] at a
    cases a
    exact ⟨c, _, hcur'.trans hcur, hx c hcp d b, e⟩

/-- Every run of `do_fork` that returns, whatever it returns, keeps the invariant. -/
theorem do_fork_inv {s s' : State} {env : ForkEnv} {fuel clone_flags stack : Nat}
    {tf : trapframe} {r : Int} (hi : Inv s) (hfresh : FreshProc s env.kmalloc)
    (h : do_fork fuel s env clone_flags stack tf = .ok (r, s')) : Inv s' := by
  by_cases hroom : s.nr_process < MAX_PROCESS
  swap
  · rw [do_fork_full env fuel clone_flags stack tf (not_lt.mp hroom)] at h
    cases h
    exact hi
  cases hk : env.kmalloc with
  | none =>
    rw [do_fork_no_desc fuel clone_flags stack tf hroom hk] at h
    cases h
    exact inv_same_tasks (mmOnly_call _ _).sameTasks hi
  | some pr =>
    obtain ⟨p, raw⟩ := pr
    have hp0 : s.procs p = none := hfresh p raw hk
    obtain ⟨c, dc, hcur, hc, hrun⟩ := hi.cur
    have hws := hi.sched.ws c dc hc hrun
    have hcp : c ≠ p := by
      rintro rfl
      rw [hp0] at hc
      cases hc
    have hupd : Function.update s.procs p none = s.procs := by
      rw [← hp0]
      exact Function.update_eq_self p s.procs
    cases hks : env.kstack with
    | none =>
      obtain ⟨s2, h2, e1, e2, e3, e4, e5, e6, e7, e8, e9, -⟩ :=
        do_fork_no_kstack fuel clone_flags stack tf hroom hk hcur hc hws hcp hks
      rw [h2] at h
      cases h
      exact inv_same_tasks ⟨e1.trans hupd, e2, e3, e4, e5, e6, e7, e8, e9⟩ hi
    | some k =>
      by_cases hmm : copy_mm_fails dc.mm env.mm clone_flags
      · obtain ⟨s2, rest, h2, e1, e2, e3, e4, e5, e6, e7, e8, e9, -⟩ :=
          do_fork_no_mm fuel clone_flags stack tf hroom hk hcur hc hws hcp hks hmm
        rw [h2] at h
        cases h
        exact inv_same_tasks ⟨e1.trans hupd, e2, e3, e4, e5, e6, e7, e8, e9⟩ hi
      · have hbig : 2 * MAX_PID < ((max fuel 16385 : Nat) : Int) := by
          have : (16385 : Nat) ≤ max fuel 16385 := le_max_right _ _
          simp only [MAX_PID, MAX_PROCESS]
          omega
        obtain ⟨v, n, s2, h2, hv1, hvn, hn, hfree, hl, hh, hnr, hlast, hnext, hidle, hinit,
          hcur', -, ⟨ch, hch, c1, c2, c3, c4, c5, c6, c7, -, -⟩, hx, hx0, -⟩ :=
          do_fork_ok (max fuel 16385) clone_flags stack tf hi.struct hroom hk hp0 hcur hc hws
            hks hmm hbig
        have h3 := do_fork_mono_case hroom hk hcur hc hws hcp hks h (le_max_left fuel 16385)
        rw [h2] at h3
        cases h3
        exact inv_fork hi hcur hc hp0 hroom hv1 hvn hn hfree hl hh hnr hlast hnext hidle hinit
          hcur' hch ⟨c1, c2, c3, c4, c5, c6, c7⟩ hx hx0

end Ucore

namespace Ucore

/-! ## `proc_init` establishes the invariant -/

theorem proc_init_idle_none {s0 : State} {env : InitEnv} (h : env.idle = none) :
    proc_init_idle s0 env = .error .panic_alloc_idleproc := by
  unfold proc_init_idle
  simp [h, alloc_proc, kmalloc]

/-- The state `proc_init` has built when it calls `kernel_thread`. -/
theorem proc_init_idle_of {s0 : State} {env : InitEnv} {i : Ptr} {raw : proc_struct}
    (hb : Boot s0) (h : env.idle = some (i, raw)) :
    ∃ sI dI, proc_init_idle s0 env = .ok sI ∧
      sI.procs = Function.update (fun _ => none) i (some dI) ∧
      dI.pid = 0 ∧ dI.state = .PROC_RUNNABLE ∧ dI.parent = none ∧ dI.cptr = none ∧
      dI.yptr = none ∧ dI.optr = none ∧ dI.wait_state = 0 ∧ dI.mm = none ∧
      sI.proc_list = [] ∧ sI.hash_list = (fun _ => []) ∧ sI.idleproc = some i ∧
      sI.initproc = none ∧ sI.current = some i ∧ sI.nr_process = 1 ∧
      sI.last_pid = MAX_PID ∧ sI.next_safe = MAX_PID := by
  obtain ⟨h1, h2, h3, h4, h5, h6, h7⟩ := hb
  unfold proc_init_idle
  simp [h, alloc_proc, kmalloc, State.call, State.store, State.modify, set_proc_name, h1, h3,
    h5, h6, h7]
  refine ⟨_, rfl, ?_⟩
  simp

theorem struct_idle {sI : State} {dI : proc_struct} {i : Ptr}
    (hp : sI.procs = Function.update (fun _ => none) i (some dI))
    (hpid : dI.pid = 0) (hpar : dI.parent = none) (hcp : dI.cptr = none)
    (hyp : dI.yptr = none) (hop : dI.optr = none)
    (hl : sI.proc_list = []) (hh : sI.hash_list = (fun _ => [])) (hidle : sI.idleproc = some i)
    (hnr : sI.nr_process = 1) (hlast : sI.last_pid = MAX_PID) (hnext : sI.next_safe = MAX_PID) :
    Struct none sI := by
  have hpi : sI.procs i = some dI := by rw [hp]; simp
  have hpx : ∀ x d, sI.procs x = some d → x = i ∧ d = dI := by
    intro x d hd
    rw [hp] at hd
    by_cases hx : x = i
    · subst hx
      simp at hd
      exact ⟨rfl, hd.symm⟩
    · simp [Function.update_noteq hx] at hd
  refine ⟨by rw [hl]; exact List.nodup_nil, ?_, ?_, ?_, ?_, ?_, ?_, ?_, ?_, ?_, ?_, ?_, ?_,
    ?_, ?_⟩
  · intro p
    rw [hl, hidle]
    constructor
    · intro h
      obtain ⟨d, hd⟩ := Option.isSome_iff_exists.mp h
      exact Or.inr (by rw [(hpx p d hd).1])
    · rintro (h | h)
      · simp at h
      · cases h
        rw [hpi]; rfl
  · exact ⟨i, dI, hidle, by rw [hl]; simp, hpi, hpid, hpar⟩
  · intro p hp'
    rw [hl] at hp'
    simp at hp'
  · intro p hp'
    rw [hl] at hp'
    simp at hp'
  · intro p hp'
    rw [hl] at hp'
    simp at hp'
  · rw [hlast, hnext]
    simp [MAX_PID, MAX_PROCESS]
  · rw [hnr, hl]
    simp [MAX_PROCESS]
  · intro j p
    rw [hh, hl]
    simp
  · intro j
    rw [hh]
    exact List.nodup_nil
  · intro p hp'
    rw [hl] at hp'
    simp at hp'
  · intro p d hd
    obtain ⟨rfl, rfl⟩ := hpx p d hd
    rw [hpar]
    simp
  · intro r hr
    obtain ⟨d, hd⟩ := Option.isSome_iff_exists.mp hr
    obtain ⟨rfl, rfl⟩ := hpx r d hd
    refine ⟨none, fun _ => rfl, d, [], hd, ?_, List.nodup_nil, by simp, ?_⟩
    · rw [hcp]
      exact chain_nil.mpr rfl
    · intro x dx hdx hpx'
      obtain ⟨rfl, rfl⟩ := hpx x dx hdx
      rw [hpar] at hpx'
      cases hpx'
  · intro j d _ hd
    obtain ⟨rfl, rfl⟩ := hpx j d hd
    exact ⟨hop, hyp⟩
  · intro x hx
    obtain ⟨d, hd⟩ := Option.isSome_iff_exists.mp hx
    obtain ⟨rfl, rfl⟩ := hpx x d hd
    exact Up.top x hidle

theorem kernel_thread_eq (s : State) (env : ForkEnv) (fn arg clone_flags : Nat) :
    ∃ tf, ∀ fuel : Nat, kernel_thread fuel s env fn arg clone_flags =
      do_fork fuel s env (clone_flags ||| CLONE_VM) 0 tf :=
  ⟨_, fun _ => rfl⟩

theorem struct_set_initproc {exc : Option Ptr} {s : State} (hs : Struct exc s)
    (x : Option Ptr) : Struct exc { s with initproc := x } :=
  ⟨hs.nodup, hs.valid, hs.idle, hs.pid_range, hs.pid_inj, hs.window, hs.cursors, hs.count,
    hs.hash, hs.hash_nodup, hs.parent, hs.noself, hs.fam, hs.idle_links, hs.up⟩

/-- The run of `proc_init` from the boot state when the three allocations succeed. -/
theorem proc_init_run {s0 : State} {env : InitEnv} {i q : Ptr} {rawi rawq : proc_struct}
    {k : Nat} (fuel : Nat) (hb : Boot s0) (hidle : env.idle = some (i, rawi))
    (hk : env.fork.kmalloc = some (q, rawq)) (hqi : q ≠ i) (hks : env.fork.kstack = some k)
    (hfuel : 2 * MAX_PID < fuel) :
    ∃ s, proc_init fuel s0 env = .ok s ∧ Inv s ∧ s.current = some i ∧ s.idleproc = some i ∧
      s.initproc = some q ∧ s.proc_list = [q] ∧ s.nr_process = 2 ∧
      (∃ di, s.procs i = some di ∧ di.cptr = some q ∧ di.mm = none ∧
        di.state = .PROC_RUNNABLE ∧ di.pid = 0) ∧
      (∃ dq, s.procs q = some dq ∧ dq.pid = 1 ∧ dq.parent = some i ∧ dq.cptr = none ∧
        dq.state = .PROC_RUNNABLE ∧ dq.flags = 0 ∧ dq.wait_state = 0) ∧
      (∀ x, x ≠ i → x ≠ q → s.procs x = none) := by
  obtain ⟨sI, dI, hI, hprocs, i1, i2, i3, i4, i5, i6, i7, i8, hl, hh, hidl, hini, hcur, hnr,
    hlast, hnext⟩ := proc_init_idle_of hb hidle
  have hsI : Struct none sI := struct_idle hprocs i1 i3 i4 i5 i6 hl hh hidl hnr hlast hnext
  have hpi : sI.procs i = some dI := by rw [hprocs]; simp
  have hpq : sI.procs q = none := by rw [hprocs, Function.update_noteq hqi]
  obtain ⟨tf, hkt⟩ := kernel_thread_eq sI env.fork env.init_main 0 0
  have hroom : sI.nr_process < MAX_PROCESS := by rw [hnr]; simp [MAX_PROCESS]
  have hmm : ¬ copy_mm_fails dI.mm env.fork.mm (0 ||| CLONE_VM) := by
    rintro ⟨h, -⟩
    exact h i8
  obtain ⟨v, n, s2, h2, hv1, hvn, hn, hfree, hl2, hh2, hnr2, hlast2, hnext2, hidle2, hinit2,
    hcur2, -, ⟨ch, hch, c1, c2, c3, c4, c5, c6, c7, -, c9⟩, hx, hx0, hv⟩ :=
    do_fork_ok fuel (0 ||| CLONE_VM) 0 tf hsI hroom hk hpq hcur hpi i7 hks hmm hfuel
  have hv1' : v = 1 := hv hl hlast
  subst hv1'
  have hs2 : Struct none s2 := by
    apply struct_fork hsI hpi hpq hroom hv1 hvn hn hfree hl2 hh2 hnr2 hlast2 hnext2 hidle2 hch
      ⟨c1, c2, c3, c4, c5⟩ _ hx0
    intro x hxp d hd
    exact ⟨_, hx x hxp d hd, rfl, rfl, rfl, rfl, rfl⟩
  have hq2 : q ∈ s2.proc_list := by rw [hl2]; simp
  have hfind : find_proc s2 1 = .ok (some q) := by
    have := find_proc_struct hs2 hq2 hch
    rwa [c1] at this
  have hi2 : s2.procs i = some { dI with cptr := some q, yptr := none } := by
    have := hx i hqi.symm dI hpi
    simpa [i4, i5] using this
  have hx2 : ∀ x, x ≠ i → x ≠ q → s2.procs x = none := by
    intro x hxi hxq
    apply hx0 x hxq
    rw [hprocs, Function.update_noteq hxi]
  -- the state `proc_init` returns
  have hfin : proc_init_finish s2 env 1 = .ok (State.store { s2 with initproc := some q } q
      { ch with name := (([105, 110, 105, 116, 0] ++ env.init_tail) ++
        List.replicate PROC_NAME_LEN 0).take PROC_NAME_LEN ++ [0] }) := by
    unfold proc_init_finish
    simp [hfind, set_proc_name, State.modify, hch, State.derefp, State.deref, State.store,
      hidle2, hidl, Function.update_noteq hqi.symm, hi2, i1, c1]
  refine ⟨State.store { s2 with initproc := some q } q
      { ch with name := (([105, 110, 105, 116, 0] ++ env.init_tail) ++
        List.replicate PROC_NAME_LEN 0).take PROC_NAME_LEN ++ [0] }, ?_, ?_, ?_, ?_, ?_, ?_, ?_,
      ?_, ?_, ?_⟩
  · unfold proc_init
    rw [hI]
    simp only [ok_bind, hkt, h2]
    simpa using hfin
  · have hcore : SameCore { s2 with initproc := some q } (State.store { s2 with initproc := some q } q
        { ch with name := (([105, 110, 105, 116, 0] ++ env.init_tail) ++
          List.replicate PROC_NAME_LEN 0).take PROC_NAME_LEN ++ [0] }) :=
      @SameCore.store { s2 with initproc := some q } _ _ _ hch rfl rfl rfl rfl rfl
    refine ⟨struct_same_core hcore (struct_set_initproc hs2 _), ?_, ?_⟩
    · refine ⟨?_, ?_, ?_, ?_⟩
      · intro x d hd _
        by_cases hxq : x = q
        · subst hxq
          simp [State.store] at hd
          rw [← hd]
          exact c7
        · by_cases hxi : x = i
          · subst hxi
            simp [State.store, Function.update_noteq hxq, hi2] at hd
            rw [← hd]
            exact i7
          · simp [State.store, Function.update_noteq hxq, hx2 x hxi hxq] at hd
      · intro x d hd hz
        by_cases hxq : x = q
        · subst hxq
          simp [State.store] at hd
          rw [← hd] at hz
          simp [c6] at hz
        · by_cases hxi : x = i
          · subst hxi
            simp [State.store, Function.update_noteq hxq, hi2] at hd
            rw [← hd] at hz
            simp [i2] at hz
          · simp [State.store, Function.update_noteq hxq, hx2 x hxi hxq] at hd
      · refine ⟨q, _, rfl, hq2, store_procs_same _ _ _, ?_, ?_⟩
        · simp [c6]
        · simp [State.store, c2, hidle2, hidl]
      · intro j d hj hd
        simp [State.store, hidle2, hidl] at hj
        subst hj
        simp [State.store, Function.update_noteq hqi.symm, hi2] at hd
        rw [← hd]
        simp [i2]
    · refine ⟨i, { dI with cptr := some q, yptr := none }, ?_, ?_, ?_⟩
      · simp [State.store, hcur2, hcur]
      · simp only [State.store, Function.update_noteq hqi.symm]
        exact hi2
      · exact i2
  · simp [State.store, hcur2, hcur]
  · simp [State.store, hidle2, hidl]
  · simp [State.store]
  · simp [State.store, hl2, hl]
  · simp [State.store, hnr2, hnr]
  · refine ⟨{ dI with cptr := some q, yptr := none }, ?_, ?_, ?_, ?_, ?_⟩
    · simp only [State.store, Function.update_noteq hqi.symm]
      exact hi2
    · rfl
    · exact i8
    · exact i2
    · exact i1
  · exact ⟨_, store_procs_same _ _ _, c1, c2, c3, c6, c9, c7⟩
  · intro x hxi hxq
    simp [State.store, Function.update_noteq hxq, hx2 x hxi hxq]

/-- Every run of `proc_init` from the boot state that returns establishes the invariant. -/
theorem proc_init_inv {s0 s : State} {env : InitEnv} {fuel : Nat} (hb : Boot s0)
    (hne : ∀ p raw q raw', env.idle = some (p, raw) → env.fork.kmalloc = some (q, raw') → q ≠ p)
    (h : proc_init fuel s0 env = .ok s) : Inv s := by
  cases hidle : env.idle with
  | none =>
    unfold proc_init at h
    rw [proc_init_idle_none hidle] at h
    simp at h
  | some ir =>
    obtain ⟨i, rawi⟩ := ir
    obtain ⟨sI, dI, hI, hprocs, i1, i2, i3, i4, i5, i6, i7, i8, hl, hh, hidl, hini, hcur, hnr,
      hlast, hnext⟩ := proc_init_idle_of hb hidle
    have hpi : sI.procs i = some dI := by rw [hprocs]; simp
    obtain ⟨tf, hkt⟩ := kernel_thread_eq sI env.fork env.init_main 0 0
    have hroom : sI.nr_process < MAX_PROCESS := by rw [hnr]; simp [MAX_PROCESS]
    have hunf : ∀ f : Nat, proc_init f s0 env =
        (do_fork f sI env.fork (0 ||| CLONE_VM) 0 tf >>= fun x =>
          if x.1 ≤ 0 then .error .panic_create_init_failed else proc_init_finish x.2 env x.1) := by
      intro f
      unfold proc_init
      rw [hI]
      simp only [ok_bind, hkt]
    cases hk : env.fork.kmalloc with
    | none =>
      rw [hunf, do_fork_no_desc fuel _ _ tf hroom hk] at h
      simp [E_NO_MEM] at h
    | some qr =>
      obtain ⟨q, rawq⟩ := qr
      have hqi : q ≠ i := hne i rawi q rawq hidle hk
      have hcp : i ≠ q := hqi.symm
      cases hks : env.fork.kstack with
      | none =>
        obtain ⟨s2, h2, -⟩ := do_fork_no_kstack fuel (0 ||| CLONE_VM) 0 tf hroom hk hcur hpi i7
          hcp hks
        rw [hunf, h2] at h
        simp [E_NO_MEM] at h
      | some k =>
        have hbig : 2 * MAX_PID < ((max fuel 16385 : Nat) : Int) := by
          have : (16385 : Nat) ≤ max fuel 16385 := le_max_right _ _
          simp only [MAX_PID, MAX_PROCESS]
          omega
        obtain ⟨s', hrun, hinv, -⟩ := proc_init_run (max fuel 16385) hb hidle hk hqi hks hbig
        have hmono : proc_init (max fuel 16385) s0 env = .ok s := by
          rw [hunf] at h ⊢
          revert h
          cases hdf : do_fork fuel sI env.fork (0 ||| CLONE_VM) 0 tf with
          | error e => simp
          | ok x =>
            rw [do_fork_mono_case hroom hk hcur hpi i7 hcp hks hdf (le_max_left fuel 16385)]
            exact id
        rw [hrun] at hmono
        cases hmono
        exact hinv

end Ucore

namespace Ucore

/-! ## The code of `do_wait` -/

/-- The result of `remove_links` for a descriptor whose parent and siblings are allocated. -/
theorem remove_links_of {s : State} {z r : Ptr} {dz dr : proc_struct}
    (hz : s.procs z = some dz) (hzp : dz.parent = some r) (hrz : r ≠ z)
    (hr : s.procs r = some dr)
    (ho : ∀ o, dz.optr = some o → o ≠ z ∧ o ≠ r ∧ (s.procs o).isSome)
    (hy : ∀ y, dz.yptr = some y → y ≠ z ∧ (s.procs y).isSome) :
    ∃ s', remove_links s z = .ok s' ∧ s'.proc_list = s.proc_list.erase z ∧
      s'.nr_process = s.nr_process - 1 ∧ s'.hash_list = s.hash_list ∧
      s'.last_pid = s.last_pid ∧ s'.next_safe = s.next_safe ∧ s'.idleproc = s.idleproc ∧
      s'.initproc = s.initproc ∧ s'.current = s.current ∧ s'.intmem = s.intmem ∧
      s'.log = s.log ∧ s'.mms = s.mms ∧ s'.pgtab = s.pgtab ∧ s'.tfmem = s.tfmem ∧
      s'.procs z = some dz ∧
      (∀ x, x ≠ z → ∀ d, s.procs x = some d → s'.procs x = some
        { d with optr := if dz.yptr = some x then dz.optr else d.optr,
                 yptr := if dz.optr = some x then dz.yptr else d.yptr,
                 cptr := if dz.yptr = none ∧ x = r then dz.optr else d.cptr }) ∧
      (∀ x, x ≠ z → s.procs x = none → s'.procs x = none) := by
  unfold remove_links
  cases hoo : dz.optr with
  | none =>
    cases hyy : dz.yptr with
    | none =>
      simp [list_del, State.deref, State.modify, State.store, hz, hoo, hyy, hzp, hr,
        Function.update_noteq hrz.symm]
      constructor
      · intro x hxz d hd
        by_cases hxr : x = r
        · subst hxr
          rw [hr] at hd
          cases hd
          simp
        · simp [Function.update_noteq hxr, hd, hxr]
      · intro x hxz hd
        have hxr : x ≠ r := by
          rintro rfl
          rw [hr] at hd
          cases hd
        simp [Function.update_noteq hxr, hd]
    | some y =>
      obtain ⟨hyz, hyv⟩ := hy y hyy
      obtain ⟨dy, hdy⟩ := Option.isSome_iff_exists.mp hyv
      simp [list_del, State.deref, State.modify, State.store, hz, hoo, hyy, hzp, hr, hdy,
        Function.update_noteq hyz.symm]
      constructor
      · intro x hxz d hd
        by_cases hxy : x = y
        · subst hxy
          rw [hdy] at hd
          cases hd
          simp
        · simp [Function.update_noteq hxy, hd, hxy, Ne.symm hxy]
      · intro x hxz hd
        have hxy : x ≠ y := by
          rintro rfl
          rw [hdy] at hd
          cases hd
        simp [Function.update_noteq hxy, hd]
  | some o =>
    obtain ⟨hoz, hor, hov⟩ := ho o hoo
    obtain ⟨dO, hdo⟩ := Option.isSome_iff_exists.mp hov
    cases hyy : dz.yptr with
    | none =>
      simp [list_del, State.deref, State.modify, State.store, hz, hoo, hyy, hzp, hr, hdo,
        Function.update_noteq hrz.symm, Function.update_noteq hoz.symm,
        Function.update_noteq hor.symm]
      constructor
      · intro x hxz d hd
        by_cases hxr : x = r
        · subst hxr
          rw [hr] at hd
          cases hd
          simp [Ne.symm hor, hor]
        · by_cases hxo : x = o
          · subst hxo
            rw [hdo] at hd
            cases hd
            simp [Function.update_noteq hxr, hxr]
          · simp [Function.update_noteq hxr, Function.update_noteq hxo, hd, hxr, Ne.symm hxo]
      · intro x hxz hd
        have hxr : x ≠ r := by
          rintro rfl
          rw [hr] at hd
          cases hd
        have hxo : x ≠ o := by
          rintro rfl
          rw [hdo] at hd
          cases hd
        simp [Function.update_noteq hxr, Function.update_noteq hxo, hd]
    | some y =>
      obtain ⟨hyz, hyv⟩ := hy y hyy
      obtain ⟨dy, hdy⟩ := Option.isSome_iff_exists.mp hyv
      by_cases hoy : o = y
      · subst hoy
        simp [list_del, State.deref, State.modify, State.store, hz, hoo, hyy, hzp, hr, hdo,
          Function.update_noteq hoz.symm]
        constructor
        · intro x hxz d hd
          by_cases hxo : x = o
          · subst hxo
            rw [hdo] at hd
            cases hd
            simp
          · simp [Function.update_noteq hxo, hd, Ne.symm hxo]
        · intro x hxz hd
          have hxo : x ≠ o := by
            rintro rfl
            rw [hdo] at hd
            cases hd
          simp [Function.update_noteq hxo, hd]
      · simp [list_del, State.deref, State.modify, State.store, hz, hoo, hyy, hzp, hr, hdo, hdy,
          Function.update_noteq hoz.symm, Function.update_noteq hyz.symm,
          Function.update_noteq hoy, Function.update_noteq (Ne.symm hoy)]
        constructor
        · intro x hxz d hd
          by_cases hxo : x = o
          · subst hxo
            rw [hdo] at hd
            cases hd
            simp [Function.update_noteq hoy, Ne.symm hoy]
          · by_cases hxy : x = y
            · subst hxy
              rw [hdy] at hd
              cases hd
              simp [hoy]
            · simp [Function.update_noteq hxo, Function.update_noteq hxy, hd, Ne.symm hxo,
                Ne.symm hxy]
        · intro x hxz hd
          have hxo : x ≠ o := by
            rintro rfl
            rw [hdo] at hd
            cases hd
          have hxy : x ≠ y := by
            rintro rfl
            rw [hdy] at hd
            cases hd
          simp [Function.update_noteq hxo, Function.update_noteq hxy, hd]

theorem chain_optr_ne {procs : Ptr → Option proc_struct} {par : Ptr} :
    ∀ {l : List Ptr} {f y : Option Ptr}, Chain procs par f y l → l.Nodup → ∀ x ∈ l, ∀ d,
      procs x = some d → d.optr ≠ some x := by
  intro l
  induction l with
  | nil => intro f y _ _ x hx; simp at hx
  | cons b l ih =>
    intro f y hc hnd x hx d hd
    obtain ⟨_, db, hdb, _, _, hcb⟩ := chain_cons.mp hc
    have hnd' := List.nodup_cons.mp hnd
    rcases List.mem_cons.mp hx with rfl | hxl
    · rw [hdb] at hd
      cases hd
      intro hcon
      rw [hcon] at hcb
      exact hnd'.1 (chain_first_mem hcb)
    · exact ih hcb hnd'.2 x hxl d hd

theorem chain_yptr_ne {procs : Ptr → Option proc_struct} {par : Ptr} :
    ∀ {l : List Ptr} {f y : Option Ptr}, Chain procs par f y l → l.Nodup →
      (∀ w, y = some w → w ∉ l) → ∀ x ∈ l, ∀ d, procs x = some d → d.yptr ≠ some x := by
  intro l
  induction l with
  | nil => intro f y _ _ _ x hx; simp at hx
  | cons b l ih =>
    intro f y hc hnd hy x hx d hd
    obtain ⟨_, db, hdb, _, hyb, hcb⟩ := chain_cons.mp hc
    have hnd' := List.nodup_cons.mp hnd
    rcases List.mem_cons.mp hx with rfl | hxl
    · rw [hdb] at hd
      cases hd
      intro hcon
      exact hy x (hyb.symm.trans hcon) (List.mem_cons_self _ _)
    · apply ih hcb hnd'.2 _ x hxl d hd
      intro w hw
      cases hw
      exact hnd'.1

/-- In well-formed tables the parent and the two siblings of a listed task are allocated
descriptors other than the task itself. -/
theorem reap_ptrs {s : State} (hs : Struct none s) {z r : Ptr} {dz : proc_struct}
    (hzl : z ∈ s.proc_list) (hz : s.procs z = some dz) (hzp : dz.parent = some r) :
    r ≠ z ∧ (∃ dr, s.procs r = some dr) ∧
      (∀ o, dz.optr = some o → o ≠ z ∧ o ≠ r ∧ (s.procs o).isSome) ∧
      (∀ y, dz.yptr = some y → y ≠ z ∧ (s.procs y).isSome) := by
  obtain ⟨rv, hrv, hrvalid⟩ := hs.parent z hzl dz hz
  rw [hzp] at hrv
  cases hrv
  obtain ⟨y0, hy0, dr, lr, hdr, hchr, hndr, hsubr, hcompr⟩ := hs.fam r hrvalid
  have : y0 = none := hy0 (by simp)
  subst this
  have hzlr : z ∈ lr := hcompr z dz hz hzp
  have hrz : r ≠ z := by
    rintro rfl
    exact hs.noself r dz hz hzp
  refine ⟨hrz, ⟨dr, hdr⟩, ?_, ?_⟩
  · intro o ho
    have hol : o ∈ lr := chain_optr_mem hchr z hzlr dz hz o ho
    obtain ⟨d, hd, hpar⟩ := chain_mem hchr o hol
    refine ⟨?_, ?_, by rw [hd]; rfl⟩
    · rintro rfl
      exact chain_optr_ne hchr hndr o hzlr dz hz ho
    · rintro rfl
      exact hs.noself o d hd hpar
  · intro y hy
    have hyl : y ∈ lr := by
      rcases chain_yptr hz hchr hzlr with ⟨_, h1⟩ | ⟨w, hw, h1⟩
      · rw [hy] at h1
        cases h1
      · rw [hy] at h1
        cases h1
        exact hw
    obtain ⟨d, hd, _⟩ := chain_mem hchr y hyl
    refine ⟨?_, by rw [hd]; rfl⟩
    rintro rfl
    exact chain_yptr_ne hchr hndr (by simp) y hzlr dz hz hy

/-- The label `found` of `do_wait` on well-formed tables, in closed form. -/
theorem do_wait_found_of {s : State} (hs : Struct none s) {z r : Ptr} {dz : proc_struct}
    (code_store : Option Nat)
    (hzl : z ∈ s.proc_list) (hz : s.procs z = some dz) (hzp : dz.parent = some r)
    (hzi : some z ≠ s.initproc) :
    ∃ s', do_wait_found s z code_store = .ok (.returned 0, s') ∧
      s'.proc_list = s.proc_list.erase z ∧
      s'.hash_list = (fun i => (s.hash_list i).erase z) ∧
      s'.nr_process = s.nr_process - 1 ∧
      s'.last_pid = s.last_pid ∧ s'.next_safe = s.next_safe ∧ s'.idleproc = s.idleproc ∧
      s'.initproc = s.initproc ∧ s'.current = s.current ∧
      s'.intmem = (match code_store with
        | some a => Function.update s.intmem a dz.exit_code
        | none => s.intmem) ∧
      s'.log = Call.kfree z :: Call.free_pages (some dz.kstack) KSTACKPAGE :: s.log ∧
      s'.procs z = none ∧
      (∀ x, x ≠ z → ∀ d, s.procs x = some d → s'.procs x = some
        { d with optr := if dz.yptr = some x then dz.optr else d.optr,
                 yptr := if dz.optr = some x then dz.yptr else d.yptr,
                 cptr := if dz.yptr = none ∧ x = r then dz.optr else d.cptr }) ∧
      (∀ x, x ≠ z → s.procs x = none → s'.procs x = none) := by
  obtain ⟨hrz, ⟨dr, hdr⟩, ho, hy⟩ := reap_ptrs hs hzl hz hzp
  have hzidle : some z ≠ s.idleproc := by
    obtain ⟨i, _, h1, h2, _⟩ := hs.idle
    rw [h1]
    rintro h
    cases h
    exact h2 hzl
  let s1 : State := unhash_proc (match code_store with
      | some a => { s with intmem := Function.update s.intmem a dz.exit_code }
      | none => s) z
  have hp1 : s1.procs = s.procs := by
    cases code_store <;> rfl
  obtain ⟨s2, h2, e1, e2, e3, e4, e5, e6, e7, e8, e9, e10, -, -, -, e11, e12, e13⟩ :=
    @remove_links_of s1 _ _ _ _ (by rw [hp1]; exact hz) hzp hrz (by rw [hp1]; exact hdr)
      (by rw [hp1]; exact ho) (by rw [hp1]; exact hy)
  have hf : do_wait_found s z code_store = .ok (.returned 0,
      kfree (s2.call (.free_pages (some dz.kstack) KSTACKPAGE)) z) := by
    unfold do_wait_found
    rw [if_neg (by simp [hzidle, hzi])]
    simp only [State.deref, hz, ok_bind]
    change (remove_links s1 z >>= _) = _
    rw [h2]
    simp [put_kstack, State.deref, e11]
  refine ⟨_, hf, ?_, ?_, ?_, ?_, ?_, ?_, ?_, ?_, ?_, ?_, ?_, ?_, ?_⟩
  · simp only [kfree, State.call, e1]
    cases code_store <;> rfl
  · simp only [kfree, State.call, e3]
    cases code_store <;> rfl
  · simp only [kfree, State.call, e2]
    cases code_store <;> rfl
  · simp only [kfree, State.call, e4]
    cases code_store <;> rfl
  · simp only [kfree, State.call, e5]
    cases code_store <;> rfl
  · simp only [kfree, State.call, e6]
    cases code_store <;> rfl
  · simp only [kfree, State.call, e7]
    cases code_store <;> rfl
  · simp only [kfree, State.call, e8]
    cases code_store <;> rfl
  · simp only [kfree, State.call, e9]
    cases code_store <;> rfl
  · simp only [kfree, State.call, e10]
    cases code_store <;> rfl
  · simp [kfree, State.call]
  · intro x hxz d hd
    simp only [kfree, State.call, Function.update_noteq hxz]
    exact e12 x hxz d (by rw [hp1]; exact hd)
  · intro x hxz hd
    simp only [kfree, State.call, Function.update_noteq hxz]
    exact e13 x hxz (by rw [hp1]; exact hd)

end Ucore

namespace Ucore

/-! ## `do_wait` keeps the invariant -/

theorem do_wait_scan_some {procs : Ptr → Option proc_struct} {par : Ptr} :
    ∀ (fuel : Nat) {l : List Ptr} {f y : Option Ptr} {hk b : Bool} {z : Ptr},
      Chain procs par f y l → do_wait_scan procs fuel f hk = .ok (some z, b) →
      z ∈ l ∧ ∃ dz, procs z = some dz ∧ dz.state = .PROC_ZOMBIE := by
  intro fuel
  induction fuel with
  | zero =>
    intro l f y hk b z hc h
    cases f with
    | none => simp [do_wait_scan] at h
    | some p => simp [do_wait_scan] at h
  | succ fuel ih =>
    intro l f y hk b z hc h
    cases f with
    | none => simp [do_wait_scan] at h
    | some p =>
      cases l with
      | nil => simp [Chain] at hc
      | cons a l =>
        obtain ⟨hf, da, hda, _, _, hca⟩ := chain_cons.mp hc
        cases hf
        simp only [do_wait_scan, hda] at h
        split_ifs at h with hz
        · simp only [Except.ok.injEq, Prod.mk.injEq, Option.some.injEq] at h
          obtain ⟨rfl, -⟩ := h
          exact ⟨List.mem_cons_self _ _, da, hda, hz⟩
        · obtain ⟨h1, h2⟩ := ih hca h
          exact ⟨List.mem_cons_of_mem _ h1, h2⟩

theorem do_wait_scan_total {procs : Ptr → Option proc_struct} {par : Ptr} :
    ∀ (fuel : Nat) {l : List Ptr} {f y : Option Ptr} (hk : Bool),
      Chain procs par f y l → l.length < fuel →
      (∃ z ∈ l, ∃ dz, procs z = some dz ∧ dz.state = .PROC_ZOMBIE) →
      ∃ z, do_wait_scan procs fuel f hk = .ok (some z, true) := by
  intro fuel
  induction fuel with
  | zero => intro l f y hk _ hlen; simp at hlen
  | succ fuel ih =>
    intro l f y hk hc hlen hex
    cases l with
    | nil =>
      obtain ⟨z, hz, _⟩ := hex
      simp at hz
    | cons a l =>
      obtain ⟨hf, da, hda, _, _, hca⟩ := chain_cons.mp hc
      subst hf
      simp only [do_wait_scan, hda]
      split_ifs with hz
      · exact ⟨a, rfl⟩
      · apply ih true hca (by simpa using hlen)
        obtain ⟨z, hzl, dz, hdz, hzz⟩ := hex
        rcases List.mem_cons.mp hzl with rfl | hzl'
        · rw [hda] at hdz
          cases hdz
          exact absurd hzz hz
        · exact ⟨z, hzl', dz, hdz, hzz⟩

/-- The effect of the label `found` of `do_wait` keeps the invariant. -/
theorem inv_reap {s s' : State} {z r : Ptr} {dz : proc_struct}
    (hi : Inv s) (hzl : z ∈ s.proc_list) (hz : s.procs z = some dz)
    (hzs : dz.state = .PROC_ZOMBIE) (hzp : dz.parent = some r)
    (hl : s'.proc_list = s.proc_list.erase z)
    (hh : s'.hash_list = fun i => (s.hash_list i).erase z)
    (hnr : s'.nr_process = s.nr_process - 1)
    (hlast : s'.last_pid = s.last_pid) (hnext : s'.next_safe = s.next_safe)
    (hidle : s'.idleproc = s.idleproc) (hinit : s'.initproc = s.initproc)
    (hcur : s'.current = s.current)
    (hz' : s'.procs z = none)
    (hx : ∀ x, x ≠ z → ∀ d, s.procs x = some d → s'.procs x = some
        { d with optr := if dz.yptr = some x then dz.optr else d.optr,
                 yptr := if dz.optr = some x then dz.yptr else d.yptr,
                 cptr := if dz.yptr = none ∧ x = r then dz.optr else d.cptr })
    (hx0 : ∀ x, x ≠ z → s.procs x = none → s'.procs x = none) : Inv s' := by
  have hzc : dz.cptr = none := hi.sched.zombie z dz hz hzs (by simp)
  have hback : ∀ x d', s'.procs x = some d' → x ≠ z ∧ ∃ d, s.procs x = some d ∧
      d' = { d with optr := if dz.yptr = some x then dz.optr else d.optr,
                    yptr := if dz.optr = some x then dz.yptr else d.yptr,
                    cptr := if dz.yptr = none ∧ x = r then dz.optr else d.cptr } := by
    intro x d' hd'
    have hxz : x ≠ z := by
      rintro rfl
      rw [hz'] at hd'
      cases hd'
    refine ⟨hxz, ?_⟩
    cases hsx : s.procs x with
    | none => rw [hx0 x hxz hsx] at hd'; cases hd'
    | some d =>
      rw [hx x hxz d hsx] at hd'
      cases hd'
      exact ⟨d, rfl, rfl⟩
  -- the parent is not a zombie, it has a child
  have hrnz : ∀ dr, s.procs r = some dr → dr.cptr ≠ none := by
    intro dr hdr hcon
    obtain ⟨y0, _, dr', lr, hdr', hchr, _, _, hcompr⟩ := hi.struct.fam r (by rw [hdr]; rfl)
    rw [hdr] at hdr'
    cases hdr'
    have hzlr : z ∈ lr := hcompr z dz hz hzp
    rw [hcon] at hchr
    cases lr with
    | nil => simp at hzlr
    | cons a l => simp [Chain] at hchr
  refine ⟨?_, ?_, ?_⟩
  · apply struct_reap hi.struct hzl hz hzc hzp hl hh hnr hlast hnext hidle hz' _ hx0
    intro x hxz d hd
    exact ⟨_, hx x hxz d hd, rfl, rfl, rfl, rfl, rfl⟩
  · refine ⟨?_, ?_, ?_, ?_⟩
    · intro x d' hd' hst
      obtain ⟨_, d, hd, rfl⟩ := hback x d' hd'
      exact hi.sched.ws x d hd hst
    · intro x d' hd' hst _
      obtain ⟨_, d, hd, rfl⟩ := hback x d' hd'
      have hzd : d.state = .PROC_ZOMBIE := hst
      have hdc := hi.sched.zombie x d hd hzd (by simp)
      have hxr : x ≠ r := by
        rintro rfl
        exact hrnz d hd hdc
      simp [hxr, hdc]
    · obtain ⟨n, d, a, b, e, f, g⟩ := hi.sched.init
      have hnz : n ≠ z := by
        rintro rfl
        rw [hz] at e
        cases e
        exact f hzs
      exact ⟨n, _, hinit.trans a, by rw [hl]; exact (List.mem_erase_of_ne hnz).mpr b,
        hx n hnz d e, f, by rw [hidle]; exact g⟩
    · intro i d' hi' hd'
      rw [hidle] at hi'
      obtain ⟨_, d, hd, rfl⟩ := hback i d' hd'
      exact hi.sched.idle i d hi' hd
  · obtain ⟨c, d, a, b, e⟩ := hi.cur
    have hcz : c ≠ z := by
      rintro rfl
      rw [hz] at b
      cases b
      rw [hzs] at e
      cases e
    exact ⟨c, _, hcur.trans a, hx c hcz d b, e⟩

theorem sleep_eq {s : State} {c : Ptr} {dc : proc_struct} (hc : s.procs c = some dc) :
    ((s.modify c fun d => { d with state := .PROC_SLEEPING }) >>= fun s1 =>
      (s1.modify c fun d => { d with wait_state := WT_CHILD }) >>= fun s2 =>
        Except.ok (WaitResult.sleeping, s2.call Call.schedule)) =
    .ok (WaitResult.sleeping,
      (s.store c { dc with state := .PROC_SLEEPING, wait_state := WT_CHILD }).call .schedule) := by
  simp [State.modify, hc, State.store]

theorem do_wait_cases {s s' : State} {fuel : Nat} {umc : Bool} {pid : Int} {cs : Option Nat}
    {res : WaitResult} (hi : Inv s) (h : do_wait fuel s umc pid cs = .ok (res, s')) :
    (s' = s ∧ (res = .returned (-E_INVAL) ∨ res = .returned (-E_BAD_PROC))) ∨
    (res = .sleeping ∧ ∃ c d, s.current = some c ∧ s.procs c = some d ∧
        s' = (s.store c { d with state := .PROC_SLEEPING, wait_state := WT_CHILD }).call
          .schedule) ∨
    (∃ z dz, z ∈ s.proc_list ∧ s.procs z = some dz ∧ dz.state = .PROC_ZOMBIE ∧
        dz.parent = s.current ∧ do_wait_found s z cs = .ok (res, s')) := by
  obtain ⟨c, dc, hcur, hc, hrun⟩ := hi.cur
  have hsleep := sleep_eq hc
  unfold do_wait at h
  split_ifs at h with h1 hp
  · cases h
    exact Or.inl ⟨rfl, Or.inl rfl⟩
  · simp only [hcur, ok_bind] at h
    cases hf : find_proc s pid with
    | error e => simp [hf] at h
    | ok r =>
      cases r with
      | none =>
        simp [hf] at h
        exact Or.inl ⟨h.2.symm, Or.inr h.1.symm⟩
      | some z =>
        obtain ⟨-, -, hzh, dz, hdz, hpz⟩ := find_proc_some hf
        have hzl : z ∈ s.proc_list := ((hi.struct.hash _ z).mp hzh).1
        simp only [hf, ok_bind, State.deref, hdz, if_true, Bool.false_eq_true, if_false] at h
        split_ifs at h with h2 h3
        · exact Or.inr (Or.inr ⟨z, dz, hzl, hdz, h3, by rw [hcur]; exact h2, h⟩)
        · rw [hsleep] at h
          cases h
          exact Or.inr (Or.inl ⟨rfl, c, dc, hcur, hc, rfl⟩)
        · cases h
          exact Or.inl ⟨rfl, Or.inr rfl⟩
  · simp only [hcur, ok_bind, State.deref, hc] at h
    obtain ⟨y0, hy0, dr, lr, hdr, hchr, hndr, hsubr, hcompr⟩ := hi.struct.fam c (by rw [hc]; rfl)
    rw [hc] at hdr
    cases hdr
    cases hsc : do_wait_scan s.procs fuel dc.cptr false with
    | error e => simp [hsc] at h
    | ok r =>
      obtain ⟨fo, hk⟩ := r
      simp only [hsc, ok_bind] at h
      cases fo with
      | some z =>
        obtain ⟨hzl, dz, hdz, hzz⟩ := do_wait_scan_some fuel hchr hsc
        obtain ⟨dz', hdz', hpar⟩ := chain_mem hchr z hzl
        rw [hdz] at hdz'
        cases hdz'
        exact Or.inr (Or.inr ⟨z, dz, hsubr z hzl, hdz, hzz, by rw [hcur]; exact hpar, h⟩)
      | none =>
        simp only at h
        split_ifs at h with h4
        · rw [hsleep] at h
          cases h
          exact Or.inr (Or.inl ⟨rfl, c, dc, hcur, hc, rfl⟩)
        · cases h
          exact Or.inl ⟨rfl, Or.inr rfl⟩

theorem sched_of_eq {exc : Option Ptr} {s s' : State} (hs : Sched exc s)
    (h1 : s'.procs = s.procs) (h2 : s'.proc_list = s.proc_list)
    (h3 : s'.idleproc = s.idleproc) (h4 : s'.initproc = s.initproc) : Sched exc s' := by
  refine ⟨?_, ?_, ?_, ?_⟩
  · intro p d hd
    rw [h1] at hd
    exact hs.ws p d hd
  · intro p d hd
    rw [h1] at hd
    exact hs.zombie p d hd
  · obtain ⟨n, d, a, b, c, e, f⟩ := hs.init
    exact ⟨n, d, by rw [h4, a], by rw [h2]; exact b, by rw [h1, c], e, by rw [h3]; exact f⟩
  · intro i d hi hd
    rw [h3] at hi
    rw [h1] at hd
    exact hs.idle i d hi hd

theorem struct_of_eq {exc : Option Ptr} {s s' : State} (hs : Struct exc s)
    (h1 : s'.procs = s.procs) (h2 : s'.proc_list = s.proc_list)
    (h3 : s'.hash_list = s.hash_list) (h4 : s'.nr_process = s.nr_process)
    (h5 : s'.last_pid = s.last_pid) (h6 : s'.next_safe = s.next_safe)
    (h7 : s'.idleproc = s.idleproc) : Struct exc s' := by
  have hcore : SameCore { s with initproc := s'.initproc } s' :=
    SameCore.of_eq h1 h2 h3 h4 h5 h6 h7 rfl
  exact struct_same_core hcore (struct_set_initproc hs _)

/-- Overwriting a descriptor keeps the scheduling invariant when the family pointers stay
and the new state is compatible with it. -/
theorem sched_store {exc : Option Ptr} {s : State} {c : Ptr} {d d' : proc_struct}
    (hs : Sched exc s) (hc : s.procs c = some d) (e1 : d'.cptr = d.cptr)
    (e2 : d'.parent = d.parent) (e3 : d'.state = .PROC_RUNNABLE → d'.wait_state = 0)
    (e4 : d'.state = .PROC_ZOMBIE → d.state = .PROC_ZOMBIE) : Sched exc (s.store c d') := by
  have hback : ∀ x e, (s.store c d').procs x = some e → (x = c ∧ e = d') ∨
      (x ≠ c ∧ s.procs x = some e) := by
    intro x e he
    by_cases hx : x = c
    · subst hx
      simp [State.store] at he
      exact Or.inl ⟨rfl, he.symm⟩
    · simp [State.store, Function.update_noteq hx] at he
      exact Or.inr ⟨hx, he⟩
  refine ⟨?_, ?_, ?_, ?_⟩
  · intro x e he hst
    rcases hback x e he with ⟨rfl, rfl⟩ | ⟨_, h⟩
    · exact e3 hst
    · exact hs.ws x e h hst
  · intro x e he hst hexc
    rcases hback x e he with ⟨rfl, rfl⟩ | ⟨_, h⟩
    · rw [e1]
      exact hs.zombie x d hc (e4 hst) hexc
    · exact hs.zombie x e h hst hexc
  · obtain ⟨n, dn, a, b, c', e, f⟩ := hs.init
    by_cases hn : n = c
    · subst hn
      rw [hc] at c'
      cases c'
      exact ⟨n, d', a, b, store_procs_same _ _ _, fun h => e (e4 h), by rw [e2]; exact f⟩
    · exact ⟨n, dn, a, b, by rw [store_procs_ne _ _ hn]; exact c', e, f⟩
  · intro i e hi he
    rcases hback i e he with ⟨rfl, rfl⟩ | ⟨_, h⟩
    · exact fun hz => hs.idle i d hi hc (e4 hz)
    · exact hs.idle i e hi h

theorem struct_store {exc : Option Ptr} {s : State} {c : Ptr} {d d' : proc_struct}
    (hs : Struct exc s) (hc : s.procs c = some d)
    (e1 : d'.pid = d.pid) (e2 : d'.parent = d.parent) (e3 : d'.cptr = d.cptr)
    (e4 : d'.yptr = d.yptr) (e5 : d'.optr = d.optr) : Struct exc (s.store c d') :=
  struct_same_core (SameCore.store hc e1 e2 e3 e4 e5) hs

/-- Every run of `do_wait` that comes to its end keeps the tables well formed; when it
returns to the caller, the current task is still RUNNABLE. -/
theorem do_wait_inv {s s' : State} {fuel : Nat} {umc : Bool} {pid : Int} {cs : Option Nat}
    {res : WaitResult} (hi : Inv s) (h : do_wait fuel s umc pid cs = .ok (res, s')) :
    Struct none s' ∧ Sched none s' ∧ (res ≠ .sleeping → CurOk s') := by
  rcases do_wait_cases hi h with ⟨rfl, -⟩ | ⟨rfl, c, d, hcur, hc, rfl⟩ |
    ⟨z, dz, hzl, hz, hzs, hzp, hf⟩
  · exact ⟨hi.struct, hi.sched, fun _ => hi.cur⟩
  · refine ⟨?_, ?_, fun hne => absurd rfl hne⟩
    · have h1 : Struct none
          (s.store c { d with state := .PROC_SLEEPING, wait_state := WT_CHILD }) :=
        struct_store hi.struct hc rfl rfl rfl rfl rfl
      exact struct_of_eq h1 rfl rfl rfl rfl rfl rfl rfl
    · have h1 : Sched none
          (s.store c { d with state := .PROC_SLEEPING, wait_state := WT_CHILD }) :=
        sched_store hi.sched hc rfl rfl (by simp) (by simp)
      exact sched_of_eq h1 rfl rfl rfl rfl
  · obtain ⟨c, dc, hcur, hc, hrun⟩ := hi.cur
    rw [hcur] at hzp
    have hzi : some z ≠ s.initproc := by
      obtain ⟨n, dn, a, b, e, f, g⟩ := hi.sched.init
      rw [a]
      rintro hzn
      cases hzn
      rw [hz] at e
      cases e
      exact f hzs
    obtain ⟨s'', hf', e1, e2, e3, e4, e5, e6, e7, e8, -, -, e9, e10, e11⟩ :=
      do_wait_found_of hi.struct cs hzl hz hzp hzi
    rw [hf'] at hf
    cases hf
    have := inv_reap hi hzl hz hzs hzp e1 e2 e3 e4 e5 e6 e7 e8 e9 e10 e11
    exact ⟨this.struct, this.sched, fun _ => this.cur⟩

end Ucore

namespace Ucore

/-! ## The code of `do_exit` -/

/-- The relinking of one child in the loop of `do_exit`, in closed form. -/
theorem do_exit_relink_of {s : State} {cur p i : Ptr} {dcur dp di : proc_struct}
    (hcur : s.procs cur = some dcur) (hp : s.procs p = some dp)
    (hinit : s.initproc = some i) (hi : s.procs i = some di)
    (hci : cur ≠ i) (hpi : p ≠ i) (hpc : p ≠ cur)
    (hh : ∀ h, di.cptr = some h → h ≠ p ∧ h ≠ i ∧ (s.procs h).isSome) :
    ∃ s1, do_exit_relink s cur p = .ok s1 ∧
      s1.proc_list = s.proc_list ∧ s1.hash_list = s.hash_list ∧
      s1.nr_process = s.nr_process ∧ s1.last_pid = s.last_pid ∧ s1.next_safe = s.next_safe ∧
      s1.idleproc = s.idleproc ∧ s1.initproc = s.initproc ∧ s1.current = s.current ∧
      s1.mms = s.mms ∧ s1.pgtab = s.pgtab ∧ s1.tfmem = s.tfmem ∧ s1.intmem = s.intmem ∧
      s1.log = s.log ∧
      (∀ x d, s.procs x = some d → s1.procs x = some
        { d with parent := if x = p then some i else d.parent,
                 optr := if x = p then di.cptr else d.optr,
                 yptr := if x = p then none else if di.cptr = some x then some p else d.yptr,
                 cptr := if x = cur then dp.optr else if x = i then some p else d.cptr }) ∧
      (∀ x, s.procs x = none → s1.procs x = none) := by
  unfold do_exit_relink
  cases hic : di.cptr with
  | none =>
    simp [State.deref, State.derefp, State.modify, State.store, hcur, hp, hinit, hi, hic,
      Function.update_noteq hci, Function.update_noteq hci.symm, Function.update_noteq hpi,
      Function.update_noteq hpi.symm, Function.update_noteq hpc, Function.update_noteq hpc.symm]
    constructor
    · intro x d hd
      by_cases hxp : x = p
      · subst hxp
        rw [hp] at hd
        cases hd
        simp [Function.update_noteq hpi, hpc, hpi]
      · by_cases hxc : x = cur
        · subst hxc
          rw [hcur] at hd
          cases hd
          simp [Function.update_noteq hci, Function.update_noteq hxp, hxp]
        · by_cases hxi : x = i
          · subst hxi
            rw [hi] at hd
            cases hd
            simp [hxp, hxc]
          · simp [Function.update_noteq hxi, Function.update_noteq hxp,
              Function.update_noteq hxc, hd, hxp, hxc, hxi]
    · intro x hd
      have hxp : x ≠ p := by rintro rfl; rw [hp] at hd; cases hd
      have hxc : x ≠ cur := by rintro rfl; rw [hcur] at hd; cases hd
      have hxi : x ≠ i := by rintro rfl; rw [hi] at hd; cases hd
      simp [Function.update_noteq hxi, Function.update_noteq hxp, Function.update_noteq hxc, hd]
  | some h =>
    obtain ⟨hhp, hhi, hhv⟩ := hh h hic
    obtain ⟨dh, hdh⟩ := Option.isSome_iff_exists.mp hhv
    by_cases hhc : h = cur
    · subst hhc
      rw [hcur] at hdh
      cases hdh
      simp [State.deref, State.derefp, State.modify, State.store, hcur, hp, hinit, hi, hic,
        Function.update_noteq hci, Function.update_noteq hci.symm, Function.update_noteq hpi,
        Function.update_noteq hpi.symm, Function.update_noteq hpc,
        Function.update_noteq hpc.symm]
      constructor
      · intro x d hd
        by_cases hxp : x = p
        · subst hxp
          rw [hp] at hd
          cases hd
          simp [Function.update_noteq hpi, hpc, hpi]
        · by_cases hxc : x = h
          · subst hxc
            rw [hcur] at hd
            cases hd
            simp [Function.update_noteq hci, Function.update_noteq hxp, hxp]
          · by_cases hxi : x = i
            · subst hxi
              rw [hi] at hd
              cases hd
              simp [hxp, hxc, Ne.symm hxc]
            · simp [Function.update_noteq hxi, Function.update_noteq hxp,
                Function.update_noteq hxc, hd, hxp, hxc, hxi, Ne.symm hxc]
      · intro x hd
        have hxp : x ≠ p := by rintro rfl; rw [hp] at hd; cases hd
        have hxc : x ≠ h := by rintro rfl; rw [hcur] at hd; cases hd
        have hxi : x ≠ i := by rintro rfl; rw [hi] at hd; cases hd
        simp [Function.update_noteq hxi, Function.update_noteq hxp, Function.update_noteq hxc,
          hd]
    · simp [State.deref, State.derefp, State.modify, State.store, hcur, hp, hinit, hi, hic, hdh,
        Function.update_noteq hci, Function.update_noteq hci.symm, Function.update_noteq hpi,
        Function.update_noteq hpi.symm, Function.update_noteq hpc,
        Function.update_noteq hpc.symm, Function.update_noteq hhp,
        Function.update_noteq hhp.symm, Function.update_noteq hhi,
        Function.update_noteq hhi.symm, Function.update_noteq hhc,
        Function.update_noteq (Ne.symm hhc)]
      constructor
      · intro x d hd
        by_cases hxp : x = p
        · subst hxp
          rw [hp] at hd
          cases hd
          simp [Function.update_noteq hpi, Function.update_noteq hhp.symm, hpc, hpi]
        · by_cases hxc : x = cur
          · subst hxc
            rw [hcur] at hd
            cases hd
            simp [Function.update_noteq hci, Function.update_noteq hxp,
              Function.update_noteq (Ne.symm hhc), hxp, hhc]
          · by_cases hxi : x = i
            · subst hxi
              rw [hi] at hd
              cases hd
              simp [hxp, hxc, hhi]
            · by_cases hxh : x = h
              · subst hxh
                rw [hdh] at hd
                cases hd
                simp [Function.update_noteq hxi, Function.update_noteq hxp,
                  Function.update_noteq hxc, hxp, hxc, hxi]
              · simp [Function.update_noteq hxi, Function.update_noteq hxp,
                  Function.update_noteq hxc, Function.update_noteq hxh, hd, hxp, hxc, hxi,
                  Ne.symm hxh]
      · intro x hd
        have hxp : x ≠ p := by rintro rfl; rw [hp] at hd; cases hd
        have hxc : x ≠ cur := by rintro rfl; rw [hcur] at hd; cases hd
        have hxi : x ≠ i := by rintro rfl; rw [hi] at hd; cases hd
        have hxh : x ≠ h := by rintro rfl; rw [hdh] at hd; cases hd
        simp [Function.update_noteq hxi, Function.update_noteq hxp, Function.update_noteq hxc,
          Function.update_noteq hxh, hd]

/-- The waking of `initproc` in the loop of `do_exit`, in closed form. -/
theorem do_exit_wake_init_of {s : State} {p i : Ptr} {dp di : proc_struct}
    (hp : s.procs p = some dp) (hinit : s.initproc = some i) (hi : s.procs i = some di) :
    ∃ s1, do_exit_wake_init s p = .ok s1 ∧
      s1.proc_list = s.proc_list ∧ s1.hash_list = s.hash_list ∧
      s1.nr_process = s.nr_process ∧ s1.last_pid = s.last_pid ∧ s1.next_safe = s.next_safe ∧
      s1.idleproc = s.idleproc ∧ s1.initproc = s.initproc ∧ s1.current = s.current ∧
      s1.mms = s.mms ∧ s1.pgtab = s.pgtab ∧ s1.tfmem = s.tfmem ∧ s1.intmem = s.intmem ∧
      (s1.log = s.log ∨ s1.log = Call.wakeup_proc i :: s.log) ∧
      (∀ x, x ≠ i → s1.procs x = s.procs x) ∧
      (s1.procs i = some di ∨
        (s1.procs i = some { di with state := .PROC_RUNNABLE, wait_state := 0 } ∧
          (di.state = .PROC_SLEEPING ∨ di.state = .PROC_UNINIT))) := by
  unfold do_exit_wake_init
  by_cases hz : dp.state = .PROC_ZOMBIE
  · by_cases hw : di.wait_state = WT_CHILD
    · by_cases hst : di.state = .PROC_SLEEPING ∨ di.state = .PROC_UNINIT
      · simp only [State.deref, hp, ok_bind, hz, if_true, State.derefp, hinit, hi, hw,
          wakeup_proc_of hi, if_pos hst]
        refine ⟨_, rfl, rfl, rfl, rfl, rfl, rfl, rfl, hinit, rfl, rfl, rfl, rfl, rfl, Or.inr rfl,
          ?_, Or.inr ⟨?_, hst⟩⟩
        · intro x hx
          simp [State.call, State.store, Function.update_noteq hx]
        · simp [State.call, State.store]
      · simp only [State.deref, hp, ok_bind, hz, if_true, State.derefp, hinit, hi, hw,
          wakeup_proc_of hi, if_neg hst]
        exact ⟨_, rfl, rfl, rfl, rfl, rfl, rfl, rfl, hinit, rfl, rfl, rfl, rfl, rfl, Or.inr rfl,
          fun _ _ => rfl, Or.inl hi⟩
    · simp only [State.deref, hp, ok_bind, hz, if_true, State.derefp, hinit, hi, if_neg hw]
      exact ⟨_, rfl, rfl, rfl, rfl, rfl, rfl, rfl, hinit, rfl, rfl, rfl, rfl, rfl, Or.inl rfl,
        fun _ _ => rfl, Or.inl hi⟩
  · simp only [State.deref, hp, ok_bind, if_neg hz]
    exact ⟨_, rfl, rfl, rfl, rfl, rfl, rfl, rfl, rfl, rfl, rfl, rfl, rfl, rfl, Or.inl rfl,
      fun _ _ => rfl, Or.inl hi⟩

/-- One round of the loop of `do_exit`: what it does to the tables and to each descriptor. -/
theorem do_exit_reparent_child_of {s : State} {cur p i : Ptr} {dcur dp di : proc_struct}
    (hcur : s.procs cur = some dcur) (hp : s.procs p = some dp)
    (hinit : s.initproc = some i) (hi : s.procs i = some di)
    (hci : cur ≠ i) (hpi : p ≠ i) (hpc : p ≠ cur)
    (hh : ∀ h, di.cptr = some h → h ≠ p ∧ h ≠ i ∧ (s.procs h).isSome) :
    ∃ s1, do_exit_reparent_child s cur p = .ok s1 ∧
      s1.proc_list = s.proc_list ∧ s1.hash_list = s.hash_list ∧
      s1.nr_process = s.nr_process ∧ s1.last_pid = s.last_pid ∧ s1.next_safe = s.next_safe ∧
      s1.idleproc = s.idleproc ∧ s1.initproc = s.initproc ∧ s1.current = s.current ∧
      s1.mms = s.mms ∧ s1.pgtab = s.pgtab ∧ s1.tfmem = s.tfmem ∧ s1.intmem = s.intmem ∧
      (s1.log = s.log ∨ s1.log = Call.wakeup_proc i :: s.log) ∧
      (∀ x d, s.procs x = some d → ∃ d', s1.procs x = some d' ∧ d'.pid = d.pid ∧
        d'.parent = (if x = p then some i else d.parent) ∧
        d'.optr = (if x = p then di.cptr else d.optr) ∧
        d'.yptr = (if x = p then none else if di.cptr = some x then some p else d.yptr) ∧
        d'.cptr = (if x = cur then dp.optr else if x = i then some p else d.cptr) ∧
        d'.exit_code = d.exit_code ∧ d'.mm = d.mm ∧ d'.kstack = d.kstack ∧
        ((d'.state = d.state ∧ d'.wait_state = d.wait_state) ∨
          (x = i ∧ (d.state = .PROC_SLEEPING ∨ d.state = .PROC_UNINIT) ∧
            d'.state = .PROC_RUNNABLE ∧ d'.wait_state = 0))) ∧
      (∀ x, s.procs x = none → s1.procs x = none) := by
  obtain ⟨s1, h1, a1, a2, a3, a4, a5, a6, a7, a8, a9, a10, a11, a12, a13, hx, hx0⟩ :=
    do_exit_relink_of hcur hp hinit hi hci hpi hpc hh
  have hp1 := hx p dp hp
  have hi1 := hx i di hi
  obtain ⟨s2, h2, b1, b2, b3, b4, b5, b6, b7, b8, b9, b10, b11, b12, b13, hy, hyi⟩ :=
    do_exit_wake_init_of hp1 (a7.trans hinit) hi1
  refine ⟨s2, ?_, b1.trans a1, b2.trans a2, b3.trans a3, b4.trans a4, b5.trans a5, b6.trans a6,
    b7.trans a7, b8.trans a8, b9.trans a9, b10.trans a10, b11.trans a11, b12.trans a12, ?_, ?_,
    ?_⟩
  · unfold do_exit_reparent_child
    rw [h1]
    exact h2
  · rw [a13] at b13
    exact b13
  · intro x d hd
    by_cases hxi : x = i
    · subst hxi
      rw [hi] at hd
      cases hd
      rcases hyi with h | ⟨h, hst⟩
      · exact ⟨_, h, rfl, rfl, rfl, rfl, rfl, rfl, rfl, rfl, Or.inl ⟨rfl, rfl⟩⟩
      · exact ⟨_, h, rfl, rfl, rfl, rfl, rfl, rfl, rfl, rfl, Or.inr ⟨rfl, hst, rfl, rfl⟩⟩
    · exact ⟨_, (hy x hxi).trans (hx x d hd), rfl, rfl, rfl, rfl, rfl, rfl, rfl, rfl,
        Or.inl ⟨rfl, rfl⟩⟩
  · intro x hd
    have hxi : x ≠ i := by rintro rfl; rw [hi] at hd; cases hd
    rw [hy x hxi]
    exact hx0 x hd

end Ucore

namespace Ucore

/-! ## The loop of `do_exit` -/

/-- One round of the loop of `do_exit` keeps the loop invariant. -/
theorem reparent_round_inv {s : State} {cur i p : Ptr} {dcur : proc_struct}
    (hs : Struct (some cur) s) (hsch : Sched (some cur) s) (hinit : s.initproc = some i)
    (hci : cur ≠ i) (hidle : s.idleproc ≠ some cur)
    (hcur : s.procs cur = some dcur) (hcp : dcur.cptr = some p) :
    ∃ s1, do_exit_reparent_child s cur p = .ok s1 ∧
      Struct (some cur) s1 ∧ Sched (some cur) s1 ∧
      s1.proc_list = s.proc_list ∧ s1.hash_list = s.hash_list ∧
      s1.nr_process = s.nr_process ∧ s1.last_pid = s.last_pid ∧ s1.next_safe = s.next_safe ∧
      s1.idleproc = s.idleproc ∧ s1.initproc = s.initproc ∧ s1.current = s.current ∧
      s1.mms = s.mms ∧ s1.pgtab = s.pgtab ∧ s1.tfmem = s.tfmem ∧ s1.intmem = s.intmem ∧
      (s1.log = s.log ∨ s1.log = Call.wakeup_proc i :: s.log) ∧
      (∃ dp, s.procs p = some dp ∧ dp.parent = some cur) ∧
      (∀ x d, s.procs x = some d → ∃ d', s1.procs x = some d' ∧ d'.pid = d.pid ∧
        d'.parent = (if x = p then some i else d.parent) ∧
        d'.exit_code = d.exit_code ∧ d'.mm = d.mm ∧ d'.kstack = d.kstack ∧
        (x ≠ i → d'.state = d.state ∧ d'.wait_state = d.wait_state) ∧
        (d'.state = d.state ∨ d'.state = .PROC_RUNNABLE)) ∧
      (∀ x, s.procs x = none → s1.procs x = none) := by
  obtain ⟨hpl, dp, hp, hpp⟩ := first_child_parent hs hcur hcp
  have hpc : p ≠ cur := by
    rintro rfl
    exact hs.noself p dp hp hpp
  obtain ⟨n, di, hn, hnl, hi, hinz, hipar⟩ := hsch.init
  rw [hinit] at hn
  cases hn
  have hpi : p ≠ i := by
    rintro rfl
    rw [hi] at hp
    cases hp
    rw [hpp] at hipar
    exact hidle hipar.symm
  have hh : ∀ h, di.cptr = some h → h ≠ p ∧ h ≠ i ∧ (s.procs h).isSome := by
    intro h hh'
    obtain ⟨_, dh, hdh, hpar⟩ := first_child_parent hs hi hh'
    refine ⟨?_, ?_, by rw [hdh]; rfl⟩
    · rintro rfl
      rw [hp] at hdh
      cases hdh
      rw [hpp] at hpar
      cases hpar
      exact hci rfl
    · rintro rfl
      exact hs.noself h dh hdh hpar
  obtain ⟨s1, h1, a1, a2, a3, a4, a5, a6, a7, a8, a9, a10, a11, a12, a13, hx, hx0⟩ :=
    do_exit_reparent_child_of hcur hp hinit hi hci hpi hpc hh
  have hback : ∀ x d', s1.procs x = some d' → ∃ d, s.procs x = some d ∧
      d'.parent = (if x = p then some i else d.parent) ∧
      d'.cptr = (if x = cur then dp.optr else if x = i then some p else d.cptr) ∧
      ((d'.state = d.state ∧ d'.wait_state = d.wait_state) ∨
        (x = i ∧ (d.state = .PROC_SLEEPING ∨ d.state = .PROC_UNINIT) ∧
          d'.state = .PROC_RUNNABLE ∧ d'.wait_state = 0)) := by
    intro x d' hd'
    cases hd : s.procs x with
    | none => rw [hx0 x hd] at hd'; cases hd'
    | some d =>
      obtain ⟨d2, hd2, _, e2, _, _, e5, _, _, _, e9⟩ := hx x d hd
      rw [hd2] at hd'
      cases hd'
      exact ⟨d, rfl, e2, e5, e9⟩
  refine ⟨s1, h1, ?_, ?_, a1, a2, a3, a4, a5, a6, a7, a8, a9, a10, a11, a12, a13, ⟨dp, hp, hpp⟩,
    ?_, hx0⟩
  · apply struct_reparent hs hcur hcp hp hi hci hpi hipar a1 a2 a3 a4 a5 a6 _ hx0
    intro x d hd
    obtain ⟨d', hd', e1, e2, e3, e4, e5, _⟩ := hx x d hd
    exact ⟨d', hd', e1, e2, e3, e4, e5⟩
  · refine ⟨?_, ?_, ?_, ?_⟩
    · intro x d' hd' hst
      obtain ⟨d, hd, _, _, hst'⟩ := hback x d' hd'
      rcases hst' with ⟨e1, e2⟩ | ⟨_, _, _, e2⟩
      · rw [e2]
        exact hsch.ws x d hd (e1 ▸ hst)
      · exact e2
    · intro x d' hd' hst hxc
      obtain ⟨d, hd, _, ec, hst'⟩ := hback x d' hd'
      rcases hst' with ⟨e1, _⟩ | ⟨_, _, e1, _⟩
      · have hdz : d.state = .PROC_ZOMBIE := e1 ▸ hst
        have hxcur : x ≠ cur := by
          rintro rfl
          exact hxc rfl
        have hxi : x ≠ i := by
          rintro rfl
          rw [hi] at hd
          cases hd
          exact hinz hdz
        rw [ec, if_neg hxcur, if_neg hxi]
        exact hsch.zombie x d hd hdz hxc
      · rw [e1] at hst
        cases hst
    · obtain ⟨d', hd', _, e2, _, _, _, _, _, _, e9⟩ := hx i di hi
      refine ⟨i, d', a7.trans hinit, by rw [a1]; exact hnl, hd', ?_, ?_⟩
      · rcases e9 with ⟨e, _⟩ | ⟨_, _, e, _⟩
        · rw [e]
          exact hinz
        · rw [e]
          simp
      · rw [e2, if_neg (Ne.symm hpi), a6]
        exact hipar
    · intro j d' hj hd'
      rw [a6] at hj
      obtain ⟨d, hd, _, _, hst'⟩ := hback j d' hd'
      rcases hst' with ⟨e1, _⟩ | ⟨_, _, e1, _⟩
      · rw [e1]
        exact hsch.idle j d hj hd
      · rw [e1]
        simp
  · intro x d hd
    obtain ⟨d', hd', e1, e2, _, _, _, e6, e7, e8, e9⟩ := hx x d hd
    refine ⟨d', hd', e1, e2, e6, e7, e8, ?_, ?_⟩
    · intro hxi
      rcases e9 with h | ⟨h, _⟩
      · exact h
      · exact absurd h hxi
    · rcases e9 with h | ⟨_, _, h, _⟩
      · exact Or.inl h.1
      · exact Or.inr h

theorem struct_exc_done {s : State} {cur : Ptr} {dc : proc_struct} (hs : Struct (some cur) s)
    (hc : s.procs cur = some dc) (hcp : dc.cptr = none) : Struct none s := by
  refine ⟨hs.nodup, hs.valid, hs.idle, hs.pid_range, hs.pid_inj, hs.window, hs.cursors,
    hs.count, hs.hash, hs.hash_nodup, hs.parent, hs.noself, ?_, hs.idle_links, hs.up⟩
  intro r hr
  obtain ⟨y, hy, dr, l, hdr, hch, hnd, hsub, hcomp⟩ := hs.fam r hr
  refine ⟨none, fun _ => rfl, dr, l, hdr, ?_, hnd, hsub, hcomp⟩
  by_cases hrc : r = cur
  · subst hrc
    rw [hc] at hdr
    cases hdr
    rw [hcp] at hch ⊢
    cases l with
    | nil => exact chain_nil.mpr rfl
    | cons a l => simp [Chain] at hch
  · have : y = none := hy (by simpa using hrc)
    subst this
    exact hch

theorem struct_exc_intro {s : State} (cur : Ptr) (hs : Struct none s) : Struct (some cur) s := by
  refine ⟨hs.nodup, hs.valid, hs.idle, hs.pid_range, hs.pid_inj, hs.window, hs.cursors,
    hs.count, hs.hash, hs.hash_nodup, hs.parent, hs.noself, ?_, hs.idle_links, hs.up⟩
  intro r hr
  obtain ⟨y, hy, hf⟩ := hs.fam r hr
  have : y = none := hy (by simp)
  subst this
  exact ⟨none, fun _ => rfl, hf⟩

theorem sched_exc_done {s : State} {cur : Ptr} {dc : proc_struct} (hs : Sched (some cur) s)
    (hc : s.procs cur = some dc) (hcp : dc.cptr = none) : Sched none s := by
  refine ⟨hs.ws, ?_, hs.init, hs.idle⟩
  intro x d hd hz _
  by_cases hxc : x = cur
  · subst hxc
    rw [hc] at hd
    cases hd
    exact hcp
  · exact hs.zombie x d hd hz (by simpa using hxc)

/-- The loop of `do_exit`: whenever it comes to its end the tables are well formed again,
the exiting task has no child left and its former children are children of `initproc`; and
with more fuel than the task has children it does come to its end. -/
theorem do_exit_reparent_spec {cur i : Ptr} :
    ∀ (fuel : Nat) (s : State), Struct (some cur) s → Sched (some cur) s →
      s.initproc = some i → cur ≠ i → s.idleproc ≠ some cur → (s.procs cur).isSome →
      (∀ s', do_exit_reparent fuel s cur = .ok s' →
        Struct none s' ∧ Sched none s' ∧
        (∃ dc, s'.procs cur = some dc ∧ dc.cptr = none) ∧
        s'.proc_list = s.proc_list ∧ s'.hash_list = s.hash_list ∧
        s'.nr_process = s.nr_process ∧ s'.idleproc = s.idleproc ∧
        s'.initproc = s.initproc ∧ s'.current = s.current ∧
        s'.mms = s.mms ∧ s'.pgtab = s.pgtab ∧
        (∃ l, s'.log = l ++ s.log ∧ ∀ c ∈ l, c = Call.wakeup_proc i) ∧
        (∀ x d, s.procs x = some d → ∃ d', s'.procs x = some d' ∧ d'.pid = d.pid ∧
          d'.parent = (if d.parent = some cur then some i else d.parent) ∧
          d'.exit_code = d.exit_code ∧ d'.mm = d.mm ∧ d'.kstack = d.kstack ∧
          (x ≠ i → d'.state = d.state ∧ d'.wait_state = d.wait_state) ∧
          (d'.state = d.state ∨ d'.state = .PROC_RUNNABLE)) ∧
        (∀ x, s.procs x = none → s'.procs x = none)) ∧
      (∀ l : List Ptr, (∀ x d, s.procs x = some d → d.parent = some cur → x ∈ l) →
        l.length < fuel → ∃ s', do_exit_reparent fuel s cur = .ok s') := by
  intro fuel
  induction fuel with
  | zero =>
    intro s _ _ _ _ _ _
    refine ⟨?_, ?_⟩
    · intro s' h
      simp [do_exit_reparent] at h
    · intro l _ hlen
      simp at hlen
  | succ fuel ih =>
    intro s hs hsch hinit hci hidle hcv
    obtain ⟨dcur, hcur⟩ := Option.isSome_iff_exists.mp hcv
    cases hcp : dcur.cptr with
    | none =>
      have hrun : do_exit_reparent (fuel + 1) s cur = .ok s := by
        unfold do_exit_reparent
        simp [State.deref, hcur, hcp]
      have hnochild : ∀ x d, s.procs x = some d → d.parent ≠ some cur := by
        intro x d hd hpar
        obtain ⟨y, _, dr, l, hdr, hch, _, _, hcomp⟩ := hs.fam cur hcv
        rw [hcur] at hdr
        cases hdr
        have hxl := hcomp x d hd hpar
        rw [hcp] at hch
        cases l with
        | nil => simp at hxl
        | cons a l => simp [Chain] at hch
      refine ⟨?_, fun _ _ _ => ⟨s, hrun⟩⟩
      intro s' h
      rw [hrun] at h
      cases h
      refine ⟨struct_exc_done hs hcur hcp, sched_exc_done hsch hcur hcp, ⟨dcur, hcur, hcp⟩, rfl,
        rfl, rfl, rfl, rfl, rfl, rfl, rfl, ⟨[], rfl, by simp⟩, ?_, fun _ h => h⟩
      intro x d hd
      exact ⟨d, hd, rfl, by rw [if_neg (hnochild x d hd)], rfl, rfl, rfl, fun _ => ⟨rfl, rfl⟩,
        Or.inl rfl⟩
    | some p =>
      obtain ⟨s1, h1, hs1, hsch1, a1, a2, a3, a4, a5, a6, a7, a8, a9, a10, a11, a12, a13,
        ⟨dp, hp, hpp⟩, hx, hx0⟩ := reparent_round_inv hs hsch hinit hci hidle hcur hcp
      have hrun : do_exit_reparent (fuel + 1) s cur = do_exit_reparent fuel s1 cur := by
        conv_lhs => unfold do_exit_reparent
        simp [State.deref, hcur, hcp, h1]
      have hcv1 : (s1.procs cur).isSome := by
        obtain ⟨d', hd', _⟩ := hx cur dcur hcur
        rw [hd']
        rfl
      obtain ⟨ihA, ihB⟩ := ih s1 hs1 hsch1 (a7.trans hinit) hci (by rw [a6]; exact hidle) hcv1
      refine ⟨?_, ?_⟩
      · intro s' h
        rw [hrun] at h
        obtain ⟨r1, r2, r3, b1, b2, b3, b6, b7, b8, b9, b10, ⟨l, hl, hlw⟩, hy, hy0⟩ := ihA s' h
        refine ⟨r1, r2, r3, b1.trans a1, b2.trans a2, b3.trans a3, b6.trans a6, b7.trans a7,
          b8.trans a8, b9.trans a9, b10.trans a10, ?_, ?_, fun x hd => hy0 x (hx0 x hd)⟩
        · rcases a13 with e | e
          · exact ⟨l, by rw [hl, e], hlw⟩
          · refine ⟨l ++ [Call.wakeup_proc i], by rw [hl, e]; simp, ?_⟩
            intro c hc
            rcases List.mem_append.mp hc with h' | h'
            · exact hlw c h'
            · simpa using h'
        · intro x d hd
          obtain ⟨d1, hd1, e1, e2, e3, e4, e5, e6, e7⟩ := hx x d hd
          obtain ⟨d2, hd2, f1, f2, f3, f4, f5, f6, f7⟩ := hy x d1 hd1
          refine ⟨d2, hd2, f1.trans e1, ?_, f3.trans e3, f4.trans e4, f5.trans e5, ?_, ?_⟩
          · rw [f2, e2]
            by_cases hxp : x = p
            · subst hxp
              rw [hp] at hd
              cases hd
              simp [hpp, Ne.symm hci]
            · simp [hxp]
          · intro hxi
            exact ⟨(f6 hxi).1.trans (e6 hxi).1, (f6 hxi).2.trans (e6 hxi).2⟩
          · rcases f7 with h' | h'
            · rcases e7 with h'' | h''
              · exact Or.inl (h'.trans h'')
              · exact Or.inr (h'.trans h'')
            · exact Or.inr h'
      · intro l hcover hlen
        rw [hrun]
        have hpl : p ∈ l := hcover p dp hp hpp
        apply ihB (l.erase p)
        · intro x d1 hd1 hpar1
          cases hd : s.procs x with
          | none => rw [hx0 x hd] at hd1; cases hd1
          | some d =>
            obtain ⟨d1', hd1', _, e2, _⟩ := hx x d hd
            rw [hd1'] at hd1
            cases hd1
            have hxp : x ≠ p := by
              rintro rfl
              rw [e2, if_pos rfl] at hpar1
              cases hpar1
              exact hci rfl
            rw [e2, if_neg hxp] at hpar1
            exact (List.mem_erase_of_ne hxp).mpr (hcover x d hd hpar1)
        · rw [List.length_erase_of_mem hpl]
          have := List.length_pos_of_mem hpl
          omega

end Ucore

namespace Ucore

/-! ## `do_exit` -/

/-- The state of the memory manager after the exiting task has dropped its address space. -/
theorem do_exit_zombie_of {s : State} {c q : Ptr} {dc dq : proc_struct} (error_code : Int)
    (hcur : s.current = some c) (hc : s.procs c = some dc)
    (hidle : s.current ≠ s.idleproc) (hinit : s.current ≠ s.initproc)
    (hpar : dc.parent = some q) (hqc : q ≠ c) (hq : s.procs q = some dq) :
    ∃ sZ sR, do_exit_zombie s error_code = .ok (c, sZ) ∧
      sR = (match dc.mm with
        | some m => release_mm s m
        | none => s) ∧
      sZ.proc_list = s.proc_list ∧ sZ.hash_list = s.hash_list ∧
      sZ.nr_process = s.nr_process ∧ sZ.last_pid = s.last_pid ∧ sZ.next_safe = s.next_safe ∧
      sZ.idleproc = s.idleproc ∧ sZ.initproc = s.initproc ∧ sZ.current = s.current ∧
      sZ.mms = sR.mms ∧ sZ.pgtab = sR.pgtab ∧
      sZ.log = (if dq.wait_state = WT_CHILD then Call.wakeup_proc q :: sR.log else sR.log) ∧
      sZ.procs c = some { dc with mm := none, state := .PROC_ZOMBIE, exit_code := error_code } ∧
      sZ.procs q = some (if dq.wait_state = WT_CHILD ∧
          (dq.state = .PROC_SLEEPING ∨ dq.state = .PROC_UNINIT)
        then { dq with state := .PROC_RUNNABLE, wait_state := 0 } else dq) ∧
      (∀ x, x ≠ c → x ≠ q → sZ.procs x = s.procs x) := by
  unfold do_exit_zombie
  rw [if_neg hidle, if_neg hinit]
  simp only [hcur, ok_bind, State.deref, hc]
  cases hmm : dc.mm with
  | none =>
    by_cases hw : dq.wait_state = WT_CHILD
    · by_cases hst : dq.state = .PROC_SLEEPING ∨ dq.state = .PROC_UNINIT
      · simp [State.modify, State.store, State.deref, State.derefp, hc, hpar, hq, hw, hst,
          Function.update_noteq hqc, Function.update_noteq hqc.symm, wakeup_proc, State.call,
          hmm]
        exact ⟨hcur, fun x hxc hxq => by
          simp [Function.update_noteq hxq, Function.update_noteq hxc]⟩
      · simp [State.modify, State.store, State.deref, State.derefp, hc, hpar, hq, hw, hst,
          Function.update_noteq hqc, Function.update_noteq hqc.symm, wakeup_proc, State.call,
          hmm]
        exact ⟨hcur, fun x hxc _ => by simp [Function.update_noteq hxc]⟩
    · simp [State.modify, State.store, State.deref, State.derefp, hc, hpar, hq, hw,
        Function.update_noteq hqc, Function.update_noteq hqc.symm, hmm]
      exact ⟨hcur, fun x hxc _ => by simp [Function.update_noteq hxc]⟩
  | some m =>
    have hR := mmOnly_release_mm s m
    have r1 := hR.procs
    have r2 := hR.proc_list
    have r3 := hR.hash_list
    have r4 := hR.nr_process
    have r5 := hR.last_pid
    have r6 := hR.next_safe
    have r7 := hR.idleproc
    have r8 := hR.initproc
    have r9 := hR.current
    by_cases hw : dq.wait_state = WT_CHILD
    · by_cases hst : dq.state = .PROC_SLEEPING ∨ dq.state = .PROC_UNINIT
      · simp [State.modify, State.store, State.deref, State.derefp, hc, hpar, hq, hw, hst,
          Function.update_noteq hqc, Function.update_noteq hqc.symm, wakeup_proc, State.call,
          hmm, r1, r2, r3, r4, r5, r6, r7, r8, r9]
        exact ⟨hcur, fun x hxc hxq => by
          simp [Function.update_noteq hxq, Function.update_noteq hxc]⟩
      · simp [State.modify, State.store, State.deref, State.derefp, hc, hpar, hq, hw, hst,
          Function.update_noteq hqc, Function.update_noteq hqc.symm, wakeup_proc, State.call,
          hmm, r1, r2, r3, r4, r5, r6, r7, r8, r9]
        exact ⟨hcur, fun x hxc _ => by simp [Function.update_noteq hxc]⟩
    · simp [State.modify, State.store, State.deref, State.derefp, hc, hpar, hq, hw,
        Function.update_noteq hqc, Function.update_noteq hqc.symm, hmm, r1, r2, r3, r4, r5, r6,
        r7, r8, r9]
      exact ⟨hcur, fun x hxc _ => by simp [Function.update_noteq hxc]⟩

/-- The call `do_exit(error_code)` by a task other than idle and init, from a state that
satisfies the invariant: whenever it reaches `schedule` the facts below hold, and with more
fuel than there are tasks it does reach `schedule`. -/
theorem do_exit_spec {s : State} {c : Ptr} {dc : proc_struct} (fuel : Nat) (error_code : Int)
    (hi : Inv s) (hcur : s.current = some c) (hc : s.procs c = some dc)
    (hidle : s.current ≠ s.idleproc) (hinit : s.current ≠ s.initproc) :
    (∃ i, s.initproc = some i ∧ c ≠ i ∧ ∀ s', do_exit fuel s error_code = .ok s' →
      Struct none s' ∧ Sched none s' ∧
      s'.proc_list = s.proc_list ∧ s'.hash_list = s.hash_list ∧
      s'.nr_process = s.nr_process ∧ s'.idleproc = s.idleproc ∧
      s'.initproc = s.initproc ∧ s'.current = s.current ∧
      (∃ dc', s'.procs c = some dc' ∧ dc'.state = .PROC_ZOMBIE ∧ dc'.exit_code = error_code ∧
        dc'.mm = none ∧ dc'.cptr = none ∧ dc'.pid = dc.pid ∧ dc'.parent = dc.parent) ∧
      (∀ x d, s.procs x = some d → ∃ d', s'.procs x = some d' ∧ d'.pid = d.pid ∧
        d'.parent = (if d.parent = some c then some i else d.parent) ∧ d'.kstack = d.kstack ∧
        (x ≠ c → d'.mm = d.mm ∧ d'.exit_code = d.exit_code ∧
          (d'.state = d.state ∨ d'.state = .PROC_RUNNABLE))) ∧
      (∀ x, s.procs x = none → s'.procs x = none) ∧
      (∃ sR l, sR = (match dc.mm with
          | some m => release_mm s m
          | none => s) ∧
        s'.mms = sR.mms ∧ s'.pgtab = sR.pgtab ∧ s'.log = Call.schedule :: (l ++ sR.log) ∧
        ∀ e ∈ l, ∃ t, e = Call.wakeup_proc t)) ∧
    (s.proc_list.length < fuel → ∃ s', do_exit fuel s error_code = .ok s') := by
  have hs := hi.struct
  have hsch := hi.sched
  have hcv : (s.procs c).isSome := by rw [hc]; rfl
  have hcl : c ∈ s.proc_list := by
    rcases (hs.valid c).mp hcv with h | h
    · exact h
    · rw [hcur] at hidle
      exact absurd h.symm hidle
  obtain ⟨q, hpar, hqv⟩ := hs.parent c hcl dc hc
  obtain ⟨dq, hq⟩ := Option.isSome_iff_exists.mp hqv
  have hqc : q ≠ c := by
    rintro rfl
    exact hs.noself q dc hc hpar
  obtain ⟨i, di, hinit', hil, hdi, hinz, hipar⟩ := hsch.init
  have hci : c ≠ i := by
    rintro rfl
    rw [hcur, hinit'] at hinit
    exact hinit rfl
  obtain ⟨sZ, sR, hZ, hR, a1, a2, a3, a4, a5, a6, a7, a8, a9, a10, a11, hZc, hZq, hZx⟩ :=
    do_exit_zombie_of error_code hcur hc hidle hinit hpar hqc hq
  -- every descriptor of `s` as it is in `sZ`
  have hpt : ∀ x d, s.procs x = some d → ∃ dZ, sZ.procs x = some dZ ∧ dZ.pid = d.pid ∧
      dZ.parent = d.parent ∧ dZ.cptr = d.cptr ∧ dZ.yptr = d.yptr ∧ dZ.optr = d.optr ∧
      dZ.kstack = d.kstack ∧ (x ≠ c → dZ.mm = d.mm ∧ dZ.exit_code = d.exit_code ∧
        (dZ.state = d.state ∨ dZ.state = .PROC_RUNNABLE)) ∧
      (dZ.state = .PROC_RUNNABLE → dZ.wait_state = 0) ∧
      (dZ.state = .PROC_ZOMBIE → x = c ∨ d.state = .PROC_ZOMBIE) := by
    intro x d hd
    by_cases hxc : x = c
    · subst hxc
      rw [hc] at hd
      cases hd
      exact ⟨_, hZc, rfl, rfl, rfl, rfl, rfl, rfl, fun h => absurd rfl h, by simp,
        fun _ => Or.inl rfl⟩
    · by_cases hxq : x = q
      · subst hxq
        rw [hq] at hd
        cases hd
        refine ⟨_, hZq, ?_⟩
        split_ifs with hw
        · exact ⟨rfl, rfl, rfl, rfl, rfl, rfl, fun _ => ⟨rfl, rfl, Or.inr rfl⟩, fun _ => rfl,
            by simp⟩
        · exact ⟨rfl, rfl, rfl, rfl, rfl, rfl, fun _ => ⟨rfl, rfl, Or.inl rfl⟩,
            fun h => hsch.ws x dq hq h, fun h => Or.inr h⟩
      · exact ⟨d, by rw [hZx x hxc hxq]; exact hd, rfl, rfl, rfl, rfl, rfl, rfl,
          fun _ => ⟨rfl, rfl, Or.inl rfl⟩, fun h => hsch.ws x d hd h, fun h => Or.inr h⟩
  have hpt0 : ∀ x, s.procs x = none → sZ.procs x = none := by
    intro x hd
    have hxc : x ≠ c := by rintro rfl; rw [hc] at hd; cases hd
    have hxq : x ≠ q := by rintro rfl; rw [hq] at hd; cases hd
    rw [hZx x hxc hxq]
    exact hd
  have hbackZ : ∀ x dZ, sZ.procs x = some dZ → ∃ d, s.procs x = some d ∧ dZ.pid = d.pid ∧
      dZ.parent = d.parent ∧ dZ.cptr = d.cptr ∧
      (dZ.state = .PROC_RUNNABLE → dZ.wait_state = 0) ∧
      (dZ.state = .PROC_ZOMBIE → x = c ∨ d.state = .PROC_ZOMBIE) := by
    intro x dZ hdZ
    cases hd : s.procs x with
    | none => rw [hpt0 x hd] at hdZ; cases hdZ
    | some d =>
      obtain ⟨d2, hd2, e1, e2, e3, _, _, _, _, e8, e9⟩ := hpt x d hd
      rw [hd2] at hdZ
      cases hdZ
      exact ⟨d, rfl, e1, e2, e3, e8, e9⟩
  have hcore : SameCore s sZ := by
    refine ⟨a1, a2, a3, a4, a5, a6, a7, ?_⟩
    intro x
    cases hd : s.procs x with
    | none => rw [hpt0 x hd]; trivial
    | some d =>
      obtain ⟨dZ, hdZ, e1, e2, e3, e4, e5, _⟩ := hpt x d hd
      rw [hdZ]
      exact ⟨e1, e2, e3, e4, e5⟩
  have hsZ : Struct (some c) sZ := struct_exc_intro c (struct_same_core hcore hs)
  have hschZ : Sched (some c) sZ := by
    refine ⟨?_, ?_, ?_, ?_⟩
    · intro x dZ hdZ hst
      obtain ⟨d, _, _, _, _, e4, _⟩ := hbackZ x dZ hdZ
      exact e4 hst
    · intro x dZ hdZ hst hxc
      obtain ⟨d, hd, _, _, e3, _, e5⟩ := hbackZ x dZ hdZ
      rcases e5 hst with h | h
      · exact absurd (congrArg some h) hxc
      · rw [e3]
        exact hsch.zombie x d hd h (by simp)
    · obtain ⟨dZ, hdZ, _, e2, _, _, _, _, _, _, e9⟩ := hpt i di hdi
      refine ⟨i, dZ, a7.trans hinit', by rw [a1]; exact hil, hdZ, ?_, by rw [e2, a6]; exact hipar⟩
      intro hz
      rcases e9 hz with h | h
      · exact hci h.symm
      · exact hinz h
    · intro j dZ hj hdZ hz
      rw [a6] at hj
      obtain ⟨d, hd, _, _, _, _, e5⟩ := hbackZ j dZ hdZ
      rcases e5 hz with h | h
      · subst h
        rw [hcur] at hidle
        exact hidle hj.symm
      · exact hsch.idle j d hj hd h
  have hidZ : sZ.idleproc ≠ some c := by
    rw [a6]
    rw [hcur] at hidle
    exact fun h => hidle h.symm
  have hcvZ : (sZ.procs c).isSome := by rw [hZc]; rfl
  obtain ⟨hA, hB⟩ := do_exit_reparent_spec fuel sZ hsZ hschZ (a7.trans hinit') hci hidZ hcvZ
  have hunf : do_exit fuel s error_code =
      (do_exit_reparent fuel sZ c >>= fun t => Except.ok (t.call .schedule)) := by
    unfold do_exit
    rw [hZ]
    rfl
  refine ⟨⟨i, hinit', hci, ?_⟩, ?_⟩
  · intro s' h
    rw [hunf] at h
    cases hrun : do_exit_reparent fuel sZ c with
    | error e => simp [hrun] at h
    | ok t =>
      simp only [hrun, ok_bind, Except.ok.injEq] at h
      subst h
      obtain ⟨r1, r2, ⟨dcf, hdcf, hcpf⟩, b1, b2, b3, b6, b7, b8, b9, b10, ⟨l, hl, hlw⟩, hy, hy0⟩ :=
        hA t hrun
      refine ⟨struct_of_eq r1 rfl rfl rfl rfl rfl rfl rfl, sched_of_eq r2 rfl rfl rfl rfl,
        b1.trans a1, b2.trans a2, b3.trans a3, b6.trans a6, b7.trans a7, b8.trans a8, ?_, ?_,
        fun x hd => hy0 x (hpt0 x hd), ?_⟩
      · obtain ⟨d', hd', f1, f2, f3, f4, _, f6, _⟩ := hy c _ hZc
        have hd'' : (t.call Call.schedule).procs c = some d' := hd'
        refine ⟨d', hd'', (f6 hci).1, f3, f4, ?_, f1, ?_⟩
        · rw [hdcf] at hd'
          cases hd'
          exact hcpf
        · rw [f2]
          simp [hpar, hqc]
      · intro x d hd
        obtain ⟨dZ, hdZ, e1, e2, _, _, _, e6, e7, _⟩ := hpt x d hd
        obtain ⟨d', hd', f1, f2, f3, f4, f5, _, f7⟩ := hy x dZ hdZ
        refine ⟨d', hd', f1.trans e1, by rw [f2, e2], f5.trans e6, ?_⟩
        intro hxc
        refine ⟨f4.trans (e7 hxc).1, f3.trans (e7 hxc).2.1, ?_⟩
        rcases f7 with h' | h'
        · rcases (e7 hxc).2.2 with h'' | h''
          · exact Or.inl (h'.trans h'')
          · exact Or.inr (h'.trans h'')
        · exact Or.inr h'
      · refine ⟨sR, (if dq.wait_state = WT_CHILD then l ++ [Call.wakeup_proc q] else l), hR,
          b9.trans a9, b10.trans a10, ?_, ?_⟩
        · show Call.schedule :: t.log = _
          rw [hl, a11]
          split_ifs <;> simp
        · intro e he
          split_ifs at he
          · rcases List.mem_append.mp he with h' | h'
            · exact ⟨i, hlw e h'⟩
            · exact ⟨q, by simpa using h'⟩
          · exact ⟨i, hlw e he⟩
  · intro hlen
    obtain ⟨t, ht⟩ := hB s.proc_list (by
      intro x dZ hdZ hparZ
      obtain ⟨d, hd, _, e2, _⟩ := hbackZ x dZ hdZ
      have hxv : (s.procs x).isSome := by rw [hd]; rfl
      rcases (hs.valid x).mp hxv with h | h
      · exact h
      · obtain ⟨j, dj, h1, _, h3, _, h5⟩ := hs.idle
        rw [h1] at h
        cases h
        rw [hd] at h3
        cases h3
        rw [e2, h5] at hparZ
        cases hparZ) hlen
    exact ⟨t.call .schedule, by rw [hunf, ht]; rfl⟩

end Ucore

namespace Ucore

/-! ## Steps that leave the tables alone -/

/-- A step that changes, in any descriptor, neither the pid, nor the family pointers, nor
the state, nor the reason for waiting, keeps the tables well formed. -/
theorem frame_struct_sched {exc : Option Ptr} {s s' : State} (hs : Struct exc s)
    (hsch : Sched exc s)
    (h1 : s'.proc_list = s.proc_list) (h2 : s'.hash_list = s.hash_list)
    (h3 : s'.nr_process = s.nr_process) (h4 : s'.last_pid = s.last_pid)
    (h5 : s'.next_safe = s.next_safe) (h6 : s'.idleproc = s.idleproc)
    (h7 : s'.initproc = s.initproc)
    (hx : ∀ x, s'.procs x = s.procs x ∨ ∃ d d', s.procs x = some d ∧ s'.procs x = some d' ∧
      d'.pid = d.pid ∧ d'.parent = d.parent ∧ d'.cptr = d.cptr ∧ d'.yptr = d.yptr ∧
      d'.optr = d.optr ∧ ((d'.state = d.state ∧ d'.wait_state = d.wait_state) ∨
        (d.state ≠ .PROC_ZOMBIE ∧ d'.state = .PROC_RUNNABLE ∧ d'.wait_state = 0))) :
    Struct exc s' ∧ Sched exc s' := by
  have hcore : SameCore s s' := by
    refine ⟨h1, h2, h3, h4, h5, h6, h7, ?_⟩
    intro x
    rcases hx x with h | ⟨d, d', hd, hd', e1, e2, e3, e4, e5, _⟩
    · rw [h]
      exact coreEq_refl _
    · rw [hd, hd']
      exact ⟨e1, e2, e3, e4, e5⟩
  have hback : ∀ x d', s'.procs x = some d' → ∃ d, s.procs x = some d ∧
      d'.parent = d.parent ∧ d'.cptr = d.cptr ∧
      ((d'.state = d.state ∧ d'.wait_state = d.wait_state) ∨
        (d.state ≠ .PROC_ZOMBIE ∧ d'.state = .PROC_RUNNABLE ∧ d'.wait_state = 0)) := by
    intro x d' hd'
    rcases hx x with h | ⟨d, d2, hd, hd2, _, e2, e3, _, _, e6⟩
    · exact ⟨d', by rw [← h]; exact hd', rfl, rfl, Or.inl ⟨rfl, rfl⟩⟩
    · rw [hd2] at hd'
      cases hd'
      exact ⟨d, hd, e2, e3, e6⟩
  refine ⟨struct_same_core hcore hs, ?_, ?_, ?_, ?_⟩
  · intro x d' hd' hst
    obtain ⟨d, hd, _, _, e3⟩ := hback x d' hd'
    rcases e3 with ⟨e3, e4⟩ | ⟨_, _, e4⟩
    · rw [e4]
      exact hsch.ws x d hd (e3 ▸ hst)
    · exact e4
  · intro x d' hd' hst hxe
    obtain ⟨d, hd, _, e2, e3⟩ := hback x d' hd'
    rcases e3 with ⟨e3, _⟩ | ⟨_, e3, _⟩
    · rw [e2]
      exact hsch.zombie x d hd (e3 ▸ hst) hxe
    · rw [e3] at hst
      cases hst
  · obtain ⟨n, d, a, b, c, e, f⟩ := hsch.init
    rcases hx n with h | ⟨d1, d', hd, hd', _, e2, _, _, _, e6⟩
    · exact ⟨n, d, h7.trans a, by rw [h1]; exact b, by rw [h]; exact c, e, by rw [h6]; exact f⟩
    · rw [c] at hd
      cases hd
      refine ⟨n, d', h7.trans a, by rw [h1]; exact b, hd', ?_, by rw [e2, h6]; exact f⟩
      rcases e6 with ⟨e6, _⟩ | ⟨_, e6, _⟩
      · rw [e6]
        exact e
      · rw [e6]
        simp
  · intro i d' hi hd'
    rw [h6] at hi
    obtain ⟨d, hd, _, _, e3⟩ := hback i d' hd'
    rcases e3 with ⟨e3, _⟩ | ⟨_, e3, _⟩
    · rw [e3]
      exact hsch.idle i d hi hd
    · rw [e3]
      simp

theorem frame_inv {s s' : State} (hs : Struct none s) (hsch : Sched none s)
    (h1 : s'.proc_list = s.proc_list) (h2 : s'.hash_list = s.hash_list)
    (h3 : s'.nr_process = s.nr_process) (h4 : s'.last_pid = s.last_pid)
    (h5 : s'.next_safe = s.next_safe) (h6 : s'.idleproc = s.idleproc)
    (h7 : s'.initproc = s.initproc)
    (hx : ∀ x, s'.procs x = s.procs x ∨ ∃ d d', s.procs x = some d ∧ s'.procs x = some d' ∧
      d'.pid = d.pid ∧ d'.parent = d.parent ∧ d'.cptr = d.cptr ∧ d'.yptr = d.yptr ∧
      d'.optr = d.optr ∧ ((d'.state = d.state ∧ d'.wait_state = d.wait_state) ∨
        (d.state ≠ .PROC_ZOMBIE ∧ d'.state = .PROC_RUNNABLE ∧ d'.wait_state = 0)))
    (hc : CurOk s') : Inv s' :=
  ⟨(frame_struct_sched hs hsch h1 h2 h3 h4 h5 h6 h7 hx).1,
    (frame_struct_sched hs hsch h1 h2 h3 h4 h5 h6 h7 hx).2, hc⟩

/-- The scheduler switching to a RUNNABLE task re-establishes the invariant. -/
theorem schedule_inv {s s' : State} {next : Ptr} (hs : Struct none s) (hsch : Sched none s)
    (hr : Runnable s next) (h : schedule s next = .ok s') : Inv s' := by
  obtain ⟨dn, hdn, hrun⟩ := hr
  unfold schedule at h
  cases hcur : s.current with
  | none => simp [hcur] at h
  | some c =>
    cases hc : s.procs c with
    | none => simp [hcur, State.modify, hc] at h
    | some dc =>
      by_cases hnc : next = c
      · subst hnc
        rw [hc] at hdn
        cases hdn
        simp [hcur, State.modify, hc, State.store, proc_run, State.deref, State.call] at h
        subst h
        refine frame_inv hs hsch rfl rfl rfl rfl rfl rfl rfl ?_
          ⟨next, { dn with need_resched := 0, runs := dn.runs + 1 }, rfl, by simp, hrun⟩
        intro x
        by_cases hxn : x = next
        · subst hxn
          exact Or.inr ⟨dn, { dn with need_resched := 0, runs := dn.runs + 1 }, hc, by simp,
            rfl, rfl, rfl, rfl, rfl, Or.inl ⟨rfl, rfl⟩⟩
        · exact Or.inl (by simp [Function.update_noteq hxn])
      · simp [hcur, State.modify, hc, State.store, proc_run, State.deref, State.call,
          Function.update_noteq hnc, hdn, hnc] at h
        subst h
        refine frame_inv hs hsch rfl rfl rfl rfl rfl rfl rfl ?_
          ⟨next, { dn with runs := dn.runs + 1 }, rfl, by simp, hrun⟩
        intro x
        by_cases hxn : x = next
        · subst hxn
          exact Or.inr ⟨dn, { dn with runs := dn.runs + 1 }, hdn, by simp,
            rfl, rfl, rfl, rfl, rfl, Or.inl ⟨rfl, rfl⟩⟩
        · by_cases hxc : x = c
          · subst hxc
            exact Or.inr ⟨dc, { dc with need_resched := 0 }, hc,
              by simp [Function.update_noteq hxn], rfl, rfl, rfl, rfl, rfl, Or.inl ⟨rfl, rfl⟩⟩
          · exact Or.inl (by simp [Function.update_noteq hxn, Function.update_noteq hxc])

/-- `do_yield` keeps the invariant. -/
theorem do_yield_inv {s s' : State} {r : Int} (hi : Inv s) (h : do_yield s = .ok (r, s')) :
    Inv s' := by
  obtain ⟨c, dc, hcur, hc, hrun⟩ := hi.cur
  unfold do_yield at h
  simp [hcur, State.modify, hc] at h
  obtain ⟨-, rfl⟩ := h
  refine frame_inv hi.struct hi.sched rfl rfl rfl rfl rfl rfl rfl ?_
    ⟨c, { dc with need_resched := 1 }, hcur, store_procs_same _ _ _, hrun⟩
  intro x
  by_cases hxc : x = c
  · subst hxc
    exact Or.inr ⟨dc, { dc with need_resched := 1 }, hc, store_procs_same _ _ _, rfl, rfl,
      rfl, rfl, rfl, Or.inl ⟨rfl, rfl⟩⟩
  · exact Or.inl (store_procs_ne _ _ hxc)

/-- `do_kill` keeps the invariant. -/
theorem do_kill_inv {s s' : State} {pid r : Int} (hi : Inv s) (h : do_kill s pid = .ok (r, s')) :
    Inv s' := by
  obtain ⟨c, dc, hcur, hc, hrun⟩ := hi.cur
  obtain ⟨r0, hf, -⟩ := find_proc_total hi.struct pid
  obtain ⟨hsome, hnone⟩ := do_kill_effect_aux s pid
  cases r0 with
  | none =>
    rw [hnone hf] at h
    cases h
    exact hi
  | some p =>
    obtain ⟨d, hd, -, hk, hset⟩ := hsome p hf
    by_cases hfl : d.flags &&& PF_EXITING = 0
    swap
    · rw [hk hfl] at h
      cases h
      exact hi
    obtain ⟨-, hnw, hw⟩ := hset hfl
    have hcur_state : ∀ d' : proc_struct, (d'.state = d.state ∨ d'.state = .PROC_RUNNABLE) →
        p = c → d'.state = .PROC_RUNNABLE := by
      intro d' hst hpc
      subst hpc
      rw [hc] at hd
      cases hd
      rcases hst with h1 | h1
      · rw [h1]; exact hrun
      · exact h1
    by_cases hint : d.wait_state &&& WT_INTERRUPTED = 0
    · rw [hnw hint] at h
      cases h
      refine frame_inv hi.struct hi.sched rfl rfl rfl rfl rfl rfl rfl ?_ ?_
      · intro x
        by_cases hxp : x = p
        · subst hxp
          exact Or.inr ⟨d, { d with flags := d.flags ||| PF_EXITING }, hd,
            store_procs_same _ _ _, rfl, rfl, rfl, rfl, rfl, Or.inl ⟨rfl, rfl⟩⟩
        · exact Or.inl (store_procs_ne _ _ hxp)
      · by_cases hpc : p = c
        · exact ⟨c, { d with flags := d.flags ||| PF_EXITING }, hcur,
            by rw [← hpc]; exact store_procs_same _ _ _, hcur_state _ (Or.inl rfl) hpc⟩
        · exact ⟨c, dc, hcur, by rw [store_procs_ne _ _ (Ne.symm hpc)]; exact hc, hrun⟩
    · obtain ⟨s2, hwk, hk2, -⟩ := hw hint
      rw [hk2] at h
      cases h
      rw [wakeup_proc_of (store_procs_same s p { d with flags := d.flags ||| PF_EXITING })] at hwk
      simp only [Except.ok.injEq] at hwk
      by_cases hst : d.state = .PROC_SLEEPING ∨ d.state = .PROC_UNINIT
      · rw [if_pos hst] at hwk
        subst hwk
        have hnz : d.state ≠ .PROC_ZOMBIE := by
          rcases hst with h1 | h1 <;> rw [h1] <;> simp
        refine frame_inv hi.struct hi.sched rfl rfl rfl rfl rfl rfl rfl ?_ ?_
        · intro x
          by_cases hxp : x = p
          · subst hxp
            exact Or.inr ⟨d, { d with flags := d.flags ||| PF_EXITING, state := .PROC_RUNNABLE, wait_state := 0 }, hd,
              by simp [State.call, State.store], rfl, rfl, rfl, rfl, rfl,
              Or.inr ⟨hnz, rfl, rfl⟩⟩
          · exact Or.inl (by simp [State.call, State.store, Function.update_noteq hxp])
        · by_cases hpc : p = c
          · exact ⟨c, { d with flags := d.flags ||| PF_EXITING, state := .PROC_RUNNABLE, wait_state := 0 }, hcur,
              by rw [← hpc]; simp [State.call, State.store], rfl⟩
          · exact ⟨c, dc, hcur,
              by simp [State.call, State.store, Function.update_noteq (Ne.symm hpc), hc], hrun⟩
      · rw [if_neg hst] at hwk
        subst hwk
        refine frame_inv hi.struct hi.sched rfl rfl rfl rfl rfl rfl rfl ?_ ?_
        · intro x
          by_cases hxp : x = p
          · subst hxp
            exact Or.inr ⟨d, { d with flags := d.flags ||| PF_EXITING }, hd,
              by simp [State.call, State.store], rfl, rfl, rfl, rfl, rfl, Or.inl ⟨rfl, rfl⟩⟩
          · exact Or.inl (by simp [State.call, State.store, Function.update_noteq hxp])
        · by_cases hpc : p = c
          · exact ⟨c, { d with flags := d.flags ||| PF_EXITING }, hcur,
              by rw [← hpc]; simp [State.call, State.store], hcur_state _ (Or.inl rfl) hpc⟩
          · exact ⟨c, dc, hcur,
              by simp [State.call, State.store, Function.update_noteq (Ne.symm hpc), hc], hrun⟩

end Ucore

namespace Ucore

/-! ## What `load_icode` leaves alone -/

/-- The state a loop of `load_icode` leaves off with. -/
theorem mmOnly_load_copy (env : ExecEnv) (img : binary) (pgdir : Option Nat) (perm end_ : Nat) :
    ∀ (fuel : Nat) (s : State) (start la src : Nat) (page : Option Nat) (r : LoadStep),
      load_copy env img pgdir perm end_ fuel s start la src page = .ok r →
      (∀ t, r = .bad t → MmOnly s t) ∧ (∀ t a b c, r = .next t a b c → MmOnly s t) := by
  intro fuel
  induction fuel with
  | zero => intro s start la src page r h; simp [load_copy] at h
  | succ fuel ih =>
    intro s start la src page r h
    unfold load_copy at h
    split_ifs at h with hlt
    · cases hpa : env.page_alloc la with
      | none =>
        simp only [pgdir_alloc_page, hpa] at h
        cases h
        refine ⟨?_, ?_⟩
        · intro t ht
          cases ht
          exact mmOnly_call _ _
        · intro t a b c ht
          cases ht
      | some data =>
        have h1 := mmOnly_pgdir_alloc_page s pgdir la perm (some data)
        simp only [pgdir_alloc_page, hpa] at h h1
        obtain ⟨r1, r2⟩ := ih _ _ _ _ _ r h
        exact ⟨fun t ht => (h1.trans (mmOnly_page_memcpy _ _ _ _ _ _)).trans (r1 t ht),
          fun t a b c ht => (h1.trans (mmOnly_page_memcpy _ _ _ _ _ _)).trans (r2 t a b c ht)⟩
    · cases h
      refine ⟨?_, ?_⟩
      · intro t ht
        cases ht
      · intro t a b c ht
        cases ht
        exact MmOnly.refl _

theorem mmOnly_load_bss (env : ExecEnv) (pgdir : Option Nat) (perm end_ : Nat) :
    ∀ (fuel : Nat) (s : State) (start la : Nat) (page : Option Nat) (r : LoadStep),
      load_bss env pgdir perm end_ fuel s start la page = .ok r →
      (∀ t, r = .bad t → MmOnly s t) ∧ (∀ t a b c, r = .next t a b c → MmOnly s t) := by
  intro fuel
  induction fuel with
  | zero => intro s start la page r h; simp [load_bss] at h
  | succ fuel ih =>
    intro s start la page r h
    unfold load_bss at h
    split_ifs at h with hlt
    · cases hpa : env.page_alloc la with
      | none =>
        simp only [pgdir_alloc_page, hpa] at h
        cases h
        refine ⟨?_, ?_⟩
        · intro t ht
          cases ht
          exact mmOnly_call _ _
        · intro t a b c ht
          cases ht
      | some data =>
        have h1 := mmOnly_pgdir_alloc_page s pgdir la perm (some data)
        simp only [pgdir_alloc_page, hpa] at h h1
        obtain ⟨r1, r2⟩ := ih _ _ _ _ r h
        exact ⟨fun t ht => (h1.trans (mmOnly_page_memset _ _ _ _ _)).trans (r1 t ht),
          fun t a b c ht => (h1.trans (mmOnly_page_memset _ _ _ _ _)).trans (r2 t a b c ht)⟩
    · cases h
      refine ⟨?_, ?_⟩
      · intro t ht
        cases ht
      · intro t a b c ht
        cases ht
        exact MmOnly.refl _

theorem mmOnly_load_tail {s t : State} {pgdir : Option Nat} {end_ start la : Nat}
    {page : Option Nat} {r : Option Nat}
    (h : load_tail s pgdir end_ start la page = .ok (r, t)) : MmOnly s t := by
  unfold load_tail at h
  by_cases ha : start < la
  · rw [if_pos ha] at h
    by_cases hb : start = end_
    · rw [if_pos hb] at h
      cases h
      exact MmOnly.refl _
    · rw [if_neg hb] at h
      cases page with
      | none => simp at h
      | some pg =>
        simp only at h
        split_ifs at h
        all_goals (cases h; exact mmOnly_page_memset _ _ _ _ _)
  · rw [if_neg ha] at h
    cases h
    exact MmOnly.refl _

theorem mmOnly_load_pages {fuel : Nat} {s t : State} {env : ExecEnv} {img : binary}
    {pgdir : Option Nat} {ph : proghdr} {r : Int}
    (h : load_pages fuel s env img pgdir ph = .ok (r, t)) : MmOnly s t := by
  unfold load_pages at h
  cases hc : load_copy env img pgdir (seg_perm ph)
      (wrap32 (ph.p_va + ph.p_filesz)) fuel s ph.p_va (ROUNDDOWN ph.p_va PGSIZE)
      ph.p_offset none with
  | error e => simp [hc] at h
  | ok step =>
    obtain ⟨c1, c2⟩ := mmOnly_load_copy _ _ _ _ _ _ _ _ _ _ _ _ hc
    simp only [hc, ok_bind] at h
    cases step with
    | bad s2 =>
      simp only at h
      cases h
      exact c1 _ rfl
    | next s2 start la page =>
      have h2 : MmOnly s s2 := c2 _ _ _ _ rfl
      simp only at h
      cases ht : load_tail s2 pgdir (wrap32 (ph.p_va + ph.p_memsz)) start la page with
      | error e => simp [ht] at h
      | ok x =>
        obtain ⟨o, s3⟩ := x
        have h3 : MmOnly s s3 := h2.trans (mmOnly_load_tail ht)
        simp only [ht, ok_bind] at h
        cases o with
        | none =>
          simp only at h
          cases h
          exact h3
        | some start2 =>
          simp only at h
          cases hb2 : load_bss env pgdir (seg_perm ph) (wrap32 (ph.p_va + ph.p_memsz)) fuel s3
              start2 la page with
          | error e => simp [hb2] at h
          | ok step2 =>
            obtain ⟨d1, d2⟩ := mmOnly_load_bss _ _ _ _ _ _ _ _ _ _ hb2
            simp only [hb2, ok_bind] at h
            cases step2 with
            | bad s4 =>
              simp only at h
              cases h
              exact h3.trans (d1 _ rfl)
            | next s4 a b c =>
              simp only at h
              cases h
              exact h3.trans (d2 _ _ _ _ rfl)

theorem mmOnly_load_segment {fuel : Nat} {s t : State} {env : ExecEnv} {img : binary}
    {mm : Nat} {ph : proghdr} {r : Int}
    (h : load_segment fuel s env img mm ph = .ok (r, t)) : MmOnly s t := by
  unfold load_segment at h
  have h1 := mmOnly_mm_map s mm ph.p_va ph.p_memsz (seg_vm_flags ph) (env.vma_create ph.p_va)
  revert h h1
  cases mm_map s mm ph.p_va ph.p_memsz (seg_vm_flags ph) (env.vma_create ph.p_va) with
  | mk r1 s1 =>
    intro h h1
    simp only at h h1
    split_ifs at h with hr1
    · cases h
      exact h1
    · exact h1.trans (mmOnly_load_pages h)

theorem mmOnly_load_segments {fuel : Nat} {env : ExecEnv} {img : binary} {mm : Nat} :
    ∀ (l : List proghdr) (s t : State) (r : Int),
      load_segments fuel env img mm s l = .ok (r, t) → MmOnly s t := by
  intro l
  induction l with
  | nil =>
    intro s t r h
    simp only [load_segments] at h
    cases h
    exact MmOnly.refl _
  | cons ph rest ih =>
    intro s t r h
    unfold load_segments at h
    split_ifs at h with h1 h2 h3
    · exact ih _ _ _ h
    · cases h
      exact MmOnly.refl _
    · exact ih _ _ _ h
    · cases hseg : load_segment fuel s env img mm ph with
      | error e => simp [hseg] at h
      | ok x =>
        obtain ⟨r1, s1⟩ := x
        simp only [hseg] at h
        split_ifs at h with h4
        · cases h
          exact mmOnly_load_segment hseg
        · exact (mmOnly_load_segment hseg).trans (ih _ _ _ h)

theorem mmOnly_load_stack_page {s t : State} {env : ExecEnv} {mm la : Nat}
    (h : load_stack_page s env mm la = .ok t) : MmOnly s t := by
  unfold load_stack_page at h
  have h1 := mmOnly_pgdir_alloc_page s (s.mms mm).pgdir la PTE_USER (env.page_alloc la)
  revert h h1
  cases pgdir_alloc_page s (s.mms mm).pgdir la PTE_USER (env.page_alloc la) with
  | mk o s1 =>
    cases o with
    | none => intro h; simp at h
    | some pg =>
      intro h h1
      simp only at h h1
      cases h
      exact h1

theorem mmOnly_load_bad_cleanup_mmap (s : State) (m : Nat) :
    MmOnly s (load_bad_cleanup_mmap s m) :=
  ((mmOnly_exit_mmap s m).trans (mmOnly_put_pgdir _ m)).trans (mmOnly_mm_destroy _ m)

/-- Steps (5) and (6) of `load_icode` touch the descriptor of the current task in its
fields `mm` and `cr3` only, and the trap frame it points to. -/
theorem load_finish_frame {t t' : State} {m c e : Nat} {r : Int} {d : proc_struct}
    (hd : t.procs c = some d) (h : load_finish t m c e = .ok (r, t')) :
    r = 0 ∧ t'.proc_list = t.proc_list ∧ t'.hash_list = t.hash_list ∧
      t'.nr_process = t.nr_process ∧ t'.last_pid = t.last_pid ∧ t'.next_safe = t.next_safe ∧
      t'.idleproc = t.idleproc ∧ t'.initproc = t.initproc ∧ t'.current = t.current ∧
      t'.pgtab = t.pgtab ∧ t'.mms = (mm_count_inc t m).mms ∧
      t'.procs = Function.update t.procs c
        (some { d with mm := some m, cr3 := PADDR (((mm_count_inc t m).mms m).pgdir.getD 0) }) := by
  unfold load_finish at h
  cases htf : d.tf with
  | none =>
    simp [mm_count_inc, State.storemm, State.modify, hd, State.store, State.deref, State.call,
      htf] at h
  | some tf =>
    simp [mm_count_inc, State.storemm, State.modify, hd, State.store, State.deref, State.call,
      htf] at h
    obtain ⟨rfl, rfl⟩ := h
    simp [mm_count_inc, State.storemm]

/-- What `load_icode` changes outside the memory manager: nothing when it fails, and the
fields `mm` and `cr3` of the current task and its trap frame when it succeeds. -/
theorem load_icode_frame {fuel : Nat} {s s' : State} {env : ExecEnv} {img : binary} {r : Int}
    {c : Ptr} {dc : proc_struct} (hcur : s.current = some c) (hc : s.procs c = some dc)
    (h : load_icode fuel s env img = .ok (r, s')) :
    s'.proc_list = s.proc_list ∧ s'.hash_list = s.hash_list ∧
      s'.nr_process = s.nr_process ∧ s'.last_pid = s.last_pid ∧ s'.next_safe = s.next_safe ∧
      s'.idleproc = s.idleproc ∧ s'.initproc = s.initproc ∧ s'.current = s.current ∧
      ((r ≠ 0 ∧ s'.procs = s.procs ∧ s'.tfmem = s.tfmem) ∨
        (r = 0 ∧ ∃ m pa, s'.procs = Function.update s.procs c
          (some { dc with mm := some m, cr3 := pa }))) := by
  have fail : ∀ t : State, MmOnly s t → r ≠ 0 → s' = t →
      s'.proc_list = s.proc_list ∧ s'.hash_list = s.hash_list ∧
      s'.nr_process = s.nr_process ∧ s'.last_pid = s.last_pid ∧ s'.next_safe = s.next_safe ∧
      s'.idleproc = s.idleproc ∧ s'.initproc = s.initproc ∧ s'.current = s.current ∧
      ((r ≠ 0 ∧ s'.procs = s.procs ∧ s'.tfmem = s.tfmem) ∨
        (r = 0 ∧ ∃ m pa, s'.procs = Function.update s.procs c
          (some { dc with mm := some m, cr3 := pa }))) := by
    intro t ht hr hst
    subst hst
    exact ⟨ht.proc_list, ht.hash_list, ht.nr_process, ht.last_pid, ht.next_safe, ht.idleproc,
      ht.initproc, ht.current, Or.inl ⟨hr, ht.procs, ht.tfmem⟩⟩
  unfold load_icode at h
  simp only [hcur, ok_bind, State.deref, hc] at h
  by_cases hmm : dc.mm ≠ none
  · rw [if_pos hmm] at h
    cases h
  rw [if_neg hmm] at h
  have h1 := mmOnly_mm_create s env.mm_create
  revert h h1
  cases mm_create s env.mm_create with
  | mk om s1 =>
    cases om with
    | none =>
      intro h h1
      simp only [Except.ok.injEq, Prod.mk.injEq] at h
      exact fail s1 h1 (by rw [← h.1]; simp [E_NO_MEM]) h.2.symm
    | some m =>
      intro h h1
      simp only at h h1
      have h2 := mmOnly_setup_pgdir s1 env.alloc_page m
      revert h h2
      cases setup_pgdir s1 env.alloc_page m with
      | mk r2 s2 =>
        intro h h2
        simp only at h h2
        have h12 := h1.trans h2
        by_cases hr2 : r2 ≠ 0
        · rw [if_pos hr2] at h
          simp only [Except.ok.injEq, Prod.mk.injEq] at h
          exact fail _ (h12.trans (mmOnly_mm_destroy _ _)) (by rw [← h.1]; simp [E_NO_MEM])
            h.2.symm
        rw [if_neg hr2] at h
        by_cases hmagic : img.e_magic ≠ ELF_MAGIC
        · rw [if_pos hmagic] at h
          simp only [Except.ok.injEq, Prod.mk.injEq] at h
          exact fail _ ((h12.trans (mmOnly_put_pgdir _ _)).trans (mmOnly_mm_destroy _ _))
            (by rw [← h.1]; simp [E_INVAL_ELF]) h.2.symm
        rw [if_neg hmagic] at h
        · cases hseg : load_segments fuel env img m s2 img.ph with
          | error e => simp [hseg] at h
          | ok x =>
            obtain ⟨r3, s3⟩ := x
            have h3 := h12.trans (mmOnly_load_segments _ _ _ _ hseg)
            simp only [hseg, ok_bind] at h
            by_cases hr3 : r3 ≠ 0
            · rw [if_pos hr3] at h
              simp only [Except.ok.injEq, Prod.mk.injEq] at h
              exact fail _ (h3.trans (mmOnly_load_bad_cleanup_mmap _ _)) (by rw [← h.1]; exact hr3)
                h.2.symm
            rw [if_neg hr3] at h
            · have h4 := mmOnly_mm_map s3 m (USTACKTOP - USTACKSIZE) USTACKSIZE
                (VM_READ ||| VM_WRITE ||| VM_STACK) (env.vma_create (USTACKTOP - USTACKSIZE))
              revert h h4
              cases mm_map s3 m (USTACKTOP - USTACKSIZE) USTACKSIZE
                (VM_READ ||| VM_WRITE ||| VM_STACK) (env.vma_create (USTACKTOP - USTACKSIZE)) with
              | mk r4 s4 =>
                intro h h4
                simp only at h h4
                have h34 := h3.trans h4
                by_cases hr4 : r4 ≠ 0
                · rw [if_pos hr4] at h
                  simp only [Except.ok.injEq, Prod.mk.injEq] at h
                  exact fail _ (h34.trans (mmOnly_load_bad_cleanup_mmap _ _))
                    (by rw [← h.1]; exact hr4) h.2.symm
                rw [if_neg hr4] at h
                · cases hp1 : load_stack_page s4 env m (USTACKTOP - PGSIZE) with
                  | error e => simp [hp1] at h
                  | ok s5 =>
                    simp only [hp1, ok_bind] at h
                    cases hp2 : load_stack_page s5 env m (USTACKTOP - 2 * PGSIZE) with
                    | error e => simp [hp2] at h
                    | ok s6 =>
                      simp only [hp2, ok_bind] at h
                      cases hp3 : load_stack_page s6 env m (USTACKTOP - 3 * PGSIZE) with
                      | error e => simp [hp3] at h
                      | ok s7 =>
                        simp only [hp3, ok_bind] at h
                        cases hp4 : load_stack_page s7 env m (USTACKTOP - 4 * PGSIZE) with
                        | error e => simp [hp4] at h
                        | ok s8 =>
                          simp only [hp4, ok_bind] at h
                          have h8 : MmOnly s s8 :=
                            (((h34.trans (mmOnly_load_stack_page hp1)).trans
                              (mmOnly_load_stack_page hp2)).trans
                              (mmOnly_load_stack_page hp3)).trans (mmOnly_load_stack_page hp4)
                          have hd8 : s8.procs c = some dc := by rw [h8.procs]; exact hc
                          obtain ⟨e0, e1, e2, e3, e4, e5, e6, e7, e8, -, -, e9⟩ :=
                            load_finish_frame hd8 h
                          exact ⟨e1.trans h8.proc_list, e2.trans h8.hash_list,
                            e3.trans h8.nr_process, e4.trans h8.last_pid,
                            e5.trans h8.next_safe, e6.trans h8.idleproc, e7.trans h8.initproc,
                            e8.trans h8.current,
                            Or.inr ⟨e0, m, _, by rw [e9, h8.procs]⟩⟩

end Ucore

namespace Ucore

/-! ## The invariant holds in every reachable state -/

theorem do_exit_panics {s : State} (fuel : Nat) (error_code : Int)
    (h : s.current = s.idleproc ∨ s.current = s.initproc) :
    ∃ e, do_exit fuel s error_code = .error e := by
  unfold do_exit do_exit_zombie
  by_cases h1 : s.current = s.idleproc
  · rw [if_pos h1]
    exact ⟨_, rfl⟩
  · rw [if_neg h1]
    have h2 : s.current = s.initproc := h.resolve_left h1
    rw [if_pos h2]
    exact ⟨_, rfl⟩

/-- Every run of `do_exit` that reaches `schedule` leaves the tables well formed. -/
theorem do_exit_inv {s s' : State} {fuel : Nat} {error_code : Int} (hi : Inv s)
    (h : do_exit fuel s error_code = .ok s') : Struct none s' ∧ Sched none s' := by
  obtain ⟨c, dc, hcur, hc, -⟩ := hi.cur
  by_cases h1 : s.current = s.idleproc
  · obtain ⟨e, he⟩ := do_exit_panics fuel error_code (Or.inl h1)
    rw [he] at h
    cases h
  by_cases h2 : s.current = s.initproc
  · obtain ⟨e, he⟩ := do_exit_panics fuel error_code (Or.inr h2)
    rw [he] at h
    cases h
  obtain ⟨⟨i, -, -, hA⟩, -⟩ := do_exit_spec fuel error_code hi hcur hc h1 h2
  obtain ⟨r1, r2, -⟩ := hA s' h
  exact ⟨r1, r2⟩

/-- Every run of `do_execve` that comes to its end leaves the tables well formed; when it
returns to the caller, the current task is still RUNNABLE. -/
theorem do_execve_inv {s s' : State} {fuel : Nat} {env : ExecEnv} {umc : Bool}
    {name : List Nat} {len : Nat} {img : binary} {res : ExecResult} (hi : Inv s)
    (h : do_execve fuel s env umc name len img = .ok (res, s')) :
    Struct none s' ∧ Sched none s' ∧ (res ≠ .exited → CurOk s') := by
  obtain ⟨c, dc, hcur, hc, hrun⟩ := hi.cur
  unfold do_execve at h
  simp only [hcur, ok_bind, State.deref, hc] at h
  by_cases humc : umc = false
  · rw [if_pos humc] at h
    cases h
    exact ⟨hi.struct, hi.sched, fun _ => hi.cur⟩
  rw [if_neg humc] at h
  -- from the call of `load_icode` on
  have tail : ∀ (s1 s2 : State) (d1 : proc_struct) (ret : Int), Inv s1 → s1.current = some c →
      s1.procs c = some d1 → d1.state = .PROC_RUNNABLE →
      load_icode fuel s1 env img = .ok (ret, s2) →
      (if ret ≠ 0 then do_exit fuel s2 ret >>= fun t => Except.ok (ExecResult.exited, t)
        else set_proc_name s2 c (name.take (if len > PROC_NAME_LEN then PROC_NAME_LEN else len))
          >>= fun t => Except.ok (ExecResult.returned 0, t)) = .ok (res, s') →
      Struct none s' ∧ Sched none s' ∧ (res ≠ .exited → CurOk s') := by
    intro s1 s2 d1 ret hi1 hcur1 hc1 hrun1 hload h
    obtain ⟨e1, e2, e3, e4, e5, e6, e7, e8, e9⟩ := load_icode_frame hcur1 hc1 hload
    have hi2 : Inv s2 ∧ ∃ d2, s2.procs c = some d2 ∧ d2.state = .PROC_RUNNABLE := by
      rcases e9 with ⟨-, hp, -⟩ | ⟨-, m, pa, hp⟩
      · refine ⟨frame_inv hi1.struct hi1.sched e1 e2 e3 e4 e5 e6 e7 (fun x => Or.inl (by rw [hp]))
          ⟨c, d1, e8.trans hcur1, by rw [hp]; exact hc1, hrun1⟩, d1, by rw [hp]; exact hc1, hrun1⟩
      · have hc2 : s2.procs c = some { d1 with mm := some m, cr3 := pa } := by rw [hp]; simp
        refine ⟨frame_inv hi1.struct hi1.sched e1 e2 e3 e4 e5 e6 e7 ?_
          ⟨c, { d1 with mm := some m, cr3 := pa }, e8.trans hcur1, hc2, hrun1⟩, _, hc2, hrun1⟩
        intro x
        by_cases hxc : x = c
        · subst hxc
          exact Or.inr ⟨d1, { d1 with mm := some m, cr3 := pa }, hc1, hc2, rfl, rfl, rfl,
            rfl, rfl, Or.inl ⟨rfl, rfl⟩⟩
        · exact Or.inl (by rw [hp, Function.update_noteq hxc])
    obtain ⟨hi2, d2, hc2, hrun2⟩ := hi2
    by_cases hret : ret ≠ 0
    · rw [if_pos hret] at h
      cases hex : do_exit fuel s2 ret with
      | error e => simp [hex] at h
      | ok s3 =>
        simp only [hex, ok_bind, Except.ok.injEq, Prod.mk.injEq] at h
        obtain ⟨rfl, rfl⟩ := h
        obtain ⟨r1, r2⟩ := do_exit_inv hi2 hex
        exact ⟨r1, r2, fun hne => absurd rfl hne⟩
    · rw [if_neg hret] at h
      simp only [set_proc_name, modify_of hc2, ok_bind, Except.ok.injEq, Prod.mk.injEq] at h
      obtain ⟨-, rfl⟩ := h
      have hfin : Inv (s2.store c { d2 with name := ((name.take
          (if len > PROC_NAME_LEN then PROC_NAME_LEN else len)) ++
          List.replicate PROC_NAME_LEN 0).take PROC_NAME_LEN ++ [0] }) := by
        refine frame_inv hi2.struct hi2.sched rfl rfl rfl rfl rfl rfl rfl ?_
          ⟨c, _, e8.trans hcur1, store_procs_same _ _ _, hrun2⟩
        intro x
        by_cases hxc : x = c
        · subst hxc
          exact Or.inr ⟨d2, _, hc2, store_procs_same _ _ _, rfl, rfl, rfl,
            rfl, rfl, Or.inl ⟨rfl, rfl⟩⟩
        · exact Or.inl (store_procs_ne _ _ hxc)
      exact ⟨hfin.struct, hfin.sched, fun _ => hfin.cur⟩
  cases hmm : dc.mm with
  | none =>
    simp only [hmm, ok_bind] at h
    cases hload : load_icode fuel s env img with
    | error e => simp [hload] at h
    | ok x =>
      obtain ⟨ret, s2⟩ := x
      simp only [hload, ok_bind] at h
      exact tail s s2 dc ret hi hcur hc hrun hload h
  | some m =>
    have hR := mmOnly_release_mm s m
    have hcR : (release_mm s m).procs c = some dc := by rw [hR.procs]; exact hc
    simp only [hmm, modify_of hcR, ok_bind] at h
    have hi1 : Inv ((release_mm s m).store c { dc with mm := none }) := by
      refine frame_inv hi.struct hi.sched hR.proc_list hR.hash_list hR.nr_process hR.last_pid
        hR.next_safe hR.idleproc hR.initproc ?_
        ⟨c, { dc with mm := none }, hR.current.trans hcur, store_procs_same _ _ _, hrun⟩
      intro x
      by_cases hxc : x = c
      · subst hxc
        exact Or.inr ⟨dc, { dc with mm := none }, hc, store_procs_same _ _ _, rfl, rfl, rfl,
          rfl, rfl, Or.inl ⟨rfl, rfl⟩⟩
      · exact Or.inl (by rw [store_procs_ne _ _ hxc, hR.procs])
    cases hload : load_icode fuel ((release_mm s m).store c { dc with mm := none }) env img with
    | error e => simp [hload] at h
    | ok x =>
      obtain ⟨ret, s2⟩ := x
      simp only [hload, ok_bind] at h
      exact tail _ s2 { dc with mm := none } ret hi1 (hR.current.trans hcur)
        (store_procs_same _ _ _) hrun hload h

/-- The invariant of the task manager holds in every reachable state. -/
theorem reachable_inv {s : State} (h : Reachable s) : Inv s := by
  induction h with
  | init fuel s0 s env hb hne hrun => exact proc_init_inv hb hne hrun
  | fork fuel s s' env cf st tf r _ hfresh _ hrun ih => exact do_fork_inv ih hfresh hrun
  | exit fuel s s1 s' ec next _ hrun hnext hsched ih =>
    obtain ⟨r1, r2⟩ := do_exit_inv ih hrun
    exact schedule_inv r1 r2 hnext hsched
  | wait_return fuel s s' umc pid cs r _ hrun ih =>
    obtain ⟨r1, r2, r3⟩ := do_wait_inv ih hrun
    exact ⟨r1, r2, r3 (by simp)⟩
  | wait_sleep fuel s s1 s' umc pid cs next _ hrun hnext hsched ih =>
    obtain ⟨r1, r2, -⟩ := do_wait_inv ih hrun
    exact schedule_inv r1 r2 hnext hsched
  | kill s s' pid r _ hrun ih => exact do_kill_inv ih hrun
  | yield s s' r _ hrun ih => exact do_yield_inv ih hrun
  | resched s s' next _ hnext hsched ih => exact schedule_inv ih.struct ih.sched hnext hsched
  | execve_return fuel s s' env umc name len img r _ _ hrun ih =>
    obtain ⟨r1, r2, r3⟩ := do_execve_inv ih hrun
    exact ⟨r1, r2, r3 (by simp)⟩
  | execve_exit fuel s s1 s' env umc name len img next _ _ hrun hnext hsched ih =>
    obtain ⟨r1, r2, -⟩ := do_execve_inv ih hrun
    exact schedule_inv r1 r2 hnext hsched

end Ucore

namespace Ucore

/-! ## The small machine -/

/-- What a switch by the scheduler does to the descriptors: nothing the task manager's
claims are about. -/
theorem schedule_of {s : State} {c next : Ptr} {dc dn : proc_struct}
    (hcur : s.current = some c) (hc : s.procs c = some dc) (hn : s.procs next = some dn) :
    ∃ s', schedule s next = .ok s' ∧ s'.current = some next ∧
      s'.proc_list = s.proc_list ∧ s'.hash_list = s.hash_list ∧
      s'.nr_process = s.nr_process ∧ s'.idleproc = s.idleproc ∧ s'.initproc = s.initproc ∧
      (∀ x, s.procs x = none → s'.procs x = none) ∧
      (∀ x d, s.procs x = some d → ∃ d', s'.procs x = some d' ∧ d'.pid = d.pid ∧
        d'.parent = d.parent ∧ d'.cptr = d.cptr ∧ d'.yptr = d.yptr ∧ d'.optr = d.optr ∧
        d'.state = d.state ∧ d'.wait_state = d.wait_state ∧ d'.mm = d.mm ∧
        d'.exit_code = d.exit_code ∧ d'.flags = d.flags ∧ d'.kstack = d.kstack) := by
  unfold schedule
  by_cases hnc : next = c
  · subst hnc
    rw [hc] at hn
    cases hn
    simp [hcur, State.modify, hc, State.store, proc_run, State.deref, State.call]
    refine ⟨?_, ?_⟩
    · intro x hx
      have hxn : x ≠ next := by rintro rfl; rw [hc] at hx; cases hx
      simp [Function.update_noteq hxn, hx]
    · intro x d hd
      by_cases hxn : x = next
      · subst hxn
        rw [hc] at hd
        cases hd
        simp
      · simp [Function.update_noteq hxn, hd]
  · simp [hcur, State.modify, hc, State.store, proc_run, State.deref, State.call,
      Function.update_noteq hnc, hn, hnc]
    refine ⟨?_, ?_⟩
    · intro x hx
      have hxn : x ≠ next := by rintro rfl; rw [hn] at hx; cases hx
      have hxc : x ≠ c := by rintro rfl; rw [hc] at hx; cases hx
      simp [Function.update_noteq hxn, Function.update_noteq hxc, hx]
    · intro x d hd
      by_cases hxn : x = next
      · subst hxn
        rw [hn] at hd
        cases hd
        simp
      · by_cases hxc : x = c
        · subst hxc
          rw [hc] at hd
          cases hd
          simp [Function.update_noteq hxn]
        · simp [Function.update_noteq hxn, Function.update_noteq hxc, hd]

theorem boot0_boot : Boot boot0 := by
  simp [Boot, boot0]

theorem fuel_enough : 2 * MAX_PID < ((20000 : Nat) : Int) := by
  simp [MAX_PID, MAX_PROCESS]

/-- The machine after `proc_init`: idle (at 100) is running, init (at 200) is its only
child. -/
theorem booted_spec :
    Reachable booted ∧ booted.current = some 100 ∧ booted.idleproc = some 100 ∧
      booted.initproc = some 200 ∧ booted.proc_list = [200] ∧ booted.nr_process = 2 ∧
      (∃ di, booted.procs 100 = some di ∧ di.cptr = some 200 ∧ di.mm = none ∧
        di.state = .PROC_RUNNABLE ∧ di.pid = 0) ∧
      (∃ dq, booted.procs 200 = some dq ∧ dq.pid = 1 ∧ dq.parent = some 100 ∧ dq.cptr = none ∧
        dq.state = .PROC_RUNNABLE ∧ dq.flags = 0 ∧ dq.wait_state = 0) ∧
      (∀ x, x ≠ 100 → x ≠ 200 → booted.procs x = none) := by
  have hidle : boot_env.idle = some (100, raw_block) := rfl
  have hk : boot_env.fork.kmalloc = some (200, raw_block) := rfl
  have hks : boot_env.fork.kstack = some 0xC0200000 := rfl
  obtain ⟨s, hs, hinv, rest⟩ :=
    proc_init_run 20000 boot0_boot hidle hk (by decide) hks fuel_enough
  have hb : booted = s := by
    unfold booted
    rw [hs]
  rw [hb]
  refine ⟨Reachable.init 20000 boot0 s boot_env boot0_boot ?_ hs, rest⟩
  intro p raw q raw' h1 h2
  rw [hidle] at h1
  rw [hk] at h2
  simp only [Option.some.injEq, Prod.mk.injEq] at h1 h2
  obtain ⟨rfl, -⟩ := h1
  obtain ⟨rfl, -⟩ := h2
  decide

/-- The machine after the fork by idle: the new thread (at 300) heads the child list of
idle. -/
theorem forked_spec :
    Reachable forked ∧ forked.current = some 100 ∧ forked.idleproc = some 100 ∧
      forked.initproc = some 200 ∧ 300 ∈ forked.proc_list ∧
      (∃ ch, forked.procs 300 = some ch ∧ ch.parent = some 100 ∧ ch.cptr = none ∧
        ch.state = .PROC_RUNNABLE) ∧
      (∃ di, forked.procs 100 = some di ∧ di.state = .PROC_RUNNABLE) := by
  obtain ⟨hr, hcur, hidle, hinit, hl, hnr, ⟨di, hdi, -, hdm, hdr, -⟩, -, hx⟩ := booted_spec
  have hinv := reachable_inv hr
  have hk : fork_env.kmalloc = some (300, raw_block) := rfl
  have hks : fork_env.kstack = some 0xC0300000 := rfl
  have hfresh : booted.procs 300 = none := hx 300 (by decide) (by decide)
  have hroom : booted.nr_process < MAX_PROCESS := by rw [hnr]; simp [MAX_PROCESS]
  have hmm : ¬ copy_mm_fails di.mm fork_env.mm CLONE_VM := by
    rintro ⟨h, -⟩
    exact h hdm
  obtain ⟨v, n, s', h2, hv1, -, -, -, hl', -, -, -, -, hidle', hinit', hcur', -,
    ⟨ch, hch, c1, c2, c3, c4, c5, c6, c7, -⟩, hx', -⟩ :=
    do_fork_ok 20000 CLONE_VM 0 trapframe.zero hinv.struct hroom hk hfresh hcur hdi
      (hinv.sched.ws 100 di hdi hdr) hks hmm fuel_enough
  have hb : forked = s' := by
    unfold forked
    rw [h2]
  rw [hb]
  refine ⟨Reachable.fork 20000 booted s' fork_env CLONE_VM 0 trapframe.zero v hr ?_ ?_ h2,
    hcur'.trans hcur, hidle'.trans hidle, hinit'.trans hinit, by rw [hl']; simp,
    ⟨ch, hch, c2, c3, c6⟩, ⟨_, hx' 100 (by decide) di hdi, hdr⟩⟩
  · intro p raw hp
    rw [hk] at hp
    simp only [Option.some.injEq, Prod.mk.injEq] at hp
    obtain ⟨rfl, -⟩ := hp
    exact hfresh
  · intro m hm
    cases hm

/-- The machine once the new thread runs. -/
theorem child_running_spec :
    Reachable child_running ∧ child_running.current = some 300 ∧
      child_running.idleproc = some 100 ∧ child_running.initproc = some 200 ∧
      300 ∈ child_running.proc_list ∧
      (∃ ch, child_running.procs 300 = some ch ∧ ch.parent = some 100 ∧ ch.cptr = none ∧
        ch.state = .PROC_RUNNABLE) ∧
      (∃ di, child_running.procs 100 = some di ∧ di.state = .PROC_RUNNABLE) := by
  obtain ⟨hr, hcur, hidle, hinit, hl, ⟨ch, hch, c1, c2, c3⟩, ⟨di, hdi, hdr⟩⟩ := forked_spec
  obtain ⟨s', h2, hcur', hl', -, -, hidle', hinit', -, hx⟩ := schedule_of hcur hdi hch
  have hb : child_running = s' := by
    unfold child_running
    rw [h2]
  rw [hb]
  obtain ⟨ch', hch', -, e2, e3, -, -, e6, -⟩ := hx 300 ch hch
  obtain ⟨di', hdi', -, -, -, -, -, f6, -⟩ := hx 100 di hdi
  exact ⟨Reachable.resched forked s' 300 hr ⟨ch, hch, c3⟩ h2, hcur', hidle'.trans hidle,
    hinit'.trans hinit, by rw [hl']; exact hl, ⟨ch', hch', e2.trans c1, e3.trans c2,
    e6.trans c3⟩, ⟨di', hdi', f6.trans hdr⟩⟩

/-- The machine after the new thread has exited with code 42 and idle runs again: idle has
a zombie child. -/
theorem child_exited_spec :
    Reachable child_exited ∧ child_exited.current = some 100 ∧ 300 ∈ child_exited.proc_list ∧
      (∃ dz, child_exited.procs 300 = some dz ∧ dz.state = .PROC_ZOMBIE ∧
        dz.parent = some 100 ∧ dz.exit_code = 42) := by
  obtain ⟨hr, hcur, hidle, hinit, hl, ⟨ch, hch, c1, c2, c3⟩, ⟨di, hdi, hdr⟩⟩ :=
    child_running_spec
  have hinv := reachable_inv hr
  have hni : child_running.current ≠ child_running.idleproc := by
    rw [hcur, hidle]
    decide
  have hnn : child_running.current ≠ child_running.initproc := by
    rw [hcur, hinit]
    decide
  obtain ⟨⟨i, hi, hci, hA⟩, hB⟩ := do_exit_spec 20000 42 hinv hcur hch hni hnn
  have hlen : child_running.proc_list.length < 20000 := by
    have := hinv.struct.count
    simp only [MAX_PROCESS] at this
    omega
  obtain ⟨s1, h1⟩ := hB hlen
  obtain ⟨r1, r2, e1, -, -, e4, e5, e6, ⟨dc', hdc', z1, z2, -, -, -, z6⟩, hx, -, -⟩ := hA s1 h1
  obtain ⟨di1, hdi1, -, -, -, hst⟩ := hx 100 di hdi
  have hidle_run : di1.state = .PROC_RUNNABLE := by
    rcases (hst (by decide)).2.2 with h | h
    · rw [h]; exact hdr
    · exact h
  obtain ⟨s2, h2, hcur2, hl2, -, -, -, -, -, hx2⟩ :=
    schedule_of (e6.trans hcur) hdc' hdi1
  have hb : child_exited = s2 := by
    unfold child_exited
    rw [h1]
    simp only
    rw [h2]
  rw [hb]
  obtain ⟨dz, hdz, -, f2, -, -, -, f6, -, -, f9, -⟩ := hx2 300 dc' hdc'
  exact ⟨Reachable.exit 20000 child_running s1 s2 42 100 hr h1 ⟨di1, hdi1, hidle_run⟩ h2,
    hcur2, by rw [hl2, e1]; exact hl, ⟨dz, hdz, f6.trans z1, (f2.trans z6).trans c1,
    f9.trans z2⟩⟩

/-- In the machine `kill_demo` the task with pid 5 is found at address 7. -/
theorem kill_demo_find : find_proc kill_demo 5 = .ok (some 7) := by
  simp [find_proc, kill_demo, find_proc_scan, MAX_PID, MAX_PROCESS]

end Ucore

namespace Ucore

/-! ## The bytes `load_icode` writes -/

theorem wrap32_of_lt {n : Nat} (h : n < 2 ^ 32) : wrap32 n = n := Nat.mod_eq_of_lt h

theorem sub32_of_le {a b : Nat} (h : b ≤ a) (ha : a < 2 ^ 32) : sub32 a b = a - b := by
  unfold sub32
  have hb : b % 2 ^ 32 = b := Nat.mod_eq_of_lt (by omega)
  rw [hb]
  omega

/-- The page of an address, for a page-aligned `la`. -/
theorem rounddown_eq_iff {a la : Nat} (hla : la % PGSIZE = 0) :
    ROUNDDOWN a PGSIZE = la ↔ la ≤ a ∧ a < la + PGSIZE := by
  unfold ROUNDDOWN PGSIZE at *
  omega

theorem user_byte_alloc (s : State) (pd la perm : Nat) (data : Nat → Nat) (a : Nat)
    (hla : la % PGSIZE = 0) :
    user_byte (pgdir_alloc_page s (some pd) la perm (some data)).2 pd a =
      if la ≤ a ∧ a < la + PGSIZE then some (data (a % PGSIZE)) else user_byte s pd a := by
  unfold user_byte pgdir_alloc_page
  simp only [Option.getD_some, Function.update_same]
  by_cases h : la ≤ a ∧ a < la + PGSIZE
  · rw [if_pos h, (rounddown_eq_iff hla).mpr h]
    simp
  · have hne : ROUNDDOWN a PGSIZE ≠ la := fun e => h ((rounddown_eq_iff hla).mp e)
    rw [if_neg h, Function.update_noteq hne]

theorem user_byte_memcpy (s : State) (pd la off size : Nat) (f : Nat → Nat) (a : Nat)
    (hla : la % PGSIZE = 0) (hpg : (s.pgtab pd la).isSome) (hsz : off + size ≤ PGSIZE) :
    user_byte (page_memcpy s (some pd) la off size f) pd a =
      if la + off ≤ a ∧ a < la + off + size then some (f (a - (la + off)))
      else user_byte s pd a := by
  obtain ⟨pg, hpg⟩ := Option.isSome_iff_exists.mp hpg
  unfold user_byte page_memcpy
  simp only [Option.getD_some, hpg, Function.update_same]
  by_cases hin : ROUNDDOWN a PGSIZE = la
  · have hr := (rounddown_eq_iff hla).mp hin
    have hoff : a % PGSIZE = a - la := by
      unfold PGSIZE at *
      omega
    rw [hin, Function.update_same, hpg, Option.map_some', Option.map_some', hoff]
    dsimp only
    by_cases h : la + off ≤ a ∧ a < la + off + size
    · have h2 : off ≤ a - la ∧ a - la < off + size := by omega
      rw [if_pos h, if_pos h2]
      congr 2
      omega
    · have h2 : ¬ (off ≤ a - la ∧ a - la < off + size) := by omega
      rw [if_neg h, if_neg h2]
  · have h : ¬ (la + off ≤ a ∧ a < la + off + size) := by
      intro h
      exact hin ((rounddown_eq_iff hla).mpr (by omega))
    rw [Function.update_noteq hin, if_neg h]

theorem page_memcpy_isSome (s : State) (pd la off size : Nat) (f : Nat → Nat) (q : Nat) :
    ((page_memcpy s (some pd) la off size f).pgtab pd q).isSome = (s.pgtab pd q).isSome := by
  unfold page_memcpy
  simp only [Option.getD_some]
  cases h : s.pgtab pd la with
  | none => rfl
  | some pg =>
    by_cases hq : q = la
    · subst hq
      simp [h]
    · simp [Function.update_noteq hq]

theorem page_memcpy_mms (s : State) (pgdir : Option Nat) (la off size : Nat) (f : Nat → Nat) :
    (page_memcpy s pgdir la off size f).mms = s.mms := by
  unfold page_memcpy
  cases s.pgtab (pgdir.getD 0) la <;> rfl

/-- One round of the loops of `load_icode`: a page is mapped at `la` and `size` bytes are
written into it from offset `off`. -/
theorem copy_step (s : State) (pd la perm : Nat) (data : Nat → Nat) (off size : Nat)
    (f : Nat → Nat) (hla : la % PGSIZE = 0) (hsz : off + size ≤ PGSIZE) :
    (∀ a, la + off ≤ a → a < la + off + size →
      user_byte (page_memcpy (pgdir_alloc_page s (some pd) la perm (some data)).2 (some pd) la
        off size f) pd a = some (f (a - (la + off)))) ∧
    (∀ a, a < la ∨ la + PGSIZE ≤ a →
      user_byte (page_memcpy (pgdir_alloc_page s (some pd) la perm (some data)).2 (some pd) la
        off size f) pd a = user_byte s pd a) ∧
    ((page_memcpy (pgdir_alloc_page s (some pd) la perm (some data)).2 (some pd) la
        off size f).pgtab pd la).isSome ∧
    (page_memcpy (pgdir_alloc_page s (some pd) la perm (some data)).2 (some pd) la
        off size f).mms = s.mms := by
  have hsome : ((pgdir_alloc_page s (some pd) la perm (some data)).2.pgtab pd la).isSome := by
    simp [pgdir_alloc_page]
  refine ⟨?_, ?_, ?_, ?_⟩
  · intro a h1 h2
    rw [user_byte_memcpy _ _ _ _ _ _ _ hla hsome hsz, if_pos ⟨h1, h2⟩]
  · intro a h
    rw [user_byte_memcpy _ _ _ _ _ _ _ hla hsome hsz, if_neg (by omega),
      user_byte_alloc _ _ _ _ _ _ hla, if_neg (by omega)]
  · rw [page_memcpy_isSome]
    exact hsome
  · rw [page_memcpy_mms]
    rfl

theorem load_copy_done (env : ExecEnv) (img : binary) (pgdir : Option Nat) (perm end_ : Nat)
    (fuel : Nat) (s : State) (start la src : Nat) (page : Option Nat) (h : ¬ start < end_) :
    load_copy env img pgdir perm end_ (fuel + 1) s start la src page =
      .ok (.next s start la page) := by
  rw [load_copy, if_neg h]

theorem load_bss_done (env : ExecEnv) (pgdir : Option Nat) (perm end_ : Nat)
    (fuel : Nat) (s : State) (start la : Nat) (page : Option Nat) (h : ¬ start < end_) :
    load_bss env pgdir perm end_ (fuel + 1) s start la page = .ok (.next s start la page) := by
  rw [load_bss, if_neg h]

/-- The size the loops of `load_icode` compute for the round at page `la`, and where it
leaves `start`: at the end of the page or at `end_`, whichever comes first. -/
theorem round_size {start la end_ : Nat} (h1 : la ≤ start) (h2 : start < la + PGSIZE)
    (h3 : start < end_) (hend : end_ + PGSIZE ≤ 2 ^ 32) :
    wrap32 (la + PGSIZE) = la + PGSIZE ∧ sub32 start la = start - la ∧
    (if end_ < wrap32 (la + PGSIZE) then
        sub32 (sub32 PGSIZE (sub32 start la)) (sub32 (wrap32 (la + PGSIZE)) end_)
      else sub32 PGSIZE (sub32 start la)) = min end_ (la + PGSIZE) - start ∧
    wrap32 (start + (min end_ (la + PGSIZE) - start)) = min end_ (la + PGSIZE) := by
  have hP : PGSIZE = 4096 := rfl
  have e1 : wrap32 (la + PGSIZE) = la + PGSIZE := wrap32_of_lt (by omega)
  have e2 : sub32 start la = start - la := sub32_of_le h1 (by omega)
  have e3 : sub32 PGSIZE (start - la) = PGSIZE - (start - la) :=
    sub32_of_le (by omega) (by omega)
  refine ⟨e1, e2, ?_, ?_⟩
  · rw [e1, e2, e3]
    by_cases h : end_ < la + PGSIZE
    · have e4 : sub32 (la + PGSIZE) end_ = la + PGSIZE - end_ :=
        sub32_of_le (by omega) (by omega)
      have e5 : sub32 (PGSIZE - (start - la)) (la + PGSIZE - end_) =
          PGSIZE - (start - la) - (la + PGSIZE - end_) := sub32_of_le (by omega) (by omega)
      rw [if_pos h, e4, e5]
      omega
    · rw [if_neg h]
      omega
  · rw [wrap32_of_lt (by omega)]
    omega

/-- The copy loop (3.6.1): from a `start` inside the page at `la`, it maps the pages up to
the one holding `end_ - 1` and fills `[start, end_)` with the bytes of the image from `src`
on; nothing outside the pages from `la` on is touched. -/
theorem load_copy_spec (env : ExecEnv) (img : binary) (pd perm end_ : Nat)
    (hpa : ∀ la, (env.page_alloc la).isSome) (hend : end_ + PGSIZE ≤ 2 ^ 32) :
    ∀ (fuel : Nat) (s : State) (start la src : Nat) (page : Option Nat),
      la % PGSIZE = 0 → la ≤ start → start < la + PGSIZE → start < end_ →
      end_ + PGSIZE ≤ la + fuel * PGSIZE →
      ∃ s' la', load_copy env img (some pd) perm end_ fuel s start la src page =
          .ok (.next s' end_ la' (some (la' - PGSIZE))) ∧
        la' % PGSIZE = 0 ∧ end_ ≤ la' ∧ la' < end_ + PGSIZE ∧ la < la' ∧
        (∀ a, start ≤ a → a < end_ →
          user_byte s' pd a = some (img.bytes (src + (a - start)))) ∧
        (∀ a, a < la ∨ la' ≤ a → user_byte s' pd a = user_byte s pd a) ∧
        (s'.pgtab pd (la' - PGSIZE)).isSome ∧ s'.mms = s.mms := by
  intro fuel
  induction fuel with
  | zero =>
    intro s start la src page h1 h2 h3 h4 h5
    omega
  | succ f ih =>
    intro s start la src page h1 h2 h3 h4 h5
    obtain ⟨data, hdata⟩ := Option.isSome_iff_exists.mp (hpa la)
    obtain ⟨e1, e2, e3, e4⟩ := round_size h2 h3 h4 hend
    have hpair : pgdir_alloc_page s (some pd) la perm (some data) =
        (some la, (pgdir_alloc_page s (some pd) la perm (some data)).2) := rfl
    rw [load_copy, if_pos h4, hdata, hpair]
    simp only []
    rw [e3, e4, e1, e2]
    have hsz : (start - la) + (min end_ (la + PGSIZE) - start) ≤ PGSIZE := by omega
    obtain ⟨c1, c2, c3, c4⟩ := copy_step s pd la perm data (start - la)
      (min end_ (la + PGSIZE) - start) (fun i => img.bytes (src + i)) h1 hsz
    have hlo : la + (start - la) = start := by omega
    rw [hlo] at c1
    by_cases hc : la + PGSIZE < end_
    · have hmin : min end_ (la + PGSIZE) = la + PGSIZE := by omega
      rw [hmin] at c1 c2 c3 c4 ⊢
      obtain ⟨s', la', hrun, r1, r2, r3, r4, r5, r6, r7, r8⟩ :=
        ih _ (la + PGSIZE) (la + PGSIZE) (src + (la + PGSIZE - start)) (some la)
          (by unfold PGSIZE at *; omega) (le_refl _) (by unfold PGSIZE; omega) hc
          (by
            have : (f + 1) * PGSIZE = f * PGSIZE + PGSIZE := by ring
            omega)
      refine ⟨s', la', hrun, r1, r2, r3, by omega, ?_, ?_, r7, r8.trans c4⟩
      · intro a ha1 ha2
        by_cases hlt : a < la + PGSIZE
        · rw [r6 a (Or.inl hlt), c1 a ha1 (by omega)]
        · have e : src + (la + PGSIZE - start) + (a - (la + PGSIZE)) = src + (a - start) := by
            omega
          rw [r5 a (by omega) ha2, e]
      · intro a ha
        rw [r6 a (by omega), c2 a (by omega)]
    · have hmin : min end_ (la + PGSIZE) = end_ := by omega
      rw [hmin] at c1 c2 c3 c4 ⊢
      obtain ⟨g, rfl⟩ : ∃ g, f = g + 1 := by
        refine ⟨f - 1, ?_⟩
        have : (f + 1) * PGSIZE = f * PGSIZE + PGSIZE := by ring
        rcases Nat.eq_zero_or_pos f with h0 | h0
        · subst h0
          omega
        · omega
      rw [load_copy_done _ _ _ _ _ _ _ _ _ _ _ (lt_irrefl _)]
      refine ⟨_, la + PGSIZE, ?_, by unfold PGSIZE at *; omega, by omega, by omega,
        by unfold PGSIZE; omega, ?_, ?_, ?_, c4⟩
      · simp
      · intro a ha1 ha2
        exact c1 a ha1 (by omega)
      · intro a ha
        exact c2 a (by omega)
      · simpa using c3

/-- The loop of step (3.6.2) that maps further pages and zeroes them. -/
theorem load_bss_spec (env : ExecEnv) (pd perm end_ : Nat)
    (hpa : ∀ la, (env.page_alloc la).isSome) (hend : end_ + PGSIZE ≤ 2 ^ 32) :
    ∀ (fuel : Nat) (s : State) (start la : Nat) (page : Option Nat),
      la % PGSIZE = 0 → la ≤ start → start < la + PGSIZE → start < end_ →
      end_ + PGSIZE ≤ la + fuel * PGSIZE →
      ∃ s' la', load_bss env (some pd) perm end_ fuel s start la page =
          .ok (.next s' end_ la' (some (la' - PGSIZE))) ∧
        la' % PGSIZE = 0 ∧ end_ ≤ la' ∧ la' < end_ + PGSIZE ∧ la < la' ∧
        (∀ a, start ≤ a → a < end_ → user_byte s' pd a = some 0) ∧
        (∀ a, a < la ∨ la' ≤ a → user_byte s' pd a = user_byte s pd a) ∧
        (s'.pgtab pd (la' - PGSIZE)).isSome ∧ s'.mms = s.mms := by
  intro fuel
  induction fuel with
  | zero =>
    intro s start la page h1 h2 h3 h4 h5
    omega
  | succ f ih =>
    intro s start la page h1 h2 h3 h4 h5
    obtain ⟨data, hdata⟩ := Option.isSome_iff_exists.mp (hpa la)
    obtain ⟨e1, e2, e3, e4⟩ := round_size h2 h3 h4 hend
    have hpair : pgdir_alloc_page s (some pd) la perm (some data) =
        (some la, (pgdir_alloc_page s (some pd) la perm (some data)).2) := rfl
    rw [load_bss, if_pos h4, hdata, hpair]
    simp only [page_memset]
    rw [e3, e4, e1, e2]
    have hsz : (start - la) + (min end_ (la + PGSIZE) - start) ≤ PGSIZE := by omega
    obtain ⟨c1, c2, c3, c4⟩ := copy_step s pd la perm data (start - la)
      (min end_ (la + PGSIZE) - start) (fun _ => 0) h1 hsz
    have hlo : la + (start - la) = start := by omega
    rw [hlo] at c1
    by_cases hc : la + PGSIZE < end_
    · have hmin : min end_ (la + PGSIZE) = la + PGSIZE := by omega
      rw [hmin] at c1 c2 c3 c4 ⊢
      obtain ⟨s', la', hrun, r1, r2, r3, r4, r5, r6, r7, r8⟩ :=
        ih _ (la + PGSIZE) (la + PGSIZE) (some la)
          (by unfold PGSIZE at *; omega) (le_refl _) (by unfold PGSIZE; omega) hc
          (by
            have : (f + 1) * PGSIZE = f * PGSIZE + PGSIZE := by ring
            omega)
      refine ⟨s', la', hrun, r1, r2, r3, by omega, ?_, ?_, r7, r8.trans c4⟩
      · intro a ha1 ha2
        by_cases hlt : a < la + PGSIZE
        · rw [r6 a (Or.inl hlt), c1 a ha1 (by omega)]
        · exact r5 a (by omega) ha2
      · intro a ha
        rw [r6 a (by omega), c2 a (by omega)]
    · have hmin : min end_ (la + PGSIZE) = end_ := by omega
      rw [hmin] at c1 c2 c3 c4 ⊢
      obtain ⟨g, rfl⟩ : ∃ g, f = g + 1 := by
        refine ⟨f - 1, ?_⟩
        have : (f + 1) * PGSIZE = f * PGSIZE + PGSIZE := by ring
        rcases Nat.eq_zero_or_pos f with h0 | h0
        · subst h0
          omega
        · omega
      rw [load_bss_done _ _ _ _ _ _ _ _ _ (lt_irrefl _)]
      refine ⟨_, la + PGSIZE, ?_, by unfold PGSIZE at *; omega, by omega, by omega,
        by unfold PGSIZE; omega, ?_, ?_, ?_, c4⟩
      · simp
      · intro a ha1 ha2
        exact c1 a ha1 (by omega)
      · intro a ha
        exact c2 a (by omega)
      · simpa using c3

/-- The size the `if (start < la)` block of step (3.6.2) computes: it reaches from `start`
to the end of the page before `la`, or to `end_` if that comes first. -/
theorem tail_size {start la end_ : Nat} (h1 : start < la) (h2 : la < start + PGSIZE)
    (h3 : start ≤ end_) (hend : end_ + PGSIZE < 2 ^ 32) :
    sub32 (wrap32 (start + PGSIZE)) la = start + PGSIZE - la ∧
    (if end_ < la then
        sub32 (sub32 PGSIZE (sub32 (wrap32 (start + PGSIZE)) la)) (sub32 la end_)
      else sub32 PGSIZE (sub32 (wrap32 (start + PGSIZE)) la)) = min end_ la - start ∧
    wrap32 (start + (min end_ la - start)) = min end_ la := by
  have hP : PGSIZE = 4096 := rfl
  have e1 : wrap32 (start + PGSIZE) = start + PGSIZE := wrap32_of_lt (by omega)
  have e2 : sub32 (start + PGSIZE) la = start + PGSIZE - la :=
    sub32_of_le (by omega) (by omega)
  have e3 : sub32 PGSIZE (start + PGSIZE - la) = PGSIZE - (start + PGSIZE - la) :=
    sub32_of_le (by omega) (by omega)
  refine ⟨by rw [e1, e2], ?_, ?_⟩
  · rw [e1, e2, e3]
    by_cases h : end_ < la
    · have e4 : sub32 la end_ = la - end_ := sub32_of_le (by omega) (by omega)
      have e5 : sub32 (PGSIZE - (start + PGSIZE - la)) (la - end_) =
          PGSIZE - (start + PGSIZE - la) - (la - end_) := sub32_of_le (by omega) (by omega)
      rw [if_pos h, e4, e5]
      omega
    · rw [if_neg h]
      omega
  · rw [wrap32_of_lt (by omega)]
    omega

/-- The `if (start < la)` block of step (3.6.2): the bytes from `start` up to the end of the
last page of the file part, or up to `end_` if that comes first, are zeroed. -/
theorem load_tail_spec (s : State) (pd end_ start la : Nat) (hla : la % PGSIZE = 0)
    (hlaP : PGSIZE ≤ la) (h1 : start ≤ la) (h2 : la < start + PGSIZE) (h3 : start ≤ end_)
    (hend : end_ + PGSIZE < 2 ^ 32) (hpg : (s.pgtab pd (la - PGSIZE)).isSome) :
    ∃ r s', load_tail s (some pd) end_ start la (some (la - PGSIZE)) = .ok (r, s') ∧
      (r = none → start = end_) ∧ (∀ st, r = some st → st = min end_ la) ∧
      (∀ a, start ≤ a → a < min end_ la → user_byte s' pd a = some 0) ∧
      (∀ a, a < start ∨ min end_ la ≤ a → user_byte s' pd a = user_byte s pd a) ∧
      s'.mms = s.mms := by
  have hP : PGSIZE = 4096 := rfl
  unfold load_tail
  by_cases hlt : start < la
  · rw [if_pos hlt]
    by_cases heq : start = end_
    · rw [if_pos heq]
      refine ⟨none, s, rfl, fun _ => heq, ?_, ?_, fun _ _ => rfl, rfl⟩
      · intro st h
        cases h
      · intro a ha1 ha2
        omega
    · rw [if_neg heq]
      obtain ⟨e1, e2, e3⟩ := tail_size hlt h2 h3 hend
      simp only []
      rw [e2, e3, e1]
      rw [if_pos (by omega)]
      have hla2 : (la - PGSIZE) % PGSIZE = 0 := by
        unfold PGSIZE at hla hlaP ⊢
        omega
      have hsz : (start + PGSIZE - la) + (min end_ la - start) ≤ PGSIZE := by omega
      have hlo : la - PGSIZE + (start + PGSIZE - la) = start := by omega
      refine ⟨some (min end_ la), _, rfl, ?_, ?_, ?_, ?_, ?_⟩
      · intro h
        cases h
      · intro st h
        cases h
        rfl
      · intro a ha1 ha2
        rw [page_memset, user_byte_memcpy _ _ _ _ _ _ _ hla2 hpg hsz, hlo, if_pos (by omega)]
      · intro a ha
        rw [page_memset, user_byte_memcpy _ _ _ _ _ _ _ hla2 hpg hsz, hlo, if_neg (by omega)]
      · rw [page_memset, page_memcpy_mms]
  · rw [if_neg hlt]
    have hsl : start = la := by omega
    refine ⟨some start, s, rfl, ?_, ?_, ?_, fun _ _ => rfl, rfl⟩
    · intro h
      cases h
    · intro st h
      cases h
      omega
    · intro a ha1 ha2
      omega

theorem seg_lo_eq (ph : proghdr) : seg_lo ph = ph.p_va - ph.p_va % 4096 := rfl

theorem seg_hi_eq (ph : proghdr) (h : ph.p_va + ph.p_memsz + PGSIZE < 2 ^ 32) :
    seg_hi ph = (ph.p_va + ph.p_memsz + 4095) - (ph.p_va + ph.p_memsz + 4095) % 4096 := by
  have hP : PGSIZE = 4096 := rfl
  unfold seg_hi ROUNDUP ROUNDDOWN
  rw [wrap32_of_lt (by omega : ph.p_va + ph.p_memsz < 2 ^ 32), hP,
    wrap32_of_lt (by omega : ph.p_va + ph.p_memsz + 4096 - 1 < 2 ^ 32)]
  omega

/-- Steps (3.6.1) and (3.6.2) for one program header with `0 < p_filesz <= p_memsz`, when
every page allocation succeeds: the file bytes are in place, the rest of the segment is
zero, and nothing outside the pages of the segment is touched. -/
theorem load_pages_spec (s : State) (env : ExecEnv) (img : binary) (pd : Nat) (ph : proghdr)
    (fuel : Nat) (hpa : ∀ la, (env.page_alloc la).isSome) (hfs : 0 < ph.p_filesz)
    (hfm : ph.p_filesz ≤ ph.p_memsz) (hend : ph.p_va + ph.p_memsz + PGSIZE < 2 ^ 32)
    (hfuel : 2 ^ 20 < fuel) :
    ∃ s', load_pages fuel s env img (some pd) ph = .ok (0, s') ∧
      (∀ k, k < ph.p_filesz →
        user_byte s' pd (ph.p_va + k) = some (img.bytes (ph.p_offset + k))) ∧
      (∀ k, ph.p_filesz ≤ k → k < ph.p_memsz → user_byte s' pd (ph.p_va + k) = some 0) ∧
      (∀ a, a < seg_lo ph ∨ seg_hi ph ≤ a → user_byte s' pd a = user_byte s pd a) ∧
      s'.mms = s.mms := by
  have hP : PGSIZE = 4096 := rfl
  have hlo := seg_lo_eq ph
  have hhi := seg_hi_eq ph hend
  have hw1 : wrap32 (ph.p_va + ph.p_filesz) = ph.p_va + ph.p_filesz := wrap32_of_lt (by omega)
  have hw2 : wrap32 (ph.p_va + ph.p_memsz) = ph.p_va + ph.p_memsz := wrap32_of_lt (by omega)
  have hrd : ROUNDDOWN ph.p_va PGSIZE = ph.p_va - ph.p_va % 4096 := rfl
  -- the copy loop
  obtain ⟨s1, la1, hrun1, a1, a2, a3, a4, a5, a6, a7, a8⟩ :=
    load_copy_spec env img pd (seg_perm ph) (ph.p_va + ph.p_filesz) hpa (by omega) fuel s
      ph.p_va (ph.p_va - ph.p_va % 4096) ph.p_offset none (by rw [hP]; omega) (by omega)
      (by omega) (by omega) (by rw [hP]; omega)
  have a1' : la1 % 4096 = 0 := a1
  -- the rest of the last page
  obtain ⟨r, s2, hrun2, b1, b2, b3, b4, b5⟩ :=
    load_tail_spec s1 pd (ph.p_va + ph.p_memsz) (ph.p_va + ph.p_filesz) la1 a1 (by omega) a2
      (by omega) (by omega) hend a7
  have hfile2 : ∀ k, k < ph.p_filesz →
      user_byte s2 pd (ph.p_va + k) = some (img.bytes (ph.p_offset + k)) := by
    intro k hk
    have e : ph.p_offset + (ph.p_va + k - ph.p_va) = ph.p_offset + k := by omega
    rw [b4 _ (Or.inl (by omega)), a5 _ (by omega) (by omega), e]
  have hout2 : ∀ a, a < seg_lo ph ∨ seg_hi ph ≤ a → user_byte s2 pd a = user_byte s pd a := by
    intro a ha
    rw [b4 a (by omega), a6 a (by omega)]
  unfold load_pages
  simp only [hw1, hw2, hrd]
  rw [hrun1]
  simp only [ok_bind]
  rw [hrun2]
  simp only [ok_bind]
  cases r with
  | none =>
    have he := b1 rfl
    refine ⟨s2, rfl, hfile2, ?_, hout2, b5.trans a8⟩
    intro k hk1 hk2
    omega
  | some st =>
    have hst := b2 st rfl
    simp only []
    by_cases hmore : st < ph.p_va + ph.p_memsz
    · -- further pages
      have hst1 : st = la1 := by omega
      subst hst1
      obtain ⟨s3, la3, hrun3, c1, c2, c3, c4, c5, c6, c7, c8⟩ :=
        load_bss_spec env pd (seg_perm ph) (ph.p_va + ph.p_memsz) hpa (by omega) fuel s2
          st st (some (st - PGSIZE)) a1 (le_refl _) (by omega) hmore (by rw [hP]; omega)
      have c1' : la3 % 4096 = 0 := c1
      rw [hrun3]
      refine ⟨s3, rfl, ?_, ?_, ?_, (c8.trans b5).trans a8⟩
      · intro k hk
        rw [c6 _ (Or.inl (by omega))]
        exact hfile2 k hk
      · intro k hk1 hk2
        by_cases hk3 : ph.p_va + k < st
        · rw [c6 _ (Or.inl hk3)]
          exact b3 _ (by omega) (by omega)
        · exact c5 _ (by omega) (by omega)
      · intro a ha
        rw [c6 a (by omega)]
        exact hout2 a ha
    · obtain ⟨f, rfl⟩ : ∃ f, fuel = f + 1 := ⟨fuel - 1, by omega⟩
      rw [load_bss_done _ _ _ _ _ _ _ _ _ hmore]
      refine ⟨s2, rfl, hfile2, ?_, hout2, b5.trans a8⟩
      intro k hk1 hk2
      exact b3 _ (by omega) (by omega)

end Ucore

namespace Ucore

/-! ## Sibling links along a child list -/

/-- The older sibling of a member of a child list names that member as its younger
sibling. -/
theorem chain_optr_back {procs : Ptr → Option proc_struct} {par : Ptr} :
    ∀ {l : List Ptr} {f y : Option Ptr}, Chain procs par f y l → ∀ x ∈ l, ∀ dx,
      procs x = some dx → ∀ o, dx.optr = some o → ∃ d, procs o = some d ∧ d.yptr = some x := by
  intro l
  induction l with
  | nil => intro f y _ x hx; simp at hx
  | cons b l ih =>
    intro f y hc x hx dx hdx o ho
    obtain ⟨_, db, hdb, _, _, hcb⟩ := chain_cons.mp hc
    by_cases hxb : x = b
    · subst hxb
      rw [hdx] at hdb
      cases hdb
      cases l with
      | nil =>
        rw [chain_nil.mp hcb] at ho
        cases ho
      | cons c l' =>
        obtain ⟨hf, dc, hdc, _, hyc, _⟩ := chain_cons.mp hcb
        rw [ho] at hf
        cases hf
        exact ⟨dc, hdc, hyc⟩
    · rcases List.mem_cons.mp hx with h | h
      · exact absurd h hxb
      · exact ih hcb x h dx hdx o ho

/-- The younger sibling of a member of a child list names that member as its older sibling;
the first member has the `y` of the list. -/
theorem chain_yptr_back {procs : Ptr → Option proc_struct} {par : Ptr} :
    ∀ {l : List Ptr} {f y : Option Ptr}, Chain procs par f y l → l.Nodup → ∀ x ∈ l, ∀ dx,
      procs x = some dx → ∀ w, dx.yptr = some w →
      (y = some w ∧ f = some x) ∨ ∃ d, procs w = some d ∧ d.optr = some x := by
  intro l
  induction l with
  | nil => intro f y _ _ x hx; simp at hx
  | cons b l ih =>
    intro f y hc hnd x hx dx hdx w hw
    obtain ⟨hf, db, hdb, _, hyb, hcb⟩ := chain_cons.mp hc
    by_cases hxb : x = b
    · subst hxb
      rw [hdx] at hdb
      cases hdb
      exact Or.inl ⟨by rw [← hyb, hw], hf⟩
    · rcases List.mem_cons.mp hx with h | h
      · exact absurd h hxb
      · rcases ih hcb (List.nodup_cons.mp hnd).2 x h dx hdx w hw with ⟨h1, h2⟩ | h1
        · cases h1
          exact Or.inr ⟨db, hdb, h2⟩
        · exact Or.inr h1

/-- Every descriptor of the task list is on the child list of its parent. -/
theorem on_parent_chain {s : State} (hs : Struct none s) {t : Ptr} {dt : proc_struct}
    (ht : t ∈ s.proc_list) (hd : s.procs t = some dt) :
    ∃ r dr l, dt.parent = some r ∧ s.procs r = some dr ∧ Chain s.procs r dr.cptr none l ∧
      t ∈ l ∧ l.Nodup := by
  obtain ⟨r, hr, hrs⟩ := hs.parent t ht dt hd
  obtain ⟨y0, hy0, dr, l, hdr, hch, hnd, _, hcomp⟩ := hs.fam r hrs
  have : y0 = none := hy0 (by simp)
  subst this
  exact ⟨r, dr, l, hr, hdr, hch, hcomp t dt hd hr, hnd⟩

/-- An allocated descriptor is the idle task or is on the task list. -/
theorem listed_or_idle {s : State} (hs : Struct none s) {x : Ptr} {dx : proc_struct}
    (hd : s.procs x = some dx) : x ∈ s.proc_list ∨ (s.idleproc = some x ∧ dx.optr = none ∧
      dx.yptr = none ∧ dx.parent = none) := by
  rcases (hs.valid x).mp (by rw [hd]; rfl) with h | h
  · exact Or.inl h
  · obtain ⟨a, b⟩ := hs.idle_links x dx h hd
    obtain ⟨j, dj, h1, _, h3, _, h5⟩ := hs.idle
    rw [h] at h1
    cases h1
    rw [hd] at h3
    cases h3
    exact Or.inr ⟨h, a, b, h5⟩

/-- A child list is determined by its first entry. -/
theorem chain_unique {procs : Ptr → Option proc_struct} {par : Ptr} :
    ∀ {l1 l2 : List Ptr} {f y : Option Ptr}, Chain procs par f y l1 → Chain procs par f y l2 →
      l1 = l2 := by
  intro l1
  induction l1 with
  | nil =>
    intro l2 f y h1 h2
    cases l2 with
    | nil => rfl
    | cons b l2 =>
      rw [chain_nil.mp h1] at h2
      obtain ⟨hf, _⟩ := chain_cons.mp h2
      cases hf
  | cons a l1 ih =>
    intro l2 f y h1 h2
    obtain ⟨hf, da, hda, _, _, hca⟩ := chain_cons.mp h1
    cases l2 with
    | nil =>
      rw [chain_nil.mp h2] at hf
      cases hf
    | cons b l2 =>
      obtain ⟨hf2, db, hdb, _, _, hcb⟩ := chain_cons.mp h2
      rw [hf] at hf2
      cases hf2
      rw [hda] at hdb
      cases hdb
      rw [ih hca hcb]

/-- The child list of an allocated descriptor holds exactly its children, once each, all of
them on the task list. -/
theorem chain_complete {s : State} (hs : Struct none s) {c : Ptr} {dc : proc_struct}
    {l : List Ptr} (hc : s.procs c = some dc) (hch : Chain s.procs c dc.cptr none l) :
    l.Nodup ∧ (∀ x ∈ l, x ∈ s.proc_list) ∧
      (∀ x dx, s.procs x = some dx → dx.parent = some c → x ∈ l) := by
  obtain ⟨y0, hy0, dr, lr, hdr, hchr, hnd, hsub, hcomp⟩ := hs.fam c (by rw [hc]; rfl)
  have : y0 = none := hy0 (by simp)
  subst this
  rw [hc] at hdr
  cases hdr
  rw [chain_unique hch hchr]
  exact ⟨hnd, hsub, hcomp⟩

end Ucore

namespace Ucore

/-! ## The scenario of repeated `get_pid` -/

/-- A call of `get_pid` whose next id is below both `MAX_PID` and `next_safe` hands out that
id without looking at the task list. -/
theorem get_pid_fast {s : State} (fuel : Nat) (h1 : s.last_pid + 1 < MAX_PID)
    (h2 : s.last_pid + 1 < s.next_safe) :
    get_pid fuel s = .ok (s.last_pid + 1, { s with last_pid := s.last_pid + 1 }) := by
  unfold get_pid
  simp only []
  rw [if_neg (not_le.mpr h1), if_neg (not_le.mpr h2)]

/-- The state after `n` rounds of the scenario, from an empty task list and the initial pid
cursors: the tasks at the addresses `1..n` hold the ids `1..n`, and the cursor stands at
`n`. -/
theorem get_pid_fill_spec {s0 : State} (fuel : Nat) (hfuel : 0 < fuel)
    (hl : s0.proc_list = []) (hlast : s0.last_pid = MAX_PID) (hnext : s0.next_safe = MAX_PID) :
    ∀ n : Nat, (n : Int) + 1 < MAX_PID →
      ∃ s, get_pid_fill fuel n s0 = .ok s ∧ (n = 0 → s = s0) ∧ (0 < n → s.last_pid = n) ∧
        s.next_safe = MAX_PID ∧ (∀ x : Nat, x ∈ s.proc_list ↔ 1 ≤ x ∧ x ≤ n) ∧ s.proc_list.Nodup ∧
        (∀ k, 1 ≤ k → k ≤ n →
          s.procs k = some { (default : proc_struct) with pid := (k : Int) }) := by
  intro n
  induction n with
  | zero =>
    intro _
    refine ⟨s0, rfl, fun _ => rfl, fun h => absurd h (lt_irrefl _), hnext, ?_, ?_, ?_⟩
    · intro x
      rw [hl]
      constructor
      · intro h
        simp at h
      · rintro ⟨h1, h2⟩
        exact absurd (le_trans h1 h2) (by decide)
    · rw [hl]
      exact List.nodup_nil
    · intro k h1 h2
      omega
  | succ n ih =>
    intro hn
    obtain ⟨s, hs, e0, e1, e2, e3, e4, e5⟩ := ih (by push_cast at hn ⊢; omega)
    have hget : ∃ t, get_pid fuel s = .ok (((n + 1 : Nat) : Int), t) ∧
        t.procs = s.procs ∧ t.proc_list = s.proc_list ∧ t.last_pid = ((n + 1 : Nat) : Int) ∧
        t.next_safe = MAX_PID := by
      rcases Nat.eq_zero_or_pos n with h0 | h0
      · subst h0
        rw [e0 rfl]
        exact ⟨_, get_pid_boot hl hlast hfuel, rfl, rfl, rfl, rfl⟩
      · have hlp := e1 h0
        have h1 : s.last_pid + 1 < MAX_PID := by
          rw [hlp]
          push_cast at hn
          omega
        have h2 : s.last_pid + 1 < s.next_safe := by rw [e2]; exact h1
        have hv : s.last_pid + 1 = ((n + 1 : Nat) : Int) := by
          rw [hlp]
          push_cast
          rfl
        rw [← hv]
        exact ⟨_, get_pid_fast fuel h1 h2, rfl, rfl, rfl, e2⟩
    obtain ⟨t, ht, t1, t2, t3, t4⟩ := hget
    have hrun : get_pid_fill fuel (n + 1) s0 = .ok { t with
        procs := Function.update t.procs (n + 1)
          (some { (default : proc_struct) with pid := ((n + 1 : Nat) : Int) }),
        proc_list := list_add t.proc_list (n + 1) } := by
      rw [get_pid_fill, hs]
      simp only [ok_bind, ht]
    refine ⟨_, hrun, fun h => absurd h (Nat.succ_ne_zero n), fun _ => ?_, ?_, ?_, ?_, ?_⟩
    · exact t3
    · exact t4
    · intro x
      show x ∈ list_add t.proc_list (n + 1) ↔ _
      rw [list_add, List.mem_cons, t2, e3]
      omega
    · show (list_add t.proc_list (n + 1)).Nodup
      rw [list_add, t2]
      refine List.nodup_cons.mpr ⟨?_, e4⟩
      rw [e3]
      omega
    · intro k h1 h2
      show Function.update t.procs (n + 1) _ k = _
      by_cases hk : k = n + 1
      · subst hk
        simp
      · rw [Function.update_noteq hk, t1]
        exact e5 k h1 (by omega)

end Ucore

namespace Ucore

/-! ## Reaping all the children -/

/-- The exit code of the descriptor at `x`, 0 where there is none. -/
theorem exit_code_of_some {s : State} {x : Ptr} {d : proc_struct} (h : s.procs x = some d) :
    ((s.procs x).map (fun d => d.exit_code)).getD 0 = d.exit_code := by
  rw [h]
  rfl

/-- A call `do_wait(0, &c)` by a task with a zombie on its child list `l` reaps a zombie of
that list. -/
theorem do_wait_zero_reaps {s : State} (fuel a : Nat) {c : Ptr} {dc : proc_struct}
    {l : List Ptr} (hi : Inv s) (hcur : s.current = some c) (hc : s.procs c = some dc)
    (hch : Chain s.procs c dc.cptr none l)
    (hz : ∃ z ∈ l, ∃ dz, s.procs z = some dz ∧ dz.state = .PROC_ZOMBIE)
    (hfuel : s.proc_list.length < fuel) :
    ∃ w dw s', do_wait fuel s true 0 (some a) = .ok (.returned 0, s') ∧ w ∈ l ∧
      s.procs w = some dw ∧ dw.state = .PROC_ZOMBIE ∧ Inv s' ∧ s'.current = s.current ∧
      s'.intmem a = dw.exit_code ∧ s'.procs w = none ∧
      s'.proc_list = s.proc_list.erase w ∧ s'.nr_process = s.nr_process - 1 ∧
      (∀ x, x ≠ w → ∀ d, s.procs x = some d → ∃ d', s'.procs x = some d' ∧
        d'.parent = d.parent ∧ d'.state = d.state ∧ d'.exit_code = d.exit_code) ∧
      (∀ x, x ≠ w → s.procs x = none → s'.procs x = none) := by
  obtain ⟨hnd, hsub, hcomp⟩ := chain_complete hi.struct hc hch
  have hlen : l.length < fuel := by
    have := (hnd.subperm hsub).length_le
    omega
  obtain ⟨w, hw⟩ := do_wait_scan_total fuel false hch hlen hz
  obtain ⟨hwl, dw, hdw, hws⟩ := do_wait_scan_some fuel hch hw
  obtain ⟨dw', hdw', hwp⟩ := chain_mem hch w hwl
  rw [hdw] at hdw'
  cases hdw'
  have hrun : do_wait fuel s true 0 (some a) = do_wait_found s w (some a) := by
    unfold do_wait
    rw [if_neg (by simp)]
    simp [hcur, State.deref, hc, hw]
  have hwlist : w ∈ s.proc_list := hsub w hwl
  have hwi : some w ≠ s.initproc := by
    obtain ⟨n, dn, a1, b1, e1, f1, g1⟩ := hi.sched.init
    rw [a1]
    rintro hzn
    cases hzn
    rw [hdw] at e1
    cases e1
    exact f1 hws
  obtain ⟨s', hf, e1, e2, e3, e4, e5, e6, e7, e8, e9, e10, e11, e12, e13⟩ :=
    do_wait_found_of hi.struct (some a) hwlist hdw hwp hwi
  have hi' := inv_reap hi hwlist hdw hws hwp e1 e2 e3 e4 e5 e6 e7 e8 e11 e12 e13
  refine ⟨w, dw, s', hrun.trans hf, hwl, hdw, hws, hi', e8, ?_, e11, e1, e3, ?_, e13⟩
  · rw [e9]
    simp
  · intro x hxw d hd
    exact ⟨_, e12 x hxw d hd, rfl, rfl, rfl⟩

/-- The scenario `wait_n`: a task whose child list `l` holds `n` zombies reaps them all in
`n` calls of `do_wait(0, &c)`. -/
theorem wait_n_spec (fuel a : Nat) :
    ∀ (n : Nat) (s : State) (c : Ptr) (dc : proc_struct) (l : List Ptr), Inv s →
      s.current = some c → s.procs c = some dc → Chain s.procs c dc.cptr none l →
      l.length = n → (∀ x ∈ l, ∃ d, s.procs x = some d ∧ d.state = .PROC_ZOMBIE) →
      s.proc_list.length < fuel →
      ∃ (order : List Ptr) (cs : List Int) (s' : State),
        wait_n fuel a n s = .ok (cs, s') ∧ order.Perm l ∧
        cs = order.map (fun x => ((s.procs x).map (fun d => d.exit_code)).getD 0) ∧
        (∀ x, s.procs x = none → s'.procs x = none) ∧
        (∀ x, x ∈ s'.proc_list → x ∈ s.proc_list) ∧
        (∀ x ∈ l, s'.procs x = none ∧ x ∉ s'.proc_list) ∧
        (∃ dc', s'.procs c = some dc' ∧ dc'.cptr = none) ∧
        s'.nr_process + n = s.nr_process ∧ s'.current = some c := by
  intro n
  induction n with
  | zero =>
    intro s c dc l hi hcur hc hch hlen hz hfuel
    have hl : l = [] := List.length_eq_zero.mp hlen
    subst hl
    refine ⟨[], [], s, rfl, List.Perm.refl _, rfl, fun _ h => h, fun _ h => h, ?_,
      ⟨dc, hc, chain_nil.mp hch⟩, by simp, hcur⟩
    intro x hx
    simp at hx
  | succ n ih =>
    intro s c dc l hi hcur hc hch hlen hz hfuel
    obtain ⟨hnd, hsub, hcomp⟩ := chain_complete hi.struct hc hch
    have hne : ∃ z ∈ l, ∃ dz, s.procs z = some dz ∧ dz.state = .PROC_ZOMBIE := by
      cases l with
      | nil => simp at hlen
      | cons b t => exact ⟨b, by simp, hz b (by simp)⟩
    obtain ⟨w, dw, s1, hrun, hwl, hdw, hws, hi1, hcur1, hmem, hgone, hl1, hnr1, hx, hx0⟩ :=
      do_wait_zero_reaps fuel a hi hcur hc hch hne hfuel
    have hcw : c ≠ w := by
      rintro rfl
      obtain ⟨dw', hdw', hwp⟩ := chain_mem hch c hwl
      exact hi.struct.noself c dw' hdw' hwp
    obtain ⟨dc1, hdc1, -⟩ := hx c hcw dc hc
    -- the child list of the caller after the call
    obtain ⟨y0, hy0, dr, l1, hdr, hch1, hnd1, hsub1, hcomp1⟩ :=
      hi1.struct.fam c (by rw [hdc1]; rfl)
    have : y0 = none := hy0 (by simp)
    subst this
    rw [hdc1] at hdr
    cases hdr
    have hback : ∀ x d1, s1.procs x = some d1 → x ≠ w ∧ ∃ d, s.procs x = some d ∧
        d1.parent = d.parent ∧ d1.state = d.state ∧ d1.exit_code = d.exit_code := by
      intro x d1 hd1
      have hxw : x ≠ w := by
        rintro rfl
        rw [hgone] at hd1
        cases hd1
      refine ⟨hxw, ?_⟩
      cases hsx : s.procs x with
      | none =>
        rw [hx0 x hxw hsx] at hd1
        cases hd1
      | some d =>
        obtain ⟨d', hd', r⟩ := hx x hxw d hsx
        rw [hd'] at hd1
        cases hd1
        exact ⟨d, rfl, r⟩
    have hmem1 : ∀ x, x ∈ l1 ↔ x ∈ l.erase w := by
      intro x
      rw [hnd.mem_erase_iff]
      constructor
      · intro hx1
        obtain ⟨d1, hd1, hp1⟩ := chain_mem hch1 x hx1
        obtain ⟨hxw, d, hd, e1, -⟩ := hback x d1 hd1
        exact ⟨hxw, hcomp x d hd (by rw [← e1, hp1])⟩
      · rintro ⟨hxw, hxl⟩
        obtain ⟨d, hd, hp⟩ := chain_mem hch x hxl
        obtain ⟨d', hd', e1, -⟩ := hx x hxw d hd
        exact hcomp1 x d' hd' (by rw [e1, hp])
    have hperm1 : l1.Perm (l.erase w) :=
      (List.perm_ext_iff_of_nodup hnd1 (hnd.erase w)).mpr hmem1
    have hlen1 : l1.length = n := by
      rw [hperm1.length_eq, List.length_erase_of_mem hwl, hlen]
      rfl
    have hz1 : ∀ x ∈ l1, ∃ d, s1.procs x = some d ∧ d.state = .PROC_ZOMBIE := by
      intro x hx1
      have hx2 := (hnd.mem_erase_iff.mp ((hmem1 x).mp hx1))
      obtain ⟨d, hd, hst⟩ := hz x hx2.2
      obtain ⟨d', hd', -, e2, -⟩ := hx x hx2.1 d hd
      exact ⟨d', hd', by rw [e2, hst]⟩
    have hfuel1 : s1.proc_list.length < fuel := by
      rw [hl1]
      have := List.length_erase_le w s.proc_list
      omega
    obtain ⟨order1, cs1, s', hrun1, hp1, hcs1, k1, k2, k3, k4, k5, k6⟩ :=
      ih s1 c dc1 l1 hi1 (hcur1.trans hcur) hdc1 hch1 hlen1 hz1 hfuel1
    have hw1 : w ∉ s1.proc_list := by
      rw [hl1]
      exact fun h => (hi.struct.nodup.mem_erase_iff.mp h).1 rfl
    refine ⟨w :: order1, s1.intmem a :: cs1, s', ?_, ?_, ?_, ?_, ?_, ?_, k4, ?_, k6⟩
    · rw [wait_n, hrun]
      simp only [ok_bind, if_true, hrun1]
    · exact ((List.Perm.cons w hp1).trans (List.Perm.cons w hperm1)).trans
        (List.perm_cons_erase hwl).symm
    · rw [List.map_cons, exit_code_of_some hdw, hmem, hcs1]
      congr 1
      apply List.map_congr_left
      intro x hxo
      have hx1 : x ∈ l1 := hp1.subset hxo
      obtain ⟨d1, hd1, -⟩ := chain_mem hch1 x hx1
      obtain ⟨-, d, hd, -, -, e3⟩ := hback x d1 hd1
      rw [exit_code_of_some hd1, exit_code_of_some hd, e3]
    · intro x hx0'
      by_cases hxw : x = w
      · subst hxw
        exact k1 x hgone
      · exact k1 x (hx0 x hxw hx0')
    · intro x hxs
      have := k2 x hxs
      rw [hl1] at this
      exact List.mem_of_mem_erase this
    · intro x hxl
      by_cases hxw : x = w
      · subst hxw
        exact ⟨k1 x hgone, fun h => hw1 (k2 x h)⟩
      · exact k3 x ((hmem1 x).mpr (hnd.mem_erase_iff.mpr ⟨hxw, hxl⟩))
    · rw [hnr1] at k5
      push_cast
      omega

end Ucore

namespace Ucore

/-! ## The small machine, continued: a thread with a child of its own -/

/-- The tables of the machine after the idle task has forked the thread at 300. -/
theorem forked_more :
    forked.proc_list = [300, 200] ∧ forked.nr_process = 3 ∧
      (∀ x, x ≠ 100 → x ≠ 200 → x ≠ 300 → forked.procs x = none) ∧
      (∃ dq, forked.procs 200 = some dq ∧ dq.parent = some 100) := by
  obtain ⟨hr, hcur, hidle, hinit, hl, hnr, ⟨di, hdi, -, hdm, hdr, -⟩, ⟨dq, hdq, -, hqp, -⟩, hx⟩ :=
    booted_spec
  have hinv := reachable_inv hr
  have hk : fork_env.kmalloc = some (300, raw_block) := rfl
  have hks : fork_env.kstack = some 0xC0300000 := rfl
  have hfresh : booted.procs 300 = none := hx 300 (by decide) (by decide)
  have hroom : booted.nr_process < MAX_PROCESS := by rw [hnr]; simp [MAX_PROCESS]
  have hmm : ¬ copy_mm_fails di.mm fork_env.mm CLONE_VM := by
    rintro ⟨h, -⟩
    exact h hdm
  obtain ⟨v, n, s', h2, -, -, -, -, hl', -, hnr', -, -, -, -, -, -, -, hx', hx0, -⟩ :=
    do_fork_ok 20000 CLONE_VM 0 trapframe.zero hinv.struct hroom hk hfresh hcur hdi
      (hinv.sched.ws 100 di hdi hdr) hks hmm fuel_enough
  have hb : forked = s' := by
    unfold forked
    rw [h2]
  rw [hb]
  refine ⟨by rw [hl', hl], by rw [hnr', hnr]; rfl, ?_, ⟨_, hx' 200 (by decide) dq hdq, hqp⟩⟩
  intro x h1 h2' h3
  exact hx0 x h3 (hx x h1 h2')

/-- The tables of the machine once the thread at 300 runs. -/
theorem child_running_more :
    child_running.proc_list = [300, 200] ∧ child_running.nr_process = 3 ∧
      (∀ x, x ≠ 100 → x ≠ 200 → x ≠ 300 → child_running.procs x = none) ∧
      (∃ dq, child_running.procs 200 = some dq ∧ dq.parent = some 100) := by
  obtain ⟨hr, hcur, hidle, hinit, hl, ⟨ch, hch, c1, c2, c3⟩, ⟨di, hdi, hdr⟩⟩ := forked_spec
  obtain ⟨hl0, hnr0, hx0, ⟨dq, hdq, hqp⟩⟩ := forked_more
  obtain ⟨s', h2, -, hl', -, hnr', -, -, hnone, hx⟩ := schedule_of hcur hdi hch
  have hb : child_running = s' := by
    unfold child_running
    rw [h2]
  rw [hb]
  obtain ⟨dq', hdq', -, e2, -⟩ := hx 200 dq hdq
  exact ⟨hl'.trans hl0, hnr'.trans hnr0, fun x h1 h2' h3 => hnone x (hx0 x h1 h2' h3),
    ⟨dq', hdq', e2.trans hqp⟩⟩

/-- The machine after the thread at 300 has forked the thread at 400. -/
theorem grand_forked_spec :
    Reachable grand_forked ∧ grand_forked.current = some 300 ∧
      grand_forked.idleproc = some 100 ∧ grand_forked.initproc = some 200 ∧
      grand_forked.proc_list = [400, 300, 200] ∧
      (∃ dq, grand_forked.procs 200 = some dq ∧ dq.parent = some 100) ∧
      (∃ dt, grand_forked.procs 300 = some dt ∧ dt.parent = some 100 ∧ dt.cptr = some 400 ∧
        dt.state = .PROC_RUNNABLE) ∧
      (∃ dg, grand_forked.procs 400 = some dg ∧ dg.parent = some 300 ∧ dg.cptr = none ∧
        dg.state = .PROC_RUNNABLE) := by
  obtain ⟨hr, hcur, hidle, hinit, -, ⟨ch, hch, c1, c2, c3⟩, -⟩ := child_running_spec
  obtain ⟨hl0, hnr0, hx0, ⟨dq, hdq, hqp⟩⟩ := child_running_more
  have hinv := reachable_inv hr
  have hk : fork_env_grand.kmalloc = some (400, raw_block) := rfl
  have hks : fork_env_grand.kstack = some 0xC0400000 := rfl
  have hfresh : child_running.procs 400 = none := hx0 400 (by decide) (by decide) (by decide)
  have hroom : child_running.nr_process < MAX_PROCESS := by rw [hnr0]; simp [MAX_PROCESS]
  have hmm : ¬ copy_mm_fails ch.mm fork_env_grand.mm CLONE_VM := by
    rintro ⟨-, h, -⟩
    exact absurd h (by decide)
  obtain ⟨v, n, s', h2, -, -, -, -, hl', -, -, -, -, hidle', hinit', hcur', -,
    ⟨dg, hdg, -, g2, g3, -, -, g6, -⟩, hx', -, -⟩ :=
    do_fork_ok 20000 CLONE_VM 0 trapframe.zero hinv.struct hroom hk hfresh hcur hch
      (hinv.sched.ws 300 ch hch c3) hks hmm fuel_enough
  have hb : grand_forked = s' := by
    unfold grand_forked
    rw [h2]
  rw [hb]
  refine ⟨Reachable.fork 20000 child_running s' fork_env_grand CLONE_VM 0 trapframe.zero v hr
      ?_ ?_ h2, hcur'.trans hcur, hidle'.trans hidle, hinit'.trans hinit, by rw [hl', hl0],
    ⟨_, hx' 200 (by decide) dq hdq, hqp⟩, ⟨_, hx' 300 (by decide) ch hch, c1, by simp, c3⟩,
    ⟨dg, hdg, g2, g3, g6⟩⟩
  · intro p raw hp
    rw [hk] at hp
    simp only [Option.some.injEq, Prod.mk.injEq] at hp
    obtain ⟨rfl, -⟩ := hp
    exact hfresh
  · intro m hm
    cases hm

/-- The machine once the thread at 400 runs. -/
theorem grand_running_spec :
    Reachable grand_running ∧ grand_running.current = some 400 ∧
      grand_running.idleproc = some 100 ∧ grand_running.initproc = some 200 ∧
      grand_running.proc_list = [400, 300, 200] ∧
      (∃ dq, grand_running.procs 200 = some dq ∧ dq.parent = some 100) ∧
      (∃ dt, grand_running.procs 300 = some dt ∧ dt.parent = some 100 ∧
        dt.state = .PROC_RUNNABLE) ∧
      (∃ dg, grand_running.procs 400 = some dg ∧ dg.parent = some 300 ∧ dg.cptr = none ∧
        dg.state = .PROC_RUNNABLE) := by
  obtain ⟨hr, hcur, hidle, hinit, hl, ⟨dq, hdq, hqp⟩, ⟨dt, hdt, t1, t2, t3⟩,
    ⟨dg, hdg, g1, g2, g3⟩⟩ := grand_forked_spec
  obtain ⟨s', h2, hcur', hl', -, -, hidle', hinit', -, hx⟩ := schedule_of hcur hdt hdg
  have hb : grand_running = s' := by
    unfold grand_running
    rw [h2]
  rw [hb]
  obtain ⟨dq', hdq', -, q2, -⟩ := hx 200 dq hdq
  obtain ⟨dt', hdt', -, e2, -, -, -, e6, -⟩ := hx 300 dt hdt
  obtain ⟨dg', hdg', -, f2, f3, -, -, f6, -⟩ := hx 400 dg hdg
  exact ⟨Reachable.resched grand_forked s' 400 hr ⟨dg, hdg, g3⟩ h2, hcur',
    hidle'.trans hidle, hinit'.trans hinit, hl'.trans hl, ⟨dq', hdq', q2.trans hqp⟩,
    ⟨dt', hdt', e2.trans t1, e6.trans t3⟩, ⟨dg', hdg', f2.trans g1, f3.trans g2, f6.trans g3⟩⟩

/-- The machine after the thread at 400 has exited with code 7 and its parent runs again:
the thread at 300 has a zombie child. -/
theorem grand_exited_spec :
    Reachable grand_exited ∧ grand_exited.current = some 300 ∧
      grand_exited.proc_list = [400, 300, 200] ∧
      (∃ dq, grand_exited.procs 200 = some dq ∧ dq.parent = some 100) ∧
      (∃ dt, grand_exited.procs 300 = some dt ∧ dt.parent = some 100) ∧
      (∃ dz, grand_exited.procs 400 = some dz ∧ dz.state = .PROC_ZOMBIE ∧
        dz.parent = some 300 ∧ dz.exit_code = 7) := by
  obtain ⟨hr, hcur, hidle, hinit, hl, ⟨dq, hdq, hqp⟩, ⟨dt, hdt, t1, t3⟩,
    ⟨dg, hdg, g1, g2, g3⟩⟩ := grand_running_spec
  have hinv := reachable_inv hr
  have hni : grand_running.current ≠ grand_running.idleproc := by
    rw [hcur, hidle]
    decide
  have hnn : grand_running.current ≠ grand_running.initproc := by
    rw [hcur, hinit]
    decide
  obtain ⟨⟨i, hi, hci, hA⟩, hB⟩ := do_exit_spec 20000 7 hinv hcur hdg hni hnn
  have hlen : grand_running.proc_list.length < 20000 := by
    rw [hl]
    decide
  obtain ⟨s1, h1⟩ := hB hlen
  obtain ⟨r1, r2, e1, -, -, e4, e5, e6, ⟨dc', hdc', z1, z2, -, -, -, z6⟩, hx, -, -⟩ := hA s1 h1
  obtain ⟨dt1, hdt1, -, tp, -, hst⟩ := hx 300 dt hdt
  obtain ⟨dq1, hdq1, -, qp, -⟩ := hx 200 dq hdq
  have ht_run : dt1.state = .PROC_RUNNABLE := by
    rcases (hst (by decide)).2.2 with h | h
    · rw [h]; exact t3
    · exact h
  obtain ⟨s2, h2, hcur2, hl2, -, -, -, -, -, hx2⟩ :=
    schedule_of (e6.trans hcur) hdc' hdt1
  have hb : grand_exited = s2 := by
    unfold grand_exited
    rw [h1]
    simp only
    rw [h2]
  rw [hb]
  obtain ⟨dz, hdz, -, f2, -, -, -, f6, -, -, f9, -⟩ := hx2 400 dc' hdc'
  obtain ⟨dt2, hdt2, -, tp2, -⟩ := hx2 300 dt1 hdt1
  obtain ⟨dq2, hdq2, -, qp2, -⟩ := hx2 200 dq1 hdq1
  rw [t1, if_neg (by decide)] at tp
  rw [hqp, if_neg (by decide)] at qp
  exact ⟨Reachable.exit 20000 grand_running s1 s2 7 300 hr h1 ⟨dt1, hdt1, ht_run⟩ h2,
    hcur2, by rw [hl2, e1]; exact hl, ⟨dq2, hdq2, qp2.trans qp⟩, ⟨dt2, hdt2, tp2.trans tp⟩,
    ⟨dz, hdz, f6.trans z1, (f2.trans z6).trans g1, f9.trans z2⟩⟩

end Ucore

namespace Ucore

/-! ## Loading the segments of an image -/

/-- A call of `mm_map` for a range inside the user address space that meets no range
reserved before, when the region record can be allocated: it returns 0 and records the
range; the page directory and the page tables are as before. -/
theorem mm_map_ok (s : State) (mm addr len fl : Nat)
    (hua : USER_ACCESS (ROUNDDOWN addr PGSIZE) (ROUNDUP (wrap32 (addr + len)) PGSIZE))
    (hno : ∀ v ∈ (s.mms mm).mmap_list,
      v.vm_end ≤ ROUNDDOWN addr PGSIZE ∨ ROUNDUP (wrap32 (addr + len)) PGSIZE ≤ v.vm_start) :
    ∃ s', mm_map s mm addr len fl true = (0, s') ∧ s'.pgtab = s.pgtab ∧
      (s'.mms mm).pgdir = (s.mms mm).pgdir ∧
      (s'.mms mm).mmap_list =
        ⟨ROUNDDOWN addr PGSIZE, ROUNDUP (wrap32 (addr + len)) PGSIZE, fl⟩ ::
          (s.mms mm).mmap_list := by
  have hany : ((s.mms mm).mmap_list.any (fun v => decide (ROUNDDOWN addr PGSIZE < v.vm_end ∧
      v.vm_start < ROUNDUP (wrap32 (addr + len)) PGSIZE))) = false := by
    rw [List.any_eq_false]
    intro v hv
    simp only [decide_eq_true_eq]
    rcases hno v hv with h | h <;> omega
  unfold mm_map
  simp only []
  rw [if_neg (not_not.mpr hua), hany]
  simp [State.call, State.storemm]

theorem user_byte_of_pgtab {s s' : State} (h : s'.pgtab = s.pgtab) (pd a : Nat) :
    user_byte s' pd a = user_byte s pd a := by
  unfold user_byte
  rw [h]

/-- The addresses of a segment lie in its pages. -/
theorem seg_range (ph : proghdr) (h : ph.p_va + ph.p_memsz + PGSIZE < 2 ^ 32) (k : Nat)
    (hk : k < ph.p_memsz) : seg_lo ph ≤ ph.p_va + k ∧ ph.p_va + k < seg_hi ph := by
  rw [seg_lo_eq, seg_hi_eq ph h]
  omega

/-- Steps (3.5) to (3.6.2) for one program header with `0 < p_filesz <= p_memsz` whose range
lies in the user address space below the stack and meets no range reserved before. -/
theorem load_segment_spec (s : State) (env : ExecEnv) (img : binary) (m pd : Nat)
    (ph : proghdr) (fuel : Nat) (hpd : (s.mms m).pgdir = some pd)
    (hvc : ∀ a, env.vma_create a = true) (hpa : ∀ la, (env.page_alloc la).isSome)
    (hfs : 0 < ph.p_filesz) (hfm : ph.p_filesz ≤ ph.p_memsz) (hlo : USERBASE ≤ ph.p_va)
    (hhi : ph.p_va + ph.p_memsz ≤ USTACKTOP - USTACKSIZE)
    (hno : ∀ v ∈ (s.mms m).mmap_list, v.vm_end ≤ seg_lo ph ∨ seg_hi ph ≤ v.vm_start)
    (hfuel : 2 ^ 20 < fuel) :
    ∃ s', load_segment fuel s env img m ph = .ok (0, s') ∧
      (∀ k, k < ph.p_filesz →
        user_byte s' pd (ph.p_va + k) = some (img.bytes (ph.p_offset + k))) ∧
      (∀ k, ph.p_filesz ≤ k → k < ph.p_memsz → user_byte s' pd (ph.p_va + k) = some 0) ∧
      (∀ a, a < seg_lo ph ∨ seg_hi ph ≤ a → user_byte s' pd a = user_byte s pd a) ∧
      (s'.mms m).pgdir = some pd ∧
      (s'.mms m).mmap_list = ⟨seg_lo ph, seg_hi ph, seg_vm_flags ph⟩ :: (s.mms m).mmap_list := by
  have hP : PGSIZE = 4096 := rfl
  have hend : ph.p_va + ph.p_memsz + PGSIZE < 2 ^ 32 := by
    have : USTACKTOP - USTACKSIZE = 0xAFF00000 := by decide
    omega
  have hua : USER_ACCESS (seg_lo ph) (seg_hi ph) := by
    have h1 : USTACKTOP - USTACKSIZE = 0xAFF00000 := by decide
    have h2 : USERBASE = 0x200000 := rfl
    have h3 : USERTOP = 0xB0000000 := rfl
    unfold USER_ACCESS
    rw [seg_lo_eq, seg_hi_eq ph hend]
    omega
  obtain ⟨s1, hmap, e1, e2, e3⟩ := mm_map_ok s m ph.p_va ph.p_memsz (seg_vm_flags ph) hua hno
  obtain ⟨s2, hrun, f1, f2, f3, f4⟩ :=
    load_pages_spec s1 env img pd ph fuel hpa hfs hfm hend hfuel
  have hpd1 : (s1.mms m).pgdir = some pd := e2.trans hpd
  refine ⟨s2, ?_, f1, f2, ?_, ?_, ?_⟩
  · unfold load_segment
    rw [hvc, hmap]
    simp only [ne_eq, not_true_eq_false, if_false, hpd1]
    exact hrun
  · intro a ha
    rw [f3 a ha, user_byte_of_pgtab e1]
  · rw [f4]
    exact hpd1
  · rw [f4]
    exact e3

/-- The loop over the program headers, when every loadable segment has
`0 < p_filesz <= p_memsz`, lies in the user address space below the stack, and the segments
occupy pairwise disjoint pages that meet no range reserved before: every segment is loaded,
and the bytes outside the pages of the segments are untouched. -/
theorem load_segments_spec (env : ExecEnv) (img : binary) (m pd : Nat) (fuel : Nat)
    (hvc : ∀ a, env.vma_create a = true) (hpa : ∀ la, (env.page_alloc la).isSome)
    (hfuel : 2 ^ 20 < fuel) :
    ∀ (phs : List proghdr) (s : State), (s.mms m).pgdir = some pd →
      (∀ ph ∈ phs, ph.p_type = ELF_PT_LOAD →
        0 < ph.p_filesz ∧ ph.p_filesz ≤ ph.p_memsz ∧ USERBASE ≤ ph.p_va ∧
          ph.p_va + ph.p_memsz ≤ USTACKTOP - USTACKSIZE) →
      phs.Pairwise (fun a b =>
        a.p_type = ELF_PT_LOAD → b.p_type = ELF_PT_LOAD → SegDisjoint a b) →
      (∀ v ∈ (s.mms m).mmap_list, ∀ ph ∈ phs, ph.p_type = ELF_PT_LOAD →
        v.vm_end ≤ seg_lo ph ∨ seg_hi ph ≤ v.vm_start) →
      ∃ s', load_segments fuel env img m s phs = .ok (0, s') ∧ (s'.mms m).pgdir = some pd ∧
        (∀ ph ∈ phs, ph.p_type = ELF_PT_LOAD →
          (∀ k, k < ph.p_filesz →
            user_byte s' pd (ph.p_va + k) = some (img.bytes (ph.p_offset + k))) ∧
          (∀ k, ph.p_filesz ≤ k → k < ph.p_memsz →
            user_byte s' pd (ph.p_va + k) = some 0)) ∧
        (∀ a, (∀ ph ∈ phs, ph.p_type = ELF_PT_LOAD → a < seg_lo ph ∨ seg_hi ph ≤ a) →
          user_byte s' pd a = user_byte s pd a) ∧
        (∀ v ∈ (s'.mms m).mmap_list, v ∈ (s.mms m).mmap_list ∨
          ∃ ph ∈ phs, ph.p_type = ELF_PT_LOAD ∧ v.vm_start = seg_lo ph ∧
            v.vm_end = seg_hi ph) := by
  intro phs
  induction phs with
  | nil =>
    intro s hpd _ _ _
    refine ⟨s, rfl, hpd, ?_, fun _ _ => rfl, fun v hv => Or.inl hv⟩
    intro ph hph
    simp at hph
  | cons ph rest ih =>
    intro s hpd hok hdis hno
    obtain ⟨hdis1, hdis2⟩ := List.pairwise_cons.mp hdis
    by_cases hty : ph.p_type = ELF_PT_LOAD
    · obtain ⟨hfs, hfm, hlo, hhi⟩ := hok ph (by simp) hty
      have hend : ph.p_va + ph.p_memsz + PGSIZE < 2 ^ 32 := by
        have hP : PGSIZE = 4096 := rfl
        have : USTACKTOP - USTACKSIZE = 0xAFF00000 := by decide
        omega
      obtain ⟨s1, hrun1, a1, a2, a3, a4, a5⟩ :=
        load_segment_spec s env img m pd ph fuel hpd hvc hpa hfs hfm hlo hhi
          (fun v hv => hno v hv ph (by simp) hty) hfuel
      have hno1 : ∀ v ∈ (s1.mms m).mmap_list, ∀ ph' ∈ rest, ph'.p_type = ELF_PT_LOAD →
          v.vm_end ≤ seg_lo ph' ∨ seg_hi ph' ≤ v.vm_start := by
        intro v hv ph' hph' hty'
        rw [a5] at hv
        rcases List.mem_cons.mp hv with rfl | hv
        · rcases hdis1 ph' hph' hty hty' with h | h
          · exact Or.inl h
          · exact Or.inr h
        · exact hno v hv ph' (by simp [hph']) hty'
      obtain ⟨s2, hrun2, b1, b2, b3, b4⟩ :=
        ih s1 a4 (fun p hp => hok p (by simp [hp])) hdis2 hno1
      -- the pages of the first segment are not among those of the others
      have hkeep : ∀ k, k < ph.p_memsz →
          user_byte s2 pd (ph.p_va + k) = user_byte s1 pd (ph.p_va + k) := by
        intro k hk
        apply b3
        intro ph' hph' hty'
        obtain ⟨r1, r2⟩ := seg_range ph hend k hk
        rcases hdis1 ph' hph' hty hty' with h | h
        · exact Or.inl (by unfold SegDisjoint at *; omega)
        · exact Or.inr (by omega)
      refine ⟨s2, ?_, b1, ?_, ?_, ?_⟩
      · rw [load_segments, if_neg (not_not.mpr hty), if_neg (by omega), if_neg (by omega),
          hrun1]
        simp only [ne_eq, not_true_eq_false, if_false]
        exact hrun2
      · intro p hp hpt
        rcases List.mem_cons.mp hp with rfl | hp
        · refine ⟨fun k hk => ?_, fun k hk1 hk2 => ?_⟩
          · rw [hkeep k (by omega)]
            exact a1 k hk
          · rw [hkeep k hk2]
            exact a2 k hk1 hk2
        · exact b2 p hp hpt
      · intro a ha
        rw [b3 a (fun p hp hpt => ha p (by simp [hp]) hpt), a3 a (ha ph (by simp) hty)]
      · intro v hv
        rcases b4 v hv with h | ⟨p, hp, hpt, h1, h2⟩
        · rw [a5] at h
          rcases List.mem_cons.mp h with rfl | h
          · exact Or.inr ⟨ph, by simp, hty, rfl, rfl⟩
          · exact Or.inl h
        · exact Or.inr ⟨p, by simp [hp], hpt, h1, h2⟩
    · obtain ⟨s2, hrun2, b1, b2, b3, b4⟩ :=
        ih s hpd (fun p hp => hok p (by simp [hp])) hdis2
          (fun v hv p hp => hno v hv p (by simp [hp]))
      refine ⟨s2, ?_, b1, ?_, ?_, ?_⟩
      · rw [load_segments, if_pos hty]
        exact hrun2
      · intro p hp hpt
        rcases List.mem_cons.mp hp with rfl | hp
        · exact absurd hpt hty
        · exact b2 p hp hpt
      · intro a ha
        exact b3 a (fun p hp hpt => ha p (by simp [hp]) hpt)
      · intro v hv
        rcases b4 v hv with h | ⟨p, hp, hpt, h1, h2⟩
        · exact Or.inl h
        · exact Or.inr ⟨p, by simp [hp], hpt, h1, h2⟩

/-- Steps (1) and (2) of `load_icode` when both allocations succeed: the new address space
has its page directory and no region yet. -/
theorem setup_state (s : State) (m pg : Nat) :
    mm_create s (some m) = (some m, (mm_create s (some m)).2) ∧
    setup_pgdir (mm_create s (some m)).2 (some pg) m =
      (0, (setup_pgdir (mm_create s (some m)).2 (some pg) m).2) ∧
    ((setup_pgdir (mm_create s (some m)).2 (some pg) m).2.mms m).pgdir = some pg ∧
    ((setup_pgdir (mm_create s (some m)).2 (some pg) m).2.mms m).mmap_list = [] ∧
    MmOnly s (setup_pgdir (mm_create s (some m)).2 (some pg) m).2 := by
  refine ⟨rfl, rfl, ?_, ?_, (mmOnly_mm_create s _).trans (mmOnly_setup_pgdir _ _ _)⟩
  · simp [setup_pgdir, mm_create, State.storemm, State.call]
  · simp [setup_pgdir, mm_create, State.storemm, State.call]

/-- One of the four stack pages of step (4), when the page can be allocated. -/
theorem load_stack_page_ok (s : State) (env : ExecEnv) (m pd la : Nat)
    (hpd : (s.mms m).pgdir = some pd) (hpa : ∀ la, (env.page_alloc la).isSome)
    (hla : la % PGSIZE = 0) :
    ∃ s', load_stack_page s env m la = .ok s' ∧ s'.mms = s.mms ∧
      ∀ a, a < la ∨ la + PGSIZE ≤ a → user_byte s' pd a = user_byte s pd a := by
  obtain ⟨data, hdata⟩ := Option.isSome_iff_exists.mp (hpa la)
  refine ⟨(pgdir_alloc_page s (some pd) la PTE_USER (some data)).2, ?_, rfl, ?_⟩
  · unfold load_stack_page
    rw [hpd, hdata]
    rfl
  · intro a ha
    rw [user_byte_alloc _ _ _ _ _ _ hla, if_neg (by omega)]

/-- Steps (5) and (6) of `load_icode` for a current task with a trap frame. -/
theorem load_finish_ok (t : State) (m c e : Nat) (d : proc_struct) (tfa : Nat)
    (hd : t.procs c = some d) (htf : d.tf = some tfa) :
    ∃ t', load_finish t m c e = .ok (0, t') ∧ t'.pgtab = t.pgtab ∧
      (t'.mms m).pgdir = (t.mms m).pgdir ∧
      t'.procs = Function.update t.procs c
        (some { d with mm := some m, cr3 := PADDR ((t.mms m).pgdir.getD 0) }) := by
  unfold load_finish
  simp [mm_count_inc, State.storemm, State.modify, hd, State.store, State.deref, State.call,
    htf]

/-- The whole of `load_icode` for an image with valid magic whose loadable segments have
`0 < p_filesz <= p_memsz`, lie in the user address space below the stack and occupy pairwise
disjoint pages, when every allocation succeeds: it returns 0, binds the new address space to
the current task, and every segment is in place in the new address space. -/
theorem load_icode_spec (fuel : Nat) (s : State) (env : ExecEnv) (img : binary) (c : Ptr)
    (dc : proc_struct) (m pg tfa : Nat) (hcur : s.current = some c) (hc : s.procs c = some dc)
    (hmm : dc.mm = none) (htf : dc.tf = some tfa) (hm : env.mm_create = some m)
    (hpg : env.alloc_page = some pg) (hvc : ∀ a, env.vma_create a = true)
    (hpa : ∀ la, (env.page_alloc la).isSome) (hmagic : img.e_magic = ELF_MAGIC)
    (hok : ∀ ph ∈ img.ph, ph.p_type = ELF_PT_LOAD →
      0 < ph.p_filesz ∧ ph.p_filesz ≤ ph.p_memsz ∧ USERBASE ≤ ph.p_va ∧
        ph.p_va + ph.p_memsz ≤ USTACKTOP - USTACKSIZE)
    (hdis : img.ph.Pairwise (fun a b =>
      a.p_type = ELF_PT_LOAD → b.p_type = ELF_PT_LOAD → SegDisjoint a b))
    (hfuel : 2 ^ 20 < fuel) :
    ∃ s', load_icode fuel s env img = .ok (0, s') ∧
      s'.procs = Function.update s.procs c (some { dc with mm := some m, cr3 := PADDR pg }) ∧
      (s'.mms m).pgdir = some pg ∧
      (∀ ph ∈ img.ph, ph.p_type = ELF_PT_LOAD →
        (∀ k, k < ph.p_filesz →
          user_byte s' pg (ph.p_va + k) = some (img.bytes (ph.p_offset + k))) ∧
        (∀ k, ph.p_filesz ≤ k → k < ph.p_memsz →
          user_byte s' pg (ph.p_va + k) = some 0)) := by
  have hP : PGSIZE = 4096 := rfl
  have hT : USTACKTOP = 0xB0000000 := rfl
  have hS : USTACKTOP - USTACKSIZE = 0xAFF00000 := by decide
  obtain ⟨q1, q2, q3, q4, q5⟩ := setup_state s m pg
  -- the segments
  obtain ⟨s3, hrun3, a1, a2, a3, a4⟩ :=
    load_segments_spec env img m pg fuel hvc hpa hfuel img.ph _ q3 hok hdis
      (by rw [q4]; intro v hv; simp at hv)
  have h3 : MmOnly s s3 := q5.trans (mmOnly_load_segments _ _ _ _ hrun3)
  -- the stack region
  have hua : USER_ACCESS (ROUNDDOWN (USTACKTOP - USTACKSIZE) PGSIZE)
      (ROUNDUP (wrap32 (USTACKTOP - USTACKSIZE + USTACKSIZE)) PGSIZE) := by decide
  have hlo4 : ROUNDDOWN (USTACKTOP - USTACKSIZE) PGSIZE = 0xAFF00000 := by decide
  obtain ⟨s4, hmap, e1, e2, e3⟩ := mm_map_ok s3 m (USTACKTOP - USTACKSIZE) USTACKSIZE
    (VM_READ ||| VM_WRITE ||| VM_STACK) hua (by
      intro v hv
      left
      rw [hlo4]
      rcases a4 v hv with h | ⟨ph, hph, hty, h1, h2⟩
      · rw [q4] at h
        simp at h
      · obtain ⟨-, -, -, hhi⟩ := hok ph hph hty
        have hend : ph.p_va + ph.p_memsz + PGSIZE < 2 ^ 32 := by omega
        rw [h2, seg_hi_eq ph hend]
        omega)
  have hpd4 : (s4.mms m).pgdir = some pg := e2.trans a1
  have h4 : MmOnly s s4 := by
    have := mmOnly_mm_map s3 m (USTACKTOP - USTACKSIZE) USTACKSIZE
      (VM_READ ||| VM_WRITE ||| VM_STACK) true
    rw [hmap] at this
    exact h3.trans this
  -- the four stack pages
  obtain ⟨s5, hr5, m5, b5⟩ := load_stack_page_ok s4 env m pg (USTACKTOP - PGSIZE) hpd4 hpa
    (by decide)
  obtain ⟨s6, hr6, m6, b6⟩ := load_stack_page_ok s5 env m pg (USTACKTOP - 2 * PGSIZE)
    (by rw [m5]; exact hpd4) hpa (by decide)
  obtain ⟨s7, hr7, m7, b7⟩ := load_stack_page_ok s6 env m pg (USTACKTOP - 3 * PGSIZE)
    (by rw [m6, m5]; exact hpd4) hpa (by decide)
  obtain ⟨s8, hr8, m8, b8⟩ := load_stack_page_ok s7 env m pg (USTACKTOP - 4 * PGSIZE)
    (by rw [m7, m6, m5]; exact hpd4) hpa (by decide)
  have hpd8 : (s8.mms m).pgdir = some pg := by rw [m8, m7, m6, m5]; exact hpd4
  have h8 : MmOnly s s8 :=
    (((h4.trans (mmOnly_load_stack_page hr5)).trans (mmOnly_load_stack_page hr6)).trans
      (mmOnly_load_stack_page hr7)).trans (mmOnly_load_stack_page hr8)
  have hc8 : s8.procs c = some dc := by rw [h8.procs]; exact hc
  obtain ⟨s9, hr9, p9, g9, f9⟩ := load_finish_ok s8 m c img.e_entry dc tfa hc8 htf
  refine ⟨s9, ?_, ?_, g9.trans hpd8, ?_⟩
  · unfold load_icode
    simp only [hcur, State.deref, hc, ok_bind, hmm, ne_eq, not_true_eq_false, if_false, hm,
      hpg]
    rw [q1]
    simp only []
    rw [q2]
    simp only [ne_eq, not_true_eq_false, if_false, hmagic]
    rw [hrun3]
    simp only [ok_bind, ne_eq, not_true_eq_false, if_false, hvc]
    rw [hmap]
    simp only [ne_eq, not_true_eq_false, if_false, hr5, hr6, hr7, hr8, ok_bind]
    exact hr9
  · rw [f9, h8.procs, hpd8]
    rfl
  · intro ph hph hty
    obtain ⟨-, hfm, -, hhi⟩ := hok ph hph hty
    have hkeep : ∀ k, k < ph.p_memsz →
        user_byte s9 pg (ph.p_va + k) = user_byte s3 pg (ph.p_va + k) := by
      intro k hk
      rw [user_byte_of_pgtab p9, b8 _ (Or.inl (by omega)), b7 _ (Or.inl (by omega)),
        b6 _ (Or.inl (by omega)), b5 _ (Or.inl (by omega)), user_byte_of_pgtab e1]
    obtain ⟨c1, c2⟩ := a2 ph hph hty
    refine ⟨fun k hk => ?_, fun k hk1 hk2 => ?_⟩
    · rw [hkeep k (by omega)]
      exact c1 k hk
    · rw [hkeep k hk2]
      exact c2 k hk1 hk2

end Ucore

namespace Ucore

/-! ## The contracts of the task manager -/

/-- Claim C1.  In every reachable state with `nr_process < MAX_PROCESS`, when `alloc_proc`
(`kmalloc` hands back a block that is not a live descriptor), `setup_kstack` and `copy_mm`
succeed, `do_fork` returns the pid of the child, a positive value.  Afterwards the child is
in the task list, is what `find_proc` returns for its pid, is RUNNABLE with `wakeup_proc`
called on it, has the caller as its parent and is the head of the caller's child list (the
caller's `cptr` is the child, the child's `optr` is the former `cptr`, its `yptr` is null),
and `nr_process` is one larger than before. -/
theorem do_fork_success (s : State) (env : ForkEnv) (fuel clone_flags stack : Nat)
    (tf : trapframe) (p : Ptr) (raw : proc_struct) (k : Nat)
    (hr : Reachable s) (hroom : s.nr_process < MAX_PROCESS)
    (hk : env.kmalloc = some (p, raw)) (hfresh : s.procs p = none)
    (hks : env.kstack = some k)
    (hmm : ∀ c dc, s.current = some c → s.procs c = some dc →
      ¬ copy_mm_fails dc.mm env.mm clone_flags)
    (hfuel : 2 * MAX_PID < fuel) :
    ∃ pid s' c dc dc' ch, do_fork fuel s env clone_flags stack tf = .ok (pid, s') ∧ 0 < pid ∧
      s.current = some c ∧ s.procs c = some dc ∧ s'.procs c = some dc' ∧
      s'.procs p = some ch ∧ ch.pid = pid ∧
      p ∈ s'.proc_list ∧ find_proc s' pid = .ok (some p) ∧
      ch.state = .PROC_RUNNABLE ∧ Call.wakeup_proc p ∈ s'.log ∧
      ch.parent = s.current ∧ s'.current = s.current ∧
      dc'.cptr = some p ∧ ch.optr = dc.cptr ∧ ch.yptr = none ∧
      s'.nr_process = s.nr_process + 1 := by
  have hi := reachable_inv hr
  obtain ⟨c, dc, hcur, hc, hrun⟩ := hi.cur
  have hws := hi.sched.ws c dc hc hrun
  have hcp : c ≠ p := by
    rintro rfl
    rw [hfresh] at hc
    cases hc
  obtain ⟨v, n, s', h2, hv1, hvn, hn, hfree, hl, hh, hnr, hlast, hnext, hidle, hinit, hcur',
    ⟨rest, hlog⟩, ⟨ch, hch, c1, c2, c3, c4, c5, c6, c7, c8, c9⟩, hx, hx0, -⟩ :=
    do_fork_ok fuel clone_flags stack tf hi.struct hroom hk hfresh hcur hc hws hks
      (hmm c dc hcur hc) hfuel
  have hi' : Inv s' :=
    inv_fork hi hcur hc hfresh hroom hv1 hvn hn hfree hl hh hnr hlast hnext hidle hinit hcur'
      hch ⟨c1, c2, c3, c4, c5, c6, c7⟩ hx hx0
  have hpl : p ∈ s'.proc_list := by rw [hl]; exact List.mem_cons_self _ _
  have hfind := find_proc_struct hi'.struct hpl hch
  rw [c1] at hfind
  refine ⟨v, s', c, dc, _, ch, h2, by omega, hcur, hc, hx c hcp dc hc, hch, c1, hpl, hfind, c6,
    by rw [hlog]; exact List.mem_cons_self _ _, by rw [c2, hcur], hcur', by simp, c5, c4, hnr⟩

theorem do_fork_success_witness :
    ∃ pid s' c dc dc' ch,
      do_fork 20000 booted fork_env CLONE_VM 0 trapframe.zero = .ok (pid, s') ∧ 0 < pid ∧
      booted.current = some c ∧ booted.procs c = some dc ∧ s'.procs c = some dc' ∧
      s'.procs 300 = some ch ∧ ch.pid = pid ∧
      300 ∈ s'.proc_list ∧ find_proc s' pid = .ok (some 300) ∧
      ch.state = .PROC_RUNNABLE ∧ Call.wakeup_proc 300 ∈ s'.log ∧
      ch.parent = booted.current ∧ s'.current = booted.current ∧
      dc'.cptr = some 300 ∧ ch.optr = dc.cptr ∧ ch.yptr = none ∧
      s'.nr_process = booted.nr_process + 1 :=
  do_fork_success booted fork_env 20000 CLONE_VM 0 trapframe.zero 300 raw_block 0xC0300000
    booted_spec.1
    (by rw [booted_spec.2.2.2.2.2.1]; decide) rfl
    (booted_spec.2.2.2.2.2.2.2.2 300 (by decide) (by decide)) rfl
    (fun _ _ _ _ h => absurd h.2.1 (by decide)) fuel_enough

/-- Claim C2.  In every reachable state (the cursors `last_pid` and `next_safe` are the ones
earlier calls left behind) `get_pid` returns a value `v` with `1 <= v <= MAX_PID` that no
descriptor of the task list has as its pid. -/
theorem get_pid_unused (s : State) (fuel : Nat) (hr : Reachable s)
    (hfuel : 2 * MAX_PID < fuel) :
    ∃ v s', get_pid fuel s = .ok (v, s') ∧ 1 ≤ v ∧ v ≤ MAX_PID ∧
      ∀ p ∈ s.proc_list, ∀ d, s.procs p = some d → d.pid ≠ v := by
  have hs := (reachable_inv hr).struct
  have hlen : (s.proc_list.length : Int) < MAX_PID - 1 := by
    have := hs.count
    simp only [MAX_PID, MAX_PROCESS] at this ⊢
    omega
  obtain ⟨v, n, hg, hv1, hvn, hn, hfree⟩ := get_pid_spec s fuel
    (fun p hp => (hs.valid p).mpr (Or.inl hp)) hs.window hs.cursors hlen hfuel
  refine ⟨v, _, hg, hv1, by omega, ?_⟩
  intro p hp d hd hpid
  rcases hfree p hp d hd with h | h <;> omega

theorem get_pid_unused_witness :
    ∃ v s', get_pid 20000 booted = .ok (v, s') ∧ 1 ≤ v ∧ v ≤ MAX_PID ∧
      ∀ p ∈ booted.proc_list, ∀ d, booted.procs p = some d → d.pid ≠ v :=
  get_pid_unused booted 20000 booted_spec.1 fuel_enough

/-- Claim C3.  Pid uniqueness is an invariant: in every reachable state no two descriptors
found in the task list or in the pid hash have the same pid, and no descriptor other than
idle has pid -1 or 0. -/
theorem pid_unique (s : State) (hr : Reachable s) :
    (∀ p q dp dq, (p ∈ s.proc_list ∨ ∃ i, p ∈ s.hash_list i) →
      (q ∈ s.proc_list ∨ ∃ i, q ∈ s.hash_list i) →
      s.procs p = some dp → s.procs q = some dq → dp.pid = dq.pid → p = q) ∧
    (∀ p d, s.procs p = some d → d.pid = -1 ∨ d.pid = 0 → s.idleproc = some p) := by
  have hs := (reachable_inv hr).struct
  have hin : ∀ p, (p ∈ s.proc_list ∨ ∃ i, p ∈ s.hash_list i) → p ∈ s.proc_list := by
    rintro p (h | ⟨i, h⟩)
    · exact h
    · exact ((hs.hash i p).mp h).1
  refine ⟨?_, ?_⟩
  · intro p q dp dq hp hq hdp hdq hpid
    apply hs.pid_inj p (hin p hp) q (hin q hq)
    simp [pid_of, hdp, hdq, hpid]
  · intro p d hd hpid
    rcases (hs.valid p).mp (by rw [hd]; rfl) with h | h
    · have := hs.pid_range p h d hd
      rcases hpid with h' | h' <;> omega
    · exact h

theorem pid_unique_witness :
    (∀ p q dp dq, (p ∈ forked.proc_list ∨ ∃ i, p ∈ forked.hash_list i) →
      (q ∈ forked.proc_list ∨ ∃ i, q ∈ forked.hash_list i) →
      forked.procs p = some dp → forked.procs q = some dq → dp.pid = dq.pid → p = q) ∧
    (∀ p d, forked.procs p = some d → d.pid = -1 ∨ d.pid = 0 → forked.idleproc = some p) :=
  pid_unique forked forked_spec.1

/-- Claim C4.  `do_fork` is atomic on failure: in every reachable state, at each failure
point (table full, `alloc_proc` fails, `setup_kstack` fails, `copy_mm` fails) `do_fork`
returns a negative value, the task list, the pid hash, `nr_process`, the pid cursors and
every descriptor (so every task's family pointers) are as before the call, and the
descriptor and the kernel stack acquired up to that point have been given back. -/
theorem do_fork_atomic_on_failure (s : State) (env : ForkEnv) (fuel clone_flags stack : Nat)
    (tf : trapframe) (hr : Reachable s) (hfresh : FreshProc s env.kmalloc)
    (hfail : MAX_PROCESS ≤ s.nr_process ∨ env.kmalloc = none ∨ env.kstack = none ∨
      ∃ c dc, s.current = some c ∧ s.procs c = some dc ∧
        copy_mm_fails dc.mm env.mm clone_flags) :
    ∃ r s', do_fork fuel s env clone_flags stack tf = .ok (r, s') ∧ r < 0 ∧
      s'.proc_list = s.proc_list ∧ s'.hash_list = s.hash_list ∧
      s'.nr_process = s.nr_process ∧ s'.last_pid = s.last_pid ∧
      s'.next_safe = s.next_safe ∧ s'.procs = s.procs ∧
      (∀ p raw, s.nr_process < MAX_PROCESS → env.kmalloc = some (p, raw) →
        Call.kfree p ∈ s'.log ∧ s'.procs p = none ∧
        ∀ k, env.kstack = some k → Call.free_pages (some k) KSTACKPAGE ∈ s'.log) := by
  have hi := reachable_inv hr
  by_cases hroom : s.nr_process < MAX_PROCESS
  swap
  · exact ⟨_, s, do_fork_full env fuel clone_flags stack tf (not_lt.mp hroom),
      by simp [E_NO_FREE_PROC], rfl, rfl, rfl, rfl, rfl, rfl,
      fun p raw h => absurd h hroom⟩
  cases hk : env.kmalloc with
  | none =>
    refine ⟨_, _, do_fork_no_desc fuel clone_flags stack tf hroom hk, by simp [E_NO_MEM], rfl,
      rfl, rfl, rfl, rfl, rfl, ?_⟩
    intro p raw _ h
    cases h
  | some pr =>
    obtain ⟨p, raw⟩ := pr
    have hp0 : s.procs p = none := hfresh p raw hk
    obtain ⟨c, dc, hcur, hc, hrun⟩ := hi.cur
    have hws := hi.sched.ws c dc hc hrun
    have hcp : c ≠ p := by
      rintro rfl
      rw [hp0] at hc
      cases hc
    have hupd : Function.update s.procs p none = s.procs := by
      rw [← hp0]
      exact Function.update_eq_self p s.procs
    cases hks : env.kstack with
    | none =>
      obtain ⟨s2, h2, e1, e2, e3, e4, e5, e6, e7, e8, e9, e10⟩ :=
        do_fork_no_kstack fuel clone_flags stack tf hroom hk hcur hc hws hcp hks
      refine ⟨_, s2, h2, by simp [E_NO_MEM], e2, e3, e4, e5, e6, e1.trans hupd, ?_⟩
      intro p' raw' _ h
      simp only [Option.some.injEq, Prod.mk.injEq] at h
      obtain ⟨rfl, -⟩ := h
      refine ⟨by rw [e10]; exact List.mem_cons_self _ _, by rw [e1, hupd]; exact hp0, ?_⟩
      intro k hk'
      cases hk'
    | some k =>
      have hmm : copy_mm_fails dc.mm env.mm clone_flags := by
        rcases hfail with h | h | h | ⟨c', dc', h1, h2, h3⟩
        · exact absurd hroom (not_lt.mpr h)
        · rw [hk] at h
          cases h
        · rw [hks] at h
          cases h
        · rw [hcur] at h1
          cases h1
          rw [hc] at h2
          cases h2
          exact h3
      obtain ⟨s2, rest, h2, e1, e2, e3, e4, e5, e6, e7, e8, e9, e10⟩ :=
        do_fork_no_mm fuel clone_flags stack tf hroom hk hcur hc hws hcp hks hmm
      refine ⟨_, s2, h2, by simp [E_NO_MEM], e2, e3, e4, e5, e6, e1.trans hupd, ?_⟩
      intro p' raw' _ h
      simp only [Option.some.injEq, Prod.mk.injEq] at h
      obtain ⟨rfl, -⟩ := h
      refine ⟨by rw [e10]; exact List.mem_cons_self _ _, by rw [e1, hupd]; exact hp0, ?_⟩
      intro k' hk'
      simp only [Option.some.injEq] at hk'
      subst hk'
      rw [e10]
      simp

theorem do_fork_atomic_on_failure_witness :
    ∃ r s', do_fork 20000 booted fork_env_no_stack 0 0 trapframe.zero = .ok (r, s') ∧ r < 0 ∧
      s'.proc_list = booted.proc_list ∧ s'.hash_list = booted.hash_list ∧
      s'.nr_process = booted.nr_process ∧ s'.last_pid = booted.last_pid ∧
      s'.next_safe = booted.next_safe ∧ s'.procs = booted.procs ∧
      (∀ p raw, booted.nr_process < MAX_PROCESS → fork_env_no_stack.kmalloc = some (p, raw) →
        Call.kfree p ∈ s'.log ∧ s'.procs p = none ∧
        ∀ k, fork_env_no_stack.kstack = some k →
          Call.free_pages (some k) KSTACKPAGE ∈ s'.log) :=
  do_fork_atomic_on_failure booted fork_env_no_stack 20000 0 0 trapframe.zero booted_spec.1
    (fun p raw h => by
      have h2 : some ((300 : Ptr), raw_block) = some (p, raw) := h
      cases h2
      exact booted_spec.2.2.2.2.2.2.2.2 300 (by decide) (by decide))
    (Or.inr (Or.inr (Or.inl rfl)))

/-- Claim C5, counterexample.  The idle task of the machine `child_exited` has a ZOMBIE
child, but `do_wait(0, code_store)` with a `code_store` that `user_mem_check` rejects
returns `-E_INVAL` and reaps nothing. -/
theorem do_wait_bad_code_store :
    (∃ dz, child_exited.procs 300 = some dz ∧ dz.state = .PROC_ZOMBIE ∧
      dz.parent = child_exited.current) ∧
    do_wait 20000 child_exited false 0 (some 7) = .ok (.returned (-E_INVAL), child_exited) ∧
    -E_INVAL ≠ 0 := by
  obtain ⟨-, hcur, -, dz, hdz, hzs, hzp, -⟩ := child_exited_spec
  refine ⟨⟨dz, hdz, hzs, by rw [hzp, hcur]⟩, ?_, by simp [E_INVAL]⟩
  unfold do_wait
  simp

/-- Claim C5, amended.  In every reachable state in which the caller has a ZOMBIE child
selected by `pid` (`pid == 0`: some zombie in the caller's child list; `pid != 0`: the
child with that pid), and `code_store` is null or accepted by `user_mem_check`,
`do_wait(pid, code_store)` returns 0 without sleeping and has reaped a zombie child `w`
(the selected one when `pid != 0`): the exit code of `w` is stored through a non-null
`code_store`; `w` is gone from the task list, from the pid hash (`find_proc` of its pid
returns null) and from the caller's child list; its kernel stack and its descriptor are
freed; `nr_process` is one smaller; and every other descriptor is still in both tables and
the other children are still in the caller's child list. -/
theorem do_wait_reaps (s : State) (fuel : Nat) (umc : Bool) (pid : Int)
    (code_store : Option Nat) (c z : Ptr) (hr : Reachable s) (hcur : s.current = some c)
    (hz : ∃ dz, s.procs z = some dz ∧ dz.state = .PROC_ZOMBIE ∧ dz.parent = some c ∧
      (pid = 0 ∨ pid = dz.pid))
    (hcs : code_store = none ∨ umc = true)
    (hfuel : s.proc_list.length < fuel) :
    ∃ w dw s', do_wait fuel s umc pid code_store = .ok (.returned 0, s') ∧
      s.procs w = some dw ∧ dw.state = .PROC_ZOMBIE ∧ dw.parent = some c ∧
      (pid ≠ 0 → w = z) ∧
      (∀ a, code_store = some a → s'.intmem a = dw.exit_code) ∧
      w ∉ s'.proc_list ∧ (∀ i, w ∉ s'.hash_list i) ∧ find_proc s' dw.pid = .ok none ∧
      (∃ dc' l, s'.procs c = some dc' ∧ Chain s'.procs c dc'.cptr none l ∧ w ∉ l ∧
        ∀ x dx, x ≠ w → s.procs x = some dx → dx.parent = some c → x ∈ l) ∧
      Call.free_pages (some dw.kstack) KSTACKPAGE ∈ s'.log ∧ Call.kfree w ∈ s'.log ∧
      s'.procs w = none ∧
      s'.nr_process = s.nr_process - 1 ∧
      (∀ x, x ≠ w → x ∈ s.proc_list → x ∈ s'.proc_list ∧
        ∃ d d', s.procs x = some d ∧ s'.procs x = some d' ∧ d'.pid = d.pid ∧
          find_proc s' d.pid = .ok (some x)) := by
  have hi := reachable_inv hr
  obtain ⟨c', dc, hcur', hc, hrun⟩ := hi.cur
  rw [hcur] at hcur'
  cases hcur'
  obtain ⟨dz, hdz, hzs, hzp, hsel⟩ := hz
  have hin : ∀ x dx, s.procs x = some dx → dx.parent = some c → x ∈ s.proc_list := by
    intro x dx hdx hpar
    rcases (hi.struct.valid x).mp (by rw [hdx]; rfl) with h | h
    · exact h
    · obtain ⟨j, dj, h1, _, h3, _, h5⟩ := hi.struct.idle
      rw [h1] at h
      cases h
      rw [hdx] at h3
      cases h3
      rw [h5] at hpar
      cases hpar
  -- the child that the search of `do_wait` comes up with
  have hfound : ∃ w dw, s.procs w = some dw ∧ dw.state = .PROC_ZOMBIE ∧ dw.parent = some c ∧
      (pid ≠ 0 → w = z) ∧
      do_wait fuel s umc pid code_store = do_wait_found s w code_store := by
    have h1 : ¬ (code_store ≠ none ∧ umc = false) := by
      rintro ⟨h1, h2⟩
      rcases hcs with h | h
      · exact h1 h
      · rw [h2] at h
        cases h
    by_cases hp : pid ≠ 0
    · have hpz : pid = dz.pid := by
        rcases hsel with h | h
        · exact absurd h hp
        · exact h
      have hfind : find_proc s pid = .ok (some z) := by
        rw [hpz]
        exact find_proc_struct hi.struct (hin z dz hdz hzp) hdz
      refine ⟨z, dz, hdz, hzs, hzp, fun _ => rfl, ?_⟩
      unfold do_wait
      rw [if_neg h1]
      simp [hcur, hp, hfind, State.deref, hdz, hzp, hzs]
    · have hp0 : pid = 0 := by simpa using hp
      obtain ⟨y0, hy0, dr, lr, hdr, hchr, hndr, hsubr, hcompr⟩ :=
        hi.struct.fam c (by rw [hc]; rfl)
      rw [hc] at hdr
      cases hdr
      have hlen : lr.length < fuel := by
        have := (hndr.subperm hsubr).length_le
        omega
      obtain ⟨w, hw⟩ := do_wait_scan_total fuel false hchr hlen
        ⟨z, hcompr z dz hdz hzp, dz, hdz, hzs⟩
      obtain ⟨hwl, dw, hdw, hws⟩ := do_wait_scan_some fuel hchr hw
      obtain ⟨dw', hdw', hwp⟩ := chain_mem hchr w hwl
      rw [hdw] at hdw'
      cases hdw'
      refine ⟨w, dw, hdw, hws, hwp, fun h => absurd hp0 h, ?_⟩
      unfold do_wait
      rw [if_neg h1]
      simp [hcur, hp0, State.deref, hc, hw]
  obtain ⟨w, dw, hdw, hws, hwp, hwz, hrun'⟩ := hfound
  have hwl : w ∈ s.proc_list := hin w dw hdw hwp
  have hwi : some w ≠ s.initproc := by
    obtain ⟨n, dn, a, b, e, f, g⟩ := hi.sched.init
    rw [a]
    rintro hzn
    cases hzn
    rw [hdw] at e
    cases e
    exact f hws
  obtain ⟨s', hf, e1, e2, e3, e4, e5, e6, e7, e8, e9, e10, e11, e12, e13⟩ :=
    do_wait_found_of hi.struct code_store hwl hdw hwp hwi
  have hi' := inv_reap hi hwl hdw hws hwp e1 e2 e3 e4 e5 e6 e7 e8 e11 e12 e13
  have hnotin : w ∉ s'.proc_list := by
    rw [e1]
    exact fun h => (hi.struct.nodup.mem_erase_iff.mp h).1 rfl
  have hcw : c ≠ w := by
    rintro rfl
    exact hi.struct.noself c dw hdw hwp
  refine ⟨w, dw, s', hrun'.trans hf, hdw, hws, hwp, hwz, ?_, hnotin, ?_, ?_, ?_, ?_, ?_, e11, e3,
    ?_⟩
  · intro a ha
    rw [e9, ha]
    simp
  · intro i h
    exact hnotin ((hi'.struct.hash i w).mp h).1
  · apply find_proc_none hi'.struct
    intro x hx d' hd' hpid
    have hxw : x ≠ w := by
      rintro rfl
      exact hnotin hx
    have hxl : x ∈ s.proc_list := by
      rw [e1] at hx
      exact (hi.struct.nodup.mem_erase_iff.mp hx).2
    obtain ⟨d, hd⟩ := Option.isSome_iff_exists.mp ((hi.struct.valid x).mpr (Or.inl hxl))
    rw [e12 x hxw d hd] at hd'
    cases hd'
    apply hxw
    apply hi.struct.pid_inj x hxl w hwl
    simp only [pid_of, hd, hdw, Option.map_some']
    exact congrArg some hpid
  · obtain ⟨y0, hy0, dr, lr, hdr, hchr, hndr, hsubr, hcompr⟩ :=
      hi'.struct.fam c (by rw [e12 c hcw dc hc]; rfl)
    have : y0 = none := hy0 (by simp)
    subst this
    refine ⟨dr, lr, hdr, hchr, ?_, ?_⟩
    · intro h
      obtain ⟨d, hd, _⟩ := chain_mem hchr w h
      rw [e11] at hd
      cases hd
    · intro x dx hxw hdx hpar
      exact hcompr x _ (e12 x hxw dx hdx) hpar
  · rw [e10]
    simp
  · rw [e10]
    simp
  · intro x hxw hx
    obtain ⟨d, hd⟩ := Option.isSome_iff_exists.mp ((hi.struct.valid x).mpr (Or.inl hx))
    have hx' : x ∈ s'.proc_list := by
      rw [e1]
      exact (List.mem_erase_of_ne hxw).mpr hx
    have hd' := e12 x hxw d hd
    have hfp := find_proc_struct hi'.struct hx' hd'
    exact ⟨hx', d, _, hd, hd', rfl, hfp⟩

theorem do_wait_reaps_witness :
    ∃ w dw s', do_wait 20000 child_exited true 0 (some 7) = .ok (.returned 0, s') ∧
      child_exited.procs w = some dw ∧ dw.state = .PROC_ZOMBIE ∧ dw.parent = some 100 ∧
      ((0 : Int) ≠ 0 → w = 300) ∧
      (∀ a, some 7 = some a → s'.intmem a = dw.exit_code) ∧
      w ∉ s'.proc_list ∧ (∀ i, w ∉ s'.hash_list i) ∧ find_proc s' dw.pid = .ok none ∧
      (∃ dc' l, s'.procs 100 = some dc' ∧ Chain s'.procs 100 dc'.cptr none l ∧ w ∉ l ∧
        ∀ x dx, x ≠ w → child_exited.procs x = some dx → dx.parent = some 100 → x ∈ l) ∧
      Call.free_pages (some dw.kstack) KSTACKPAGE ∈ s'.log ∧ Call.kfree w ∈ s'.log ∧
      s'.procs w = none ∧
      s'.nr_process = child_exited.nr_process - 1 ∧
      (∀ x, x ≠ w → x ∈ child_exited.proc_list → x ∈ s'.proc_list ∧
        ∃ d d', child_exited.procs x = some d ∧ s'.procs x = some d' ∧ d'.pid = d.pid ∧
          find_proc s' d.pid = .ok (some x)) :=
  do_wait_reaps child_exited 20000 true 0 (some 7) 100 300 child_exited_spec.1
    child_exited_spec.2.1
    (child_exited_spec.2.2.2.elim fun dz h => ⟨dz, h.1, h.2.1, h.2.2.1, Or.inl rfl⟩)
    (Or.inr rfl)
    (by
      have := (reachable_inv child_exited_spec.1).struct.count
      simp only [MAX_PROCESS] at this
      omega)

/-- What `release_mm` does to the address space `m`: the share count goes down by one; on
the last release the mappings, the page directory and the descriptor are given back, and
otherwise only the page-table base is switched. -/
theorem release_mm_of (s : State) (m : Nat) :
    ((release_mm s m).mms m).mm_count = (s.mms m).mm_count - 1 ∧
    ((s.mms m).mm_count = 1 →
      (release_mm s m).log = Call.mm_destroy m :: Call.free_pages (s.mms m).pgdir 1 ::
        Call.exit_mmap m :: Call.lcr3 s.boot_cr3 :: s.log) ∧
    ((s.mms m).mm_count ≠ 1 →
      (release_mm s m).log = Call.lcr3 s.boot_cr3 :: s.log ∧
        (release_mm s m).pgtab = s.pgtab) := by
  unfold release_mm mm_count_dec
  simp only [State.call, State.storemm]
  by_cases h : (s.mms m).mm_count - 1 = 0
  · have h1 : (s.mms m).mm_count = 1 := by omega
    rw [if_pos h]
    refine ⟨?_, fun _ => ?_, fun h2 => absurd h1 h2⟩
    · cases hp : (s.mms m).pgdir <;>
        simp [mm_destroy, put_pgdir, exit_mmap, State.call, hp]
    · cases hp : (s.mms m).pgdir <;>
        simp [mm_destroy, put_pgdir, exit_mmap, State.call, hp]
  · have h1 : (s.mms m).mm_count ≠ 1 := by omega
    rw [if_neg h]
    exact ⟨by simp, fun h2 => absurd h2 h1, fun _ => ⟨rfl, rfl⟩⟩

/-- Claim C6.  For every reachable state whose current task `c` is neither idle nor init,
and every `error_code`, `do_exit(error_code)` reaches its call of `schedule`, and there the
caller has state ZOMBIE, `exit_code == error_code` and `mm == null`; the share count of the
mm it had was decremented, and if that was the last reference the mm was torn down
(`exit_mmap`, the page directory freed, `mm_destroy`), otherwise no teardown was added; the
caller is still in the task list, in the pid hash (`find_proc` of its pid returns it) and in
its parent's child list, and `nr_process` and both tables are unchanged. -/
theorem do_exit_zombie_at_schedule (s : State) (fuel : Nat) (error_code : Int) (c : Ptr)
    (dc : proc_struct) (hr : Reachable s) (hcur : s.current = some c)
    (hc : s.procs c = some dc) (hidle : s.current ≠ s.idleproc)
    (hinit : s.current ≠ s.initproc) (hfuel : s.proc_list.length < fuel) :
    ∃ s' dc', do_exit fuel s error_code = .ok s' ∧
      (∃ rest, s'.log = Call.schedule :: rest) ∧ s'.current = some c ∧
      s'.procs c = some dc' ∧ dc'.state = .PROC_ZOMBIE ∧ dc'.exit_code = error_code ∧
      dc'.mm = none ∧ dc'.pid = dc.pid ∧
      (∀ m, dc.mm = some m →
        (s'.mms m).mm_count = (s.mms m).mm_count - 1 ∧
        ((s.mms m).mm_count = 1 → Call.exit_mmap m ∈ s'.log ∧
          Call.free_pages (s.mms m).pgdir 1 ∈ s'.log ∧ Call.mm_destroy m ∈ s'.log) ∧
        ((s.mms m).mm_count ≠ 1 → s'.pgtab = s.pgtab ∧
          (Call.mm_destroy m ∈ s'.log → Call.mm_destroy m ∈ s.log))) ∧
      c ∈ s'.proc_list ∧ c ∈ s'.hash_list (pid_hashfn dc'.pid) ∧
      find_proc s' dc'.pid = .ok (some c) ∧
      (∃ q dq l, dc'.parent = some q ∧ dc.parent = some q ∧ s'.procs q = some dq ∧
        Chain s'.procs q dq.cptr none l ∧ c ∈ l) ∧
      s'.nr_process = s.nr_process ∧ s'.proc_list = s.proc_list ∧
      s'.hash_list = s.hash_list := by
  have hi := reachable_inv hr
  obtain ⟨⟨i, hin, hci, hpost⟩, hterm⟩ := do_exit_spec fuel error_code hi hcur hc hidle hinit
  obtain ⟨s', hs'⟩ := hterm hfuel
  obtain ⟨hst, -, e1, e2, e3, e4, e5, e6, ⟨dc', hdc', z1, z2, z3, z4, z5, z6⟩, -, -,
    sR, l, hsR, m1, m2, m3, m4⟩ := hpost s' hs'
  have hcl : c ∈ s.proc_list := by
    rcases (hi.struct.valid c).mp (by rw [hc]; rfl) with h | h
    · exact h
    · exact absurd (hcur.trans h.symm) hidle
  have hcl' : c ∈ s'.proc_list := by rw [e1]; exact hcl
  obtain ⟨q, hq, hqs⟩ := hst.parent c hcl' dc' hdc'
  obtain ⟨y0, hy0, dq, lq, hdq, hchq, -, -, hcompq⟩ := hst.fam q hqs
  have : y0 = none := hy0 (by simp)
  subst this
  refine ⟨s', dc', hs', ⟨_, m3⟩, e6.trans hcur, hdc', z1, z2, z3, z5, ?_, hcl',
    (hst.hash _ c).mpr ⟨hcl', dc', hdc', rfl⟩, find_proc_struct hst hcl' hdc',
    ⟨q, dq, lq, hq, by rw [← z6, hq], hdq, hchq, hcompq c dc' hdc' hq⟩, e3, e1, e2⟩
  intro m hm
  rw [hm] at hsR
  simp only at hsR
  subst hsR
  obtain ⟨r1, r2, r3⟩ := release_mm_of s m
  refine ⟨by rw [m1, r1], ?_, ?_⟩
  · intro h1
    rw [m3, r2 h1]
    simp
  · intro h1
    refine ⟨by rw [m2, (r3 h1).2], ?_⟩
    rw [m3, (r3 h1).1]
    intro h
    simp only [List.mem_cons, List.mem_append, reduceCtorEq, false_or] at h
    rcases h with h | h
    · obtain ⟨t, ht⟩ := m4 _ h
      cases ht
    · exact h

theorem do_exit_zombie_at_schedule_witness :
    ∃ dc, child_running.procs 300 = some dc ∧
    ∃ s' dc', do_exit 20000 child_running 42 = .ok s' ∧
      (∃ rest, s'.log = Call.schedule :: rest) ∧ s'.current = some 300 ∧
      s'.procs 300 = some dc' ∧ dc'.state = .PROC_ZOMBIE ∧ dc'.exit_code = 42 ∧
      dc'.mm = none ∧ dc'.pid = dc.pid ∧
      (∀ m, dc.mm = some m →
        (s'.mms m).mm_count = (child_running.mms m).mm_count - 1 ∧
        ((child_running.mms m).mm_count = 1 → Call.exit_mmap m ∈ s'.log ∧
          Call.free_pages (child_running.mms m).pgdir 1 ∈ s'.log ∧
          Call.mm_destroy m ∈ s'.log) ∧
        ((child_running.mms m).mm_count ≠ 1 → s'.pgtab = child_running.pgtab ∧
          (Call.mm_destroy m ∈ s'.log → Call.mm_destroy m ∈ child_running.log))) ∧
      300 ∈ s'.proc_list ∧ 300 ∈ s'.hash_list (pid_hashfn dc'.pid) ∧
      find_proc s' dc'.pid = .ok (some 300) ∧
      (∃ q dq l, dc'.parent = some q ∧ dc.parent = some q ∧ s'.procs q = some dq ∧
        Chain s'.procs q dq.cptr none l ∧ 300 ∈ l) ∧
      s'.nr_process = child_running.nr_process ∧ s'.proc_list = child_running.proc_list ∧
      s'.hash_list = child_running.hash_list :=
  child_running_spec.2.2.2.2.2.1.elim fun dc h => ⟨dc, h.1,
    do_exit_zombie_at_schedule child_running 20000 42 300 dc child_running_spec.1
      child_running_spec.2.1 h.1
      (by rw [child_running_spec.2.1, child_running_spec.2.2.1]; decide)
      (by rw [child_running_spec.2.1, child_running_spec.2.2.2.1]; decide)
      (by
        have := (reachable_inv child_running_spec.1).struct.count
        simp only [MAX_PROCESS] at this
        omega)⟩

/-- Claim C7.  Reparenting: in every reachable state whose current task `t` is neither idle
nor init, whatever its child list `lt` is, `do_exit` by `t` ends in a state in which every
task of `lt` has `parent == initproc` and is on the chain that starts at `initproc.cptr`
and follows `optr`, every task that was on init's child list `li` is still on that chain,
and `t.cptr == null`. -/
theorem do_exit_reparents (s : State) (fuel : Nat) (error_code : Int) (t : Ptr)
    (dt : proc_struct) (hr : Reachable s) (hcur : s.current = some t)
    (ht : s.procs t = some dt) (hidle : s.current ≠ s.idleproc)
    (hinit : s.current ≠ s.initproc) (hfuel : s.proc_list.length < fuel) :
    ∃ s' i di di' dt' l, do_exit fuel s error_code = .ok s' ∧
      s.initproc = some i ∧ s'.initproc = some i ∧ s.procs i = some di ∧
      s'.procs i = some di' ∧ Chain s'.procs i di'.cptr none l ∧
      (∀ lt, Chain s.procs t dt.cptr none lt → ∀ x ∈ lt,
        x ∈ l ∧ ∃ dx', s'.procs x = some dx' ∧ dx'.parent = some i) ∧
      (∀ li, Chain s.procs i di.cptr none li → ∀ x ∈ li,
        x ∈ l ∧ ∃ dx', s'.procs x = some dx' ∧ dx'.parent = some i) ∧
      s'.procs t = some dt' ∧ dt'.cptr = none := by
  have hi := reachable_inv hr
  obtain ⟨⟨i, hin, hci, hpost⟩, hterm⟩ := do_exit_spec fuel error_code hi hcur ht hidle hinit
  obtain ⟨s', hs'⟩ := hterm hfuel
  obtain ⟨hst, -, e1, e2, e3, e4, e5, e6, ⟨dt', hdt', z1, z2, z3, z4, z5, z6⟩, hpt, -, -⟩ :=
    hpost s' hs'
  obtain ⟨n, dn, a, b, hdn, -, -⟩ := hi.sched.init
  rw [hin] at a
  cases a
  obtain ⟨di', hdi', -⟩ := hpt i dn hdn
  obtain ⟨y0, hy0, dq, l, hdq, hch, -, -, hcomp⟩ := hst.fam i (by rw [hdi']; rfl)
  have : y0 = none := hy0 (by simp)
  subst this
  rw [hdi'] at hdq
  cases hdq
  refine ⟨s', i, dn, di', dt', l, hs', hin, e5.trans hin, hdn, hdi', hch, ?_, ?_, hdt', z4⟩
  · intro lt hlt x hx
    obtain ⟨dx, hdx, hpar⟩ := chain_mem hlt x hx
    obtain ⟨dx', hdx', -, hpar', -⟩ := hpt x dx hdx
    rw [if_pos hpar] at hpar'
    exact ⟨hcomp x dx' hdx' hpar', dx', hdx', hpar'⟩
  · intro li hli x hx
    obtain ⟨dx, hdx, hpar⟩ := chain_mem hli x hx
    obtain ⟨dx', hdx', -, hpar', -⟩ := hpt x dx hdx
    have hpi : dx'.parent = some i := by
      rw [hpar', hpar]
      simp
    exact ⟨hcomp x dx' hdx' hpi, dx', hdx', hpi⟩

theorem do_exit_reparents_witness :
    ∃ dt, grand_forked.procs 300 = some dt ∧ dt.cptr = some 400 ∧
    ∃ s' i di di' dt' l, do_exit 20000 grand_forked 42 = .ok s' ∧
      grand_forked.initproc = some i ∧ s'.initproc = some i ∧
      grand_forked.procs i = some di ∧
      s'.procs i = some di' ∧ Chain s'.procs i di'.cptr none l ∧
      (∀ lt, Chain grand_forked.procs 300 dt.cptr none lt → ∀ x ∈ lt,
        x ∈ l ∧ ∃ dx', s'.procs x = some dx' ∧ dx'.parent = some i) ∧
      (∀ li, Chain grand_forked.procs i di.cptr none li → ∀ x ∈ li,
        x ∈ l ∧ ∃ dx', s'.procs x = some dx' ∧ dx'.parent = some i) ∧
      s'.procs 300 = some dt' ∧ dt'.cptr = none :=
  grand_forked_spec.2.2.2.2.2.2.1.elim fun dt h => ⟨dt, h.1, h.2.2.1,
    do_exit_reparents grand_forked 20000 42 300 dt grand_forked_spec.1
      grand_forked_spec.2.1 h.1
      (by rw [grand_forked_spec.2.1, grand_forked_spec.2.2.1]; decide)
      (by rw [grand_forked_spec.2.1, grand_forked_spec.2.2.2.1]; decide)
      (by rw [grand_forked_spec.2.2.2.2.1]; decide)⟩

/-- Claim C8.  For every state and every `pid`: if `find_proc(pid)` returns a task `p`
without PF_EXITING, `do_kill(pid)` returns 0 and its result is the state in which the flags
of `p` are `flags | PF_EXITING`, handed to `wakeup_proc(p)` if and only if the wait state of
`p` has the WT_INTERRUPTED bit; so PF_EXITING is set, no other task changes, no field of `p`
other than `flags` and what `wakeup_proc` sets (`state`, `wait_state`) changes, neither table
changes, and `p` is ZOMBIE afterwards only if it was before.  If `p` already has PF_EXITING
the result is `-E_KILLED`, and if no task is found it is `-E_INVAL`, the state unchanged. -/
theorem do_kill_behaviour (s : State) (pid : Int) :
    (∀ p, find_proc s pid = .ok (some p) → ∃ d, s.procs p = some d ∧ d.pid = pid) ∧
    (∀ p d, find_proc s pid = .ok (some p) → s.procs p = some d →
      d.flags &&& PF_EXITING = 0 →
      ∃ s' d', do_kill s pid = .ok (0, s') ∧
        (d.wait_state &&& WT_INTERRUPTED ≠ 0 →
          wakeup_proc (s.store p { d with flags := d.flags ||| PF_EXITING }) p = .ok s' ∧
          s'.log = Call.wakeup_proc p :: s.log) ∧
        (d.wait_state &&& WT_INTERRUPTED = 0 →
          s' = s.store p { d with flags := d.flags ||| PF_EXITING } ∧ s'.log = s.log) ∧
        s'.procs p = some d' ∧ d'.flags &&& PF_EXITING ≠ 0 ∧
        { d' with state := d.state, wait_state := d.wait_state } =
          { d with flags := d.flags ||| PF_EXITING } ∧
        (d'.state = .PROC_ZOMBIE ↔ d.state = .PROC_ZOMBIE) ∧
        (∀ q, q ≠ p → s'.procs q = s.procs q) ∧
        s'.proc_list = s.proc_list ∧ s'.hash_list = s.hash_list ∧
        s'.nr_process = s.nr_process) ∧
    (∀ p d, find_proc s pid = .ok (some p) → s.procs p = some d →
      d.flags &&& PF_EXITING ≠ 0 → do_kill s pid = .ok (-E_KILLED, s)) ∧
    (find_proc s pid = .ok none → do_kill s pid = .ok (-E_INVAL, s)) := by
  obtain ⟨h1, h2⟩ := do_kill_effect_aux s pid
  refine ⟨?_, ?_, ?_, h2⟩
  · intro p hf
    obtain ⟨d, hd, hp, -⟩ := h1 p hf
    exact ⟨d, hd, hp⟩
  · intro p d hf hd hfl
    obtain ⟨d0, hd0, -, -, hb⟩ := h1 p hf
    rw [hd] at hd0
    cases hd0
    obtain ⟨hbit, hno, hyes⟩ := hb hfl
    by_cases hw : d.wait_state &&& WT_INTERRUPTED = 0
    · refine ⟨_, { d with flags := d.flags ||| PF_EXITING }, hno hw, fun h => absurd hw h,
        fun _ => ⟨rfl, rfl⟩, store_procs_same _ _ _, hbit, rfl, Iff.rfl, ?_, rfl, rfl, rfl⟩
      intro q hq
      exact store_procs_ne _ _ hq
    · obtain ⟨s2, hwk, hk, hlog, a, b, c, hoth, d2, hd2, heq, hz⟩ := hyes hw
      refine ⟨s2, d2, hk, fun _ => ⟨hwk, hlog⟩, fun h => absurd h hw, hd2, ?_, heq, hz, hoth,
        a, b, c⟩
      have : d2.flags = d.flags ||| PF_EXITING := congrArg proc_struct.flags heq
      rw [this]
      exact hbit
  · intro p d hf hd hfl
    obtain ⟨d0, hd0, -, ha, -⟩ := h1 p hf
    rw [hd] at hd0
    cases hd0
    exact ha hfl

theorem do_kill_behaviour_witness :
    find_proc kill_demo 5 = .ok (some 7) ∧
    (∃ d, kill_demo.procs 7 = some d ∧ d.flags &&& PF_EXITING = 0 ∧
      d.wait_state &&& WT_INTERRUPTED ≠ 0 ∧
      ∃ s' d', do_kill kill_demo 5 = .ok (0, s') ∧
        (d.wait_state &&& WT_INTERRUPTED ≠ 0 →
          wakeup_proc (kill_demo.store 7 { d with flags := d.flags ||| PF_EXITING }) 7
            = .ok s' ∧
          s'.log = Call.wakeup_proc 7 :: kill_demo.log) ∧
        (d.wait_state &&& WT_INTERRUPTED = 0 →
          s' = kill_demo.store 7 { d with flags := d.flags ||| PF_EXITING } ∧
            s'.log = kill_demo.log) ∧
        s'.procs 7 = some d' ∧ d'.flags &&& PF_EXITING ≠ 0 ∧
        { d' with state := d.state, wait_state := d.wait_state } =
          { d with flags := d.flags ||| PF_EXITING } ∧
        (d'.state = .PROC_ZOMBIE ↔ d.state = .PROC_ZOMBIE) ∧
        (∀ q, q ≠ 7 → s'.procs q = kill_demo.procs q) ∧
        s'.proc_list = kill_demo.proc_list ∧ s'.hash_list = kill_demo.hash_list ∧
        s'.nr_process = kill_demo.nr_process) :=
  ⟨kill_demo_find,
    { raw_block with pid := 5, state := .PROC_SLEEPING, wait_state := WT_CHILD },
    rfl, by decide, by decide,
    (do_kill_behaviour kill_demo 5).2.1 7 _ kill_demo_find rfl (by decide)⟩

end Ucore

namespace Ucore

/-! ## Claims about `load_icode` -/

/-- Claim C9.  ELF round-trip.  Let the current task have no address space and a trap
frame, and let `mm_create`, `setup_pgdir`, every `mm_map` (the region records can be
allocated, every loadable segment lies in the user address space below the stack region)
and every `pgdir_alloc_page` succeed.  Then for every image with valid magic whose
`PT_LOAD` segments satisfy `0 < p_filesz <= p_memsz`, have no 32-bit overflow in
`p_va + p_memsz` and occupy pairwise disjoint pages, `load_icode` returns 0 and the new
address space holds at `[p_va, p_va + p_filesz)` exactly the bytes
`binary[p_offset .. p_offset + p_filesz)` and zero at every address of
`[p_va + p_filesz, p_va + p_memsz)`, for each such segment. -/
theorem elf_round_trip (fuel : Nat) (s : State) (env : ExecEnv) (img : binary) (c : Ptr)
    (dc : proc_struct) (m pg tfa : Nat) (hcur : s.current = some c) (hc : s.procs c = some dc)
    (hmm : dc.mm = none) (htf : dc.tf = some tfa) (hm : env.mm_create = some m)
    (hpg : env.alloc_page = some pg) (hvc : ∀ a, env.vma_create a = true)
    (hpa : ∀ la, (env.page_alloc la).isSome) (hmagic : img.e_magic = ELF_MAGIC)
    (hok : ∀ ph ∈ img.ph, ph.p_type = ELF_PT_LOAD →
      0 < ph.p_filesz ∧ ph.p_filesz ≤ ph.p_memsz ∧ ph.p_va + ph.p_memsz < 2 ^ 32 ∧
        USERBASE ≤ ph.p_va ∧ ph.p_va + ph.p_memsz ≤ USTACKTOP - USTACKSIZE)
    (hdis : img.ph.Pairwise (fun a b =>
      a.p_type = ELF_PT_LOAD → b.p_type = ELF_PT_LOAD → SegDisjoint a b))
    (hfuel : 2 ^ 20 < fuel) :
    ∃ s', load_icode fuel s env img = .ok (0, s') ∧
      (∃ dc', s'.procs c = some dc' ∧ dc'.mm = some m) ∧ (s'.mms m).pgdir = some pg ∧
      (∀ ph ∈ img.ph, ph.p_type = ELF_PT_LOAD →
        (∀ k, k < ph.p_filesz →
          user_byte s' pg (ph.p_va + k) = some (img.bytes (ph.p_offset + k))) ∧
        (∀ k, ph.p_filesz ≤ k → k < ph.p_memsz →
          user_byte s' pg (ph.p_va + k) = some 0)) := by
  obtain ⟨s', h1, h2, h3, h4⟩ :=
    load_icode_spec fuel s env img c dc m pg tfa hcur hc hmm htf hm hpg hvc hpa hmagic
      (fun ph hph hty => by
        obtain ⟨a, b, -, d, e⟩ := hok ph hph hty
        exact ⟨a, b, d, e⟩) hdis hfuel
  refine ⟨s', h1, ⟨{ dc with mm := some m, cr3 := PADDR pg }, by rw [h2]; simp, rfl⟩, h3, h4⟩

theorem elf_round_trip_witness :
    ∃ s', load_icode 2000000 exec_demo exec_env demo_image = .ok (0, s') ∧
      (∃ dc', s'.procs 7 = some dc' ∧ dc'.mm = some 1) ∧
      (s'.mms 1).pgdir = some 0xC0400000 ∧
      (∀ ph ∈ demo_image.ph, ph.p_type = ELF_PT_LOAD →
        (∀ k, k < ph.p_filesz →
          user_byte s' 0xC0400000 (ph.p_va + k) = some (demo_image.bytes (ph.p_offset + k))) ∧
        (∀ k, ph.p_filesz ≤ k → k < ph.p_memsz →
          user_byte s' 0xC0400000 (ph.p_va + k) = some 0)) :=
  elf_round_trip 2000000 exec_demo exec_env demo_image 7
    { raw_block with pid := 5, state := .PROC_RUNNABLE, tf := some 0 } 1 0xC0400000 0
    rfl rfl rfl rfl rfl rfl (fun _ => rfl) (fun _ => rfl) rfl
    (by
      intro ph hph _
      simp only [demo_image, List.mem_singleton] at hph
      subst hph
      decide)
    (List.pairwise_singleton _ _) (by decide)

/-- Once the program headers `pre` have been loaded, the loop goes on with the headers
after them. -/
theorem load_segments_append (fuel : Nat) (env : ExecEnv) (img : binary) (m : Nat)
    (rest : List proghdr) :
    ∀ (pre : List proghdr) (s s3 : State), load_segments fuel env img m s pre = .ok (0, s3) →
      load_segments fuel env img m s (pre ++ rest) = load_segments fuel env img m s3 rest := by
  intro pre
  induction pre with
  | nil =>
    intro s s3 h
    simp only [load_segments] at h
    cases h
    rfl
  | cons ph pre ih =>
    intro s s3 h
    rw [List.cons_append]
    rw [load_segments] at h
    conv_lhs => rw [load_segments]
    by_cases hty : ph.p_type ≠ ELF_PT_LOAD
    · rw [if_pos hty] at h ⊢
      exact ih s s3 h
    · rw [if_neg hty] at h ⊢
      by_cases hsz : ph.p_filesz > ph.p_memsz
      · rw [if_pos hsz] at h
        cases h
      · rw [if_neg hsz] at h ⊢
        by_cases hz : ph.p_filesz = 0
        · rw [if_pos hz] at h ⊢
          exact ih s s3 h
        · rw [if_neg hz] at h ⊢
          cases hl : load_segment fuel s env img m ph with
          | error e =>
            rw [hl] at h
            cases h
          | ok x =>
            obtain ⟨r, s1⟩ := x
            rw [hl] at h
            simp only at h ⊢
            by_cases hr : r ≠ 0
            · rw [if_pos hr] at h
              cases h
              exact absurd rfl hr
            · rw [if_neg hr] at h ⊢
              exact ih s1 s3 h

/-- Claim C10, counterexample.  The image `bad_magic_image` has a magic number other than
`ELF_MAGIC`, and the current task of the machine `exec_demo` has no address space; but when
`mm_create` finds no memory, `load_icode` returns `-E_NO_MEM`, not `-E_INVAL_ELF`. -/
theorem load_icode_no_memory_first :
    exec_demo.current = some 7 ∧ (∃ d, exec_demo.procs 7 = some d ∧ d.mm = none) ∧
    bad_magic_image.e_magic ≠ ELF_MAGIC ∧ exec_env_no_mm.mm_create = none ∧
    load_icode 1 exec_demo exec_env_no_mm bad_magic_image =
      .ok (-E_NO_MEM, exec_demo.call (.mm_create none)) ∧
    -E_NO_MEM ≠ -E_INVAL_ELF := by
  refine ⟨rfl, ?_, by decide, rfl, ?_, by decide⟩
  · exact ⟨_, rfl, rfl⟩
  · unfold load_icode
    simp [exec_demo, exec_env_no_mm, State.deref, mm_create, State.call, raw_block]
    rfl

/-- Claim C10, amended.  Let the current task have no address space and let `mm_create` and
`setup_pgdir` succeed.  For every image whose magic differs from `ELF_MAGIC`, and for every
image with valid magic in which the loop reaches a `PT_LOAD` program header with
`p_filesz > p_memsz` (the headers `pre` before it are skipped or loaded with result 0),
`load_icode` returns `-E_INVAL_ELF`; on that return every descriptor is as before, so
`current.mm` is still null, the trap frames are unchanged, and the address space built so
far has been destroyed. -/
theorem load_icode_rejects (fuel : Nat) (s : State) (env : ExecEnv) (img : binary) (c : Ptr)
    (dc : proc_struct) (m pg : Nat) (hcur : s.current = some c) (hc : s.procs c = some dc)
    (hmm : dc.mm = none) (hm : env.mm_create = some m) (hpg : env.alloc_page = some pg) :
    (img.e_magic ≠ ELF_MAGIC →
      ∃ s', load_icode fuel s env img = .ok (-E_INVAL_ELF, s') ∧
        s'.procs = s.procs ∧ (∃ d, s'.procs c = some d ∧ d.mm = none) ∧
        s'.current = s.current ∧ s'.tfmem = s.tfmem ∧
        ∃ rest, s'.log = Call.mm_destroy m :: rest) ∧
    (img.e_magic = ELF_MAGIC →
      ∀ pre ph post s3, img.ph = pre ++ ph :: post → ph.p_type = ELF_PT_LOAD →
        ph.p_filesz > ph.p_memsz →
        load_segments fuel env img m (setup_pgdir (mm_create s (some m)).2 (some pg) m).2 pre
          = .ok (0, s3) →
        ∃ s', load_icode fuel s env img = .ok (-E_INVAL_ELF, s') ∧
          s'.procs = s.procs ∧ (∃ d, s'.procs c = some d ∧ d.mm = none) ∧
          s'.current = s.current ∧ s'.tfmem = s.tfmem ∧
          ∃ rest, s'.log = Call.mm_destroy m :: rest) := by
  obtain ⟨q1, q2, q3, q4, q5⟩ := setup_state s m pg
  refine ⟨?_, ?_⟩
  · intro hmagic
    have hM : MmOnly s (mm_destroy (put_pgdir (setup_pgdir (mm_create s (some m)).2 (some pg)
        m).2 m) m) := (q5.trans (mmOnly_put_pgdir _ m)).trans (mmOnly_mm_destroy _ m)
    refine ⟨_, ?_, hM.procs, ⟨dc, by rw [hM.procs]; exact hc, hmm⟩, hM.current, hM.tfmem,
      ⟨_, rfl⟩⟩
    unfold load_icode
    simp only [hcur, State.deref, hc, ok_bind, hmm, ne_eq, not_true_eq_false, if_false, hm,
      hpg]
    rw [q1]
    simp only []
    rw [q2]
    simp only [ne_eq, not_true_eq_false, if_false, hmagic, not_false_eq_true, if_true]
  · intro hmagic pre ph post s3 hph hty hsz hpre
    have hseg : load_segments fuel env img m (setup_pgdir (mm_create s (some m)).2 (some pg)
        m).2 img.ph = .ok (-E_INVAL_ELF, s3) := by
      rw [hph, load_segments_append fuel env img m (ph :: post) pre _ s3 hpre, load_segments,
        if_neg (not_not.mpr hty), if_pos hsz]
    have hM : MmOnly s (load_bad_cleanup_mmap s3 m) :=
      (q5.trans (mmOnly_load_segments _ _ _ _ hpre)).trans (mmOnly_load_bad_cleanup_mmap s3 m)
    refine ⟨_, ?_, hM.procs, ⟨dc, by rw [hM.procs]; exact hc, hmm⟩, hM.current, hM.tfmem,
      ⟨_, rfl⟩⟩
    unfold load_icode
    simp only [hcur, State.deref, hc, ok_bind, hmm, ne_eq, not_true_eq_false, if_false, hm,
      hpg]
    rw [q1]
    simp only []
    rw [q2]
    simp only [ne_eq, not_true_eq_false, if_false, hmagic]
    rw [hseg]
    simp only [ok_bind]
    rw [if_pos (by decide)]

theorem load_icode_rejects_witness :
    (∃ s', load_icode 1 exec_demo exec_env bad_magic_image = .ok (-E_INVAL_ELF, s') ∧
      s'.procs = exec_demo.procs ∧ (∃ d, s'.procs 7 = some d ∧ d.mm = none) ∧
      s'.current = exec_demo.current ∧ s'.tfmem = exec_demo.tfmem ∧
      ∃ rest, s'.log = Call.mm_destroy 1 :: rest) ∧
    (∃ s', load_icode 1 exec_demo exec_env bad_size_image = .ok (-E_INVAL_ELF, s') ∧
      s'.procs = exec_demo.procs ∧ (∃ d, s'.procs 7 = some d ∧ d.mm = none) ∧
      s'.current = exec_demo.current ∧ s'.tfmem = exec_demo.tfmem ∧
      ∃ rest, s'.log = Call.mm_destroy 1 :: rest) :=
  ⟨(load_icode_rejects 1 exec_demo exec_env bad_magic_image 7 _ 1 0xC0400000 rfl rfl rfl rfl
      rfl).1 (by decide),
    (load_icode_rejects 1 exec_demo exec_env bad_size_image 7 _ 1 0xC0400000 rfl rfl rfl rfl
      rfl).2 rfl [] _ [] _ rfl rfl (by decide) rfl⟩

end Ucore

namespace Ucore

/-! ## Invariants of the reachable states -/

/-- Claim C11.  Family consistency is an invariant.  In every reachable state: every task
`t` of the task list (every task but idle) is on the chain that starts at `t.parent.cptr`
and follows `optr`, and that chain has no repetition; every descriptor has such a
repetition-free chain of children; the first child of every task has `yptr == null`; for
every task `x` with `x.optr != null`, `x.optr.yptr == x`; and for every task `x` with
`x.yptr != null`, `x.yptr.optr == x`. -/
theorem family_consistent (s : State) (hr : Reachable s) :
    (∀ t ∈ s.proc_list, ∀ dt, s.procs t = some dt →
      ∃ r dr l, dt.parent = some r ∧ s.procs r = some dr ∧
        Chain s.procs r dr.cptr none l ∧ t ∈ l ∧ l.Nodup) ∧
    (∀ r dr, s.procs r = some dr → ∃ l, Chain s.procs r dr.cptr none l ∧ l.Nodup) ∧
    (∀ r dr f, s.procs r = some dr → dr.cptr = some f →
      ∃ df, s.procs f = some df ∧ df.yptr = none) ∧
    (∀ x dx o, s.procs x = some dx → dx.optr = some o →
      ∃ d, s.procs o = some d ∧ d.yptr = some x) ∧
    (∀ x dx y, s.procs x = some dx → dx.yptr = some y →
      ∃ d, s.procs y = some d ∧ d.optr = some x) := by
  have hs := (reachable_inv hr).struct
  refine ⟨fun t ht dt hd => on_parent_chain hs ht hd, ?_, ?_, ?_, ?_⟩
  · intro r dr hd
    obtain ⟨y0, hy0, dr', l, hdr, hch, hnd, _, _⟩ := hs.fam r (by rw [hd]; rfl)
    have : y0 = none := hy0 (by simp)
    subst this
    rw [hd] at hdr
    cases hdr
    exact ⟨l, hch, hnd⟩
  · intro r dr f hd hf
    obtain ⟨y0, hy0, dr', l, hdr, hch, _, _, _⟩ := hs.fam r (by rw [hd]; rfl)
    have : y0 = none := hy0 (by simp)
    subst this
    rw [hd] at hdr
    cases hdr
    cases l with
    | nil =>
      rw [chain_nil.mp hch] at hf
      cases hf
    | cons c l' =>
      obtain ⟨h1, dc, hdc, _, hyc, _⟩ := chain_cons.mp hch
      rw [hf] at h1
      cases h1
      exact ⟨dc, hdc, hyc⟩
  · intro x dx o hd ho
    rcases listed_or_idle hs hd with hx | ⟨_, h, _⟩
    · obtain ⟨r, dr, l, _, _, hch, hxl, _⟩ := on_parent_chain hs hx hd
      exact chain_optr_back hch x hxl dx hd o ho
    · rw [h] at ho
      cases ho
  · intro x dx y hd hy
    rcases listed_or_idle hs hd with hx | ⟨_, _, h, _⟩
    · obtain ⟨r, dr, l, _, _, hch, hxl, hnd⟩ := on_parent_chain hs hx hd
      rcases chain_yptr_back hch hnd x hxl dx hd y hy with ⟨h1, _⟩ | h1
      · cases h1
      · exact h1
    · rw [h] at hy
      cases hy

theorem family_consistent_witness :
    (∀ t ∈ forked.proc_list, ∀ dt, forked.procs t = some dt →
      ∃ r dr l, dt.parent = some r ∧ forked.procs r = some dr ∧
        Chain forked.procs r dr.cptr none l ∧ t ∈ l ∧ l.Nodup) ∧
    (∀ r dr, forked.procs r = some dr → ∃ l, Chain forked.procs r dr.cptr none l ∧ l.Nodup) ∧
    (∀ r dr f, forked.procs r = some dr → dr.cptr = some f →
      ∃ df, forked.procs f = some df ∧ df.yptr = none) ∧
    (∀ x dx o, forked.procs x = some dx → dx.optr = some o →
      ∃ d, forked.procs o = some d ∧ d.yptr = some x) ∧
    (∀ x dx y, forked.procs x = some dx → dx.yptr = some y →
      ∃ d, forked.procs y = some d ∧ d.optr = some x) :=
  family_consistent forked forked_spec.1

/-- Claim C12.  Table coherence is an invariant.  In every reachable state, for every
descriptor `p` of the task list `find_proc(p.pid)` returns `p`, and every descriptor that
`find_proc` returns for some pid is in the task list (and has that pid). -/
theorem tables_coherent (s : State) (hr : Reachable s) :
    (∀ p ∈ s.proc_list, ∃ d, s.procs p = some d ∧ find_proc s d.pid = .ok (some p)) ∧
    (∀ pid p, find_proc s pid = .ok (some p) →
      p ∈ s.proc_list ∧ ∃ d, s.procs p = some d ∧ d.pid = pid) ∧
    (∀ pid, ∃ r, find_proc s pid = .ok r) := by
  have hs := (reachable_inv hr).struct
  refine ⟨?_, ?_, ?_⟩
  · intro p hp
    obtain ⟨d, hd⟩ := Option.isSome_iff_exists.mp ((hs.valid p).mpr (Or.inl hp))
    exact ⟨d, hd, find_proc_struct hs hp hd⟩
  · intro pid p h
    obtain ⟨_, _, hm, d, hd, hpid⟩ := find_proc_some h
    exact ⟨((hs.hash _ p).mp hm).1, d, hd, hpid⟩
  · intro pid
    obtain ⟨r, h, _⟩ := find_proc_total hs pid
    exact ⟨r, h⟩

theorem tables_coherent_witness :
    (∀ p ∈ forked.proc_list, ∃ d, forked.procs p = some d ∧
      find_proc forked d.pid = .ok (some p)) ∧
    (∀ pid p, find_proc forked pid = .ok (some p) →
      p ∈ forked.proc_list ∧ ∃ d, forked.procs p = some d ∧ d.pid = pid) ∧
    (∀ pid, ∃ r, find_proc forked pid = .ok r) :=
  tables_coherent forked forked_spec.1

/-- Claim C13, counterexample.  Right after `proc_init`, a reachable state, `nr_process` is 2
while the task list holds one descriptor: `nr_process` is not the number of descriptors in
the task list. -/
theorem nr_process_counts_idle :
    Reachable booted ∧ booted.nr_process = 2 ∧ booted.proc_list.length = 1 ∧
      booted.nr_process ≠ booted.proc_list.length := by
  obtain ⟨hr, -, -, -, hl, hnr, -⟩ := booted_spec
  refine ⟨hr, hnr, by rw [hl]; rfl, ?_⟩
  rw [hnr, hl]
  decide

/-- Claim C13, amended.  In every reachable state `nr_process` is one more than the number
of descriptors in the task list, which has no repetition; the allocated descriptors are
those of the task list and the idle task, which is in neither table; and a descriptor is
in the task list if and only if it is in the pid hash, where it is in the bucket of its
pid. -/
theorem nr_process_coherent (s : State) (hr : Reachable s) :
    s.nr_process = s.proc_list.length + 1 ∧ s.proc_list.Nodup ∧
    (∀ p, (s.procs p).isSome ↔ (p ∈ s.proc_list ∨ s.idleproc = some p)) ∧
    (∃ i, s.idleproc = some i ∧ i ∉ s.proc_list ∧ ∀ b, i ∉ s.hash_list b) ∧
    (∀ p, p ∈ s.proc_list ↔ ∃ b, p ∈ s.hash_list b) ∧
    (∀ b p, p ∈ s.hash_list b → ∃ d, s.procs p = some d ∧ pid_hashfn d.pid = b) := by
  have hs := (reachable_inv hr).struct
  obtain ⟨i, di, h1, h2, -⟩ := hs.idle
  refine ⟨hs.count.1, hs.nodup, hs.valid, ⟨i, h1, h2, ?_⟩, ?_, ?_⟩
  · intro b hb
    exact h2 ((hs.hash b i).mp hb).1
  · intro p
    constructor
    · intro hp
      obtain ⟨d, hd⟩ := Option.isSome_iff_exists.mp ((hs.valid p).mpr (Or.inl hp))
      exact ⟨pid_hashfn d.pid, (hs.hash _ p).mpr ⟨hp, d, hd, rfl⟩⟩
    · rintro ⟨b, hb⟩
      exact ((hs.hash b p).mp hb).1
  · intro b p hb
    exact ((hs.hash b p).mp hb).2

theorem nr_process_coherent_witness :
    forked.nr_process = forked.proc_list.length + 1 ∧ forked.proc_list.Nodup ∧
    (∀ p, (forked.procs p).isSome ↔ (p ∈ forked.proc_list ∨ forked.idleproc = some p)) ∧
    (∃ i, forked.idleproc = some i ∧ i ∉ forked.proc_list ∧ ∀ b, i ∉ forked.hash_list b) ∧
    (∀ p, p ∈ forked.proc_list ↔ ∃ b, p ∈ forked.hash_list b) ∧
    (∀ b p, p ∈ forked.hash_list b → ∃ d, forked.procs p = some d ∧ pid_hashfn d.pid = b) :=
  nr_process_coherent forked forked_spec.1

/-- Claim C14.  In every reachable state `nr_process` is one plus the length of the task
list.  When moreover init has no children left and init is the only child of the idle task
(every other task exited and was reaped), then `nr_process == 2`, the task list holds
exactly one descriptor, `initproc`, and `initproc.cptr`, `initproc.yptr` and
`initproc.optr` are all null. -/
theorem init_alone (s : State) (hr : Reachable s) :
    s.nr_process = s.proc_list.length + 1 ∧
    ∀ i di, s.initproc = some i → s.procs i = some di → di.cptr = none →
      (∀ x dx, s.procs x = some dx → dx.parent = s.idleproc → x = i) →
      s.nr_process = 2 ∧ s.proc_list = [i] ∧
        di.cptr = none ∧ di.yptr = none ∧ di.optr = none := by
  have hinv := reachable_inv hr
  have hs := hinv.struct
  refine ⟨hs.count.1, ?_⟩
  intro i di hi hdi hcp honly
  obtain ⟨j, dj, hj, hjl, hdj, -, hjp⟩ := hs.idle
  obtain ⟨n, dn, a, hil, -⟩ := hinv.sched.init
  rw [hi] at a
  cases a
  -- init has no child
  have hnochild : ∀ x dx, s.procs x = some dx → dx.parent ≠ some i := by
    intro x dx hdx hpar
    obtain ⟨y0, _, di', l, hdi', hch, _, _, hcomp⟩ := hs.fam i (by rw [hdi]; rfl)
    rw [hdi] at hdi'
    cases hdi'
    have hxl := hcomp x dx hdx hpar
    cases l with
    | nil => simp at hxl
    | cons c l' => simp [Chain, hcp] at hch
  -- so every descriptor is idle or init
  have hall : ∀ x, Up s.procs s.idleproc x → x = j ∨ x = i := by
    intro x hu
    induction hu with
    | top k hk =>
      rw [hj] at hk
      cases hk
      exact Or.inl rfl
    | step x r d hd hp _ ih =>
      rcases ih with h | h
      · subst h
        exact Or.inr (honly x d hd (by rw [hp, hj]))
      · subst h
        exact absurd hp (hnochild x d hd)
  have hlist : ∀ x ∈ s.proc_list, x = i := by
    intro x hx
    rcases hall x (hs.up x ((hs.valid x).mpr (Or.inl hx))) with h | h
    · subst h
      exact absurd hx hjl
    · exact h
  have hl : s.proc_list = [i] := by
    have hnd := hs.nodup
    cases hl0 : s.proc_list with
    | nil => rw [hl0] at hil; simp at hil
    | cons b t =>
      rw [hl0] at hlist hnd
      have hb : b = i := hlist b (by simp)
      subst hb
      cases t with
      | nil => rfl
      | cons c t' =>
        have hc : c = b := hlist c (by simp)
        subst hc
        simp at hnd
  -- init is the only member of the child list of idle
  obtain ⟨r, dr, l, hpar, hdr, hch, hmem, hnd⟩ := on_parent_chain hs hil hdi
  have hmem' : ∀ x ∈ l, x = i := by
    intro x hx
    obtain ⟨dx, hdx, hpx⟩ := chain_mem hch x hx
    rcases (hs.valid x).mp (by rw [hdx]; rfl) with h | h
    · exact hlist x h
    · exfalso
      rw [hj] at h
      cases h
      rw [hdj] at hdx
      cases hdx
      rw [hjp] at hpx
      cases hpx
  have hnr : s.nr_process = 2 := by
    have := hs.count.1
    rw [hl] at this
    simpa using this
  refine ⟨hnr, hl, hcp, ?_, ?_⟩
  · cases l with
    | nil => simp at hmem
    | cons b t =>
      have hb : b = i := hmem' b (by simp)
      subst hb
      obtain ⟨_, db, hdb, _, hy, _⟩ := chain_cons.mp hch
      rw [hdi] at hdb
      cases hdb
      exact hy
  · cases l with
    | nil => simp at hmem
    | cons b t =>
      have hb : b = i := hmem' b (by simp)
      subst hb
      obtain ⟨_, db, hdb, _, _, hrest⟩ := chain_cons.mp hch
      rw [hdi] at hdb
      cases hdb
      cases t with
      | nil => exact chain_nil.mp hrest
      | cons c t' =>
        have hc : c = b := hmem' c (by simp)
        subst hc
        simp at hnd

theorem init_alone_witness :
    booted.nr_process = booted.proc_list.length + 1 ∧
    (booted.nr_process = 2 ∧ booted.proc_list = [200] ∧
      ∃ dq, booted.procs 200 = some dq ∧ dq.cptr = none ∧ dq.yptr = none ∧ dq.optr = none) := by
  obtain ⟨hr, -, hidle, hinit, -, -, ⟨di, hdi, -⟩, ⟨dq, hdq, -, hqp, hqc, -⟩, hx⟩ := booted_spec
  have h := init_alone booted hr
  refine ⟨h.1, ?_⟩
  have h2 := h.2 200 dq hinit hdq hqc (by
    intro x dx hdx hpar
    by_cases h1 : x = 100
    · subst h1
      obtain ⟨j, dj, a, -, b, -, c⟩ := (reachable_inv hr).struct.idle
      rw [hidle] at a
      cases a
      rw [hdx] at b
      cases b
      rw [c, hidle] at hpar
      cases hpar
    · by_cases h2 : x = 200
      · exact h2
      · rw [hx x h1 h2] at hdx
        cases hdx)
  exact ⟨h2.1, h2.2.1, dq, hdq, h2.2.2⟩

/-- Claim C16, counterexample.  The current task of the machine `exec_demo` has an empty
child list, but `do_wait(0, code_store)` with a `code_store` that `user_mem_check` rejects
returns `-E_INVAL`, not `-E_BAD_PROC`. -/
theorem do_wait_no_child_bad_store :
    exec_demo.current = some 7 ∧
    (∃ d, exec_demo.procs 7 = some d ∧ d.cptr = none) ∧
    do_wait 1 exec_demo false 0 (some 9) = .ok (.returned (-E_INVAL), exec_demo) ∧
    -E_INVAL ≠ -E_BAD_PROC := by
  refine ⟨rfl, ⟨_, rfl, rfl⟩, ?_, by decide⟩
  unfold do_wait
  simp

/-- Claim C16, amended.  For every state with a current task and every `code_store` that is
null or accepted by `user_mem_check`: `do_wait(pid, code_store)` with `pid != 0` where
`find_proc(pid)` is null or is a task whose parent is not the caller, and
`do_wait(0, code_store)` where the caller's child list is empty, returns `-E_BAD_PROC` and
leaves the whole state as it was (the caller is not put to sleep, the scheduler is not
called, no table or descriptor changes). -/
theorem do_wait_no_child (s : State) (fuel : Nat) (umc : Bool) (pid : Int)
    (code_store : Option Nat) (c : Ptr) (hcur : s.current = some c)
    (hcs : code_store = none ∨ umc = true)
    (hno : (pid ≠ 0 ∧ (find_proc s pid = .ok none ∨
        ∃ p d, find_proc s pid = .ok (some p) ∧ s.procs p = some d ∧ d.parent ≠ some c)) ∨
      (pid = 0 ∧ ∃ dc, s.procs c = some dc ∧ dc.cptr = none)) :
    do_wait fuel s umc pid code_store = .ok (.returned (-E_BAD_PROC), s) := by
  have h1 : ¬ (code_store ≠ none ∧ umc = false) := by
    rintro ⟨h1, h2⟩
    rcases hcs with h | h
    · exact h1 h
    · rw [h2] at h
      cases h
  unfold do_wait
  rw [if_neg h1]
  rcases hno with ⟨hp, hf | ⟨p, d, hf, hd, hpar⟩⟩ | ⟨hp, dc, hc, hcp⟩
  · simp [hcur, hp, hf]
  · simp [hcur, hp, hf, State.deref, hd, hpar]
  · cases fuel <;> simp [hcur, hp, State.deref, hc, hcp, do_wait_scan]

theorem do_wait_no_child_witness :
    do_wait 1 exec_demo true 0 (some 9) = .ok (.returned (-E_BAD_PROC), exec_demo) :=
  do_wait_no_child exec_demo 1 true 0 (some 9) 7 rfl (Or.inr rfl)
    (Or.inr ⟨rfl, _, rfl, rfl⟩)

/-- The scan of a hash bucket depends only on the pids of the descriptors in it. -/
theorem find_proc_scan_congr {procs procs' : Ptr → Option proc_struct} (pid : Int) :
    ∀ l : List Ptr, (∀ q ∈ l, (procs' q).map (fun d => d.pid) = (procs q).map (fun d => d.pid)) →
      find_proc_scan procs' pid l = find_proc_scan procs pid l := by
  intro l
  induction l with
  | nil => intro _; rfl
  | cons a l ih =>
    intro h
    have ha := h a (by simp)
    have hl := ih (fun q hq => h q (by simp [hq]))
    unfold find_proc_scan
    cases h1 : procs a with
    | none =>
      cases h2 : procs' a with
      | none => rfl
      | some d' => simp [h1, h2] at ha
    | some d =>
      cases h2 : procs' a with
      | none => simp [h1, h2] at ha
      | some d' =>
        simp only [h1, h2, Option.map_some', Option.some.injEq] at ha
        simp only [ha, hl]

/-- Claim C19.  `do_kill` has no side effect when it fails.  For every state and pid: when
`do_kill(pid)` returns a non-zero value, that value is negative, it is `-E_INVAL` (no task
with that pid) or `-E_KILLED` (the task already has PF_EXITING), and the whole state after
the call, the record of calls to `wakeup_proc` included, equals the state before it; a pid
`<= 0` or `>= MAX_PID` gives `-E_INVAL`; and after a `do_kill(pid)` that returned 0, a
second `do_kill(pid)` returns `-E_KILLED` and changes nothing. -/
theorem do_kill_failure (s : State) (pid : Int) :
    (∀ r s', do_kill s pid = .ok (r, s') → r ≠ 0 →
      s' = s ∧ r < 0 ∧
      ((r = -E_INVAL ∧ find_proc s pid = .ok none) ∨
       (r = -E_KILLED ∧ ∃ p d, find_proc s pid = .ok (some p) ∧ s.procs p = some d ∧
          d.flags &&& PF_EXITING ≠ 0))) ∧
    (pid ≤ 0 ∨ MAX_PID ≤ pid → do_kill s pid = .ok (-E_INVAL, s)) ∧
    (∀ s1, do_kill s pid = .ok (0, s1) → do_kill s1 pid = .ok (-E_KILLED, s1)) := by
  obtain ⟨h1, h2⟩ := do_kill_effect_aux s pid
  have hcases : ∀ r s', do_kill s pid = .ok (r, s') →
      (find_proc s pid = .ok none ∧ r = -E_INVAL ∧ s' = s) ∨
      ∃ p d, find_proc s pid = .ok (some p) ∧ s.procs p = some d ∧ d.pid = pid ∧
        ((d.flags &&& PF_EXITING ≠ 0 ∧ r = -E_KILLED ∧ s' = s) ∨
         (d.flags &&& PF_EXITING = 0 ∧ r = 0 ∧ s'.hash_list = s.hash_list ∧
            (∀ q, q ≠ p → s'.procs q = s.procs q) ∧
            ∃ d', s'.procs p = some d' ∧ d'.pid = d.pid ∧ d'.flags &&& PF_EXITING ≠ 0)) := by
    intro r s' h
    cases hf : find_proc s pid with
    | error e =>
      unfold do_kill at h
      simp [hf] at h
    | ok o =>
      cases o with
      | none =>
        rw [h2 hf] at h
        cases h
        exact Or.inl ⟨rfl, rfl, rfl⟩
      | some p =>
        obtain ⟨d, hd, hp, ha, hb⟩ := h1 p hf
        refine Or.inr ⟨p, d, rfl, hd, hp, ?_⟩
        by_cases hfl : d.flags &&& PF_EXITING = 0
        · obtain ⟨hbit, hno, hyes⟩ := hb hfl
          refine Or.inr ⟨hfl, ?_⟩
          by_cases hw : d.wait_state &&& WT_INTERRUPTED = 0
          · rw [hno hw] at h
            cases h
            exact ⟨rfl, rfl, fun q hq => store_procs_ne _ _ hq,
              _, store_procs_same _ _ _, rfl, hbit⟩
          · obtain ⟨s2, -, hk, -, -, b, -, hoth, d2, hd2, heq, -⟩ := hyes hw
            rw [hk] at h
            cases h
            have hpid2 : d2.pid = d.pid := by
              have h3 := congrArg proc_struct.pid heq
              exact h3
            refine ⟨rfl, b, hoth, d2, hd2, hpid2, ?_⟩
            have : d2.flags = d.flags ||| PF_EXITING := congrArg proc_struct.flags heq
            rw [this]
            exact hbit
        · rw [ha hfl] at h
          cases h
          exact Or.inl ⟨hfl, rfl, rfl⟩
  refine ⟨?_, ?_, ?_⟩
  · intro r s' h hr
    rcases hcases r s' h with ⟨hf, rfl, rfl⟩ | ⟨p, d, hf, hd, -, ⟨hfl, rfl, rfl⟩ | ⟨-, rfl, -⟩⟩
    · exact ⟨rfl, by decide, Or.inl ⟨rfl, hf⟩⟩
    · exact ⟨rfl, by decide, Or.inr ⟨rfl, p, d, hf, hd, hfl⟩⟩
    · exact absurd rfl hr
  · intro hp
    apply h2
    unfold find_proc
    rw [if_neg]
    omega
  · intro s1 h
    rcases hcases 0 s1 h with ⟨-, h0, -⟩ | ⟨p, d, hf, hd, hpid, ⟨-, h0, -⟩ | ⟨-, -, hh, hoth, d', hd', hpid', hfl'⟩⟩
    · exact absurd h0 (by decide)
    · exact absurd h0 (by decide)
    · have hf1 : find_proc s1 pid = .ok (some p) := by
        rw [← hf]
        unfold find_proc
        rw [hh]
        split_ifs
        · apply find_proc_scan_congr
          intro q _
          by_cases hq : q = p
          · subst hq
            simp [hd, hd', hpid']
          · rw [hoth q hq]
        · rfl
      obtain ⟨d1, hd1, -, hk, -⟩ := (do_kill_effect_aux s1 pid).1 p hf1
      rw [hd'] at hd1
      cases hd1
      exact hk hfl'

theorem do_kill_failure_witness :
    do_kill kill_demo 0 = .ok (-E_INVAL, kill_demo) ∧
    (∃ s1, do_kill kill_demo 5 = .ok (0, s1) ∧ do_kill s1 5 = .ok (-E_KILLED, s1)) := by
  refine ⟨(do_kill_failure kill_demo 0).2.1 (Or.inl (by decide)), ?_⟩
  obtain ⟨d, hd, -, -, hb⟩ := (do_kill_effect_aux kill_demo 5).1 7 kill_demo_find
  have hd0 : kill_demo.procs 7 = some
      { raw_block with pid := 5, state := .PROC_SLEEPING, wait_state := WT_CHILD } := rfl
  rw [hd0] at hd
  cases hd
  obtain ⟨s2, -, hk, -⟩ := (hb (by decide)).2.2 (by decide)
  exact ⟨s2, hk, (do_kill_failure kill_demo 5).2.2 s2 hk⟩

/-- Claim C18.  In every reachable state, whatever the allocators answer: when
`nr_process >= MAX_PROCESS` at entry `do_fork` returns `-E_NO_FREE_PROC`; otherwise, when
`alloc_proc` returns null, `setup_kstack` fails or `copy_mm` fails (with whatever non-zero
code), it returns `-E_NO_MEM`; and whenever `do_fork` returns, its value is
`-E_NO_FREE_PROC` if and only if `nr_process >= MAX_PROCESS` held at entry, and a value that
is not a positive pid is `-E_NO_FREE_PROC` or `-E_NO_MEM`. -/
theorem do_fork_error_codes (s : State) (env : ForkEnv) (fuel clone_flags stack : Nat)
    (tf : trapframe) (hr : Reachable s) (hfresh : FreshProc s env.kmalloc) :
    (MAX_PROCESS ≤ s.nr_process →
      do_fork fuel s env clone_flags stack tf = .ok (-E_NO_FREE_PROC, s)) ∧
    (s.nr_process < MAX_PROCESS →
      (env.kmalloc = none ∨ env.kstack = none ∨
        ∃ c dc, s.current = some c ∧ s.procs c = some dc ∧
          copy_mm_fails dc.mm env.mm clone_flags) →
      ∃ s', do_fork fuel s env clone_flags stack tf = .ok (-E_NO_MEM, s')) ∧
    (∀ r s', do_fork fuel s env clone_flags stack tf = .ok (r, s') →
      (r = -E_NO_FREE_PROC ↔ MAX_PROCESS ≤ s.nr_process) ∧
      (r ≤ 0 → r = -E_NO_FREE_PROC ∨ r = -E_NO_MEM)) := by
  have hi := reachable_inv hr
  have hne : (-E_NO_MEM : Int) ≠ -E_NO_FREE_PROC := by decide
  -- the outcomes of a call that finds room in the table
  have hroomy : s.nr_process < MAX_PROCESS →
      ((env.kmalloc = none ∨ env.kstack = none ∨
          ∃ c dc, s.current = some c ∧ s.procs c = some dc ∧
            copy_mm_fails dc.mm env.mm clone_flags) →
        ∃ s', do_fork fuel s env clone_flags stack tf = .ok (-E_NO_MEM, s')) ∧
      ∀ r s', do_fork fuel s env clone_flags stack tf = .ok (r, s') →
        r = -E_NO_MEM ∨ 1 ≤ r := by
    intro hroom
    cases hk : env.kmalloc with
    | none =>
      have h0 := do_fork_no_desc fuel clone_flags stack tf hroom hk
      refine ⟨fun _ => ⟨_, h0⟩, ?_⟩
      intro r s' h
      rw [h0] at h
      cases h
      exact Or.inl rfl
    | some pr =>
      obtain ⟨p, raw⟩ := pr
      have hp0 : s.procs p = none := hfresh p raw hk
      obtain ⟨c, dc, hcur, hc, hrun⟩ := hi.cur
      have hws := hi.sched.ws c dc hc hrun
      have hcp : c ≠ p := by
        rintro rfl
        rw [hp0] at hc
        cases hc
      cases hks : env.kstack with
      | none =>
        obtain ⟨s2, h2, -⟩ :=
          do_fork_no_kstack fuel clone_flags stack tf hroom hk hcur hc hws hcp hks
        refine ⟨fun _ => ⟨_, h2⟩, ?_⟩
        intro r s' h
        rw [h2] at h
        cases h
        exact Or.inl rfl
      | some k =>
        by_cases hmm : copy_mm_fails dc.mm env.mm clone_flags
        · obtain ⟨s2, rest, h2, -⟩ :=
            do_fork_no_mm fuel clone_flags stack tf hroom hk hcur hc hws hcp hks hmm
          refine ⟨fun _ => ⟨_, h2⟩, ?_⟩
          intro r s' h
          rw [h2] at h
          cases h
          exact Or.inl rfl
        · refine ⟨?_, ?_⟩
          · rintro (h | h | ⟨c', dc', h1, h2, h3⟩)
            · cases h
            · cases h
            · rw [hcur] at h1
              cases h1
              rw [hc] at h2
              cases h2
              exact absurd h3 hmm
          · intro r s' h
            have hbig : 2 * MAX_PID < ((max fuel 16385 : Nat) : Int) := by
              have : (16385 : Nat) ≤ max fuel 16385 := le_max_right _ _
              simp only [MAX_PID, MAX_PROCESS]
              omega
            obtain ⟨v, n, s2, h2, hv1, -⟩ :=
              do_fork_ok (max fuel 16385) clone_flags stack tf hi.struct hroom hk hp0 hcur hc
                hws hks hmm hbig
            have h3 := do_fork_mono_case hroom hk hcur hc hws hcp hks h (le_max_left fuel 16385)
            rw [h2] at h3
            cases h3
            exact Or.inr hv1
  refine ⟨fun h => do_fork_full env fuel clone_flags stack tf h, fun h => (hroomy h).1, ?_⟩
  intro r s' h
  by_cases hroom : s.nr_process < MAX_PROCESS
  · rcases (hroomy hroom).2 r s' h with rfl | h1
    · exact ⟨⟨fun h2 => absurd h2 hne, fun h2 => absurd hroom (not_lt.mpr h2)⟩,
        fun _ => Or.inr rfl⟩
    · refine ⟨⟨fun h2 => ?_, fun h2 => absurd hroom (not_lt.mpr h2)⟩, fun h2 => ?_⟩
      · rw [h2] at h1
        exact absurd h1 (by decide)
      · omega
  · rw [do_fork_full env fuel clone_flags stack tf (not_lt.mp hroom)] at h
    cases h
    exact ⟨⟨fun _ => not_lt.mp hroom, fun _ => rfl⟩, fun _ => Or.inl rfl⟩

theorem do_fork_error_codes_witness :
    (MAX_PROCESS ≤ booted.nr_process →
      do_fork 20000 booted fork_env_no_stack 0 0 trapframe.zero =
        .ok (-E_NO_FREE_PROC, booted)) ∧
    (∃ s', do_fork 20000 booted fork_env_no_stack 0 0 trapframe.zero = .ok (-E_NO_MEM, s')) ∧
    (∀ r s', do_fork 20000 booted fork_env_no_stack 0 0 trapframe.zero = .ok (r, s') →
      (r = -E_NO_FREE_PROC ↔ MAX_PROCESS ≤ booted.nr_process) ∧
      (r ≤ 0 → r = -E_NO_FREE_PROC ∨ r = -E_NO_MEM)) := by
  have h := do_fork_error_codes booted fork_env_no_stack 20000 0 0 trapframe.zero
    booted_spec.1
    (fun p raw h => by
      have h2 : some ((300 : Ptr), raw_block) = some (p, raw) := h
      cases h2
      exact booted_spec.2.2.2.2.2.2.2.2 300 (by decide) (by decide))
  refine ⟨h.1, h.2.1 ?_ (Or.inr (Or.inl rfl)), h.2.2⟩
  rw [booted_spec.2.2.2.2.2.1]
  decide

/-- The next id after the scenario has filled the ids `1..n`, with `n + 1 < MAX_PID`, and
the task at `z` has been removed: `n + 1`. -/
theorem get_pid_after_fill (s0 : State) (fuel : Nat) (hfuel : 0 < fuel)
    (hl : s0.proc_list = []) (hlast : s0.last_pid = MAX_PID) (hnext : s0.next_safe = MAX_PID)
    (n : Nat) (hn0 : 0 < n) (hn : (n : Int) + 1 < MAX_PID) (z : Ptr) :
    ∃ s, get_pid_fill fuel n s0 = .ok s ∧
      (∀ k : Nat, k ∈ s.proc_list ↔ 1 ≤ k ∧ k ≤ n) ∧
      (∀ k : Nat, 1 ≤ k → k ≤ n →
        s.procs k = some { (default : proc_struct) with pid := (k : Int) }) ∧
      ∃ s', get_pid fuel (drop_task s z) = .ok ((n : Int) + 1, s') := by
  obtain ⟨s, hs, -, e1, e2, e3, -, e5⟩ := get_pid_fill_spec fuel hfuel hl hlast hnext n hn
  refine ⟨s, hs, e3, e5, ?_⟩
  have h1 : (drop_task s z).last_pid + 1 < MAX_PID := by
    show s.last_pid + 1 < MAX_PID
    rw [e1 hn0]
    exact hn
  have h2 : (drop_task s z).last_pid + 1 < (drop_task s z).next_safe := by
    show s.last_pid + 1 < s.next_safe
    rw [e2, e1 hn0]
    exact hn
  have h3 := get_pid_fast fuel h1 h2
  have hv : (drop_task s z).last_pid + 1 = (n : Int) + 1 := by
    show s.last_pid + 1 = _
    rw [e1 hn0]
  rw [hv] at h3
  exact ⟨_, h3⟩

/-- Claim C17, counterexample.  From the initial pid cursors and an empty task list,
`get_pid` is called `MAX_PROCESS` times and each id is given to a live task, so that the
live ids are `1..MAX_PROCESS`; then the task with id 7 is removed.  The next `get_pid`
returns `MAX_PROCESS + 1`, not 7. -/
theorem get_pid_no_reuse :
    ((4096 : Nat) : Int) = MAX_PROCESS ∧
    ∃ s, get_pid_fill 1 4096 boot0 = .ok s ∧
      (∀ k : Nat, k ∈ s.proc_list ↔ 1 ≤ k ∧ k ≤ 4096) ∧
      (∀ k : Nat, 1 ≤ k → k ≤ 4096 →
        s.procs k = some { (default : proc_struct) with pid := (k : Int) }) ∧
      (∃ s', get_pid 1 (drop_task s 7) = .ok (MAX_PROCESS + 1, s')) ∧
      MAX_PROCESS + 1 ≠ 7 := by
  refine ⟨rfl, ?_⟩
  obtain ⟨s, hs, a, b, s', hs'⟩ :=
    get_pid_after_fill boot0 1 (by decide) rfl rfl rfl 4096 (by decide) (by decide) 7
  exact ⟨s, hs, a, b, ⟨s', hs'⟩, by decide⟩

/-- Claim C17, amended.  From the initial pid cursors and an empty task list, after
`get_pid` has been called `MAX_PROCESS` times with each id given to a live task (the live
ids are `1..MAX_PROCESS`) and one of these tasks, `z`, has been removed, the next `get_pid`
returns `MAX_PROCESS + 1`: an id that no live task holds, and not the id of the removed
task. -/
theorem get_pid_after_removal (s0 : State) (fuel : Nat) (n : Nat) (z : Ptr)
    (hfuel : 0 < fuel) (hl : s0.proc_list = []) (hlast : s0.last_pid = MAX_PID)
    (hnext : s0.next_safe = MAX_PID) (hn : (n : Int) = MAX_PROCESS)
    (hz1 : 1 ≤ z) (hz2 : z ≤ n) :
    ∃ s, get_pid_fill fuel n s0 = .ok s ∧
      (∀ k : Nat, k ∈ s.proc_list ↔ 1 ≤ k ∧ k ≤ n) ∧
      (∀ k : Nat, 1 ≤ k → k ≤ n → ∃ d, s.procs k = some d ∧ d.pid = (k : Int)) ∧
      (∃ dz, s.procs z = some dz ∧ dz.pid = (z : Int) ∧ z ∈ s.proc_list ∧
        z ∉ (drop_task s z).proc_list) ∧
      ∃ s', get_pid fuel (drop_task s z) = .ok (MAX_PROCESS + 1, s') ∧
        MAX_PROCESS + 1 ≠ (z : Int) ∧
        ∀ q ∈ (drop_task s z).proc_list, ∀ d, (drop_task s z).procs q = some d →
          d.pid ≠ MAX_PROCESS + 1 := by
  have hn4 : n = 4096 := by
    have : (n : Int) = 4096 := hn
    omega
  subst hn4
  obtain ⟨s, hs, -, -, -, e3, e4, e5⟩ :=
    get_pid_fill_spec fuel hfuel hl hlast hnext 4096 (by decide)
  obtain ⟨s2, hs2, -, -, s', hs'⟩ :=
    get_pid_after_fill s0 fuel hfuel hl hlast hnext 4096 (by decide) (by decide) z
  rw [hs] at hs2
  cases hs2
  refine ⟨s, hs, e3, fun k h1 h2 => ⟨_, e5 k h1 h2, rfl⟩,
    ⟨_, e5 z hz1 hz2, rfl, (e3 z).mpr ⟨hz1, hz2⟩, ?_⟩, s', hs', ?_, ?_⟩
  · show z ∉ list_del s.proc_list z
    rw [list_del]
    exact fun h => (e4.mem_erase_iff.mp h).1 rfl
  · have : (z : Int) ≤ 4096 := by exact_mod_cast hz2
    simp only [MAX_PROCESS]
    omega
  · intro q hq d hd
    have hq' : q ∈ s.proc_list := List.mem_of_mem_erase hq
    have hqz : q ≠ z := fun h => by
      subst h
      exact (e4.mem_erase_iff.mp hq).1 rfl
    have hd' : s.procs q = some d := by
      have : (drop_task s z).procs q = s.procs q := by
        show Function.update s.procs z none q = _
        rw [Function.update_noteq hqz]
      rw [← this]
      exact hd
    obtain ⟨h1, h2⟩ := (e3 q).mp hq'
    rw [e5 q h1 h2] at hd'
    cases hd'
    have : (q : Int) ≤ 4096 := by exact_mod_cast h2
    simp only [MAX_PROCESS]
    show (q : Int) ≠ 4096 + 1
    omega

theorem get_pid_after_removal_witness :
    ∃ s, get_pid_fill 1 4096 boot0 = .ok s ∧
      (∀ k : Nat, k ∈ s.proc_list ↔ 1 ≤ k ∧ k ≤ 4096) ∧
      (∀ k : Nat, 1 ≤ k → k ≤ 4096 → ∃ d, s.procs k = some d ∧ d.pid = (k : Int)) ∧
      (∃ dz, s.procs 7 = some dz ∧ dz.pid = ((7 : Nat) : Int) ∧ 7 ∈ s.proc_list ∧
        7 ∉ (drop_task s 7).proc_list) ∧
      ∃ s', get_pid 1 (drop_task s 7) = .ok (MAX_PROCESS + 1, s') ∧
        MAX_PROCESS + 1 ≠ ((7 : Nat) : Int) ∧
        ∀ q ∈ (drop_task s 7).proc_list, ∀ d, (drop_task s 7).procs q = some d →
          d.pid ≠ MAX_PROCESS + 1 :=
  get_pid_after_removal boot0 1 4096 7 (by decide) rfl rfl rfl rfl (by decide) (by decide)

/-- Claim C20.  In every reachable state whose current task has a child list `l` of `n`
children, all of them ZOMBIE, `n` successive calls `do_wait(0, &c)` each return 0 without
sleeping; the children reaped, in the order of the calls, are an arrangement `order` of `l`
without repetition (each call reaps a different child); the values found in `c` after the
calls are the exit codes of the children in that order, hence a permutation of the exit
codes of `l`; and afterwards the children are gone from the tables and the caller's child
list is empty. -/
theorem wait_reaps_all (s : State) (fuel a : Nat) (c : Ptr) (dc : proc_struct) (l : List Ptr)
    (hr : Reachable s) (hcur : s.current = some c) (hc : s.procs c = some dc)
    (hch : Chain s.procs c dc.cptr none l)
    (hz : ∀ x ∈ l, ∃ d, s.procs x = some d ∧ d.state = .PROC_ZOMBIE)
    (hfuel : s.proc_list.length < fuel) :
    ∃ (order : List Ptr) (cs : List Int) (s' : State),
      wait_n fuel a l.length s = .ok (cs, s') ∧ order.Perm l ∧ order.Nodup ∧
      cs = order.map (fun x => ((s.procs x).map (fun d => d.exit_code)).getD 0) ∧
      cs.Perm (l.map (fun x => ((s.procs x).map (fun d => d.exit_code)).getD 0)) ∧
      (∀ x ∈ l, s'.procs x = none ∧ x ∉ s'.proc_list) ∧
      (∃ dc', s'.procs c = some dc' ∧ dc'.cptr = none) ∧
      s'.nr_process + l.length = s.nr_process := by
  have hi := reachable_inv hr
  obtain ⟨hnd, -, -⟩ := chain_complete hi.struct hc hch
  obtain ⟨order, cs, s', h1, h2, h3, -, -, h6, h7, h8, -⟩ :=
    wait_n_spec fuel a l.length s c dc l hi hcur hc hch rfl hz hfuel
  refine ⟨order, cs, s', h1, h2, h2.nodup_iff.mpr hnd, h3, ?_, h6, h7, h8⟩
  rw [h3]
  exact h2.map _

end Ucore

namespace Ucore

/-! ## Steps that leave the page-directory pointers alone -/

theorem pgSame_refl (s : State) : PgSame s s := fun _ => rfl

theorem PgSame.seq {a b c : State} (h1 : PgSame a b) (h2 : PgSame b c) : PgSame a c :=
  fun m => (h2 m).trans (h1 m)

theorem pgSame_of_mms {s s' : State} (h : s'.mms = s.mms) : PgSame s s' := by
  intro m
  rw [h]

theorem pgSame_call (s : State) (c : Call) : PgSame s (s.call c) := fun _ => rfl

theorem pgSame_storemm (s : State) (m : Nat) (d : mm_struct) (h : d.pgdir = (s.mms m).pgdir) :
    PgSame s (s.storemm m d) := by
  intro m'
  by_cases hm : m' = m
  · subst hm
    simp [State.storemm, h]
  · simp [State.storemm, Function.update_noteq hm]

theorem pgSame_mm_destroy (s : State) (m : Nat) : PgSame s (mm_destroy s m) := fun _ => rfl

theorem pgSame_exit_mmap (s : State) (m : Nat) : PgSame s (exit_mmap s m) := by
  unfold exit_mmap
  split <;> exact fun _ => rfl

theorem pgSame_mm_count_inc (s : State) (m : Nat) : PgSame s (mm_count_inc s m) :=
  pgSame_storemm s m _ rfl

theorem pgSame_mm_count_dec (s : State) (m : Nat) : PgSame s (mm_count_dec s m).2 :=
  pgSame_storemm s m _ rfl

theorem pgSame_dup_mmap (s : State) (a b : Nat) (r : Int) : PgSame s (dup_mmap s a b r) := by
  unfold dup_mmap
  split
  · split
    · intro m'
      by_cases hm : m' = a
      · subst hm
        simp [State.storemm, State.call]
      · simp [State.storemm, State.call, Function.update_noteq hm]
    · exact fun _ => rfl
  · exact fun _ => rfl

theorem pgSame_put_pgdir (s : State) (m : Nat) : PgSame s (put_pgdir s m) := fun _ => rfl

theorem pgSame_release_mm (s : State) (m : Nat) : PgSame s (release_mm s m) := by
  unfold release_mm
  simp only
  split
  · exact ((pgSame_call s _).seq (pgSame_mm_count_dec _ m)).seq
      (((pgSame_exit_mmap _ m).seq (pgSame_put_pgdir _ m)).seq (pgSame_mm_destroy _ m))
  · exact (pgSame_call s _).seq (pgSame_mm_count_dec _ m)

theorem pgSame_mm_map (s : State) (mm addr len fl : Nat) (ok : Bool) :
    PgSame s (mm_map s mm addr len fl ok).2 := by
  unfold mm_map
  simp only
  split_ifs
  all_goals first
    | exact fun _ => rfl
    | (intro m'
       by_cases hm : m' = mm
       · subst hm
         simp [State.storemm, State.call]
       · simp [State.storemm, State.call, Function.update_noteq hm])

theorem pgSame_pgdir_alloc_page (s : State) (pgdir : Option Nat) (la perm : Nat)
    (r : Option (Nat → Nat)) : PgSame s (pgdir_alloc_page s pgdir la perm r).2 := by
  cases r <;> exact fun _ => rfl

theorem pgSame_page_memcpy (s : State) (pgdir : Option Nat) (la off size : Nat)
    (src : Nat → Nat) : PgSame s (page_memcpy s pgdir la off size src) := by
  unfold page_memcpy
  split <;> exact fun _ => rfl

theorem pgSame_page_memset (s : State) (pgdir : Option Nat) (la off size : Nat) :
    PgSame s (page_memset s pgdir la off size) :=
  pgSame_page_memcpy s pgdir la off size _

/-- The loops of `load_icode` leave every page-directory pointer alone. -/
theorem pgSame_load_copy (env : ExecEnv) (img : binary) (pgdir : Option Nat) (perm end_ : Nat) :
    ∀ (fuel : Nat) (s : State) (start la src : Nat) (page : Option Nat) (r : LoadStep),
      load_copy env img pgdir perm end_ fuel s start la src page = .ok r →
      (∀ t, r = .bad t → PgSame s t) ∧ (∀ t a b c, r = .next t a b c → PgSame s t) := by
  intro fuel
  induction fuel with
  | zero => intro s start la src page r h; simp [load_copy] at h
  | succ fuel ih =>
    intro s start la src page r h
    unfold load_copy at h
    split_ifs at h with hlt
    · cases hpa : env.page_alloc la with
      | none =>
        simp only [pgdir_alloc_page, hpa] at h
        cases h
        refine ⟨?_, ?_⟩
        · intro t ht
          cases ht
          exact pgSame_call _ _
        · intro t a b c ht
          cases ht
      | some data =>
        have h1 := pgSame_pgdir_alloc_page s pgdir la perm (some data)
        simp only [pgdir_alloc_page, hpa] at h h1
        obtain ⟨r1, r2⟩ := ih _ _ _ _ _ r h
        exact ⟨fun t ht => (h1.seq (pgSame_page_memcpy _ _ _ _ _ _)).seq (r1 t ht),
          fun t a b c ht => (h1.seq (pgSame_page_memcpy _ _ _ _ _ _)).seq (r2 t a b c ht)⟩
    · cases h
      refine ⟨?_, ?_⟩
      · intro t ht
        cases ht
      · intro t a b c ht
        cases ht
        exact pgSame_refl _

theorem pgSame_load_bss (env : ExecEnv) (pgdir : Option Nat) (perm end_ : Nat) :
    ∀ (fuel : Nat) (s : State) (start la : Nat) (page : Option Nat) (r : LoadStep),
      load_bss env pgdir perm end_ fuel s start la page = .ok r →
      (∀ t, r = .bad t → PgSame s t) ∧ (∀ t a b c, r = .next t a b c → PgSame s t) := by
  intro fuel
  induction fuel with
  | zero => intro s start la page r h; simp [load_bss] at h
  | succ fuel ih =>
    intro s start la page r h
    unfold load_bss at h
    split_ifs at h with hlt
    · cases hpa : env.page_alloc la with
      | none =>
        simp only [pgdir_alloc_page, hpa] at h
        cases h
        refine ⟨?_, ?_⟩
        · intro t ht
          cases ht
          exact pgSame_call _ _
        · intro t a b c ht
          cases ht
      | some data =>
        have h1 := pgSame_pgdir_alloc_page s pgdir la perm (some data)
        simp only [pgdir_alloc_page, hpa] at h h1
        obtain ⟨r1, r2⟩ := ih _ _ _ _ r h
        exact ⟨fun t ht => (h1.seq (pgSame_page_memset _ _ _ _ _)).seq (r1 t ht),
          fun t a b c ht => (h1.seq (pgSame_page_memset _ _ _ _ _)).seq (r2 t a b c ht)⟩
    · cases h
      refine ⟨?_, ?_⟩
      · intro t ht
        cases ht
      · intro t a b c ht
        cases ht
        exact pgSame_refl _

theorem pgSame_load_tail {s t : State} {pgdir : Option Nat} {end_ start la : Nat}
    {page : Option Nat} {r : Option Nat}
    (h : load_tail s pgdir end_ start la page = .ok (r, t)) : PgSame s t := by
  unfold load_tail at h
  by_cases ha : start < la
  · rw [if_pos ha] at h
    by_cases hb : start = end_
    · rw [if_pos hb] at h
      cases h
      exact pgSame_refl _
    · rw [if_neg hb] at h
      cases page with
      | none => simp at h
      | some pg =>
        simp only at h
        split_ifs at h
        all_goals (cases h; exact pgSame_page_memset _ _ _ _ _)
  · rw [if_neg ha] at h
    cases h
    exact pgSame_refl _

theorem pgSame_load_pages {fuel : Nat} {s t : State} {env : ExecEnv} {img : binary}
    {pgdir : Option Nat} {ph : proghdr} {r : Int}
    (h : load_pages fuel s env img pgdir ph = .ok (r, t)) : PgSame s t := by
  unfold load_pages at h
  cases hc : load_copy env img pgdir (seg_perm ph)
      (wrap32 (ph.p_va + ph.p_filesz)) fuel s ph.p_va (ROUNDDOWN ph.p_va PGSIZE)
      ph.p_offset none with
  | error e => simp [hc] at h
  | ok step =>
    obtain ⟨c1, c2⟩ := pgSame_load_copy _ _ _ _ _ _ _ _ _ _ _ _ hc
    simp only [hc, ok_bind] at h
    cases step with
    | bad s2 =>
      simp only at h
      cases h
      exact c1 _ rfl
    | next s2 start la page =>
      have h2 : PgSame s s2 := c2 _ _ _ _ rfl
      simp only at h
      cases ht : load_tail s2 pgdir (wrap32 (ph.p_va + ph.p_memsz)) start la page with
      | error e => simp [ht] at h
      | ok x =>
        obtain ⟨o, s3⟩ := x
        have h3 : PgSame s s3 := h2.seq (pgSame_load_tail ht)
        simp only [ht, ok_bind] at h
        cases o with
        | none =>
          simp only at h
          cases h
          exact h3
        | some start2 =>
          simp only at h
          cases hb2 : load_bss env pgdir (seg_perm ph) (wrap32 (ph.p_va + ph.p_memsz)) fuel s3
              start2 la page with
          | error e => simp [hb2] at h
          | ok step2 =>
            obtain ⟨d1, d2⟩ := pgSame_load_bss _ _ _ _ _ _ _ _ _ _ hb2
            simp only [hb2, ok_bind] at h
            cases step2 with
            | bad s4 =>
              simp only at h
              cases h
              exact h3.seq (d1 _ rfl)
            | next s4 a b c =>
              simp only at h
              cases h
              exact h3.seq (d2 _ _ _ _ rfl)

theorem pgSame_load_segment {fuel : Nat} {s t : State} {env : ExecEnv} {img : binary}
    {mm : Nat} {ph : proghdr} {r : Int}
    (h : load_segment fuel s env img mm ph = .ok (r, t)) : PgSame s t := by
  unfold load_segment at h
  have h1 := pgSame_mm_map s mm ph.p_va ph.p_memsz (seg_vm_flags ph) (env.vma_create ph.p_va)
  revert h h1
  cases mm_map s mm ph.p_va ph.p_memsz (seg_vm_flags ph) (env.vma_create ph.p_va) with
  | mk r1 s1 =>
    intro h h1
    simp only at h h1
    split_ifs at h with hr1
    · cases h
      exact h1
    · exact h1.seq (pgSame_load_pages h)

theorem pgSame_load_segments {fuel : Nat} {env : ExecEnv} {img : binary} {mm : Nat} :
    ∀ (l : List proghdr) (s t : State) (r : Int),
      load_segments fuel env img mm s l = .ok (r, t) → PgSame s t := by
  intro l
  induction l with
  | nil =>
    intro s t r h
    simp only [load_segments] at h
    cases h
    exact pgSame_refl _
  | cons ph rest ih =>
    intro s t r h
    unfold load_segments at h
    split_ifs at h with h1 h2 h3
    · exact ih _ _ _ h
    · cases h
      exact pgSame_refl _
    · exact ih _ _ _ h
    · cases hseg : load_segment fuel s env img mm ph with
      | error e => simp [hseg] at h
      | ok x =>
        obtain ⟨r1, s1⟩ := x
        simp only [hseg] at h
        split_ifs at h with h4
        · cases h
          exact pgSame_load_segment hseg
        · exact (pgSame_load_segment hseg).seq (ih _ _ _ h)

theorem pgSame_load_stack_page {s t : State} {env : ExecEnv} {mm la : Nat}
    (h : load_stack_page s env mm la = .ok t) : PgSame s t := by
  unfold load_stack_page at h
  have h1 := pgSame_pgdir_alloc_page s (s.mms mm).pgdir la PTE_USER (env.page_alloc la)
  revert h h1
  cases pgdir_alloc_page s (s.mms mm).pgdir la PTE_USER (env.page_alloc la) with
  | mk o s1 =>
    cases o with
    | none => intro h; simp at h
    | some pg =>
      intro h h1
      simp only at h h1
      cases h
      exact h1

theorem pgSame_load_bad_cleanup_mmap (s : State) (m : Nat) :
    PgSame s (load_bad_cleanup_mmap s m) :=
  ((pgSame_exit_mmap s m).seq (pgSame_put_pgdir _ m)).seq (pgSame_mm_destroy _ m)

end Ucore

namespace Ucore

set_option linter.unusedTactic false
set_option linter.unreachableTactic false

/-! ## Steps that keep the page-directory bases -/

theorem bind_ok {α β : Type} {x : Except Err α} {f : α → Except Err β} {b : β}
    (h : (x >>= f) = .ok b) : ∃ a, x = .ok a ∧ f a = .ok b := by
  cases x with
  | error e => simp at h
  | ok a => exact ⟨a, rfl, h⟩

theorem keep_refl (xp : Option Ptr) (xm : Option Nat) (s : State) : MmKeep xp xm s s :=
  ⟨rfl, fun _ _ => rfl, fun _ d' h => ⟨d', h, rfl, fun _ => ⟨rfl, id⟩⟩⟩

theorem MmKeep.comp {xp : Option Ptr} {xm : Option Nat} {a b c : State}
    (h1 : MmKeep xp xm a b) (h2 : MmKeep xp xm b c) : MmKeep xp xm a c := by
  refine ⟨h2.boot.trans h1.boot, fun m hm => (h2.pgdir m hm).trans (h1.pgdir m hm), ?_⟩
  intro x d'' hd''
  obtain ⟨d', hd', e1, e2⟩ := h2.procs x d'' hd''
  obtain ⟨d, hd, f1, f2⟩ := h1.procs x d' hd'
  refine ⟨d, hd, e1.trans f1, fun hx => ?_⟩
  obtain ⟨e3, e4⟩ := e2 hx
  obtain ⟨f3, f4⟩ := f2 hx
  exact ⟨e3.trans f3, fun hz => e4 (f4 hz)⟩

/-- A step that keeps more keeps less. -/
theorem MmKeep.weaken {xp xp' : Option Ptr} {xm xm' : Option Nat} {s s' : State}
    (h : MmKeep xp xm s s') (hp : xp = none ∨ xp = xp') (hm : xm = none ∨ xm = xm') :
    MmKeep xp' xm' s s' := by
  refine ⟨h.boot, fun m hne => h.pgdir m ?_, ?_⟩
  · rcases hm with rfl | rfl
    · simp
    · exact hne
  · intro x d' hd'
    obtain ⟨d, hd, e1, e2⟩ := h.procs x d' hd'
    refine ⟨d, hd, e1, fun hx => e2 ?_⟩
    rcases hp with rfl | rfl
    · simp
    · exact hx

theorem keep_of_eq {xp : Option Ptr} {xm : Option Nat} {s s' : State}
    (hb : s'.boot_cr3 = s.boot_cr3) (hm : s'.mms = s.mms) (hp : s'.procs = s.procs) :
    MmKeep xp xm s s' := by
  refine ⟨hb, fun m _ => by rw [hm], ?_⟩
  intro x d' hd'
  rw [hp] at hd'
  exact ⟨d', hd', rfl, fun _ => ⟨rfl, id⟩⟩

theorem keep_call {xp : Option Ptr} {xm : Option Nat} (s : State) (c : Call) :
    MmKeep xp xm s (s.call c) := keep_of_eq rfl rfl rfl

theorem keep_of_mmOnly {xp : Option Ptr} {xm : Option Nat} {s s' : State} (h : MmOnly s s')
    (hp : ∀ m, some m ≠ xm → (s'.mms m).pgdir = (s.mms m).pgdir) : MmKeep xp xm s s' := by
  refine ⟨h.boot_cr3, hp, ?_⟩
  intro x d' hd'
  rw [h.procs] at hd'
  exact ⟨d', hd', rfl, fun _ => ⟨rfl, id⟩⟩

theorem keep_store {xp : Option Ptr} {xm : Option Nat} {s : State} {p : Ptr}
    {d d' : proc_struct} (hd : s.procs p = some d) (h1 : d'.cr3 = d.cr3)
    (h2 : some p ≠ xp → d'.mm = d.mm ∧ (d.state = .PROC_ZOMBIE → d'.state = .PROC_ZOMBIE)) :
    MmKeep xp xm s (s.store p d') := by
  refine ⟨rfl, fun _ _ => rfl, ?_⟩
  intro x e he
  by_cases hx : x = p
  · subst hx
    rw [store_procs_same] at he
    cases he
    exact ⟨d, hd, h1, h2⟩
  · rw [store_procs_ne _ _ hx] at he
    exact ⟨e, he, rfl, fun _ => ⟨rfl, id⟩⟩

theorem keep_modify {xp : Option Ptr} {xm : Option Nat} {s s' : State} {p : Ptr}
    {f : proc_struct → proc_struct}
    (h : s.modify p f = .ok s')
    (hf : ∀ d, (f d).cr3 = d.cr3 ∧ (f d).mm = d.mm ∧ (f d).state = d.state) :
    MmKeep xp xm s s' := by
  unfold State.modify at h
  cases hd : s.procs p with
  | none => simp [hd] at h
  | some d =>
    simp only [hd, Except.ok.injEq] at h
    subst h
    exact keep_store hd (hf d).1 (fun _ => ⟨(hf d).2.1, fun hz => by rw [(hf d).2.2]; exact hz⟩)

theorem modify_current {s s' : State} {p : Ptr} {f : proc_struct → proc_struct}
    (h : s.modify p f = .ok s') : s'.current = s.current ∧ s'.initproc = s.initproc ∧
      s'.idleproc = s.idleproc := by
  unfold State.modify at h
  cases hd : s.procs p with
  | none => simp [hd] at h
  | some d =>
    simp only [hd, Except.ok.injEq] at h
    subst h
    exact ⟨rfl, rfl, rfl⟩

theorem keep_kfree {xp : Option Ptr} {xm : Option Nat} (s : State) (p : Ptr) :
    MmKeep xp xm s (kfree s p) := by
  refine ⟨rfl, fun _ _ => rfl, ?_⟩
  intro x e he
  by_cases hx : x = p
  · subst hx
    simp [kfree] at he
  · simp only [kfree, Function.update_noteq hx] at he
    exact ⟨e, he, rfl, fun _ => ⟨rfl, id⟩⟩

theorem keep_wakeup_proc {xp : Option Ptr} {xm : Option Nat} {s s' : State} {p : Ptr}
    (h : wakeup_proc s p = .ok s') : MmKeep xp xm s s' := by
  unfold wakeup_proc at h
  cases hd : s.procs p with
  | none => simp [hd] at h
  | some d =>
    simp only [hd] at h
    split_ifs at h with hst
    · cases h
      have k : MmKeep xp xm s (s.store p { d with state := .PROC_RUNNABLE, wait_state := 0 }) := by
        refine keep_store hd rfl (fun _ => ⟨rfl, fun hz => ?_⟩)
        rcases hst with h1 | h1 <;> rw [h1] at hz <;> cases hz
      exact k.comp (keep_call _ _)
    · cases h
      exact keep_call _ _

theorem keep_eq_left {xp : Option Ptr} {xm : Option Nat} {a a' b : State}
    (h : MmKeep xp xm a' b) (hb : a'.boot_cr3 = a.boot_cr3) (hm : a'.mms = a.mms)
    (hp : a'.procs = a.procs) : MmKeep xp xm a b :=
  (keep_of_eq hb hm hp).comp h

theorem keep_eq_right {xp : Option Ptr} {xm : Option Nat} {a b b' : State}
    (h : MmKeep xp xm a b') (hb : b.boot_cr3 = b'.boot_cr3) (hm : b.mms = b'.mms)
    (hp : b.procs = b'.procs) : MmKeep xp xm a b :=
  h.comp (keep_of_eq hb hm hp)

/-! ### The functions of `proc.c` that touch neither `mm` nor `cr3` -/

theorem keep_set_proc_name {xp : Option Ptr} {xm : Option Nat} {s : State} {s' : State} {p : Ptr} {name : List Nat}
    (h : set_proc_name s p name = .ok s') : MmKeep xp xm s s' := by
  unfold set_proc_name at h
  have K : MmKeep xp xm s s := keep_refl _ _ _
  repeat' first
    | exact K.comp (keep_eq_left (keep_modify h (fun _ => ⟨rfl, rfl, rfl⟩)) rfl rfl rfl)
    | (obtain ⟨a, h1, h⟩ := bind_ok h
       first
        | (have K := K.comp (keep_eq_left (keep_modify h1 (fun _ => ⟨rfl, rfl, rfl⟩)) rfl rfl rfl))
        | cases h1
        | skip)
    | (cases h
       first
        | done
        | exact keep_eq_right K rfl rfl rfl)
    | dsimp only at h
    | (revert h
       split <;> intro h)

theorem keep_put_kstack {xp : Option Ptr} {xm : Option Nat} {s : State} {s' : State} {p : Ptr}
    (h : put_kstack s p = .ok s') : MmKeep xp xm s s' := by
  unfold put_kstack at h
  have K : MmKeep xp xm s s := keep_refl _ _ _
  repeat' first
    | (obtain ⟨a, h1, h⟩ := bind_ok h
       first
        | (have K := K.comp (keep_eq_left (keep_modify h1 (fun _ => ⟨rfl, rfl, rfl⟩)) rfl rfl rfl))
        | cases h1
        | skip)
    | (cases h
       first
        | done
        | exact keep_eq_right K rfl rfl rfl)
    | dsimp only at h
    | (revert h
       split <;> intro h)

theorem keep_setup_kstack {xp : Option Ptr} {xm : Option Nat} {s : State} {p : Ptr} {r : Option Nat} {x : Int × State}
    (h : setup_kstack s r p = .ok x) : MmKeep xp xm s x.2 := by
  unfold setup_kstack at h
  have K : MmKeep xp xm s s := keep_refl _ _ _
  repeat' first
    | (obtain ⟨a, h1, h⟩ := bind_ok h
       first
        | (have K := K.comp (keep_eq_left (keep_modify h1 (fun _ => ⟨rfl, rfl, rfl⟩)) rfl rfl rfl))
        | cases h1
        | skip)
    | (cases h
       first
        | done
        | exact keep_eq_right K rfl rfl rfl)
    | dsimp only at h
    | (revert h
       split <;> intro h)

theorem keep_hash_proc {xp : Option Ptr} {xm : Option Nat} {s : State} {s' : State} {p : Ptr}
    (h : hash_proc s p = .ok s') : MmKeep xp xm s s' := by
  unfold hash_proc at h
  have K : MmKeep xp xm s s := keep_refl _ _ _
  repeat' first
    | (obtain ⟨a, h1, h⟩ := bind_ok h
       first
        | (have K := K.comp (keep_eq_left (keep_modify h1 (fun _ => ⟨rfl, rfl, rfl⟩)) rfl rfl rfl))
        | cases h1
        | skip)
    | (cases h
       first
        | done
        | exact keep_eq_right K rfl rfl rfl)
    | dsimp only at h
    | (revert h
       split <;> intro h)

theorem keep_get_pid {xp : Option Ptr} {xm : Option Nat} {s : State} {fuel : Nat} {x : Int × State}
    (h : get_pid fuel s = .ok x) : MmKeep xp xm s x.2 := by
  unfold get_pid at h
  have K : MmKeep xp xm s s := keep_refl _ _ _
  repeat' first
    | (obtain ⟨a, h1, h⟩ := bind_ok h
       first
        | (have K := K.comp (keep_eq_left (keep_modify h1 (fun _ => ⟨rfl, rfl, rfl⟩)) rfl rfl rfl))
        | cases h1
        | skip)
    | (cases h
       first
        | done
        | exact keep_eq_right K rfl rfl rfl)
    | dsimp only at h
    | (revert h
       split <;> intro h)

theorem keep_set_links {xp : Option Ptr} {xm : Option Nat} {s : State} {s' : State} {p : Ptr}
    (h : set_links s p = .ok s') : MmKeep xp xm s s' := by
  unfold set_links at h
  have K : MmKeep xp xm s s := keep_refl _ _ _
  repeat' first
    | (obtain ⟨a, h1, h⟩ := bind_ok h
       first
        | (have K := K.comp (keep_eq_left (keep_modify h1 (fun _ => ⟨rfl, rfl, rfl⟩)) rfl rfl rfl))
        | cases h1
        | skip)
    | (cases h
       first
        | done
        | exact keep_eq_right K rfl rfl rfl)
    | dsimp only at h
    | (revert h
       split <;> intro h)

theorem keep_remove_links {xp : Option Ptr} {xm : Option Nat} {s : State} {s' : State} {p : Ptr}
    (h : remove_links s p = .ok s') : MmKeep xp xm s s' := by
  unfold remove_links at h
  have K : MmKeep xp xm s s := keep_refl _ _ _
  repeat' first
    | (obtain ⟨a, h1, h⟩ := bind_ok h
       first
        | (have K := K.comp (keep_eq_left (keep_modify h1 (fun _ => ⟨rfl, rfl, rfl⟩)) rfl rfl rfl))
        | cases h1
        | skip)
    | (cases h
       first
        | done
        | exact keep_eq_right K rfl rfl rfl)
    | dsimp only at h
    | (revert h
       split <;> intro h)

theorem keep_copy_thread {xp : Option Ptr} {xm : Option Nat} {s : State} {s' : State} {p : Ptr} {esp : Nat} {tf : trapframe}
    (h : copy_thread s p esp tf = .ok s') : MmKeep xp xm s s' := by
  unfold copy_thread at h
  have K : MmKeep xp xm s s := keep_refl _ _ _
  repeat' first
    | exact K.comp (keep_eq_left (keep_modify h (fun _ => ⟨rfl, rfl, rfl⟩)) rfl rfl rfl)
    | (obtain ⟨a, h1, h⟩ := bind_ok h
       first
        | (have K := K.comp (keep_eq_left (keep_modify h1 (fun _ => ⟨rfl, rfl, rfl⟩)) rfl rfl rfl))
        | cases h1
        | skip)
    | (cases h
       first
        | done
        | exact keep_eq_right K rfl rfl rfl)
    | dsimp only at h
    | (revert h
       split <;> intro h)

theorem keep_do_fork_link {xp : Option Ptr} {xm : Option Nat} {s : State} {p : Ptr} {fuel stack : Nat} {tf : trapframe} {x : Int × State}
    (h : do_fork_link fuel s p stack tf = .ok x) : MmKeep xp xm s x.2 := by
  unfold do_fork_link at h
  have K : MmKeep xp xm s s := keep_refl _ _ _
  repeat' first
    | (obtain ⟨a, h1, h⟩ := bind_ok h
       first
        | (have K := K.comp (keep_eq_left (keep_modify h1 (fun _ => ⟨rfl, rfl, rfl⟩)) rfl rfl rfl))
        | (have K := K.comp (keep_eq_left (keep_copy_thread h1) rfl rfl rfl))
        | (have K := K.comp (keep_eq_left (keep_get_pid h1) rfl rfl rfl))
        | (have K := K.comp (keep_eq_left (keep_hash_proc h1) rfl rfl rfl))
        | (have K := K.comp (keep_eq_left (keep_set_links h1) rfl rfl rfl))
        | (have K := K.comp (keep_eq_left (keep_wakeup_proc h1) rfl rfl rfl))
        | cases h1
        | skip)
    | (cases h
       first
        | done
        | exact keep_eq_right K rfl rfl rfl)
    | dsimp only at h
    | (revert h
       split <;> intro h)

theorem keep_proc_run {xp : Option Ptr} {xm : Option Nat} {s : State} {s' : State} {p : Ptr}
    (h : proc_run s p = .ok s') : MmKeep xp xm s s' := by
  unfold proc_run at h
  have K : MmKeep xp xm s s := keep_refl _ _ _
  repeat' first
    | (obtain ⟨a, h1, h⟩ := bind_ok h
       first
        | (have K := K.comp (keep_eq_left (keep_modify h1 (fun _ => ⟨rfl, rfl, rfl⟩)) rfl rfl rfl))
        | cases h1
        | skip)
    | (cases h
       first
        | done
        | exact keep_eq_right K rfl rfl rfl)
    | dsimp only at h
    | (revert h
       split <;> intro h)

theorem keep_schedule {xp : Option Ptr} {xm : Option Nat} {s : State} {s' : State} {next : Ptr}
    (h : schedule s next = .ok s') : MmKeep xp xm s s' := by
  unfold schedule at h
  have K : MmKeep xp xm s s := keep_refl _ _ _
  repeat' first
    | exact K.comp (keep_eq_left (keep_proc_run h) rfl rfl rfl)
    | (obtain ⟨a, h1, h⟩ := bind_ok h
       first
        | (have K := K.comp (keep_eq_left (keep_modify h1 (fun _ => ⟨rfl, rfl, rfl⟩)) rfl rfl rfl))
        | cases h1
        | skip)
    | (cases h
       first
        | done
        | exact keep_eq_right K rfl rfl rfl)
    | dsimp only at h
    | (revert h
       split <;> intro h)

theorem keep_do_yield {xp : Option Ptr} {xm : Option Nat} {s : State} {x : Int × State}
    (h : do_yield s = .ok x) : MmKeep xp xm s x.2 := by
  unfold do_yield at h
  have K : MmKeep xp xm s s := keep_refl _ _ _
  repeat' first
    | (obtain ⟨a, h1, h⟩ := bind_ok h
       first
        | (have K := K.comp (keep_eq_left (keep_modify h1 (fun _ => ⟨rfl, rfl, rfl⟩)) rfl rfl rfl))
        | cases h1
        | skip)
    | (cases h
       first
        | done
        | exact keep_eq_right K rfl rfl rfl)
    | dsimp only at h
    | (revert h
       split <;> intro h)

theorem keep_do_kill {xp : Option Ptr} {xm : Option Nat} {s : State} {pid : Int} {x : Int × State}
    (h : do_kill s pid = .ok x) : MmKeep xp xm s x.2 := by
  unfold do_kill at h
  have K : MmKeep xp xm s s := keep_refl _ _ _
  repeat' first
    | (obtain ⟨a, h1, h⟩ := bind_ok h
       first
        | (have K := K.comp (keep_eq_left (keep_modify h1 (fun _ => ⟨rfl, rfl, rfl⟩)) rfl rfl rfl))
        | (have K := K.comp (keep_eq_left (keep_wakeup_proc h1) rfl rfl rfl))
        | cases h1
        | skip)
    | (cases h
       first
        | done
        | exact keep_eq_right K rfl rfl rfl)
    | dsimp only at h
    | (revert h
       split <;> intro h)

theorem keep_do_exit_relink {xp : Option Ptr} {xm : Option Nat} {s : State} {s' : State} {cur p : Ptr}
    (h : do_exit_relink s cur p = .ok s') : MmKeep xp xm s s' := by
  unfold do_exit_relink at h
  have K : MmKeep xp xm s s := keep_refl _ _ _
  repeat' first
    | exact K.comp (keep_eq_left (keep_modify h (fun _ => ⟨rfl, rfl, rfl⟩)) rfl rfl rfl)
    | (obtain ⟨a, h1, h⟩ := bind_ok h
       first
        | (have K := K.comp (keep_eq_left (keep_modify h1 (fun _ => ⟨rfl, rfl, rfl⟩)) rfl rfl rfl))
        | cases h1
        | skip)
    | (cases h
       first
        | done
        | exact keep_eq_right K rfl rfl rfl)
    | dsimp only at h
    | (revert h
       split <;> intro h)

theorem keep_do_exit_wake_init {xp : Option Ptr} {xm : Option Nat} {s : State} {s' : State} {p : Ptr}
    (h : do_exit_wake_init s p = .ok s') : MmKeep xp xm s s' := by
  unfold do_exit_wake_init at h
  have K : MmKeep xp xm s s := keep_refl _ _ _
  repeat' first
    | exact K.comp (keep_eq_left (keep_wakeup_proc h) rfl rfl rfl)
    | (obtain ⟨a, h1, h⟩ := bind_ok h
       first
        | (have K := K.comp (keep_eq_left (keep_modify h1 (fun _ => ⟨rfl, rfl, rfl⟩)) rfl rfl rfl))
        | cases h1
        | skip)
    | (cases h
       first
        | done
        | exact keep_eq_right K rfl rfl rfl)
    | dsimp only at h
    | (revert h
       split <;> intro h)

theorem keep_do_exit_reparent_child {xp : Option Ptr} {xm : Option Nat} {s : State} {s' : State} {cur p : Ptr}
    (h : do_exit_reparent_child s cur p = .ok s') : MmKeep xp xm s s' := by
  unfold do_exit_reparent_child at h
  have K : MmKeep xp xm s s := keep_refl _ _ _
  repeat' first
    | exact K.comp (keep_eq_left (keep_do_exit_wake_init h) rfl rfl rfl)
    | (obtain ⟨a, h1, h⟩ := bind_ok h
       first
        | (have K := K.comp (keep_eq_left (keep_modify h1 (fun _ => ⟨rfl, rfl, rfl⟩)) rfl rfl rfl))
        | (have K := K.comp (keep_eq_left (keep_do_exit_relink h1) rfl rfl rfl))
        | cases h1
        | skip)
    | (cases h
       first
        | done
        | exact keep_eq_right K rfl rfl rfl)
    | dsimp only at h
    | (revert h
       split <;> intro h)

theorem keep_do_wait_found {xp : Option Ptr} {xm : Option Nat} {s : State} {p : Ptr} {cs : Option Nat} {x : WaitResult × State}
    (h : do_wait_found s p cs = .ok x) : MmKeep xp xm s x.2 := by
  unfold do_wait_found at h
  have K : MmKeep xp xm s s := keep_refl _ _ _
  cases cs
  repeat' first
    | (obtain ⟨a, h1, h⟩ := bind_ok h
       first
        | (have K := K.comp (keep_eq_left (keep_modify h1 (fun _ => ⟨rfl, rfl, rfl⟩)) rfl rfl rfl))
        | (have K := K.comp (keep_eq_left (keep_remove_links h1) rfl rfl rfl))
        | (have K := K.comp (keep_eq_left (keep_put_kstack h1) rfl rfl rfl))
        | cases h1
        | skip)
    | (cases h
       first
        | done
        | exact K.comp (keep_kfree _ _)
        | exact keep_eq_right K rfl rfl rfl)
    | dsimp only at h
    | (revert h
       split <;> intro h)

end Ucore

namespace Ucore

set_option linter.unusedTactic false
set_option linter.unreachableTactic false

/-! ### The loops of `do_exit` and `do_wait` -/

theorem keep_modify_live {xp : Option Ptr} {xm : Option Nat} {s s' : State} {p : Ptr}
    {f : proc_struct → proc_struct} (h : s.modify p f = .ok s')
    (hl : ∀ d, s.procs p = some d → d.state ≠ .PROC_ZOMBIE)
    (hf : ∀ d, (f d).cr3 = d.cr3 ∧ (f d).mm = d.mm) : MmKeep xp xm s s' := by
  unfold State.modify at h
  cases hd : s.procs p with
  | none => simp [hd] at h
  | some d =>
    simp only [hd, Except.ok.injEq] at h
    subst h
    exact keep_store hd (hf d).1 (fun _ => ⟨(hf d).2, fun hz => absurd hz (hl d hd)⟩)

theorem keep_do_exit_reparent {xp : Option Ptr} {xm : Option Nat} {cur : Ptr} :
    ∀ (fuel : Nat) (s s' : State), do_exit_reparent fuel s cur = .ok s' →
      MmKeep xp xm s s' := by
  intro fuel
  induction fuel with
  | zero =>
    intro s s' h
    simp [do_exit_reparent] at h
  | succ n ih =>
    intro s s' h
    rw [do_exit_reparent] at h
    have K : MmKeep xp xm s s := keep_refl _ _ _
    repeat' first
      | exact K.comp (ih _ _ h)
      | (obtain ⟨a, h1, h⟩ := bind_ok h
         first
          | (have K := K.comp (keep_eq_left (keep_modify h1 (fun _ => ⟨rfl, rfl, rfl⟩)) rfl rfl rfl))
          | (have K := K.comp (keep_eq_left (keep_do_exit_reparent_child h1) rfl rfl rfl))
          | cases h1
          | skip)
      | (cases h
         first
          | done
          | exact keep_eq_right K rfl rfl rfl)
      | dsimp only at h
      | (revert h
         split <;> intro h)

/-- A call of `do_wait` by a task that is not a zombie. -/
theorem keep_do_wait {xp : Option Ptr} {xm : Option Nat} {s : State} {fuel : Nat} {umc : Bool}
    {pid : Int} {cs : Option Nat} {x : WaitResult × State}
    (hcur : ∀ c d, s.current = some c → s.procs c = some d → d.state ≠ .PROC_ZOMBIE)
    (h : do_wait fuel s umc pid cs = .ok x) : MmKeep xp xm s x.2 := by
  unfold do_wait at h
  cases hc : s.current with
  | none =>
    rw [hc] at h
    split at h
    · cases h
      exact keep_refl _ _ _
    · obtain ⟨a, h1, h⟩ := bind_ok h
      cases h1
  | some c =>
    rw [hc] at h
    have hl : ∀ d, s.procs c = some d → d.state ≠ .PROC_ZOMBIE := fun d hd => hcur c d hc hd
    have K : MmKeep xp xm s s := keep_refl _ _ _
    repeat' first
      | exact K.comp (keep_eq_left (keep_do_wait_found h) rfl rfl rfl)
      | (obtain ⟨a, h1, h⟩ := bind_ok h
         first
          | (have K := K.comp (keep_modify_live h1 hl (fun _ => ⟨rfl, rfl⟩)))
          | (have K := K.comp (keep_eq_left (keep_modify h1 (fun _ => ⟨rfl, rfl, rfl⟩)) rfl rfl rfl))
          | cases h1
          | skip)
      | (cases h
         first
          | done
          | exact keep_eq_right K rfl rfl rfl)
      | dsimp only at h
      | (revert h
         split <;> intro h)

end Ucore

namespace Ucore

set_option linter.unusedTactic false
set_option linter.unreachableTactic false

/-! ## Every descriptor agrees with its address space -/

theorem deref_ok {s : State} {p : Ptr} {d : proc_struct} (h : s.deref p = .ok d) :
    s.procs p = some d := by
  unfold State.deref at h
  split at h
  · cases h
    assumption
  · cases h

theorem modify_entry {s s' : State} {p : Ptr} {f : proc_struct → proc_struct}
    (h : s.modify p f = .ok s') : ∃ d, s.procs p = some d ∧ s' = s.store p (f d) := by
  unfold State.modify at h
  split at h
  · cases h
    exact ⟨_, by assumption, rfl⟩
  · cases h

theorem mmOkX_keep {xp : Option Ptr} {xm : Option Nat} {s s' : State} (h : MmOkX xp xm s)
    (k : MmKeep xp xm s s') : MmOkX xp xm s' := by
  intro x d' hd' hx
  obtain ⟨d, hd, e1, e2⟩ := k.procs x d' hd'
  obtain ⟨e3, e4⟩ := e2 hx
  obtain ⟨o1, o2⟩ := h x d hd hx
  refine ⟨fun hmm hz => ?_, fun m hm => ?_⟩
  · rw [e1, k.boot]
    exact o1 (e3 ▸ hmm) (fun hzz => hz (e4 hzz))
  · obtain ⟨a, b⟩ := o2 m (e3 ▸ hm)
    exact ⟨by rw [e1, k.pgdir m b]; exact a, b⟩

theorem mmOkX_drop {xp : Option Ptr} {xm : Option Nat} {s : State} (h : MmOkX none xm s) :
    MmOkX xp xm s := fun x d hd _ => h x d hd (by simp)

theorem mmOkX_forget {xp : Option Ptr} {xm : Option Nat} {s : State} (h : MmOkX xp xm s) :
    MmOkX xp none s := by
  intro x d hd hx
  obtain ⟨o1, o2⟩ := h x d hd hx
  exact ⟨o1, fun m hm => ⟨(o2 m hm).1, by simp⟩⟩

theorem mmOkX_fresh {xp : Option Ptr} {r : Option Nat} {s : State} (h : MmOkX xp none s)
    (hf : FreshMm s r xp) : MmOkX xp r s := by
  intro x d hd hx
  obtain ⟨o1, o2⟩ := h x d hd hx
  refine ⟨o1, fun m hm => ⟨(o2 m hm).1, ?_⟩⟩
  intro hr
  exact hf m hr.symm x d hd hx hm

/-- Overwriting the descriptor left out, with one that agrees with its address space. -/
theorem mmOkX_store {xm : Option Nat} {s : State} {p : Ptr} {d : proc_struct}
    (h : MmOkX (some p) xm s) (hd : EntryOk s xm d) : MmOkX none xm (s.store p d) := by
  intro x e he _
  by_cases hx : x = p
  · subst hx
    rw [store_procs_same] at he
    cases he
    exact hd
  · rw [store_procs_ne _ _ hx] at he
    exact h x e he (by simpa using hx)

theorem mmOkX_close {xm : Option Nat} {s : State} {p : Ptr} (h : MmOkX (some p) xm s)
    (hd : ∀ d, s.procs p = some d → EntryOk s xm d) : MmOkX none xm s := by
  intro x e he _
  by_cases hx : x = p
  · subst hx
    exact hd e he
  · exact h x e he (by simpa using hx)

theorem keep_release_mm {xp : Option Ptr} {xm : Option Nat} (s : State) (m : Nat) :
    MmKeep xp xm s (release_mm s m) :=
  keep_of_mmOnly (mmOnly_release_mm s m) (fun m' _ => pgSame_release_mm s m m')

theorem keep_mm_count_inc {xp : Option Ptr} {xm : Option Nat} (s : State) (m : Nat) :
    MmKeep xp xm s (mm_count_inc s m) :=
  keep_of_mmOnly (mmOnly_mm_count_inc s m) (fun m' _ => pgSame_mm_count_inc s m m')

/-- The label `good_mm` of `copy_mm` binds the address space `m` to the new descriptor. -/
theorem mmOk_copy_mm_good {xm : Option Nat} {s : State} {m : Nat} {p : Ptr} {x : Int × State}
    (h0 : MmOkX none xm s) (h : copy_mm_good s m p = .ok x) : MmOkX none none x.2 := by
  unfold copy_mm_good at h
  dsimp only at h
  obtain ⟨s1, h1, h⟩ := bind_ok h
  obtain ⟨s2, h2, h⟩ := bind_ok h
  cases h
  obtain ⟨d1, hd1, rfl⟩ := modify_entry h1
  obtain ⟨d2, hd2, rfl⟩ := modify_entry h2
  rw [store_procs_same] at hd2
  cases hd2
  rw [store_store]
  have a1 : MmOkX (some p) none (mm_count_inc s m) :=
    mmOkX_drop (mmOkX_forget (mmOkX_keep h0 (keep_mm_count_inc s m)))
  refine mmOkX_store a1 ⟨fun hmm => ?_, fun m' hm' => ⟨?_, by simp⟩⟩
  · cases hmm
  · cases hm'
    rfl

theorem derefp_ok {s : State} {o : Option Ptr} {d : proc_struct} (h : s.derefp o = .ok d) :
    ∃ q, o = some q ∧ s.procs q = some d := by
  unfold State.derefp at h
  split at h
  · exact ⟨_, rfl, deref_ok h⟩
  · cases h

theorem keep_mm_create {xp : Option Ptr} (s : State) (m : Nat) :
    MmKeep xp (some m) s (mm_create s (some m)).2 := by
  refine keep_of_mmOnly (mmOnly_mm_create s (some m)) ?_
  intro m' hm'
  have hne : m' ≠ m := fun e => hm' (by rw [e])
  simp [mm_create, State.storemm, State.call, Function.update_noteq hne]

theorem keep_setup_pgdir {xp : Option Ptr} (s : State) (r : Option Nat) (m : Nat) :
    MmKeep xp (some m) s (setup_pgdir s r m).2 := by
  refine keep_of_mmOnly (mmOnly_setup_pgdir s r m) ?_
  intro m' hm'
  have hne : m' ≠ m := fun e => hm' (by rw [e])
  cases r with
  | none => rfl
  | some pg => simp [setup_pgdir, State.storemm, State.call, Function.update_noteq hne]

theorem keep_pgSame {xp : Option Ptr} {xm : Option Nat} {s s' : State} (h : MmOnly s s')
    (hp : PgSame s s') : MmKeep xp xm s s' :=
  keep_of_mmOnly h (fun m _ => hp m)

/-- The function `copy_mm` leaves every descriptor in agreement with its address space, when
none of them uses the address space `mm_create` is about to hand out. -/
theorem mmOk_copy_mm {s : State} {env : MmEnv} {cf : Nat} {p : Ptr} {x : Int × State}
    (h0 : MmOkX none env.mm_create s) (h : copy_mm s env cf p = .ok x) :
    MmOkX none none x.2 := by
  unfold copy_mm at h
  obtain ⟨cur, -, h⟩ := bind_ok h
  revert h
  split <;> intro h
  · cases h
    exact mmOkX_forget h0
  · revert h
    split <;> intro h
    · exact mmOk_copy_mm_good h0 h
    · cases hmc : env.mm_create with
      | none =>
        simp only [hmc, mm_create] at h
        cases h
        exact mmOkX_forget (mmOkX_keep h0 (keep_call _ _))
      | some m =>
        rw [hmc] at h0 h
        have a1 := mmOkX_keep h0 (keep_mm_create s m)
        have e1 : (mm_create s (some m)).1 = some m := rfl
        revert h a1 e1
        cases mm_create s (some m) with
        | mk o s1 =>
          intro h a1 e1
          cases e1
          dsimp only at h a1
          have a2 := mmOkX_keep a1 (keep_setup_pgdir s1 env.alloc_page m)
          revert h a2
          cases setup_pgdir s1 env.alloc_page m with
          | mk r2 s2 =>
            intro h a2
            dsimp only at h a2
            revert h
            split <;> intro h
            · cases h
              exact mmOkX_forget (mmOkX_keep a2 (keep_pgSame (mmOnly_mm_destroy _ _)
                (pgSame_mm_destroy _ _)))
            · have a3 : ∀ om, MmOkX none (some m)
                  ((dup_mmap (s2.call (.lock_mm om)) m om env.dup_mmap).call (.unlock_mm om)) :=
                fun om => mmOkX_keep a2 (((keep_call _ _).comp (keep_pgSame
                  (mmOnly_dup_mmap _ _ _ _) (pgSame_dup_mmap _ _ _ _))).comp (keep_call _ _))
              revert h
              split <;> intro h
              · cases h
                exact mmOkX_forget (mmOkX_keep (a3 _) (((keep_pgSame (mmOnly_exit_mmap _ _)
                  (pgSame_exit_mmap _ _)).comp (keep_pgSame (mmOnly_put_pgdir _ _)
                  (pgSame_put_pgdir _ _))).comp (keep_pgSame (mmOnly_mm_destroy _ _)
                  (pgSame_mm_destroy _ _))))
              · exact mmOk_copy_mm_good (a3 _) h

/-- A descriptor fresh from `alloc_proc` has no address space and the kernel's page
directory. -/
theorem mmOkX_alloc_proc {xm : Option Nat} {s s1 : State} {r : Option (Ptr × proc_struct)}
    {o : Option Ptr} (h0 : MmOkX none xm s) (h : alloc_proc s r = (o, s1)) :
    MmOkX none xm s1 := by
  unfold alloc_proc kmalloc at h
  cases r with
  | none =>
    simp only [Prod.mk.injEq] at h
    obtain ⟨-, rfl⟩ := h
    exact mmOkX_keep h0 (keep_call _ _)
  | some pr =>
    obtain ⟨p, raw⟩ := pr
    simp only [State.call, State.store, Function.update_same, Prod.mk.injEq] at h
    obtain ⟨-, rfl⟩ := h
    intro x e he _
    by_cases hx : x = p
    · subst hx
      simp only [Function.update_same, Option.some.injEq] at he
      subst he
      exact ⟨fun _ _ => rfl, fun m hm => by cases hm⟩
    · simp only [Function.update_noteq hx] at he
      exact h0 x e he (by simp)

/-- The function `do_fork` leaves every descriptor in agreement with its address space, when
none of them uses the address space `mm_create` is about to hand out. -/
theorem mmOk_do_fork {s : State} {env : ForkEnv} {fuel cf stack : Nat} {tf : trapframe}
    {x : Int × State} (h0 : MmOkX none env.mm.mm_create s)
    (h : do_fork fuel s env cf stack tf = .ok x) : MmOkX none none x.2 := by
  unfold do_fork at h
  revert h
  split <;> intro h
  · cases h
    exact mmOkX_forget h0
  · have a1 := fun o s1 => @mmOkX_alloc_proc env.mm.mm_create s s1 env.kmalloc o h0
    revert h a1
    cases alloc_proc s env.kmalloc with
    | mk o s1 =>
      intro h a1
      have b1 := a1 o s1 rfl
      clear a1
      cases o with
      | none =>
        cases h
        exact mmOkX_forget b1
      | some p =>
        dsimp only at h
        obtain ⟨s2, h2, h⟩ := bind_ok h
        obtain ⟨cur, -, h⟩ := bind_ok h
        have a2 := mmOkX_keep b1 (keep_modify h2 (fun _ => ⟨rfl, rfl, rfl⟩))
        revert h
        split <;> intro h
        · cases h
        · obtain ⟨x3, h3, h⟩ := bind_ok h
          have a3 := mmOkX_keep a2 (keep_setup_kstack h3)
          obtain ⟨r3, s3⟩ := x3
          dsimp only at h a3
          revert h
          split <;> intro h
          · cases h
            exact mmOkX_forget (mmOkX_keep a3 (keep_kfree _ _))
          · obtain ⟨x4, h4, h⟩ := bind_ok h
            have a4 := mmOk_copy_mm a3 h4
            obtain ⟨r4, s4⟩ := x4
            dsimp only at h a4
            revert h
            split <;> intro h
            · obtain ⟨s5, h5, h⟩ := bind_ok h
              cases h
              exact mmOkX_keep a4 ((keep_put_kstack h5).comp (keep_kfree _ _))
            · exact mmOkX_keep a4 (keep_do_fork_link h)

end Ucore

namespace Ucore

set_option linter.unusedTactic false
set_option linter.unreachableTactic false

/-! ## `do_exit` leaves a zombie without address space -/

theorem keep_modify_x {xm : Option Nat} {s s' : State} {p : Ptr}
    {f : proc_struct → proc_struct} (h : s.modify p f = .ok s')
    (hf : ∀ d, (f d).cr3 = d.cr3) : MmKeep (some p) xm s s' := by
  obtain ⟨d, hd, rfl⟩ := modify_entry h
  exact keep_store hd (hf d) (fun hx => absurd rfl hx)

/-- The part of `do_exit` before its loop: the caller gives up its address space and becomes
a zombie; its `cr3` and everything about the other descriptors stays. -/
theorem do_exit_zombie_mm {s : State} {e : Int} {x : Ptr × State}
    (h : do_exit_zombie s e = .ok x) :
    s.current = some x.1 ∧ MmKeep (some x.1) none s x.2 ∧
      ∀ d, x.2.procs x.1 = some d → d.mm = none ∧ d.state = .PROC_ZOMBIE := by
  unfold do_exit_zombie at h
  revert h
  split <;> intro h
  · cases h
  revert h
  split <;> intro h
  · cases h
  cases hc : s.current with
  | none =>
    rw [hc] at h
    obtain ⟨a, h1, h⟩ := bind_ok h
    cases h1
  | some c =>
    rw [hc] at h
    obtain ⟨a, h1, h⟩ := bind_ok h
    cases h1
    obtain ⟨d, hd, h⟩ := bind_ok h
    have hd := deref_ok hd
    revert h
    split <;> intro h
    · obtain ⟨s1, h1, h⟩ := bind_ok h
      have K1 : MmKeep (some c) none s s1 :=
        (keep_release_mm s _).comp (keep_modify_x h1 (fun _ => rfl))
      have E1 : ∀ d1, s1.procs c = some d1 → d1.mm = none := by
        obtain ⟨d0, hd0, rfl⟩ := modify_entry h1
        intro d1 hd1
        rw [store_procs_same] at hd1
        cases hd1
        rfl
      clear h1
      obtain ⟨s2, h2, h⟩ := bind_ok h
      have K2 : MmKeep (some c) none s s2 := K1.comp (keep_modify_x h2 (fun _ => rfl))
      have E2 : ∀ d2, s2.procs c = some d2 → d2.mm = none ∧ d2.state = .PROC_ZOMBIE := by
        obtain ⟨d1, hd1, rfl⟩ := modify_entry h2
        intro d2 hd2
        rw [store_procs_same] at hd2
        cases hd2
        exact ⟨E1 d1 hd1, rfl⟩
      have fin : ∀ t : State, MmKeep none none s2 t →
          (some c = some c ∧ MmKeep (some c) none s t ∧
            ∀ d, t.procs c = some d → d.mm = none ∧ d.state = .PROC_ZOMBIE) := by
        intro t kt
        refine ⟨rfl, K2.comp (kt.weaken (Or.inl rfl) (Or.inl rfl)), ?_⟩
        intro d3 hd3
        obtain ⟨d2, hd2, -, e⟩ := kt.procs c d3 hd3
        obtain ⟨e1, e2⟩ := e (by simp)
        obtain ⟨f1, f2⟩ := E2 d2 hd2
        exact ⟨e1.trans f1, e2 f2⟩
      clear h2
      have K : MmKeep none none s2 s2 := keep_refl _ _ _
      repeat' first
        | (obtain ⟨a, h1, h⟩ := bind_ok h
           first
            | (have K := K.comp (keep_eq_left (keep_modify h1 (fun _ => ⟨rfl, rfl, rfl⟩)) rfl rfl rfl))
            | (have K := K.comp (keep_eq_left (keep_wakeup_proc h1) rfl rfl rfl))
            | cases h1
            | skip)
        | (cases h
           first
            | done
            | exact fin _ (keep_eq_right K rfl rfl rfl)
            | exact keep_eq_right K rfl rfl rfl)
        | dsimp only at h
        | (revert h
           split <;> intro h)

    · obtain ⟨s1, h1, h⟩ := bind_ok h
      cases h1
      have K1 : MmKeep (some c) none s s := keep_refl _ _ _
      have E1 : ∀ d1, s.procs c = some d1 → d1.mm = none := by
        intro d1 hd1
        rw [hd] at hd1
        cases hd1
        assumption
      obtain ⟨s2, h2, h⟩ := bind_ok h
      have K2 : MmKeep (some c) none s s2 := K1.comp (keep_modify_x h2 (fun _ => rfl))
      have E2 : ∀ d2, s2.procs c = some d2 → d2.mm = none ∧ d2.state = .PROC_ZOMBIE := by
        obtain ⟨d1, hd1, rfl⟩ := modify_entry h2
        intro d2 hd2
        rw [store_procs_same] at hd2
        cases hd2
        exact ⟨E1 d1 hd1, rfl⟩
      have fin : ∀ t : State, MmKeep none none s2 t →
          (some c = some c ∧ MmKeep (some c) none s t ∧
            ∀ d, t.procs c = some d → d.mm = none ∧ d.state = .PROC_ZOMBIE) := by
        intro t kt
        refine ⟨rfl, K2.comp (kt.weaken (Or.inl rfl) (Or.inl rfl)), ?_⟩
        intro d3 hd3
        obtain ⟨d2, hd2, -, e⟩ := kt.procs c d3 hd3
        obtain ⟨e1, e2⟩ := e (by simp)
        obtain ⟨f1, f2⟩ := E2 d2 hd2
        exact ⟨e1.trans f1, e2 f2⟩
      clear h2
      have K : MmKeep none none s2 s2 := keep_refl _ _ _
      repeat' first
        | (obtain ⟨a, h1, h⟩ := bind_ok h
           first
            | (have K := K.comp (keep_eq_left (keep_modify h1 (fun _ => ⟨rfl, rfl, rfl⟩)) rfl rfl rfl))
            | (have K := K.comp (keep_eq_left (keep_wakeup_proc h1) rfl rfl rfl))
            | cases h1
            | skip)
        | (cases h
           first
            | done
            | exact fin _ (keep_eq_right K rfl rfl rfl)
            | exact keep_eq_right K rfl rfl rfl)
        | dsimp only at h
        | (revert h
           split <;> intro h)

/-- The function `do_exit`, called in a state in which every descriptor but the caller's
agrees with its address space, leaves every descriptor in agreement with its address
space. -/
theorem mmOk_do_exit {s s' : State} {fuel : Nat} {e : Int} (h0 : MmOkX s.current none s)
    (h : do_exit fuel s e = .ok s') : MmOkX none none s' := by
  unfold do_exit at h
  obtain ⟨x, h1, h⟩ := bind_ok h
  obtain ⟨hc, K, E⟩ := do_exit_zombie_mm h1
  obtain ⟨c, sZ⟩ := x
  dsimp only at h hc K E
  obtain ⟨s3, h3, h⟩ := bind_ok h
  cases h
  rw [hc] at h0
  have a1 : MmOkX none none sZ := by
    refine mmOkX_close (mmOkX_keep h0 K) ?_
    intro d hd
    obtain ⟨e1, e2⟩ := E d hd
    exact ⟨fun _ hz => absurd e2 hz, fun m hm => by rw [e1] at hm; cases hm⟩
  exact mmOkX_keep a1 ((keep_do_exit_reparent _ _ _ h3).comp (keep_call _ _))

end Ucore

namespace Ucore

set_option linter.unusedTactic false
set_option linter.unreachableTactic false

/-! ## `do_execve` binds the new address space to the caller -/

/-- Steps (5) and (6) of `load_icode` bind the address space `m` to the descriptor `c`. -/
theorem mmOk_load_finish {xm : Option Nat} {s : State} {m : Nat} {c : Ptr} {e : Nat}
    {x : Int × State} (h0 : MmOkX (some c) xm s) (h : load_finish s m c e = .ok x) :
    MmOkX none none x.2 := by
  unfold load_finish at h
  dsimp only at h
  obtain ⟨s1, h1, h⟩ := bind_ok h
  obtain ⟨s2, h2, h⟩ := bind_ok h
  obtain ⟨d, -, h⟩ := bind_ok h
  have a2 : MmOkX none none s2 := by
    obtain ⟨d1, hd1, rfl⟩ := modify_entry h1
    obtain ⟨d2, hd2, rfl⟩ := modify_entry h2
    rw [store_procs_same] at hd2
    cases hd2
    rw [store_store]
    have a1 : MmOkX (some c) none (mm_count_inc s m) :=
      mmOkX_forget (mmOkX_keep h0 (keep_mm_count_inc s m))
    refine mmOkX_store a1 ⟨fun hmm => ?_, fun m' hm' => ⟨?_, by simp⟩⟩
    · cases hmm
    · cases hm'
      rfl
  revert h
  split <;> intro h
  · cases h
  · cases h
    exact mmOkX_keep a2 (keep_of_eq rfl rfl rfl)

/-- The function `load_icode`, called for a task `c` whose descriptor is left out: when it
fails all other descriptors are as before, and when it succeeds the descriptor of `c`
agrees with the new address space. -/
theorem mmOk_load_icode {s : State} {c : Ptr} {fuel : Nat} {env : ExecEnv} {img : binary}
    {x : Int × State} (hcur : s.current = some c) (h0 : MmOkX (some c) env.mm_create s)
    (h : load_icode fuel s env img = .ok x) :
    MmOkX (some c) none x.2 ∧ (x.1 = 0 → MmOkX none none x.2) := by
  unfold load_icode at h
  rw [hcur] at h
  obtain ⟨a, h1, h⟩ := bind_ok h
  cases h1
  obtain ⟨cur, -, h⟩ := bind_ok h
  revert h
  split <;> intro h
  · cases h
  cases hmc : env.mm_create with
  | none =>
    simp only [hmc, mm_create] at h
    cases h
    exact ⟨mmOkX_forget (mmOkX_keep h0 (keep_call _ _)), fun e => absurd e (show (-E_NO_MEM : Int) ≠ 0 by decide)⟩
  | some m =>
    rw [hmc] at h0 h
    have a1 := mmOkX_keep h0 (keep_mm_create s m)
    have e1 : (mm_create s (some m)).1 = some m := rfl
    revert h a1 e1
    cases mm_create s (some m) with
    | mk o s1 =>
      intro h a1 e1
      cases e1
      dsimp only at h a1
      have a2 := mmOkX_keep a1 (keep_setup_pgdir s1 env.alloc_page m)
      revert h a2
      cases setup_pgdir s1 env.alloc_page m with
      | mk r2 s2 =>
        intro h a2
        dsimp only at h a2
        revert h
        split <;> intro h
        · cases h
          exact ⟨mmOkX_forget (mmOkX_keep a2 (keep_pgSame (mmOnly_mm_destroy _ _)
            (pgSame_mm_destroy _ _))), fun e => absurd e (show (-E_NO_MEM : Int) ≠ 0 by decide)⟩
        revert h
        split <;> intro h
        · cases h
          exact ⟨mmOkX_forget (mmOkX_keep a2 ((keep_pgSame (mmOnly_put_pgdir _ _)
            (pgSame_put_pgdir _ _)).comp (keep_pgSame (mmOnly_mm_destroy _ _)
            (pgSame_mm_destroy _ _)))), fun e => absurd e (show (-E_INVAL_ELF : Int) ≠ 0 by decide)⟩
        obtain ⟨x3, h3, h⟩ := bind_ok h
        obtain ⟨r3, s3⟩ := x3
        have a3 := mmOkX_keep a2 (keep_pgSame (mmOnly_load_segments _ _ _ _ h3)
          (pgSame_load_segments _ _ _ _ h3))
        dsimp only at h
        revert h
        split <;> intro h
        · cases h
          exact ⟨mmOkX_forget (mmOkX_keep a3 (keep_pgSame (mmOnly_load_bad_cleanup_mmap _ _)
            (pgSame_load_bad_cleanup_mmap _ _))), fun e => absurd e (by assumption)⟩
        have a4 := fun vm fl => mmOkX_keep a3 (keep_pgSame
          (mmOnly_mm_map s3 m (USTACKTOP - USTACKSIZE) USTACKSIZE vm fl)
          (pgSame_mm_map s3 m (USTACKTOP - USTACKSIZE) USTACKSIZE vm fl))
        have a4 := a4 (VM_READ ||| VM_WRITE ||| VM_STACK) (env.vma_create (USTACKTOP - USTACKSIZE))
        revert h a4
        cases mm_map s3 m (USTACKTOP - USTACKSIZE) USTACKSIZE (VM_READ ||| VM_WRITE ||| VM_STACK)
            (env.vma_create (USTACKTOP - USTACKSIZE)) with
        | mk r4 s4 =>
          intro h a4
          dsimp only at h a4
          revert h
          split <;> intro h
          · cases h
            exact ⟨mmOkX_forget (mmOkX_keep a4 (keep_pgSame (mmOnly_load_bad_cleanup_mmap _ _)
              (pgSame_load_bad_cleanup_mmap _ _))), fun e => absurd e (by assumption)⟩
          obtain ⟨s5, h5, h⟩ := bind_ok h
          obtain ⟨s6, h6, h⟩ := bind_ok h
          obtain ⟨s7, h7, h⟩ := bind_ok h
          obtain ⟨s8, h8, h⟩ := bind_ok h
          have a8 := mmOkX_keep a4 ((((keep_pgSame (mmOnly_load_stack_page h5)
            (pgSame_load_stack_page h5)).comp (keep_pgSame (mmOnly_load_stack_page h6)
            (pgSame_load_stack_page h6))).comp (keep_pgSame (mmOnly_load_stack_page h7)
            (pgSame_load_stack_page h7))).comp (keep_pgSame (mmOnly_load_stack_page h8)
            (pgSame_load_stack_page h8)))
          have fin := mmOk_load_finish a8 h
          exact ⟨mmOkX_drop fin, fun _ => fin⟩

/-- The function `do_execve` leaves every descriptor in agreement with its address space,
when no descriptor but the caller's uses the address space `mm_create` is about to hand
out. -/
theorem mmOk_do_execve {s : State} {fuel : Nat} {env : ExecEnv} {umc : Bool}
    {name : List Nat} {len : Nat} {img : binary} {x : ExecResult × State}
    (h0 : MmOkX none none s) (hf : FreshMm s env.mm_create s.current)
    (h : do_execve fuel s env umc name len img = .ok x) : MmOkX none none x.2 := by
  unfold do_execve at h
  cases hc : s.current with
  | none =>
    rw [hc] at h
    obtain ⟨a, h1, h⟩ := bind_ok h
    cases h1
  | some c =>
    rw [hc] at h hf
    obtain ⟨a, h1, h⟩ := bind_ok h
    cases h1
    obtain ⟨cur, hd, h⟩ := bind_ok h
    have hd := deref_ok hd
    revert h
    split <;> intro h
    · cases h
      exact h0
    dsimp only at h
    have A0 : MmOkX (some c) env.mm_create s := mmOkX_fresh (mmOkX_drop h0) hf
    revert h
    split <;> intro h
    · obtain ⟨s1, h1, h⟩ := bind_ok h
      have K1 : MmKeep (some c) env.mm_create s s1 :=
        ((keep_release_mm s _).comp (keep_modify_x h1 (fun _ => rfl))).weaken
          (Or.inr rfl) (Or.inl rfl)
      have A1 := mmOkX_keep A0 K1
      have hcur1 : s1.current = some c :=
        (modify_current h1).1.trans ((mmOnly_release_mm s _).current.trans hc)
      obtain ⟨d0, hd0, e0⟩ := modify_entry h1
      have hc1 : s1.procs c = some { d0 with mm := none } := by
        rw [e0]
        exact store_procs_same _ _ _
      clear h1 K1 e0
      obtain ⟨x2, h2, h⟩ := bind_ok h
      obtain ⟨ret, s2⟩ := x2
      obtain ⟨B1, B2⟩ := mmOk_load_icode hcur1 A1 h2
      have hcur2 : s2.current = some c := by
        obtain ⟨-, -, -, -, -, -, -, e8, -⟩ := load_icode_frame hcur1 hc1 h2
        exact e8.trans hcur1
      dsimp only at h B1 B2
      revert h
      split <;> intro h
      · obtain ⟨s3, h3, h⟩ := bind_ok h
        cases h
        exact mmOk_do_exit (by rw [hcur2]; exact B1) h3
      · obtain ⟨s3, h3, h⟩ := bind_ok h
        cases h
        exact mmOkX_keep (B2 (not_not.mp (by assumption))) (keep_set_proc_name h3)

    · obtain ⟨s1, h1, h⟩ := bind_ok h
      cases h1
      have A1 := A0
      have hcur1 := hc
      have hc1 := hd
      obtain ⟨x2, h2, h⟩ := bind_ok h
      obtain ⟨ret, s2⟩ := x2
      obtain ⟨B1, B2⟩ := mmOk_load_icode hcur1 A1 h2
      have hcur2 : s2.current = some c := by
        obtain ⟨-, -, -, -, -, -, -, e8, -⟩ := load_icode_frame hcur1 hc1 h2
        exact e8.trans hcur1
      dsimp only at h B1 B2
      revert h
      split <;> intro h
      · obtain ⟨s3, h3, h⟩ := bind_ok h
        cases h
        exact mmOk_do_exit (by rw [hcur2]; exact B1) h3
      · obtain ⟨s3, h3, h⟩ := bind_ok h
        cases h
        exact mmOkX_keep (B2 (not_not.mp (by assumption))) (keep_set_proc_name h3)

end Ucore

namespace Ucore

set_option linter.unusedTactic false
set_option linter.unreachableTactic false

/-! ## Every reachable state has its descriptors in agreement with their address spaces -/

theorem alloc_proc_state {s s1 : State} {r : Option (Ptr × proc_struct)} {p : Ptr}
    (h : alloc_proc s r = (some p, s1)) :
    ∀ d, s1.procs p = some d → d.state = .PROC_UNINIT := by
  unfold alloc_proc kmalloc at h
  cases r with
  | none => simp at h
  | some pr =>
    obtain ⟨q, raw⟩ := pr
    simp only [State.call, State.store, Function.update_same, Prod.mk.injEq,
      Option.some.injEq] at h
    obtain ⟨rfl, rfl⟩ := h
    intro d hd
    simp only [Function.update_same, Option.some.injEq] at hd
    subst hd
    rfl

theorem keep_proc_init_finish {xp : Option Ptr} {xm : Option Nat} {s : State} {s' : State} {env : InitEnv} {pid : Int}
    (h : proc_init_finish s env pid = .ok s') : MmKeep xp xm s s' := by
  unfold proc_init_finish at h
  have K : MmKeep xp xm s s := keep_refl _ _ _
  repeat' first
    | (obtain ⟨a, h1, h⟩ := bind_ok h
       first
        | (have K := K.comp (keep_eq_left (keep_modify h1 (fun _ => ⟨rfl, rfl, rfl⟩)) rfl rfl rfl))
        | (have K := K.comp (keep_eq_left (keep_set_proc_name h1) rfl rfl rfl))
        | cases h1
        | skip)
    | (cases h
       first
        | done
        | exact keep_eq_right K rfl rfl rfl)
    | dsimp only at h
    | (revert h
       split <;> intro h)

/-- The first part of `proc_init` makes an idle task without address space. -/
theorem mmOk_proc_init_idle {s0 s : State} {env : InitEnv} (r : Option Nat) (hb : Boot s0)
    (h : proc_init_idle s0 env = .ok s) : MmOkX none r s := by
  have a0 : MmOkX none r { s0 with proc_list := [], hash_list := fun _ => [] } := by
    intro x d hd _
    have e : s0.procs x = some d := hd
    rw [hb.1] at e
    cases e
  unfold proc_init_idle at h
  dsimp only at h
  have a1 := fun o s1 => @mmOkX_alloc_proc r _ s1 env.idle o a0
  have st := fun p s1 => @alloc_proc_state { s0 with proc_list := [], hash_list := fun _ => [] }
    s1 env.idle p
  revert h a1 st
  cases alloc_proc { s0 with proc_list := [], hash_list := fun _ => [] } env.idle with
  | mk o s1 =>
    intro h a1 st
    have b1 := a1 o s1 rfl
    clear a1
    cases o with
    | none => cases h
    | some idle =>
      have st1 := st idle s1 rfl
      clear st
      dsimp only at h
      obtain ⟨sa, ha, h⟩ := bind_ok h
      obtain ⟨sb, hb2, h⟩ := bind_ok h
      have hl : ∀ d, sa.procs idle = some d → d.state ≠ .PROC_ZOMBIE := by
        obtain ⟨d0, hd0, rfl⟩ := modify_entry ha
        intro d hd
        rw [store_procs_same] at hd
        cases hd
        show d0.state ≠ .PROC_ZOMBIE
        rw [st1 d0 hd0]
        decide
      have ka : MmKeep none r s1 sa :=
        keep_eq_left (keep_modify ha (fun _ => ⟨rfl, rfl, rfl⟩)) rfl rfl rfl
      have ab : MmOkX none r sb :=
        mmOkX_keep b1 (ka.comp (keep_modify_live hb2 hl (fun _ => ⟨rfl, rfl⟩)))
      clear ka
      clear ha hb2 hl
      have K : MmKeep none r sb sb := keep_refl _ _ _
      repeat' first
        | (obtain ⟨a, h1, h⟩ := bind_ok h
           first
            | (have K := K.comp (keep_eq_left (keep_modify h1 (fun _ => ⟨rfl, rfl, rfl⟩)) rfl rfl rfl))
            | (have K := K.comp (keep_eq_left (keep_set_proc_name h1) rfl rfl rfl))
            | cases h1
            | skip)
        | (cases h
           first
            | done
            | exact mmOkX_keep ab (keep_eq_right K rfl rfl rfl)
            | exact keep_eq_right K rfl rfl rfl)
        | dsimp only at h
        | (revert h
           split <;> intro h)

/-- After `proc_init` every descriptor agrees with its address space. -/
theorem mmOk_proc_init {s0 s : State} {env : InitEnv} {fuel : Nat} (hb : Boot s0)
    (h : proc_init fuel s0 env = .ok s) : MmOkX none none s := by
  unfold proc_init at h
  obtain ⟨sI, hI, h⟩ := bind_ok h
  obtain ⟨x, hk, h⟩ := bind_ok h
  obtain ⟨pid, s2⟩ := x
  dsimp only at h
  have a2 : MmOkX none none s2 := by
    unfold kernel_thread at hk
    exact mmOk_do_fork (mmOk_proc_init_idle env.fork.mm.mm_create hb hI) hk
  revert h
  split <;> intro h
  · cases h
  · exact mmOkX_keep a2 (keep_proc_init_finish h)

theorem reachable_mmOk {s : State} (h : Reachable s) : MmOkX none none s := by
  induction h with
  | init fuel s0 s env hb hne hrun => exact mmOk_proc_init hb hrun
  | fork fuel s s' env cf st tf r _ _ hfm hrun ih => exact mmOk_do_fork (mmOkX_fresh ih hfm) hrun
  | exit fuel s s1 s' ec next _ hrun hnext hsched ih =>
    exact mmOkX_keep (mmOk_do_exit (mmOkX_drop ih) hrun) (keep_schedule hsched)
  | wait_return fuel s s' umc pid cs r hr hrun ih =>
    obtain ⟨c, dc, hcur, hc, hst⟩ := (reachable_inv hr).cur
    refine mmOkX_keep ih (keep_do_wait ?_ hrun)
    intro c' d' hc' hd'
    rw [hcur] at hc'
    cases hc'
    rw [hc] at hd'
    cases hd'
    rw [hst]
    decide
  | wait_sleep fuel s s1 s' umc pid cs next hr hrun hnext hsched ih =>
    obtain ⟨c, dc, hcur, hc, hst⟩ := (reachable_inv hr).cur
    refine mmOkX_keep (mmOkX_keep ih (keep_do_wait ?_ hrun)) (keep_schedule hsched)
    intro c' d' hc' hd'
    rw [hcur] at hc'
    cases hc'
    rw [hc] at hd'
    cases hd'
    rw [hst]
    decide
  | kill s s' pid r _ hrun ih => exact mmOkX_keep ih (keep_do_kill hrun)
  | yield s s' r _ hrun ih => exact mmOkX_keep ih (keep_do_yield hrun)
  | resched s s' next _ hnext hsched ih => exact mmOkX_keep ih (keep_schedule hsched)
  | execve_return fuel s s' env umc name len img r _ hfm hrun ih =>
    exact mmOk_do_execve ih hfm hrun
  | execve_exit fuel s s1 s' env umc name len img next _ hfm hrun hnext hsched ih =>
    exact mmOkX_keep (mmOk_do_execve ih hfm hrun) (keep_schedule hsched)

end Ucore

namespace Ucore

/-! ## Claim about `mm` and `cr3` -/

/-- In the machine `child_running` no task has an address space. -/
theorem child_running_no_mm : ∀ q d, child_running.procs q = some d → d.mm = none := by
  intro q d hd
  have hs := (reachable_inv child_running_spec.1).struct
  have hl : child_running.proc_list = [300, 200] := by decide
  have hi : child_running.idleproc = some 100 := by decide
  have h1 : (child_running.procs 300).map (fun e => e.mm) = some none := by decide
  have h2 : (child_running.procs 200).map (fun e => e.mm) = some none := by decide
  have h3 : (child_running.procs 100).map (fun e => e.mm) = some none := by decide
  have hv := (hs.valid q).mp (by rw [hd]; rfl)
  rw [hl, hi] at hv
  simp only [List.mem_cons, List.mem_singleton, List.not_mem_nil, or_false,
    Option.some.injEq] at hv
  rcases hv with (rfl | rfl) | rfl
  · rw [hd] at h1
    simpa using h1
  · rw [hd] at h2
    simpa using h2
  · rw [hd] at h3
    simpa using h3

/-- The machine `child_execed` is reachable: the thread at 300 has called `do_execve`, which
returned 0. -/
theorem child_execed_reachable : Reachable child_execed := by
  have hok : (match do_execve 2000000 child_running exec_env true [115, 104] 2 demo_image with
      | .ok (.returned 0, _) => true
      | _ => false) = true := by decide
  have hcur : child_running.current = some 300 := child_running_spec.2.1
  cases hx : do_execve 2000000 child_running exec_env true [115, 104] 2 demo_image with
  | error e =>
    rw [hx] at hok
    cases hok
  | ok x =>
    obtain ⟨res, t⟩ := x
    have ht : child_execed = t := by
      unfold child_execed
      rw [hx]
    rw [ht]
    have hres : res = .returned 0 := by
      rw [hx] at hok
      revert hok
      split
      · rename_i heq
        intro _
        cases heq
        rfl
      · intro h
        cases h
    subst hres
    refine Reachable.execve_return 2000000 child_running t exec_env true [115, 104] 2
      demo_image 0 child_running_spec.1 ?_ hx
    intro m _ q d hd _ hm
    rw [child_running_no_mm q d hd] at hm
    cases hm

/-- The machine `exec_exited` is reachable: the task at 300 has called `do_exit(0)` and the
scheduler has switched to the idle task. -/
theorem exec_exited_reachable : Reachable exec_exited := by
  have hok : (match do_exit 20000 child_execed 0 with
      | .ok s =>
        (match schedule s 100 with
         | .ok _ => (s.procs 100).map (fun d => d.state) = some .PROC_RUNNABLE
         | .error _ => false)
      | .error _ => false) = true := by decide
  cases hx : do_exit 20000 child_execed 0 with
  | error e =>
    rw [hx] at hok
    simp at hok
  | ok s1 =>
    rw [hx] at hok
    dsimp only at hok
    cases hy : schedule s1 100 with
    | error e =>
      rw [hy] at hok
      simp at hok
    | ok t =>
      rw [hy] at hok
      have ht : exec_exited = t := by
        unfold exec_exited
        rw [hx]
        dsimp only
        rw [hy]
      rw [ht]
      have hrun : Runnable s1 100 := by
        have h1 : (s1.procs 100).map (fun d => d.state) = some .PROC_RUNNABLE := by
          simpa using hok
        cases hd : s1.procs 100 with
        | none =>
          rw [hd] at h1
          cases h1
        | some d =>
          rw [hd] at h1
          exact ⟨d, hd, by simpa using h1⟩
      exact Reachable.exit 20000 child_execed s1 t 0 100 child_execed_reachable hx hrun hy

/-- Claim C15, counterexample.  The machine `exec_exited` is reachable: after `proc_init`
the idle task forks a thread, the thread replaces its image with `do_execve` and then calls
`do_exit(0)`.  Its descriptor, at 300, is a zombie whose `mm` is null, and its `cr3` is
still 0x400000, the page directory of the address space it had, while `boot_cr3` is
0x100000. -/
theorem zombie_keeps_cr3 :
    Reachable exec_exited ∧ ∃ d, exec_exited.procs 300 = some d ∧ d.mm = none ∧
      d.state = .PROC_ZOMBIE ∧ d.cr3 = 0x400000 ∧ exec_exited.boot_cr3 = 0x100000 ∧
      d.cr3 ≠ exec_exited.boot_cr3 := by
  refine ⟨exec_exited_reachable, ?_⟩
  have h1 : (exec_exited.procs 300).map (fun d => (d.mm, d.state, d.cr3)) =
      some (none, .PROC_ZOMBIE, 0x400000) := by decide
  have h2 : exec_exited.boot_cr3 = 0x100000 := by decide
  cases hd : exec_exited.procs 300 with
  | none =>
    rw [hd] at h1
    cases h1
  | some d =>
    rw [hd] at h1
    simp only [Option.map_some', Option.some.injEq, Prod.mk.injEq] at h1
    obtain ⟨e1, e2, e3⟩ := h1
    refine ⟨d, rfl, e1, e2, e3, h2, ?_⟩
    rw [e3, h2]
    decide

/-- Claim C15, amended.  In every state reachable after `proc_init` by any sequence of
`do_fork`, `do_execve`, `do_exit`, `do_wait` (and `do_kill`, `do_yield` and switches of the
scheduler), every task whose `mm` is null and that is not a ZOMBIE has `cr3 == boot_cr3`,
and every task whose `mm` is non-null has `cr3` equal to the physical address of
`mm.pgdir`. -/
theorem mm_cr3_consistent (s : State) (hr : Reachable s) :
    ∀ x d, s.procs x = some d →
      (d.mm = none → d.state ≠ .PROC_ZOMBIE → d.cr3 = s.boot_cr3) ∧
      (∀ m, d.mm = some m → d.cr3 = PADDR ((s.mms m).pgdir.getD 0)) := by
  intro x d hd
  obtain ⟨h1, h2⟩ := reachable_mmOk hr x d hd (by simp)
  exact ⟨h1, fun m hm => (h2 m hm).1⟩

theorem mm_cr3_consistent_witness :
    Reachable child_execed ∧
    ∀ x d, child_execed.procs x = some d →
      (d.mm = none → d.state ≠ .PROC_ZOMBIE → d.cr3 = child_execed.boot_cr3) ∧
      (∀ m, d.mm = some m → d.cr3 = PADDR ((child_execed.mms m).pgdir.getD 0)) :=
  ⟨child_execed_reachable, mm_cr3_consistent child_execed child_execed_reachable⟩

end Ucore

namespace Ucore

/-! ## Claims about `copy_thread` and the termination of `get_pid` -/

/-- Claim C30.  For every allocated descriptor `p`, every `esp` and every source trap frame
`tf`, `copy_thread(proc, esp, tf)` returns; afterwards `proc.tf` is the address
`kstack + KSTACKSIZE - sizeof(struct trapframe)` (in 32-bit arithmetic; plainly so when the
sum does not wrap), the frame stored there is the source frame with `reg_eax == 0`,
`tf_esp == esp` and `tf_eflags == tf.tf_eflags | FL_IF` and every other field as in the
source, `proc.context.eip` is the address of `forkret`, and `proc.context.esp == proc.tf`. -/
theorem copy_thread_frame (s : State) (p : Ptr) (d : proc_struct) (esp : Nat) (tf : trapframe)
    (hp : s.procs p = some d) :
    ∃ s' d' a, copy_thread s p esp tf = .ok s' ∧ s'.procs p = some d' ∧ d'.tf = some a ∧
      a = sub32 (wrap32 (d.kstack + KSTACKSIZE)) SIZEOF_TRAPFRAME ∧
      (SIZEOF_TRAPFRAME ≤ d.kstack + KSTACKSIZE → d.kstack + KSTACKSIZE < 2 ^ 32 →
        a = d.kstack + KSTACKSIZE - SIZEOF_TRAPFRAME) ∧
      s'.tfmem a = { tf with tf_regs := { tf.tf_regs with reg_eax := 0 }, tf_esp := esp,
                             tf_eflags := tf.tf_eflags ||| FL_IF } ∧
      d'.context.eip = s.forkret ∧ d'.context.esp = a ∧
      d' = { d with tf := some a, context := { d.context with eip := s.forkret, esp := a } } := by
  unfold copy_thread
  simp only [State.deref, hp, ok_bind, State.modify, State.store, Function.update_same]
  refine ⟨_, _, _, rfl, ?_, ?_, rfl, ?_, ?_, ?_, ?_, rfl⟩
  · simp
  · rfl
  · intro h1 h2
    unfold sub32 wrap32
    have e : SIZEOF_TRAPFRAME = 76 := rfl
    rw [e] at h1 ⊢
    omega
  · simp
  · rfl
  · rfl

theorem copy_thread_frame_witness :
    ∃ s' d' a, copy_thread forked 300 0x1000 trapframe.zero = .ok s' ∧
      s'.procs 300 = some d' ∧ d'.tf = some a ∧ a = 0xC0301FB4 ∧
      s'.tfmem a = { trapframe.zero with tf_esp := 0x1000, tf_eflags := FL_IF } ∧
      d'.context.eip = forked.forkret ∧ d'.context.esp = a := by
  have h0 : (forked.procs 300).map (fun d => d.kstack) = some 0xC0300000 := by decide
  cases hd : forked.procs 300 with
  | none =>
    rw [hd] at h0
    cases h0
  | some d =>
    rw [hd] at h0
    simp only [Option.map_some', Option.some.injEq] at h0
    obtain ⟨s', d', a, h1, h2, h3, h4, -, h6, h7, h8, -⟩ :=
      copy_thread_frame forked 300 d 0x1000 trapframe.zero hd
    refine ⟨s', d', a, h1, h2, h3, ?_, ?_, h7, h8⟩
    · rw [h4, h0]
      decide
    · rw [h6]
      rfl

/-- The label `repeat` of `get_pid` comes to an end from every starting value below
`MAX_PID`, when a pid of `[1, MAX_PID)` is unused. -/
theorem get_pid_repeat_any (procs : Ptr → Option proc_struct) (list : List Ptr)
    (hval : ∀ p ∈ list, (procs p).isSome)
    (hfree : ∃ v, 1 ≤ v ∧ v < MAX_PID ∧ ¬ InUse procs list v) :
    ∀ (fuel : Nat) (last : Int), last < MAX_PID → MAX_PID - last + MAX_PID < fuel →
      ∃ l n, get_pid_repeat procs list fuel last = .ok (l, n) := by
  intro fuel
  induction fuel with
  | zero =>
    intro last h2 h3
    have hM : MAX_PID = 8192 := by simp [MAX_PID, MAX_PROCESS]
    omega
  | succ fuel ih =>
    intro last h2 h3
    have hM : MAX_PID = 8192 := by simp [MAX_PID, MAX_PROCESS]
    have hs := get_pid_scan_spec procs last list [] last MAX_PID hval h2 (le_refl _) (le_refl _)
      (by simp) (by intro v a b; omega)
    simp only [List.nil_append] at hs
    unfold get_pid_repeat
    revert hs
    cases get_pid_scan procs list last MAX_PID with
    | done l n =>
      simp only
      intro _
      exact ⟨l, n, rfl⟩
    | again l =>
      simp only
      rintro (⟨a, b, _⟩ | ⟨rfl, _⟩)
      · exact ih l a (by omega)
      · obtain ⟨l, n, h, _⟩ := get_pid_repeat_wrapped procs list hval hfree fuel 1 (le_refl _)
          (by omega) (by omega) (by intro v a b; omega)
        exact ⟨l, n, h⟩
    | fault => simp

/-- Claim C29.  `get_pid` terminates: for every task list of allocated descriptors with fewer
than `MAX_PID - 1` entries and every value of the cursors `last_pid` and `next_safe`, there
is a number of rounds of the rescan loop (the `goto repeat`) within which `get_pid` returns;
and the list is that short in every reachable state with `nr_process < MAX_PROCESS`, the
check `do_fork` makes before the call. -/
theorem get_pid_terminates (s : State) :
    ((∀ p ∈ s.proc_list, (s.procs p).isSome) → (s.proc_list.length : Int) < MAX_PID - 1 →
      ∃ (rounds : Nat) (v : Int) (s' : State), ∀ fuel, rounds ≤ fuel →
        get_pid fuel s = .ok (v, s')) ∧
    (Reachable s → s.nr_process < MAX_PROCESS →
      (∀ p ∈ s.proc_list, (s.procs p).isSome) ∧ (s.proc_list.length : Int) < MAX_PID - 1) := by
  have hM : MAX_PID = 8192 := by simp [MAX_PID, MAX_PROCESS]
  have hP : MAX_PROCESS = 4096 := rfl
  refine ⟨?_, ?_⟩
  · intro hval hlen
    have hfree := exists_free_pid s.procs s.proc_list hlen
    by_cases h1 : s.last_pid + 1 ≥ MAX_PID
    · obtain ⟨l, n, h⟩ := get_pid_repeat_any s.procs s.proc_list hval hfree (2 * 8192) 1
        (by omega) (by omega)
      refine ⟨2 * 8192, l, { s with last_pid := l, next_safe := n }, ?_⟩
      intro fuel hf
      unfold get_pid
      simp only [h1, if_true]
      rw [get_pid_repeat_mono s.procs s.proc_list _ _ _ _ h hf]
    · by_cases h2 : s.last_pid + 1 ≥ s.next_safe
      · obtain ⟨l, n, h⟩ := get_pid_repeat_any s.procs s.proc_list hval hfree
          ((MAX_PID - (s.last_pid + 1) + MAX_PID).toNat + 1) (s.last_pid + 1)
          (by omega) (by omega)
        refine ⟨(MAX_PID - (s.last_pid + 1) + MAX_PID).toNat + 1, l,
          { s with last_pid := l, next_safe := n }, ?_⟩
        intro fuel hf
        unfold get_pid
        simp only [h1, h2, if_true, if_false]
        rw [get_pid_repeat_mono s.procs s.proc_list _ _ _ _ h hf]
      · refine ⟨0, s.last_pid + 1, { s with last_pid := s.last_pid + 1 }, ?_⟩
        intro fuel _
        unfold get_pid
        simp only [h1, h2, if_false]
  · intro hr hroom
    have hs := (reachable_inv hr).struct
    refine ⟨fun p hp => (hs.valid p).mpr (Or.inl hp), ?_⟩
    have := hs.count.1
    omega

theorem get_pid_terminates_witness :
    ∃ (rounds : Nat) (v : Int) (s' : State), ∀ fuel, rounds ≤ fuel →
      get_pid fuel forked = .ok (v, s') := by
  have h := (get_pid_terminates forked).2 forked_spec.1 (by decide)
  exact (get_pid_terminates forked).1 h.1 h.2

end Ucore

namespace Ucore

/-! ## Claim about the boot-sector signer -/

theorem sign_buf_eq (input : List Nat) (h : input.length ≤ 510) :
    sign_buf input input.length =
      input ++ List.replicate (510 - input.length) 0 ++ [0x55, 0xAA] := by
  unfold sign_buf
  simp only [List.take_length, List.drop_replicate]
  have e : List.replicate (512 - input.length) 0 =
      List.replicate (510 - input.length) 0 ++ [0, 0] := by
    have : 512 - input.length = (510 - input.length) + 2 := by omega
    rw [this, List.replicate_add]
    rfl
  rw [e, ← List.append_assoc]
  have hl : (input ++ List.replicate (510 - input.length) 0).length = 510 := by
    simp
    omega
  generalize input ++ List.replicate (510 - input.length) 0 = pre at hl
  apply List.ext_getElem
  · simp
  · intro i h1 h2
    simp only [List.length_set, List.length_append, hl, List.length_cons, List.length_singleton,
      List.length_nil] at h1
    by_cases hi : i < 510
    · simp [List.getElem_set, List.getElem_append, hl, hi]
    · have : i = 510 ∨ i = 511 := by omega
      rcases this with rfl | rfl <;> simp [List.getElem_set, List.getElem_append, hl]

/-- Claim C27.  For every input file of `n <= 510` bytes which `stat` finds and which `fread`
and `fwrite` handle in full, the signer returns 0 and writes an output of exactly 512 bytes:
the input, then zeroes up to byte 510, then 0x55 and 0xAA.  For every input of more than 510
bytes it returns a non-zero value and writes no output. -/
theorem sign_output (env : SignEnv) (hargc : env.argc = 3)
    (hstat : env.st_size = some (env.input.length : Int)) :
    (env.input.length ≤ 510 → env.fread = env.input.length → env.fwrite = 512 →
      ∃ out, sign_main env = (0, some out) ∧ out.length = 512 ∧
        out = env.input ++ List.replicate (510 - env.input.length) 0 ++ [0x55, 0xAA] ∧
        (∀ i, i < env.input.length → out[i]? = env.input[i]?) ∧
        (∀ i, env.input.length ≤ i → i < 510 → out[i]? = some 0) ∧
        out[510]? = some 0x55 ∧ out[511]? = some 0xAA) ∧
    (510 < env.input.length → ∃ r, sign_main env = (r, none) ∧ r ≠ 0) := by
  refine ⟨?_, ?_⟩
  · intro hn hr hw
    have hrun : sign_main env = (0, some (sign_buf env.input env.input.length)) := by
      unfold sign_main
      simp [hargc, hstat, hr, hw, hn]
    rw [sign_buf_eq env.input hn] at hrun
    have hl : (env.input ++ List.replicate (510 - env.input.length) 0).length = 510 := by
      simp
      omega
    refine ⟨_, hrun, ?_, rfl, ?_, ?_, ?_, ?_⟩
    · simp
      omega
    · intro i hi
      rw [List.append_assoc, List.getElem?_append_left hi]
    · intro i h1 h2
      rw [List.getElem?_append_left (by rw [hl]; exact h2),
        List.getElem?_append_right h1, List.getElem?_replicate, if_pos (by omega)]
    · rw [List.getElem?_append_right (by rw [hl]), hl]
      rfl
    · rw [List.getElem?_append_right (by rw [hl]; omega), hl]
      rfl
  · intro hn
    refine ⟨-1, ?_, by decide⟩
    unfold sign_main
    simp [hargc, hstat]
    omega

theorem sign_output_witness :
    (∃ out, sign_main (sign_env [0xEB, 0xFE]) = (0, some out) ∧ out.length = 512 ∧
      out = [0xEB, 0xFE] ++ List.replicate 508 0 ++ [0x55, 0xAA]) ∧
    (∃ r, sign_main (sign_env (List.replicate 511 0x90)) = (r, none) ∧ r ≠ 0) := by
  obtain ⟨out, h1, h2, h3, -⟩ :=
    (sign_output (sign_env [0xEB, 0xFE]) rfl rfl).1 (by decide) rfl rfl
  exact ⟨⟨out, h1, h2, h3⟩,
    (sign_output (sign_env (List.replicate 511 0x90)) rfl rfl).2
      (by show 510 < (List.replicate 511 0x90).length; rw [List.length_replicate]; decide)⟩

end Ucore

namespace Ucore

/-- One sector read: inside the 512 bytes from `dst` the sector, elsewhere the old memory. -/
theorem readsect_at (disk : Disk) (m : Mem) (dst secno a : Nat) (hd : dst + 512 ≤ 2 ^ 32)
    (hs : secno < 2 ^ 28) (ha : a < 2 ^ 32) :
    readsect disk m dst secno a = if dst ≤ a ∧ a < dst + 512 then disk secno (a - dst) else m a := by
  have e1 : secno % 2 ^ 28 = secno := Nat.mod_eq_of_lt hs
  unfold readsect sub32 SECTSIZE
  rw [e1]
  by_cases h : dst ≤ a ∧ a < dst + 512
  · have e2 : (a + 2 ^ 32 - dst % 2 ^ 32) % 2 ^ 32 = a - dst := by omega
    rw [e2, if_pos h, if_pos (by omega)]
  · have e2 : ¬ (a + 2 ^ 32 - dst % 2 ^ 32) % 2 ^ 32 < 512 := by omega
    rw [if_neg h, if_neg e2]

/-- The loop of `readseg` that needs `k` rounds: it ends, and has stored `k` consecutive
sectors from `v` upwards. -/
theorem readseg_loop_spec (disk : Disk) (e : Nat) :
    ∀ (k : Nat) (m : Mem) (v sec : Nat), v + 512 * k < 2 ^ 32 →
      sec + k < 2 ^ 28 → e ≤ v + 512 * k → (∀ j, j < k → v + 512 * j < e) →
      ∃ m1, (∀ fuel, k < fuel → readseg_loop disk e fuel m v sec = .ok m1) ∧
        ∀ a, a < 2 ^ 32 →
          m1 a = if v ≤ a ∧ a < v + 512 * k then disk (sec + (a - v) / 512) ((a - v) % 512)
            else m a := by
  intro k
  induction k with
  | zero =>
    intro m v sec _ _ he _
    refine ⟨m, ?_, ?_⟩
    · intro fuel hf
      obtain ⟨f, rfl⟩ : ∃ f, fuel = f + 1 := ⟨fuel - 1, by omega⟩
      rw [readseg_loop, if_neg (by omega)]
    · intro a _
      rw [if_neg (by omega)]
  | succ k ih =>
    intro m v sec hv hs he hj
    have h0 : v < e := by simpa using hj 0 (by omega)
    have w1 : wrap32 (v + SECTSIZE) = v + 512 := by
      unfold wrap32 SECTSIZE; omega
    have w2 : wrap32 (sec + 1) = sec + 1 := by
      unfold wrap32; omega
    obtain ⟨m1, h1, h2⟩ := ih (readsect disk m v sec) (v + 512) (sec + 1)
      (by omega) (by omega) (by omega) (fun j hjk => by have := hj (j + 1) (by omega); omega)
    refine ⟨m1, ?_, ?_⟩
    · intro fuel hf
      obtain ⟨f, rfl⟩ : ∃ f, fuel = f + 1 := ⟨fuel - 1, by omega⟩
      rw [readseg_loop, if_pos h0, w1, w2, h1 f (by omega)]
    · intro a ha
      rw [h2 a ha, readsect_at disk m v sec a (by omega) (by omega) ha]
      by_cases c1 : v + 512 ≤ a ∧ a < v + 512 + 512 * k
      · rw [if_pos c1, if_pos (by omega)]
        have e1 : sec + 1 + (a - (v + 512)) / 512 = sec + (a - v) / 512 := by omega
        have e2 : (a - (v + 512)) % 512 = (a - v) % 512 := by omega
        rw [e1, e2]
      · rw [if_neg c1]
        by_cases c2 : v ≤ a ∧ a < v + 512
        · rw [if_pos c2, if_pos (by omega)]
          have e1 : (a - v) / 512 = 0 := by omega
          have e2 : (a - v) % 512 = a - v := by omega
          rw [e1, e2, Nat.add_zero]
        · rw [if_neg c2, if_neg (by omega)]

/-- What a call of `readseg` without 32-bit overflow does: it ends, the `count` bytes from
`va` are the bytes of the kernel image from `offset`, and nothing is stored outside the
whole sectors that cover them. -/
theorem readseg_spec (disk : Disk) (m : Mem) (va count offset : Nat)
    (hoff : offset < 2 ^ 32) (hlo : offset % 512 ≤ va)
    (hhi : va - offset % 512 + 512 * ((offset % 512 + count + 511) / 512) < 2 ^ 32) :
    ∃ m1, (∀ fuel, (offset % 512 + count + 511) / 512 < fuel →
        readseg fuel disk m va count offset = .ok m1) ∧
      (∀ i, i < count → m1 (va + i) = image disk (offset + i)) ∧
      (∀ a, a < 2 ^ 32 → (a < va - offset % 512 ∨
          va - offset % 512 + 512 * ((offset % 512 + count + 511) / 512) ≤ a) → m1 a = m a) := by
  have w1 : wrap32 (va + count) = va + count := by unfold wrap32; omega
  have w2 : sub32 va (offset % SECTSIZE) = va - offset % 512 := by
    unfold sub32 SECTSIZE; omega
  have w3 : wrap32 (offset / SECTSIZE + 1) = offset / 512 + 1 := by
    unfold wrap32 SECTSIZE; omega
  obtain ⟨m1, h1, h2⟩ := readseg_loop_spec disk (va + count)
    ((offset % 512 + count + 511) / 512) m
    (va - offset % 512) (offset / 512 + 1) hhi (by omega) (by omega)
    (fun j hj => by omega)
  refine ⟨m1, ?_, ?_, ?_⟩
  · intro fuel hf
    unfold readseg
    simp only [w1, w2, w3]
    exact h1 fuel hf
  · intro i hi
    rw [h2 (va + i) (by omega), if_pos (by omega)]
    unfold image SECTSIZE
    have e1 : offset / 512 + 1 + (va + i - (va - offset % 512)) / 512 = (offset + i) / 512 + 1 := by
      omega
    have e2 : (va + i - (va - offset % 512)) % 512 = (offset + i) % 512 := by omega
    rw [e1, e2]
  · intro a ha hout
    rw [h2 a ha, if_neg (by omega)]

theorem rd32_lt (m : Mem) (a : Nat) : rd32 m a < 2 ^ 32 := by
  unfold rd32; omega

theorem rd16_lt (m : Mem) (a : Nat) : rd16 m a < 2 ^ 16 := by
  unfold rd16; omega

/-- A 32-bit read sees only its four bytes. -/
theorem rd32_congr (m m1 : Mem) (a : Nat) (ha : a + 3 < 2 ^ 32)
    (h : ∀ j, j < 4 → m (a + j) = m1 (a + j)) : rd32 m a = rd32 m1 a := by
  have e1 : wrap32 (a + 1) = a + 1 := by unfold wrap32; omega
  have e2 : wrap32 (a + 2) = a + 2 := by unfold wrap32; omega
  have e3 : wrap32 (a + 3) = a + 3 := by unfold wrap32; omega
  unfold rd32
  rw [e1, e2, e3, ← h 1 (by omega), ← h 2 (by omega), ← h 3 (by omega)]
  have := h 0 (by omega)
  rw [Nat.add_zero] at this
  rw [this]

/-- A 16-bit read sees only its two bytes. -/
theorem rd16_congr (m m1 : Mem) (a : Nat) (ha : a + 1 < 2 ^ 32)
    (h : ∀ j, j < 2 → m (a + j) = m1 (a + j)) : rd16 m a = rd16 m1 a := by
  have e1 : wrap32 (a + 1) = a + 1 := by unfold wrap32; omega
  unfold rd16
  rw [e1, ← h 1 (by omega)]
  have := h 0 (by omega)
  rw [Nat.add_zero] at this
  rw [this]

/-- The call made for a program header inside the header page depends on that page only. -/
theorem seg_call_congr (m img : Mem) (ph : Nat) (h1 : ELFHDR ≤ ph)
    (h2 : ph + 32 ≤ ELFHDR + 4096)
    (h : ∀ a, ELFHDR ≤ a → a < ELFHDR + 4096 → m a = img a) :
    seg_call m ph = seg_call img ph := by
  have hE : ELFHDR = 0x10000 := rfl
  have e1 : wrap32 (ph + OFF_P_VA) = ph + 8 := by unfold wrap32 OFF_P_VA; omega
  have e2 : wrap32 (ph + OFF_P_MEMSZ) = ph + 20 := by unfold wrap32 OFF_P_MEMSZ; omega
  have e3 : wrap32 (ph + OFF_P_OFFSET) = ph + 4 := by unfold wrap32 OFF_P_OFFSET; omega
  unfold seg_call
  rw [e1, e2, e3, rd32_congr m img (ph + 8) (by omega) (fun j hj => h _ (by omega) (by omega)),
    rd32_congr m img (ph + 20) (by omega) (fun j hj => h _ (by omega) (by omega)),
    rd32_congr m img (ph + 4) (by omega) (fun j hj => h _ (by omega) (by omega))]

/-- The segment loop of `bootmain` on a program header table that lies in the header page and
whose segments are loaded without overflow and away from that page: one call per header, with
the fields of the header as they are in the image. -/
theorem bootmain_segments_spec (fuel : Nat) (disk : Disk) (img : Mem) (ph0 phnum : Nat)
    (hfuel : 2 ^ 24 ≤ fuel) (hph : ELFHDR ≤ ph0) (htab : ph0 + 32 * phnum ≤ ELFHDR + 4096)
    (hseg : ∀ i, i < phnum →
      (seg_call img (ph0 + 32 * i)).offset % 512 ≤ (seg_call img (ph0 + 32 * i)).va ∧
      (seg_call img (ph0 + 32 * i)).va - (seg_call img (ph0 + 32 * i)).offset % 512 +
        512 * (((seg_call img (ph0 + 32 * i)).offset % 512 +
          (seg_call img (ph0 + 32 * i)).count + 511) / 512) < 2 ^ 32 ∧
      ((seg_call img (ph0 + 32 * i)).va - (seg_call img (ph0 + 32 * i)).offset % 512 +
        512 * (((seg_call img (ph0 + 32 * i)).offset % 512 +
          (seg_call img (ph0 + 32 * i)).count + 511) / 512) ≤ ELFHDR ∨
       ELFHDR + 4096 ≤
        (seg_call img (ph0 + 32 * i)).va - (seg_call img (ph0 + 32 * i)).offset % 512)) :
    ∀ (n i : Nat) (m : Mem) (calls : List SegCall) (f : Nat), i + n = phnum → n < f →
      (∀ a, ELFHDR ≤ a → a < ELFHDR + 4096 → m a = img a) →
      ∃ m1, bootmain_segments fuel disk (ph0 + 32 * phnum) f m (ph0 + 32 * i) calls =
          .ok (m1, calls ++ (List.range' i n).map (fun j => seg_call img (ph0 + 32 * j))) ∧
        (∀ a, ELFHDR ≤ a → a < ELFHDR + 4096 → m1 a = img a) := by
  have hE : ELFHDR = 0x10000 := rfl
  intro n
  induction n with
  | zero =>
    intro i m calls f hi hf hm
    obtain ⟨g, rfl⟩ : ∃ g, f = g + 1 := ⟨f - 1, by omega⟩
    refine ⟨m, ?_, hm⟩
    have : i = phnum := by omega
    subst this
    rw [bootmain_segments, if_neg (by omega)]
    simp
  | succ n ih =>
    intro i m calls f hi hf hm
    obtain ⟨g, rfl⟩ : ∃ g, f = g + 1 := ⟨f - 1, by omega⟩
    have hlt : i < phnum := by omega
    obtain ⟨s1, s2, s3⟩ := hseg i hlt
    have hc : seg_call m (ph0 + 32 * i) = seg_call img (ph0 + 32 * i) :=
      seg_call_congr m img _ (by omega) (by omega) hm
    have hoff : (seg_call img (ph0 + 32 * i)).offset < 2 ^ 32 := rd32_lt _ _
    have hcnt : (seg_call img (ph0 + 32 * i)).count < 2 ^ 32 := rd32_lt _ _
    obtain ⟨m1, r1, _, r3⟩ := readseg_spec disk m _ _ _ hoff s1 s2
    have hm1 : ∀ a, ELFHDR ≤ a → a < ELFHDR + 4096 → m1 a = img a := by
      intro a a1 a2
      rw [r3 a (by omega) (by omega)]
      exact hm a a1 a2
    have w : wrap32 (ph0 + 32 * i + SIZEOF_PROGHDR) = ph0 + 32 * (i + 1) := by
      unfold wrap32 SIZEOF_PROGHDR; omega
    obtain ⟨m2, q1, q2⟩ := ih (i + 1) m1 (calls ++ [seg_call img (ph0 + 32 * i)]) g
      (by omega) (by omega) hm1
    refine ⟨m2, ?_, q2⟩
    rw [bootmain_segments, if_pos (by omega)]
    simp only [hc]
    rw [r1 fuel (by omega)]
    simp only [w]
    rw [q1]
    simp [List.range']

end Ucore

namespace Ucore

/-- Claim C28, amended.  A call `readseg(va, count, offset)` in which no 32-bit value
overflows (the rounding down of `va`, the end address, and the steps of 512 up to the
rounded-up end) ends and leaves, for every `i < count`, the memory byte at `va + i` equal to
byte `offset + i` of the kernel image, which starts at sector 1 of the disk.  `bootmain`
first reads the eight sectors of the header to `ELFHDR`; when the magic read there is not
`ELF_MAGIC` it makes no further call and ends at `bad`; when it is, and the program header
table lies in those eight sectors (`e_phoff + 32 * e_phnum <= 4096`) and every segment is
read without 32-bit overflow to a range clear of the header page
`[ELFHDR, ELFHDR + 4096)`, it calls `readseg` once per program header of the image, in
order, with the address `p_va & 0xFFFFFF`, the size `p_memsz` and the offset `p_offset` of
that header, and then enters the image at `e_entry & 0xFFFFFF`. -/
theorem readseg_bootmain (disk : Disk) (m : Mem) :
    (∀ va count offset, offset < 2 ^ 32 → offset % 512 ≤ va →
      va - offset % 512 + 512 * ((offset % 512 + count + 511) / 512) < 2 ^ 32 →
      ∃ m1, (∀ fuel, (offset % 512 + count + 511) / 512 < fuel →
          readseg fuel disk m va count offset = .ok m1) ∧
        ∀ i, i < count →
          m1 (va + i) = image disk (offset + i) ∧
          image disk (offset + i) = disk ((offset + i) / 512 + 1) ((offset + i) % 512)) ∧
    (∀ fuel, 2 ^ 24 ≤ fuel →
      (rd32 (image_at_hdr disk) ELFHDR ≠ ELF_MAGIC →
        ∃ m1, bootmain fuel disk m = .ok (.bad, m1, [⟨ELFHDR, 4096, 0⟩])) ∧
      (∀ phoff phnum, rd32 (image_at_hdr disk) ELFHDR = ELF_MAGIC →
        phoff = rd32 (image_at_hdr disk) (ELFHDR + 28) →
        phnum = rd16 (image_at_hdr disk) (ELFHDR + 44) →
        phoff + 32 * phnum ≤ 4096 →
        (∀ i, i < phnum →
          (seg_call (image_at_hdr disk) (ELFHDR + phoff + 32 * i)).offset % 512 ≤
            (seg_call (image_at_hdr disk) (ELFHDR + phoff + 32 * i)).va ∧
          (seg_call (image_at_hdr disk) (ELFHDR + phoff + 32 * i)).va -
              (seg_call (image_at_hdr disk) (ELFHDR + phoff + 32 * i)).offset % 512 +
            512 * (((seg_call (image_at_hdr disk) (ELFHDR + phoff + 32 * i)).offset % 512 +
              (seg_call (image_at_hdr disk) (ELFHDR + phoff + 32 * i)).count + 511) / 512)
            < 2 ^ 32 ∧
          ((seg_call (image_at_hdr disk) (ELFHDR + phoff + 32 * i)).va -
              (seg_call (image_at_hdr disk) (ELFHDR + phoff + 32 * i)).offset % 512 +
            512 * (((seg_call (image_at_hdr disk) (ELFHDR + phoff + 32 * i)).offset % 512 +
              (seg_call (image_at_hdr disk) (ELFHDR + phoff + 32 * i)).count + 511) / 512)
            ≤ ELFHDR ∨
           ELFHDR + 4096 ≤ (seg_call (image_at_hdr disk) (ELFHDR + phoff + 32 * i)).va -
              (seg_call (image_at_hdr disk) (ELFHDR + phoff + 32 * i)).offset % 512)) →
        ∃ m1, bootmain fuel disk m =
          .ok (.entered (rd32 (image_at_hdr disk) (ELFHDR + 24) &&& 0xFFFFFF), m1,
            ⟨ELFHDR, 4096, 0⟩ :: (List.range phnum).map (fun i =>
              ⟨rd32 (image_at_hdr disk) (ELFHDR + phoff + 32 * i + 8) &&& 0xFFFFFF,
               rd32 (image_at_hdr disk) (ELFHDR + phoff + 32 * i + 20),
               rd32 (image_at_hdr disk) (ELFHDR + phoff + 32 * i + 4)⟩)))) := by
  have hE : ELFHDR = 0x10000 := rfl
  refine ⟨?_, ?_⟩
  · intro va count offset h1 h2 h3
    obtain ⟨m1, r1, r2, _⟩ := readseg_spec disk m va count offset h1 h2 h3
    exact ⟨m1, r1, fun i hi => ⟨r2 i hi, rfl⟩⟩
  · intro fuel hfuel
    obtain ⟨m1, r1, r2, _⟩ := readseg_spec disk m ELFHDR (SECTSIZE * 8) 0 (by decide)
      (by decide) (by decide)
    have hm1 : ∀ a, ELFHDR ≤ a → a < ELFHDR + 4096 → m1 a = image_at_hdr disk a := by
      intro a a1 a2
      have := r2 (a - ELFHDR) (by unfold SECTSIZE; omega)
      rw [show ELFHDR + (a - ELFHDR) = a by omega, Nat.zero_add] at this
      exact this
    have hread : readseg fuel disk m ELFHDR (SECTSIZE * 8) 0 = .ok m1 :=
      r1 fuel (by unfold SECTSIZE; omega)
    have hmagic : rd32 m1 ELFHDR = rd32 (image_at_hdr disk) ELFHDR :=
      rd32_congr _ _ _ (by decide) (fun j hj => hm1 _ (by omega) (by omega))
    refine ⟨?_, ?_⟩
    · intro hbad
      refine ⟨m1, ?_⟩
      unfold bootmain
      rw [hread]
      simp only [hmagic, if_pos hbad]
      rfl
    · intro phoff phnum hgood hoff hnum htab hseg
      have e1 : rd32 m1 (ELFHDR + OFF_E_PHOFF) = phoff := by
        rw [hoff]
        exact rd32_congr _ _ _ (by decide) (fun j hj => hm1 _ (by unfold OFF_E_PHOFF; omega)
          (by unfold OFF_E_PHOFF; omega))
      have e2 : rd16 m1 (ELFHDR + OFF_E_PHNUM) = phnum := by
        rw [hnum]
        exact rd16_congr _ _ _ (by decide) (fun j hj => hm1 _ (by unfold OFF_E_PHNUM; omega)
          (by unfold OFF_E_PHNUM; omega))
      have w1 : wrap32 (ELFHDR + phoff) = ELFHDR + phoff := by unfold wrap32; omega
      have w2 : wrap32 (ELFHDR + phoff + SIZEOF_PROGHDR * phnum) = ELFHDR + phoff + 32 * phnum := by
        unfold wrap32 SIZEOF_PROGHDR; omega
      have hn : phnum < 2 ^ 16 := by rw [hnum]; exact rd16_lt _ _
      obtain ⟨m2, q1, q2⟩ := bootmain_segments_spec fuel disk (image_at_hdr disk)
        (ELFHDR + phoff) phnum hfuel (by omega) (by omega) hseg phnum 0 m1
        [⟨ELFHDR, SECTSIZE * 8, 0⟩] fuel (by omega) (by omega) hm1
      have e3 : rd32 m2 (ELFHDR + OFF_E_ENTRY) = rd32 (image_at_hdr disk) (ELFHDR + 24) :=
        rd32_congr _ _ _ (by decide) (fun j hj => q2 _ (by unfold OFF_E_ENTRY; omega)
          (by unfold OFF_E_ENTRY; omega))
      refine ⟨m2, ?_⟩
      unfold bootmain
      rw [hread]
      simp only [hmagic, hgood, ne_eq, not_true_eq_false, if_false, e1, e2, w1, w2]
      rw [Nat.mul_zero, Nat.add_zero] at q1
      rw [q1]
      simp only [e3]
      rw [← List.range_eq_range']
      have hcall : ∀ i, i < phnum → seg_call (image_at_hdr disk) (ELFHDR + phoff + 32 * i) =
          ⟨rd32 (image_at_hdr disk) (ELFHDR + phoff + 32 * i + 8) &&& 0xFFFFFF,
           rd32 (image_at_hdr disk) (ELFHDR + phoff + 32 * i + 20),
           rd32 (image_at_hdr disk) (ELFHDR + phoff + 32 * i + 4)⟩ := by
        intro i hi
        have a1 : wrap32 (ELFHDR + phoff + 32 * i + OFF_P_VA) = ELFHDR + phoff + 32 * i + 8 := by
          unfold wrap32 OFF_P_VA; omega
        have a2 : wrap32 (ELFHDR + phoff + 32 * i + OFF_P_MEMSZ) =
            ELFHDR + phoff + 32 * i + 20 := by
          unfold wrap32 OFF_P_MEMSZ; omega
        have a3 : wrap32 (ELFHDR + phoff + 32 * i + OFF_P_OFFSET) =
            ELFHDR + phoff + 32 * i + 4 := by
          unfold wrap32 OFF_P_OFFSET; omega
        unfold seg_call
        rw [a1, a2, a3]
      have hmap : (List.range phnum).map (fun j => seg_call (image_at_hdr disk)
          (ELFHDR + phoff + 32 * j)) = (List.range phnum).map (fun i =>
            (⟨rd32 (image_at_hdr disk) (ELFHDR + phoff + 32 * i + 8) &&& 0xFFFFFF,
             rd32 (image_at_hdr disk) (ELFHDR + phoff + 32 * i + 20),
             rd32 (image_at_hdr disk) (ELFHDR + phoff + 32 * i + 4)⟩ : SegCall)) :=
        List.map_congr_left (fun i hi => hcall i (List.mem_range.mp hi))
      rw [hmap]
      rfl

theorem readseg_bootmain_witness :
    (∃ m1, readseg 2 demo_disk mem0 0x100000 8 0x1000 = .ok m1 ∧
      m1 0x100003 = demo_disk 9 3 ∧ demo_disk 9 3 = 84) ∧
    (∃ m1, bootmain (2 ^ 24) blank_disk mem0 = .ok (.bad, m1, [⟨0x10000, 4096, 0⟩])) ∧
    (∃ m1, bootmain (2 ^ 24) demo_disk mem0 =
      .ok (.entered 0x100000, m1, [⟨0x10000, 4096, 0⟩, ⟨0x100000, 8, 0x1000⟩])) := by
  refine ⟨?_, ?_, ?_⟩
  · obtain ⟨m1, h1, h2⟩ := (readseg_bootmain demo_disk mem0).1 0x100000 8 0x1000 (by decide)
      (by decide) (by decide)
    exact ⟨m1, h1 2 (by decide), (h2 3 (by decide)).1, by decide⟩
  · exact ((readseg_bootmain blank_disk mem0).2 (2 ^ 24) (le_refl _)).1 (by decide)
  · obtain ⟨m1, h⟩ := ((readseg_bootmain demo_disk mem0).2 (2 ^ 24) (le_refl _)).2 52 1
      (by decide) (by decide) (by decide) (by decide) (by
        intro i hi
        obtain rfl : i = 0 := by omega
        decide)
    exact ⟨m1, h⟩

/-- The code of `bootmain` on claim C28 as it stands.  The image on `far_disk` has valid
magic and one program header, at offset 0x1000 of the image, beyond the eight sectors that
`bootmain` reads to `ELFHDR`: the loop takes the fields from the memory at
`ELFHDR + 0x1000`, where the image was never read to, and calls `readseg(0, 0, 0)`; no call
has the address `p_va & 0xFFFFFF == 0x100000` of the program header of the image.  The
image on `low_disk` has two program headers and its first segment is linked at `ELFHDR`:
the call for the first header overwrites the header page, and the second call is
`readseg(0, 0, 0)`, not the call with the address 0x200000 of the second program header of
the image. -/
theorem bootmain_headers_from_memory :
    (rd32 (image_at_hdr far_disk) ELFHDR = ELF_MAGIC ∧
      rd32 (image_at_hdr far_disk) (ELFHDR + 28) = 0x1000 ∧
      rd16 (image_at_hdr far_disk) (ELFHDR + 44) = 1 ∧
      seg_call (image_at_hdr far_disk) (ELFHDR + 0x1000) = ⟨0x100000, 8, 0x2000⟩ ∧
      ∃ m1, bootmain (2 ^ 24) far_disk mem0 =
        .ok (.entered 0x100000, m1, [⟨ELFHDR, 4096, 0⟩, ⟨0, 0, 0⟩])) ∧
    (rd32 (image_at_hdr low_disk) ELFHDR = ELF_MAGIC ∧
      rd32 (image_at_hdr low_disk) (ELFHDR + 28) = 52 ∧
      rd16 (image_at_hdr low_disk) (ELFHDR + 44) = 2 ∧
      seg_call (image_at_hdr low_disk) (ELFHDR + 52) = ⟨0x10000, 512, 0x1000⟩ ∧
      seg_call (image_at_hdr low_disk) (ELFHDR + 84) = ⟨0x200000, 8, 0x2000⟩ ∧
      ∃ m1, bootmain (2 ^ 24) low_disk mem0 =
        .ok (.entered 0, m1, [⟨ELFHDR, 4096, 0⟩, ⟨0x10000, 512, 0x1000⟩, ⟨0, 0, 0⟩])) := by
  have hfar : (match bootmain (2 ^ 24) far_disk mem0 with
      | .ok (e, _, calls) =>
        decide (e = .entered 0x100000 ∧ calls = [⟨ELFHDR, 4096, 0⟩, ⟨0, 0, 0⟩])
      | .error _ => false) = true := by decide
  have hlow : (match bootmain (2 ^ 24) low_disk mem0 with
      | .ok (e, _, calls) =>
        decide (e = .entered 0 ∧
          calls = [⟨ELFHDR, 4096, 0⟩, ⟨0x10000, 512, 0x1000⟩, ⟨0, 0, 0⟩])
      | .error _ => false) = true := by decide
  refine ⟨⟨by decide, by decide, by decide, by decide, ?_⟩,
    ⟨by decide, by decide, by decide, by decide, by decide, ?_⟩⟩
  · cases hx : bootmain (2 ^ 24) far_disk mem0 with
    | error e =>
      rw [hx] at hfar
      cases hfar
    | ok x =>
      obtain ⟨e, m1, calls⟩ := x
      rw [hx] at hfar
      obtain ⟨rfl, rfl⟩ := of_decide_eq_true hfar
      exact ⟨m1, rfl⟩
  · cases hx : bootmain (2 ^ 24) low_disk mem0 with
    | error e =>
      rw [hx] at hlow
      cases hlow
    | ok x =>
      obtain ⟨e, m1, calls⟩ := x
      rw [hx] at hlow
      obtain ⟨rfl, rfl⟩ := of_decide_eq_true hlow
      exact ⟨m1, rfl⟩

end Ucore

namespace Ucore

/-- The state `proc_init` has built when it calls `kernel_thread`, with the fields of the
idle task that `proc_init` sets. -/
theorem proc_init_idle_full {s0 : State} {env : InitEnv} {i : Ptr} {raw : proc_struct}
    (hb : Boot s0) (h : env.idle = some (i, raw)) :
    ∃ sI dI, proc_init_idle s0 env = .ok sI ∧
      sI.procs = Function.update (fun _ => none) i (some dI) ∧
      dI.pid = 0 ∧ dI.state = .PROC_RUNNABLE ∧ dI.parent = none ∧ dI.cptr = none ∧
      dI.yptr = none ∧ dI.optr = none ∧ dI.wait_state = 0 ∧ dI.mm = none ∧
      sI.proc_list = [] ∧ sI.hash_list = (fun _ => []) ∧ sI.idleproc = some i ∧
      sI.initproc = none ∧ sI.current = some i ∧ sI.nr_process = 1 ∧
      sI.last_pid = MAX_PID ∧ sI.next_safe = MAX_PID ∧
      dI.need_resched = 1 ∧ dI.kstack = s0.bootstack ∧ sI.bootstack = s0.bootstack := by
  obtain ⟨h1, h2, h3, h4, h5, h6, h7⟩ := hb
  unfold proc_init_idle
  simp [h, alloc_proc, kmalloc, State.call, State.store, State.modify, set_proc_name, h1, h3,
    h5, h6, h7]
  refine ⟨_, rfl, ?_⟩
  simp

/-- The run of `proc_init` from the boot state when the three allocations succeed, with the
fields that `proc_init` sets in the two tasks. -/
theorem proc_init_full {s0 : State} {env : InitEnv} {i q : Ptr} {rawi rawq : proc_struct}
    {k : Nat} (fuel : Nat) (hb : Boot s0) (hidle : env.idle = some (i, rawi))
    (hk : env.fork.kmalloc = some (q, rawq)) (hqi : q ≠ i) (hks : env.fork.kstack = some k)
    (hfuel : 2 * MAX_PID < fuel) :
    ∃ s, proc_init fuel s0 env = .ok s ∧ Inv s ∧ s.current = some i ∧ s.idleproc = some i ∧
      s.initproc = some q ∧ s.proc_list = [q] ∧ s.nr_process = 2 ∧
      (∃ di, s.procs i = some di ∧ di.cptr = some q ∧ di.mm = none ∧
        di.state = .PROC_RUNNABLE ∧ di.pid = 0) ∧
      (∃ dq, s.procs q = some dq ∧ dq.pid = 1 ∧ dq.parent = some i ∧ dq.cptr = none ∧
        dq.state = .PROC_RUNNABLE ∧ dq.flags = 0 ∧ dq.wait_state = 0) ∧
      (∀ x, x ≠ i → x ≠ q → s.procs x = none) ∧
      (∃ di, s.procs i = some di ∧ di.need_resched = 1 ∧ di.kstack = s0.bootstack) ∧
      (∃ dq, s.procs q = some dq ∧ dq.name = (([105, 110, 105, 116, 0] ++ env.init_tail) ++
        List.replicate PROC_NAME_LEN 0).take PROC_NAME_LEN ++ [0]) := by
  obtain ⟨sI, dI, hI, hprocs, i1, i2, i3, i4, i5, i6, i7, i8, hl, hh, hidl, hini, hcur, hnr,
    hlast, hnext, i9, i10, -⟩ := proc_init_idle_full hb hidle
  have hsI : Struct none sI := struct_idle hprocs i1 i3 i4 i5 i6 hl hh hidl hnr hlast hnext
  have hpi : sI.procs i = some dI := by rw [hprocs]; simp
  have hpq : sI.procs q = none := by rw [hprocs, Function.update_noteq hqi]
  obtain ⟨tf, hkt⟩ := kernel_thread_eq sI env.fork env.init_main 0 0
  have hroom : sI.nr_process < MAX_PROCESS := by rw [hnr]; simp [MAX_PROCESS]
  have hmm : ¬ copy_mm_fails dI.mm env.fork.mm (0 ||| CLONE_VM) := by
    rintro ⟨h, -⟩
    exact h i8
  obtain ⟨v, n, s2, h2, hv1, hvn, hn, hfree, hl2, hh2, hnr2, hlast2, hnext2, hidle2, hinit2,
    hcur2, -, ⟨ch, hch, c1, c2, c3, c4, c5, c6, c7, -, c9⟩, hx, hx0, hv⟩ :=
    do_fork_ok fuel (0 ||| CLONE_VM) 0 tf hsI hroom hk hpq hcur hpi i7 hks hmm hfuel
  have hv1' : v = 1 := hv hl hlast
  subst hv1'
  have hs2 : Struct none s2 := by
    apply struct_fork hsI hpi hpq hroom hv1 hvn hn hfree hl2 hh2 hnr2 hlast2 hnext2 hidle2 hch
      ⟨c1, c2, c3, c4, c5⟩ _ hx0
    intro x hxp d hd
    exact ⟨_, hx x hxp d hd, rfl, rfl, rfl, rfl, rfl⟩
  have hq2 : q ∈ s2.proc_list := by rw [hl2]; simp
  have hfind : find_proc s2 1 = .ok (some q) := by
    have := find_proc_struct hs2 hq2 hch
    rwa [c1] at this
  have hi2 : s2.procs i = some { dI with cptr := some q, yptr := none } := by
    have := hx i hqi.symm dI hpi
    simpa [i4, i5] using this
  have hx2 : ∀ x, x ≠ i → x ≠ q → s2.procs x = none := by
    intro x hxi hxq
    apply hx0 x hxq
    rw [hprocs, Function.update_noteq hxi]
  -- the state `proc_init` returns
  have hfin : proc_init_finish s2 env 1 = .ok (State.store { s2 with initproc := some q } q
      { ch with name := (([105, 110, 105, 116, 0] ++ env.init_tail) ++
        List.replicate PROC_NAME_LEN 0).take PROC_NAME_LEN ++ [0] }) := by
    unfold proc_init_finish
    simp [hfind, set_proc_name, State.modify, hch, State.derefp, State.deref, State.store,
      hidle2, hidl, Function.update_noteq hqi.symm, hi2, i1, c1]
  refine ⟨State.store { s2 with initproc := some q } q
      { ch with name := (([105, 110, 105, 116, 0] ++ env.init_tail) ++
        List.replicate PROC_NAME_LEN 0).take PROC_NAME_LEN ++ [0] }, ?_, ?_, ?_, ?_, ?_, ?_, ?_,
      ?_, ?_, ?_, ?_, ?_⟩
  · unfold proc_init
    rw [hI]
    simp only [ok_bind, hkt, h2]
    simpa using hfin
  · have hcore : SameCore { s2 with initproc := some q } (State.store { s2 with initproc := some q } q
        { ch with name := (([105, 110, 105, 116, 0] ++ env.init_tail) ++
          List.replicate PROC_NAME_LEN 0).take PROC_NAME_LEN ++ [0] }) :=
      @SameCore.store { s2 with initproc := some q } _ _ _ hch rfl rfl rfl rfl rfl
    refine ⟨struct_same_core hcore (struct_set_initproc hs2 _), ?_, ?_⟩
    · refine ⟨?_, ?_, ?_, ?_⟩
      · intro x d hd _
        by_cases hxq : x = q
        · subst hxq
          simp [State.store] at hd
          rw [← hd]
          exact c7
        · by_cases hxi : x = i
          · subst hxi
            simp [State.store, Function.update_noteq hxq, hi2] at hd
            rw [← hd]
            exact i7
          · simp [State.store, Function.update_noteq hxq, hx2 x hxi hxq] at hd
      · intro x d hd hz
        by_cases hxq : x = q
        · subst hxq
          simp [State.store] at hd
          rw [← hd] at hz
          simp [c6] at hz
        · by_cases hxi : x = i
          · subst hxi
            simp [State.store, Function.update_noteq hxq, hi2] at hd
            rw [← hd] at hz
            simp [i2] at hz
          · simp [State.store, Function.update_noteq hxq, hx2 x hxi hxq] at hd
      · refine ⟨q, _, rfl, hq2, store_procs_same _ _ _, ?_, ?_⟩
        · simp [c6]
        · simp [State.store, c2, hidle2, hidl]
      · intro j d hj hd
        simp [State.store, hidle2, hidl] at hj
        subst hj
        simp [State.store, Function.update_noteq hqi.symm, hi2] at hd
        rw [← hd]
        simp [i2]
    · refine ⟨i, { dI with cptr := some q, yptr := none }, ?_, ?_, ?_⟩
      · simp [State.store, hcur2, hcur]
      · simp only [State.store, Function.update_noteq hqi.symm]
        exact hi2
      · exact i2
  · simp [State.store, hcur2, hcur]
  · simp [State.store, hidle2, hidl]
  · simp [State.store]
  · simp [State.store, hl2, hl]
  · simp [State.store, hnr2, hnr]
  · refine ⟨{ dI with cptr := some q, yptr := none }, ?_, ?_, ?_, ?_, ?_⟩
    · simp only [State.store, Function.update_noteq hqi.symm]
      exact hi2
    · rfl
    · exact i8
    · exact i2
    · exact i1
  · exact ⟨_, store_procs_same _ _ _, c1, c2, c3, c6, c9, c7⟩
  · intro x hxi hxq
    simp [State.store, Function.update_noteq hxq, hx2 x hxi hxq]
  · refine ⟨{ dI with cptr := some q, yptr := none }, ?_, i9, i10⟩
    simp only [State.store, Function.update_noteq hqi.symm]
    exact hi2
  · exact ⟨_, store_procs_same _ _ _, rfl⟩

end Ucore

namespace Ucore

/-- Claim C24. After `proc_init` from the boot state, with the three allocations (the idle
descriptor, the init descriptor and its kernel stack) succeeding: `idleproc` is non-null with
pid 0, state RUNNABLE, `need_resched == 1`, `kstack == bootstack`, and `current == idleproc`;
`initproc` is non-null with pid 1, its name is the string "init", its parent is `idleproc`,
and `find_proc(1)` returns it; `nr_process == 2`.  The pid is 1 because a call of `get_pid`
with an empty task list and the cursor `last_pid` at its initial value `MAX_PID` returns 1. -/
theorem proc_init_result {s0 : State} {env : InitEnv} {i q : Ptr} {rawi rawq : proc_struct}
    {k : Nat} (fuel : Nat) (hb : Boot s0) (hidle : env.idle = some (i, rawi))
    (hk : env.fork.kmalloc = some (q, rawq)) (hqi : q ≠ i) (hks : env.fork.kstack = some k)
    (hfuel : 2 * MAX_PID < fuel) :
    (∃ s di dq, proc_init fuel s0 env = .ok s ∧
      s.idleproc = some i ∧ s.procs i = some di ∧ di.pid = 0 ∧ di.state = .PROC_RUNNABLE ∧
      di.need_resched = 1 ∧ di.kstack = s0.bootstack ∧ s.current = s.idleproc ∧
      s.initproc = some q ∧ s.procs q = some dq ∧ dq.pid = 1 ∧
      dq.name.take 5 = [105, 110, 105, 116, 0] ∧ dq.parent = s.idleproc ∧
      find_proc s 1 = .ok s.initproc ∧ s.nr_process = 2) ∧
    (s0.proc_list = [] → ∃ t, get_pid fuel s0 = .ok (1, t)) := by
  obtain ⟨s, h, hinv, hcur, hidl, hini, hl, hnr, ⟨di, hdi, -, -, d3, d4⟩,
    ⟨dq, hdq, q1, q2, -⟩, -, ⟨di2, hdi2, d5, d6⟩, ⟨dq2, hdq2, q3⟩⟩ :=
    proc_init_full fuel hb hidle hk hqi hks hfuel
  obtain rfl : di = di2 := by rw [hdi] at hdi2; cases hdi2; rfl
  obtain rfl : dq = dq2 := by rw [hdq] at hdq2; cases hdq2; rfl
  refine ⟨⟨s, di, dq, h, hidl, hdi, d4, d3, d5, d6, by rw [hcur, hidl], hini, hdq, q1, ?_,
    by rw [q2, hidl], ?_, hnr⟩, ?_⟩
  · rw [q3]
    simp [PROC_NAME_LEN]
  · have := find_proc_struct hinv.1 (show q ∈ s.proc_list by rw [hl]; simp) hdq
    rw [q1] at this
    rw [hini]
    exact this
  · intro hl0
    obtain ⟨-, -, -, -, -, -, hlast⟩ := hb
    obtain ⟨f, rfl⟩ : ∃ f, fuel = f + 1 := ⟨fuel - 1, by
      have : (0 : Int) < MAX_PID := by simp [MAX_PID, MAX_PROCESS]
      omega⟩
    refine ⟨{ s0 with last_pid := 1, next_safe := MAX_PID }, ?_⟩
    unfold get_pid
    simp only [hlast, hl0]
    rw [if_pos (by omega)]
    rfl

theorem proc_init_result_witness :
    (∃ s di dq, proc_init 20000 boot0 boot_env = .ok s ∧
      s.idleproc = some 100 ∧ s.procs 100 = some di ∧ di.pid = 0 ∧
      di.state = .PROC_RUNNABLE ∧ di.need_resched = 1 ∧ di.kstack = boot0.bootstack ∧
      s.current = s.idleproc ∧ s.initproc = some 200 ∧ s.procs 200 = some dq ∧ dq.pid = 1 ∧
      dq.name.take 5 = [105, 110, 105, 116, 0] ∧ dq.parent = s.idleproc ∧
      find_proc s 1 = .ok s.initproc ∧ s.nr_process = 2) ∧
    (boot0.proc_list = [] → ∃ t, get_pid 20000 boot0 = .ok (1, t)) :=
  @proc_init_result boot0 boot_env 100 200 raw_block raw_block 0xC0200000 20000 boot0_boot rfl rfl
    (by decide) rfl fuel_enough

end Ucore

namespace Ucore

set_option linter.unusedTactic false
set_option linter.unreachableTactic false

/-! ## Only `do_exit` makes a zombie -/

theorem nz_refl (s : State) : NoNewZombie s s :=
  fun _ d h hz => ⟨d, h, hz⟩

theorem NoNewZombie.andThen {a b c : State} (h1 : NoNewZombie a b) (h2 : NoNewZombie b c) :
    NoNewZombie a c := by
  intro x d hd hz
  obtain ⟨e, he, hez⟩ := h2 x d hd hz
  exact h1 x e he hez

theorem nz_of_procs {s s' : State} (h : s'.procs = s.procs) : NoNewZombie s s' := by
  intro x d hd hz
  rw [h] at hd
  exact ⟨d, hd, hz⟩

theorem nz_left {a t b : State} (h : NoNewZombie t b) (e : t.procs = a.procs) :
    NoNewZombie a b := by
  intro x d hd hz
  obtain ⟨d0, h0, hz0⟩ := h x d hd hz
  rw [e] at h0
  exact ⟨d0, h0, hz0⟩

theorem nz_right {a t b : State} (h : NoNewZombie a t) (e : b.procs = t.procs) :
    NoNewZombie a b := by
  intro x d hd hz
  rw [e] at hd
  exact h x d hd hz

theorem nz_store {s : State} {p : Ptr} {d : proc_struct}
    (hd : d.state = .PROC_ZOMBIE → ∃ d0, s.procs p = some d0 ∧ d0.state = .PROC_ZOMBIE) :
    NoNewZombie s (s.store p d) := by
  intro x d1 h1 hz
  by_cases hx : x = p
  · subst hx
    rw [store_procs_same] at h1
    cases h1
    exact hd hz
  · rw [store_procs_ne _ _ hx] at h1
    exact ⟨d1, h1, hz⟩

theorem nz_modify {s s' : State} {p : Ptr} {f : proc_struct → proc_struct}
    (h : s.modify p f = .ok s')
    (hf : ∀ d, (f d).state = .PROC_ZOMBIE → d.state = .PROC_ZOMBIE) : NoNewZombie s s' := by
  obtain ⟨d, hd, rfl⟩ := modify_entry h
  exact nz_store (fun hz => ⟨d, hd, hf d hz⟩)

theorem nz_kfree (s : State) (p : Ptr) : NoNewZombie s (kfree s p) := by
  intro x d hd hz
  by_cases hx : x = p
  · subst hx
    simp [kfree] at hd
  · simp only [kfree, Function.update_noteq hx] at hd
    exact ⟨d, hd, hz⟩

theorem nz_wakeup_proc {s s' : State} {p : Ptr} (h : wakeup_proc s p = .ok s') :
    NoNewZombie s s' := by
  unfold wakeup_proc at h
  revert h
  split
  · intro h
    cases h
  · rename_i d hd
    split <;> intro h <;> cases h
    · exact nz_right (nz_store (fun hz => by cases hz)) rfl
    · exact nz_of_procs rfl

theorem nz_of_mmOnly {s s' : State} (h : MmOnly s s') : NoNewZombie s s' :=
  nz_of_procs h.procs

theorem nz_alloc_proc (s : State) (r : Option (Ptr × proc_struct)) :
    NoNewZombie s (alloc_proc s r).2 := by
  unfold alloc_proc kmalloc
  cases r with
  | none => exact nz_of_procs rfl
  | some pr =>
    obtain ⟨p, raw⟩ := pr
    simp only [State.call, State.store, Function.update_same]
    intro x d hd hz
    by_cases hx : x = p
    · subst hx
      simp only [Function.update_same, Option.some.injEq] at hd
      subst hd
      cases hz
    · simp only [Function.update_noteq hx] at hd
      exact ⟨d, hd, hz⟩

theorem nz_copy_mm {s : State} {env : MmEnv} {cf : Nat} {p : Ptr} {x : Int × State}
    (h : copy_mm s env cf p = .ok x) : NoNewZombie s x.2 := by
  obtain ⟨r, s'⟩ := x
  obtain ⟨t, ht, -, h2⟩ := copy_mm_frame h
  rcases h2 with rfl | ⟨-, d, m, hd, rfl⟩
  · exact nz_of_mmOnly ht
  · refine (nz_of_mmOnly ht).andThen (nz_store (fun hz => ⟨d, hd, hz⟩))

theorem nz_load_icode {fuel : Nat} {s : State} {env : ExecEnv} {img : binary}
    {x : Int × State} {c : Ptr} {dc : proc_struct} (hcur : s.current = some c)
    (hc : s.procs c = some dc) (h : load_icode fuel s env img = .ok x) :
    NoNewZombie s x.2 := by
  obtain ⟨r, s'⟩ := x
  obtain ⟨-, -, -, -, -, -, -, -, h9⟩ := load_icode_frame hcur hc h
  rcases h9 with ⟨-, e, -⟩ | ⟨-, m, pa, e⟩
  · exact nz_of_procs e
  · exact nz_right (@nz_store s c { dc with mm := some m, cr3 := pa } (fun hz => ⟨dc, hc, hz⟩)) e

/-! ### The functions of `proc.c` other than `do_exit` -/

theorem nz_set_proc_name {s : State} {s' : State} {p : Ptr} {name : List Nat}
    (h : set_proc_name s p name = .ok s') : NoNewZombie s s' := by
  unfold set_proc_name at h
  have K : NoNewZombie s s := nz_refl _
  repeat' first
    | exact K.andThen (nz_left (nz_modify h (fun _ hz => by first | exact hz | cases hz)) rfl)
    | (obtain ⟨a, h1, h⟩ := bind_ok h
       first
        | (have K := K.andThen (nz_left (nz_modify h1 (fun _ hz => by first | exact hz | cases hz)) rfl))
        | cases h1
        | skip)
    | (cases h
       first
        | done
        | exact nz_right K rfl)
    | dsimp only at h
    | (revert h
       split <;> intro h)

theorem nz_put_kstack {s : State} {s' : State} {p : Ptr}
    (h : put_kstack s p = .ok s') : NoNewZombie s s' := by
  unfold put_kstack at h
  have K : NoNewZombie s s := nz_refl _
  repeat' first
    | (obtain ⟨a, h1, h⟩ := bind_ok h
       first
        | (have K := K.andThen (nz_left (nz_modify h1 (fun _ hz => by first | exact hz | cases hz)) rfl))
        | cases h1
        | skip)
    | (cases h
       first
        | done
        | exact nz_right K rfl)
    | dsimp only at h
    | (revert h
       split <;> intro h)

theorem nz_setup_kstack {s : State} {p : Ptr} {r : Option Nat} {x : Int × State}
    (h : setup_kstack s r p = .ok x) : NoNewZombie s x.2 := by
  unfold setup_kstack at h
  have K : NoNewZombie s s := nz_refl _
  repeat' first
    | (obtain ⟨a, h1, h⟩ := bind_ok h
       first
        | (have K := K.andThen (nz_left (nz_modify h1 (fun _ hz => by first | exact hz | cases hz)) rfl))
        | cases h1
        | skip)
    | (cases h
       first
        | done
        | exact nz_right K rfl)
    | dsimp only at h
    | (revert h
       split <;> intro h)

theorem nz_hash_proc {s : State} {s' : State} {p : Ptr}
    (h : hash_proc s p = .ok s') : NoNewZombie s s' := by
  unfold hash_proc at h
  have K : NoNewZombie s s := nz_refl _
  repeat' first
    | (obtain ⟨a, h1, h⟩ := bind_ok h
       first
        | (have K := K.andThen (nz_left (nz_modify h1 (fun _ hz => by first | exact hz | cases hz)) rfl))
        | cases h1
        | skip)
    | (cases h
       first
        | done
        | exact nz_right K rfl)
    | dsimp only at h
    | (revert h
       split <;> intro h)

theorem nz_get_pid {s : State} {fuel : Nat} {x : Int × State}
    (h : get_pid fuel s = .ok x) : NoNewZombie s x.2 := by
  unfold get_pid at h
  have K : NoNewZombie s s := nz_refl _
  repeat' first
    | (obtain ⟨a, h1, h⟩ := bind_ok h
       first
        | (have K := K.andThen (nz_left (nz_modify h1 (fun _ hz => by first | exact hz | cases hz)) rfl))
        | cases h1
        | skip)
    | (cases h
       first
        | done
        | exact nz_right K rfl)
    | dsimp only at h
    | (revert h
       split <;> intro h)

theorem nz_set_links {s : State} {s' : State} {p : Ptr}
    (h : set_links s p = .ok s') : NoNewZombie s s' := by
  unfold set_links at h
  have K : NoNewZombie s s := nz_refl _
  repeat' first
    | (obtain ⟨a, h1, h⟩ := bind_ok h
       first
        | (have K := K.andThen (nz_left (nz_modify h1 (fun _ hz => by first | exact hz | cases hz)) rfl))
        | cases h1
        | skip)
    | (cases h
       first
        | done
        | exact nz_right K rfl)
    | dsimp only at h
    | (revert h
       split <;> intro h)

theorem nz_remove_links {s : State} {s' : State} {p : Ptr}
    (h : remove_links s p = .ok s') : NoNewZombie s s' := by
  unfold remove_links at h
  have K : NoNewZombie s s := nz_refl _
  repeat' first
    | (obtain ⟨a, h1, h⟩ := bind_ok h
       first
        | (have K := K.andThen (nz_left (nz_modify h1 (fun _ hz => by first | exact hz | cases hz)) rfl))
        | cases h1
        | skip)
    | (cases h
       first
        | done
        | exact nz_right K rfl)
    | dsimp only at h
    | (revert h
       split <;> intro h)

theorem nz_copy_thread {s : State} {s' : State} {p : Ptr} {esp : Nat} {tf : trapframe}
    (h : copy_thread s p esp tf = .ok s') : NoNewZombie s s' := by
  unfold copy_thread at h
  have K : NoNewZombie s s := nz_refl _
  repeat' first
    | exact K.andThen (nz_left (nz_modify h (fun _ hz => by first | exact hz | cases hz)) rfl)
    | (obtain ⟨a, h1, h⟩ := bind_ok h
       first
        | (have K := K.andThen (nz_left (nz_modify h1 (fun _ hz => by first | exact hz | cases hz)) rfl))
        | cases h1
        | skip)
    | (cases h
       first
        | done
        | exact nz_right K rfl)
    | dsimp only at h
    | (revert h
       split <;> intro h)

theorem nz_do_fork_link {s : State} {p : Ptr} {fuel stack : Nat} {tf : trapframe} {x : Int × State}
    (h : do_fork_link fuel s p stack tf = .ok x) : NoNewZombie s x.2 := by
  unfold do_fork_link at h
  have K : NoNewZombie s s := nz_refl _
  repeat' first
    | (obtain ⟨a, h1, h⟩ := bind_ok h
       first
        | (have K := K.andThen (nz_left (nz_modify h1 (fun _ hz => by first | exact hz | cases hz)) rfl))
        | (have K := K.andThen (nz_left (nz_copy_thread h1) rfl))
        | (have K := K.andThen (nz_left (nz_get_pid h1) rfl))
        | (have K := K.andThen (nz_left (nz_hash_proc h1) rfl))
        | (have K := K.andThen (nz_left (nz_set_links h1) rfl))
        | (have K := K.andThen (nz_left (nz_wakeup_proc h1) rfl))
        | cases h1
        | skip)
    | (cases h
       first
        | done
        | exact nz_right K rfl)
    | dsimp only at h
    | (revert h
       split <;> intro h)

theorem nz_proc_run {s : State} {s' : State} {p : Ptr}
    (h : proc_run s p = .ok s') : NoNewZombie s s' := by
  unfold proc_run at h
  have K : NoNewZombie s s := nz_refl _
  repeat' first
    | (obtain ⟨a, h1, h⟩ := bind_ok h
       first
        | (have K := K.andThen (nz_left (nz_modify h1 (fun _ hz => by first | exact hz | cases hz)) rfl))
        | cases h1
        | skip)
    | (cases h
       first
        | done
        | exact nz_right K rfl)
    | dsimp only at h
    | (revert h
       split <;> intro h)

theorem nz_schedule {s : State} {s' : State} {next : Ptr}
    (h : schedule s next = .ok s') : NoNewZombie s s' := by
  unfold schedule at h
  have K : NoNewZombie s s := nz_refl _
  repeat' first
    | exact K.andThen (nz_left (nz_proc_run h) rfl)
    | (obtain ⟨a, h1, h⟩ := bind_ok h
       first
        | (have K := K.andThen (nz_left (nz_modify h1 (fun _ hz => by first | exact hz | cases hz)) rfl))
        | cases h1
        | skip)
    | (cases h
       first
        | done
        | exact nz_right K rfl)
    | dsimp only at h
    | (revert h
       split <;> intro h)

theorem nz_do_yield {s : State} {x : Int × State}
    (h : do_yield s = .ok x) : NoNewZombie s x.2 := by
  unfold do_yield at h
  have K : NoNewZombie s s := nz_refl _
  repeat' first
    | (obtain ⟨a, h1, h⟩ := bind_ok h
       first
        | (have K := K.andThen (nz_left (nz_modify h1 (fun _ hz => by first | exact hz | cases hz)) rfl))
        | cases h1
        | skip)
    | (cases h
       first
        | done
        | exact nz_right K rfl)
    | dsimp only at h
    | (revert h
       split <;> intro h)

theorem nz_do_kill {s : State} {pid : Int} {x : Int × State}
    (h : do_kill s pid = .ok x) : NoNewZombie s x.2 := by
  unfold do_kill at h
  have K : NoNewZombie s s := nz_refl _
  repeat' first
    | (obtain ⟨a, h1, h⟩ := bind_ok h
       first
        | (have K := K.andThen (nz_left (nz_modify h1 (fun _ hz => by first | exact hz | cases hz)) rfl))
        | (have K := K.andThen (nz_left (nz_wakeup_proc h1) rfl))
        | cases h1
        | skip)
    | (cases h
       first
        | done
        | exact nz_right K rfl)
    | dsimp only at h
    | (revert h
       split <;> intro h)

theorem nz_do_wait_found {s : State} {p : Ptr} {cs : Option Nat} {x : WaitResult × State}
    (h : do_wait_found s p cs = .ok x) : NoNewZombie s x.2 := by
  unfold do_wait_found at h
  have K : NoNewZombie s s := nz_refl _
  cases cs
  repeat' first
    | (obtain ⟨a, h1, h⟩ := bind_ok h
       first
        | (have K := K.andThen (nz_left (nz_modify h1 (fun _ hz => by first | exact hz | cases hz)) rfl))
        | (have K := K.andThen (nz_left (nz_remove_links h1) rfl))
        | (have K := K.andThen (nz_left (nz_put_kstack h1) rfl))
        | cases h1
        | skip)
    | (cases h
       first
        | done
        | exact K.andThen (nz_kfree _ _)
        | exact nz_right K rfl)
    | dsimp only at h
    | (revert h
       split <;> intro h)

theorem nz_do_wait {s : State} {fuel : Nat} {umc : Bool} {pid : Int} {cs : Option Nat} {x : WaitResult × State}
    (h : do_wait fuel s umc pid cs = .ok x) : NoNewZombie s x.2 := by
  unfold do_wait at h
  have K : NoNewZombie s s := nz_refl _
  repeat' first
    | exact K.andThen (nz_left (nz_do_wait_found h) rfl)
    | (obtain ⟨a, h1, h⟩ := bind_ok h
       first
        | (have K := K.andThen (nz_left (nz_modify h1 (fun _ hz => by first | exact hz | cases hz)) rfl))
        | cases h1
        | skip)
    | (cases h
       first
        | done
        | exact nz_right K rfl)
    | dsimp only at h
    | (revert h
       split <;> intro h)

theorem nz_do_fork {s : State} {env : ForkEnv} {fuel cf stack : Nat} {tf : trapframe}
    {x : Int × State} (h : do_fork fuel s env cf stack tf = .ok x) : NoNewZombie s x.2 := by
  unfold do_fork at h
  revert h
  split <;> intro h
  · cases h
    exact nz_refl _
  · have b1 := nz_alloc_proc s env.kmalloc
    revert h b1
    cases alloc_proc s env.kmalloc with
    | mk o s1 =>
      intro h b1
      dsimp only at b1
      cases o with
      | none =>
        cases h
        exact b1
      | some p =>
        dsimp only at h
        obtain ⟨s2, h2, h⟩ := bind_ok h
        obtain ⟨cur, -, h⟩ := bind_ok h
        have a2 := b1.andThen (nz_modify h2 (fun _ hz => hz))
        revert h
        split <;> intro h
        · cases h
        · obtain ⟨x3, h3, h⟩ := bind_ok h
          have a3 := a2.andThen (nz_setup_kstack h3)
          obtain ⟨r3, s3⟩ := x3
          dsimp only at h a3
          revert h
          split <;> intro h
          · cases h
            exact a3.andThen (nz_kfree _ _)
          · obtain ⟨x4, h4, h⟩ := bind_ok h
            have a4 := a3.andThen (nz_copy_mm h4)
            obtain ⟨r4, s4⟩ := x4
            dsimp only at h a4
            revert h
            split <;> intro h
            · obtain ⟨s5, h5, h⟩ := bind_ok h
              cases h
              exact a4.andThen ((nz_put_kstack h5).andThen (nz_kfree _ _))
            · exact a4.andThen (nz_do_fork_link h)

/-- A call of `do_execve` that returns to its caller, that is, one that does not end in
`do_exit`. -/
theorem nz_do_execve {s s' : State} {fuel : Nat} {env : ExecEnv} {umc : Bool}
    {name : List Nat} {len : Nat} {img : binary} {r : Int}
    (h : do_execve fuel s env umc name len img = .ok (.returned r, s')) :
    NoNewZombie s s' := by
  unfold do_execve at h
  cases hc : s.current with
  | none =>
    rw [hc] at h
    obtain ⟨a, h1, h⟩ := bind_ok h
    cases h1
  | some c =>
    rw [hc] at h
    obtain ⟨a, h1, h⟩ := bind_ok h
    cases h1
    obtain ⟨cur, hd, h⟩ := bind_ok h
    have hd := deref_ok hd
    revert h
    split <;> intro h
    · cases h
      exact nz_refl _
    dsimp only at h
    revert h
    split <;> intro h
    · obtain ⟨s1, h1, h⟩ := bind_ok h
      have k1 := nz_left (nz_modify h1 (fun _ hz => hz)) (mmOnly_release_mm s _).procs
      have hcur1 : s1.current = some c :=
        (modify_current h1).1.trans ((mmOnly_release_mm s _).current.trans hc)
      obtain ⟨d0, -, e0⟩ := modify_entry h1
      have hc1 : s1.procs c = some { d0 with mm := none } := by
        rw [e0]
        exact store_procs_same _ _ _
      clear h1 e0
      obtain ⟨x2, h2, h⟩ := bind_ok h
      obtain ⟨ret, s2⟩ := x2
      have k2 := k1.andThen (nz_load_icode hcur1 hc1 h2)
      dsimp only at h k2
      revert h
      split <;> intro h
      · obtain ⟨s3, h3, h⟩ := bind_ok h
        cases h
      · obtain ⟨s3, h3, h⟩ := bind_ok h
        cases h
        exact k2.andThen (nz_set_proc_name h3)
    · obtain ⟨s1, h1, h⟩ := bind_ok h
      cases h1
      have k1 := nz_refl s
      have hcur1 := hc
      have hc1 := hd
      obtain ⟨x2, h2, h⟩ := bind_ok h
      obtain ⟨ret, s2⟩ := x2
      have k2 := k1.andThen (nz_load_icode hcur1 hc1 h2)
      dsimp only at h k2
      revert h
      split <;> intro h
      · obtain ⟨s3, h3, h⟩ := bind_ok h
        cases h
      · obtain ⟨s3, h3, h⟩ := bind_ok h
        cases h
        exact k2.andThen (nz_set_proc_name h3)

end Ucore

namespace Ucore

/-- Claim C26. In every reachable state `idleproc` and `initproc` are allocated and neither
is `PROC_ZOMBIE`.  A call of `do_exit` with `current == idleproc` or `current == initproc`
ends in its panic, before any assignment (the result is the error alone, without a state).
No other operation makes a zombie: after `do_fork`, after a `do_execve` that returns to its
caller (one that does not end in `do_exit`), after `do_wait`, `do_kill`, `do_yield` and after
a switch by `schedule`, every descriptor that is `PROC_ZOMBIE` was `PROC_ZOMBIE` before. -/
theorem idle_init_never_zombie (s : State) (hr : Reachable s) :
    (∃ i di n dn, s.idleproc = some i ∧ s.procs i = some di ∧ di.state ≠ .PROC_ZOMBIE ∧
      s.initproc = some n ∧ s.procs n = some dn ∧ dn.state ≠ .PROC_ZOMBIE) ∧
    (∀ fuel code, s.current = s.idleproc →
      do_exit fuel s code = .error .panic_idleproc_exit) ∧
    (∀ fuel code, s.current = s.initproc →
      do_exit fuel s code = .error .panic_initproc_exit) ∧
    (∀ fuel env cf stack tf x, do_fork fuel s env cf stack tf = .ok x → NoNewZombie s x.2) ∧
    (∀ fuel env umc name len img r s1,
      do_execve fuel s env umc name len img = .ok (.returned r, s1) → NoNewZombie s s1) ∧
    (∀ fuel umc pid cs x, do_wait fuel s umc pid cs = .ok x → NoNewZombie s x.2) ∧
    (∀ pid x, do_kill s pid = .ok x → NoNewZombie s x.2) ∧
    (∀ x, do_yield s = .ok x → NoNewZombie s x.2) ∧
    (∀ next s1, schedule s next = .ok s1 → NoNewZombie s s1) := by
  have hi := reachable_inv hr
  obtain ⟨i, di, hidle, hil, hdi, -⟩ := hi.struct.idle
  obtain ⟨n, dn, hinit, hnl, hdn, hnz, -⟩ := hi.sched.init
  have hne : s.idleproc ≠ s.initproc := by
    rw [hidle, hinit]
    rintro h
    cases h
    exact hil hnl
  refine ⟨⟨i, di, n, dn, hidle, hdi, hi.sched.idle i di hidle hdi, hinit, hdn, hnz⟩, ?_, ?_,
    fun _ _ _ _ _ _ h => nz_do_fork h, fun _ _ _ _ _ _ _ _ h => nz_do_execve h,
    fun _ _ _ _ _ h => nz_do_wait h, fun _ _ h => nz_do_kill h, fun _ h => nz_do_yield h,
    fun _ _ h => nz_schedule h⟩
  · intro fuel code hc
    unfold do_exit do_exit_zombie
    rw [if_pos hc]
    rfl
  · intro fuel code hc
    unfold do_exit do_exit_zombie
    rw [if_neg (by rw [hc]; exact fun h => hne h.symm), if_pos hc]
    rfl

theorem idle_init_never_zombie_witness :
    (∃ i di n dn, forked.idleproc = some i ∧ forked.procs i = some di ∧
      di.state ≠ .PROC_ZOMBIE ∧ forked.initproc = some n ∧ forked.procs n = some dn ∧
      dn.state ≠ .PROC_ZOMBIE) ∧
    do_exit 100 forked 0 = .error .panic_idleproc_exit :=
  ⟨(idle_init_never_zombie forked forked_spec.1).1,
    (idle_init_never_zombie forked forked_spec.1).2.1 100 0 (by
      rw [forked_spec.2.1, forked_spec.2.2.1])⟩

end Ucore

namespace Ucore

/-! ## Steps that leave the share counts alone -/

theorem cntSame_refl (s : State) : CntSame s s := fun _ => rfl

theorem CntSame.next {a b c : State} (h1 : CntSame a b) (h2 : CntSame b c) : CntSame a c :=
  fun m => (h2 m).trans (h1 m)

theorem cntSame_of_mms {s s' : State} (h : s'.mms = s.mms) : CntSame s s' := by
  intro m
  rw [h]

theorem cntSame_call (s : State) (c : Call) : CntSame s (s.call c) := fun _ => rfl

theorem cntSame_storemm (s : State) (m : Nat) (d : mm_struct) (h : d.mm_count = (s.mms m).mm_count) :
    CntSame s (s.storemm m d) := by
  intro m'
  by_cases hm : m' = m
  · subst hm
    simp [State.storemm, h]
  · simp [State.storemm, Function.update_noteq hm]

theorem cntSame_mm_destroy (s : State) (m : Nat) : CntSame s (mm_destroy s m) := fun _ => rfl

theorem cntSame_exit_mmap (s : State) (m : Nat) : CntSame s (exit_mmap s m) := by
  unfold exit_mmap
  split <;> exact fun _ => rfl

theorem cntSame_dup_mmap (s : State) (a b : Nat) (r : Int) : CntSame s (dup_mmap s a b r) := by
  unfold dup_mmap
  split
  · split
    · intro m'
      by_cases hm : m' = a
      · subst hm
        simp [State.storemm, State.call]
      · simp [State.storemm, State.call, Function.update_noteq hm]
    · exact fun _ => rfl
  · exact fun _ => rfl

theorem cntSame_put_pgdir (s : State) (m : Nat) : CntSame s (put_pgdir s m) := fun _ => rfl

theorem cntSame_mm_map (s : State) (mm addr len fl : Nat) (ok : Bool) :
    CntSame s (mm_map s mm addr len fl ok).2 := by
  unfold mm_map
  simp only
  split_ifs
  all_goals first
    | exact fun _ => rfl
    | (intro m'
       by_cases hm : m' = mm
       · subst hm
         simp [State.storemm, State.call]
       · simp [State.storemm, State.call, Function.update_noteq hm])

theorem cntSame_pgdir_alloc_page (s : State) (pgdir : Option Nat) (la perm : Nat)
    (r : Option (Nat → Nat)) : CntSame s (pgdir_alloc_page s pgdir la perm r).2 := by
  cases r <;> exact fun _ => rfl

theorem cntSame_page_memcpy (s : State) (pgdir : Option Nat) (la off size : Nat)
    (src : Nat → Nat) : CntSame s (page_memcpy s pgdir la off size src) := by
  unfold page_memcpy
  split <;> exact fun _ => rfl

theorem cntSame_page_memset (s : State) (pgdir : Option Nat) (la off size : Nat) :
    CntSame s (page_memset s pgdir la off size) :=
  cntSame_page_memcpy s pgdir la off size _

/-- The loops of `load_icode` leave every page-directory pointer alone. -/
theorem cntSame_load_copy (env : ExecEnv) (img : binary) (pgdir : Option Nat) (perm end_ : Nat) :
    ∀ (fuel : Nat) (s : State) (start la src : Nat) (page : Option Nat) (r : LoadStep),
      load_copy env img pgdir perm end_ fuel s start la src page = .ok r →
      (∀ t, r = .bad t → CntSame s t) ∧ (∀ t a b c, r = .next t a b c → CntSame s t) := by
  intro fuel
  induction fuel with
  | zero => intro s start la src page r h; simp [load_copy] at h
  | succ fuel ih =>
    intro s start la src page r h
    unfold load_copy at h
    split_ifs at h with hlt
    · cases hpa : env.page_alloc la with
      | none =>
        simp only [pgdir_alloc_page, hpa] at h
        cases h
        refine ⟨?_, ?_⟩
        · intro t ht
          cases ht
          exact cntSame_call _ _
        · intro t a b c ht
          cases ht
      | some data =>
        have h1 := cntSame_pgdir_alloc_page s pgdir la perm (some data)
        simp only [pgdir_alloc_page, hpa] at h h1
        obtain ⟨r1, r2⟩ := ih _ _ _ _ _ r h
        exact ⟨fun t ht => (h1.next (cntSame_page_memcpy _ _ _ _ _ _)).next (r1 t ht),
          fun t a b c ht => (h1.next (cntSame_page_memcpy _ _ _ _ _ _)).next (r2 t a b c ht)⟩
    · cases h
      refine ⟨?_, ?_⟩
      · intro t ht
        cases ht
      · intro t a b c ht
        cases ht
        exact cntSame_refl _

theorem cntSame_load_bss (env : ExecEnv) (pgdir : Option Nat) (perm end_ : Nat) :
    ∀ (fuel : Nat) (s : State) (start la : Nat) (page : Option Nat) (r : LoadStep),
      load_bss env pgdir perm end_ fuel s start la page = .ok r →
      (∀ t, r = .bad t → CntSame s t) ∧ (∀ t a b c, r = .next t a b c → CntSame s t) := by
  intro fuel
  induction fuel with
  | zero => intro s start la page r h; simp [load_bss] at h
  | succ fuel ih =>
    intro s start la page r h
    unfold load_bss at h
    split_ifs at h with hlt
    · cases hpa : env.page_alloc la with
      | none =>
        simp only [pgdir_alloc_page, hpa] at h
        cases h
        refine ⟨?_, ?_⟩
        · intro t ht
          cases ht
          exact cntSame_call _ _
        · intro t a b c ht
          cases ht
      | some data =>
        have h1 := cntSame_pgdir_alloc_page s pgdir la perm (some data)
        simp only [pgdir_alloc_page, hpa] at h h1
        obtain ⟨r1, r2⟩ := ih _ _ _ _ r h
        exact ⟨fun t ht => (h1.next (cntSame_page_memset _ _ _ _ _)).next (r1 t ht),
          fun t a b c ht => (h1.next (cntSame_page_memset _ _ _ _ _)).next (r2 t a b c ht)⟩
    · cases h
      refine ⟨?_, ?_⟩
      · intro t ht
        cases ht
      · intro t a b c ht
        cases ht
        exact cntSame_refl _

theorem cntSame_load_tail {s t : State} {pgdir : Option Nat} {end_ start la : Nat}
    {page : Option Nat} {r : Option Nat}
    (h : load_tail s pgdir end_ start la page = .ok (r, t)) : CntSame s t := by
  unfold load_tail at h
  by_cases ha : start < la
  · rw [if_pos ha] at h
    by_cases hb : start = end_
    · rw [if_pos hb] at h
      cases h
      exact cntSame_refl _
    · rw [if_neg hb] at h
      cases page with
      | none => simp at h
      | some pg =>
        simp only at h
        split_ifs at h
        all_goals (cases h; exact cntSame_page_memset _ _ _ _ _)
  · rw [if_neg ha] at h
    cases h
    exact cntSame_refl _

theorem cntSame_load_pages {fuel : Nat} {s t : State} {env : ExecEnv} {img : binary}
    {pgdir : Option Nat} {ph : proghdr} {r : Int}
    (h : load_pages fuel s env img pgdir ph = .ok (r, t)) : CntSame s t := by
  unfold load_pages at h
  cases hc : load_copy env img pgdir (seg_perm ph)
      (wrap32 (ph.p_va + ph.p_filesz)) fuel s ph.p_va (ROUNDDOWN ph.p_va PGSIZE)
      ph.p_offset none with
  | error e => simp [hc] at h
  | ok step =>
    obtain ⟨c1, c2⟩ := cntSame_load_copy _ _ _ _ _ _ _ _ _ _ _ _ hc
    simp only [hc, ok_bind] at h
    cases step with
    | bad s2 =>
      simp only at h
      cases h
      exact c1 _ rfl
    | next s2 start la page =>
      have h2 : CntSame s s2 := c2 _ _ _ _ rfl
      simp only at h
      cases ht : load_tail s2 pgdir (wrap32 (ph.p_va + ph.p_memsz)) start la page with
      | error e => simp [ht] at h
      | ok x =>
        obtain ⟨o, s3⟩ := x
        have h3 : CntSame s s3 := h2.next (cntSame_load_tail ht)
        simp only [ht, ok_bind] at h
        cases o with
        | none =>
          simp only at h
          cases h
          exact h3
        | some start2 =>
          simp only at h
          cases hb2 : load_bss env pgdir (seg_perm ph) (wrap32 (ph.p_va + ph.p_memsz)) fuel s3
              start2 la page with
          | error e => simp [hb2] at h
          | ok step2 =>
            obtain ⟨d1, d2⟩ := cntSame_load_bss _ _ _ _ _ _ _ _ _ _ hb2
            simp only [hb2, ok_bind] at h
            cases step2 with
            | bad s4 =>
              simp only at h
              cases h
              exact h3.next (d1 _ rfl)
            | next s4 a b c =>
              simp only at h
              cases h
              exact h3.next (d2 _ _ _ _ rfl)

theorem cntSame_load_segment {fuel : Nat} {s t : State} {env : ExecEnv} {img : binary}
    {mm : Nat} {ph : proghdr} {r : Int}
    (h : load_segment fuel s env img mm ph = .ok (r, t)) : CntSame s t := by
  unfold load_segment at h
  have h1 := cntSame_mm_map s mm ph.p_va ph.p_memsz (seg_vm_flags ph) (env.vma_create ph.p_va)
  revert h h1
  cases mm_map s mm ph.p_va ph.p_memsz (seg_vm_flags ph) (env.vma_create ph.p_va) with
  | mk r1 s1 =>
    intro h h1
    simp only at h h1
    split_ifs at h with hr1
    · cases h
      exact h1
    · exact h1.next (cntSame_load_pages h)

theorem cntSame_load_segments {fuel : Nat} {env : ExecEnv} {img : binary} {mm : Nat} :
    ∀ (l : List proghdr) (s t : State) (r : Int),
      load_segments fuel env img mm s l = .ok (r, t) → CntSame s t := by
  intro l
  induction l with
  | nil =>
    intro s t r h
    simp only [load_segments] at h
    cases h
    exact cntSame_refl _
  | cons ph rest ih =>
    intro s t r h
    unfold load_segments at h
    split_ifs at h with h1 h2 h3
    · exact ih _ _ _ h
    · cases h
      exact cntSame_refl _
    · exact ih _ _ _ h
    · cases hseg : load_segment fuel s env img mm ph with
      | error e => simp [hseg] at h
      | ok x =>
        obtain ⟨r1, s1⟩ := x
        simp only [hseg] at h
        split_ifs at h with h4
        · cases h
          exact cntSame_load_segment hseg
        · exact (cntSame_load_segment hseg).next (ih _ _ _ h)

theorem cntSame_load_stack_page {s t : State} {env : ExecEnv} {mm la : Nat}
    (h : load_stack_page s env mm la = .ok t) : CntSame s t := by
  unfold load_stack_page at h
  have h1 := cntSame_pgdir_alloc_page s (s.mms mm).pgdir la PTE_USER (env.page_alloc la)
  revert h h1
  cases pgdir_alloc_page s (s.mms mm).pgdir la PTE_USER (env.page_alloc la) with
  | mk o s1 =>
    cases o with
    | none => intro h; simp at h
    | some pg =>
      intro h h1
      simp only at h h1
      cases h
      exact h1

theorem cntSame_load_bad_cleanup_mmap (s : State) (m : Nat) :
    CntSame s (load_bad_cleanup_mmap s m) :=
  ((cntSame_exit_mmap s m).next (cntSame_put_pgdir _ m)).next (cntSame_mm_destroy _ m)

end Ucore

namespace Ucore

/-- The trap frame that `load_icode` leaves for the image entry `e`. -/
theorem load_finish_tf {t t' : State} {m c e : Nat} {r : Int} {d : proc_struct}
    (hd : t.procs c = some d) (h : load_finish t m c e = .ok (r, t')) :
    ∃ tfa, d.tf = some tfa ∧
      t'.tfmem = Function.update t.tfmem tfa
        { trapframe.zero with tf_cs := USER_CS, tf_ds := USER_DS, tf_es := USER_DS, tf_ss := USER_DS, tf_esp := USTACKTOP, tf_eip := e, tf_eflags := FL_IF } := by
  unfold load_finish at h
  cases htf : d.tf with
  | none =>
    simp [mm_count_inc, State.storemm, State.modify, hd, State.store, State.deref, State.call,
      htf] at h
  | some tf =>
    simp [mm_count_inc, State.storemm, State.modify, hd, State.store, State.deref, State.call,
      htf] at h
    obtain ⟨-, rfl⟩ := h
    exact ⟨tf, rfl, rfl⟩

/-- A successful run of `load_icode`, whatever the image and the answers of the memory
manager were. -/
theorem load_icode_success {fuel : Nat} {s s' : State} {env : ExecEnv} {img : binary}
    {c : Ptr} {dc : proc_struct} (hcur : s.current = some c) (hc : s.procs c = some dc)
    (h : load_icode fuel s env img = .ok (0, s')) :
    ∃ m pg tfa, env.mm_create = some m ∧ env.alloc_page = some pg ∧ dc.tf = some tfa ∧
      dc.mm = none ∧ img.e_magic = ELF_MAGIC ∧
      s'.procs = Function.update s.procs c (some { dc with mm := some m, cr3 := PADDR pg }) ∧
      (s'.mms m).pgdir = some pg ∧ (s'.mms m).mm_count = 1 ∧
      s'.tfmem = Function.update s.tfmem tfa
        { trapframe.zero with tf_cs := USER_CS, tf_ds := USER_DS, tf_es := USER_DS, tf_ss := USER_DS, tf_esp := USTACKTOP, tf_eip := img.e_entry, tf_eflags := FL_IF } ∧
      s'.current = some c := by
  unfold load_icode at h
  rw [hcur] at h
  obtain ⟨a, h1, h⟩ := bind_ok h
  cases h1
  obtain ⟨cur, hd, h⟩ := bind_ok h
  have hd := deref_ok hd
  rw [hc] at hd
  cases hd
  revert h
  split <;> intro h
  · cases h
  rename_i hmm
  have hmm : dc.mm = none := not_not.mp hmm
  cases hmc : env.mm_create with
  | none =>
    simp only [hmc, mm_create] at h
    cases h
  | some m =>
    rw [hmc] at h
    have o1 : MmOnly s (mm_create s (some m)).2 := mmOnly_mm_create s _
    have p1 : ((mm_create s (some m)).2.mms m).pgdir = none := by
      simp [mm_create, State.storemm, State.call]
    have c1 : ((mm_create s (some m)).2.mms m).mm_count = 0 := by
      simp [mm_create, State.storemm, State.call]
    have e1 : (mm_create s (some m)).1 = some m := rfl
    revert h o1 p1 c1 e1
    cases mm_create s (some m) with
    | mk o s1 =>
      intro h o1 p1 c1 e1
      cases e1
      dsimp only at h o1 p1 c1
      cases hap : env.alloc_page with
      | none =>
        simp only [hap, setup_pgdir] at h
        cases h
      | some pg =>
        rw [hap] at h
        have o2 : MmOnly s (setup_pgdir s1 (some pg) m).2 :=
          o1.trans (mmOnly_setup_pgdir s1 _ m)
        have p2 : ((setup_pgdir s1 (some pg) m).2.mms m).pgdir = some pg := by
          simp [setup_pgdir, State.storemm, State.call]
        have c2 : ((setup_pgdir s1 (some pg) m).2.mms m).mm_count = 0 := by
          simp [setup_pgdir, State.storemm, State.call, c1]
        revert h o2 p2 c2
        cases setup_pgdir s1 (some pg) m with
        | mk r2 s2 =>
          intro h o2 p2 c2
          dsimp only at h o2 p2 c2
          revert h
          split <;> intro h
          · cases h
          revert h
          split <;> intro h
          · cases h
          rename_i hmagic
          have hmagic : img.e_magic = ELF_MAGIC := not_not.mp hmagic
          obtain ⟨x3, h3, h⟩ := bind_ok h
          obtain ⟨r3, s3⟩ := x3
          have o3 := o2.trans (mmOnly_load_segments _ _ _ _ h3)
          have p3 := (pgSame_load_segments _ _ _ _ h3 m).trans p2
          have c3 := (cntSame_load_segments _ _ _ _ h3 m).trans c2
          dsimp only at h
          revert h
          split <;> intro h
          · cases h
            exact absurd rfl ‹(0 : Int) ≠ 0›
          have o4 := fun vm fl => o3.trans
            (mmOnly_mm_map s3 m (USTACKTOP - USTACKSIZE) USTACKSIZE vm fl)
          have p4 := fun vm fl =>
            (pgSame_mm_map s3 m (USTACKTOP - USTACKSIZE) USTACKSIZE vm fl m).trans p3
          have c4 := fun vm fl =>
            (cntSame_mm_map s3 m (USTACKTOP - USTACKSIZE) USTACKSIZE vm fl m).trans c3
          have o4 := o4 (VM_READ ||| VM_WRITE ||| VM_STACK)
            (env.vma_create (USTACKTOP - USTACKSIZE))
          have p4 := p4 (VM_READ ||| VM_WRITE ||| VM_STACK)
            (env.vma_create (USTACKTOP - USTACKSIZE))
          have c4 := c4 (VM_READ ||| VM_WRITE ||| VM_STACK)
            (env.vma_create (USTACKTOP - USTACKSIZE))
          revert h o4 p4 c4
          cases mm_map s3 m (USTACKTOP - USTACKSIZE) USTACKSIZE
              (VM_READ ||| VM_WRITE ||| VM_STACK) (env.vma_create (USTACKTOP - USTACKSIZE)) with
          | mk r4 s4 =>
            intro h o4 p4 c4
            dsimp only at h o4 p4 c4
            revert h
            split <;> intro h
            · cases h
              exact absurd rfl ‹(0 : Int) ≠ 0›
            obtain ⟨s5, h5, h⟩ := bind_ok h
            obtain ⟨s6, h6, h⟩ := bind_ok h
            obtain ⟨s7, h7, h⟩ := bind_ok h
            obtain ⟨s8, h8, h⟩ := bind_ok h
            have o8 := (((o4.trans (mmOnly_load_stack_page h5)).trans
              (mmOnly_load_stack_page h6)).trans (mmOnly_load_stack_page h7)).trans
              (mmOnly_load_stack_page h8)
            have p8 := (pgSame_load_stack_page h8 m).trans ((pgSame_load_stack_page h7 m).trans
              ((pgSame_load_stack_page h6 m).trans ((pgSame_load_stack_page h5 m).trans p4)))
            have c8 := (cntSame_load_stack_page h8 m).trans ((cntSame_load_stack_page h7 m).trans
              ((cntSame_load_stack_page h6 m).trans ((cntSame_load_stack_page h5 m).trans c4)))
            have hc8 : s8.procs c = some dc := by rw [o8.procs]; exact hc
            obtain ⟨-, -, -, -, -, -, -, -, f9, -, f11, f12⟩ := load_finish_frame hc8 h
            obtain ⟨tfa, g1, g2⟩ := load_finish_tf hc8 h
            have hm8 : ((mm_count_inc s8 m).mms m) = { s8.mms m with mm_count := 1 } := by
              simp [mm_count_inc, State.storemm, c8]
            refine ⟨m, pg, tfa, rfl, rfl, g1, hmm, hmagic, ?_, ?_, ?_, ?_, ?_⟩
            · rw [f12, hm8, o8.procs]
              simp [p8]
            · rw [f11, hm8]
              exact p8
            · rw [f11, hm8]
            · rw [g2, o8.tfmem]
            · rw [f9, o8.current, hcur]

end Ucore

namespace Ucore

/-- Claim C22. For every image and every run in which `load_icode` returns 0: the trap frame
of the current task is, afterwards, the all-zero frame with `tf_cs == USER_CS`,
`tf_ds == tf_es == tf_ss == USER_DS`, `tf_esp == USTACKTOP`, `tf_eip ==` the image's `e_entry`
and `tf_eflags == FL_IF`; `current.mm` is the address space that `mm_create` handed out for
this call, whose share count, 0 when it was created, is now 1; and
`current.cr3 == PADDR(mm.pgdir)`.  Nothing else in the descriptor has changed. -/
theorem load_icode_result (fuel : Nat) (s s' : State) (env : ExecEnv) (img : binary)
    (h : load_icode fuel s env img = .ok (0, s')) :
    ∃ c dc d' m pg tfa, s.current = some c ∧ s.procs c = some dc ∧ s'.current = some c ∧
      s'.procs c = some d' ∧ d'.tf = some tfa ∧
      s'.tfmem tfa = { trapframe.zero with tf_cs := USER_CS, tf_ds := USER_DS, tf_es := USER_DS, tf_ss := USER_DS, tf_esp := USTACKTOP, tf_eip := img.e_entry, tf_eflags := FL_IF } ∧
      mm_create s env.mm_create = (some m, (mm_create s env.mm_create).2) ∧
      ((mm_create s env.mm_create).2.mms m).mm_count = 0 ∧
      d'.mm = some m ∧ (s'.mms m).mm_count = 1 ∧
      (s'.mms m).pgdir = some pg ∧ d'.cr3 = PADDR pg ∧
      d' = { dc with mm := some m, cr3 := PADDR pg } := by
  have h0 := h
  unfold load_icode at h0
  cases hcur : s.current with
  | none =>
    rw [hcur] at h0
    obtain ⟨a, h1, -⟩ := bind_ok h0
    cases h1
  | some c =>
    rw [hcur] at h0
    obtain ⟨a, h1, h0⟩ := bind_ok h0
    cases h1
    obtain ⟨dc, hd, -⟩ := bind_ok h0
    have hc := deref_ok hd
    obtain ⟨m, pg, tfa, e1, -, e3, -, -, e6, e7, e8, e9, e10⟩ := load_icode_success hcur hc h
    refine ⟨c, dc, { dc with mm := some m, cr3 := PADDR pg }, m, pg, tfa, rfl, hc, e10, ?_, e3,
      ?_, ?_, ?_, rfl, e8, e7, rfl, rfl⟩
    · rw [e6]
      simp
    · rw [e9]
      simp
    · rw [e1]
      rfl
    · rw [e1]
      simp [mm_create, State.storemm, State.call]

theorem load_icode_result_witness :
    ∃ s', load_icode 2000000 exec_demo exec_env demo_image = .ok (0, s') ∧
      ∃ d', s'.current = some 7 ∧ s'.procs 7 = some d' ∧ d'.tf = some 0 ∧
        s'.tfmem 0 = { trapframe.zero with tf_cs := USER_CS, tf_ds := USER_DS, tf_es := USER_DS, tf_ss := USER_DS, tf_esp := USTACKTOP, tf_eip := 0x800020, tf_eflags := FL_IF } ∧
        d'.mm = some 1 ∧ (s'.mms 1).mm_count = 1 ∧ (s'.mms 1).pgdir = some 0xC0400000 ∧
        d'.cr3 = PADDR 0xC0400000 := by
  obtain ⟨s', h, hp, hg, -⟩ := load_icode_spec 2000000 exec_demo exec_env demo_image 7
    { raw_block with pid := 5, state := .PROC_RUNNABLE, tf := some 0 } 1 0xC0400000 0
    rfl rfl rfl rfl rfl rfl (fun _ => rfl) (fun _ => rfl) rfl
    (by
      intro ph hph _
      simp only [demo_image, List.mem_singleton] at hph
      subst hph
      decide)
    (List.pairwise_singleton _ _) (by decide)
  obtain ⟨c, dc, d', m, pg, tfa, a1, a2, a3, a4, a5, a6, a7, -, a9, a10, a11, a12, a13⟩ :=
    load_icode_result 2000000 exec_demo s' exec_env demo_image h
  have hc : c = 7 := by
    have : exec_demo.current = some 7 := rfl
    rw [this] at a1
    cases a1
    rfl
  subst hc
  have hdc : dc = { raw_block with pid := 5, state := .PROC_RUNNABLE, tf := some 0 } := by
    have : exec_demo.procs 7 =
        some { raw_block with pid := 5, state := .PROC_RUNNABLE, tf := some 0 } := rfl
    rw [this] at a2
    cases a2
    rfl
  have hm : m = 1 := by
    have : (mm_create exec_demo exec_env.mm_create).1 = some 1 := rfl
    rw [a7] at this
    cases this
    rfl
  subst hm
  have hpg : pg = 0xC0400000 := by
    rw [hg] at a11
    cases a11
    rfl
  subst hpg
  have htf : tfa = 0 := by
    rw [a13, hdc] at a5
    cases a5
    rfl
  subst htf
  exact ⟨s', h, d', a3, a4, a5, a6, a9, a10, a11, a12⟩

end Ucore

namespace Ucore

set_option linter.unusedTactic false
set_option linter.unreachableTactic false

/-! ## Steps that make no call to an allocator -/

theorem quiet_refl (s : State) : Quiet s s :=
  ⟨⟨[], rfl, by simp⟩, fun _ => rfl⟩

theorem Quiet.after {a b c : State} (h1 : Quiet a b) (h2 : Quiet b c) : Quiet a c := by
  obtain ⟨⟨l1, e1, q1⟩, p1⟩ := h1
  obtain ⟨⟨l2, e2, q2⟩, p2⟩ := h2
  refine ⟨⟨l2 ++ l1, by rw [e2, e1, List.append_assoc], ?_⟩, fun x => (p2 x).trans (p1 x)⟩
  intro c hc
  rcases List.mem_append.mp hc with h | h
  · exact q2 c h
  · exact q1 c h

theorem quiet_left {a t b : State} (h : Quiet t b) (e1 : t.log = a.log)
    (e2 : t.procs = a.procs) : Quiet a b := by
  obtain ⟨⟨l, e, q⟩, p⟩ := h
  exact ⟨⟨l, by rw [e, e1], q⟩, fun x => by rw [p x, e2]⟩

theorem quiet_right {a t b : State} (h : Quiet a t) (e1 : b.log = t.log)
    (e2 : b.procs = t.procs) : Quiet a b := by
  obtain ⟨⟨l, e, q⟩, p⟩ := h
  exact ⟨⟨l, by rw [e1, e], q⟩, fun x => by rw [e2, p x]⟩

theorem quiet_close {a t b : State} (h : Quiet a t)
    (hl : ∃ l, b.log = l ++ t.log ∧ ∀ c ∈ l, c.quiet = true) (e2 : b.procs = t.procs) :
    Quiet a b :=
  h.after ⟨hl, fun x => by rw [e2]⟩

theorem quiet_modify {s s' : State} {p : Ptr} {f : proc_struct → proc_struct}
    (h : s.modify p f = .ok s')
    (hf : ∀ d, (f d).kstack = d.kstack ∧ (f d).mm = d.mm) : Quiet s s' := by
  obtain ⟨d, hd, rfl⟩ := modify_entry h
  refine ⟨⟨[], rfl, by simp⟩, fun x => ?_⟩
  by_cases hx : x = p
  · subst hx
    rw [store_procs_same, hd]
    simp [(hf d).1, (hf d).2]
  · rw [store_procs_ne _ _ hx]

theorem quiet_wakeup_proc {s s' : State} {p : Ptr} (h : wakeup_proc s p = .ok s') :
    Quiet s s' := by
  unfold wakeup_proc at h
  revert h
  split
  · intro h
    cases h
  · rename_i d hd
    split <;> intro h <;> cases h
    · refine ⟨⟨[_], rfl, by simp [Call.quiet]⟩, fun x => ?_⟩
      by_cases hx : x = p
      · subst hx
        simp [State.call, State.store, hd]
      · simp [State.call, State.store, Function.update_noteq hx]
    · exact ⟨⟨[_], rfl, by simp [Call.quiet]⟩, fun _ => rfl⟩

theorem quiet_hash_proc {s : State} {s' : State} {p : Ptr}
    (h : hash_proc s p = .ok s') : Quiet s s' := by
  unfold hash_proc at h
  have K : Quiet s s := quiet_refl _
  repeat' first
    | (obtain ⟨a, h1, h⟩ := bind_ok h
       first
        | (have K := K.after (quiet_left (quiet_modify h1 (fun _ => ⟨rfl, rfl⟩)) rfl rfl))
        | cases h1
        | skip)
    | (cases h
       first
        | done
        | exact quiet_close K ⟨[_], rfl, by simp [Call.quiet]⟩ rfl
        | exact quiet_close K ⟨[_, _], rfl, by simp [Call.quiet]⟩ rfl
        | exact quiet_close K ⟨[_, _, _], rfl, by simp [Call.quiet]⟩ rfl
        | exact quiet_right K rfl rfl)
    | dsimp only at h
    | (revert h
       split <;> intro h)

theorem quiet_get_pid {s : State} {fuel : Nat} {x : Int × State}
    (h : get_pid fuel s = .ok x) : Quiet s x.2 := by
  unfold get_pid at h
  have K : Quiet s s := quiet_refl _
  repeat' first
    | (obtain ⟨a, h1, h⟩ := bind_ok h
       first
        | (have K := K.after (quiet_left (quiet_modify h1 (fun _ => ⟨rfl, rfl⟩)) rfl rfl))
        | cases h1
        | skip)
    | (cases h
       first
        | done
        | exact quiet_close K ⟨[_], rfl, by simp [Call.quiet]⟩ rfl
        | exact quiet_close K ⟨[_, _], rfl, by simp [Call.quiet]⟩ rfl
        | exact quiet_close K ⟨[_, _, _], rfl, by simp [Call.quiet]⟩ rfl
        | exact quiet_right K rfl rfl)
    | dsimp only at h
    | (revert h
       split <;> intro h)

theorem quiet_set_links {s : State} {s' : State} {p : Ptr}
    (h : set_links s p = .ok s') : Quiet s s' := by
  unfold set_links at h
  have K : Quiet s s := quiet_refl _
  repeat' first
    | (obtain ⟨a, h1, h⟩ := bind_ok h
       first
        | (have K := K.after (quiet_left (quiet_modify h1 (fun _ => ⟨rfl, rfl⟩)) rfl rfl))
        | cases h1
        | skip)
    | (cases h
       first
        | done
        | exact quiet_close K ⟨[_], rfl, by simp [Call.quiet]⟩ rfl
        | exact quiet_close K ⟨[_, _], rfl, by simp [Call.quiet]⟩ rfl
        | exact quiet_close K ⟨[_, _, _], rfl, by simp [Call.quiet]⟩ rfl
        | exact quiet_right K rfl rfl)
    | dsimp only at h
    | (revert h
       split <;> intro h)

theorem quiet_copy_thread {s : State} {s' : State} {p : Ptr} {esp : Nat} {tf : trapframe}
    (h : copy_thread s p esp tf = .ok s') : Quiet s s' := by
  unfold copy_thread at h
  have K : Quiet s s := quiet_refl _
  repeat' first
    | exact K.after (quiet_left (quiet_modify h (fun _ => ⟨rfl, rfl⟩)) rfl rfl)
    | (obtain ⟨a, h1, h⟩ := bind_ok h
       first
        | (have K := K.after (quiet_left (quiet_modify h1 (fun _ => ⟨rfl, rfl⟩)) rfl rfl))
        | cases h1
        | skip)
    | (cases h
       first
        | done
        | exact quiet_close K ⟨[_], rfl, by simp [Call.quiet]⟩ rfl
        | exact quiet_close K ⟨[_, _], rfl, by simp [Call.quiet]⟩ rfl
        | exact quiet_close K ⟨[_, _, _], rfl, by simp [Call.quiet]⟩ rfl
        | exact quiet_right K rfl rfl)
    | dsimp only at h
    | (revert h
       split <;> intro h)

theorem quiet_do_fork_link {s : State} {p : Ptr} {fuel stack : Nat} {tf : trapframe} {x : Int × State}
    (h : do_fork_link fuel s p stack tf = .ok x) : Quiet s x.2 := by
  unfold do_fork_link at h
  have K : Quiet s s := quiet_refl _
  repeat' first
    | (obtain ⟨a, h1, h⟩ := bind_ok h
       first
        | (have K := K.after (quiet_left (quiet_modify h1 (fun _ => ⟨rfl, rfl⟩)) rfl rfl))
        | (have K := K.after (quiet_left (quiet_copy_thread h1) rfl rfl))
        | (have K := K.after (quiet_left (quiet_get_pid h1) rfl rfl))
        | (have K := K.after (quiet_left (quiet_hash_proc h1) rfl rfl))
        | (have K := K.after (quiet_left (quiet_set_links h1) rfl rfl))
        | (have K := K.after (quiet_left (quiet_wakeup_proc h1) rfl rfl))
        | cases h1
        | skip)
    | (cases h
       first
        | done
        | exact quiet_close K ⟨[_], rfl, by simp [Call.quiet]⟩ rfl
        | exact quiet_close K ⟨[_, _], rfl, by simp [Call.quiet]⟩ rfl
        | exact quiet_close K ⟨[_, _, _], rfl, by simp [Call.quiet]⟩ rfl
        | exact quiet_right K rfl rfl)
    | dsimp only at h
    | (revert h
       split <;> intro h)

theorem quiet_proc_run {s : State} {s' : State} {p : Ptr}
    (h : proc_run s p = .ok s') : Quiet s s' := by
  unfold proc_run at h
  have K : Quiet s s := quiet_refl _
  repeat' first
    | (obtain ⟨a, h1, h⟩ := bind_ok h
       first
        | (have K := K.after (quiet_left (quiet_modify h1 (fun _ => ⟨rfl, rfl⟩)) rfl rfl))
        | cases h1
        | skip)
    | (cases h
       first
        | done
        | exact quiet_close K ⟨[_], rfl, by simp [Call.quiet]⟩ rfl
        | exact quiet_close K ⟨[_, _], rfl, by simp [Call.quiet]⟩ rfl
        | exact quiet_close K ⟨[_, _, _], rfl, by simp [Call.quiet]⟩ rfl
        | exact quiet_right K rfl rfl)
    | dsimp only at h
    | (revert h
       split <;> intro h)

theorem quiet_schedule {s : State} {s' : State} {next : Ptr}
    (h : schedule s next = .ok s') : Quiet s s' := by
  unfold schedule at h
  have K : Quiet s s := quiet_refl _
  repeat' first
    | exact K.after (quiet_left (quiet_proc_run h) rfl rfl)
    | (obtain ⟨a, h1, h⟩ := bind_ok h
       first
        | (have K := K.after (quiet_left (quiet_modify h1 (fun _ => ⟨rfl, rfl⟩)) rfl rfl))
        | cases h1
        | skip)
    | (cases h
       first
        | done
        | exact quiet_close K ⟨[_], rfl, by simp [Call.quiet]⟩ rfl
        | exact quiet_close K ⟨[_, _], rfl, by simp [Call.quiet]⟩ rfl
        | exact quiet_close K ⟨[_, _, _], rfl, by simp [Call.quiet]⟩ rfl
        | exact quiet_right K rfl rfl)
    | dsimp only at h
    | (revert h
       split <;> intro h)

theorem quiet_do_exit_relink {s : State} {s' : State} {cur p : Ptr}
    (h : do_exit_relink s cur p = .ok s') : Quiet s s' := by
  unfold do_exit_relink at h
  have K : Quiet s s := quiet_refl _
  repeat' first
    | exact K.after (quiet_left (quiet_modify h (fun _ => ⟨rfl, rfl⟩)) rfl rfl)
    | (obtain ⟨a, h1, h⟩ := bind_ok h
       first
        | (have K := K.after (quiet_left (quiet_modify h1 (fun _ => ⟨rfl, rfl⟩)) rfl rfl))
        | cases h1
        | skip)
    | (cases h
       first
        | done
        | exact quiet_close K ⟨[_], rfl, by simp [Call.quiet]⟩ rfl
        | exact quiet_close K ⟨[_, _], rfl, by simp [Call.quiet]⟩ rfl
        | exact quiet_close K ⟨[_, _, _], rfl, by simp [Call.quiet]⟩ rfl
        | exact quiet_right K rfl rfl)
    | dsimp only at h
    | (revert h
       split <;> intro h)

theorem quiet_do_exit_wake_init {s : State} {s' : State} {p : Ptr}
    (h : do_exit_wake_init s p = .ok s') : Quiet s s' := by
  unfold do_exit_wake_init at h
  have K : Quiet s s := quiet_refl _
  repeat' first
    | exact K.after (quiet_left (quiet_wakeup_proc h) rfl rfl)
    | (obtain ⟨a, h1, h⟩ := bind_ok h
       first
        | (have K := K.after (quiet_left (quiet_modify h1 (fun _ => ⟨rfl, rfl⟩)) rfl rfl))
        | cases h1
        | skip)
    | (cases h
       first
        | done
        | exact quiet_close K ⟨[_], rfl, by simp [Call.quiet]⟩ rfl
        | exact quiet_close K ⟨[_, _], rfl, by simp [Call.quiet]⟩ rfl
        | exact quiet_close K ⟨[_, _, _], rfl, by simp [Call.quiet]⟩ rfl
        | exact quiet_right K rfl rfl)
    | dsimp only at h
    | (revert h
       split <;> intro h)

theorem quiet_do_exit_reparent_child {s : State} {s' : State} {cur p : Ptr}
    (h : do_exit_reparent_child s cur p = .ok s') : Quiet s s' := by
  unfold do_exit_reparent_child at h
  have K : Quiet s s := quiet_refl _
  repeat' first
    | exact K.after (quiet_left (quiet_do_exit_wake_init h) rfl rfl)
    | (obtain ⟨a, h1, h⟩ := bind_ok h
       first
        | (have K := K.after (quiet_left (quiet_modify h1 (fun _ => ⟨rfl, rfl⟩)) rfl rfl))
        | (have K := K.after (quiet_left (quiet_do_exit_relink h1) rfl rfl))
        | cases h1
        | skip)
    | (cases h
       first
        | done
        | exact quiet_close K ⟨[_], rfl, by simp [Call.quiet]⟩ rfl
        | exact quiet_close K ⟨[_, _], rfl, by simp [Call.quiet]⟩ rfl
        | exact quiet_close K ⟨[_, _, _], rfl, by simp [Call.quiet]⟩ rfl
        | exact quiet_right K rfl rfl)
    | dsimp only at h
    | (revert h
       split <;> intro h)

theorem quiet_do_exit_reparent {cur : Ptr} :
    ∀ (fuel : Nat) (s s' : State), do_exit_reparent fuel s cur = .ok s' → Quiet s s' := by
  intro fuel
  induction fuel with
  | zero =>
    intro s s' h
    simp [do_exit_reparent] at h
  | succ n ih =>
    intro s s' h
    rw [do_exit_reparent] at h
    have K : Quiet s s := quiet_refl _
    repeat' first
      | exact K.after (ih _ _ h)
      | (obtain ⟨a, h1, h⟩ := bind_ok h
         first
          | (have K := K.after (quiet_left (quiet_modify h1 (fun _ => ⟨rfl, rfl⟩)) rfl rfl))
          | (have K := K.after (quiet_left (quiet_do_exit_reparent_child h1) rfl rfl))
          | cases h1
          | skip)
      | (cases h
         first
          | done
          | exact quiet_close K ⟨[_], rfl, by simp [Call.quiet]⟩ rfl
          | exact quiet_close K ⟨[_, _], rfl, by simp [Call.quiet]⟩ rfl
          | exact quiet_close K ⟨[_, _, _], rfl, by simp [Call.quiet]⟩ rfl
          | exact quiet_right K rfl rfl)
      | dsimp only at h
      | (revert h
         split <;> intro h)

/-- The part of `do_exit` before its loop, for a caller without address space. -/
theorem quiet_do_exit_zombie {s : State} {e : Int} {x : Ptr × State} {c : Ptr}
    {d : proc_struct} (hc : s.current = some c) (hd : s.procs c = some d) (hmm : d.mm = none)
    (h : do_exit_zombie s e = .ok x) : Quiet s x.2 := by
  unfold do_exit_zombie at h
  revert h
  split <;> intro h
  · cases h
  revert h
  split <;> intro h
  · cases h
  rw [hc] at h
  obtain ⟨a, h1, h⟩ := bind_ok h
  cases h1
  obtain ⟨d0, hd0, h⟩ := bind_ok h
  have hd0 := deref_ok hd0
  rw [hd] at hd0
  cases hd0
  revert h
  split <;> intro h
  · rename_i heq
    rw [hmm] at heq
    cases heq
  · obtain ⟨s1, h1, h⟩ := bind_ok h
    cases h1
    have K : Quiet s s := quiet_refl _
    repeat' first
      | (obtain ⟨a, h1, h⟩ := bind_ok h
         first
          | (have K := K.after (quiet_left (quiet_modify h1 (fun _ => ⟨rfl, rfl⟩)) rfl rfl))
          | (have K := K.after (quiet_left (quiet_wakeup_proc h1) rfl rfl))
          | cases h1
          | skip)
      | (cases h
         first
          | done
          | exact quiet_close K ⟨[_], rfl, by simp [Call.quiet]⟩ rfl
          | exact quiet_close K ⟨[_, _], rfl, by simp [Call.quiet]⟩ rfl
          | exact quiet_close K ⟨[_, _, _], rfl, by simp [Call.quiet]⟩ rfl
          | exact quiet_right K rfl rfl)
      | dsimp only at h
      | (revert h
         split <;> intro h)

/-- A call of `do_exit` by a task without address space, a kernel thread. -/
theorem quiet_do_exit {s s' : State} {fuel : Nat} {e : Int} {c : Ptr} {d : proc_struct}
    (hc : s.current = some c) (hd : s.procs c = some d) (hmm : d.mm = none)
    (h : do_exit fuel s e = .ok s') : Quiet s s' := by
  unfold do_exit at h
  obtain ⟨x, h1, h⟩ := bind_ok h
  have k1 := quiet_do_exit_zombie hc hd hmm h1
  obtain ⟨cur, sZ⟩ := x
  dsimp only at h k1
  obtain ⟨s3, h3, h⟩ := bind_ok h
  cases h
  exact quiet_close (k1.after (quiet_do_exit_reparent _ _ _ h3)) ⟨[_], rfl, by simp [Call.quiet]⟩
    rfl

end Ucore

namespace Ucore

/-- Quiet calls do not count in the balance of pages. -/
theorem pages_taken_quiet (l L : List Call) (h : ∀ c ∈ l, c.quiet = true) :
    pages_taken (l ++ L) = pages_taken L := by
  induction l with
  | nil => rfl
  | cons c l ih =>
    have hc := h c (List.mem_cons_self _ _)
    have ih := ih (fun x hx => h x (List.mem_cons_of_mem _ hx))
    cases c <;> simp [Call.quiet] at hc <;> simpa [pages_taken] using ih

/-- Quiet calls do not count in the balance of heap blocks. -/
theorem blocks_taken_quiet (l L : List Call) (h : ∀ c ∈ l, c.quiet = true) :
    blocks_taken (l ++ L) = blocks_taken L := by
  induction l with
  | nil => rfl
  | cons c l ih =>
    have hc := h c (List.mem_cons_self _ _)
    have ih := ih (fun x hx => h x (List.mem_cons_of_mem _ hx))
    cases c <;> simp [Call.quiet] at hc <;> simpa [blocks_taken] using ih

/-- A descriptor seen through a quiet step. -/
theorem quiet_entry {s s' : State} (h : Quiet s s') {x : Ptr} {d : proc_struct}
    (hd : s.procs x = some d) :
    ∃ d', s'.procs x = some d' ∧ d'.kstack = d.kstack ∧ d'.mm = d.mm := by
  have := h.2 x
  rw [hd] at this
  cases hx : s'.procs x with
  | none => rw [hx] at this; cases this
  | some d' =>
    rw [hx] at this
    simp only [Option.map_some', Option.some.injEq, Prod.mk.injEq] at this
    exact ⟨d', rfl, this.1, this.2⟩

/-- A successful `do_fork` by a task without address space: the calls it makes to the
allocators are one `kmalloc` and one `alloc_pages(KSTACKPAGE)`, and the child is a kernel
thread on that stack. -/
theorem do_fork_kthread {s s1 : State} {env : ForkEnv} {fuel cf stack : Nat} {tf : trapframe}
    {pid : Int} {c : Ptr} {dc : proc_struct} (hi : Inv s) (hfresh : FreshProc s env.kmalloc)
    (hcur : s.current = some c) (hc : s.procs c = some dc) (hmm : dc.mm = none)
    (h : do_fork fuel s env cf stack tf = .ok (pid, s1)) (hpid : 0 < pid) :
    ∃ p raw k ch l, env.kmalloc = some (p, raw) ∧ env.kstack = some k ∧ s.procs p = none ∧
      s1.procs p = some ch ∧ ch.pid = pid ∧ ch.kstack = k ∧ ch.mm = none ∧
      ch.state = .PROC_RUNNABLE ∧ ch.parent = some c ∧ s1.current = some c ∧
      (∃ d1, s1.procs c = some d1 ∧ d1.state = .PROC_RUNNABLE) ∧ (∀ x ∈ l, x.quiet = true) ∧
      s1.log = l ++ Call.alloc_pages KSTACKPAGE (some k) :: Call.kmalloc (some p) :: s.log := by
  obtain ⟨c0, dc0, hcur0, hc0, hrun⟩ := hi.cur
  rw [hcur] at hcur0
  cases hcur0
  rw [hc] at hc0
  cases hc0
  have hws := hi.sched.ws c dc hc hrun
  by_cases hroom : s.nr_process < MAX_PROCESS
  swap
  · rw [do_fork_full env fuel cf stack tf (not_lt.mp hroom)] at h
    cases h
    exact absurd hpid (by decide)
  cases hk : env.kmalloc with
  | none =>
    rw [do_fork_no_desc fuel cf stack tf hroom hk] at h
    cases h
    exact absurd hpid (by decide)
  | some pr =>
    obtain ⟨p, raw⟩ := pr
    have hp0 : s.procs p = none := hfresh p raw hk
    have hcp : c ≠ p := by
      rintro rfl
      rw [hp0] at hc
      cases hc
    cases hks : env.kstack with
    | none =>
      obtain ⟨s', h', -⟩ := do_fork_no_kstack fuel cf stack tf hroom hk hcur hc hws hcp hks
      rw [h'] at h
      cases h
      exact absurd hpid (by decide)
    | some k =>
      obtain ⟨s3, d3, hdf, hprocs, -, -, -, -, -, -, -, hkst, hmm3, -, -, -, -, -,
        -, -, -, -, hcur3, -, -, -, -, hlog3⟩ :=
        do_fork_unfold fuel cf stack tf hroom hk hcur hc hws hcp hks
      have hp3 : s3.procs p = some d3 := by rw [hprocs]; simp
      have hc3 : s3.procs c = some dc := by rw [hprocs, Function.update_noteq hcp]; exact hc
      have hcm : copy_mm s3 env.mm cf p = .ok (0, s3) := by
        unfold copy_mm
        simp [State.derefp, State.deref, hcur3, hcur, hc3, hmm]
      rw [hdf, hcm] at h
      simp only [ok_bind, ne_eq, not_true_eq_false, if_false] at h
      have hq := quiet_do_fork_link h
      obtain ⟨⟨l, hl, hlq⟩, -⟩ := hq
      obtain ⟨ch, hch, e1, e2⟩ := quiet_entry (quiet_do_fork_link h) hp3
      obtain ⟨d1, hd1, -⟩ := quiet_entry (quiet_do_fork_link h) hc3
      dsimp only at hl hch hd1
      -- the pid and the state, from the closed form of the run with enough fuel
      have hmf : ¬ copy_mm_fails dc.mm env.mm cf := by
        rintro ⟨hne, -⟩
        exact hne hmm
      have hbig : do_fork (max fuel (2 * 8192 + 1)) s env cf stack tf = .ok (pid, s1) := by
        refine do_fork_mono_case hroom hk hcur hc hws hcp hks ?_ (le_max_left _ _)
        rw [hdf, hcm]
        simpa using h
      obtain ⟨v, n, s', hrun', -, -, -, -, -, -, -, -, -, -, -, hcur', -,
        ⟨ch', hch', c1, c2, -, -, -, c6, -, -, -⟩, hothers, -⟩ :=
        do_fork_ok (max fuel (2 * 8192 + 1)) cf stack tf hi.struct hroom hk hp0 hcur hc hws hks
          hmf (by
            have : MAX_PID = 8192 := by simp [MAX_PID, MAX_PROCESS]
            rw [this]
            have := le_max_right fuel (2 * 8192 + 1)
            omega)
      rw [hbig] at hrun'
      cases hrun'
      rw [hch] at hch'
      cases hch'
      refine ⟨p, raw, k, ch, l, rfl, rfl, hp0, hch, c1, e1.trans hkst, e2.trans hmm3, c6, c2,
        hcur'.trans hcur, ⟨_, hothers c hcp dc hc, hrun⟩, hlq, ?_⟩
      rw [hl, hlog3]

/-- A call of `do_wait` that returns 0 has reaped one zombie child of the caller: its kernel
stack went back with `free_pages` and its descriptor with `kfree`, and no other descriptor
was freed. -/
theorem do_wait_reap_log {s s' : State} {fuel : Nat} {umc : Bool} {pid : Int}
    {cs : Option Nat} (hi : Inv s) (h : do_wait fuel s umc pid cs = .ok (.returned 0, s')) :
    ∃ z dz, s.procs z = some dz ∧ dz.state = .PROC_ZOMBIE ∧ dz.parent = s.current ∧
      s'.procs z = none ∧
      s'.log = Call.kfree z :: Call.free_pages (some dz.kstack) KSTACKPAGE :: s.log ∧
      (∀ x d, x ≠ z → s.procs x = some d → (s'.procs x).isSome) := by
  rcases do_wait_cases hi h with ⟨-, hres⟩ | ⟨hres, -⟩ | ⟨z, dz, hzl, hz, hzs, hzp, hf⟩
  · rcases hres with hres | hres
    · cases hres
    · cases hres
  · cases hres
  · obtain ⟨c, dc, hcur, hc, hrun⟩ := hi.cur
    have hzp0 := hzp
    rw [hcur] at hzp
    have hzi : some z ≠ s.initproc := by
      obtain ⟨n, dn, a, b, e, f, g⟩ := hi.sched.init
      rw [a]
      rintro hzn
      cases hzn
      rw [hz] at e
      cases e
      exact f hzs
    obtain ⟨s'', hf', -, -, -, -, -, -, -, -, -, e9, e10, e11, -⟩ :=
      do_wait_found_of hi.struct cs hzl hz hzp hzi
    rw [hf'] at hf
    cases hf
    refine ⟨z, dz, hz, hzs, hzp0, e10, e9, ?_⟩
    intro x d hx hd
    rw [e11 x hx d hd]
    rfl

end Ucore

namespace Ucore

/-- Claim C25. No leak over a matched fork, exit and wait.  From a reachable state in which
the current task `c` has no address space, let `do_fork` succeed with the new descriptor at
`p`, let the scheduler switch to the child, the child call `do_exit`, the scheduler switch
back, and the parent call `do_wait`, which returns 0 and has reaped `p`.  Then the only calls
to the allocators in the whole run are `kmalloc` and `alloc_pages(KSTACKPAGE)` in `do_fork`
and, with the same stack and the same descriptor, `free_pages(_, KSTACKPAGE)` from
`put_kstack` and `kfree` in `do_wait`; so `do_fork` takes `KSTACKPAGE` pages and one
descriptor, and after the `do_wait` the number of free pages and the number of kernel-heap
bytes in use are what they were before the `do_fork`. -/
theorem fork_exit_wait_no_leak (free0 used0 : Int) (size : Nat) (s s1 s2 s3 s4 s5 : State)
    (env : ForkEnv) (f1 f2 f3 cf stack : Nat) (tf : trapframe) (pid code wpid : Int)
    (c p : Ptr) (dc raw : proc_struct) (umc : Bool) (cs : Option Nat)
    (hr : Reachable s) (hfresh : FreshProc s env.kmalloc)
    (hcur : s.current = some c) (hc : s.procs c = some dc) (hmm : dc.mm = none)
    (hk : env.kmalloc = some (p, raw))
    (hfork : do_fork f1 s env cf stack tf = .ok (pid, s1)) (hpid : 0 < pid)
    (hrun : schedule s1 p = .ok s2)
    (hexit : do_exit f2 s2 code = .ok s3)
    (hback : schedule s3 c = .ok s4)
    (hwait : do_wait f3 s4 umc wpid cs = .ok (.returned 0, s5))
    (hreaped : s5.procs p = none) :
    nr_free_pages free0 s1 = nr_free_pages free0 s - KSTACKPAGE ∧
    kallocated used0 size s1 = kallocated used0 size s + size ∧
    nr_free_pages free0 s5 = nr_free_pages free0 s ∧
    kallocated used0 size s5 = kallocated used0 size s ∧
    ∃ k l, env.kstack = some k ∧ (∀ x ∈ l, x.quiet = true) ∧
      s5.log = Call.kfree p :: Call.free_pages (some k) KSTACKPAGE ::
        (l ++ Call.alloc_pages KSTACKPAGE (some k) :: Call.kmalloc (some p) :: s.log) := by
  have hi := reachable_inv hr
  obtain ⟨p', raw', k, ch, l1, hk', hks, hp0, hch, c1, c2, c3, c4, c5, hcur1, ⟨d1, hd1, hr1⟩,
    hq1, hlog1⟩ := do_fork_kthread hi hfresh hcur hc hmm hfork hpid
  rw [hk] at hk'
  cases hk'
  have hcp : c ≠ p := by
    rintro rfl
    rw [hp0] at hc
    cases hc
  have hi1 : Inv s1 := do_fork_inv hi hfresh hfork
  -- the switch to the child
  obtain ⟨t2, ht2, hcur2, -, -, -, hidle2, hinit2, -, hx2⟩ := schedule_of hcur1 hd1 hch
  rw [hrun] at ht2
  cases ht2
  have hi2 : Inv s2 := schedule_inv hi1.struct hi1.sched ⟨ch, hch, c4⟩ hrun
  obtain ⟨ch2, hch2, -, -, -, -, -, -, -, m2, -, -, k2⟩ := hx2 p ch hch
  obtain ⟨d2, hd2, -, -, -, -, -, st2, -, -, -, -, -⟩ := hx2 c d1 hd1
  have hqa : Quiet s1 s2 := quiet_schedule hrun
  -- the child's `do_exit`
  have hni : s2.current ≠ s2.idleproc := by
    intro e
    obtain ⟨er, he⟩ := do_exit_panics f2 code (Or.inl e)
    rw [he] at hexit
    cases hexit
  have hnn : s2.current ≠ s2.initproc := by
    intro e
    obtain ⟨er, he⟩ := do_exit_panics f2 code (Or.inr e)
    rw [he] at hexit
    cases hexit
  have hqb : Quiet s2 s3 := quiet_do_exit hcur2 hch2 (m2.trans c3) hexit
  obtain ⟨⟨i, -, -, hA⟩, -⟩ := do_exit_spec f2 code hi2 hcur2 hch2 hni hnn
  obtain ⟨r1, r2, -, -, -, -, -, hcur3, ⟨ch3, hch3, -⟩, hx3, -, -⟩ := hA s3 hexit
  obtain ⟨d3, hd3, -, -, -, hst3⟩ := hx3 c d2 hd2
  have hrun3 : d3.state = .PROC_RUNNABLE := by
    rcases (hst3 hcp).2.2 with h | h
    · rw [h, st2]
      exact hr1
    · exact h
  -- the switch back to the parent
  have hi4 : Inv s4 := schedule_inv r1 r2 ⟨d3, hd3, hrun3⟩ hback
  have hqc : Quiet s3 s4 := quiet_schedule hback
  have hq14 : Quiet s1 s4 := (hqa.after hqb).after hqc
  obtain ⟨ch4, hch4, k4, -⟩ := quiet_entry hq14 hch
  obtain ⟨⟨l2, hlog4, hq2⟩, -⟩ := hq14
  -- the parent's `do_wait`
  obtain ⟨z, dz, hz, -, -, -, hlog5, hkeep⟩ := do_wait_reap_log hi4 hwait
  have hzp : p = z := by
    by_contra hne
    have := hkeep p ch4 hne hch4
    rw [hreaped] at this
    cases this
  subst hzp
  rw [hch4] at hz
  cases hz
  have hlog : s5.log = Call.kfree p :: Call.free_pages (some k) KSTACKPAGE ::
      ((l2 ++ l1) ++ Call.alloc_pages KSTACKPAGE (some k) :: Call.kmalloc (some p) :: s.log) := by
    rw [hlog5, hlog4, hlog1, k4, c2, List.append_assoc]
  have hq12 : ∀ x ∈ l2 ++ l1, x.quiet = true := by
    intro x hx
    rcases List.mem_append.mp hx with h | h
    · exact hq2 x h
    · exact hq1 x h
  refine ⟨?_, ?_, ?_, ?_, k, l2 ++ l1, hks, hq12, hlog⟩
  · unfold nr_free_pages
    rw [hlog1, pages_taken_quiet _ _ hq1]
    simp only [pages_taken]
    omega
  · unfold kallocated
    rw [hlog1, blocks_taken_quiet _ _ hq1]
    simp only [blocks_taken]
    ring
  · unfold nr_free_pages
    rw [hlog]
    simp only [pages_taken]
    rw [pages_taken_quiet _ _ hq12]
    simp only [pages_taken]
    omega
  · unfold kallocated
    rw [hlog]
    simp only [blocks_taken]
    rw [blocks_taken_quiet _ _ hq12]
    simp only [blocks_taken]
    ring

theorem fork_exit_wait_no_leak_witness :
    nr_free_pages 1000 forked = nr_free_pages 1000 booted - KSTACKPAGE ∧
    kallocated 0 200 forked = kallocated 0 200 booted + 200 ∧
    nr_free_pages 1000 child_reaped = nr_free_pages 1000 booted ∧
    kallocated 0 200 child_reaped = kallocated 0 200 booted := by
  have hok1 : (match do_fork 20000 booted fork_env CLONE_VM 0 trapframe.zero with
      | .ok (r, _) => decide (0 < r)
      | .error _ => false) = true := by decide
  have hok2 : (match schedule forked 300 with
      | .ok _ => true
      | .error _ => false) = true := by decide
  have hok3 : (match do_exit 20000 child_running 42 with
      | .ok t =>
        (match schedule t 100 with
         | .ok _ => true
         | .error _ => false)
      | .error _ => false) = true := by decide
  have hok5 : (match do_wait 20000 child_exited true 0 (some 7) with
      | .ok (.returned 0, t) => (t.procs 300).isNone
      | _ => false) = true := by decide
  obtain ⟨hr, hcur, -, -, -, -, ⟨di, hdi, -, hdm, -⟩, -, hx⟩ := booted_spec
  cases hx1 : do_fork 20000 booted fork_env CLONE_VM 0 trapframe.zero with
  | error e =>
    rw [hx1] at hok1
    cases hok1
  | ok x1 =>
    obtain ⟨pid, t1⟩ := x1
    rw [hx1] at hok1
    have hpid : 0 < pid := by simpa using hok1
    have e1 : forked = t1 := by
      unfold forked
      rw [hx1]
    rw [← e1] at hx1
    cases hx2 : schedule forked 300 with
    | error e =>
      rw [hx2] at hok2
      cases hok2
    | ok t2 =>
      have e2 : child_running = t2 := by
        unfold child_running
        rw [hx2]
      rw [← e2] at hx2
      cases hx3 : do_exit 20000 child_running 42 with
      | error e =>
        rw [hx3] at hok3
        cases hok3
      | ok t3 =>
        rw [hx3] at hok3
        dsimp only at hok3
        cases hx4 : schedule t3 100 with
        | error e =>
          rw [hx4] at hok3
          cases hok3
        | ok t4 =>
          have e4 : child_exited = t4 := by
            unfold child_exited
            rw [hx3]
            simp only
            rw [hx4]
          rw [← e4] at hx4
          cases hx5 : do_wait 20000 child_exited true 0 (some 7) with
          | error e =>
            rw [hx5] at hok5
            cases hok5
          | ok x5 =>
            obtain ⟨res, t5⟩ := x5
            have e5 : child_reaped = t5 := by
              unfold child_reaped
              rw [hx5]
            rw [hx5] at hok5
            have hres : res = .returned 0 ∧ t5.procs 300 = none := by
              revert hok5
              split
              · rename_i heq
                intro h
                cases heq
                exact ⟨rfl, by simpa using h⟩
              · intro h
                cases h
            obtain ⟨rfl, hgone⟩ := hres
            rw [← e5] at hx5 hgone
            obtain ⟨a1, a2, a3, a4, -⟩ := fork_exit_wait_no_leak 1000 0 200 booted forked
              child_running t3 child_exited child_reaped fork_env 20000 20000 20000 CLONE_VM 0
              trapframe.zero pid 42 0 100 300 di raw_block true (some 7) hr
              (fun q raw hq => by
                cases hq
                exact hx 300 (by decide) (by decide))
              hcur hdi hdm rfl hx1 hpid hx2 hx3 hx4 hx5 hgone
            exact ⟨a1, a2, a3, a4⟩

end Ucore

namespace Ucore

/-- The code of `do_execve` from its call of `load_icode` on, when the name check passes. -/
theorem do_execve_unfold {s : State} {c : Ptr} {dc : proc_struct} (fuel : Nat) (env : ExecEnv)
    (name : List Nat) (len : Nat) (img : binary) (hcur : s.current = some c)
    (hc : s.procs c = some dc) :
    do_execve fuel s env true name len img =
      (load_icode fuel (execve_released s c dc) env img >>= fun x =>
        if x.1 ≠ 0 then do_exit fuel x.2 x.1 >>= fun t => Except.ok (ExecResult.exited, t)
        else set_proc_name x.2 c
          (name.take (if len > PROC_NAME_LEN then PROC_NAME_LEN else len)) >>= fun t =>
            Except.ok (ExecResult.returned 0, t)) := by
  unfold do_execve execve_released
  simp only [hcur, ok_bind, State.deref, hc]
  rw [if_neg (by simp)]
  cases hmm : dc.mm with
  | none =>
    simp only [ok_bind]
  | some m =>
    have hcR : (release_mm s m).procs c = some dc := by
      rw [(mmOnly_release_mm s m).procs]
      exact hc
    simp only [modify_of hcR, ok_bind]

/-- The state in which `do_execve` calls `load_icode` satisfies the invariant. -/
theorem execve_released_inv {s : State} {c : Ptr} {dc : proc_struct} (hi : Inv s)
    (hcur : s.current = some c) (hc : s.procs c = some dc) :
    Inv (execve_released s c dc) ∧ (execve_released s c dc).current = some c ∧
      (execve_released s c dc).idleproc = s.idleproc ∧
      (execve_released s c dc).initproc = s.initproc ∧
      (execve_released s c dc).proc_list = s.proc_list ∧
      (execve_released s c dc).procs c = some { dc with mm := none } := by
  obtain ⟨c0, dc0, hcur0, hc0, hrun⟩ := hi.cur
  rw [hcur] at hcur0
  cases hcur0
  rw [hc] at hc0
  cases hc0
  unfold execve_released
  cases hmm : dc.mm with
  | none =>
    refine ⟨hi, hcur, rfl, rfl, rfl, ?_⟩
    rw [hc]
    congr 1
    cases dc
    simp only at hmm
    subst hmm
    rfl
  | some m =>
    have hR := mmOnly_release_mm s m
    have hi1 : Inv ((release_mm s m).store c { dc with mm := none }) := by
      refine frame_inv hi.struct hi.sched hR.proc_list hR.hash_list hR.nr_process hR.last_pid
        hR.next_safe hR.idleproc hR.initproc ?_
        ⟨c, { dc with mm := none }, hR.current.trans hcur, store_procs_same _ _ _, hrun⟩
      intro x
      by_cases hxc : x = c
      · subst hxc
        exact Or.inr ⟨dc, { dc with mm := none }, hc, store_procs_same _ _ _, rfl, rfl, rfl,
          rfl, rfl, Or.inl ⟨rfl, rfl⟩⟩
      · exact Or.inl (by rw [store_procs_ne _ _ hxc, hR.procs])
    exact ⟨hi1, hR.current.trans hcur, hR.idleproc, hR.initproc, hR.proc_list,
      store_procs_same _ _ _⟩

/-- A failing `load_icode` leaves the task tables as they were. -/
theorem load_icode_fail_inv {fuel : Nat} {s1 s2 : State} {env : ExecEnv} {img : binary}
    {r : Int} {c : Ptr} {d1 : proc_struct} (hi1 : Inv s1) (hcur1 : s1.current = some c)
    (hc1 : s1.procs c = some d1) (h : load_icode fuel s1 env img = .ok (r, s2)) (hr : r ≠ 0) :
    Inv s2 ∧ s2.procs = s1.procs ∧ s2.current = s1.current ∧ s2.idleproc = s1.idleproc ∧
      s2.initproc = s1.initproc ∧ s2.proc_list = s1.proc_list := by
  obtain ⟨c0, dc0, hcur0, hc0, hrun⟩ := hi1.cur
  rw [hcur1] at hcur0
  cases hcur0
  rw [hc1] at hc0
  cases hc0
  obtain ⟨e1, e2, e3, e4, e5, e6, e7, e8, e9⟩ := load_icode_frame hcur1 hc1 h
  rcases e9 with ⟨-, hp, -⟩ | ⟨h0, -⟩
  · exact ⟨frame_inv hi1.struct hi1.sched e1 e2 e3 e4 e5 e6 e7 (fun x => Or.inl (by rw [hp]))
      ⟨c, d1, e8.trans hcur1, by rw [hp]; exact hc1, hrun⟩, hp, e8, e6, e7, e1⟩
  · exact absurd h0 hr

/-- The image with a wrong magic number is turned down by `load_icode` with `-E_INVAL_ELF`,
when the address-space descriptor and the page directory could be allocated. -/
theorem load_icode_bad_magic {fuel : Nat} {s : State} {env : ExecEnv} {img : binary} {c : Ptr}
    {d : proc_struct} {m pg : Nat} (hcur : s.current = some c) (hc : s.procs c = some d)
    (hmm : d.mm = none) (hm : env.mm_create = some m) (hpg : env.alloc_page = some pg)
    (hmagic : img.e_magic ≠ ELF_MAGIC) :
    ∃ t, load_icode fuel s env img = .ok (-E_INVAL_ELF, t) := by
  unfold load_icode
  simp [hcur, State.deref, hc, hmm, hm, hpg, mm_create, setup_pgdir, hmagic]

end Ucore

namespace Ucore

/-- The parent's `do_wait(pid, code_store)` for a zombie child with that pid: it returns 0,
stores the child's exit code and frees the child. -/
theorem do_wait_pid_zombie {t : State} {q z : Ptr} {dz : proc_struct} (hi : Inv t)
    (hcur : t.current = some q) (hz : t.procs z = some dz) (hzs : dz.state = .PROC_ZOMBIE)
    (hzp : dz.parent = some q) (f a : Nat) :
    ∃ t', do_wait f t true dz.pid (some a) = .ok (.returned 0, t') ∧
      t'.intmem a = dz.exit_code ∧ t'.procs z = none := by
  have hzl : z ∈ t.proc_list := by
    rcases (hi.struct.valid z).mp (by rw [hz]; rfl) with h | h
    · exact h
    · exact absurd hzs (hi.sched.idle z dz h hz)
  have hzi : some z ≠ t.initproc := by
    obtain ⟨n, dn, a, b, e, f, g⟩ := hi.sched.init
    rw [a]
    rintro hzn
    cases hzn
    rw [hz] at e
    cases e
    exact f hzs
  have hp : dz.pid ≠ 0 := by
    have := (hi.struct.pid_range z hzl dz hz).1
    omega
  have hfind : find_proc t dz.pid = .ok (some z) := find_proc_struct hi.struct hzl hz
  obtain ⟨t', hf, -, -, -, -, -, -, -, -, e8, -, e10, -⟩ :=
    do_wait_found_of hi.struct (some a) hzl hz hzp hzi
  refine ⟨t', ?_, ?_, e10⟩
  · unfold do_wait
    rw [if_neg (by simp)]
    simp [hcur, hp, hfind, State.deref, hz, hzp, hzs]
    exact hf
  · rw [e8]
    simp

/-- Claim C21.  `do_execve` is entered only through the system call `SYS_exec`, made by
`user_main`, a thread that `init_main` forks, and by user processes: neither `idleproc`,
whose code is `cpu_idle`, nor `initproc`, whose code is `init_main`, calls it, so the caller
is a task other than these two.  For every such call
`do_execve(name, len, binary, size)` in a reachable state that passes the name check and in
which `load_icode` returns a non-zero code `r`: `do_execve` does not return to its caller, it
calls `do_exit(r)`, so the caller is ZOMBIE with `exit_code == r` and `mm == NULL`, and once
its parent runs, the parent's `do_wait` for it returns 0 and stores `r` as the exit code.  An
image whose magic is 0xDEADBEEF is such a case, with `r == -E_INVAL_ELF`, when the
address-space descriptor and the page directory can be allocated. -/
theorem do_execve_failure (s : State) (fuel : Nat) (env : ExecEnv) (name : List Nat)
    (len : Nat) (img : binary) (c : Ptr) (dc : proc_struct) (hr : Reachable s)
    (hcur : s.current = some c) (hc : s.procs c = some dc)
    (hni : s.current ≠ s.idleproc) (hnn : s.current ≠ s.initproc)
    (hfuel : s.proc_list.length < fuel) :
    (∀ r s2, load_icode fuel (execve_released s c dc) env img = .ok (r, s2) → r ≠ 0 →
      ∃ s3 dz q, do_execve fuel s env true name len img = .ok (.exited, s3) ∧
        do_exit fuel s2 r = .ok s3 ∧
        s3.procs c = some dz ∧ dz.state = .PROC_ZOMBIE ∧ dz.exit_code = r ∧ dz.mm = none ∧
        dz.parent = some q ∧
        ∀ t a f, Runnable s3 q → schedule s3 q = .ok t →
          ∃ t', do_wait f t true dz.pid (some a) = .ok (.returned 0, t') ∧
            t'.intmem a = r ∧ t'.procs c = none) ∧
    (∀ m pg, env.mm_create = some m → env.alloc_page = some pg → img.e_magic = 0xDEADBEEF →
      ∃ t, load_icode fuel (execve_released s c dc) env img = .ok (-E_INVAL_ELF, t)) := by
  have hi := reachable_inv hr
  obtain ⟨hi1, hcur1, hidle1, hinit1, hl1, hc1⟩ := execve_released_inv hi hcur hc
  refine ⟨?_, ?_⟩
  · intro r s2 hload hr0
    obtain ⟨hi2, hp2, hcur2, hidle2, hinit2, hl2⟩ :=
      load_icode_fail_inv hi1 hcur1 hc1 hload hr0
    have hcur2 : s2.current = some c := hcur2.trans hcur1
    have hc2 : s2.procs c = some { dc with mm := none } := by rw [hp2]; exact hc1
    have hni2 : s2.current ≠ s2.idleproc := by
      rw [hcur2, hidle2, hidle1, ← hcur]
      exact hni
    have hnn2 : s2.current ≠ s2.initproc := by
      rw [hcur2, hinit2, hinit1, ← hcur]
      exact hnn
    obtain ⟨⟨i, -, -, hA⟩, hB⟩ := do_exit_spec fuel r hi2 hcur2 hc2 hni2 hnn2
    obtain ⟨s3, h3⟩ := hB (by rw [hl2, hl1]; exact hfuel)
    obtain ⟨r1, r2, -, -, -, -, -, hcur3, ⟨dz, hdz, z1, z2, z3, -, z5, z6⟩, hx3, -, -⟩ :=
      hA s3 h3
    have hcl : c ∈ s.proc_list := by
      rcases (hi.struct.valid c).mp (by rw [hc]; rfl) with h | h
      · exact h
      · rw [hcur] at hni
        exact absurd h.symm hni
    obtain ⟨q, hpar, -⟩ := hi.struct.parent c hcl dc hc
    refine ⟨s3, dz, q, ?_, h3, hdz, z1, z2, z3, z6.trans hpar, ?_⟩
    · rw [do_execve_unfold fuel env name len img hcur hc, hload]
      simp only [ok_bind, ne_eq, hr0, not_false_eq_true, if_true, h3]
    · intro t a f hq hsched
      obtain ⟨dq, hdq, hqr⟩ := hq
      obtain ⟨t0, ht0, hcurt, -, -, -, -, -, -, hxt⟩ :=
        schedule_of (hcur3.trans hcur2) hdz hdq
      rw [hsched] at ht0
      cases ht0
      have hit : Inv t := schedule_inv r1 r2 ⟨dq, hdq, hqr⟩ hsched
      obtain ⟨dz', hdz', e1, e2, -, -, -, e6, -, -, e9, -⟩ := hxt c dz hdz
      obtain ⟨t', w1, w2, w3⟩ := do_wait_pid_zombie hit hcurt hdz' (e6.trans z1)
        (e2.trans (z6.trans hpar)) f a
      rw [e1] at w1
      exact ⟨t', w1, by rw [w2, e9, z2], w3⟩
  · intro m pg hm hpg hmagic
    exact load_icode_bad_magic hcur1 hc1 rfl hm hpg (by rw [hmagic]; decide)

theorem do_execve_failure_witness :
    ∃ s3 dz q, do_execve 2000000 child_running exec_env true [115, 104] 2 deadbeef_image =
        .ok (.exited, s3) ∧
      s3.procs 300 = some dz ∧ dz.state = .PROC_ZOMBIE ∧ dz.exit_code = -E_INVAL_ELF ∧
      dz.mm = none ∧ dz.parent = some q ∧
      ∀ t a f, Runnable s3 q → schedule s3 q = .ok t →
        ∃ t', do_wait f t true dz.pid (some a) = .ok (.returned 0, t') ∧
          t'.intmem a = -E_INVAL_ELF ∧ t'.procs 300 = none := by
  obtain ⟨hr, hcur, hidle, hinit, -, ⟨ch, hch, -⟩, -⟩ := child_running_spec
  have hlen : child_running.proc_list.length < 2000000 := by
    have := (reachable_inv hr).struct.count
    simp only [MAX_PROCESS] at this
    omega
  have hth := do_execve_failure child_running 2000000 exec_env [115, 104] 2 deadbeef_image
    300 ch hr hcur hch (by rw [hcur, hidle]; decide) (by rw [hcur, hinit]; decide) hlen
  obtain ⟨t, ht⟩ := hth.2 1 0xC0400000 rfl rfl rfl
  obtain ⟨s3, dz, q, a1, -, a3, a4, a5, a6, a7, a8⟩ := hth.1 _ t ht (by decide)
  exact ⟨s3, dz, q, a1, a3, a4, a5, a6, a7, a8⟩

/-- The machine `init_running` is reachable, and `initproc`, at 200, is running in it. -/
theorem init_running_spec :
    Reachable init_running ∧ init_running.current = some 200 ∧
      init_running.initproc = some 200 := by
  obtain ⟨hr, hcur, -, hinit, -, -, ⟨di, hdi, -⟩, ⟨dq, hdq, -, -, -, hrun, -⟩, -⟩ := booted_spec
  obtain ⟨s', h, hcur', -, -, -, -, hinit', -⟩ := schedule_of hcur hdi hdq
  have e : init_running = s' := by
    unfold init_running
    rw [h]
  rw [e]
  exact ⟨Reachable.resched booted s' 200 hr ⟨dq, hdq, hrun⟩ h, hcur', hinit'.trans hinit⟩

end Ucore

namespace Ucore

/-- A task whose descriptor shows the state RUNNABLE. -/
theorem runnable_of_map {s : State} {p : Ptr}
    (h : (s.procs p).map (fun d => d.state) = some .PROC_RUNNABLE) : Runnable s p := by
  cases hp : s.procs p with
  | none =>
    rw [hp] at h
    cases h
  | some d =>
    rw [hp] at h
    simp only [Option.map_some', Option.some.injEq] at h
    exact ⟨d, hp, h⟩

/-- A `do_wait` that goes to sleep, followed by a switch to a RUNNABLE task. -/
theorem wait_sleep_run {s : State} (hr : Reachable s) (f : Nat) (umc : Bool) (pid : Int)
    (cs : Option Nat) (next : Ptr)
    (hok : (match do_wait f s umc pid cs with
      | .ok (.sleeping, t) =>
        (match schedule t next with
         | .ok _ => decide ((t.procs next).map (fun d => d.state) = some .PROC_RUNNABLE)
         | .error _ => false)
      | _ => false) = true) :
    ∃ t u, do_wait f s umc pid cs = .ok (.sleeping, t) ∧ schedule t next = .ok u ∧
      Reachable u := by
  cases hx : do_wait f s umc pid cs with
  | error e =>
    rw [hx] at hok
    cases hok
  | ok x =>
    obtain ⟨res, t⟩ := x
    rw [hx] at hok
    cases res with
    | returned r => cases hok
    | sleeping =>
      dsimp only at hok
      cases hy : schedule t next with
      | error e =>
        rw [hy] at hok
        cases hok
      | ok u =>
        rw [hy] at hok
        have hrun : Runnable t next := runnable_of_map (by simpa using hok)
        exact ⟨t, u, rfl, hy, Reachable.wait_sleep f s t u umc pid cs next hr hx hrun hy⟩

/-- The machine `init_forked` is reachable. -/
theorem init_forked_reach : Reachable init_forked := by
  have hok : (match do_fork 20000 init_running fork_env CLONE_VM 0 trapframe.zero with
      | .ok _ => (init_running.procs 300).isNone
      | .error _ => false) = true := by decide
  cases hx : do_fork 20000 init_running fork_env CLONE_VM 0 trapframe.zero with
  | error e =>
    rw [hx] at hok
    cases hok
  | ok x =>
    obtain ⟨r, t⟩ := x
    rw [hx] at hok
    have e : init_forked = t := by
      unfold init_forked
      rw [hx]
    rw [e]
    refine Reachable.fork 20000 init_running t fork_env CLONE_VM 0 trapframe.zero r
      init_running_spec.1 ?_ ?_ hx
    · intro p raw hp
      cases hp
      simpa using hok
    · intro m hm
      cases hm

/-- The machine `init_waiting` is reachable. -/
theorem init_waiting_reach : Reachable init_waiting := by
  obtain ⟨t, u, h1, h2, hr⟩ := wait_sleep_run init_forked_reach 20000 true 0 none 300
    (by decide)
  have e1 : init_asleep = t := by
    unfold init_asleep
    rw [h1]
  have e2 : init_waiting = u := by
    unfold init_waiting
    rw [e1, h2]
  rw [e2]
  exact hr

/-- The machine `idle_waiting` is reachable. -/
theorem idle_waiting_reach : Reachable idle_waiting := by
  obtain ⟨t, u, h1, h2, hr⟩ := wait_sleep_run booted_spec.1 20000 true 0 none 200 (by decide)
  have e1 : idle_asleep = t := by
    unfold idle_asleep
    rw [h1]
  have e2 : idle_waiting = u := by
    unfold idle_waiting
    rw [e1, h2]
  rw [e2]
  exact hr

/-- The machine `child_waiting` is reachable. -/
theorem child_waiting_reach : Reachable child_waiting := by
  obtain ⟨t, u, h1, h2, hr⟩ := wait_sleep_run grand_forked_spec.1 20000 true 0 none 400
    (by decide)
  have e1 : child_asleep = t := by
    unfold child_asleep
    rw [h1]
  have e2 : child_waiting = u := by
    unfold child_waiting
    rw [e1, h2]
  rw [e2]
  exact hr

/-- The machine `self_killed` is reachable. -/
theorem self_killed_reach : Reachable self_killed := by
  cases hx : do_kill grand_forked 2 with
  | error e =>
    have hok : (match do_kill grand_forked 2 with
        | .ok _ => true
        | .error _ => false) = true := by decide
    rw [hx] at hok
    cases hok
  | ok x =>
    obtain ⟨r, t⟩ := x
    have e : self_killed = t := by
      unfold self_killed
      rw [hx]
    rw [e]
    exact Reachable.kill grand_forked t 2 r grand_forked_spec.1 hx

/-- The machine `flagged_waiting` is reachable. -/
theorem flagged_waiting_reach : Reachable flagged_waiting := by
  obtain ⟨t, u, h1, h2, hr⟩ := wait_sleep_run self_killed_reach 20000 true 0 none 400
    (by decide)
  have e1 : flagged_asleep = t := by
    unfold flagged_asleep
    rw [h1]
  have e2 : flagged_waiting = u := by
    unfold flagged_waiting
    rw [e1, h2]
  rw [e2]
  exact hr

end Ucore

namespace Ucore

/-- Claim C23, amended.  Kill breaks an interruptible wait.  Let task A, other than
`idleproc` and `initproc`, be SLEEPING inside `do_wait` with `wait_state == WT_CHILD`, in a
reachable state, with `PF_EXITING` not yet set.  Then `do_kill(A.pid)` returns 0, sets
`PF_EXITING` and wakes A; when the scheduler then runs A, the code of `do_wait` after
`schedule()` observes `PF_EXITING` and calls `do_exit(-E_KILLED)`, so A is ZOMBIE with
`exit_code == -E_KILLED` and every child B of A has `initproc` as its parent.  A task that
comes back from `schedule()` without `PF_EXITING` restarts the scan of `do_wait` instead. -/
theorem kill_breaks_wait (s : State) (a : Ptr) (da : proc_struct) (hr : Reachable s)
    (ha : s.procs a = some da) (hsl : da.state = .PROC_SLEEPING)
    (hws : da.wait_state = WT_CHILD) (hni : s.idleproc ≠ some a) (hnn : s.initproc ≠ some a)
    (hfl : da.flags &&& PF_EXITING = 0) :
    (∃ s1 da1, do_kill s da.pid = .ok (0, s1) ∧ s1.procs a = some da1 ∧
      da1.state = .PROC_RUNNABLE ∧ da1.wait_state = 0 ∧ da1.flags &&& PF_EXITING ≠ 0 ∧
      ∀ s2 fuel pid cs, schedule s1 a = .ok s2 → s2.proc_list.length < fuel →
        ∃ s3 dz i, do_wait_resume fuel s2 pid cs = .ok (.exited, s3) ∧
          do_exit fuel s2 (-E_KILLED) = .ok s3 ∧
          s3.procs a = some dz ∧ dz.state = .PROC_ZOMBIE ∧ dz.exit_code = -E_KILLED ∧
          s3.initproc = some i ∧
          ∀ b db, s.procs b = some db → db.parent = some a →
            ∃ db', s3.procs b = some db' ∧ db'.parent = some i) ∧
    (∀ t fuel pid cs c d r t', t.current = some c → t.procs c = some d →
      d.flags &&& PF_EXITING = 0 → do_wait fuel t true pid cs = .ok (r, t') →
      do_wait_resume fuel t pid cs = .ok (.again r, t')) := by
  have hi := reachable_inv hr
  refine ⟨?_, ?_⟩
  · have hal : a ∈ s.proc_list := by
      rcases (hi.struct.valid a).mp (by rw [ha]; rfl) with h | h
      · exact h
      · exact absurd h hni
    have hfind : find_proc s da.pid = .ok (some a) := find_proc_struct hi.struct hal ha
    obtain ⟨d, hd, -, -, hk2⟩ := (do_kill_effect_aux s da.pid).1 a hfind
    rw [ha] at hd
    cases hd
    obtain ⟨hbit, -, hwake⟩ := hk2 hfl
    obtain ⟨s1, hwk, hkill, -⟩ := hwake (by rw [hws]; decide)
    have h1 := wakeup_proc_of (store_procs_same s a { da with flags := da.flags ||| PF_EXITING })
    rw [if_pos (Or.inl hsl)] at h1
    have hs1 := Except.ok.inj (hwk.symm.trans h1)
    have hi1 := do_kill_inv hi hkill
    obtain ⟨c0, dc0, hcur0, hc0, hrun0⟩ := hi.cur
    have hca : c0 ≠ a := by
      rintro rfl
      rw [ha] at hc0
      cases hc0
      rw [hsl] at hrun0
      cases hrun0
    have ha1 : ∃ da1, s1.procs a = some da1 ∧ da1.state = .PROC_RUNNABLE ∧
        da1.wait_state = 0 ∧ da1.flags = da.flags ||| PF_EXITING := by
      rw [hs1]
      refine ⟨_, store_procs_same _ _ _, rfl, rfl, rfl⟩
    have hcur1 : s1.current = some c0 := by
      rw [hs1]
      exact hcur0
    have hc1 : s1.procs c0 = some dc0 := by
      rw [hs1]
      simp [State.call, State.store, Function.update_noteq hca, hc0]
    have hidle1 : s1.idleproc = s.idleproc := by rw [hs1]; rfl
    have hinit1 : s1.initproc = s.initproc := by rw [hs1]; rfl
    have hothers : ∀ b, b ≠ a → s1.procs b = s.procs b := by
      intro b hb
      rw [hs1]
      simp [State.call, State.store, Function.update_noteq hb]
    obtain ⟨da1, ha1, st1, ws1, fl1⟩ := ha1
    refine ⟨s1, da1, hkill, ha1, st1, ws1, by rw [fl1]; exact hbit, ?_⟩
    intro s2 fuel pid cs hsched hfuel
    obtain ⟨t2, ht2, hcur2, -, -, -, hidle2, hinit2, -, hx2⟩ := schedule_of hcur1 hc1 ha1
    rw [hsched] at ht2
    cases ht2
    have hi2 : Inv s2 := schedule_inv hi1.struct hi1.sched ⟨_, ha1, st1⟩ hsched
    obtain ⟨da2, hda2, -, -, -, -, -, -, -, -, -, fl2, -⟩ := hx2 a _ ha1
    have hni2 : s2.current ≠ s2.idleproc := by
      rw [hcur2, hidle2, hidle1]
      exact fun h => hni h.symm
    have hnn2 : s2.current ≠ s2.initproc := by
      rw [hcur2, hinit2, hinit1]
      exact fun h => hnn h.symm
    obtain ⟨⟨i, hini, -, hA⟩, hB⟩ := do_exit_spec fuel (-E_KILLED) hi2 hcur2 hda2 hni2 hnn2
    obtain ⟨s3, h3⟩ := hB hfuel
    obtain ⟨-, -, -, -, -, -, hinit3, -, ⟨dz, hdz, z1, z2, -⟩, hx3, -, -⟩ := hA s3 h3
    refine ⟨s3, dz, i, ?_, h3, hdz, z1, z2, hinit3.trans hini, ?_⟩
    · unfold do_wait_resume
      simp only [hcur2, ok_bind, State.deref, hda2]
      rw [if_pos (by rw [fl2, fl1]; exact hbit), h3]
      rfl
    · intro b db hb hpar
      have hba : b ≠ a := by
        rintro rfl
        exact hi.struct.noself _ _ hb hpar
      have hb1 : s1.procs b = some db := by rw [hothers b hba]; exact hb
      obtain ⟨db2, hdb2, -, p2, -⟩ := hx2 b db hb1
      obtain ⟨db3, hdb3, -, p3, -⟩ := hx3 b db2 hdb2
      refine ⟨db3, hdb3, ?_⟩
      rw [p3, p2, hpar, if_pos rfl]
  · intro t fuel pid cs c d r t' hcur hc hflag hw
    unfold do_wait_resume
    simp only [hcur, ok_bind, State.deref, hc]
    rw [if_neg (by simp [hflag]), hw]
    rfl

theorem kill_breaks_wait_witness :
    ∃ s1 da1, do_kill child_waiting 2 = .ok (0, s1) ∧ s1.procs 300 = some da1 ∧
      da1.state = .PROC_RUNNABLE ∧ da1.wait_state = 0 ∧ da1.flags &&& PF_EXITING ≠ 0 ∧
      ∀ s2 fuel pid cs, schedule s1 300 = .ok s2 → s2.proc_list.length < fuel →
        ∃ s3 dz i, do_wait_resume fuel s2 pid cs = .ok (.exited, s3) ∧
          do_exit fuel s2 (-E_KILLED) = .ok s3 ∧
          s3.procs 300 = some dz ∧ dz.state = .PROC_ZOMBIE ∧ dz.exit_code = -E_KILLED ∧
          s3.initproc = some i ∧
          ∀ b db, child_waiting.procs b = some db → db.parent = some 300 →
            ∃ db', s3.procs b = some db' ∧ db'.parent = some i := by
  have hmap : (child_waiting.procs 300).map
      (fun d => (d.state, d.wait_state, d.pid, d.flags)) =
      some (.PROC_SLEEPING, WT_CHILD, 2, 0) := by decide
  cases hp : child_waiting.procs 300 with
  | none =>
    rw [hp] at hmap
    cases hmap
  | some da =>
    rw [hp] at hmap
    simp only [Option.map_some', Option.some.injEq, Prod.mk.injEq] at hmap
    obtain ⟨h1, h2, h3, h4⟩ := hmap
    have hth := (kill_breaks_wait child_waiting 300 da child_waiting_reach hp h1 h2
      (by decide) (by decide) (by rw [h4]; decide)).1
    rw [h3] at hth
    exact hth

/-- Counterexamples to claim C23 as stated, in three reachable machines in which a task A
sleeps in `do_wait` with `wait_state == WT_CHILD` and a live child B.  If A is `initproc`,
`do_kill` wakes it and the code after `schedule()` calls `do_exit(-E_KILLED)`, which panics:
A does not become a zombie.  If A has `PF_EXITING` set already, `do_kill(A.pid)` returns
`-E_KILLED` and changes nothing: A is not woken.  If A is `idleproc`, whose pid is 0,
`do_kill(A.pid)` returns `-E_INVAL` and changes nothing. -/
theorem kill_does_not_break_wait :
    (Reachable init_waiting ∧ init_waiting.initproc = some 200 ∧
      (init_waiting.procs 200).map (fun d => (d.state, d.wait_state, d.pid)) =
        some (.PROC_SLEEPING, WT_CHILD, 1) ∧
      (init_waiting.procs 300).map (fun d => (d.parent, d.state)) =
        some (some 200, .PROC_RUNNABLE) ∧
      ∃ t u, do_kill init_waiting 1 = .ok (0, t) ∧ schedule t 200 = .ok u ∧
        do_wait_resume 20000 u 0 none = .error .panic_initproc_exit) ∧
    (Reachable flagged_waiting ∧
      (flagged_waiting.procs 300).map (fun d => (d.state, d.wait_state, d.pid)) =
        some (.PROC_SLEEPING, WT_CHILD, 2) ∧
      (flagged_waiting.procs 400).map (fun d => (d.parent, d.state)) =
        some (some 300, .PROC_RUNNABLE) ∧
      do_kill flagged_waiting 2 = .ok (-E_KILLED, flagged_waiting)) ∧
    (Reachable idle_waiting ∧ idle_waiting.idleproc = some 100 ∧
      (idle_waiting.procs 100).map (fun d => (d.state, d.wait_state, d.pid)) =
        some (.PROC_SLEEPING, WT_CHILD, 0) ∧
      (idle_waiting.procs 200).map (fun d => (d.parent, d.state)) =
        some (some 100, .PROC_RUNNABLE) ∧
      do_kill idle_waiting 0 = .ok (-E_INVAL, idle_waiting)) := by
  refine ⟨⟨init_waiting_reach, by decide, by decide, by decide, ?_⟩,
    ⟨flagged_waiting_reach, by decide, by decide, ?_⟩,
    ⟨idle_waiting_reach, by decide, by decide, by decide, ?_⟩⟩
  · have hok : (match do_kill init_waiting 1 with
        | .ok (r, t) =>
          decide (r = 0) &&
            (match schedule t 200 with
             | .ok u =>
               (match do_wait_resume 20000 u 0 none with
                | .error .panic_initproc_exit => true
                | _ => false)
             | .error _ => false)
        | .error _ => false) = true := by decide
    cases hx : do_kill init_waiting 1 with
    | error e =>
      rw [hx] at hok
      cases hok
    | ok x =>
      obtain ⟨r, t⟩ := x
      rw [hx] at hok
      simp only [Bool.and_eq_true, decide_eq_true_eq] at hok
      obtain ⟨hr0, hok⟩ := hok
      subst hr0
      cases hy : schedule t 200 with
      | error e =>
        rw [hy] at hok
        cases hok
      | ok u =>
        rw [hy] at hok
        dsimp only at hok
        refine ⟨t, u, rfl, hy, ?_⟩
        cases hz : do_wait_resume 20000 u 0 none with
        | ok y =>
          rw [hz] at hok
          cases hok
        | error e =>
          rw [hz] at hok
          cases e <;> first | rfl | cases hok
  · have hmap : (flagged_waiting.procs 300).map (fun d => (d.pid, d.flags)) = some (2, 1) := by
      decide
    have hl : (300 : Ptr) ∈ flagged_waiting.proc_list := by decide
    cases hp : flagged_waiting.procs 300 with
    | none =>
      rw [hp] at hmap
      cases hmap
    | some d =>
      rw [hp] at hmap
      simp only [Option.map_some', Option.some.injEq, Prod.mk.injEq] at hmap
      obtain ⟨h1, h2⟩ := hmap
      have hfind := find_proc_struct (reachable_inv flagged_waiting_reach).struct hl hp
      rw [h1] at hfind
      obtain ⟨d', hd', -, hk1, -⟩ := (do_kill_effect_aux flagged_waiting 2).1 300 hfind
      rw [hp] at hd'
      cases hd'
      exact hk1 (by rw [h2]; decide)
  · exact (do_kill_effect_aux idle_waiting 0).2 (by simp [find_proc])

end Ucore

namespace Ucore

/-! ## `copy_mm` -/

/-- Claim C31.  For every `clone_flags` and every descriptor `proc`: when `current->mm` is
NULL, `copy_mm` returns 0 and the machine is exactly as before (so `proc->mm` is still NULL,
`proc->cr3` is still what `alloc_proc` wrote, and nothing was created); when `current->mm`
is the address space `m` and `CLONE_VM` is set, `copy_mm` returns 0 with `proc->mm == m`,
which is `current->mm` afterwards too, the share count of `m` larger by exactly one,
`proc->cr3 == PADDR(m->pgdir)`, nothing else changed in the descriptors and address spaces,
and no call of `mm_create`, `setup_pgdir` or `dup_mmap`: the log of calls is as before. -/
theorem copy_mm_share (s : State) (env : MmEnv) (clone_flags : Nat) (p c : Ptr)
    (d dc : proc_struct) (hcur : s.current = some c) (hc : s.procs c = some dc)
    (hp : s.procs p = some d) :
    (dc.mm = none → copy_mm s env clone_flags p = .ok (0, s)) ∧
    (∀ m, dc.mm = some m → clone_flags &&& CLONE_VM ≠ 0 →
      ∃ s', copy_mm s env clone_flags p = .ok (0, s') ∧
        s'.procs p = some { d with mm := some m, cr3 := PADDR ((s.mms m).pgdir.getD 0) } ∧
        (∃ dc', s'.procs c = some dc' ∧ dc'.mm = some m) ∧
        (s'.mms m).mm_count = (s.mms m).mm_count + 1 ∧
        (s'.mms m).pgdir = (s.mms m).pgdir ∧
        (s'.mms m).mmap_list = (s.mms m).mmap_list ∧
        (∀ x, x ≠ p → s'.procs x = s.procs x) ∧
        (∀ m', m' ≠ m → s'.mms m' = s.mms m') ∧
        s'.pgtab = s.pgtab ∧ s'.log = s.log) := by
  refine ⟨?_, ?_⟩
  · intro hmm
    unfold copy_mm
    simp [State.derefp, State.deref, hcur, hc, hmm]
  · intro m hmm hcl
    unfold copy_mm copy_mm_good
    simp only [State.derefp, State.deref, hcur, hc, hmm, ok_bind, if_pos hcl]
    have h1 : (mm_count_inc s m).procs p = some d := hp
    simp only [State.modify, h1, ok_bind, State.store, Function.update_same]
    refine ⟨_, rfl, ?_, ?_, ?_, ?_, ?_, ?_, ?_, rfl, rfl⟩
    · simp [mm_count_inc, State.storemm]
    · by_cases hcp : c = p
      · subst hcp
        refine ⟨{ d with mm := some m, cr3 := PADDR ((s.mms m).pgdir.getD 0) }, ?_, rfl⟩
        simp [mm_count_inc, State.storemm]
      · exact ⟨dc, by simp [Function.update_noteq hcp, mm_count_inc, State.storemm, hc], hmm⟩
    · simp [mm_count_inc, State.storemm]
    · simp [mm_count_inc, State.storemm]
    · simp [mm_count_inc, State.storemm]
    · intro x hx
      simp [Function.update_noteq hx, mm_count_inc, State.storemm]
    · intro m' hm'
      simp [mm_count_inc, State.storemm, Function.update_noteq hm']

theorem copy_mm_share_witness :
    (∃ s', copy_mm fork_begun dup_fail_env CLONE_VM 400 = .ok (0, s') ∧
      (s'.mms 1).mm_count = (fork_begun.mms 1).mm_count + 1 ∧ s'.log = fork_begun.log) ∧
    copy_mm kfork_begun dup_fail_env 0 400 = .ok (0, kfork_begun) := by
  have a1 : fork_begun.current = some 300 := by decide
  have a2 : (fork_begun.procs 300).map (fun d => d.mm) = some (some 1) := by decide
  have a3 : (fork_begun.procs 400).isSome = true := by decide
  have b1 : kfork_begun.current = some 300 := by decide
  have b2 : (kfork_begun.procs 300).map (fun d => d.mm) = some none := by decide
  have b3 : (kfork_begun.procs 400).isSome = true := by decide
  obtain ⟨d, hd⟩ := Option.isSome_iff_exists.mp a3
  obtain ⟨e, he⟩ := Option.isSome_iff_exists.mp b3
  cases hc : fork_begun.procs 300 with
  | none => rw [hc] at a2; cases a2
  | some dc =>
    rw [hc] at a2
    cases hk : kfork_begun.procs 300 with
    | none => rw [hk] at b2; cases b2
    | some dk =>
      rw [hk] at b2
      obtain ⟨s', h1, -, -, h2, -, -, -, -, -, h3⟩ :=
        (copy_mm_share fork_begun dup_fail_env CLONE_VM 400 300 d dc a1 hc hd).2 1
          (Option.some.inj a2) (by decide)
      exact ⟨⟨s', h1, h2, h3⟩,
        (copy_mm_share kfork_begun dup_fail_env 0 400 300 e dk b1 hk he).1 (Option.some.inj b2)⟩

/-- Claim C32, amended.  On the duplicate path of `copy_mm` (`current->mm` is the address
space `oldmm` and `CLONE_VM` is not set) every failure leaves the descriptors as they were,
so `proc->mm` is still NULL and `proc->cr3` unchanged, leaves every address space other than
the block `mm_create` handed out as it was, so the share count of the parent is unchanged,
and has released what it created in reverse order.  When `mm_create` returns NULL the result
is `-E_NO_MEM` and nothing is released; when `setup_pgdir` fails the result is `-E_NO_MEM`
after `mm_destroy`; when `dup_mmap` returns a non-zero code the result is that code, after
`exit_mmap`, `put_pgdir` and `mm_destroy`.  There is no other failure. -/
theorem copy_mm_failure (s : State) (env : MmEnv) (clone_flags : Nat) (p c : Ptr)
    (dc : proc_struct) (oldmm : Nat) (hcur : s.current = some c) (hc : s.procs c = some dc)
    (hmm : dc.mm = some oldmm) (hcl : clone_flags &&& CLONE_VM = 0) :
    (env.mm_create = none → ∃ s', copy_mm s env clone_flags p = .ok (-E_NO_MEM, s') ∧
      s'.procs = s.procs ∧ s'.mms = s.mms ∧ s'.log = Call.mm_create none :: s.log) ∧
    (∀ m, env.mm_create = some m → env.alloc_page = none →
      ∃ s', copy_mm s env clone_flags p = .ok (-E_NO_MEM, s') ∧
        s'.procs = s.procs ∧ (∀ m', m' ≠ m → s'.mms m' = s.mms m') ∧
        s'.log = Call.mm_destroy m :: Call.alloc_pages 1 none :: Call.mm_create (some m) ::
          s.log) ∧
    (∀ m pg, env.mm_create = some m → env.alloc_page = some pg → env.dup_mmap ≠ 0 →
      ∃ s', copy_mm s env clone_flags p = .ok (env.dup_mmap, s') ∧
        s'.procs = s.procs ∧ (∀ m', m' ≠ m → s'.mms m' = s.mms m') ∧
        s'.log = Call.mm_destroy m :: Call.free_pages (some pg) 1 :: Call.exit_mmap m ::
          Call.unlock_mm oldmm :: Call.dup_mmap m oldmm env.dup_mmap :: Call.lock_mm oldmm ::
          Call.alloc_pages 1 (some pg) :: Call.mm_create (some m) :: s.log) ∧
    (∀ r s', copy_mm s env clone_flags p = .ok (r, s') → r ≠ 0 →
      env.mm_create = none ∨ env.alloc_page = none ∨ env.dup_mmap ≠ 0) := by
  have hcl' : ¬ clone_flags &&& CLONE_VM ≠ 0 := by simpa using hcl
  refine ⟨?_, ?_, ?_, ?_⟩
  · intro hmc
    unfold copy_mm
    simp only [State.derefp, State.deref, hcur, hc, hmm, ok_bind, if_neg hcl', hmc, mm_create]
    exact ⟨_, rfl, rfl, rfl, rfl⟩
  · intro m hmc hap
    unfold copy_mm
    simp only [State.derefp, State.deref, hcur, hc, hmm, ok_bind, if_neg hcl', hmc, hap,
      mm_create, setup_pgdir]
    rw [if_pos (by simp [E_NO_MEM])]
    refine ⟨_, rfl, rfl, ?_, rfl⟩
    intro m' hm'
    simp [mm_destroy, State.call, State.storemm, Function.update_noteq hm']
  · intro m pg hmc hap hdup
    unfold copy_mm
    simp only [State.derefp, State.deref, hcur, hc, hmm, ok_bind, if_neg hcl', hmc, hap,
      mm_create, setup_pgdir, ne_eq, not_true_eq_false, if_false]
    rw [if_pos hdup]
    refine ⟨_, rfl, ?_, ?_, ?_⟩
    · simp [mm_destroy, put_pgdir, exit_mmap, dup_mmap, hdup, State.call, State.storemm]
    · intro m' hm'
      simp [mm_destroy, put_pgdir, exit_mmap, dup_mmap, hdup, State.call, State.storemm,
        Function.update_noteq hm']
    · simp [mm_destroy, put_pgdir, exit_mmap, dup_mmap, hdup, State.call, State.storemm]
  · intro r s' h hr
    by_contra hno
    simp only [not_or, not_not] at hno
    obtain ⟨h1, h2, h3⟩ := hno
    obtain ⟨m, hm⟩ := Option.ne_none_iff_exists'.mp h1
    obtain ⟨pg, hpg⟩ := Option.ne_none_iff_exists'.mp h2
    unfold copy_mm at h
    simp only [State.derefp, State.deref, hcur, hc, hmm, ok_bind, if_neg hcl', hm, hpg,
      mm_create, setup_pgdir, ne_eq, not_true_eq_false, if_false, h3] at h
    unfold copy_mm_good at h
    obtain ⟨s1, -, h⟩ := bind_ok h
    obtain ⟨s2, -, h⟩ := bind_ok h
    cases h
    exact hr rfl

theorem copy_mm_failure_witness :
    ∃ s', copy_mm fork_begun dup_fail_env 0 400 = .ok (-E_INVAL, s') ∧
      s'.procs = fork_begun.procs ∧ (s'.mms 1).mm_count = (fork_begun.mms 1).mm_count := by
  have a1 : fork_begun.current = some 300 := by decide
  have a2 : (fork_begun.procs 300).map (fun d => d.mm) = some (some 1) := by decide
  cases hc : fork_begun.procs 300 with
  | none => rw [hc] at a2; cases a2
  | some dc =>
    rw [hc] at a2
    obtain ⟨s', h1, h2, h3, -⟩ :=
      (copy_mm_failure fork_begun dup_fail_env 0 400 300 dc 1 a1 hc (Option.some.inj a2)
        (by decide)).2.2.1 2 0xC0500000 rfl rfl (by decide)
    exact ⟨s', h1, h2, congrArg mm_struct.mm_count (h3 1 (by decide))⟩

/-- The code of `copy_mm` on claim C32 as it stands: in the machine `fork_begun`, whose
current task has the address space 1, with `mm_create` and `setup_pgdir` succeeding and
`dup_mmap` returning `-E_INVAL`, `copy_mm` returns `-E_INVAL`, which is not `-E_NO_MEM`. -/
theorem copy_mm_returns_dup_code :
    fork_begun.current = some 300 ∧
    (fork_begun.procs 300).map (fun d => d.mm) = some (some 1) ∧
    dup_fail_env.mm_create ≠ none ∧ dup_fail_env.alloc_page ≠ none ∧
    dup_fail_env.dup_mmap ≠ 0 ∧
    (match copy_mm fork_begun dup_fail_env 0 400 with
      | .ok (r, _) => r = -E_INVAL ∧ r ≠ -E_NO_MEM
      | .error _ => False) := by
  refine ⟨by decide, by decide, by decide, by decide, by decide, ?_⟩
  have hb : (match copy_mm fork_begun dup_fail_env 0 400 with
      | .ok (r, _) => decide (r = -E_INVAL ∧ r ≠ -E_NO_MEM)
      | .error _ => false) = true := by decide
  cases hx : copy_mm fork_begun dup_fail_env 0 400 with
  | error e => rw [hx] at hb; cases hb
  | ok rs =>
    obtain ⟨r, t⟩ := rs
    rw [hx] at hb
    exact of_decide_eq_true hb

end Ucore

namespace Ucore

/-! ## Going to sleep in `do_wait`, waking in `do_exit` -/

theorem waitSame_refl (s : State) : WaitSame s s := ⟨rfl, rfl, fun _ => rfl⟩

theorem waitSame_trans {a b c : State} (h1 : WaitSame a b) (h2 : WaitSame b c) :
    WaitSame a c :=
  ⟨h2.1.trans h1.1, h2.2.1.trans h1.2.1, fun x => (h2.2.2 x).trans (h1.2.2 x)⟩

theorem waitSame_modify {s s' : State} {p : Ptr} {f : proc_struct → proc_struct}
    (h : s.modify p f = .ok s')
    (hf : ∀ d, (f d).state = d.state ∧ (f d).wait_state = d.wait_state) : WaitSame s s' := by
  obtain ⟨d, hd, rfl⟩ := modify_entry h
  refine ⟨rfl, rfl, fun x => ?_⟩
  by_cases hx : x = p
  · subst hx
    rw [store_procs_same, hd]
    simp [(hf d).1, (hf d).2]
  · rw [store_procs_ne _ _ hx]

theorem waitSame_do_exit_relink {s : State} {s' : State} {cur p : Ptr}
    (h : do_exit_relink s cur p = .ok s') : WaitSame s s' := by
  unfold do_exit_relink at h
  have K : WaitSame s s := waitSame_refl _
  repeat' first
    | exact waitSame_trans K (waitSame_modify h (fun _ => ⟨rfl, rfl⟩))
    | (obtain ⟨a, h1, h⟩ := bind_ok h
       first
        | (have K := waitSame_trans K (waitSame_modify h1 (fun _ => ⟨rfl, rfl⟩)))
        | cases h1
        | skip)
    | (cases h
       first
        | done
        | exact K)
    | dsimp only at h
    | (revert h
       split <;> intro h)

theorem wakeOnly_of_same {i : Ptr} {s s' : State} (h : WaitSame s s') : WakeOnly i s s' := by
  refine ⟨h.2.1, [], by simp [h.1], by simp, fun x _ => h.2.2 x, fun di hdi _ => ⟨rfl, ?_⟩⟩
  rw [h.2.2 i, hdi]
  rfl

theorem wakeOnly_trans {i : Ptr} {a b c : State} (h1 : WakeOnly i a b) (h2 : WakeOnly i b c) :
    WakeOnly i a c := by
  obtain ⟨e1, l1, g1, w1, x1, y1⟩ := h1
  obtain ⟨e2, l2, g2, w2, x2, y2⟩ := h2
  refine ⟨e2.trans e1, l2 ++ l1, by rw [g2, g1, List.append_assoc], ?_,
    fun x hx => (x2 x hx).trans (x1 x hx), ?_⟩
  · intro e he
    rcases List.mem_append.mp he with h | h
    · exact w2 e h
    · exact w1 e h
  · intro di hdi hw
    obtain ⟨ha, hb⟩ := y1 di hdi hw
    cases hbi : b.procs i with
    | none => rw [hbi] at hb; cases hb
    | some db =>
      rw [hbi] at hb
      simp only [Option.map_some', Option.some.injEq, Prod.mk.injEq] at hb
      obtain ⟨hc, hd⟩ := y2 db hbi (by rw [hb.2]; exact hw)
      refine ⟨by rw [ha, hc]; rfl, ?_⟩
      rw [hd, hb.1, hb.2]

theorem wakeOnly_do_exit_wake_init {i : Ptr} {s s' : State} {p : Ptr}
    (hinit : s.initproc = some i) (h : do_exit_wake_init s p = .ok s') : WakeOnly i s s' := by
  unfold do_exit_wake_init at h
  obtain ⟨pd, -, h⟩ := bind_ok h
  split_ifs at h with hz
  · obtain ⟨ini, h1, h⟩ := bind_ok h
    simp only [State.derefp, hinit] at h1
    have hi := deref_ok h1
    split_ifs at h with hw
    · simp only [hinit] at h
      rw [wakeup_proc_of hi] at h
      split_ifs at h with hst
      · cases h
        refine ⟨rfl, [Call.wakeup_proc i], rfl, by simp, ?_, ?_⟩
        · intro x hx
          simp [State.call, State.store, Function.update_noteq hx]
        · intro di hdi hne
          rw [hi] at hdi
          cases hdi
          exact absurd hw hne
      · cases h
        refine ⟨rfl, [Call.wakeup_proc i], rfl, by simp, fun x _ => rfl, ?_⟩
        intro di hdi hne
        rw [hi] at hdi
        cases hdi
        exact absurd hw hne
    · cases h
      exact wakeOnly_of_same (waitSame_refl _)
  · cases h
    exact wakeOnly_of_same (waitSame_refl _)

theorem wakeOnly_do_exit_reparent {i cur : Ptr} :
    ∀ (fuel : Nat) (s s' : State), s.initproc = some i →
      do_exit_reparent fuel s cur = .ok s' → WakeOnly i s s' := by
  intro fuel
  induction fuel with
  | zero =>
    intro s s' _ h
    simp [do_exit_reparent] at h
  | succ fuel ih =>
    intro s s' hinit h
    unfold do_exit_reparent at h
    obtain ⟨c, -, h⟩ := bind_ok h
    revert h
    split <;> intro h
    · cases h
      exact wakeOnly_of_same (waitSame_refl _)
    · obtain ⟨s1, h1, h⟩ := bind_ok h
      unfold do_exit_reparent_child at h1
      obtain ⟨s0, h0, h1⟩ := bind_ok h1
      have k0 := waitSame_do_exit_relink h0
      have k1 := wakeOnly_do_exit_wake_init (k0.2.1.trans hinit) h1
      have k2 := ih s1 s' (k1.1.trans (k0.2.1.trans hinit)) h
      exact wakeOnly_trans (wakeOnly_trans (wakeOnly_of_same k0) k1) k2

/-- The calls recorded by `release_mm`: none of them is a `wakeup_proc`. -/
theorem release_mm_log (s : State) (m : Nat) :
    ∃ l, (release_mm s m).log = l ++ s.log ∧ ∀ e ∈ l, ∀ t, e ≠ Call.wakeup_proc t := by
  unfold release_mm mm_count_dec
  dsimp only
  split_ifs
  · unfold exit_mmap
    split
    · exact ⟨[_, _, _, _], rfl, by simp [mm_destroy, put_pgdir, State.call, State.storemm]⟩
    · exact ⟨[_, _, _, _], rfl, by simp [mm_destroy, put_pgdir, State.call, State.storemm]⟩
  · exact ⟨[_], rfl, by simp [State.call, State.storemm]⟩

theorem do_wait_scan_none {procs : Ptr → Option proc_struct} {par : Ptr} :
    ∀ (fuel : Nat) {l : List Ptr} {f y : Option Ptr} (hk : Bool),
      Chain procs par f y l → l.length < fuel →
      (∀ z ∈ l, ∀ dz, procs z = some dz → dz.state ≠ .PROC_ZOMBIE) →
      do_wait_scan procs fuel f hk = .ok (none, if l = [] then hk else true) := by
  intro fuel
  induction fuel with
  | zero => intro l f y hk _ hlen; simp at hlen
  | succ fuel ih =>
    intro l f y hk hc hlen hnz
    cases l with
    | nil =>
      have hf : f = none := by simpa [Chain] using hc
      subst hf
      simp [do_wait_scan]
    | cons a l =>
      obtain ⟨hf, da, hda, _, _, hca⟩ := chain_cons.mp hc
      subst hf
      simp only [do_wait_scan, hda]
      rw [if_neg (hnz a (List.mem_cons_self _ _) da hda)]
      rw [ih true hca (by simpa using hlen)
        (fun z hz dz hdz => hnz z (List.mem_cons_of_mem _ hz) dz hdz)]
      simp

/-- A call of `do_wait` by a task that has a matching child and no matching zombie: the
caller is marked SLEEPING with `wait_state == WT_CHILD`, then `schedule` is called, and
nothing else is changed. -/
theorem do_wait_sleeps {s : State} (fuel : Nat) (umc : Bool) (pid : Int) (cs : Option Nat)
    {c : Ptr} {dc : proc_struct} (hi : Inv s) (hcur : s.current = some c)
    (hc : s.procs c = some dc) (hu : ¬ (cs ≠ none ∧ umc = false))
    (hfuel : s.proc_list.length < fuel)
    (hkid : ∃ z dz, s.procs z = some dz ∧ dz.parent = some c ∧ (pid ≠ 0 → dz.pid = pid))
    (hnoz : ∀ z dz, s.procs z = some dz → dz.parent = some c → (pid ≠ 0 → dz.pid = pid) →
      dz.state ≠ .PROC_ZOMBIE) :
    do_wait fuel s umc pid cs = .ok (.sleeping,
      (s.store c { dc with state := .PROC_SLEEPING, wait_state := WT_CHILD }).call
        .schedule) := by
  have hsleep := sleep_eq hc
  obtain ⟨z, dz, hdz, hpar, hpid⟩ := hkid
  unfold do_wait
  rw [if_neg hu]
  simp only [hcur, ok_bind]
  by_cases hp : pid ≠ 0
  · rw [if_pos hp]
    have hpz := hpid hp
    have hzl : z ∈ s.proc_list := by
      rcases (hi.struct.valid z).mp (by rw [hdz]; rfl) with h | h
      · exact h
      · obtain ⟨i, di, e1, -, e3, -, e5⟩ := hi.struct.idle
        rw [e1] at h
        cases h
        rw [hdz] at e3
        cases e3
        rw [e5] at hpar
        cases hpar
    have hf := find_proc_struct hi.struct hzl hdz
    rw [hpz] at hf
    simp only [hf, ok_bind, State.deref, hdz, hpar, if_true]
    rw [if_neg (hnoz z dz hdz hpar hpid)]
    exact hsleep
  · rw [if_neg hp]
    simp only [State.deref, hc, ok_bind]
    obtain ⟨y0, hy0, dr, lr, hdr, hchr, hndr, hsubr, hcompr⟩ :=
      hi.struct.fam c (by rw [hc]; rfl)
    rw [hc] at hdr
    cases hdr
    have hlen : lr.length < fuel := by
      have := (hndr.subperm hsubr).length_le
      omega
    have hne : lr ≠ [] := by
      intro h0
      have := hcompr z dz hdz hpar
      rw [h0] at this
      simp at this
    rw [do_wait_scan_none fuel false hchr hlen (fun w hw dw hdw => by
      obtain ⟨dw', hdw', hwp⟩ := chain_mem hchr w hw
      rw [hdw] at hdw'
      cases hdw'
      exact hnoz w dw hdw hwp (fun h => absurd h hp))]
    simp only [ok_bind, if_neg hne, if_true]
    exact hsleep

/-- The call `do_exit(error_code)` by a task with parent `q`: a parent with
`wait_state == WT_CHILD` is handed to `wakeup_proc` before `schedule` is called, and is
RUNNABLE afterwards if it was SLEEPING; a parent with another `wait_state` is not handed to
`wakeup_proc` and keeps its `state` and its `wait_state`. -/
theorem do_exit_wakes {s : State} {c q : Ptr} {dc dq : proc_struct} (fuel : Nat)
    (error_code : Int) (hi : Inv s) (hcur : s.current = some c) (hc : s.procs c = some dc)
    (hidle : s.current ≠ s.idleproc) (hinit : s.current ≠ s.initproc)
    (hpar : dc.parent = some q) (hq : s.procs q = some dq)
    (hfuel : s.proc_list.length < fuel) :
    ∃ s' l, do_exit fuel s error_code = .ok s' ∧ s'.log = Call.schedule :: (l ++ s.log) ∧
      (dq.wait_state = WT_CHILD → Call.wakeup_proc q ∈ l ∧
        (dq.state = .PROC_SLEEPING → ∃ dq', s'.procs q = some dq' ∧
          dq'.state = .PROC_RUNNABLE ∧ dq'.wait_state = 0)) ∧
      (dq.wait_state ≠ WT_CHILD → Call.wakeup_proc q ∉ l ∧
        ∃ dq', s'.procs q = some dq' ∧ dq'.state = dq.state ∧
          dq'.wait_state = dq.wait_state) := by
  have hqc : q ≠ c := by
    rintro rfl
    exact hi.struct.noself q dc hc hpar
  obtain ⟨i, di, hinit', -, hdi, -, -⟩ := hi.sched.init
  obtain ⟨s', hs'⟩ := (do_exit_spec fuel error_code hi hcur hc hidle hinit).2 hfuel
  obtain ⟨sZ, sR, hZ, hR, a1, a2, a3, a4, a5, a6, a7, a8, a9, a10, a11, hZc, hZq, hZx⟩ :=
    do_exit_zombie_of error_code hcur hc hidle hinit hpar hqc hq
  have hrun := hs'
  unfold do_exit at hrun
  rw [hZ] at hrun
  simp only [ok_bind] at hrun
  obtain ⟨sL, hL, hrun⟩ := bind_ok hrun
  cases hrun
  obtain ⟨-, l2, g2, w2, x2, y2⟩ := wakeOnly_do_exit_reparent fuel sZ sL (a7.trans hinit') hL
  obtain ⟨lr, glr, wlr⟩ : ∃ lr, sR.log = lr ++ s.log ∧ ∀ e ∈ lr, ∀ t, e ≠ Call.wakeup_proc t := by
    rw [hR]
    cases dc.mm with
    | none => exact ⟨[], rfl, by simp⟩
    | some m => exact release_mm_log s m
  by_cases hw : dq.wait_state = WT_CHILD
  · refine ⟨_, l2 ++ Call.wakeup_proc q :: lr, hs', ?_, fun _ => ⟨by simp, ?_⟩,
      fun h => absurd hw h⟩
    · show Call.schedule :: sL.log = _
      rw [g2, a11, if_pos hw, glr]
      simp
    · intro hst
      rw [if_pos ⟨hw, Or.inl hst⟩] at hZq
      have hmap : (sL.procs q).map (fun d => (d.state, d.wait_state)) =
          some (proc_state.PROC_RUNNABLE, 0) := by
        by_cases hqi : q = i
        · subst hqi
          exact (y2 _ hZq (by simp [WT_CHILD, WT_INTERRUPTED])).2
        · rw [x2 q hqi, hZq]
          rfl
      cases hx : sL.procs q with
      | none => rw [hx] at hmap; cases hmap
      | some dq' =>
        rw [hx] at hmap
        simp only [Option.map_some', Option.some.injEq, Prod.mk.injEq] at hmap
        exact ⟨dq', hx, hmap.1, hmap.2⟩
  · rw [if_neg (fun h => hw h.1)] at hZq
    have hmap : (sL.procs q).map (fun d => (d.state, d.wait_state)) =
          some (dq.state, dq.wait_state) ∧ Call.wakeup_proc q ∉ l2 := by
      by_cases hqi : q = i
      · subst hqi
        obtain ⟨e1, e2⟩ := y2 _ hZq hw
        exact ⟨e2, by rw [e1]; simp⟩
      · refine ⟨by rw [x2 q hqi, hZq]; rfl, fun hm => ?_⟩
        have := w2 _ hm
        cases this
        exact hqi rfl
    refine ⟨_, l2 ++ lr, hs', ?_, fun h => absurd h hw, fun _ => ⟨?_, ?_⟩⟩
    · show Call.schedule :: sL.log = _
      rw [g2, a11, if_neg hw, glr]
      simp
    · intro hm
      rcases List.mem_append.mp hm with h | h
      · exact hmap.2 h
      · exact wlr _ h q rfl
    · cases hx : sL.procs q with
      | none => rw [hx] at hmap; cases hmap.1
      | some dq' =>
        rw [hx] at hmap
        have h1 := hmap.1
        simp only [Option.map_some', Option.some.injEq, Prod.mk.injEq] at h1
        exact ⟨dq', hx, h1.1, h1.2⟩

end Ucore

namespace Ucore

/-- Claim C33.  No lost wake-up between `do_wait` and `do_exit`.  In a state `s` that
satisfies the invariant, a call of `do_wait` by the current task `c`, whose `code_store`
check passes, that has a matching child (a child at all for `pid == 0`, the child with that
pid otherwise) and no matching zombie, sets `current->state = PROC_SLEEPING` and
`current->wait_state = WT_CHILD`, then calls `schedule`, and changes nothing else.  In a
state `t` that satisfies the invariant, a call of `do_exit` by a task `k` other than
`idleproc` and `initproc` with parent `q` reaches `schedule`; if `q->wait_state == WT_CHILD`
it has called `wakeup_proc(q)` before, and a SLEEPING `q` is RUNNABLE with `wait_state`
cleared; if `q->wait_state != WT_CHILD` it has made no call `wakeup_proc(q)` and `q` keeps
its `state` and its `wait_state`. -/
theorem no_lost_wakeup (s t : State) (fuel : Nat) (umc : Bool) (pid : Int) (cs : Option Nat)
    (error_code : Int) (c k q : Ptr) (dc dk dq : proc_struct)
    (hs : Inv s) (hcur : s.current = some c) (hc : s.procs c = some dc)
    (hu : ¬ (cs ≠ none ∧ umc = false)) (hfs : s.proc_list.length < fuel)
    (hkid : ∃ z dz, s.procs z = some dz ∧ dz.parent = some c ∧ (pid ≠ 0 → dz.pid = pid))
    (hnoz : ∀ z dz, s.procs z = some dz → dz.parent = some c → (pid ≠ 0 → dz.pid = pid) →
      dz.state ≠ .PROC_ZOMBIE)
    (ht : Inv t) (hcurt : t.current = some k) (hk : t.procs k = some dk)
    (hidle : t.current ≠ t.idleproc) (hinit : t.current ≠ t.initproc)
    (hpar : dk.parent = some q) (hq : t.procs q = some dq)
    (hft : t.proc_list.length < fuel) :
    do_wait fuel s umc pid cs = .ok (.sleeping,
      (s.store c { dc with state := .PROC_SLEEPING, wait_state := WT_CHILD }).call
        .schedule) ∧
    ∃ t' l, do_exit fuel t error_code = .ok t' ∧ t'.log = Call.schedule :: (l ++ t.log) ∧
      (dq.wait_state = WT_CHILD → Call.wakeup_proc q ∈ l ∧
        (dq.state = .PROC_SLEEPING → ∃ dq', t'.procs q = some dq' ∧
          dq'.state = .PROC_RUNNABLE ∧ dq'.wait_state = 0)) ∧
      (dq.wait_state ≠ WT_CHILD → Call.wakeup_proc q ∉ l ∧
        ∃ dq', t'.procs q = some dq' ∧ dq'.state = dq.state ∧
          dq'.wait_state = dq.wait_state) :=
  ⟨do_wait_sleeps fuel umc pid cs hs hcur hc hu hfs hkid hnoz,
    do_exit_wakes fuel error_code ht hcurt hk hidle hinit hpar hq hft⟩

theorem no_lost_wakeup_witness :
    (∃ s', do_wait 20000 grand_forked true 0 none = .ok (.sleeping, s') ∧
      (s'.procs 300).map (fun d => (d.state, d.wait_state)) =
        some (proc_state.PROC_SLEEPING, WT_CHILD)) ∧
    ∃ t' l, do_exit 20000 child_waiting 7 = .ok t' ∧
      t'.log = Call.schedule :: (l ++ child_waiting.log) ∧ Call.wakeup_proc 300 ∈ l ∧
      ∃ dq', t'.procs 300 = some dq' ∧ dq'.state = .PROC_RUNNABLE ∧ dq'.wait_state = 0 := by
  obtain ⟨hr, hcur, hidle, -, hl, -, ⟨dt, hdt, -, -, -⟩, ⟨dg, hdg, hgp, -, hgs⟩⟩ :=
    grand_forked_spec
  have hs := reachable_inv hr
  have ht := reachable_inv child_waiting_reach
  have hall : ∀ z ∈ [100, 200, 300, 400],
      (grand_forked.procs z).map (fun d => decide (d.state ≠ .PROC_ZOMBIE)) = some true := by
    decide
  have b1 : child_waiting.current = some 400 := by decide
  have b2 : child_waiting.idleproc = some 100 := by decide
  have b3 : child_waiting.initproc = some 200 := by decide
  have b4 : (child_waiting.procs 400).map (fun d => d.parent) = some (some 300) := by decide
  have b5 : (child_waiting.procs 300).map (fun d => (d.state, d.wait_state)) =
      some (proc_state.PROC_SLEEPING, WT_CHILD) := by decide
  have b6 : child_waiting.proc_list.length < 20000 := by decide
  cases hk : child_waiting.procs 400 with
  | none => rw [hk] at b4; cases b4
  | some dk =>
    cases hq : child_waiting.procs 300 with
    | none => rw [hq] at b5; cases b5
    | some dq =>
      rw [hk] at b4
      rw [hq] at b5
      simp only [Option.map_some', Option.some.injEq, Prod.mk.injEq] at b4 b5
      obtain ⟨h1, t', l, h2, h3, h4, -⟩ := no_lost_wakeup grand_forked child_waiting 20000
        true 0 none 7 300 400 300 dt dk dq hs hcur hdt (by simp) (by rw [hl]; decide)
        ⟨400, dg, hdg, hgp, fun h => absurd rfl h⟩
        (fun z dz hdz _ _ => by
          have hz : z ∈ [100, 200, 300, 400] := by
            rcases (hs.struct.valid z).mp (by rw [hdz]; rfl) with h | h
            · rw [hl] at h
              simp at h
              simp
              tauto
            · rw [hidle] at h
              cases h
              simp
          have := hall z hz
          rw [hdz] at this
          simpa using this)
        ht b1 hk (by rw [b1, b2]; decide) (by rw [b1, b3]; decide) b4 hq b6
      refine ⟨⟨_, h1, ?_⟩, t', l, h2, h3, (h4 b5.2).1, (h4 b5.2).2 b5.1⟩
      simp [State.call, State.store]

end Ucore

namespace Ucore

/-! ## The sizes computed by the loops of `load_icode` -/

/-- One round of a loop `while (start < end)` of `load_icode`, from a `start` inside the page
at `la`: the bytes written lie inside the page, and the round leaves `start` at the next page
boundary, which is the new `la`, or at `end_` once that is reached. -/
theorem round_ops {start la end_ : Nat} (hla : la % PGSIZE = 0) (h1 : la ≤ start)
    (h2 : start < la + PGSIZE) (h3 : start < end_) (hs : la < 2 ^ 32) :
    sub32 start la + (if end_ < wrap32 (la + PGSIZE) then
        sub32 (sub32 PGSIZE (sub32 start la)) (sub32 (wrap32 (la + PGSIZE)) end_)
      else sub32 PGSIZE (sub32 start la)) ≤ PGSIZE ∧
    wrap32 (la + PGSIZE) % PGSIZE = 0 ∧ wrap32 (la + PGSIZE) < 2 ^ 32 ∧
    (wrap32 (start + (if end_ < wrap32 (la + PGSIZE) then
        sub32 (sub32 PGSIZE (sub32 start la)) (sub32 (wrap32 (la + PGSIZE)) end_)
      else sub32 PGSIZE (sub32 start la))) < end_ →
      wrap32 (start + (if end_ < wrap32 (la + PGSIZE) then
        sub32 (sub32 PGSIZE (sub32 start la)) (sub32 (wrap32 (la + PGSIZE)) end_)
      else sub32 PGSIZE (sub32 start la))) = wrap32 (la + PGSIZE)) ∧
    (¬ wrap32 (start + (if end_ < wrap32 (la + PGSIZE) then
        sub32 (sub32 PGSIZE (sub32 start la)) (sub32 (wrap32 (la + PGSIZE)) end_)
      else sub32 PGSIZE (sub32 start la))) < end_ →
      wrap32 (start + (if end_ < wrap32 (la + PGSIZE) then
        sub32 (sub32 PGSIZE (sub32 start la)) (sub32 (wrap32 (la + PGSIZE)) end_)
      else sub32 PGSIZE (sub32 start la))) = end_ ∧ end_ ≤ wrap32 (la + PGSIZE) ∧
      wrap32 (la + PGSIZE) < end_ + PGSIZE ∧ PGSIZE ≤ wrap32 (la + PGSIZE) ∧
      wrap32 (la + PGSIZE) - PGSIZE = la) := by
  simp only [show PGSIZE = 4096 from rfl, sub32, wrap32] at *
  split_ifs with h <;> omega

/-- The `if (start < la)` block of step (3.6.2), entered with `start` in the page that ends
at `la`: the bytes zeroed lie inside that page and the condition of the assertion holds for
the new `start`. -/
theorem tail_ops {start la end_ : Nat} (hla : la % PGSIZE = 0) (hs : la < 2 ^ 32)
    (h1 : start < la) (h2 : la < start + PGSIZE) (h3 : start ≤ end_) (he : end_ < 2 ^ 32) :
    sub32 (wrap32 (start + PGSIZE)) la + (if end_ < la then
        sub32 (sub32 PGSIZE (sub32 (wrap32 (start + PGSIZE)) la)) (sub32 la end_)
      else sub32 PGSIZE (sub32 (wrap32 (start + PGSIZE)) la)) ≤ PGSIZE ∧
    ((end_ < la ∧ wrap32 (start + (if end_ < la then
        sub32 (sub32 PGSIZE (sub32 (wrap32 (start + PGSIZE)) la)) (sub32 la end_)
      else sub32 PGSIZE (sub32 (wrap32 (start + PGSIZE)) la))) = end_) ∨
     (end_ ≥ la ∧ wrap32 (start + (if end_ < la then
        sub32 (sub32 PGSIZE (sub32 (wrap32 (start + PGSIZE)) la)) (sub32 la end_)
      else sub32 PGSIZE (sub32 (wrap32 (start + PGSIZE)) la))) = la)) := by
  simp only [show PGSIZE = 4096 from rfl, sub32, wrap32] at *
  split_ifs with h <;> omega

/-- The loop (3.6.1), whatever the allocator answers: if it comes to its end, `start` is
`end_`, `la` is the first page boundary not below `end_`, and `page` is the page right below
`la`, handed out in the last round. -/
theorem load_copy_exit (env : ExecEnv) (img : binary) (pgdir : Option Nat) (perm end_ : Nat) :
    ∀ (fuel : Nat) (s : State) (start la src : Nat) (page : Option Nat),
      la % PGSIZE = 0 → la ≤ start → start < la + PGSIZE → start < end_ → la < 2 ^ 32 →
      ∀ s' st la' pg, load_copy env img pgdir perm end_ fuel s start la src page =
          .ok (.next s' st la' pg) →
        st = end_ ∧ la' % PGSIZE = 0 ∧ end_ ≤ la' ∧ la' < end_ + PGSIZE ∧ PGSIZE ≤ la' ∧
          la' < 2 ^ 32 ∧ pg = some (la' - PGSIZE) := by
  intro fuel
  induction fuel with
  | zero =>
    intro s start la src page _ _ _ _ _ s' st la' pg h
    simp [load_copy] at h
  | succ fuel ih =>
    intro s start la src page hla h1 h2 h3 hs s' st la' pg h
    obtain ⟨-, r2, r3, r4, r5⟩ := round_ops hla h1 h2 h3 hs
    rw [load_copy, if_pos h3] at h
    cases hpa : env.page_alloc la with
    | none => simp [hpa, pgdir_alloc_page] at h
    | some data =>
      simp only [hpa, pgdir_alloc_page] at h
      by_cases hlt : wrap32 (start + (if end_ < wrap32 (la + PGSIZE) then
          sub32 (sub32 PGSIZE (sub32 start la)) (sub32 (wrap32 (la + PGSIZE)) end_)
        else sub32 PGSIZE (sub32 start la))) < end_
      · have e := r4 hlt
        exact ih _ _ _ _ _ r2 (by rw [e]) (by rw [e]; simp [PGSIZE]) hlt r3 s' st la' pg h
      · obtain ⟨e1, e2, e3, e4, e5⟩ := r5 hlt
        cases fuel with
        | zero => simp [load_copy] at h
        | succ fuel =>
          rw [load_copy_done _ _ _ _ _ _ _ _ _ _ _ hlt] at h
          simp only [Except.ok.injEq, LoadStep.next.injEq] at h
          obtain ⟨-, rfl, rfl, rfl⟩ := h
          exact ⟨e1, r2, e2, e3, e4, r3, by rw [e5]⟩

theorem load_copy_error (env : ExecEnv) (img : binary) (pgdir : Option Nat) (perm end_ : Nat) :
    ∀ (fuel : Nat) (s : State) (start la src : Nat) (page : Option Nat) (e : Err),
      load_copy env img pgdir perm end_ fuel s start la src page = .error e →
      e = .out_of_fuel := by
  intro fuel
  induction fuel with
  | zero =>
    intro s start la src page e h
    simp only [load_copy, Except.error.injEq] at h
    exact h.symm
  | succ fuel ih =>
    intro s start la src page e h
    rw [load_copy] at h
    split_ifs at h with h3
    · cases hpa : env.page_alloc la with
      | none => simp [hpa, pgdir_alloc_page] at h
      | some data =>
        simp only [hpa, pgdir_alloc_page] at h
        exact ih _ _ _ _ _ e h

theorem load_bss_error (env : ExecEnv) (pgdir : Option Nat) (perm end_ : Nat) :
    ∀ (fuel : Nat) (s : State) (start la : Nat) (page : Option Nat) (e : Err),
      load_bss env pgdir perm end_ fuel s start la page = .error e → e = .out_of_fuel := by
  intro fuel
  induction fuel with
  | zero =>
    intro s start la page e h
    simp only [load_bss, Except.error.injEq] at h
    exact h.symm
  | succ fuel ih =>
    intro s start la page e h
    rw [load_bss] at h
    split_ifs at h with h3
    · cases hpa : env.page_alloc la with
      | none => simp [hpa, pgdir_alloc_page] at h
      | some data =>
        simp only [hpa, pgdir_alloc_page] at h
        exact ih _ _ _ _ e h

/-- The `if (start < la)` block of step (3.6.2) after a copy loop that came to its end: it
returns, by `continue` exactly when the segment ends with its file part inside the page, and
otherwise with a `start` for which the condition of the assertion holds. -/
theorem load_tail_ok (s : State) (pgdir : Option Nat) (end_ start la : Nat)
    (hla : la % PGSIZE = 0) (hs : la < 2 ^ 32) (h1 : start ≤ la) (h2 : la < start + PGSIZE)
    (h3 : start ≤ end_) (he : end_ < 2 ^ 32) :
    ∃ r s', load_tail s pgdir end_ start la (some (la - PGSIZE)) = .ok (r, s') ∧
      (r = none ↔ (start < la ∧ start = end_)) ∧
      ∀ st, r = some st →
        (start < la → (end_ < la ∧ st = end_) ∨ (end_ ≥ la ∧ st = la)) ∧
        (¬ start < la → st = start) := by
  unfold load_tail
  by_cases hlt : start < la
  · rw [if_pos hlt]
    by_cases heq : start = end_
    · rw [if_pos heq]
      exact ⟨none, s, rfl, ⟨fun _ => ⟨hlt, heq⟩, fun _ => rfl⟩, by simp⟩
    · rw [if_neg heq]
      obtain ⟨-, t2⟩ := tail_ops hla hs hlt h2 h3 he
      dsimp only
      rw [if_pos t2]
      refine ⟨_, _, rfl, by simp [heq], ?_⟩
      intro st hst
      cases hst
      exact ⟨fun _ => t2, fun h => absurd hlt h⟩
  · rw [if_neg hlt]
    refine ⟨_, _, rfl, by simp [hlt], ?_⟩
    intro st hst
    cases hst
    exact ⟨fun h => absurd h hlt, fun _ => rfl⟩

/-- Steps (3.6.1) and (3.6.2) for a header with `0 < p_filesz <= p_memsz` whose segment ends
below 2^32: the assertion of step (3.6.2) does not fail, whatever the allocator answers. -/
theorem load_pages_no_assert (fuel : Nat) (s : State) (env : ExecEnv) (img : binary)
    (pgdir : Option Nat) (ph : proghdr) (hfs : 0 < ph.p_filesz)
    (hfm : ph.p_filesz ≤ ph.p_memsz) (hno : ph.p_va + ph.p_memsz < 2 ^ 32) :
    load_pages fuel s env img pgdir ph ≠ .error .assert_failed := by
  have hP : PGSIZE = 4096 := rfl
  have hw1 : wrap32 (ph.p_va + ph.p_filesz) = ph.p_va + ph.p_filesz := wrap32_of_lt (by omega)
  have hw2 : wrap32 (ph.p_va + ph.p_memsz) = ph.p_va + ph.p_memsz := wrap32_of_lt hno
  have hrd : ROUNDDOWN ph.p_va PGSIZE = ph.p_va - ph.p_va % 4096 := rfl
  intro h
  unfold load_pages at h
  dsimp only at h
  cases hc : load_copy env img pgdir (seg_perm ph) (wrap32 (ph.p_va + ph.p_filesz)) fuel s
      ph.p_va (ROUNDDOWN ph.p_va PGSIZE) ph.p_offset none with
  | error e =>
    have := load_copy_error _ _ _ _ _ _ _ _ _ _ _ _ hc
    subst this
    simp [hc] at h
  | ok step =>
    cases step with
    | bad s1 => simp [hc] at h
    | next s1 st la pg =>
      obtain ⟨e1, e2, e3, e4, e5, e6, e7⟩ := load_copy_exit env img pgdir (seg_perm ph) _ fuel s
        ph.p_va (ROUNDDOWN ph.p_va PGSIZE) ph.p_offset none (by rw [hrd, hP]; omega)
        (by rw [hrd]; omega) (by rw [hrd, hP]; omega) (by rw [hw1]; omega)
        (by rw [hrd]; omega) s1 st la pg hc
      subst e7
      obtain ⟨r, s2, ht, -, hr⟩ := load_tail_ok s1 pgdir (wrap32 (ph.p_va + ph.p_memsz)) st la
        e2 e6 (by rw [e1]; exact e3) (by rw [e1]; exact e4) (by rw [e1, hw1, hw2]; omega)
        (by rw [hw2]; exact hno)
      simp only [hc, ok_bind, ht] at h
      cases r with
      | none => simp at h
      | some st2 =>
        dsimp only at h
        cases hb : load_bss env pgdir (seg_perm ph) (wrap32 (ph.p_va + ph.p_memsz)) fuel s2
            st2 la (some (la - PGSIZE)) with
        | error e =>
          have := load_bss_error _ _ _ _ _ _ _ _ _ _ hb
          subst this
          simp [hb] at h
        | ok step2 =>
          cases step2 <;> simp [hb] at h

/-! ## The record of the calls of `memcpy` and `memset` -/

/-- Dropping the record from `load_copy_rec` gives `load_copy`. -/
theorem load_copy_rec_erase (env : ExecEnv) (img : binary) (pgdir : Option Nat)
    (perm end_ : Nat) :
    ∀ (fuel : Nat) (s : State) (tr : List (Nat × Nat)) (start la src : Nat)
      (page : Option Nat),
      Except.map Prod.fst (load_copy_rec env img pgdir perm end_ fuel s tr start la src page) =
        load_copy env img pgdir perm end_ fuel s start la src page := by
  intro fuel
  induction fuel with
  | zero =>
    intro s tr start la src page
    rfl
  | succ fuel ih =>
    intro s tr start la src page
    rw [load_copy_rec, load_copy]
    by_cases h3 : start < end_
    · rw [if_pos h3, if_pos h3]
      cases hpa : env.page_alloc la with
      | none => rfl
      | some data =>
        simp only [pgdir_alloc_page, page_memcpy_rec]
        exact ih _ _ _ _ _ _
    · rw [if_neg h3, if_neg h3]
      rfl

/-- Dropping the record from `load_bss_rec` gives `load_bss`. -/
theorem load_bss_rec_erase (env : ExecEnv) (pgdir : Option Nat) (perm end_ : Nat) :
    ∀ (fuel : Nat) (s : State) (tr : List (Nat × Nat)) (start la : Nat) (page : Option Nat),
      Except.map Prod.fst (load_bss_rec env pgdir perm end_ fuel s tr start la page) =
        load_bss env pgdir perm end_ fuel s start la page := by
  intro fuel
  induction fuel with
  | zero =>
    intro s tr start la page
    rfl
  | succ fuel ih =>
    intro s tr start la page
    rw [load_bss_rec, load_bss]
    by_cases h3 : start < end_
    · rw [if_pos h3, if_pos h3]
      cases hpa : env.page_alloc la with
      | none => rfl
      | some data =>
        simp only [pgdir_alloc_page, page_memset_rec]
        exact ih _ _ _ _ _
    · rw [if_neg h3, if_neg h3]
      rfl

/-- Dropping the record from `load_tail_rec` gives `load_tail`. -/
theorem load_tail_rec_erase (s : State) (tr : List (Nat × Nat)) (pgdir : Option Nat)
    (end_ start la : Nat) (page : Option Nat) :
    Except.map Prod.fst (load_tail_rec s tr pgdir end_ start la page) =
      load_tail s pgdir end_ start la page := by
  unfold load_tail_rec load_tail
  by_cases hlt : start < la
  · rw [if_pos hlt, if_pos hlt]
    by_cases heq : start = end_
    · rw [if_pos heq, if_pos heq]
      rfl
    · rw [if_neg heq, if_neg heq]
      cases page with
      | none => rfl
      | some pg =>
        simp only [page_memset_rec]
        split_ifs <;> rfl
  · rw [if_neg hlt, if_neg hlt]
    rfl

theorem map_fst_ok {α β : Type} {x : Except Err (α × β)} {a : α} {b : β}
    (h : x = .ok (a, b)) : Except.map Prod.fst x = .ok a := by
  rw [h]
  rfl

theorem map_fst_error {α β : Type} {x : Except Err (α × β)} {e : Err}
    (h : x = .error e) : Except.map Prod.fst x = (.error e : Except Err α) := by
  rw [h]
  rfl

/-- Dropping the record from `load_pages_rec` gives `load_pages`: the calls recorded are the
calls of `memcpy` and `memset` that `load_pages` makes. -/
theorem load_pages_rec_erase (fuel : Nat) (s : State) (env : ExecEnv) (img : binary)
    (pgdir : Option Nat) (ph : proghdr) :
    Except.map Prod.fst (load_pages_rec fuel s env img pgdir ph) =
      load_pages fuel s env img pgdir ph := by
  unfold load_pages_rec load_pages
  dsimp only
  cases hc : load_copy_rec env img pgdir (seg_perm ph) (wrap32 (ph.p_va + ph.p_filesz)) fuel s
      [] ph.p_va (ROUNDDOWN ph.p_va PGSIZE) ph.p_offset none with
  | error e =>
    have h1 := map_fst_error hc
    rw [load_copy_rec_erase] at h1
    rw [h1]
    rfl
  | ok x =>
    obtain ⟨step, tr⟩ := x
    have h1 := map_fst_ok hc
    rw [load_copy_rec_erase] at h1
    rw [h1]
    cases step with
    | bad s1 => rfl
    | next s1 st la pg =>
      simp only [ok_bind]
      cases ht : load_tail_rec s1 tr pgdir (wrap32 (ph.p_va + ph.p_memsz)) st la pg with
      | error e =>
        have h2 := map_fst_error ht
        rw [load_tail_rec_erase] at h2
        rw [h2]
        rfl
      | ok y =>
        obtain ⟨⟨r, s2⟩, tr2⟩ := y
        have h2 := map_fst_ok ht
        rw [load_tail_rec_erase] at h2
        rw [h2]
        cases r with
        | none => rfl
        | some st2 =>
          simp only [ok_bind]
          cases hb : load_bss_rec env pgdir (seg_perm ph) (wrap32 (ph.p_va + ph.p_memsz)) fuel
              s2 tr2 st2 la pg with
          | error e =>
            have h3 := map_fst_error hb
            rw [load_bss_rec_erase] at h3
            rw [h3]
            rfl
          | ok z =>
            obtain ⟨step2, tr3⟩ := z
            have h3 := map_fst_ok hb
            rw [load_bss_rec_erase] at h3
            rw [h3]
            cases step2 <;> rfl

/-- The calls of `memcpy` that the loop (3.6.1) records stay inside their pages. -/
theorem load_copy_rec_le (env : ExecEnv) (img : binary) (pgdir : Option Nat)
    (perm end_ : Nat) :
    ∀ (fuel : Nat) (s : State) (tr : List (Nat × Nat)) (start la src : Nat)
      (page : Option Nat), la % PGSIZE = 0 → la < 2 ^ 32 →
      (start < end_ → la ≤ start ∧ start < la + PGSIZE) →
      (∀ p ∈ tr, p.1 + p.2 ≤ PGSIZE) →
      ∀ x tr2, load_copy_rec env img pgdir perm end_ fuel s tr start la src page =
          .ok (x, tr2) → ∀ p ∈ tr2, p.1 + p.2 ≤ PGSIZE := by
  intro fuel
  induction fuel with
  | zero =>
    intro s tr start la src page _ _ _ _ x tr2 h
    simp [load_copy_rec] at h
  | succ fuel ih =>
    intro s tr start la src page hla hs hin htr x tr2 h
    rw [load_copy_rec] at h
    by_cases h3 : start < end_
    · obtain ⟨r1, r2, r3, r4, -⟩ := round_ops hla (hin h3).1 (hin h3).2 h3 hs
      rw [if_pos h3] at h
      cases hpa : env.page_alloc la with
      | none =>
        simp only [hpa, pgdir_alloc_page, Except.ok.injEq, Prod.mk.injEq] at h
        rw [← h.2]
        exact htr
      | some data =>
        simp only [hpa, pgdir_alloc_page, page_memcpy_rec] at h
        refine ih _ _ _ _ _ _ r2 r3 (fun hlt => ?_) ?_ x tr2 h
        · have e := r4 hlt
          exact ⟨by rw [e], by rw [e]; simp [PGSIZE]⟩
        · intro p hp
          rcases List.mem_append.mp hp with hp | hp
          · exact htr p hp
          · rw [List.mem_singleton.mp hp]
            dsimp only
            exact r1
    · rw [if_neg h3] at h
      simp only [Except.ok.injEq, Prod.mk.injEq] at h
      rw [← h.2]
      exact htr

/-- The calls of `memset` that the second loop of step (3.6.2) records stay inside their
pages. -/
theorem load_bss_rec_le (env : ExecEnv) (pgdir : Option Nat) (perm end_ : Nat) :
    ∀ (fuel : Nat) (s : State) (tr : List (Nat × Nat)) (start la : Nat)
      (page : Option Nat), la % PGSIZE = 0 → la < 2 ^ 32 →
      (start < end_ → la ≤ start ∧ start < la + PGSIZE) →
      (∀ p ∈ tr, p.1 + p.2 ≤ PGSIZE) →
      ∀ x tr2, load_bss_rec env pgdir perm end_ fuel s tr start la page = .ok (x, tr2) →
        ∀ p ∈ tr2, p.1 + p.2 ≤ PGSIZE := by
  intro fuel
  induction fuel with
  | zero =>
    intro s tr start la page _ _ _ _ x tr2 h
    simp [load_bss_rec] at h
  | succ fuel ih =>
    intro s tr start la page hla hs hin htr x tr2 h
    rw [load_bss_rec] at h
    by_cases h3 : start < end_
    · obtain ⟨r1, r2, r3, r4, -⟩ := round_ops hla (hin h3).1 (hin h3).2 h3 hs
      rw [if_pos h3] at h
      cases hpa : env.page_alloc la with
      | none =>
        simp only [hpa, pgdir_alloc_page, Except.ok.injEq, Prod.mk.injEq] at h
        rw [← h.2]
        exact htr
      | some data =>
        simp only [hpa, pgdir_alloc_page, page_memset_rec] at h
        refine ih _ _ _ _ _ r2 r3 (fun hlt => ?_) ?_ x tr2 h
        · have e := r4 hlt
          exact ⟨by rw [e], by rw [e]; simp [PGSIZE]⟩
        · intro p hp
          rcases List.mem_append.mp hp with hp | hp
          · exact htr p hp
          · rw [List.mem_singleton.mp hp]
            dsimp only
            exact r1
    · rw [if_neg h3] at h
      simp only [Except.ok.injEq, Prod.mk.injEq] at h
      rw [← h.2]
      exact htr

/-- Every call of `memcpy` and `memset` that steps (3.6.1) and (3.6.2) make for a header
with `0 < p_filesz <= p_memsz` whose segment ends below 2^32 stays inside its page. -/
theorem load_pages_rec_le (fuel : Nat) (s : State) (env : ExecEnv) (img : binary)
    (pgdir : Option Nat) (ph : proghdr) (hfs : 0 < ph.p_filesz)
    (hfm : ph.p_filesz ≤ ph.p_memsz) (hno : ph.p_va + ph.p_memsz < 2 ^ 32) :
    ∀ x tr, load_pages_rec fuel s env img pgdir ph = .ok (x, tr) →
      ∀ p ∈ tr, p.1 + p.2 ≤ PGSIZE := by
  have hP : PGSIZE = 4096 := rfl
  have hw1 : wrap32 (ph.p_va + ph.p_filesz) = ph.p_va + ph.p_filesz := wrap32_of_lt (by omega)
  have hw2 : wrap32 (ph.p_va + ph.p_memsz) = ph.p_va + ph.p_memsz := wrap32_of_lt hno
  have hrd : ROUNDDOWN ph.p_va PGSIZE = ph.p_va - ph.p_va % 4096 := rfl
  intro x tr h
  unfold load_pages_rec at h
  dsimp only at h
  cases hc : load_copy_rec env img pgdir (seg_perm ph) (wrap32 (ph.p_va + ph.p_filesz)) fuel s
      [] ph.p_va (ROUNDDOWN ph.p_va PGSIZE) ph.p_offset none with
  | error e => simp [hc] at h
  | ok y =>
    obtain ⟨step, tr1⟩ := y
    have hle1 := load_copy_rec_le env img pgdir (seg_perm ph) _ fuel s [] ph.p_va
      (ROUNDDOWN ph.p_va PGSIZE) ph.p_offset none (by rw [hrd, hP]; omega) (by rw [hrd]; omega)
      (fun _ => ⟨by rw [hrd]; omega, by rw [hrd, hP]; omega⟩) (by simp) step tr1 hc
    have hcopy := map_fst_ok hc
    rw [load_copy_rec_erase] at hcopy
    simp only [hc, ok_bind] at h
    cases step with
    | bad s1 =>
      simp only [Except.ok.injEq, Prod.mk.injEq] at h
      rw [← h.2]
      exact hle1
    | next s1 st la pg =>
      obtain ⟨e1, e2, e3, e4, e5, e6, e7⟩ := load_copy_exit env img pgdir (seg_perm ph) _ fuel s
        ph.p_va (ROUNDDOWN ph.p_va PGSIZE) ph.p_offset none (by rw [hrd, hP]; omega)
        (by rw [hrd]; omega) (by rw [hrd, hP]; omega) (by rw [hw1]; omega)
        (by rw [hrd]; omega) s1 st la pg hcopy
      rw [hw1] at e1 e3 e4
      subst e7
      dsimp only at h
      cases ht : load_tail_rec s1 tr1 pgdir (wrap32 (ph.p_va + ph.p_memsz)) st la
          (some (la - PGSIZE)) with
      | error e => simp [ht] at h
      | ok z =>
        obtain ⟨⟨r, s2⟩, tr2⟩ := z
        simp only [ht, ok_bind] at h
        -- the record and the new `start` after the `if (start < la)` block
        have htail : (∀ p ∈ tr2, p.1 + p.2 ≤ PGSIZE) ∧
            ∀ st2, r = some st2 →
              (st2 < wrap32 (ph.p_va + ph.p_memsz) → la ≤ st2 ∧ st2 < la + PGSIZE) := by
          unfold load_tail_rec at ht
          by_cases hlt : st < la
          · rw [if_pos hlt] at ht
            by_cases heq : st = wrap32 (ph.p_va + ph.p_memsz)
            · rw [if_pos heq] at ht
              simp only [Except.ok.injEq, Prod.mk.injEq] at ht
              obtain ⟨⟨rfl, -⟩, rfl⟩ := ht
              exact ⟨hle1, fun st2 h0 => by cases h0⟩
            · rw [if_neg heq] at ht
              obtain ⟨t1, t2⟩ := tail_ops e2 e6 hlt (by omega)
                (show st ≤ wrap32 (ph.p_va + ph.p_memsz) by rw [hw2]; omega)
                (by rw [hw2]; exact hno)
              simp only [page_memset_rec] at ht
              rw [if_pos t2] at ht
              simp only [Except.ok.injEq, Prod.mk.injEq] at ht
              obtain ⟨⟨hr, -⟩, rfl⟩ := ht
              refine ⟨?_, ?_⟩
              · intro p hp
                rcases List.mem_append.mp hp with hp | hp
                · exact hle1 p hp
                · rw [List.mem_singleton.mp hp]
                  dsimp only
                  exact t1
              · intro st2 h0
                rw [← hr] at h0
                simp only [Option.some.injEq] at h0
                intro hlt2
                rcases t2 with ⟨-, t3⟩ | ⟨-, t3⟩
                · rw [← h0, t3] at hlt2
                  exact absurd hlt2 (lt_irrefl _)
                · rw [← h0, t3]
                  exact ⟨le_refl _, by rw [hP]; omega⟩
          · rw [if_neg hlt] at ht
            simp only [Except.ok.injEq, Prod.mk.injEq] at ht
            obtain ⟨⟨hr, -⟩, rfl⟩ := ht
            refine ⟨hle1, ?_⟩
            intro st2 h0
            rw [← hr] at h0
            simp only [Option.some.injEq] at h0
            intro _
            rw [← h0]
            exact ⟨by omega, by rw [hP]; omega⟩
        cases r with
        | none =>
          simp only [Except.ok.injEq, Prod.mk.injEq] at h
          rw [← h.2]
          exact htail.1
        | some st2 =>
          dsimp only at h
          cases hb : load_bss_rec env pgdir (seg_perm ph) (wrap32 (ph.p_va + ph.p_memsz)) fuel
              s2 tr2 st2 la (some (la - PGSIZE)) with
          | error e => simp [hb] at h
          | ok w =>
            obtain ⟨step2, tr3⟩ := w
            have hle3 := load_bss_rec_le env pgdir (seg_perm ph) _ fuel s2 tr2 st2 la
              (some (la - PGSIZE)) e2 e6 (htail.2 st2 rfl) htail.1 step2 tr3 hb
            simp only [hb, ok_bind] at h
            cases step2 with
            | bad s3 =>
              simp only [Except.ok.injEq, Prod.mk.injEq] at h
              rw [← h.2]
              exact hle3
            | next s3 a b c =>
              simp only [Except.ok.injEq, Prod.mk.injEq] at h
              rw [← h.2]
              exact hle3

/-- A range that `mm_map` accepts and that does not wrap ends at least a page below 2^32:
it lies below `USERTOP`. -/
theorem mm_map_bound (s : State) (mm addr len fl : Nat) (ok : Bool)
    (h : (mm_map s mm addr len fl ok).1 = 0) (hno : addr + len < 2 ^ 32) :
    addr + len + PGSIZE ≤ 2 ^ 32 := by
  by_cases hu : USER_ACCESS (ROUNDDOWN addr PGSIZE) (ROUNDUP (wrap32 (addr + len)) PGSIZE)
  · simp only [USER_ACCESS, ROUNDUP, ROUNDDOWN, wrap32, USERBASE, USERTOP,
      show PGSIZE = 4096 from rfl] at hu ⊢
    omega
  · exfalso
    unfold mm_map at h
    dsimp only at h
    rw [if_pos hu] at h
    simp [E_INVAL] at h

end Ucore

namespace Ucore

/-- Claim C34.  The assertion in the BSS step of `load_icode` never fails.  For every program
header with `0 < p_filesz <= p_memsz` and `p_va + p_memsz < 2^32`, whatever the state, the
image and the answers of the allocator: steps (3.6.1) and (3.6.2), alone or behind the
`mm_map` of step (3.5), never stop at the assertion; whenever the file-copy loop comes to
its end, `start == p_va + p_filesz`, `la` is the first page boundary not below it, and
`page` is the page right below `la`, handed out by the loop, which holds the last file byte;
the `if (start < la)` block then returns, by `continue` exactly when `start < la` and
`p_filesz == p_memsz`, and otherwise with a `start` for which
`(end < la && start == end) || (end >= la && start == la)` holds if the block was entered;
and `off + size <= PGSIZE` in every `memcpy` and `memset` of the segment: `load_pages_rec`
is `load_pages` with the `(off, size)` of each call recorded at the call, dropping the
record gives `load_pages` back, and every pair recorded satisfies the bound.  The copy loop
does come to its end when the segment ends a page below 2^32, as every range that `mm_map`
accepts does (`mm_map_bound`), every page allocation succeeds and the fuel suffices. -/
theorem bss_assert_holds (ph : proghdr) (fuel : Nat) (s : State) (env : ExecEnv)
    (img : binary) (pgdir : Option Nat) (mm : Nat) (hfs : 0 < ph.p_filesz)
    (hfm : ph.p_filesz ≤ ph.p_memsz) (hno : ph.p_va + ph.p_memsz < 2 ^ 32) :
    load_pages fuel s env img pgdir ph ≠ .error .assert_failed ∧
    load_segment fuel s env img mm ph ≠ .error .assert_failed ∧
    (∀ s1 st la pg, load_copy env img pgdir (seg_perm ph) (wrap32 (ph.p_va + ph.p_filesz))
        fuel s ph.p_va (ROUNDDOWN ph.p_va PGSIZE) ph.p_offset none = .ok (.next s1 st la pg) →
      st = ph.p_va + ph.p_filesz ∧ la % PGSIZE = 0 ∧ st ≤ la ∧ la < st + PGSIZE ∧
      pg = some (la - PGSIZE) ∧ ROUNDDOWN (st - 1) PGSIZE = la - PGSIZE ∧
      ∃ r s2, load_tail s1 pgdir (wrap32 (ph.p_va + ph.p_memsz)) st la pg = .ok (r, s2) ∧
        (r = none ↔ (st < la ∧ ph.p_filesz = ph.p_memsz)) ∧
        ∀ st2, r = some st2 →
          (st < la → (ph.p_va + ph.p_memsz < la ∧ st2 = ph.p_va + ph.p_memsz) ∨
            (ph.p_va + ph.p_memsz ≥ la ∧ st2 = la)) ∧
          (¬ st < la → st2 = st)) ∧
    Except.map Prod.fst (load_pages_rec fuel s env img pgdir ph) =
      load_pages fuel s env img pgdir ph ∧
    (∀ x tr, load_pages_rec fuel s env img pgdir ph = .ok (x, tr) →
      ∀ p ∈ tr, p.1 + p.2 ≤ PGSIZE) ∧
    (ph.p_va + ph.p_memsz + PGSIZE ≤ 2 ^ 32 → (∀ la, (env.page_alloc la).isSome) →
      2 ^ 20 < fuel → ∀ pd, ∃ s1 la, load_copy env img (some pd) (seg_perm ph)
        (wrap32 (ph.p_va + ph.p_filesz)) fuel s ph.p_va (ROUNDDOWN ph.p_va PGSIZE) ph.p_offset
          none = .ok (.next s1 (ph.p_va + ph.p_filesz) la (some (la - PGSIZE)))) := by
  have hP : PGSIZE = 4096 := rfl
  have hw1 : wrap32 (ph.p_va + ph.p_filesz) = ph.p_va + ph.p_filesz := wrap32_of_lt (by omega)
  have hw2 : wrap32 (ph.p_va + ph.p_memsz) = ph.p_va + ph.p_memsz := wrap32_of_lt hno
  have hrd : ROUNDDOWN ph.p_va PGSIZE = ph.p_va - ph.p_va % 4096 := rfl
  refine ⟨load_pages_no_assert fuel s env img pgdir ph hfs hfm hno, ?_, ?_,
    load_pages_rec_erase fuel s env img pgdir ph,
    load_pages_rec_le fuel s env img pgdir ph hfs hfm hno, ?_⟩
  · unfold load_segment
    dsimp only
    split_ifs
    · simp
    · exact load_pages_no_assert fuel _ env img _ ph hfs hfm hno
  · intro s1 st la pg hc
    obtain ⟨e1, e2, e3, e4, e5, e6, e7⟩ := load_copy_exit env img pgdir (seg_perm ph) _ fuel s
      ph.p_va (ROUNDDOWN ph.p_va PGSIZE) ph.p_offset none (by rw [hrd, hP]; omega)
      (by rw [hrd]; omega) (by rw [hrd, hP]; omega) (by rw [hw1]; omega)
      (by rw [hrd]; omega) s1 st la pg hc
    rw [hw1] at e1 e3 e4
    subst e7
    obtain ⟨r, s2, ht, hn, hr⟩ := load_tail_ok s1 pgdir (wrap32 (ph.p_va + ph.p_memsz)) st la
      e2 e6 (by omega) (by omega) (by rw [hw2]; omega) (by rw [hw2]; exact hno)
    rw [hw2] at hn hr
    refine ⟨e1, e2, by omega, by omega, rfl, ?_, r, s2, ht, ?_, hr⟩
    · show st - 1 - (st - 1) % PGSIZE = la - PGSIZE
      rw [hP] at e2 e4 e5 ⊢
      omega
    · rw [hn]
      constructor
      · rintro ⟨a, b⟩
        exact ⟨a, by omega⟩
      · rintro ⟨a, b⟩
        exact ⟨a, by omega⟩
  · intro hend hpa hfuel pd
    obtain ⟨s1, la1, hrun, -⟩ := load_copy_spec env img pd (seg_perm ph)
      (ph.p_va + ph.p_filesz) hpa (by omega) fuel s ph.p_va (ph.p_va - ph.p_va % 4096)
      ph.p_offset none (by rw [hP]; omega) (by omega) (by omega) (by omega)
      (by rw [hP]; omega)
    exact ⟨s1, la1, by rw [hw1, hrd]; exact hrun⟩

theorem bss_assert_holds_witness :
    load_pages 2000000 child_running exec_env demo_image (some 0xC0400000) demo_header ≠
      .error .assert_failed ∧
    (∃ s1, load_copy exec_env demo_image (some 0xC0400000) (seg_perm demo_header)
      (wrap32 (0x800020 + 0x1800)) 2000000 child_running 0x800020 (ROUNDDOWN 0x800020 PGSIZE)
        0x1000 none = .ok (.next s1 0x801820 0x802000 (some 0x801000))) ∧
    ∃ s2, load_pages_rec 2000000 child_running exec_env demo_image (some 0xC0400000)
        demo_header =
        .ok ((0, s2), [(0x20, 0xFE0), (0, 0x820), (0x820, 0x7E0), (0, 0x1000), (0, 0x20)]) ∧
      load_pages 2000000 child_running exec_env demo_image (some 0xC0400000) demo_header =
        .ok (0, s2) ∧
      ∀ p ∈ [(0x20, 0xFE0), (0, 0x820), (0x820, 0x7E0), (0, 0x1000), (0, 0x20)],
        p.1 + p.2 ≤ PGSIZE := by
  have hP : PGSIZE = 4096 := rfl
  have hrec : (match load_pages_rec 2000000 child_running exec_env demo_image
        (some 0xC0400000) demo_header with
      | .ok ((r, _), tr) => decide (r = 0 ∧
          tr = [(0x20, 0xFE0), (0, 0x820), (0x820, 0x7E0), (0, 0x1000), (0, 0x20)])
      | .error _ => false) = true := by decide
  obtain ⟨h1, -, h3, h4, h5, h6⟩ := bss_assert_holds demo_header 2000000 child_running
    exec_env demo_image (some 0xC0400000) 0 (by decide) (by decide) (by decide)
  obtain ⟨s1, la, hrun⟩ := h6 (by decide) (fun _ => rfl) (by decide) 0xC0400000
  obtain ⟨-, e2, e3, e4, -⟩ := h3 s1 _ la _ hrun
  have e : la = 0x802000 := by
    have a1 : demo_header.p_va + demo_header.p_filesz = 0x801820 := by decide
    rw [a1] at e3 e4
    rw [hP] at e2 e4
    omega
  subst e
  refine ⟨h1, ⟨s1, hrun⟩, ?_⟩
  cases hx : load_pages_rec 2000000 child_running exec_env demo_image (some 0xC0400000)
      demo_header with
  | error e =>
    rw [hx] at hrec
    cases hrec
  | ok x =>
    obtain ⟨⟨r, s2⟩, tr⟩ := x
    rw [hx] at hrec
    obtain ⟨rfl, rfl⟩ := of_decide_eq_true hrec
    refine ⟨s2, rfl, ?_, h5 _ _ hx⟩
    rw [← h4, hx]
    rfl

end Ucore

namespace Ucore

/-! ## The machine `twin_exited` -/

/-- A `do_exit` followed by a switch to a RUNNABLE task. -/
theorem exit_run {s : State} (hr : Reachable s) (f : Nat) (error_code : Int) (next : Ptr)
    (hok : (match do_exit f s error_code with
      | .ok t =>
        (match schedule t next with
         | .ok _ => decide ((t.procs next).map (fun d => d.state) = some .PROC_RUNNABLE)
         | .error _ => false)
      | .error _ => false) = true) :
    ∃ t u, do_exit f s error_code = .ok t ∧ schedule t next = .ok u ∧ Reachable u := by
  cases hx : do_exit f s error_code with
  | error e =>
    rw [hx] at hok
    cases hok
  | ok t =>
    rw [hx] at hok
    dsimp only at hok
    cases hy : schedule t next with
    | error e =>
      rw [hy] at hok
      cases hok
    | ok u =>
      rw [hy] at hok
      have hrun : Runnable t next := runnable_of_map (by simpa using hok)
      exact ⟨t, u, rfl, hy, Reachable.exit f s t u error_code next hr hx hrun hy⟩

/-- A switch of the scheduler to a RUNNABLE task. -/
theorem resched_run {s : State} (hr : Reachable s) (next : Ptr)
    (hok : (match schedule s next with
      | .ok _ => decide ((s.procs next).map (fun d => d.state) = some .PROC_RUNNABLE)
      | .error _ => false) = true) :
    ∃ u, schedule s next = .ok u ∧ Reachable u := by
  cases hy : schedule s next with
  | error e =>
    rw [hy] at hok
    cases hok
  | ok u =>
    rw [hy] at hok
    have hrun : Runnable s next := runnable_of_map (by simpa using hok)
    exact ⟨u, rfl, Reachable.resched s u next hr hrun hy⟩

/-- The machine `twin_forked` is reachable. -/
theorem twin_forked_reach : Reachable twin_forked := by
  have hok : (match do_fork 20000 grand_forked fork_env_twin CLONE_VM 0 trapframe.zero with
      | .ok _ => (grand_forked.procs 500).isNone
      | .error _ => false) = true := by decide
  cases hx : do_fork 20000 grand_forked fork_env_twin CLONE_VM 0 trapframe.zero with
  | error e =>
    rw [hx] at hok
    cases hok
  | ok x =>
    obtain ⟨r, t⟩ := x
    rw [hx] at hok
    have e : twin_forked = t := by
      unfold twin_forked
      rw [hx]
    rw [e]
    refine Reachable.fork 20000 grand_forked t fork_env_twin CLONE_VM 0 trapframe.zero r
      grand_forked_spec.1 ?_ ?_ hx
    · intro p raw hp
      cases hp
      simpa using hok
    · intro m hm
      cases hm

/-- The machine `twin_running` is reachable. -/
theorem twin_running_reach : Reachable twin_running := by
  obtain ⟨u, h, hr⟩ := resched_run twin_forked_reach 400 (by decide)
  have e : twin_running = u := by
    unfold twin_running
    rw [h]
  rw [e]
  exact hr

/-- The machine `twin_one_exited` is reachable. -/
theorem twin_one_exited_reach : Reachable twin_one_exited := by
  obtain ⟨t, u, h1, h2, hr⟩ := exit_run twin_running_reach 20000 7 500 (by decide)
  have e : twin_one_exited = u := by
    unfold twin_one_exited
    rw [h1]
    dsimp only
    rw [h2]
  rw [e]
  exact hr

/-- The machine `twin_exited` is reachable. -/
theorem twin_exited_reach : Reachable twin_exited := by
  obtain ⟨t, u, h1, h2, hr⟩ := exit_run twin_one_exited_reach 20000 9 300 (by decide)
  have e : twin_exited = u := by
    unfold twin_exited
    rw [h1]
    dsimp only
    rw [h2]
  rw [e]
  exact hr

/-- The thread at 300 of `twin_exited` runs, and its child list is 500, 400, both zombies,
with the exit codes 9 and 7. -/
theorem twin_exited_spec :
    twin_exited.current = some 300 ∧ twin_exited.proc_list.length = 4 ∧
    (∃ dc, twin_exited.procs 300 = some dc ∧
      Chain twin_exited.procs 300 dc.cptr none [500, 400]) ∧
    (∀ x ∈ [500, 400], ∃ d, twin_exited.procs x = some d ∧ d.state = .PROC_ZOMBIE) ∧
    [500, 400].map (fun x => ((twin_exited.procs x).map (fun d => d.exit_code)).getD 0) =
      [9, 7] := by
  have a0 : (twin_exited.procs 300).map (fun d => d.cptr) = some (some 500) := by decide
  have a1 : (twin_exited.procs 500).map (fun d => (d.parent, d.yptr, d.optr, d.state)) =
      some (some 300, none, some 400, proc_state.PROC_ZOMBIE) := by decide
  have a2 : (twin_exited.procs 400).map (fun d => (d.parent, d.yptr, d.optr, d.state)) =
      some (some 300, some 500, none, proc_state.PROC_ZOMBIE) := by decide
  cases h3 : twin_exited.procs 300 with
  | none => rw [h3] at a0; cases a0
  | some dc =>
    cases h5 : twin_exited.procs 500 with
    | none => rw [h5] at a1; cases a1
    | some d5 =>
      cases h4 : twin_exited.procs 400 with
      | none => rw [h4] at a2; cases a2
      | some d4 =>
        rw [h3] at a0
        rw [h5] at a1
        rw [h4] at a2
        simp only [Option.map_some', Option.some.injEq, Prod.mk.injEq] at a0 a1 a2
        obtain ⟨b1, b2, b3, b4⟩ := a1
        obtain ⟨c1, c2, c3, c4⟩ := a2
        refine ⟨by decide, by decide, ⟨dc, rfl, ?_⟩, ?_, by decide⟩
        · exact ⟨a0, d5, h5, b1, b2, b3, d4, h4, c1, c2, c3⟩
        · intro x hx
          simp only [List.mem_cons, List.mem_singleton, List.not_mem_nil, or_false] at hx
          rcases hx with rfl | rfl
          · exact ⟨d5, h5, b4⟩
          · exact ⟨d4, h4, c4⟩

end Ucore

namespace Ucore

theorem wait_reaps_all_witness :
    ∃ dc, twin_exited.procs 300 = some dc ∧
      Chain twin_exited.procs 300 dc.cptr none [500, 400] ∧
      ∃ (order : List Ptr) (cs : List Int) (s' : State),
        wait_n 20000 7 2 twin_exited = .ok (cs, s') ∧ order.Perm [500, 400] ∧ order.Nodup ∧
        cs = order.map
          (fun x => ((twin_exited.procs x).map (fun d => d.exit_code)).getD 0) ∧
        cs.Perm [9, 7] ∧
        (∀ x ∈ [500, 400], s'.procs x = none ∧ x ∉ s'.proc_list) ∧
        (∃ dc', s'.procs 300 = some dc' ∧ dc'.cptr = none) ∧
        s'.nr_process + 2 = twin_exited.nr_process := by
  obtain ⟨hcur, hlen, ⟨dc, hdc, hch⟩, hz, hcodes⟩ := twin_exited_spec
  obtain ⟨order, cs, s', h1, h2, h3, h4, h5, h6, h7, h8⟩ :=
    wait_reaps_all twin_exited 20000 7 300 dc [500, 400] twin_exited_reach hcur hdc hch hz
      (by rw [hlen]; decide)
  rw [hcodes] at h5
  exact ⟨dc, hdc, hch, order, cs, s', h1, h2, h3, h4, h5, h6, h7, h8⟩

end Ucore
